import Mathlib

/-!
# CRoaring: the bitmap layer (`src/roaring.c`) over an abstract container layer

A roaring bitmap stores a subset of `[0, 2^32)`.  A value `v` is split into the
high key `v >> 16` and the low part `v & 0xFFFF`; the directory
(`roaring_array_t`) maps each used high key to one container holding the low
parts.

* Machine integers are `Nat`; casts to `uint16_t` are written `% 65536`,
  shifts `>> 16` are `/ 65536`, and `& 0xFFFF` is `% 65536`.
* The directory's parallel arrays `keys[i]`, `containers[i]`, `typecodes[i]`
  (`i < size`) are one list of entries `(key, container)`; the typecode is part
  of the container value.
* The container layer (`containers/*.c`, `containers.h`) and the directory
  primitives (`roaring_array.c`) are not among the sources.  Container
  operations are a parameter (`ContainerOps`), their contracts are explicit
  hypotheses of the theorems; directory primitives are modelled from the
  specification.
* Copy-on-write sharing, reference counts, allocation and freeing do not change
  the contents of any container and are not modelled: `get_copy_of_container`,
  `ra_unshare_container_at_index` and `roaring_bitmap_copy` are the identity on
  contents.
* A null container pointer is `none`.  The slots that `ra_shift_tail` opens
  hold unspecified entries, given by a parameter `junk`; the theorems hold for
  every `junk`.
* The loops of `roaring_bitmap_from_range` are bounded by a `fuel` argument;
  the result `none` means that the call has not returned within the fuel.
-/

namespace CRoaring

/-! ## Container layer (parameter) -/

/-- Typecode of a bitset container (`BITSET_CONTAINER_TYPE_CODE`). -/
def BITSET_CONTAINER_TYPE_CODE : Nat := 1
/-- Typecode of an array container (`ARRAY_CONTAINER_TYPE_CODE`). -/
def ARRAY_CONTAINER_TYPE_CODE : Nat := 2
/-- Typecode of a run container (`RUN_CONTAINER_TYPE_CODE`). -/
def RUN_CONTAINER_TYPE_CODE : Nat := 3
/-- Largest cardinality of an array container (`DEFAULT_MAX_SIZE`). -/
def DEFAULT_MAX_SIZE : Nat := 4096

/-- The container-level functions called by `roaring.c`.  A value of `C` is a
container together with its typecode.  `container_add` also reports whether the
returned pointer differs from its argument (the C code compares pointers). -/
structure ContainerOps (C : Type) where
  /-- The typecode of a container (`get_container_type`). -/
  get_container_type : C → Nat
  /-- Membership of a 16-bit value (`container_contains`). -/
  container_contains : C → Nat → Bool
  /-- Number of values (`container_get_cardinality`). -/
  container_get_cardinality : C → Nat
  /-- Non-emptiness test (`container_nonzero_cardinality`). -/
  container_nonzero_cardinality : C → Bool
  /-- Test for the full container (`container_is_full`). -/
  container_is_full : C → Bool
  /-- Test that all of `[range_start, range_end)` is present
  (`container_contains_range`). -/
  container_contains_range : C → Nat → Nat → Bool
  /-- Intersection (`container_and`). -/
  container_and : C → C → C
  /-- Union (`container_or`). -/
  container_or : C → C → C
  /-- Symmetric difference (`container_xor`). -/
  container_xor : C → C → C
  /-- Difference (`container_andnot`). -/
  container_andnot : C → C → C
  /-- A fresh empty array container (`array_container_create`). -/
  array_container_create : C
  /-- Insertion (`container_add`); the flag is `container2 != container`. -/
  container_add : C → Nat → C × Bool
  /-- Deletion (`container_remove`). -/
  container_remove : C → Nat → C
  /-- Complement over `[0, 2^16)` (`container_not`). -/
  container_not : C → C
  /-- Complement over `[range_start, range_end)` (`container_not_range`). -/
  container_not_range : C → Nat → Nat → C
  /-- The container holding exactly `[range_start, range_end)`
  (`container_range_of_ones`). -/
  container_range_of_ones : Nat → Nat → C
  /-- Addition of the closed interval `[min, max]` (`container_add_range`). -/
  container_add_range : C → Nat → Nat → C
  /-- Removal of the closed interval `[min, max]` (`container_remove_range`);
  `none` is the null pointer returned when nothing is left. -/
  container_remove_range : C → Nat → Nat → Option C
  /-- The container holding `min, min + step, ...` below `max`
  (`container_from_range`). -/
  container_from_range : Nat → Nat → Nat → C
  /-- Number of values not above `x` (`container_rank`). -/
  container_rank : C → Nat → Nat
  /-- Selection inside one container (`container_select`): the arguments are
  the container, `*start_rank`, `rank` and `*element`; the result is the
  returned flag with the new `*start_rank` and `*element`. -/
  container_select : C → Nat → Nat → Nat → Bool × Nat × Nat
  /-- Smallest value (`container_minimum`). -/
  container_minimum : C → Nat
  /-- Largest value (`container_maximum`). -/
  container_maximum : C → Nat
  /-- Cardinality of the intersection (`container_and_cardinality`). -/
  container_and_cardinality : C → C → Nat
  /-- Inclusion test (`container_is_subset`). -/
  container_is_subset : C → C → Bool
  /-- Intersection that may reuse its first argument (`container_iand`). -/
  container_iand : C → C → C
  /-- Difference that may reuse its first argument (`container_iandnot`). -/
  container_iandnot : C → C → C

/-! ## Directory (`roaring_array_t`) -/

/-- The directory: entries `(keys[i], containers[i])` for `i < size`. -/
abbrev roaring_array_t (C : Type) := List (Nat × C)

variable {C : Type}

/-- Number of directory entries (`ra_get_size`). -/
def ra_get_size (ra : roaring_array_t C) : Nat := ra.length

/-- Scan used by `ra_get_index`, `i` being the index of the head of the list. -/
def ra_get_index_from : roaring_array_t C → Nat → Nat → Int
  | [], _, i => -(i : Int) - 1
  | (k, _) :: t, x, i =>
    if k = x then (i : Int)
    else if k < x then ra_get_index_from t x (i + 1)
    else -(i : Int) - 1

/-- Modelled from the spec: `ra_get_index` of `roaring_array.c`, which is not
among the sources.  On strictly increasing keys it returns `i` with
`keys[i] = x` if there is one, and otherwise `-(insertion point) - 1`. -/
def ra_get_index (ra : roaring_array_t C) (x : Nat) : Int :=
  ra_get_index_from ra x 0

/-- Modelled from the spec: `ra_advance_until` of `roaring_array.c`: the first
`j ≥ pos` with `keys[j] ≥ x`, or `size` if there is none. -/
def ra_advance_until (ra : roaring_array_t C) (x : Nat) (pos : Nat) : Nat :=
  pos + ((ra.drop pos).takeWhile (fun e => decide (e.1 < x))).length

/-- Modelled from the spec: `ra_append` of `roaring_array.c`: a new last
entry. -/
def ra_append (ra : roaring_array_t C) (key : Nat) (c : C) : roaring_array_t C :=
  ra ++ [(key, c)]

/-- Modelled from the spec: `ra_insert_new_key_value_at` of `roaring_array.c`:
the entries from index `i` on are shifted right and `(key, c)` is stored at
index `i`. -/
def ra_insert_new_key_value_at (ra : roaring_array_t C) (i : Nat) (key : Nat) (c : C) :
    roaring_array_t C :=
  ra.take i ++ (key, c) :: ra.drop i

/-- Modelled from the spec: `ra_set_container_at_index` of `roaring_array.c`:
the container (and typecode) of entry `i` is replaced, its key is kept. -/
def ra_set_container_at_index (ra : roaring_array_t C) (i : Nat) (c : C) :
    roaring_array_t C :=
  match ra[i]? with
  | some e => ra.set i (e.1, c)
  | none => ra

/-- Modelled from the spec: `ra_remove_at_index` (and
`ra_remove_at_index_and_free`) of `roaring_array.c`: entry `i` is removed and
the tail shifted left. -/
def ra_remove_at_index (ra : roaring_array_t C) (i : Nat) : roaring_array_t C :=
  ra.eraseIdx i

/-- Modelled from the spec: `ra_append_copy_range` of `roaring_array.c`: copies
of the entries `start_index ≤ i < end_index` of `sa` are appended to `ra`. -/
def ra_append_copy_range (ra sa : roaring_array_t C) (start_index end_index : Nat) :
    roaring_array_t C :=
  ra ++ (sa.take end_index).drop start_index

/-- Modelled from the spec: `ra_append_copies_until` of `roaring_array.c`:
copies of the leading entries of `sa` whose key is below `stopping_key` are
appended to `ra`. -/
def ra_append_copies_until (ra sa : roaring_array_t C) (stopping_key : Nat) :
    roaring_array_t C :=
  ra ++ sa.takeWhile (fun e => decide (e.1 < stopping_key))

/-- Modelled from the spec: `ra_append_copies_after` of `roaring_array.c`:
copies of the entries of `sa` that come after key `before_start` are appended
to `ra`. -/
def ra_append_copies_after (ra sa : roaring_array_t C) (before_start : Nat) :
    roaring_array_t C :=
  ra ++ sa.dropWhile (fun e => decide (e.1 ≤ before_start))

/-! ## Bitmap (`roaring_bitmap_t`) -/

/-- A bitmap is its directory `high_low_container`. -/
structure roaring_bitmap_t (C : Type) where
  /-- The directory. -/
  high_low_container : roaring_array_t C

/-- The empty bitmap (`roaring_bitmap_create`,
`roaring_bitmap_create_with_capacity`). -/
def roaring_bitmap_create : roaring_bitmap_t C := ⟨[]⟩

/-- A copy with the same contents (`roaring_bitmap_copy`). -/
def roaring_bitmap_copy (r : roaring_bitmap_t C) : roaring_bitmap_t C :=
  ⟨r.high_low_container⟩

/-- Modelled from the spec: `roaring_bitmap_contains` is an inline function of
`roaring.h`, which is not among the sources: look up the high key, then ask
the container for the low part. -/
def roaring_bitmap_contains (ops : ContainerOps C) (r : roaring_bitmap_t C) (val : Nat) :
    Bool :=
  let hb := (val / 65536) % 65536
  let i := ra_get_index r.high_low_container hb
  if i < 0 then false
  else
    match r.high_low_container[i.toNat]? with
    | some e => ops.container_contains e.2 (val % 65536)
    | none => false

/-- Sum of the container cardinalities (`roaring_bitmap_get_cardinality`). -/
def roaring_bitmap_get_cardinality (ops : ContainerOps C) (ra : roaring_bitmap_t C) : Nat :=
  ra.high_low_container.foldl (fun card e => card + ops.container_get_cardinality e.2) 0

/-- The `while (pos1 < length1 && pos2 < length2)` loop of
`roaring_bitmap_and`. -/
def roaring_bitmap_and_loop (ops : ContainerOps C) (x1 x2 : roaring_array_t C)
    (pos1 pos2 : Nat) (answer : roaring_array_t C) : roaring_array_t C :=
  if h : pos1 < x1.length ∧ pos2 < x2.length then
    let s1 := (x1[pos1]).1
    let s2 := (x2[pos2]).1
    if s1 = s2 then
      let c := ops.container_and (x1[pos1]).2 (x2[pos2]).2
      if ops.container_nonzero_cardinality c then
        roaring_bitmap_and_loop ops x1 x2 (pos1 + 1) (pos2 + 1) (ra_append answer s1 c)
      else
        roaring_bitmap_and_loop ops x1 x2 (pos1 + 1) (pos2 + 1) answer
    else if h12 : s1 < s2 then
      roaring_bitmap_and_loop ops x1 x2 (ra_advance_until x1 s2 pos1) pos2 answer
    else
      roaring_bitmap_and_loop ops x1 x2 pos1 (ra_advance_until x2 s1 pos2) answer
  else answer
termination_by (x1.length - pos1) + (x2.length - pos2)
decreasing_by
  all_goals simp_wf
  · omega
  · omega
  · have hd : x1.drop pos1 = x1[pos1] :: x1.drop (pos1 + 1) := List.drop_eq_getElem_cons h.1
    have : 0 < ((x1.drop pos1).takeWhile (fun e => decide (e.1 < (x2[pos2]).1))).length := by
      rw [hd, List.takeWhile_cons_of_pos (by simpa using h12)]
      simp
    unfold ra_advance_until
    omega
  · have h21 : (x2[pos2]).1 < (x1[pos1]).1 := by omega
    have hd : x2.drop pos2 = x2[pos2] :: x2.drop (pos2 + 1) := List.drop_eq_getElem_cons h.2
    have : 0 < ((x2.drop pos2).takeWhile (fun e => decide (e.1 < (x1[pos1]).1))).length := by
      rw [hd, List.takeWhile_cons_of_pos (by simpa using h21)]
      simp
    unfold ra_advance_until
    omega

/-- Intersection of two bitmaps (`roaring_bitmap_and`). -/
def roaring_bitmap_and (ops : ContainerOps C) (x1 x2 : roaring_bitmap_t C) :
    roaring_bitmap_t C :=
  ⟨roaring_bitmap_and_loop ops x1.high_low_container x2.high_low_container 0 0
    (roaring_bitmap_create : roaring_bitmap_t C).high_low_container⟩

/-- The `while (true)` loop of `roaring_bitmap_or`, returning `pos1`, `pos2`
and the answer at the `break`.  The loop is entered with `pos1 < length1` and
`pos2 < length2` and every `break` tests `pos1 == length1` or
`pos2 == length2` right after an increment, so the tests are written as the
guard at the head; `s1`, `s2` are re-read from the positions. -/
def roaring_bitmap_or_loop (ops : ContainerOps C) (x1 x2 : roaring_array_t C)
    (pos1 pos2 : Nat) (answer : roaring_array_t C) : Nat × Nat × roaring_array_t C :=
  if h : pos1 < x1.length ∧ pos2 < x2.length then
    let s1 := (x1[pos1]).1
    let s2 := (x2[pos2]).1
    if s1 = s2 then
      let c := ops.container_or (x1[pos1]).2 (x2[pos2]).2
      roaring_bitmap_or_loop ops x1 x2 (pos1 + 1) (pos2 + 1) (ra_append answer s1 c)
    else if s1 < s2 then
      roaring_bitmap_or_loop ops x1 x2 (pos1 + 1) pos2 (ra_append answer s1 (x1[pos1]).2)
    else
      roaring_bitmap_or_loop ops x1 x2 pos1 (pos2 + 1) (ra_append answer s2 (x2[pos2]).2)
  else (pos1, pos2, answer)
termination_by (x1.length - pos1) + (x2.length - pos2)

/-- Union of two bitmaps (`roaring_bitmap_or`). -/
def roaring_bitmap_or (ops : ContainerOps C) (x1 x2 : roaring_bitmap_t C) :
    roaring_bitmap_t C :=
  let length1 := x1.high_low_container.length
  let length2 := x2.high_low_container.length
  if 0 = length1 then roaring_bitmap_copy x2
  else if 0 = length2 then roaring_bitmap_copy x1
  else
    let st := roaring_bitmap_or_loop ops x1.high_low_container x2.high_low_container 0 0
      (roaring_bitmap_create : roaring_bitmap_t C).high_low_container
    if st.1 = length1 then
      ⟨ra_append_copy_range st.2.2 x2.high_low_container st.2.1 length2⟩
    else if st.2.1 = length2 then
      ⟨ra_append_copy_range st.2.2 x1.high_low_container st.1 length1⟩
    else ⟨st.2.2⟩

/-- The `while (true)` loop of `roaring_bitmap_xor` (same shape as the loop of
`roaring_bitmap_or`; an empty `container_xor` result is not appended). -/
def roaring_bitmap_xor_loop (ops : ContainerOps C) (x1 x2 : roaring_array_t C)
    (pos1 pos2 : Nat) (answer : roaring_array_t C) : Nat × Nat × roaring_array_t C :=
  if h : pos1 < x1.length ∧ pos2 < x2.length then
    let s1 := (x1[pos1]).1
    let s2 := (x2[pos2]).1
    if s1 = s2 then
      let c := ops.container_xor (x1[pos1]).2 (x2[pos2]).2
      if ops.container_nonzero_cardinality c then
        roaring_bitmap_xor_loop ops x1 x2 (pos1 + 1) (pos2 + 1) (ra_append answer s1 c)
      else
        roaring_bitmap_xor_loop ops x1 x2 (pos1 + 1) (pos2 + 1) answer
    else if s1 < s2 then
      roaring_bitmap_xor_loop ops x1 x2 (pos1 + 1) pos2 (ra_append answer s1 (x1[pos1]).2)
    else
      roaring_bitmap_xor_loop ops x1 x2 pos1 (pos2 + 1) (ra_append answer s2 (x2[pos2]).2)
  else (pos1, pos2, answer)
termination_by (x1.length - pos1) + (x2.length - pos2)

/-- Symmetric difference of two bitmaps (`roaring_bitmap_xor`). -/
def roaring_bitmap_xor (ops : ContainerOps C) (x1 x2 : roaring_bitmap_t C) :
    roaring_bitmap_t C :=
  let length1 := x1.high_low_container.length
  let length2 := x2.high_low_container.length
  if 0 = length1 then roaring_bitmap_copy x2
  else if 0 = length2 then roaring_bitmap_copy x1
  else
    let st := roaring_bitmap_xor_loop ops x1.high_low_container x2.high_low_container 0 0
      (roaring_bitmap_create : roaring_bitmap_t C).high_low_container
    if st.1 = length1 then
      ⟨ra_append_copy_range st.2.2 x2.high_low_container st.2.1 length2⟩
    else if st.2.1 = length2 then
      ⟨ra_append_copy_range st.2.2 x1.high_low_container st.1 length1⟩
    else ⟨st.2.2⟩

/-- The `while (true)` loop of `roaring_bitmap_andnot`, returning `pos1`,
`pos2` and the answer at the `break` (the `break` tests are the guard at the
head, as for `roaring_bitmap_or_loop`). -/
def roaring_bitmap_andnot_loop (ops : ContainerOps C) (x1 x2 : roaring_array_t C)
    (pos1 pos2 : Nat) (answer : roaring_array_t C) : Nat × Nat × roaring_array_t C :=
  if h : pos1 < x1.length ∧ pos2 < x2.length then
    let s1 := (x1[pos1]).1
    let s2 := (x2[pos2]).1
    if s1 = s2 then
      let c := ops.container_andnot (x1[pos1]).2 (x2[pos2]).2
      if ops.container_nonzero_cardinality c then
        roaring_bitmap_andnot_loop ops x1 x2 (pos1 + 1) (pos2 + 1) (ra_append answer s1 c)
      else
        roaring_bitmap_andnot_loop ops x1 x2 (pos1 + 1) (pos2 + 1) answer
    else if h12 : s1 < s2 then
      let next_pos1 := ra_advance_until x1 s2 pos1
      roaring_bitmap_andnot_loop ops x1 x2 next_pos1 pos2
        (ra_append_copy_range answer x1 pos1 next_pos1)
    else
      roaring_bitmap_andnot_loop ops x1 x2 pos1 (ra_advance_until x2 s1 pos2) answer
  else (pos1, pos2, answer)
termination_by (x1.length - pos1) + (x2.length - pos2)
decreasing_by
  all_goals simp_wf
  · omega
  · omega
  · have hd : x1.drop pos1 = x1[pos1] :: x1.drop (pos1 + 1) := List.drop_eq_getElem_cons h.1
    have : 0 < ((x1.drop pos1).takeWhile (fun e => decide (e.1 < (x2[pos2]).1))).length := by
      rw [hd, List.takeWhile_cons_of_pos (by simpa using h12)]
      simp
    unfold ra_advance_until
    omega
  · have h21 : (x2[pos2]).1 < (x1[pos1]).1 := by omega
    have hd : x2.drop pos2 = x2[pos2] :: x2.drop (pos2 + 1) := List.drop_eq_getElem_cons h.2
    have : 0 < ((x2.drop pos2).takeWhile (fun e => decide (e.1 < (x1[pos1]).1))).length := by
      rw [hd, List.takeWhile_cons_of_pos (by simpa using h21)]
      simp
    unfold ra_advance_until
    omega

/-- Difference of two bitmaps (`roaring_bitmap_andnot`). -/
def roaring_bitmap_andnot (ops : ContainerOps C) (x1 x2 : roaring_bitmap_t C) :
    roaring_bitmap_t C :=
  let length1 := x1.high_low_container.length
  let length2 := x2.high_low_container.length
  if 0 = length1 then roaring_bitmap_create
  else if 0 = length2 then roaring_bitmap_copy x1
  else
    let st := roaring_bitmap_andnot_loop ops x1.high_low_container x2.high_low_container 0 0
      (roaring_bitmap_create : roaring_bitmap_t C).high_low_container
    if st.2.1 = length2 then
      ⟨ra_append_copy_range st.2.2 x1.high_low_container st.1 length1⟩
    else ⟨st.2.2⟩

/-- Insertion of a value, reporting whether it was new
(`roaring_bitmap_add_checked`).  When `container_add` works in place
(`container2 == container`) the directory entry holds the updated container,
so entry `i` is `container2` on both paths. -/
def roaring_bitmap_add_checked (ops : ContainerOps C) (r : roaring_bitmap_t C) (val : Nat) :
    roaring_bitmap_t C × Bool :=
  let hb := (val / 65536) % 65536
  let i := ra_get_index r.high_low_container hb
  if 0 ≤ i then
    match r.high_low_container[i.toNat]? with
    | some e =>
      let container := e.2
      let oldCardinality := ops.container_get_cardinality container
      let container2 := ops.container_add container (val % 65536)
      if container2.2 then
        (⟨ra_set_container_at_index r.high_low_container i.toNat container2.1⟩, true)
      else
        let newCardinality := ops.container_get_cardinality container2.1
        (⟨ra_set_container_at_index r.high_low_container i.toNat container2.1⟩,
          oldCardinality != newCardinality)
    | none => (r, false)
  else
    let newac := ops.array_container_create
    let container := (ops.container_add newac (val % 65536)).1
    (⟨ra_insert_new_key_value_at r.high_low_container (-i - 1).toNat hb container⟩, true)

/-- Insertion of a value (`roaring_bitmap_add`). -/
def roaring_bitmap_add (ops : ContainerOps C) (r : roaring_bitmap_t C) (val : Nat) :
    roaring_bitmap_t C :=
  let hb := (val / 65536) % 65536
  let i := ra_get_index r.high_low_container hb
  if 0 ≤ i then
    match r.high_low_container[i.toNat]? with
    | some e =>
      let container2 := ops.container_add e.2 (val % 65536)
      ⟨ra_set_container_at_index r.high_low_container i.toNat container2.1⟩
    | none => r
  else
    let newac := ops.array_container_create
    let container := (ops.container_add newac (val % 65536)).1
    ⟨ra_insert_new_key_value_at r.high_low_container (-i - 1).toNat hb container⟩

/-- Deletion of a value, reporting whether it was present
(`roaring_bitmap_remove_checked`). -/
def roaring_bitmap_remove_checked (ops : ContainerOps C) (r : roaring_bitmap_t C)
    (val : Nat) : roaring_bitmap_t C × Bool :=
  let hb := (val / 65536) % 65536
  let i := ra_get_index r.high_low_container hb
  if 0 ≤ i then
    match r.high_low_container[i.toNat]? with
    | some e =>
      let container := e.2
      let oldCardinality := ops.container_get_cardinality container
      let container2 := ops.container_remove container (val % 65536)
      let newCardinality := ops.container_get_cardinality container2
      if newCardinality != 0 then
        (⟨ra_set_container_at_index r.high_low_container i.toNat container2⟩,
          oldCardinality != newCardinality)
      else
        (⟨ra_remove_at_index r.high_low_container i.toNat⟩,
          oldCardinality != newCardinality)
    | none => (r, false)
  else (r, false)

/-- Deletion of a value (`roaring_bitmap_remove`). -/
def roaring_bitmap_remove (ops : ContainerOps C) (r : roaring_bitmap_t C) (val : Nat) :
    roaring_bitmap_t C :=
  let hb := (val / 65536) % 65536
  let i := ra_get_index r.high_low_container hb
  if 0 ≤ i then
    match r.high_low_container[i.toNat]? with
    | some e =>
      let container2 := ops.container_remove e.2 (val % 65536)
      if ops.container_get_cardinality container2 != 0 then
        ⟨ra_set_container_at_index r.high_low_container i.toNat container2⟩
      else
        ⟨ra_remove_at_index r.high_low_container i.toNat⟩
    | none => r
  else r

/-- Test that every value of `[range_start, range_end)` is present
(`roaring_bitmap_contains_range`).  The result is `none` when the C code reads
a directory entry out of bounds, which is where `assert(ie < hlc_sz)`
fails. -/
def roaring_bitmap_contains_range (ops : ContainerOps C) (r : roaring_bitmap_t C)
    (range_start range_end : Nat) : Option Bool :=
  let range_end := if range_end ≥ 0x100000000 then 0x100000000 else range_end
  if range_start ≥ range_end then some true
  else if range_end - range_start = 1 then
    some (roaring_bitmap_contains ops r (range_start % 0x100000000))
  else
    let hb_rs := (range_start / 65536) % 65536
    let hb_re := ((range_end - 1) / 65536) % 65536
    let span : Int := (hb_re : Int) - (hb_rs : Int)
    let hlc_sz : Int := (ra_get_size r.high_low_container : Int)
    if hlc_sz < span + 1 then some false
    else
      let is := ra_get_index r.high_low_container hb_rs
      let ie0 := ra_get_index r.high_low_container hb_re
      let ie := if ie0 < 0 then -ie0 - 1 else ie0
      if is < 0 ∨ ie - is ≠ span then some false
      else
        let lb_rs := range_start % 65536
        let lb_re := (range_end - 1) % 65536 + 1
        match r.high_low_container[is.toNat]? with
        | none => none
        | some e_is =>
          if hb_rs = hb_re then some (ops.container_contains_range e_is.2 lb_rs lb_re)
          else if !ops.container_contains_range e_is.2 lb_rs 65536 then some false
          else
            match r.high_low_container[ie.toNat]? with
            | none => none
            | some e_ie =>
              if !ops.container_contains_range e_ie.2 0 lb_re then some false
              else
                some ((List.range' (is.toNat + 1) (ie.toNat - (is.toNat + 1))).all
                  (fun i =>
                    match r.high_low_container[i]? with
                    | some e => ops.container_is_full e.2
                    | none => false))

/-- Flip of the low range `[lb_start, lb_end]` under key `hb`, appended to the
answer (`insert_flipped_container`). -/
def insert_flipped_container (ops : ContainerOps C) (ans_arr x1_arr : roaring_array_t C)
    (hb lb_start lb_end : Nat) : roaring_array_t C :=
  let i := ra_get_index x1_arr hb
  let j := ra_get_index ans_arr hb
  if 0 ≤ i then
    match x1_arr[i.toNat]? with
    | some e =>
      let flipped_container := ops.container_not_range e.2 lb_start (lb_end + 1)
      if ops.container_get_cardinality flipped_container ≠ 0 then
        ra_insert_new_key_value_at ans_arr (-j - 1).toNat hb flipped_container
      else ans_arr
    | none => ans_arr
  else
    let flipped_container := ops.container_range_of_ones lb_start (lb_end + 1)
    ra_insert_new_key_value_at ans_arr (-j - 1).toNat hb flipped_container

/-- Flip of the whole container under key `hb`, appended to the answer
(`insert_fully_flipped_container`). -/
def insert_fully_flipped_container (ops : ContainerOps C)
    (ans_arr x1_arr : roaring_array_t C) (hb : Nat) : roaring_array_t C :=
  let i := ra_get_index x1_arr hb
  let j := ra_get_index ans_arr hb
  if 0 ≤ i then
    match x1_arr[i.toNat]? with
    | some e =>
      let flipped_container := ops.container_not e.2
      if ops.container_get_cardinality flipped_container ≠ 0 then
        ra_insert_new_key_value_at ans_arr (-j - 1).toNat hb flipped_container
      else ans_arr
    | none => ans_arr
  else
    let flipped_container := ops.container_range_of_ones 0 0x10000
    ra_insert_new_key_value_at ans_arr (-j - 1).toNat hb flipped_container

/-- Complement of a bitmap over `[range_start, range_end)`
(`roaring_bitmap_flip`).  `hb_start` and `hb_end` are `uint16_t` in the C
code, so their updates are taken modulo `2^16`. -/
def roaring_bitmap_flip (ops : ContainerOps C) (x1 : roaring_bitmap_t C)
    (range_start range_end : Nat) : roaring_bitmap_t C :=
  if range_start ≥ range_end then roaring_bitmap_copy x1
  else
    let range_end := if range_end ≥ 0x100000000 then 0x100000000 else range_end
    let ans : roaring_bitmap_t C := roaring_bitmap_create
    let hb_start := (range_start / 65536) % 65536
    let lb_start := range_start % 65536
    let hb_end := ((range_end - 1) / 65536) % 65536
    let lb_end := (range_end - 1) % 65536
    let ans1 := ra_append_copies_until ans.high_low_container x1.high_low_container hb_start
    if hb_start = hb_end then
      let ans2 := insert_flipped_container ops ans1 x1.high_low_container hb_start
        lb_start lb_end
      ⟨ra_append_copies_after ans2 x1.high_low_container hb_end⟩
    else
      let ans2 :=
        if lb_start > 0 then
          insert_flipped_container ops ans1 x1.high_low_container hb_start lb_start 0xFFFF
        else ans1
      let hb_start2 := if lb_start > 0 then (hb_start + 1) % 65536 else hb_start
      let hb_end2 := if lb_end ≠ 0xFFFF then (hb_end + 65535) % 65536 else hb_end
      let ans3 := (List.range' hb_start2 (hb_end2 + 1 - hb_start2)).foldl
        (fun a hb => insert_fully_flipped_container ops a x1.high_low_container hb) ans2
      let ans4 :=
        if lb_end ≠ 0xFFFF then
          insert_flipped_container ops ans3 x1.high_low_container
            ((hb_end2 + 1) % 65536) 0 lb_end
        else ans3
      let hb_end3 := if lb_end ≠ 0xFFFF then (hb_end2 + 1) % 65536 else hb_end2
      ⟨ra_append_copies_after ans4 x1.high_low_container hb_end3⟩

/-- In-place flip of the low range `[lb_start, lb_end]` under key `hb`
(`inplace_flip_container`). -/
def inplace_flip_container (ops : ContainerOps C) (x1_arr : roaring_array_t C)
    (hb lb_start lb_end : Nat) : roaring_array_t C :=
  let i := ra_get_index x1_arr hb
  if 0 ≤ i then
    match x1_arr[i.toNat]? with
    | some e =>
      let flipped_container := ops.container_not_range e.2 lb_start (lb_end + 1)
      if ops.container_get_cardinality flipped_container ≠ 0 then
        ra_set_container_at_index x1_arr i.toNat flipped_container
      else ra_remove_at_index x1_arr i.toNat
    | none => x1_arr
  else
    let flipped_container := ops.container_range_of_ones lb_start (lb_end + 1)
    ra_insert_new_key_value_at x1_arr (-i - 1).toNat hb flipped_container

/-- In-place flip of the whole container under key `hb`
(`inplace_fully_flip_container`). -/
def inplace_fully_flip_container (ops : ContainerOps C) (x1_arr : roaring_array_t C)
    (hb : Nat) : roaring_array_t C :=
  let i := ra_get_index x1_arr hb
  if 0 ≤ i then
    match x1_arr[i.toNat]? with
    | some e =>
      let flipped_container := ops.container_not e.2
      if ops.container_get_cardinality flipped_container ≠ 0 then
        ra_set_container_at_index x1_arr i.toNat flipped_container
      else ra_remove_at_index x1_arr i.toNat
    | none => x1_arr
  else
    let flipped_container := ops.container_range_of_ones 0 0x10000
    ra_insert_new_key_value_at x1_arr (-i - 1).toNat hb flipped_container

/-- In-place complement over `[range_start, range_end)`
(`roaring_bitmap_flip_inplace`). -/
def roaring_bitmap_flip_inplace (ops : ContainerOps C) (x1 : roaring_bitmap_t C)
    (range_start range_end : Nat) : roaring_bitmap_t C :=
  if range_start ≥ range_end then x1
  else
    let range_end := if range_end ≥ 0x100000000 then 0x100000000 else range_end
    let hb_start := (range_start / 65536) % 65536
    let lb_start := range_start % 65536
    let hb_end := ((range_end - 1) / 65536) % 65536
    let lb_end := (range_end - 1) % 65536
    if hb_start = hb_end then
      ⟨inplace_flip_container ops x1.high_low_container hb_start lb_start lb_end⟩
    else
      let arr2 :=
        if lb_start > 0 then
          inplace_flip_container ops x1.high_low_container hb_start lb_start 0xFFFF
        else x1.high_low_container
      let hb_start2 := if lb_start > 0 then (hb_start + 1) % 65536 else hb_start
      let hb_end2 := if lb_end ≠ 0xFFFF then (hb_end + 65535) % 65536 else hb_end
      let arr3 := (List.range' hb_start2 (hb_end2 + 1 - hb_start2)).foldl
        (fun a hb => inplace_fully_flip_container ops a hb) arr2
      let arr4 :=
        if lb_end ≠ 0xFFFF then
          inplace_flip_container ops arr3 ((hb_end2 + 1) % 65536) 0 lb_end
        else arr3
      ⟨arr4⟩

/-! ## Rank, selection, extremes and cardinalities of combinations -/

/-- The `for` loop of `roaring_bitmap_rank` over the entries that are left,
with the running `size`. -/
def roaring_bitmap_rank_loop (ops : ContainerOps C) (xhigh xlow : Nat) :
    roaring_array_t C → Nat → Nat
  | [], size => size
  | e :: rest, size =>
    if xhigh > e.1 then
      roaring_bitmap_rank_loop ops xhigh xlow rest (size + ops.container_get_cardinality e.2)
    else if xhigh = e.1 then size + ops.container_rank e.2 xlow
    else size

/-- Number of values not above `x` (`roaring_bitmap_rank`). -/
def roaring_bitmap_rank (ops : ContainerOps C) (bm : roaring_bitmap_t C) (x : Nat) : Nat :=
  roaring_bitmap_rank_loop ops (x / 65536) (x % 65536) bm.high_low_container 0

/-- Largest 32-bit value (`UINT32_MAX`). -/
def UINT32_MAX : Nat := 4294967295

/-- Smallest value, `UINT32_MAX` on the empty bitmap (`roaring_bitmap_minimum`). -/
def roaring_bitmap_minimum (ops : ContainerOps C) (bm : roaring_bitmap_t C) : Nat :=
  match bm.high_low_container.head? with
  | some e => ops.container_minimum e.2 ||| ((e.1 * 65536) % 2 ^ 32)
  | none => UINT32_MAX

/-- Largest value, `0` on the empty bitmap (`roaring_bitmap_maximum`). -/
def roaring_bitmap_maximum (ops : ContainerOps C) (bm : roaring_bitmap_t C) : Nat :=
  match bm.high_low_container.getLast? with
  | some e => ops.container_maximum e.2 ||| ((e.1 * 65536) % 2 ^ 32)
  | none => 0

/-- The `while (!valid && i < size)` loop of `roaring_bitmap_select` over the
entries that are left, followed by the final test: the result is the returned
flag and the value of `*element`.  In `*element |= (key << 16)` the `uint16_t`
key is promoted to `int`; the shift is taken as the 32-bit pattern it produces,
`key * 2^16` modulo `2^32`. -/
def roaring_bitmap_select_loop (ops : ContainerOps C) (rank : Nat) :
    roaring_array_t C → Nat → Nat → Bool × Nat
  | [], _, element => (false, element)
  | e :: rest, start_rank, element =>
    let r := ops.container_select e.2 start_rank rank element
    if r.1 then (true, r.2.2 ||| ((e.1 * 65536) % 2 ^ 32))
    else roaring_bitmap_select_loop ops rank rest r.2.1 r.2.2

/-- Selection of the value of a given rank (`roaring_bitmap_select`); `element`
is the value `*element` holds on entry. -/
def roaring_bitmap_select (ops : ContainerOps C) (bm : roaring_bitmap_t C)
    (rank element : Nat) : Bool × Nat :=
  roaring_bitmap_select_loop ops rank bm.high_low_container 0 element

/-- The `while (pos1 < length1 && pos2 < length2)` loop of
`roaring_bitmap_and_cardinality`. -/
def roaring_bitmap_and_cardinality_loop (ops : ContainerOps C) (x1 x2 : roaring_array_t C)
    (pos1 pos2 : Nat) (answer : Nat) : Nat :=
  if h : pos1 < x1.length ∧ pos2 < x2.length then
    let s1 := (x1[pos1]).1
    let s2 := (x2[pos2]).1
    if s1 = s2 then
      roaring_bitmap_and_cardinality_loop ops x1 x2 (pos1 + 1) (pos2 + 1)
        (answer + ops.container_and_cardinality (x1[pos1]).2 (x2[pos2]).2)
    else if h12 : s1 < s2 then
      roaring_bitmap_and_cardinality_loop ops x1 x2 (ra_advance_until x1 s2 pos1) pos2 answer
    else
      roaring_bitmap_and_cardinality_loop ops x1 x2 pos1 (ra_advance_until x2 s1 pos2) answer
  else answer
termination_by (x1.length - pos1) + (x2.length - pos2)
decreasing_by
  all_goals simp_wf
  · omega
  · have hd : x1.drop pos1 = x1[pos1] :: x1.drop (pos1 + 1) := List.drop_eq_getElem_cons h.1
    have : 0 < ((x1.drop pos1).takeWhile (fun e => decide (e.1 < (x2[pos2]).1))).length := by
      rw [hd, List.takeWhile_cons_of_pos (by simpa using h12)]
      simp
    unfold ra_advance_until
    omega
  · have h21 : (x2[pos2]).1 < (x1[pos1]).1 := by omega
    have hd : x2.drop pos2 = x2[pos2] :: x2.drop (pos2 + 1) := List.drop_eq_getElem_cons h.2
    have : 0 < ((x2.drop pos2).takeWhile (fun e => decide (e.1 < (x1[pos1]).1))).length := by
      rw [hd, List.takeWhile_cons_of_pos (by simpa using h21)]
      simp
    unfold ra_advance_until
    omega

/-- Cardinality of the intersection (`roaring_bitmap_and_cardinality`). -/
def roaring_bitmap_and_cardinality (ops : ContainerOps C) (x1 x2 : roaring_bitmap_t C) : Nat :=
  roaring_bitmap_and_cardinality_loop ops x1.high_low_container x2.high_low_container 0 0 0

/-- Subtraction of `uint64_t` values: the result wraps modulo `2^64`. -/
def uint64_sub (a b : Nat) : Nat := (a % 2 ^ 64 + (2 ^ 64 - b % 2 ^ 64)) % 2 ^ 64

/-- Cardinality of the union, `c1 + c2 - inter` (`roaring_bitmap_or_cardinality`). -/
def roaring_bitmap_or_cardinality (ops : ContainerOps C) (x1 x2 : roaring_bitmap_t C) : Nat :=
  let c1 := roaring_bitmap_get_cardinality ops x1
  let c2 := roaring_bitmap_get_cardinality ops x2
  let inter := roaring_bitmap_and_cardinality ops x1 x2
  uint64_sub ((c1 + c2) % 2 ^ 64) inter

/-- Cardinality of the difference, `c1 - inter`
(`roaring_bitmap_andnot_cardinality`). -/
def roaring_bitmap_andnot_cardinality (ops : ContainerOps C) (x1 x2 : roaring_bitmap_t C) :
    Nat :=
  let c1 := roaring_bitmap_get_cardinality ops x1
  let inter := roaring_bitmap_and_cardinality ops x1 x2
  uint64_sub c1 inter

/-- Cardinality of the symmetric difference, `c1 + c2 - 2 * inter`
(`roaring_bitmap_xor_cardinality`). -/
def roaring_bitmap_xor_cardinality (ops : ContainerOps C) (x1 x2 : roaring_bitmap_t C) : Nat :=
  let c1 := roaring_bitmap_get_cardinality ops x1
  let c2 := roaring_bitmap_get_cardinality ops x2
  let inter := roaring_bitmap_and_cardinality ops x1 x2
  uint64_sub ((c1 + c2) % 2 ^ 64) ((2 * inter) % 2 ^ 64)

/-! ## Addition and removal of a closed range -/

/-- Modelled from the spec: `count_less` of `array_util.h`, which is not among
the sources: the number of keys below `ikey` among the first `lenarray` keys of
a sorted array. -/
def count_less (ra : roaring_array_t C) (lenarray ikey : Nat) : Nat :=
  (ra.take lenarray).countP (fun e => decide (e.1 < ikey))

/-- Modelled from the spec: `count_greater` of `array_util.h`, which is not
among the sources: the number of keys above `ikey` among the first `lenarray`
keys of a sorted array. -/
def count_greater (ra : roaring_array_t C) (lenarray ikey : Nat) : Nat :=
  (ra.take lenarray).countP (fun e => decide (ikey < e.1))

/-- Modelled from the spec: `ra_shift_tail` of `roaring_array.c`: the last
`count` entries move by `distance` places and the size changes by `distance`.
After a shift to the right the slots that opened hold whatever the arrays held
there; `junk i` stands for that unspecified content of slot `i`. -/
def ra_shift_tail (ra : roaring_array_t C) (count : Nat) (distance : Int)
    (junk : Nat → Nat × C) : roaring_array_t C :=
  let srcpos := ra.length - count
  if 0 < distance then
    ra.take srcpos ++ (List.range distance.toNat).map (fun i => junk (srcpos + i))
      ++ ra.drop srcpos
  else
    ra.take (srcpos - (-distance).toNat) ++ ra.drop srcpos

/-- Modelled from the spec: `ra_replace_key_and_container_at_index` of
`roaring_array.c`: slot `i` receives the key and the container. -/
def ra_replace_key_and_container_at_index (ra : roaring_array_t C) (i : Nat) (key : Nat)
    (c : C) : roaring_array_t C :=
  ra.set i (key, c)

/-- One pass of the `for` loop of `roaring_bitmap_add_range_closed`, for the
value `key` of the loop counter; the state is the directory with the cursors
`src` and `dst`. -/
def roaring_bitmap_add_range_closed_step (ops : ContainerOps C) (min max : Nat)
    (st : roaring_array_t C × Int × Int) (key : Nat) : roaring_array_t C × Int × Int :=
  let ra := st.1
  let src := st.2.1
  let dst := st.2.2
  let min_key := min / 65536
  let max_key := max / 65536
  let container_min := if min_key = key then min % 65536 else 0
  let container_max := if max_key = key then max % 65536 else 0xffff
  let hit : Option C :=
    if 0 ≤ src then
      match ra[src.toNat]? with
      | some e => if e.1 = key then some e.2 else none
      | none => none
    else none
  match hit with
  | some c =>
    let new_container := ops.container_add_range c container_min container_max
    (ra_replace_key_and_container_at_index ra dst.toNat key new_container, src - 1, dst - 1)
  | none =>
    let new_container := ops.container_from_range container_min (container_max + 1) 1
    (ra_replace_key_and_container_at_index ra dst.toNat key new_container, src, dst - 1)

/-- Addition of the closed range `[min, max]`
(`roaring_bitmap_add_range_closed`).  The loop counter runs from `max_key` down
to `min_key`. -/
def roaring_bitmap_add_range_closed (ops : ContainerOps C) (junk : Nat → Nat × C)
    (ra : roaring_bitmap_t C) (min max : Nat) : roaring_bitmap_t C :=
  if min > max then ra
  else
    let min_key := min / 65536
    let max_key := max / 65536
    let hlc := ra.high_low_container
    let num_required_containers : Int := (max_key : Int) - min_key + 1
    let suffix_length := count_greater hlc hlc.length max_key
    let prefix_length := count_less hlc (hlc.length - suffix_length) min_key
    let common_length : Int := (hlc.length : Int) - prefix_length - suffix_length
    let hlc2 :=
      if num_required_containers > common_length then
        ra_shift_tail hlc suffix_length (num_required_containers - common_length) junk
      else hlc
    let src : Int := prefix_length + common_length - 1
    let dst : Int := (hlc2.length : Int) - suffix_length - 1
    ⟨((List.range' min_key (max_key - min_key + 1)).reverse.foldl
        (roaring_bitmap_add_range_closed_step ops min max) (hlc2, src, dst)).1⟩

/-- The `while` loop of `roaring_bitmap_remove_range_closed`; the state is the
directory with the cursors `src` and `dst`. -/
def roaring_bitmap_remove_range_closed_loop (ops : ContainerOps C) (min max : Nat)
    (ra : roaring_array_t C) (src dst : Nat) : roaring_array_t C × Nat × Nat :=
  if h : src < ra.length then
    if (ra[src]).1 ≤ max / 65536 then
      let key := (ra[src]).1
      let container_min := if min / 65536 = key then min % 65536 else 0
      let container_max := if max / 65536 = key then max % 65536 else 0xffff
      match ops.container_remove_range (ra[src]).2 container_min container_max with
      | some new_container =>
        roaring_bitmap_remove_range_closed_loop ops min max
          (ra_replace_key_and_container_at_index ra dst key new_container) (src + 1) (dst + 1)
      | none => roaring_bitmap_remove_range_closed_loop ops min max ra (src + 1) dst
    else (ra, src, dst)
  else (ra, src, dst)
termination_by ra.length - src
decreasing_by
  all_goals simp_wf
  · simp only [ra_replace_key_and_container_at_index, List.length_set]
    omega
  · omega

/-- Removal of the closed range `[min, max]`
(`roaring_bitmap_remove_range_closed`); the final shift is to the left, so
`junk` plays no part. -/
def roaring_bitmap_remove_range_closed (ops : ContainerOps C) (junk : Nat → Nat × C)
    (ra : roaring_bitmap_t C) (min max : Nat) : roaring_bitmap_t C :=
  if min > max then ra
  else
    let hlc := ra.high_low_container
    let src := count_less hlc hlc.length (min / 65536)
    let r := roaring_bitmap_remove_range_closed_loop ops min max hlc src src
    if r.2.1 > r.2.2 then
      ⟨ra_shift_tail r.1 (r.1.length - r.2.1) ((r.2.2 : Int) - r.2.1) junk⟩
    else ⟨r.1⟩

/-! ## Construction from a range -/

/-- The smaller of two `uint64_t` values (`minimum_uint64`). -/
def minimum_uint64 (a b : Nat) : Nat := if a < b then a else b

/-- The `for` loop of `roaring_bitmap_from_range` (branch `step >= 2^16`), run
for at most `fuel` tests of its condition: `value` is a 32-bit counter, so
`value += step` wraps modulo `2^32`, while `max` is a 64-bit bound.  The result
is `none` when the loop has not exited within `fuel` tests. -/
def roaring_bitmap_from_range_for (ops : ContainerOps C) (max step : Nat) :
    Nat → roaring_bitmap_t C → Nat → Option (roaring_bitmap_t C)
  | 0, _, _ => none
  | fuel + 1, answer, value =>
    if value < max then
      roaring_bitmap_from_range_for ops max step fuel (roaring_bitmap_add ops answer value)
        ((value + step) % 2 ^ 32)
    else some answer

/-- The `do ... while (min_tmp < max)` loop of `roaring_bitmap_from_range`
(branch `step < 2^16`), run for at most `fuel` passes: `key`, `container_min`,
`container_max` and `gap` are 32-bit, `min_tmp` and `max` are 64-bit.  The result
is `none` when the loop has not exited within `fuel` passes. -/
def roaring_bitmap_from_range_do (ops : ContainerOps C) (max step : Nat) :
    Nat → roaring_bitmap_t C → Nat → Option (roaring_bitmap_t C)
  | 0, _, _ => none
  | fuel + 1, answer, min_tmp =>
    let key := (min_tmp % 2 ^ 32) / 65536
    let container_min := min_tmp % 65536
    let container_max :=
      (minimum_uint64 ((max + (2 ^ 64 - (key * 65536) % 2 ^ 32)) % 2 ^ 64) 65536) % 2 ^ 32
    let container := ops.container_from_range container_min container_max (step % 65536)
    let answer2 : roaring_bitmap_t C := ⟨ra_append answer.high_low_container key container⟩
    let gap := (container_max + (2 ^ 32 - container_min) + step + (2 ^ 32 - 1)) % 2 ^ 32
    let min_tmp2 := (min_tmp + (gap - gap % step)) % 2 ^ 64
    if min_tmp2 < max then roaring_bitmap_from_range_do ops max step fuel answer2 min_tmp2
    else some answer2

/-- Bitmap of the values `min, min + step, ...` below `max`
(`roaring_bitmap_from_range`), with loops bounded by `fuel`.  The outer `none`
means that the call has not returned within the fuel; `some none` is the null
pointer. -/
def roaring_bitmap_from_range (ops : ContainerOps C) (fuel min max step : Nat) :
    Option (Option (roaring_bitmap_t C)) :=
  let max := if max ≥ 0x100000000 then 0x100000000 else max
  if step = 0 then some none
  else if max ≤ min then some none
  else
    let answer : roaring_bitmap_t C := roaring_bitmap_create
    if step ≥ 65536 then
      (roaring_bitmap_from_range_for ops max step fuel answer (min % 2 ^ 32)).map some
    else
      (roaring_bitmap_from_range_do ops max step fuel answer min).map some

/-! ## Inclusion -/

/-- Emptiness test (`roaring_bitmap_is_empty`). -/
def roaring_bitmap_is_empty (ra : roaring_bitmap_t C) : Bool :=
  ra.high_low_container.length == 0

/-- The `while (pos1 < length1 && pos2 < length2)` loop of
`roaring_bitmap_is_subset`, followed by the final test `pos1 == length1`. -/
def roaring_bitmap_is_subset_loop (ops : ContainerOps C) (x1 x2 : roaring_array_t C)
    (pos1 pos2 : Nat) : Bool :=
  if h : pos1 < x1.length ∧ pos2 < x2.length then
    let s1 := (x1[pos1]).1
    let s2 := (x2[pos2]).1
    if s1 = s2 then
      let subset := ops.container_is_subset (x1[pos1]).2 (x2[pos2]).2
      if !subset then false
      else roaring_bitmap_is_subset_loop ops x1 x2 (pos1 + 1) (pos2 + 1)
    else if s1 < s2 then false
    else roaring_bitmap_is_subset_loop ops x1 x2 pos1 (ra_advance_until x2 s1 pos2)
  else decide (pos1 = x1.length)
termination_by (x1.length - pos1) + (x2.length - pos2)
decreasing_by
  all_goals simp_wf
  · omega
  · rename_i hne hlt
    have h21 : (x2[pos2]).1 < (x1[pos1]).1 := by omega
    have hd : x2.drop pos2 = x2[pos2] :: x2.drop (pos2 + 1) := List.drop_eq_getElem_cons h.2
    have : 0 < ((x2.drop pos2).takeWhile (fun e => decide (e.1 < (x1[pos1]).1))).length := by
      rw [hd, List.takeWhile_cons_of_pos (by simpa using h21)]
      simp
    unfold ra_advance_until
    omega

/-- Inclusion test (`roaring_bitmap_is_subset`). -/
def roaring_bitmap_is_subset (ops : ContainerOps C) (ra1 ra2 : roaring_bitmap_t C) : Bool :=
  roaring_bitmap_is_subset_loop ops ra1.high_low_container ra2.high_low_container 0 0

/-- Strict inclusion test (`roaring_bitmap_is_strict_subset`). -/
def roaring_bitmap_is_strict_subset (ops : ContainerOps C) (ra1 ra2 : roaring_bitmap_t C) :
    Bool :=
  decide (roaring_bitmap_get_cardinality ops ra2 > roaring_bitmap_get_cardinality ops ra1)
    && roaring_bitmap_is_subset ops ra1 ra2

/-! ## Insertion of many values -/

/-- Insertion of a value that also hands back the container touched
(`containerptr_roaring_bitmap_add`).  The result is the bitmap, the returned
container and `*index`.  As for `roaring_bitmap_add_checked`, the directory
entry holds the updated container on both paths.  `ra_get_index` returns an
index below `size`, so the last case of the `match` is never taken. -/
def containerptr_roaring_bitmap_add (ops : ContainerOps C) (r : roaring_bitmap_t C)
    (val : Nat) : roaring_bitmap_t C × C × Nat :=
  let hb := (val / 65536) % 65536
  let i := ra_get_index r.high_low_container hb
  if 0 ≤ i then
    match r.high_low_container[i.toNat]? with
    | some e =>
      let container2 := ops.container_add e.2 (val % 65536)
      (⟨ra_set_container_at_index r.high_low_container i.toNat container2.1⟩,
        container2.1, i.toNat)
    | none => (r, ops.array_container_create, i.toNat)
  else
    let newac := ops.array_container_create
    let container := (ops.container_add newac (val % 65536)).1
    (⟨ra_insert_new_key_value_at r.high_low_container (-i - 1).toNat hb container⟩,
      container, (-i - 1).toNat)

/-- The `for (; i < n_args; i++)` loop of `roaring_bitmap_add_many` over the
values not yet read: `container` is the last container touched, stored at
index `containerindex`, and `prev` is the previous value. -/
def roaring_bitmap_add_many_loop (ops : ContainerOps C) :
    roaring_bitmap_t C → C → Nat → Nat → List Nat → roaring_bitmap_t C
  | r, _, _, _, [] => r
  | r, container, containerindex, prev, val :: vals =>
    if (prev ^^^ val) >>> 16 = 0 then
      let container2 := ops.container_add container (val % 65536)
      roaring_bitmap_add_many_loop ops
        ⟨ra_set_container_at_index r.high_low_container containerindex container2.1⟩
        container2.1 containerindex val vals
    else
      let s := containerptr_roaring_bitmap_add ops r val
      roaring_bitmap_add_many_loop ops s.1 s.2.1 s.2.2 val vals

/-- Insertion of the `n_args` values `vals[0], ...` (`roaring_bitmap_add_many`);
the list is the array `vals` of length `n_args`. -/
def roaring_bitmap_add_many (ops : ContainerOps C) (r : roaring_bitmap_t C) :
    List Nat → roaring_bitmap_t C
  | [] => r
  | val :: vals =>
    let s := containerptr_roaring_bitmap_add ops r val
    roaring_bitmap_add_many_loop ops s.1 s.2.1 s.2.2 val vals

/-- A bitmap from an array of values (`roaring_bitmap_of_ptr`). -/
def roaring_bitmap_of_ptr (ops : ContainerOps C) (vals : List Nat) : roaring_bitmap_t C :=
  roaring_bitmap_add_many ops roaring_bitmap_create vals

/-! ## Serialization envelope

A buffer is the list of its bytes.  The host is little-endian, as the formats
require. -/

/-- Modelled from the spec: the tag `SERIALIZATION_ARRAY_UINT32` of `roaring.h`,
which is not among the sources. -/
def SERIALIZATION_ARRAY_UINT32 : Nat := 0
/-- Modelled from the spec: the tag `SERIALIZATION_CONTAINER` of `roaring.h`. -/
def SERIALIZATION_CONTAINER : Nat := 1
/-- Largest `size_t` (`SIZE_MAX`) on a 64-bit host. -/
def SIZE_MAX : Nat := 2 ^ 64 - 1

/-- The portable-format functions of `roaring_array.c`, which is not among the
sources. -/
structure PortableOps (C : Type) where
  /-- Size of the portable stream (`ra_portable_size_in_bytes`). -/
  ra_portable_size_in_bytes : roaring_array_t C → Nat
  /-- The bytes that `ra_portable_serialize` writes; the function returns their
  number. -/
  ra_portable_serialize : roaring_array_t C → List Nat
  /-- Reading of a portable stream (`ra_portable_deserialize`) from a buffer
  with a bound `maxbytes`: `none` is the failure result, otherwise the
  directory and `*readbytes`. -/
  ra_portable_deserialize : List Nat → Nat → Option (roaring_array_t C × Nat)

/-- Modelled from the spec: `ra_to_uint32_array` of `roaring_array.c`: all
values in increasing order, container after container, each low part combined
with `key << 16`. -/
def ra_to_uint32_array (ops : ContainerOps C) (ra : roaring_array_t C) : List Nat :=
  ra.flatMap (fun e =>
    ((List.range 65536).filter (fun lb => ops.container_contains e.2 lb)).map
      (fun lb => e.1 * 65536 + lb))

/-- All values in increasing order (`roaring_bitmap_to_uint32_array`). -/
def roaring_bitmap_to_uint32_array (ops : ContainerOps C) (ra : roaring_bitmap_t C) :
    List Nat :=
  ra_to_uint32_array ops ra.high_low_container

/-- The four bytes that `memcpy` copies from a `uint32_t` (or from the low half
of a `uint64_t`). -/
def uint32_to_bytes (x : Nat) : List Nat :=
  [x % 256, x / 256 % 256, x / 65536 % 256, x / 16777216 % 256]

/-- The `uint32_t` that `memcpy` reads from the four bytes at offset `off`;
`none` if they are not all inside the buffer. -/
def read_uint32 (buf : List Nat) (off : Nat) : Option Nat :=
  match buf[off]?, buf[off + 1]?, buf[off + 2]?, buf[off + 3]? with
  | some a, some b, some c, some d => some (a + 256 * b + 65536 * c + 16777216 * d)
  | _, _, _, _ => none

/-- The `n` values `elems[0], ..., elems[n - 1]` of a `uint32_t` array that
starts at offset `off`; `none` if they are not all inside the buffer. -/
def read_uint32_array (buf : List Nat) : Nat → Nat → Option (List Nat)
  | _, 0 => some []
  | off, n + 1 =>
    match read_uint32 buf off, read_uint32_array buf (off + 4) n with
    | some v, some vs => some (v :: vs)
    | _, _ => none

/-- Size of the portable stream (`roaring_bitmap_portable_size_in_bytes`). -/
def roaring_bitmap_portable_size_in_bytes (pops : PortableOps C) (ra : roaring_bitmap_t C) :
    Nat :=
  pops.ra_portable_size_in_bytes ra.high_low_container

/-- The portable stream (`roaring_bitmap_portable_serialize`): the bytes
written and the returned number of bytes. -/
def roaring_bitmap_portable_serialize (pops : PortableOps C) (ra : roaring_bitmap_t C) :
    List Nat × Nat :=
  (pops.ra_portable_serialize ra.high_low_container,
    (pops.ra_portable_serialize ra.high_low_container).length)

/-- Tagged serialization (`roaring_bitmap_serialize`): the bytes written from
`buf[0]` on and the returned `size_t`. -/
def roaring_bitmap_serialize (ops : ContainerOps C) (pops : PortableOps C)
    (ra : roaring_bitmap_t C) : List Nat × Nat :=
  let portablesize := roaring_bitmap_portable_size_in_bytes pops ra
  let cardinality := roaring_bitmap_get_cardinality ops ra % 2 ^ 64
  let sizeasarray := (cardinality * 4 + 4) % 2 ^ 64
  if portablesize < sizeasarray then
    (SERIALIZATION_CONTAINER :: (roaring_bitmap_portable_serialize pops ra).1,
      ((roaring_bitmap_portable_serialize pops ra).2 + 1) % 2 ^ 64)
  else
    (SERIALIZATION_ARRAY_UINT32 :: (uint32_to_bytes (cardinality % 2 ^ 32)
        ++ (roaring_bitmap_to_uint32_array ops ra).flatMap uint32_to_bytes),
      (1 + sizeasarray) % 2 ^ 64)

/-- Size of the tagged serialization (`roaring_bitmap_size_in_bytes`). -/
def roaring_bitmap_size_in_bytes (ops : ContainerOps C) (pops : PortableOps C)
    (ra : roaring_bitmap_t C) : Nat :=
  let portablesize := roaring_bitmap_portable_size_in_bytes pops ra
  let sizeasarray := ((roaring_bitmap_get_cardinality ops ra % 2 ^ 64) * 4 + 4) % 2 ^ 64
  if portablesize < sizeasarray then (portablesize + 1) % 2 ^ 64
  else (sizeasarray + 1) % 2 ^ 64

/-- Reading of a portable stream (`roaring_bitmap_portable_deserialize_safe`);
`none` is the null pointer. -/
def roaring_bitmap_portable_deserialize_safe (pops : PortableOps C) (buf : List Nat)
    (maxbytes : Nat) : Option (roaring_bitmap_t C) :=
  match pops.ra_portable_deserialize buf maxbytes with
  | some ans => some ⟨ans.1⟩
  | none => none

/-- Reading of a portable stream without a bound
(`roaring_bitmap_portable_deserialize`). -/
def roaring_bitmap_portable_deserialize (pops : PortableOps C) (buf : List Nat) :
    Option (roaring_bitmap_t C) :=
  roaring_bitmap_portable_deserialize_safe pops buf SIZE_MAX

/-- Reading of a tagged serialization (`roaring_bitmap_deserialize`).  The
outer `none` is a read outside the buffer; the inner `none` is the null
pointer. -/
def roaring_bitmap_deserialize (ops : ContainerOps C) (pops : PortableOps C)
    (buf : List Nat) : Option (Option (roaring_bitmap_t C)) :=
  match buf with
  | [] => none
  | tag :: bufaschar1 =>
    if tag = SERIALIZATION_ARRAY_UINT32 then
      match read_uint32 buf 1 with
      | none => none
      | some card =>
        match read_uint32_array buf (1 + 4) card with
        | none => none
        | some elems => some (some (roaring_bitmap_of_ptr ops elems))
    else if tag = SERIALIZATION_CONTAINER then
      some (roaring_bitmap_portable_deserialize pops bufaschar1)
    else some none

/-! ## Containers

The container types and the container-level helpers used below belong to
`containers/*.h` and `containers/*.c`, which are not among the sources (only
`containers/mixed_union.c` is). -/

/-- Modelled from the spec: `array_container_t`: `cardinality` strictly
increasing 16-bit values at the front of a buffer `array` of `capacity`
values. -/
structure array_container_t where
  /-- Number of values. -/
  cardinality : Nat
  /-- Number of values the buffer can hold. -/
  capacity : Nat
  /-- The buffer. -/
  array : List Nat

/-- Modelled from the spec: `bitset_container_t`: 1024 words of 64 bits, bit
`b` of word `w` standing for the value `64 * w + b`, and the number of bits
set or `BITSET_UNKNOWN_CARDINALITY`. -/
structure bitset_container_t where
  /-- Number of bits set, or `BITSET_UNKNOWN_CARDINALITY`. -/
  cardinality : Int
  /-- The words. -/
  array : List Nat

/-- Modelled from the spec: `rle16_t`: the run `value, ..., value + length`. -/
structure rle16_t where
  /-- First value of the run. -/
  value : Nat
  /-- Number of values after the first. -/
  length : Nat

/-- Modelled from the spec: `run_container_t`: `n_runs` runs at the front of a
buffer `runs` of `capacity` runs. -/
structure run_container_t where
  /-- Number of runs. -/
  n_runs : Nat
  /-- Number of runs the buffer can hold. -/
  capacity : Nat
  /-- The buffer. -/
  runs : List rle16_t

/-- A container pointer together with its typecode; `shared` is a
`shared_container_t` wrapping another container. -/
inductive container_t where
  /-- Typecode `BITSET_CONTAINER_TYPE_CODE`. -/
  | bitset : bitset_container_t → container_t
  /-- Typecode `ARRAY_CONTAINER_TYPE_CODE`. -/
  | array : array_container_t → container_t
  /-- Typecode `RUN_CONTAINER_TYPE_CODE`. -/
  | run : run_container_t → container_t
  /-- Typecode `SHARED_CONTAINER_TYPE_CODE`. -/
  | shared : container_t → container_t

/-- Typecode of a shared container (`SHARED_CONTAINER_TYPE_CODE`). -/
def SHARED_CONTAINER_TYPE_CODE : Nat := 4
/-- Number of words of a bitset container (`BITSET_CONTAINER_SIZE_IN_WORDS`). -/
def BITSET_CONTAINER_SIZE_IN_WORDS : Nat := 1024
/-- Modelled from the spec: the sentinel `BITSET_UNKNOWN_CARDINALITY` of
`containers/bitset.h`. -/
def BITSET_UNKNOWN_CARDINALITY : Int := -1

/-- The typecode stored next to a container pointer. -/
def container_t.typecode : container_t → Nat
  | .bitset _ => BITSET_CONTAINER_TYPE_CODE
  | .array _ => ARRAY_CONTAINER_TYPE_CODE
  | .run _ => RUN_CONTAINER_TYPE_CODE
  | .shared _ => SHARED_CONTAINER_TYPE_CODE

/-- Modelled from the spec: membership in an array container. -/
def array_container_contains (a : array_container_t) (v : Nat) : Bool :=
  (a.array.take a.cardinality).contains v

/-- Modelled from the spec: bit `v` of an array of words. -/
def bitset_get (words : List Nat) (v : Nat) : Bool :=
  (words.getD (v / 64) 0).testBit (v % 64)

/-- Modelled from the spec: membership in a bitset container. -/
def bitset_container_contains (b : bitset_container_t) (v : Nat) : Bool :=
  bitset_get b.array v

/-- Modelled from the spec: membership in a run container. -/
def run_container_contains (r : run_container_t) (v : Nat) : Bool :=
  (r.runs.take r.n_runs).any (fun rle => decide (rle.value ≤ v ∧ v ≤ rle.value + rle.length))

/-- Modelled from the spec: membership in a container of any type. -/
def container_contains : container_t → Nat → Bool
  | .bitset b, v => bitset_container_contains b v
  | .array a, v => array_container_contains a v
  | .run r, v => run_container_contains r v
  | .shared c, v => container_contains c v

/-- Modelled from the spec: number of bits set in a 64-bit word
(`hamming`). -/
def hamming (w : Nat) : Nat := (List.range 64).countP (fun b => w.testBit b)

/-- Modelled from the spec: `bitset_container_compute_cardinality`: the number
of bits set in all words. -/
def bitset_container_compute_cardinality (b : bitset_container_t) : Nat :=
  (b.array.map hamming).sum

/-- Modelled from the spec: `array_container_create_given_capacity`: an empty
array container with a zeroed buffer of `size` values, or the null pointer
`none` if the allocation fails (`malloc_ok = false`). -/
def array_container_create_given_capacity (malloc_ok : Bool) (size : Nat) :
    Option array_container_t :=
  if malloc_ok then some ⟨0, size, List.replicate size 0⟩ else none

/-- Modelled from the spec: `bitset_container_create`: an empty bitset
container, or the null pointer `none` if the allocation fails. -/
def bitset_container_create (malloc_ok : Bool) : Option bitset_container_t :=
  if malloc_ok then some ⟨0, List.replicate BITSET_CONTAINER_SIZE_IN_WORDS 0⟩ else none

/-- Modelled from the spec: `union_uint16`: merge of two strictly increasing
arrays, a common value being kept once. -/
def union_uint16 : List Nat → List Nat → List Nat
  | [], l2 => l2
  | a :: t1, [] => a :: t1
  | a :: t1, b :: t2 =>
    if a < b then a :: union_uint16 t1 (b :: t2)
    else if b < a then b :: union_uint16 (a :: t1) t2
    else a :: union_uint16 t1 t2
termination_by l1 l2 => l1.length + l2.length

/-- Modelled from the spec: `array_container_union`: the merge of the two
sources is written at the front of the buffer of `out`, which grows if it is
too small. -/
def array_container_union (src_1 src_2 out : array_container_t) : array_container_t :=
  let merged := union_uint16 (src_1.array.take src_1.cardinality)
    (src_2.array.take src_2.cardinality)
  ⟨merged.length, Nat.max out.capacity merged.length, merged ++ out.array.drop merged.length⟩

/-- Modelled from the spec: `bitset_set_list`: the bit of every listed value is
set. -/
def bitset_set_list (words : List Nat) (list : List Nat) : List Nat :=
  list.foldl (fun w pos => w.set (pos / 64) (w.getD (pos / 64) 0 ||| 1 <<< (pos % 64))) words

/-- Modelled from the spec: `bitset_set_list_withcard`: the bit of every listed
value is set, and `card` grows by one for every bit that was clear; the result
is the words and the returned cardinality. -/
def bitset_set_list_withcard (words : List Nat) (card : Nat) (list : List Nat) :
    List Nat × Nat :=
  list.foldl (fun s pos =>
    let load := s.1.getD (pos / 64) 0
    let newload := load ||| 1 <<< (pos % 64)
    (s.1.set (pos / 64) newload, s.2 + (load ^^^ newload) >>> (pos % 64))) (words, card)

/-- Modelled from the spec: `bitset_extract_setbits_uint16` with base 0: the
positions of the bits set, word after word, in increasing order. -/
def bitset_extract_setbits_uint16 (words : List Nat) : List Nat :=
  (List.range words.length).flatMap (fun i =>
    ((List.range 64).filter (fun b => (words.getD i 0).testBit b)).map (fun b => 64 * i + b))

/-- Modelled from the spec: `array_container_from_bitset`: an array container
of capacity and cardinality `bits->cardinality` holding the positions of the
bits set, or the null pointer if the allocation fails. -/
def array_container_from_bitset (malloc_ok : Bool) (bits : bitset_container_t) :
    Option array_container_t :=
  if malloc_ok then
    some ⟨bits.cardinality.toNat, bits.cardinality.toNat,
      bitset_extract_setbits_uint16 bits.array⟩
  else none

/-- The conversion `(int32_t)x` of an unsigned value. -/
def int32_cast (x : Nat) : Int :=
  if x % 2 ^ 32 < 2 ^ 31 then ((x % 2 ^ 32 : Nat) : Int) else ((x % 2 ^ 32 : Nat) : Int) - 2 ^ 32

/-- Union of two array containers (`array_array_container_union` of
`containers/mixed_union.c`): the result is `*dst` (`none` is the null pointer)
and the returned flag, which tells that `*dst` is a bitset container.
`malloc_ok` tells whether allocations succeed. -/
def array_array_container_union (malloc_ok : Bool) (src_1 src_2 : array_container_t) :
    Option container_t × Bool :=
  let totalCardinality := src_1.cardinality + src_2.cardinality
  if totalCardinality ≤ DEFAULT_MAX_SIZE then
    match array_container_create_given_capacity malloc_ok totalCardinality with
    | some dst => (some (.array (array_container_union src_1 src_2 dst)), false)
    | none => (none, true)
  else
    match bitset_container_create malloc_ok with
    | some ourbitset =>
      let words := bitset_set_list ourbitset.array (src_1.array.take src_1.cardinality)
      let r := bitset_set_list_withcard words src_1.cardinality
        (src_2.array.take src_2.cardinality)
      let ourbitset : bitset_container_t := ⟨int32_cast r.2, r.1⟩
      if ourbitset.cardinality ≤ (DEFAULT_MAX_SIZE : Int) then
        ((array_container_from_bitset malloc_ok ourbitset).map container_t.array, false)
      else (some (.bitset ourbitset), true)
    | none => (none, true)

/-! ## Frozen format

The memory from `buf` on is a function from offsets to bytes; only the low 8
bits of a cell are read.  Sizes stay far below 2^64, so `size_t` arithmetic is
plain addition. -/

/-- Modelled from the spec: the 15-bit cookie `FROZEN_COOKIE` of `roaring.h`,
which is not among the sources. -/
def FROZEN_COOKIE : Nat := 13766
/-- Modelled from the spec: the flag `ROARING_FLAG_FROZEN` of `roaring.h`. -/
def ROARING_FLAG_FROZEN : Nat := 2

/-- The conversion `(uint16_t)x` of a signed value. -/
def uint16_cast (x : Int) : Nat := (x % 65536).toNat

/-- The two bytes of a `uint16_t`. -/
def uint16_to_bytes (x : Nat) : List Nat := [x % 256, x / 256 % 256]

/-- The eight bytes of a `uint64_t`. -/
def uint64_to_bytes (x : Nat) : List Nat :=
  [x % 256, x / 256 % 256, x / 256 ^ 2 % 256, x / 256 ^ 3 % 256, x / 256 ^ 4 % 256,
    x / 256 ^ 5 % 256, x / 256 ^ 6 % 256, x / 256 ^ 7 % 256]

/-- The four bytes of an `rle16_t`. -/
def rle16_to_bytes (r : rle16_t) : List Nat :=
  uint16_to_bytes r.value ++ uint16_to_bytes r.length

/-- The memory after `memcpy(dst, src, n)`, `src` being the `n` bytes copied. -/
def memcpy (mem : Nat → Nat) (dst : Nat) (src : List Nat) : Nat → Nat :=
  fun a => if dst ≤ a ∧ a < dst + src.length then src.getD (a - dst) 0 else mem a

/-- The byte at an offset. -/
def mem_read_uint8 (mem : Nat → Nat) (a : Nat) : Nat := mem a % 256

/-- The `uint16_t` at an offset. -/
def mem_read_uint16 (mem : Nat → Nat) (a : Nat) : Nat :=
  mem_read_uint8 mem a + 256 * mem_read_uint8 mem (a + 1)

/-- The `uint32_t` at an offset. -/
def mem_read_uint32 (mem : Nat → Nat) (a : Nat) : Nat :=
  mem_read_uint16 mem a + 65536 * mem_read_uint16 mem (a + 2)

/-- The `uint64_t` at an offset. -/
def mem_read_uint64 (mem : Nat → Nat) (a : Nat) : Nat :=
  mem_read_uint32 mem a + 4294967296 * mem_read_uint32 mem (a + 4)

/-- The `rle16_t` at an offset. -/
def mem_read_rle16 (mem : Nat → Nat) (a : Nat) : rle16_t :=
  ⟨mem_read_uint16 mem a, mem_read_uint16 mem (a + 2)⟩

/-- The loop of `roaring_bitmap_frozen_size_in_bytes` over the entries not yet
visited; `none` is the `default:` case `__builtin_unreachable()`. -/
def roaring_bitmap_frozen_size_in_bytes_loop :
    roaring_array_t container_t → Nat → Option Nat
  | [], num_bytes => some num_bytes
  | e :: ra, num_bytes =>
    match e.2 with
    | .bitset _ =>
      roaring_bitmap_frozen_size_in_bytes_loop ra
        (num_bytes + BITSET_CONTAINER_SIZE_IN_WORDS * 8)
    | .run run => roaring_bitmap_frozen_size_in_bytes_loop ra (num_bytes + run.n_runs * 4)
    | .array array =>
      roaring_bitmap_frozen_size_in_bytes_loop ra (num_bytes + array.cardinality * 2)
    | .shared _ => none

/-- Size of the frozen serialization (`roaring_bitmap_frozen_size_in_bytes`). -/
def roaring_bitmap_frozen_size_in_bytes (rb : roaring_bitmap_t container_t) : Option Nat :=
  match roaring_bitmap_frozen_size_in_bytes_loop rb.high_low_container 0 with
  | some num_bytes => some (num_bytes + (2 + 2 + 1) * rb.high_low_container.length + 4)
  | none => none

/-- The first loop of `roaring_bitmap_frozen_serialize`: the sizes of the
bitset, run and array zones. -/
def roaring_bitmap_frozen_serialize_sizes :
    roaring_array_t container_t → Nat → Nat → Nat → Option (Nat × Nat × Nat)
  | [], bitset_zone_size, run_zone_size, array_zone_size =>
    some (bitset_zone_size, run_zone_size, array_zone_size)
  | e :: ra, bitset_zone_size, run_zone_size, array_zone_size =>
    match e.2 with
    | .bitset _ =>
      roaring_bitmap_frozen_serialize_sizes ra
        (bitset_zone_size + BITSET_CONTAINER_SIZE_IN_WORDS * 8) run_zone_size array_zone_size
    | .run run =>
      roaring_bitmap_frozen_serialize_sizes ra bitset_zone_size
        (run_zone_size + run.n_runs * 4) array_zone_size
    | .array array =>
      roaring_bitmap_frozen_serialize_sizes ra bitset_zone_size run_zone_size
        (array_zone_size + array.cardinality * 2)
    | .shared _ => none

/-- The second loop of `roaring_bitmap_frozen_serialize` over the entries not
yet visited: `i` is the index of the next entry and the zone pointers are
offsets from `buf`. -/
def roaring_bitmap_frozen_serialize_loop (count_zone : Nat) :
    roaring_array_t container_t → Nat → Nat → Nat → Nat → (Nat → Nat) → Option (Nat → Nat)
  | [], _, _, _, _, mem => some mem
  | e :: ra, i, bitset_zone, run_zone, array_zone, mem =>
    match e.2 with
    | .bitset bitset =>
      let mem1 := memcpy mem bitset_zone
        ((bitset.array.take BITSET_CONTAINER_SIZE_IN_WORDS).flatMap uint64_to_bytes)
      let count :=
        if bitset.cardinality ≠ BITSET_UNKNOWN_CARDINALITY then
          uint16_cast (bitset.cardinality - 1)
        else uint16_cast ((bitset_container_compute_cardinality bitset : Int) - 1)
      roaring_bitmap_frozen_serialize_loop count_zone ra (i + 1)
        (bitset_zone + BITSET_CONTAINER_SIZE_IN_WORDS * 8) run_zone array_zone
        (memcpy mem1 (count_zone + 2 * i) (uint16_to_bytes count))
    | .run run =>
      let mem1 := memcpy mem run_zone ((run.runs.take run.n_runs).flatMap rle16_to_bytes)
      let count := uint16_cast run.n_runs
      roaring_bitmap_frozen_serialize_loop count_zone ra (i + 1)
        bitset_zone (run_zone + run.n_runs * 4) array_zone
        (memcpy mem1 (count_zone + 2 * i) (uint16_to_bytes count))
    | .array array =>
      let mem1 := memcpy mem array_zone
        ((array.array.take array.cardinality).flatMap uint16_to_bytes)
      let count := uint16_cast ((array.cardinality : Int) - 1)
      roaring_bitmap_frozen_serialize_loop count_zone ra (i + 1)
        bitset_zone run_zone (array_zone + array.cardinality * 2)
        (memcpy mem1 (count_zone + 2 * i) (uint16_to_bytes count))
    | .shared _ => none

/-- Frozen serialization (`roaring_bitmap_frozen_serialize`): the memory from
`buf` on after the call; `none` is `__builtin_unreachable()`. -/
def roaring_bitmap_frozen_serialize (rb : roaring_bitmap_t container_t) (mem : Nat → Nat) :
    Option (Nat → Nat) :=
  let ra := rb.high_low_container
  match roaring_bitmap_frozen_serialize_sizes ra 0 0 0 with
  | none => none
  | some (bitset_zone_size, run_zone_size, array_zone_size) =>
    let bitset_zone := 0
    let run_zone := bitset_zone + bitset_zone_size
    let array_zone := run_zone + run_zone_size
    let key_zone := array_zone + array_zone_size
    let count_zone := key_zone + 2 * ra.length
    let typecode_zone := count_zone + 2 * ra.length
    let header_zone := typecode_zone + ra.length
    match roaring_bitmap_frozen_serialize_loop count_zone ra 0 bitset_zone run_zone
        array_zone mem with
    | none => none
    | some mem1 =>
      let mem2 := memcpy mem1 key_zone (ra.flatMap (fun e => uint16_to_bytes e.1))
      let mem3 := memcpy mem2 typecode_zone (ra.map (fun e => e.2.typecode))
      let header := ((ra.length <<< 15) % 2 ^ 32) ||| FROZEN_COOKIE
      some (memcpy mem3 header_zone (uint32_to_bytes header))

/-- The first loop of `roaring_bitmap_frozen_view`: `n` containers are left,
`i` is the index of the next one; `none` is `return NULL`. -/
def roaring_bitmap_frozen_view_sizes (buf : Nat → Nat) (counts typecodes : Nat) :
    Nat → Nat → Nat → Nat → Nat → Option (Nat × Nat × Nat)
  | 0, _, bitset_zone_size, run_zone_size, array_zone_size =>
    some (bitset_zone_size, run_zone_size, array_zone_size)
  | n + 1, i, bitset_zone_size, run_zone_size, array_zone_size =>
    if mem_read_uint8 buf (typecodes + i) = BITSET_CONTAINER_TYPE_CODE then
      roaring_bitmap_frozen_view_sizes buf counts typecodes n (i + 1)
        (bitset_zone_size + BITSET_CONTAINER_SIZE_IN_WORDS * 8) run_zone_size array_zone_size
    else if mem_read_uint8 buf (typecodes + i) = RUN_CONTAINER_TYPE_CODE then
      roaring_bitmap_frozen_view_sizes buf counts typecodes n (i + 1) bitset_zone_size
        (run_zone_size + mem_read_uint16 buf (counts + 2 * i) * 4) array_zone_size
    else if mem_read_uint8 buf (typecodes + i) = ARRAY_CONTAINER_TYPE_CODE then
      roaring_bitmap_frozen_view_sizes buf counts typecodes n (i + 1) bitset_zone_size
        run_zone_size (array_zone_size + (mem_read_uint16 buf (counts + 2 * i) + 1) * 2)
    else none

/-- The second loop of `roaring_bitmap_frozen_view`: the directory entries
from index `i` on, the containers pointing into the buffer at the zone
pointers. -/
def roaring_bitmap_frozen_view_loop (buf : Nat → Nat) (keys counts typecodes : Nat) :
    Nat → Nat → Nat → Nat → Nat → Option (roaring_array_t container_t)
  | 0, _, _, _, _ => some []
  | n + 1, i, bitset_zone, run_zone, array_zone =>
    let key := mem_read_uint16 buf (keys + 2 * i)
    let count := mem_read_uint16 buf (counts + 2 * i)
    if mem_read_uint8 buf (typecodes + i) = BITSET_CONTAINER_TYPE_CODE then
      let bitset : bitset_container_t :=
        ⟨((count + 1 : Nat) : Int),
          (List.range BITSET_CONTAINER_SIZE_IN_WORDS).map
            (fun j => mem_read_uint64 buf (bitset_zone + 8 * j))⟩
      (roaring_bitmap_frozen_view_loop buf keys counts typecodes n (i + 1)
        (bitset_zone + BITSET_CONTAINER_SIZE_IN_WORDS * 8) run_zone array_zone).map
        (fun ra => (key, container_t.bitset bitset) :: ra)
    else if mem_read_uint8 buf (typecodes + i) = RUN_CONTAINER_TYPE_CODE then
      let run : run_container_t :=
        ⟨count, count, (List.range count).map (fun j => mem_read_rle16 buf (run_zone + 4 * j))⟩
      (roaring_bitmap_frozen_view_loop buf keys counts typecodes n (i + 1)
        bitset_zone (run_zone + run.n_runs * 4) array_zone).map
        (fun ra => (key, container_t.run run) :: ra)
    else if mem_read_uint8 buf (typecodes + i) = ARRAY_CONTAINER_TYPE_CODE then
      let array : array_container_t :=
        ⟨count + 1, count + 1,
          (List.range (count + 1)).map (fun j => mem_read_uint16 buf (array_zone + 2 * j))⟩
      (roaring_bitmap_frozen_view_loop buf keys counts typecodes n (i + 1)
        bitset_zone run_zone (array_zone + (count + 1) * 2)).map
        (fun ra => (key, container_t.array array) :: ra)
    else none

/-- A bitmap over a frozen buffer (`roaring_bitmap_frozen_view`): `buf_addr` is
the address `(uintptr_t)buf`, `buf` the memory from there on, and `malloc_ok`
tells whether the allocation of the arena succeeds.  The result is the flags
of the directory and the bitmap; `none` is the null pointer. -/
def roaring_bitmap_frozen_view (malloc_ok : Bool) (buf_addr : Nat) (buf : Nat → Nat)
    (length : Nat) :
    Option (Nat × roaring_bitmap_t container_t) :=
  if buf_addr % 32 ≠ 0 then none
  else if length < 4 then none
  else
    let header := mem_read_uint32 buf (length - 4)
    if header &&& 0x7FFF ≠ FROZEN_COOKIE then none
    else
      let num_containers := header >>> 15
      if length < 4 + num_containers * (1 + 2 + 2) then none
      else
        let keys := length - 4 - num_containers * 5
        let counts := length - 4 - num_containers * 3
        let typecodes := length - 4 - num_containers * 1
        match roaring_bitmap_frozen_view_sizes buf counts typecodes num_containers 0 0 0 0 with
        | none => none
        | some (bitset_zone_size, run_zone_size, array_zone_size) =>
          if length ≠ bitset_zone_size + run_zone_size + array_zone_size
              + 5 * num_containers + 4 then none
          else if malloc_ok = false then none
          else
            let bitset_zone := 0
            let run_zone := bitset_zone_size
            let array_zone := bitset_zone_size + run_zone_size
            match roaring_bitmap_frozen_view_loop buf keys counts typecodes num_containers 0
                bitset_zone run_zone array_zone with
            | none => none
            | some ra => some (ROARING_FLAG_FROZEN, ⟨ra⟩)

/-! ## Iterator -/

/-- Largest `uint64_t` (`UINT64_MAX`). -/
def UINT64_MAX : Nat := 2 ^ 64 - 1

/-- Modelled from the spec: `container_unwrap_shared` of `containers.h`: the
container inside a shared container, any other container itself. -/
def container_unwrap_shared : container_t → container_t
  | .shared c => c
  | c => c

/-- Modelled from the spec: `__builtin_ctzll` on a non-zero 64-bit word: the
index of its lowest bit set.  The result on 0 is undefined; here it is 64. -/
def builtin_ctzll (w : Nat) : Nat := ((List.range 64).find? (fun b => w.testBit b)).getD 64

/-- The iterator `roaring_uint32_iterator_t`.  The field `typecode` is the
constructor of `container`. -/
structure roaring_uint32_iterator_t where
  /-- The bitmap iterated over. -/
  parent : roaring_bitmap_t container_t
  /-- Index of the current container. -/
  container_index : Int
  /-- Position inside an array or bitset container. -/
  in_container_index : Nat
  /-- Index of the current run of a run container. -/
  run_index : Nat
  /-- The current value. -/
  current_value : Nat
  /-- Whether there is a current value. -/
  has_value : Bool
  /-- The current container, unwrapped. -/
  container : container_t
  /-- The key of the current container, shifted left by 16. -/
  highbits : Nat

/-- Start of the work on a new container (`iter_new_container_partial_init`):
the returned flag and the iterator.  The index has been checked when the
directory is read, so the last case of the `match` is never taken. -/
def iter_new_container_partial_init (newit : roaring_uint32_iterator_t) :
    Bool × roaring_uint32_iterator_t :=
  let newit := { newit with in_container_index := 0, run_index := 0, current_value := 0 }
  if newit.container_index ≥ (newit.parent.high_low_container.length : Int)
      ∨ newit.container_index < 0 then
    (false, { newit with current_value := UINT32_MAX, has_value := false })
  else
    match newit.parent.high_low_container[newit.container_index.toNat]? with
    | some e =>
      (true, { newit with
        has_value := true
        container := container_unwrap_shared e.2
        highbits := (e.1 * 65536) % 2 ^ 32 })
    | none => (false, { newit with current_value := UINT32_MAX, has_value := false })

/-- The loop `while ((word = array[wordindex]) == 0) wordindex++` of
`loadfirstvalue` over the words from `wordindex` on: the final `wordindex` and
`word`; `none` is a read past the words. -/
def loadfirstvalue_scan : List Nat → Nat → Option (Nat × Nat)
  | [], _ => none
  | word :: array, wordindex =>
    if word = 0 then loadfirstvalue_scan array (wordindex + 1) else some (wordindex, word)

/-- Positioning on the first value of the container at `container_index`
(`loadfirstvalue`): the returned flag and the iterator; `none` is a read
outside a buffer or `assert(false)`. -/
def loadfirstvalue (newit : roaring_uint32_iterator_t) :
    Option (Bool × roaring_uint32_iterator_t) :=
  let r := iter_new_container_partial_init newit
  let newit := r.2
  if !r.1 then some (newit.has_value, newit)
  else
    match newit.container with
    | .bitset bitset =>
      match loadfirstvalue_scan bitset.array 0 with
      | none => none
      | some (wordindex, word) =>
        let in_container_index := wordindex * 64 + builtin_ctzll word
        some (true, { newit with
          in_container_index := in_container_index
          current_value := newit.highbits ||| in_container_index })
    | .array array =>
      match array.array[0]? with
      | none => none
      | some v => some (true, { newit with current_value := newit.highbits ||| v })
    | .run run =>
      match run.runs[0]? with
      | none => none
      | some rle => some (true, { newit with current_value := newit.highbits ||| rle.value })
    | .shared _ => none

/-- An iterator on the first value (`roaring_init_iterator`); `newit` is the
iterator structure as the caller hands it over. -/
def roaring_init_iterator (ra : roaring_bitmap_t container_t)
    (newit : roaring_uint32_iterator_t) : Option roaring_uint32_iterator_t :=
  let newit := { newit with parent := ra, container_index := 0 }
  match loadfirstvalue newit with
  | none => none
  | some r => some { r.2 with has_value := r.1 }

/-- The loop `while (word == 0 && wordindex + 1 < 1024)` of
`roaring_advance_uint32_iterator`, which runs fewer than 1024 times: the final
`wordindex` and `word`; `none` is a read past the words (or too little
fuel). -/
def roaring_advance_uint32_iterator_scan (array : List Nat) :
    Nat → Nat → Nat → Option (Nat × Nat)
  | 0, _, _ => none
  | fuel + 1, wordindex, word =>
    if word = 0 ∧ wordindex + 1 < BITSET_CONTAINER_SIZE_IN_WORDS then
      match array[wordindex + 1]? with
      | none => none
      | some w => roaring_advance_uint32_iterator_scan array fuel (wordindex + 1) w
    else some (wordindex, word)

/-- The end of `roaring_advance_uint32_iterator`, reached from a `break`:
moving to the next container. -/
def roaring_advance_uint32_iterator_next (it : roaring_uint32_iterator_t) :
    Option (Bool × roaring_uint32_iterator_t) :=
  let it := { it with container_index := it.container_index + 1 }
  match loadfirstvalue it with
  | none => none
  | some r => some (r.1, { r.2 with has_value := r.1 })

/-- One step forward (`roaring_advance_uint32_iterator`): the returned flag and
the iterator; `none` is a read outside a buffer or `assert(false)`. -/
def roaring_advance_uint32_iterator (it : roaring_uint32_iterator_t) :
    Option (Bool × roaring_uint32_iterator_t) :=
  if it.container_index ≥ (it.parent.high_low_container.length : Int) then
    some (false, { it with has_value := false })
  else if it.container_index < 0 then
    let it := { it with container_index := 0 }
    match loadfirstvalue it with
    | none => none
    | some r => some (r.1, { r.2 with has_value := r.1 })
  else
    match it.container with
    | .bitset bitset =>
      let it := { it with in_container_index := it.in_container_index + 1 }
      let wordindex := it.in_container_index / 64
      if wordindex ≥ BITSET_CONTAINER_SIZE_IN_WORDS then
        roaring_advance_uint32_iterator_next it
      else
        match bitset.array[wordindex]? with
        | none => none
        | some w =>
          let word := w &&& ((UINT64_MAX <<< (it.in_container_index % 64)) % 2 ^ 64)
          match roaring_advance_uint32_iterator_scan bitset.array
              BITSET_CONTAINER_SIZE_IN_WORDS wordindex word with
          | none => none
          | some (wordindex, word) =>
            if word ≠ 0 then
              let in_container_index := wordindex * 64 + builtin_ctzll word
              some (true, { it with
                in_container_index := in_container_index
                current_value := it.highbits ||| in_container_index
                has_value := true })
            else roaring_advance_uint32_iterator_next it
    | .array array =>
      let it := { it with in_container_index := it.in_container_index + 1 }
      if it.in_container_index < array.cardinality then
        match array.array[it.in_container_index]? with
        | none => none
        | some v =>
          some (true, { it with current_value := it.highbits ||| v, has_value := true })
      else roaring_advance_uint32_iterator_next it
    | .run run_container =>
      if it.current_value = UINT32_MAX then some (false, { it with has_value := false })
      else
        match run_container.runs[it.run_index]? with
        | none => none
        | some rle =>
          let it := { it with current_value := (it.current_value + 1) % 2 ^ 32 }
          if it.current_value ≤ it.highbits ||| (rle.value + rle.length) then
            some (true, { it with has_value := true })
          else
            let it := { it with run_index := it.run_index + 1 }
            if it.run_index < run_container.n_runs then
              match run_container.runs[it.run_index]? with
              | none => none
              | some rle2 =>
                some (true, { it with
                  current_value := it.highbits ||| rle2.value
                  has_value := true })
            else roaring_advance_uint32_iterator_next it
    | .shared _ => none

/-- The values seen by a caller who reads `current_value` and calls
`roaring_advance_uint32_iterator` as long as `has_value` holds; `none` if the
calls do not come to an end within `fuel` steps or one of them has no defined
result. -/
def iterator_values : Nat → roaring_uint32_iterator_t → Option (List Nat)
  | 0, _ => none
  | fuel + 1, it =>
    if it.has_value then
      match roaring_advance_uint32_iterator it with
      | none => none
      | some r => (iterator_values fuel r.2).map (fun l => it.current_value :: l)
    else some []

/-! ## Iterator: stepping backwards and reading in bulk -/

/-- Modelled from the spec: `__builtin_clzll` on a non-zero 64-bit word: the
number of zero bits above its highest bit set.  The result on 0 is undefined;
here it is 64. -/
def builtin_clzll (w : Nat) : Nat :=
  ((List.range 64).find? (fun b => w.testBit (63 - b))).getD 64

/-- The loop `while ((word = array[wordindex]) == 0) --wordindex` of
`loadlastvalue`, started at `wordindex`: the final `wordindex` and `word`;
`none` is a read outside the words (below word 0 the 32-bit `wordindex`
wraps). -/
def loadlastvalue_scan (array : List Nat) : Nat → Option (Nat × Nat)
  | 0 =>
    match array[0]? with
    | none => none
    | some word => if word = 0 then none else some (0, word)
  | wordindex + 1 =>
    match array[wordindex + 1]? with
    | none => none
    | some word =>
      if word = 0 then loadlastvalue_scan array wordindex else some (wordindex + 1, word)

/-- Positioning on the last value of the container at `container_index`
(`loadlastvalue`): the returned flag and the iterator; `none` is a read
outside a buffer or `assert(false)`. -/
def loadlastvalue (newit : roaring_uint32_iterator_t) :
    Option (Bool × roaring_uint32_iterator_t) :=
  let r := iter_new_container_partial_init newit
  let newit := r.2
  if !r.1 then some (newit.has_value, newit)
  else
    match newit.container with
    | .bitset bitset_container =>
      match loadlastvalue_scan bitset_container.array (BITSET_CONTAINER_SIZE_IN_WORDS - 1) with
      | none => none
      | some (wordindex, word) =>
        let num_leading_zeros := builtin_clzll word
        let in_container_index := wordindex * 64 + (63 - num_leading_zeros)
        some (true, { newit with
          in_container_index := in_container_index
          current_value := newit.highbits ||| in_container_index })
    | .array array_container =>
      if array_container.cardinality = 0 then none
      else
        match array_container.array[array_container.cardinality - 1]? with
        | none => none
        | some v =>
          some (true, { newit with
            in_container_index := array_container.cardinality - 1
            current_value := newit.highbits ||| v })
    | .run run_container =>
      if run_container.n_runs = 0 then none
      else
        match run_container.runs[run_container.n_runs - 1]? with
        | none => none
        | some last_run =>
          some (true, { newit with
            run_index := run_container.n_runs - 1
            current_value := newit.highbits ||| (last_run.value + last_run.length) })
    | .shared _ => none

/-- An iterator on the last value (`roaring_init_iterator_last`). -/
def roaring_init_iterator_last (ra : roaring_bitmap_t container_t)
    (newit : roaring_uint32_iterator_t) : Option roaring_uint32_iterator_t :=
  let newit := { newit with
    parent := ra
    container_index := (ra.high_low_container.length : Int) - 1 }
  match loadlastvalue newit with
  | none => none
  | some r => some { r.2 with has_value := r.1 }

/-- The loop `while (word == 0 && --wordindex >= 0)` of
`roaring_previous_uint32_iterator`: the final `wordindex` and `word`.  When
the loop ends below word 0 the word is 0 and `wordindex`, which is -1 then, is
not used any more; it is given as 0. -/
def roaring_previous_uint32_iterator_scan (array : List Nat) :
    Nat → Nat → Option (Nat × Nat)
  | 0, word => some (0, word)
  | wordindex + 1, word =>
    if word = 0 then
      match array[wordindex]? with
      | none => none
      | some w => roaring_previous_uint32_iterator_scan array wordindex w
    else some (wordindex + 1, word)

/-- The end of `roaring_previous_uint32_iterator`, reached from a `break`:
moving to the previous container. -/
def roaring_previous_uint32_iterator_prev (it : roaring_uint32_iterator_t) :
    Option (Bool × roaring_uint32_iterator_t) :=
  let it := { it with container_index := it.container_index - 1 }
  match loadlastvalue it with
  | none => none
  | some r => some (r.1, { r.2 with has_value := r.1 })

/-- One step backwards (`roaring_previous_uint32_iterator`): the returned flag
and the iterator; `none` is a read outside a buffer or `assert(false)`.  The
fields `in_container_index` and `run_index` are signed in C; where the
decrement takes them to -1 the code breaks out of the `switch` and
`loadlastvalue` overwrites them before they are read, so here they are left
as they were. -/
def roaring_previous_uint32_iterator (it : roaring_uint32_iterator_t) :
    Option (Bool × roaring_uint32_iterator_t) :=
  if it.container_index < 0 then some (false, { it with has_value := false })
  else if it.container_index ≥ (it.parent.high_low_container.length : Int) then
    let it := { it with
      container_index := (it.parent.high_low_container.length : Int) - 1 }
    match loadlastvalue it with
    | none => none
    | some r => some (r.1, { r.2 with has_value := r.1 })
  else
    match it.container with
    | .bitset bitset_container =>
      if it.in_container_index = 0 then roaring_previous_uint32_iterator_prev it
      else
        let it := { it with in_container_index := it.in_container_index - 1 }
        let wordindex := it.in_container_index / 64
        match bitset_container.array[wordindex]? with
        | none => none
        | some w =>
          let word := w &&& (UINT64_MAX >>> (63 - (it.in_container_index % 64)))
          match roaring_previous_uint32_iterator_scan bitset_container.array wordindex word with
          | none => none
          | some (wordindex, word) =>
            if word = 0 then roaring_previous_uint32_iterator_prev it
            else
              let num_leading_zeros := builtin_clzll word
              let in_container_index := wordindex * 64 + (63 - num_leading_zeros)
              some (true, { it with
                in_container_index := in_container_index
                current_value := it.highbits ||| in_container_index
                has_value := true })
    | .array array_container =>
      if it.in_container_index = 0 then roaring_previous_uint32_iterator_prev it
      else
        let it := { it with in_container_index := it.in_container_index - 1 }
        match array_container.array[it.in_container_index]? with
        | none => none
        | some v =>
          some (true, { it with current_value := it.highbits ||| v, has_value := true })
    | .run run_container =>
      if it.current_value = 0 then some (false, { it with has_value := false })
      else
        match run_container.runs[it.run_index]? with
        | none => none
        | some rle =>
          let it := { it with current_value := it.current_value - 1 }
          if it.current_value ≥ it.highbits ||| rle.value then
            some (true, { it with has_value := true })
          else if it.run_index = 0 then roaring_previous_uint32_iterator_prev it
          else
            let it := { it with run_index := it.run_index - 1 }
            match run_container.runs[it.run_index]? with
            | none => none
            | some rle2 =>
              some (true, { it with
                current_value := it.highbits ||| (rle2.value + rle2.length)
                has_value := true })
    | .shared _ => none

/-- The smaller of two `uint32_t` values (`minimum_uint32`). -/
def minimum_uint32 (a b : Nat) : Nat := if a < b then a else b

/-- Conversion of an integer to `uint32_t`. -/
def uint32_cast (x : Int) : Nat := (x % 2 ^ 32).toNat

/-- The loop `while (word != 0 && ret < count)` of
`roaring_read_uint32_iterator` on one word of a bitset container: the final
`word` and the values written so far; `ret` is the number of values
written. -/
def roaring_read_uint32_iterator_word (highbits wordindex count : Nat) (word : Nat)
    (buf : List Nat) : Nat × List Nat :=
  if h : word ≠ 0 ∧ buf.length < count then
    roaring_read_uint32_iterator_word highbits wordindex count (word &&& (word - 1))
      (buf ++ [highbits ||| (wordindex * 64 + builtin_ctzll word)])
  else (word, buf)
termination_by word
decreasing_by
  have h1 : word &&& (word - 1) ≤ word - 1 := Nat.and_le_right
  have h2 := h.1
  omega

/-- The `do ... while (word != 0 && ret < count)` loop of
`roaring_read_uint32_iterator` on a bitset container, which runs at most 1024
times: the final `wordindex` and `word` and the values written so far; `none`
is a read past the words (or too little fuel). -/
def roaring_read_uint32_iterator_bitset (array : List Nat) (highbits count : Nat) :
    Nat → Nat → Nat → List Nat → Option (Nat × Nat × List Nat)
  | 0, _, _, _ => none
  | fuel + 1, wordindex, word, buf =>
    let r := roaring_read_uint32_iterator_word highbits wordindex count word buf
    match roaring_advance_uint32_iterator_scan array BITSET_CONTAINER_SIZE_IN_WORDS
        wordindex r.1 with
    | none => none
    | some (wordindex, word) =>
      if word ≠ 0 ∧ r.2.length < count then
        roaring_read_uint32_iterator_bitset array highbits count fuel wordindex word r.2
      else some (wordindex, word, r.2)

/-- The `do ... while ((ret < count) && it->has_value)` loop of
`roaring_read_uint32_iterator` on a run container, which runs at most once
per run and once more: the iterator and the values written so far; `none` is
a read outside the runs (or too little fuel). -/
def roaring_read_uint32_iterator_run (rcont : run_container_t) (count : Nat) :
    Nat → roaring_uint32_iterator_t → List Nat →
      Option (roaring_uint32_iterator_t × List Nat)
  | 0, _, _ => none
  | fuel + 1, it, buf =>
    match rcont.runs[it.run_index]? with
    | none => none
    | some rle =>
      let largest_run_value := it.highbits ||| (rle.value + rle.length)
      let num_values := minimum_uint32
        (uint32_cast ((largest_run_value : Int) - it.current_value + 1))
        (uint32_cast ((count : Int) - buf.length))
      let buf := buf ++ (List.range num_values).map (fun i => (it.current_value + i) % 2 ^ 32)
      let it := { it with current_value := (it.current_value + num_values) % 2 ^ 32 }
      if it.current_value > largest_run_value ∨ it.current_value = 0 then
        let it := { it with run_index := it.run_index + 1 }
        if it.run_index < rcont.n_runs then
          match rcont.runs[it.run_index]? with
          | none => none
          | some rle2 =>
            let it := { it with current_value := it.highbits ||| rle2.value }
            if buf.length < count ∧ it.has_value then
              roaring_read_uint32_iterator_run rcont count fuel it buf
            else some (it, buf)
        else some ({ it with has_value := false }, buf)
      else
        if buf.length < count ∧ it.has_value then
          roaring_read_uint32_iterator_run rcont count fuel it buf
        else some (it, buf)

/-- The `switch` of `roaring_read_uint32_iterator`: the values of the current
container are read, as long as `ret < count`; the result is the iterator and
the values written so far, `none` is a read outside a buffer or
`assert(false)`.  The `for` loop over an array container reads
`array[in_container_index + i]` for `i < num_values`. -/
def roaring_read_uint32_iterator_container (count : Nat) (it : roaring_uint32_iterator_t)
    (buf : List Nat) : Option (roaring_uint32_iterator_t × List Nat) :=
  match it.container with
  | .bitset bcont =>
    let wordindex := it.in_container_index / 64
    match bcont.array[wordindex]? with
    | none => none
    | some w =>
      let word := w &&& ((UINT64_MAX <<< (it.in_container_index % 64)) % 2 ^ 64)
      match roaring_read_uint32_iterator_bitset bcont.array it.highbits count
          (BITSET_CONTAINER_SIZE_IN_WORDS + 1) wordindex word buf with
      | none => none
      | some (wordindex, word, buf) =>
        let it := { it with has_value := decide (word ≠ 0) }
        if it.has_value then
          let in_container_index := wordindex * 64 + builtin_ctzll word
          some ({ it with
            in_container_index := in_container_index
            current_value := it.highbits ||| in_container_index }, buf)
        else some (it, buf)
  | .array acont =>
    let num_values := minimum_uint32
      (uint32_cast ((acont.cardinality : Int) - it.in_container_index))
      (uint32_cast ((count : Int) - buf.length))
    if it.in_container_index + num_values ≤ acont.array.length then
      let buf := buf
        ++ ((acont.array.drop it.in_container_index).take num_values).map
            (fun v => it.highbits ||| v)
      let it := { it with in_container_index := it.in_container_index + num_values }
      let it := { it with has_value := decide (it.in_container_index < acont.cardinality) }
      if it.has_value then
        match acont.array[it.in_container_index]? with
        | none => none
        | some v => some ({ it with current_value := it.highbits ||| v }, buf)
      else some (it, buf)
    else none
  | .run rcont => roaring_read_uint32_iterator_run rcont count (rcont.n_runs + 1) it buf
  | .shared _ => none

/-- The `while (it->has_value && ret < count)` loop of
`roaring_read_uint32_iterator`, which runs at most once per container and
once more: the returned `ret`, the iterator and the values written; `none` is
a read outside a buffer, a failed assertion (or too little fuel). -/
def roaring_read_uint32_iterator_loop (count : Nat) :
    Nat → roaring_uint32_iterator_t → List Nat →
      Option (Nat × roaring_uint32_iterator_t × List Nat)
  | 0, _, _ => none
  | fuel + 1, it, buf =>
    if it.has_value ∧ buf.length < count then
      match roaring_read_uint32_iterator_container count it buf with
      | none => none
      | some (it, buf) =>
        if it.has_value then
          if buf.length = count then some (buf.length, it, buf) else none
        else
          let it := { it with container_index := it.container_index + 1 }
          match loadfirstvalue it with
          | none => none
          | some r =>
            roaring_read_uint32_iterator_loop count fuel { r.2 with has_value := r.1 } buf
    else some (buf.length, it, buf)

/-- Reading of up to `count` values (`roaring_read_uint32_iterator`): the
returned number, the iterator and the values written to `buf`; `none` is a
read outside a buffer or a failed assertion. -/
def roaring_read_uint32_iterator (it : roaring_uint32_iterator_t) (count : Nat) :
    Option (Nat × roaring_uint32_iterator_t × List Nat) :=
  roaring_read_uint32_iterator_loop count (it.parent.high_low_container.length + 1) it []

/-- The iterator after `k` calls of `roaring_advance_uint32_iterator`; `none`
if one of the calls has no defined result. -/
def iterator_advance_times : Nat → roaring_uint32_iterator_t → Option roaring_uint32_iterator_t
  | 0, it => some it
  | k + 1, it =>
    match roaring_advance_uint32_iterator it with
    | none => none
    | some r => iterator_advance_times k r.2

/-! ## Cardinality of a range -/

/-- The `for` loop of `roaring_bitmap_range_cardinality` over the entries from
index `i` on, with the running `card`. -/
def roaring_bitmap_range_cardinality_loop (ops : ContainerOps C) (maxhb range_end : Nat) :
    roaring_array_t C → Nat → Nat
  | [], card => card
  | e :: rest, card =>
    if e.1 < maxhb then
      roaring_bitmap_range_cardinality_loop ops maxhb range_end rest
        (card + ops.container_get_cardinality e.2)
    else if e.1 = maxhb then card + ops.container_rank e.2 (range_end % 65536)
    else card

/-- Number of elements in `[range_start, range_end)`
(`roaring_bitmap_range_cardinality`).  An index `i >= 0` returned by
`ra_get_index` is inside the directory, so the last case of the `match` is never
taken. -/
def roaring_bitmap_range_cardinality (ops : ContainerOps C) (ra : roaring_bitmap_t C)
    (range_start range_end : Nat) : Nat :=
  let range_end := if range_end > UINT32_MAX then UINT32_MAX + 1 else range_end
  if range_start ≥ range_end then 0
  else
    let range_end := range_end - 1
    let minhb := range_start / 65536
    let maxhb := range_end / 65536
    let i := ra_get_index ra.high_low_container (minhb % 65536)
    if i ≥ 0 then
      match ra.high_low_container[i.toNat]? with
      | some e =>
        let card :=
          if minhb = maxhb then ops.container_rank e.2 (range_end % 65536)
          else ops.container_get_cardinality e.2
        let card :=
          if range_start % 65536 ≠ 0 then
            uint64_sub card (ops.container_rank e.2 (range_start % 65536 - 1))
          else card
        roaring_bitmap_range_cardinality_loop ops maxhb range_end
          (ra.high_low_container.drop (i.toNat + 1)) card
      | none => 0
    else
      roaring_bitmap_range_cardinality_loop ops maxhb range_end
        (ra.high_low_container.drop (-i - 1).toNat) 0

/-! ## In-place intersection and difference -/

/-- Modelled from the spec: `ra_advance_until_freeing` of `roaring_array.c`:
`ra_advance_until` that also frees the containers of the slots it skips; the
keys and the size are left as they are. -/
def ra_advance_until_freeing (ra : roaring_array_t C) (x : Nat) (pos : Nat) : Nat :=
  ra_advance_until ra x pos

/-- Modelled from the spec: `ra_downsize` of `roaring_array.c`: the size
becomes `new_length`. -/
def ra_downsize (ra : roaring_array_t C) (new_length : Nat) : roaring_array_t C :=
  ra.take new_length

/-- Modelled from the spec: `ra_copy_range` of `roaring_array.c`: the entries
`begin ≤ i < end` are moved (`memmove`) to the slots from `new_begin` on. -/
def ra_copy_range (ra : roaring_array_t C) (begin_ end_ new_begin : Nat) :
    roaring_array_t C :=
  ra.take new_begin ++ (ra.take end_).drop begin_
    ++ ra.drop (new_begin + (end_ - begin_))

/-- Modelled from the spec: `ra_reset` of `roaring_array.c`, called by
`roaring_bitmap_clear`: the directory becomes empty. -/
def ra_reset (_ra : roaring_array_t C) : roaring_array_t C := []

/-- Removal of all values (`roaring_bitmap_clear`). -/
def roaring_bitmap_clear (r : roaring_bitmap_t C) : roaring_bitmap_t C :=
  ⟨ra_reset r.high_low_container⟩

/-- The `while (pos1 < length1 && pos2 < length2)` loop of
`roaring_bitmap_and_inplace`: the state is the directory of `x1`, which keeps
its size `length1` during the loop, with `pos1`, `pos2` and
`intersection_size`; the result is the directory and `intersection_size`. -/
def roaring_bitmap_and_inplace_loop (ops : ContainerOps C) (x2 : roaring_array_t C)
    (x1 : roaring_array_t C) (pos1 pos2 intersection_size : Nat) :
    roaring_array_t C × Nat :=
  if h : pos1 < x1.length ∧ pos2 < x2.length then
    let s1 := (x1[pos1]).1
    let s2 := (x2[pos2]).1
    if s1 = s2 then
      let c := ops.container_iand (x1[pos1]).2 (x2[pos2]).2
      if ops.container_nonzero_cardinality c then
        roaring_bitmap_and_inplace_loop ops x2
          (ra_replace_key_and_container_at_index x1 intersection_size s1 c)
          (pos1 + 1) (pos2 + 1) (intersection_size + 1)
      else
        roaring_bitmap_and_inplace_loop ops x2 x1 (pos1 + 1) (pos2 + 1) intersection_size
    else if h12 : s1 < s2 then
      roaring_bitmap_and_inplace_loop ops x2 x1 (ra_advance_until_freeing x1 s2 pos1) pos2
        intersection_size
    else
      roaring_bitmap_and_inplace_loop ops x2 x1 pos1 (ra_advance_until x2 s1 pos2)
        intersection_size
  else (x1, intersection_size)
termination_by (x1.length - pos1) + (x2.length - pos2)
decreasing_by
  all_goals simp_wf
  · simp only [ra_replace_key_and_container_at_index, List.length_set]
    omega
  · omega
  · have hd : x1.drop pos1 = x1[pos1] :: x1.drop (pos1 + 1) := List.drop_eq_getElem_cons h.1
    have : 0 < ((x1.drop pos1).takeWhile (fun e => decide (e.1 < (x2[pos2]).1))).length := by
      rw [hd, List.takeWhile_cons_of_pos (by simpa using h12)]
      simp
    unfold ra_advance_until_freeing ra_advance_until
    omega
  · have h21 : (x2[pos2]).1 < (x1[pos1]).1 := by omega
    have hd : x2.drop pos2 = x2[pos2] :: x2.drop (pos2 + 1) := List.drop_eq_getElem_cons h.2
    have : 0 < ((x2.drop pos2).takeWhile (fun e => decide (e.1 < (x1[pos1]).1))).length := by
      rw [hd, List.takeWhile_cons_of_pos (by simpa using h21)]
      simp
    unfold ra_advance_until
    omega

/-- In-place intersection (`roaring_bitmap_and_inplace`): the new value of
`x1`.  `same` is the pointer test `x1 == x2`.  The loop that frees the
remaining containers of `x1` changes no slot. -/
def roaring_bitmap_and_inplace (ops : ContainerOps C) (same : Bool)
    (x1 x2 : roaring_bitmap_t C) : roaring_bitmap_t C :=
  if same then x1
  else
    let st := roaring_bitmap_and_inplace_loop ops x2.high_low_container
      x1.high_low_container 0 0 0
    ⟨ra_downsize st.1 st.2⟩

/-- The `while (true)` loop of `roaring_bitmap_andnot_inplace`, returning the
directory of `x1`, `pos1`, `pos2` and `intersection_size` at the `break`.  The
loop is entered with `pos1 < length1` and `pos2 < length2` and every `break`
tests `pos1 == length1` or `pos2 == length2` right after a change of the
position, so the tests are written as the guard at the head; `s1`, `s2` are
re-read from the positions. -/
def roaring_bitmap_andnot_inplace_loop (ops : ContainerOps C) (x2 : roaring_array_t C)
    (x1 : roaring_array_t C) (pos1 pos2 intersection_size : Nat) :
    roaring_array_t C × Nat × Nat × Nat :=
  if h : pos1 < x1.length ∧ pos2 < x2.length then
    let s1 := (x1[pos1]).1
    let s2 := (x2[pos2]).1
    if s1 = s2 then
      let c := ops.container_iandnot (x1[pos1]).2 (x2[pos2]).2
      if ops.container_nonzero_cardinality c then
        roaring_bitmap_andnot_inplace_loop ops x2
          (ra_replace_key_and_container_at_index x1 intersection_size s1 c)
          (pos1 + 1) (pos2 + 1) (intersection_size + 1)
      else
        roaring_bitmap_andnot_inplace_loop ops x2 x1 (pos1 + 1) (pos2 + 1) intersection_size
    else if s1 < s2 then
      let x1a :=
        if pos1 ≠ intersection_size then
          ra_replace_key_and_container_at_index x1 intersection_size s1 (x1[pos1]).2
        else x1
      roaring_bitmap_andnot_inplace_loop ops x2 x1a (pos1 + 1) pos2 (intersection_size + 1)
    else
      roaring_bitmap_andnot_inplace_loop ops x2 x1 pos1 (ra_advance_until x2 s1 pos2)
        intersection_size
  else (x1, pos1, pos2, intersection_size)
termination_by (x1.length - pos1) + (x2.length - pos2)
decreasing_by
  all_goals simp_wf
  · simp only [ra_replace_key_and_container_at_index, List.length_set]
    omega
  · omega
  · split
    · omega
    · simp only [ra_replace_key_and_container_at_index, List.length_set]
      omega
  · rename_i hne hlt
    have h21 : (x2[pos2]).1 < (x1[pos1]).1 := by omega
    have hd : x2.drop pos2 = x2[pos2] :: x2.drop (pos2 + 1) := List.drop_eq_getElem_cons h.2
    have : 0 < ((x2.drop pos2).takeWhile (fun e => decide (e.1 < (x1[pos1]).1))).length := by
      rw [hd, List.takeWhile_cons_of_pos (by simpa using h21)]
      simp
    unfold ra_advance_until
    omega

/-- In-place difference (`roaring_bitmap_andnot_inplace`): the new value of
`x1`; the caller guarantees `x1 != x2`. -/
def roaring_bitmap_andnot_inplace (ops : ContainerOps C) (x1 x2 : roaring_bitmap_t C) :
    roaring_bitmap_t C :=
  let length1 := x1.high_low_container.length
  let length2 := x2.high_low_container.length
  if 0 = length2 then x1
  else if 0 = length1 then roaring_bitmap_clear x1
  else
    let st := roaring_bitmap_andnot_inplace_loop ops x2.high_low_container
      x1.high_low_container 0 0 0
    let pos1 := st.2.1
    let intersection_size := st.2.2.2
    if pos1 < length1 then
      let ra := if pos1 > intersection_size then
          ra_copy_range st.1 pos1 length1 intersection_size
        else st.1
      ⟨ra_downsize ra (intersection_size + (length1 - pos1))⟩
    else ⟨ra_downsize st.1 intersection_size⟩

/-! ## Union of an array container and a run container

The run-container helpers below belong to `containers/run.h` and
`containers/run.c`, which are not among the sources.  A read or write outside
the buffer of a run container has no defined result (`none`).  Positions and
sizes are `int32_t` in the code; they stay below 2^31. -/

/-- Modelled from the spec: `run_container_is_full`: the container is the
single run `{0, 0xFFFF}`; the first run is read. -/
def run_container_is_full (run : run_container_t) : Option Bool :=
  match run.runs[0]? with
  | none => none
  | some vl =>
    some (decide (run.n_runs = 1) && decide (vl.value = 0) && decide (vl.length = 0xFFFF))

/-- Modelled from the spec: `run_container_grow`: the buffer is replaced by one
that holds at least `min` runs (the model allocates no more than that); with
`copy` the old contents are kept, otherwise the contents of the new buffer are
arbitrary (`junk`).  The number of runs is not touched. -/
def run_container_grow (run : run_container_t) (min : Nat) (copy : Bool)
    (junk : Nat → rle16_t) : run_container_t :=
  let newCapacity := if run.capacity < min then min else run.capacity
  { run with
    capacity := newCapacity
    runs := (List.range newCapacity).map
      (fun i => if copy then (run.runs[i]?).getD (junk i) else junk i) }

/-- Modelled from the spec: `run_container_copy`: `dst` becomes a copy of
`src`, its buffer grown if it is too small. -/
def run_container_copy (src dst : run_container_t) (junk : Nat → rle16_t) : run_container_t :=
  let dst := if src.n_runs > dst.capacity then run_container_grow dst src.n_runs false junk
    else dst
  { dst with n_runs := src.n_runs, runs := src.runs.take src.n_runs ++ dst.runs.drop src.n_runs }

/-- Modelled from the spec: `run_container_append_first`: the run `vl` is
written behind the runs of `run`; the result is the container and the run
written. -/
def run_container_append_first (run : run_container_t) (vl : rle16_t) :
    Option (run_container_t × rle16_t) :=
  if run.n_runs < run.runs.length then
    some ({ run with runs := run.runs.set run.n_runs vl, n_runs := run.n_runs + 1 }, vl)
  else none

/-- Modelled from the spec: `run_container_append_value_first`: the run that
holds only `val` is written behind the runs of `run`. -/
def run_container_append_value_first (run : run_container_t) (val : Nat) :
    Option (run_container_t × rle16_t) :=
  let newrle : rle16_t := ⟨val, 0⟩
  if run.n_runs < run.runs.length then
    some ({ run with runs := run.runs.set run.n_runs newrle, n_runs := run.n_runs + 1 }, newrle)
  else none

/-- Modelled from the spec: `run_container_append`: the run `vl`, which starts
at or after the start of the last run written `previousrl`, is merged into it
when it touches or overlaps it and written behind it otherwise; the result is
the container and the new `*previousrl`. -/
def run_container_append (run : run_container_t) (vl previousrl : rle16_t) :
    Option (run_container_t × rle16_t) :=
  let previousend := previousrl.value + previousrl.length
  if vl.value > previousend + 1 then
    if run.n_runs < run.runs.length then
      some ({ run with runs := run.runs.set run.n_runs vl, n_runs := run.n_runs + 1 }, vl)
    else none
  else
    let newend := vl.value + vl.length + 1
    if newend > previousend then
      let previousrl : rle16_t :=
        { previousrl with length := (newend - 1 - previousrl.value) % 65536 }
      if 1 ≤ run.n_runs ∧ run.n_runs - 1 < run.runs.length then
        some ({ run with runs := run.runs.set (run.n_runs - 1) previousrl }, previousrl)
      else none
    else some (run, previousrl)

/-- Modelled from the spec: `run_container_append_value`: the value `val`,
which is at or after the start of the last run written `previousrl`, extends
that run when it follows it directly, is dropped when the run holds it, and is
written as a run of its own otherwise. -/
def run_container_append_value (run : run_container_t) (val : Nat) (previousrl : rle16_t) :
    Option (run_container_t × rle16_t) :=
  let previousend := previousrl.value + previousrl.length
  if val > previousend + 1 then
    let previousrl : rle16_t := ⟨val, 0⟩
    if run.n_runs < run.runs.length then
      some ({ run with runs := run.runs.set run.n_runs previousrl, n_runs := run.n_runs + 1 },
        previousrl)
    else none
  else if val = previousend + 1 then
    let previousrl : rle16_t := { previousrl with length := (previousrl.length + 1) % 65536 }
    if 1 ≤ run.n_runs ∧ run.n_runs - 1 < run.runs.length then
      some ({ run with runs := run.runs.set (run.n_runs - 1) previousrl }, previousrl)
    else none
  else some (run, previousrl)

/-- The first loop of `array_run_container_union` and of
`array_run_container_inplace_union`, `while ((rlepos < n_runs) && (arraypos <
src_1->cardinality))`.  The two functions differ in where the input runs are
read: `input dst rlepos` is `src_2->runs[rlepos]` in the first and
`inputsrc2[rlepos]`, a place in the buffer of the container written to, in
the second.  The result is `rlepos`, `arraypos`, the container written to and
`previousrle`. -/
def array_run_container_union_loop (input : run_container_t → Nat → Option rle16_t)
    (src_1 : array_container_t) (n_runs : Nat) (rlepos arraypos : Nat) (dst : run_container_t)
    (previousrle : rle16_t) : Option (Nat × Nat × run_container_t × rle16_t) :=
  if rlepos < n_runs ∧ arraypos < src_1.cardinality then
    match input dst rlepos, src_1.array[arraypos]? with
    | some rle, some v =>
      if rle.value ≤ v then
        match run_container_append dst rle previousrle with
        | none => none
        | some r =>
          array_run_container_union_loop input src_1 n_runs (rlepos + 1) arraypos r.1 r.2
      else
        match run_container_append_value dst v previousrle with
        | none => none
        | some r =>
          array_run_container_union_loop input src_1 n_runs rlepos (arraypos + 1) r.1 r.2
    | _, _ => none
  else some (rlepos, arraypos, dst, previousrle)
termination_by (n_runs - rlepos) + (src_1.cardinality - arraypos)
decreasing_by
  all_goals simp_wf
  all_goals omega

/-- The loop `while (arraypos < src_1->cardinality)` over the rest of the
array. -/
def array_run_container_union_array_rest (src_1 : array_container_t) (arraypos : Nat)
    (dst : run_container_t) (previousrle : rle16_t) : Option run_container_t :=
  if arraypos < src_1.cardinality then
    match src_1.array[arraypos]? with
    | none => none
    | some v =>
      match run_container_append_value dst v previousrle with
      | none => none
      | some r => array_run_container_union_array_rest src_1 (arraypos + 1) r.1 r.2
  else some dst
termination_by src_1.cardinality - arraypos

/-- The loop `while (rlepos < n_runs)` over the rest of the runs. -/
def array_run_container_union_run_rest (input : run_container_t → Nat → Option rle16_t)
    (n_runs : Nat) (rlepos : Nat) (dst : run_container_t) (previousrle : rle16_t) :
    Option run_container_t :=
  if rlepos < n_runs then
    match input dst rlepos with
    | none => none
    | some rle =>
      match run_container_append dst rle previousrle with
      | none => none
      | some r => array_run_container_union_run_rest input n_runs (rlepos + 1) r.1 r.2
  else some dst
termination_by n_runs - rlepos

/-- The part that `array_run_container_union` and
`array_run_container_inplace_union` have in common, from the first append on:
the first run or value, the merge loop and the loop over the rest. -/
def array_run_container_union_merge (input : run_container_t → Nat → Option rle16_t)
    (src_1 : array_container_t) (n_runs : Nat) (dst : run_container_t) :
    Option run_container_t :=
  let rlepos := 0
  let arraypos := 0
  match input dst rlepos, src_1.array[arraypos]? with
  | some rle, some v =>
    let first :=
      if rle.value ≤ v then
        (run_container_append_first dst rle).map (fun r => (rlepos + 1, arraypos, r))
      else
        (run_container_append_value_first dst v).map (fun r => (rlepos, arraypos + 1, r))
    match first with
    | none => none
    | some (rlepos, arraypos, dst, previousrle) =>
      match array_run_container_union_loop input src_1 n_runs rlepos arraypos dst previousrle with
      | none => none
      | some (rlepos, arraypos, dst, previousrle) =>
        if arraypos < src_1.cardinality then
          array_run_container_union_array_rest src_1 arraypos dst previousrle
        else array_run_container_union_run_rest input n_runs rlepos dst previousrle
  | _, _ => none

/-- Union of an array container and a run container, written to `dst`
(`array_run_container_union` of `containers/mixed_union.c`). -/
def array_run_container_union (src_1 : array_container_t) (src_2 dst : run_container_t)
    (junk : Nat → rle16_t) : Option run_container_t :=
  match run_container_is_full src_2 with
  | none => none
  | some true => some (run_container_copy src_2 dst junk)
  | some false =>
    let dst := run_container_grow dst (2 * (src_1.cardinality + src_2.n_runs)) false junk
    array_run_container_union_merge (fun _ rlepos => src_2.runs[rlepos]?) src_1 src_2.n_runs dst

/-- The call `memmove(runs + dst, runs + src, n * sizeof(rle16_t))` inside one
buffer. -/
def memmove_runs (runs : List rle16_t) (dst src n : Nat) : Option (List rle16_t) :=
  if dst + n ≤ runs.length ∧ src + n ≤ runs.length then
    some (runs.take dst ++ (runs.drop src).take n ++ runs.drop (dst + n))
  else none

/-- Union of an array container and a run container, written to the run
container (`array_run_container_inplace_union` of
`containers/mixed_union.c`). -/
def array_run_container_inplace_union (src_1 : array_container_t) (src_2 : run_container_t)
    (junk : Nat → rle16_t) : Option run_container_t :=
  match run_container_is_full src_2 with
  | none => none
  | some true => some src_2
  | some false =>
    let maxoutput := src_1.cardinality + src_2.n_runs
    let neededcapacity := maxoutput + src_2.n_runs
    let src_2 :=
      if src_2.capacity < neededcapacity then run_container_grow src_2 neededcapacity true junk
      else src_2
    match memmove_runs src_2.runs maxoutput 0 src_2.n_runs with
    | none => none
    | some runs =>
      let src2nruns := src_2.n_runs
      let src_2 := { src_2 with runs := runs, n_runs := 0 }
      array_run_container_union_merge (fun dst rlepos => dst.runs[maxoutput + rlepos]?) src_1
        src2nruns src_2

/-! ## Reference merges (used to state what the loops compute) -/

/-- Two-cursor intersection of two directories, one entry at a time. -/
def and_merge (ops : ContainerOps C) : roaring_array_t C → roaring_array_t C → roaring_array_t C
  | [], _ => []
  | _ :: _, [] => []
  | e1 :: t1, e2 :: t2 =>
    if e1.1 = e2.1 then
      if ops.container_nonzero_cardinality (ops.container_and e1.2 e2.2) then
        (e1.1, ops.container_and e1.2 e2.2) :: and_merge ops t1 t2
      else and_merge ops t1 t2
    else if e1.1 < e2.1 then and_merge ops t1 (e2 :: t2)
    else and_merge ops (e1 :: t1) t2
termination_by l1 l2 => l1.length + l2.length

/-- Two-cursor union of two directories, one entry at a time. -/
def or_merge (ops : ContainerOps C) : roaring_array_t C → roaring_array_t C → roaring_array_t C
  | [], l2 => l2
  | e1 :: t1, [] => e1 :: t1
  | e1 :: t1, e2 :: t2 =>
    if e1.1 = e2.1 then (e1.1, ops.container_or e1.2 e2.2) :: or_merge ops t1 t2
    else if e1.1 < e2.1 then e1 :: or_merge ops t1 (e2 :: t2)
    else e2 :: or_merge ops (e1 :: t1) t2
termination_by l1 l2 => l1.length + l2.length

/-- Two-cursor symmetric difference of two directories. -/
def xor_merge (ops : ContainerOps C) : roaring_array_t C → roaring_array_t C → roaring_array_t C
  | [], l2 => l2
  | e1 :: t1, [] => e1 :: t1
  | e1 :: t1, e2 :: t2 =>
    if e1.1 = e2.1 then
      if ops.container_nonzero_cardinality (ops.container_xor e1.2 e2.2) then
        (e1.1, ops.container_xor e1.2 e2.2) :: xor_merge ops t1 t2
      else xor_merge ops t1 t2
    else if e1.1 < e2.1 then e1 :: xor_merge ops t1 (e2 :: t2)
    else e2 :: xor_merge ops (e1 :: t1) t2
termination_by l1 l2 => l1.length + l2.length

/-- Two-cursor difference of two directories. -/
def andnot_merge (ops : ContainerOps C) :
    roaring_array_t C → roaring_array_t C → roaring_array_t C
  | [], _ => []
  | e1 :: t1, [] => e1 :: t1
  | e1 :: t1, e2 :: t2 =>
    if e1.1 = e2.1 then
      if ops.container_nonzero_cardinality (ops.container_andnot e1.2 e2.2) then
        (e1.1, ops.container_andnot e1.2 e2.2) :: andnot_merge ops t1 t2
      else andnot_merge ops t1 t2
    else if e1.1 < e2.1 then e1 :: andnot_merge ops t1 (e2 :: t2)
    else andnot_merge ops (e1 :: t1) t2
termination_by l1 l2 => l1.length + l2.length

/-- Two-cursor inclusion test of two directories, one entry at a time. -/
def subset_merge (ops : ContainerOps C) : roaring_array_t C → roaring_array_t C → Bool
  | [], _ => true
  | _ :: _, [] => false
  | e1 :: t1, e2 :: t2 =>
    if e1.1 = e2.1 then
      if !(ops.container_is_subset e1.2 e2.2) then false else subset_merge ops t1 t2
    else if e1.1 < e2.1 then false
    else subset_merge ops (e1 :: t1) t2
termination_by l1 l2 => l1.length + l2.length

/-! ## Specification predicates -/

/-- Keys strictly increasing along the directory. -/
def keys_sorted (ra : roaring_array_t C) : Prop :=
  ra.Pairwise (fun a b => a.1 < b.1)

/-- Key `hb` has a directory entry whose container holds the low part `lb`. -/
def ra_has (ops : ContainerOps C) (ra : roaring_array_t C) (hb lb : Nat) : Prop :=
  ∃ c, (hb, c) ∈ ra ∧ ops.container_contains c lb = true

/-- A container holds at least one 16-bit value. -/
def container_nonempty (ops : ContainerOps C) (c : C) : Prop :=
  ∃ v, v < 65536 ∧ ops.container_contains c v = true

/-- Directory invariants: keys are 16-bit and strictly increasing, and no
container is empty. -/
def ra_valid (ops : ContainerOps C) (ra : roaring_array_t C) : Prop :=
  keys_sorted ra ∧ (∀ e ∈ ra, e.1 < 65536) ∧ (∀ e ∈ ra, container_nonempty ops e.2)

/-- A valid bitmap: its directory satisfies the directory invariants. -/
def valid (ops : ContainerOps C) (r : roaring_bitmap_t C) : Prop :=
  ra_valid ops r.high_low_container

/-! ### Contracts of the container layer -/

/-- Contract of `container_nonzero_cardinality`. -/
def nonzero_cardinality_spec (ops : ContainerOps C) : Prop :=
  ∀ c, ops.container_nonzero_cardinality c = true ↔ container_nonempty ops c

/-- Contract of `container_and`. -/
def container_and_spec (ops : ContainerOps C) : Prop :=
  ∀ a b v, v < 65536 →
    ops.container_contains (ops.container_and a b) v
      = (ops.container_contains a v && ops.container_contains b v)

/-- Contract of `container_or`. -/
def container_or_spec (ops : ContainerOps C) : Prop :=
  ∀ a b v, v < 65536 →
    ops.container_contains (ops.container_or a b) v
      = (ops.container_contains a v || ops.container_contains b v)

/-- Contract of `container_xor`. -/
def container_xor_spec (ops : ContainerOps C) : Prop :=
  ∀ a b v, v < 65536 →
    ops.container_contains (ops.container_xor a b) v
      = xor (ops.container_contains a v) (ops.container_contains b v)

/-- Contract of `container_andnot`. -/
def container_andnot_spec (ops : ContainerOps C) : Prop :=
  ∀ a b v, v < 65536 →
    ops.container_contains (ops.container_andnot a b) v
      = (ops.container_contains a v && !ops.container_contains b v)

/-- Contract of `container_get_cardinality`: the number of 16-bit values
held. -/
def cardinality_spec (ops : ContainerOps C) : Prop :=
  ∀ c, ops.container_get_cardinality c
    = (List.range 65536).countP (fun v => ops.container_contains c v)

/-- Contract of `array_container_create`: an empty array container. -/
def array_container_create_spec (ops : ContainerOps C) : Prop :=
  ops.get_container_type ops.array_container_create = ARRAY_CONTAINER_TYPE_CODE
  ∧ ∀ v, v < 65536 → ops.container_contains ops.array_container_create v = false

/-- Contract of `container_add`: the value is added; a new container is
returned only when the value was absent; an array container that is not full
stays an array container. -/
def container_add_spec (ops : ContainerOps C) : Prop :=
  (∀ c x v, x < 65536 → v < 65536 →
    ops.container_contains (ops.container_add c x).1 v
      = (ops.container_contains c v || decide (v = x)))
  ∧ (∀ c x, x < 65536 → (ops.container_add c x).2 = true →
      ops.container_contains c x = false)
  ∧ (∀ c x, x < 65536 → ops.get_container_type c = ARRAY_CONTAINER_TYPE_CODE →
      ops.container_get_cardinality c < DEFAULT_MAX_SIZE →
      ops.get_container_type (ops.container_add c x).1 = ARRAY_CONTAINER_TYPE_CODE)

/-- Contract of `container_remove`: the value is removed. -/
def container_remove_spec (ops : ContainerOps C) : Prop :=
  ∀ c x v, x < 65536 → v < 65536 →
    ops.container_contains (ops.container_remove c x) v
      = (ops.container_contains c v && !decide (v = x))

/-- Contract of `container_not_range`: membership is inverted inside
`[range_start, range_end)` and kept outside. -/
def container_not_range_spec (ops : ContainerOps C) : Prop :=
  ∀ c a b v, a < b → b ≤ 65536 → v < 65536 →
    ops.container_contains (ops.container_not_range c a b) v
      = xor (ops.container_contains c v) (decide (a ≤ v ∧ v < b))

/-- Contract of `container_not`: membership is inverted on `[0, 2^16)`. -/
def container_not_spec (ops : ContainerOps C) : Prop :=
  ∀ c v, v < 65536 →
    ops.container_contains (ops.container_not c) v = !ops.container_contains c v

/-- Contract of `container_range_of_ones`: exactly the values of
`[range_start, range_end)`. -/
def container_range_of_ones_spec (ops : ContainerOps C) : Prop :=
  ∀ a b v, a < b → b ≤ 65536 → v < 65536 →
    ops.container_contains (ops.container_range_of_ones a b) v = decide (a ≤ v ∧ v < b)

/-- Invariant of the answer while `roaring_bitmap_flip` walks the high keys:
the answer is a valid directory with keys below `K`; it holds exactly the
pairs `(hb, lb)` with `hb < K` that satisfy the target predicate `T`; and it
has every expected entry (predicate `M`) whose key is below `K`. -/
def flip_inv (ops : ContainerOps C) (T : Nat → Nat → Prop) (M : Nat × C → Prop)
    (ans : roaring_array_t C) (K : Nat) : Prop :=
  ra_valid ops ans ∧ (∀ e ∈ ans, e.1 < K)
    ∧ (∀ hb lb, lb < 65536 → (ra_has ops ans hb lb ↔ hb < K ∧ T hb lb))
    ∧ ∀ e, M e → e.1 < K → e ∈ ans

/-- Entries that `roaring_bitmap_flip` is expected to produce as they are: the
entries of `x1` with a key outside `[hs, he]`, and for every key of `[hs, he]`
that `x1` lacks, the range-of-ones container of the part of the range under
that key (`ls` is the first low value under `hs`, `le` the last under `he`). -/
def flip_members (ops : ContainerOps C) (x1 : roaring_array_t C) (hs ls he le : Nat)
    (e : Nat × C) : Prop :=
  (e ∈ x1 ∧ (e.1 < hs ∨ he < e.1))
    ∨ (hs ≤ e.1 ∧ e.1 ≤ he ∧ e.1 ∉ x1.map Prod.fst
        ∧ e.2 = ops.container_range_of_ones (if e.1 = hs then ls else 0)
            (if e.1 = he then le + 1 else 0x10000))

/-- The value `hb * 2^16 + lb` lies in `[range_start, range_end)`. -/
def in_range (range_start range_end hb lb : Nat) : Prop :=
  range_start ≤ hb * 65536 + lb ∧ hb * 65536 + lb < range_end

/-- Target of a flip: the pair is in exactly one of the directory `x1` and the
range. -/
def flip_target (ops : ContainerOps C) (x1 : roaring_array_t C)
    (range_start range_end hb lb : Nat) : Prop :=
  (ra_has ops x1 hb lb ∧ ¬ in_range range_start range_end hb lb)
    ∨ (¬ ra_has ops x1 hb lb ∧ in_range range_start range_end hb lb)

/-- Contract of `container_and_cardinality`: the number of common values. -/
def container_and_cardinality_spec (ops : ContainerOps C) : Prop :=
  ∀ a b, ops.container_and_cardinality a b
    = (List.range 65536).countP
        (fun v => ops.container_contains a v && ops.container_contains b v)

/-- Contract of `container_rank`: the number of values not above `x`. -/
def container_rank_spec (ops : ContainerOps C) : Prop :=
  ∀ c x, x < 65536 →
    ops.container_rank c x = (List.range (x + 1)).countP (fun v => ops.container_contains c v)

/-- Contract of `container_select`.  When the wanted rank lies beyond this
container, the call returns false, adds the cardinality to `*start_rank` and
leaves `*element` alone; otherwise it returns true and stores the value that has
exactly `rank - *start_rank` smaller values in the container. -/
def container_select_spec (ops : ContainerOps C) : Prop :=
  ∀ c start_rank rank element,
    (start_rank + ops.container_get_cardinality c ≤ rank →
      ops.container_select c start_rank rank element
        = (false, start_rank + ops.container_get_cardinality c, element))
    ∧ (start_rank ≤ rank → rank < start_rank + ops.container_get_cardinality c →
      (ops.container_select c start_rank rank element).1 = true
      ∧ (ops.container_select c start_rank rank element).2.2 < 65536
      ∧ ops.container_contains c (ops.container_select c start_rank rank element).2.2 = true
      ∧ (List.range (ops.container_select c start_rank rank element).2.2).countP
          (fun v => ops.container_contains c v) = rank - start_rank)

/-- Contract of `container_minimum` on a non-empty container. -/
def container_minimum_spec (ops : ContainerOps C) : Prop :=
  ∀ c, container_nonempty ops c →
    ops.container_minimum c < 65536
    ∧ ops.container_contains c (ops.container_minimum c) = true
    ∧ ∀ v, v < 65536 → ops.container_contains c v = true → ops.container_minimum c ≤ v

/-- Contract of `container_maximum` on a non-empty container. -/
def container_maximum_spec (ops : ContainerOps C) : Prop :=
  ∀ c, container_nonempty ops c →
    ops.container_maximum c < 65536
    ∧ ops.container_contains c (ops.container_maximum c) = true
    ∧ ∀ v, v < 65536 → ops.container_contains c v = true → v ≤ ops.container_maximum c

/-- Contract of `container_add_range` on a closed interval of 16-bit values. -/
def container_add_range_spec (ops : ContainerOps C) : Prop :=
  ∀ c min max v, min ≤ max → max < 65536 → v < 65536 →
    ops.container_contains (ops.container_add_range c min max) v
      = (ops.container_contains c v || decide (min ≤ v ∧ v ≤ max))

/-- Contract of `container_remove_range` on a closed interval of 16-bit values:
the null pointer is returned exactly when nothing is left. -/
def container_remove_range_spec (ops : ContainerOps C) : Prop :=
  ∀ c min max, min ≤ max → max < 65536 →
    (ops.container_remove_range c min max = none →
      ∀ v, v < 65536 → ops.container_contains c v = true → min ≤ v ∧ v ≤ max)
    ∧ (∀ c2, ops.container_remove_range c min max = some c2 →
      container_nonempty ops c2
      ∧ ∀ v, v < 65536 →
        ops.container_contains c2 v
          = (ops.container_contains c v && !decide (min ≤ v ∧ v ≤ max)))

/-- Contract of `container_from_range`: the values `min, min + step, ...` below
`max`. -/
def container_from_range_spec (ops : ContainerOps C) : Prop :=
  ∀ min max step v, min < max → max ≤ 65536 → 0 < step → v < 65536 →
    ops.container_contains (ops.container_from_range min max step) v
      = decide (min ≤ v ∧ v < max ∧ (v - min) % step = 0)

/-- Sum of the container cardinalities of a directory. -/
def ra_cardinality (ops : ContainerOps C) (ra : roaring_array_t C) : Nat :=
  (ra.map (fun e => ops.container_get_cardinality e.2)).sum

/-- Boolean membership of a 32-bit value in a directory: some entry carries
the high half as key and holds the low half. -/
def ra_contains (ops : ContainerOps C) (ra : roaring_array_t C) (v : Nat) : Bool :=
  ra.any (fun e => decide (e.1 = v / 65536) && ops.container_contains e.2 (v % 65536))

/-- The container that `roaring_bitmap_add_range_closed` stores for `key`, given
the container `o` found for that key in the old directory, if any. -/
def add_range_closed_container (ops : ContainerOps C) (min max : Nat) (o : Option C)
    (key : Nat) : C :=
  match o with
  | some c =>
    ops.container_add_range c (if min / 65536 = key then min % 65536 else 0)
      (if max / 65536 = key then max % 65536 else 0xffff)
  | none =>
    ops.container_from_range (if min / 65536 = key then min % 65536 else 0)
      ((if max / 65536 = key then max % 65536 else 0xffff) + 1) 1

/-- What `roaring_bitmap_remove_range_closed` makes of an entry whose key lies
in `[min >> 16, max >> 16]`: the entry with its range removed, or nothing when
the container is emptied. -/
def remove_range_closed_entry (ops : ContainerOps C) (min max : Nat) (e : Nat × C) :
    Option (Nat × C) :=
  (ops.container_remove_range e.2 (if min / 65536 = e.1 then min % 65536 else 0)
    (if max / 65536 = e.1 then max % 65536 else 0xffff)).map (fun c => (e.1, c))

/-- The value `v` belongs to the progression `m0, m0 + s, ...` and is below
`B`. -/
def in_progression (m0 s B v : Nat) : Prop := m0 ≤ v ∧ v < B ∧ (v - m0) % s = 0

/-- Contract of `container_is_subset`. -/
def container_is_subset_spec (ops : ContainerOps C) : Prop :=
  ∀ a b, ops.container_is_subset a b = true
    ↔ ∀ v, v < 65536 → ops.container_contains a v = true → ops.container_contains b v = true

/-- Contract of `ra_portable_serialize` and `ra_portable_size_in_bytes`: the
stream has the announced size. -/
def portable_serialize_size_spec (ops : ContainerOps C) (pops : PortableOps C) : Prop :=
  ∀ ra, ra_valid ops ra →
    (pops.ra_portable_serialize ra).length = pops.ra_portable_size_in_bytes ra

/-- Contract of `ra_portable_size_in_bytes`: at most 65536 containers, each with
a body far below 2^18 bytes, give a stream below 2^34 bytes. -/
def portable_size_bound_spec (ops : ContainerOps C) (pops : PortableOps C) : Prop :=
  ∀ ra, ra_valid ops ra → pops.ra_portable_size_in_bytes ra < 2 ^ 34

/-- Contract of `ra_portable_deserialize` after `ra_portable_serialize`: the
stream, whatever follows it in the buffer, is read back as a valid directory
with the same elements. -/
def portable_round_trip_spec (ops : ContainerOps C) (pops : PortableOps C) : Prop :=
  ∀ ra, ra_valid ops ra → ∀ rest, ∃ ans,
    pops.ra_portable_deserialize (pops.ra_portable_serialize ra ++ rest) SIZE_MAX = some ans
    ∧ ra_valid ops ans.1
    ∧ ∀ hb lb, lb < 65536 → (ra_has ops ans.1 hb lb ↔ ra_has ops ra hb lb)

/-- Entry by entry the same keys and the same 16-bit values. -/
def same_entries (ops : ContainerOps C) (ra' ra : roaring_array_t C) : Prop :=
  List.Forall₂ (fun e' e => e'.1 = e.1
    ∧ ∀ v, v < 65536 → ops.container_contains e'.2 v = ops.container_contains e.2 v) ra' ra

/-- An array container as the spec describes it: the values are inside the
buffer, strictly increasing and 16-bit. -/
def array_container_valid (a : array_container_t) : Prop :=
  a.cardinality ≤ a.array.length
  ∧ (a.array.take a.cardinality).Pairwise (fun x y => x < y)
  ∧ ∀ x ∈ a.array.take a.cardinality, x < 65536

/-- Number of 16-bit values that satisfy `p`. -/
def count_values (p : Nat → Bool) : Nat := (List.range 65536).countP p

/-- Bytes that container `i` of a frozen buffer occupies in its zone, from its
typecode and count. -/
def frozen_view_body_size (buf : Nat → Nat) (counts typecodes i : Nat) : Nat :=
  if mem_read_uint8 buf (typecodes + i) = BITSET_CONTAINER_TYPE_CODE then 8192
  else if mem_read_uint8 buf (typecodes + i) = RUN_CONTAINER_TYPE_CODE then
    4 * mem_read_uint16 buf (counts + 2 * i)
  else if mem_read_uint8 buf (typecodes + i) = ARRAY_CONTAINER_TYPE_CODE then
    2 * (mem_read_uint16 buf (counts + 2 * i) + 1)
  else 0

/-- What `roaring_bitmap_frozen_view` guarantees about entry `i` of its
result: the key, typecode and count are those stored in the buffer. -/
def frozen_view_entry (buf : Nat → Nat) (keys counts typecodes i : Nat)
    (e : Nat × container_t) : Prop :=
  e.1 = mem_read_uint16 buf (keys + 2 * i)
  ∧ e.2.typecode = mem_read_uint8 buf (typecodes + i)
  ∧ ((∃ b, e.2 = container_t.bitset b
        ∧ b.cardinality = ((mem_read_uint16 buf (counts + 2 * i) + 1 : Nat) : Int)
        ∧ b.array.length = BITSET_CONTAINER_SIZE_IN_WORDS)
    ∨ (∃ r, e.2 = container_t.run r ∧ r.n_runs = mem_read_uint16 buf (counts + 2 * i)
        ∧ r.runs.length = r.n_runs)
    ∨ (∃ a, e.2 = container_t.array a
        ∧ a.cardinality = mem_read_uint16 buf (counts + 2 * i) + 1
        ∧ a.array.length = a.cardinality))

/-- The bytes of a container in its zone of the frozen format. -/
def frozen_body : container_t → List Nat
  | .bitset b => (b.array.take BITSET_CONTAINER_SIZE_IN_WORDS).flatMap uint64_to_bytes
  | .run r => (r.runs.take r.n_runs).flatMap rle16_to_bytes
  | .array a => (a.array.take a.cardinality).flatMap uint16_to_bytes
  | .shared _ => []

/-- Size of a container in its zone of the frozen format: 8192 bytes for a
bitset, 4 bytes per run, 2 bytes per value of an array. -/
def frozen_body_size : container_t → Nat
  | .bitset _ => 8192
  | .run r => 4 * r.n_runs
  | .array a => 2 * a.cardinality
  | .shared _ => 0

/-- The count stored for a container in the frozen format: the cardinality
minus one for a bitset or array container, the number of runs for a run
container. -/
def frozen_count : container_t → Nat
  | .bitset b =>
    if b.cardinality ≠ BITSET_UNKNOWN_CARDINALITY then uint16_cast (b.cardinality - 1)
    else uint16_cast ((bitset_container_compute_cardinality b : Int) - 1)
  | .run r => uint16_cast r.n_runs
  | .array a => uint16_cast ((a.cardinality : Int) - 1)
  | .shared _ => 0

/-- The zone of the containers of one type (given by its typecode): their
bodies in directory order. -/
def frozen_zone (typecode : Nat) (ra : roaring_array_t container_t) : List Nat :=
  ra.flatMap (fun e => if e.2.typecode = typecode then frozen_body e.2 else [])

/-- The frozen format as the spec lays it out: bitset zone, run zone, array
zone, keys, counts, typecodes, header. -/
def frozen_bytes (ra : roaring_array_t container_t) : List Nat :=
  frozen_zone BITSET_CONTAINER_TYPE_CODE ra ++ (frozen_zone RUN_CONTAINER_TYPE_CODE ra
    ++ (frozen_zone ARRAY_CONTAINER_TYPE_CODE ra
    ++ (ra.flatMap (fun e => uint16_to_bytes e.1)
    ++ (ra.flatMap (fun e => uint16_to_bytes (frozen_count e.2))
    ++ (ra.map (fun e => e.2.typecode)
    ++ uint32_to_bytes (ra.length * 2 ^ 15 + FROZEN_COOKIE))))))

/-- The buffers of a container are as long as its counters say, and the
container is not shared. -/
def container_wf : container_t → Prop
  | .bitset b => b.array.length = BITSET_CONTAINER_SIZE_IN_WORDS
  | .run r => r.n_runs ≤ r.runs.length
  | .array a => a.cardinality ≤ a.array.length
  | .shared _ => False

/-- The memory holds the bytes `l` from offset `o` on. -/
def mem_holds (mem : Nat → Nat) (o : Nat) (l : List Nat) : Prop :=
  ∀ i, i < l.length → mem (o + i) = l.getD i 0

/-- A non-empty container as the spec describes it: an array container with
strictly increasing 16-bit values; a bitset container of 1024 64-bit words
whose cardinality field is the number of bits set or the sentinel; a run
container with sorted, disjoint, non-adjacent runs of 16-bit values. -/
def container_valid : container_t → Prop
  | .bitset b =>
    b.array.length = BITSET_CONTAINER_SIZE_IN_WORDS ∧ (∀ w ∈ b.array, w < 2 ^ 64)
      ∧ (b.cardinality = BITSET_UNKNOWN_CARDINALITY
        ∨ b.cardinality = (bitset_container_compute_cardinality b : Int))
      ∧ 1 ≤ bitset_container_compute_cardinality b
  | .run r =>
    r.n_runs ≤ r.runs.length ∧ 1 ≤ r.n_runs
      ∧ (r.runs.take r.n_runs).Pairwise (fun x y => x.value + x.length + 1 < y.value)
      ∧ ∀ x ∈ r.runs.take r.n_runs, x.value + x.length < 65536
  | .array a => array_container_valid a ∧ 1 ≤ a.cardinality
  | .shared _ => False

/-- The container that `roaring_bitmap_frozen_view` builds over the bytes
written for a container: same contents, capacity equal to the count. -/
def frozen_view_container : container_t → container_t
  | .bitset b =>
    .bitset ⟨((frozen_count (.bitset b) + 1 : Nat) : Int),
      b.array.take BITSET_CONTAINER_SIZE_IN_WORDS⟩
  | .run r =>
    .run ⟨frozen_count (.run r), frozen_count (.run r), r.runs.take r.n_runs⟩
  | .array a =>
    .array ⟨frozen_count (.array a) + 1, frozen_count (.array a) + 1,
      a.array.take a.cardinality⟩
  | .shared c => .shared c

/-- The container that a frozen view holds for a container: same type and
contents, the cardinality computed, the capacity equal to the count. -/
def frozen_container : container_t → container_t
  | .bitset b => .bitset ⟨(bitset_container_compute_cardinality b : Int), b.array⟩
  | .run r => .run ⟨r.n_runs, r.n_runs, r.runs.take r.n_runs⟩
  | .array a => .array ⟨a.cardinality, a.cardinality, a.array.take a.cardinality⟩
  | .shared c => .shared c

/-- A bitmap over the concrete containers as the spec describes it: keys
16-bit and strictly increasing, every container valid and non-empty, none
shared. -/
def frozen_valid (rb : roaring_bitmap_t container_t) : Prop :=
  keys_sorted rb.high_low_container ∧ (∀ e ∈ rb.high_low_container, e.1 < 65536)
    ∧ ∀ e ∈ rb.high_low_container, container_valid e.2

/-- The positions at or after `x` of the bits set, in increasing order. -/
def bits_from (words : List Nat) (x : Nat) : List Nat :=
  (List.range' x (65536 - x)).filter (bitset_get words)

/-- The 16-bit values of a container, in increasing order. -/
def container_elements : container_t → List Nat
  | .array a => a.array.take a.cardinality
  | .bitset b => bits_from b.array 0
  | .run r =>
    (r.runs.take r.n_runs).flatMap (fun rle => List.range' rle.value (rle.length + 1))
  | .shared c => container_elements c

/-- The 32-bit values of a directory entry, in increasing order. -/
def entry_elements (e : Nat × container_t) : List Nat :=
  (container_elements e.2).map (fun x => e.1 * 65536 + x)

/-- The elements of a bitmap over concrete containers, in increasing order. -/
def roaring_elements (rb : roaring_bitmap_t container_t) : List Nat :=
  rb.high_low_container.flatMap entry_elements

/-- A bitmap over concrete containers as the spec describes it, shared
containers allowed: keys 16-bit and strictly increasing, every container,
unwrapped, valid and non-empty. -/
def iterator_valid (rb : roaring_bitmap_t container_t) : Prop :=
  keys_sorted rb.high_low_container ∧ (∀ e ∈ rb.high_low_container, e.1 < 65536)
    ∧ ∀ e ∈ rb.high_low_container, container_valid (container_unwrap_shared e.2)

/-- The values of the current container from the position of the iterator
on. -/
def container_remaining (it : roaring_uint32_iterator_t) : List Nat :=
  match it.container with
  | .array a => (a.array.take a.cardinality).drop it.in_container_index
  | .bitset b => bits_from b.array it.in_container_index
  | .run r =>
    match r.runs[it.run_index]? with
    | some rle =>
      List.range' (it.current_value - it.highbits)
          (rle.value + rle.length + 1 - (it.current_value - it.highbits))
        ++ ((r.runs.take r.n_runs).drop (it.run_index + 1)).flatMap
            (fun rle => List.range' rle.value (rle.length + 1))
    | none => []
  | .shared _ => []

/-- The values that an iterator has still to deliver, the current one
first. -/
def iterator_remaining (it : roaring_uint32_iterator_t) : List Nat :=
  if it.has_value then
    (container_remaining it).map (fun x => it.highbits + x)
      ++ (it.parent.high_low_container.drop (it.container_index.toNat + 1)).flatMap
          entry_elements
  else []

/-- The iterator stands on a value of the container at `container_index`. -/
def iterator_positioned (it : roaring_uint32_iterator_t) : Prop :=
  it.has_value = true ∧ 0 ≤ it.container_index
  ∧ ∃ e, it.parent.high_low_container[it.container_index.toNat]? = some e
    ∧ it.container = container_unwrap_shared e.2 ∧ it.highbits = e.1 * 65536
    ∧ match it.container with
      | .array a =>
        it.in_container_index < a.cardinality
        ∧ ∃ x, a.array[it.in_container_index]? = some x
          ∧ it.current_value = it.highbits + x
      | .bitset b =>
        it.in_container_index < 65536 ∧ bitset_get b.array it.in_container_index = true
        ∧ it.current_value = it.highbits + it.in_container_index
      | .run r =>
        it.run_index < r.n_runs
        ∧ ∃ rle, r.runs[it.run_index]? = some rle
          ∧ it.highbits + rle.value ≤ it.current_value
          ∧ it.current_value ≤ it.highbits + rle.value + rle.length
      | .shared _ => False

/-- The iterator has delivered all values. -/
def iterator_done (it : roaring_uint32_iterator_t) : Prop :=
  it.has_value = false ∧ it.current_value = UINT32_MAX
  ∧ ((it.parent.high_low_container.length : Int) ≤ it.container_index
    ∨ (0 ≤ it.container_index ∧ ∃ r, it.container = container_t.run r))

/-- One call of `roaring_advance_uint32_iterator` delivers the current value:
it returns, the iterator stands on the next value or is done, and the values
still to deliver are those from before without the first. -/
def iterator_step (rb : roaring_bitmap_t container_t) (it : roaring_uint32_iterator_t) : Prop :=
  ∃ b it', roaring_advance_uint32_iterator it = some (b, it') ∧ it'.parent = rb
    ∧ it'.has_value = b
    ∧ ((b = true ∧ iterator_positioned it') ∨ (b = false ∧ iterator_done it'))
    ∧ iterator_remaining it = it.current_value :: iterator_remaining it'

/-- The iterator after `roaring_init_iterator` and `k` calls of
`roaring_advance_uint32_iterator`; `none` if one of the calls has no defined
result. -/
def iterator_after (rb : roaring_bitmap_t container_t) (newit : roaring_uint32_iterator_t) :
    Nat → Option roaring_uint32_iterator_t
  | 0 => roaring_init_iterator rb newit
  | k + 1 =>
    match iterator_after rb newit k with
    | none => none
    | some it =>
      match roaring_advance_uint32_iterator it with
      | none => none
      | some r => some r.2

/-- The words of a bitset container that holds 0 and 2. -/
def example_bitset_words : List Nat := 5 :: List.replicate 1023 0

/-- The bitmap `{3, 9, 65536, 65538, 4294967290, ..., 4294967295}` with an
array container, a bitset container and a shared run container. -/
def example_iterator_bitmap : roaring_bitmap_t container_t :=
  ⟨[(0, .array ⟨2, 2, [3, 9]⟩), (1, .bitset ⟨-1, example_bitset_words⟩),
    (65535, .shared (.run ⟨1, 1, [⟨65530, 5⟩]⟩))]⟩

/-- The bitmap `{0, 131071}`: the container of the last key 1 holds 65535. -/
def last_key_bitmap : roaring_bitmap_t (Nat → Bool) :=
  ⟨[(0, fun v => v == 0), (1, fun v => v == 65535)]⟩

/-- Contract of `container_iand`: the contents of the result are those of the
intersection. -/
def container_iand_spec (ops : ContainerOps C) : Prop :=
  ∀ a b v, v < 65536 →
    ops.container_contains (ops.container_iand a b) v
      = (ops.container_contains a v && ops.container_contains b v)

/-- Contract of `container_iandnot`: the contents of the result are those of
the difference. -/
def container_iandnot_spec (ops : ContainerOps C) : Prop :=
  ∀ a b v, v < 65536 →
    ops.container_contains (ops.container_iandnot a b) v
      = (ops.container_contains a v && !ops.container_contains b v)

/-- The container layer in which `container_and` and `container_andnot` are
the in-place functions `container_iand` and `container_iandnot`. -/
def inplace_ops (ops : ContainerOps C) : ContainerOps C :=
  { ops with container_and := ops.container_iand, container_andnot := ops.container_iandnot }

/-- The bitmap `{0, 1}`, stored as one run container. -/
def zero_run_bitmap : roaring_bitmap_t container_t := ⟨[(0, .run ⟨1, 1, [⟨0, 1⟩]⟩)]⟩

/-- The bitmap `{4294967294, 4294967295}`, stored as one run container. -/
def top_run_bitmap : roaring_bitmap_t container_t := ⟨[(65535, .run ⟨1, 1, [⟨65534, 1⟩]⟩)]⟩

/-- The bitmap `{4294967293, 4294967294, 4294967295}`, stored as one run
container. -/
def top_run_bitmap_3 : roaring_bitmap_t container_t :=
  ⟨[(65535, .run ⟨1, 1, [⟨65533, 2⟩]⟩)]⟩

/-- The runs written and the last run after `run_container_append`, on the
list `out` of the runs written so far. -/
def run_list_append (out : List rle16_t) (vl prev : rle16_t) : List rle16_t × rle16_t :=
  if vl.value > prev.value + prev.length + 1 then (out ++ [vl], vl)
  else if vl.value + vl.length + 1 > prev.value + prev.length then
    (out.dropLast ++ [⟨prev.value, (vl.value + vl.length + 1 - 1 - prev.value) % 65536⟩],
      ⟨prev.value, (vl.value + vl.length + 1 - 1 - prev.value) % 65536⟩)
  else (out, prev)

/-- The runs written and the last run after `run_container_append_value`, on
the list `out` of the runs written so far. -/
def run_list_append_value (out : List rle16_t) (val : Nat) (prev : rle16_t) :
    List rle16_t × rle16_t :=
  if val > prev.value + prev.length + 1 then (out ++ [⟨val, 0⟩], ⟨val, 0⟩)
  else if val = prev.value + prev.length + 1 then
    (out.dropLast ++ [⟨prev.value, (prev.length + 1) % 65536⟩],
      ⟨prev.value, (prev.length + 1) % 65536⟩)
  else (out, prev)

/-- The three loops of `array_run_container_union` on lists: the runs `rs` and
the values `vs` still to read, the runs `out` written so far and the last of
them. -/
def run_list_merge : List rle16_t → List Nat → List rle16_t → rle16_t → List rle16_t
  | [], [], out, _ => out
  | r :: rs, [], out, prev =>
    run_list_merge rs [] (run_list_append out r prev).1 (run_list_append out r prev).2
  | [], v :: vs, out, prev =>
    run_list_merge [] vs (run_list_append_value out v prev).1 (run_list_append_value out v prev).2
  | r :: rs, v :: vs, out, prev =>
    if r.value ≤ v then
      run_list_merge rs (v :: vs) (run_list_append out r prev).1 (run_list_append out r prev).2
    else
      run_list_merge (r :: rs) vs (run_list_append_value out v prev).1
        (run_list_append_value out v prev).2
termination_by rs vs => rs.length + vs.length

/-- The runs that `array_run_container_union` writes for the runs `rs` and
the values `vs`, both non-empty. -/
def run_list_union : List rle16_t → List Nat → List rle16_t
  | r :: rs, v :: vs =>
    if r.value ≤ v then run_list_merge rs (v :: vs) [r] r
    else run_list_merge (r :: rs) vs [⟨v, 0⟩] ⟨v, 0⟩
  | _, _ => []

/-- The array container `{1, 5, 20}`. -/
def example_union_array : array_container_t := ⟨3, 3, [1, 5, 20]⟩

/-- The run container `{2, 3, 4, 10, ..., 15}`. -/
def example_union_run : run_container_t := ⟨2, 2, [⟨2, 2⟩, ⟨10, 5⟩]⟩

/-- The fields of the iterator that the current container does not use are
0, as `iter_new_container_partial_init` leaves them. -/
def iterator_normal (it : roaring_uint32_iterator_t) : Prop :=
  match it.container with
  | .array _ => it.run_index = 0
  | .bitset _ => it.run_index = 0
  | .run _ => it.in_container_index = 0
  | .shared _ => True

/-- What the `switch` of `roaring_read_uint32_iterator` has to do on the
current container with `buf` written so far: it writes the next values of the
container, as many as `count` allows, stays in the container, and stands on
the next value of the container or has no value. -/
def iterator_read_container_spec (count : Nat) (it : roaring_uint32_iterator_t)
    (buf : List Nat) (it' : roaring_uint32_iterator_t) (buf' : List Nat) : Prop :=
  buf' = buf ++ ((container_remaining it).take
      (min (count - buf.length) (container_remaining it).length)).map
        (fun x => it.highbits + x)
  ∧ it'.parent = it.parent ∧ it'.container_index = it.container_index
  ∧ it'.container = it.container ∧ it'.highbits = it.highbits
  ∧ (iterator_normal it → iterator_normal it')
  ∧ (min (count - buf.length) (container_remaining it).length
        < (container_remaining it).length →
      iterator_positioned it'
      ∧ container_remaining it'
        = (container_remaining it).drop
            (min (count - buf.length) (container_remaining it).length))
  ∧ ((container_remaining it).length
        ≤ min (count - buf.length) (container_remaining it).length →
      it'.has_value = false)

/-- The values of a run container from the value `x` of run `ri`, which is
`rle`, on. -/
def run_values_from (r : run_container_t) (ri x : Nat) (rle : rle16_t) : List Nat :=
  List.range' x (rle.value + rle.length + 1 - x)
    ++ ((r.runs.take r.n_runs).drop (ri + 1)).flatMap
        (fun rle => List.range' rle.value (rle.length + 1))

/-- The iterator behind the last container, as `loadfirstvalue` leaves it
there. -/
def iterator_end (it : roaring_uint32_iterator_t) : Prop :=
  it.has_value = false ∧ it.current_value = UINT32_MAX ∧ it.in_container_index = 0
  ∧ it.run_index = 0 ∧ it.container_index = (it.parent.high_low_container.length : Int)
  ∧ ∃ e, it.parent.high_low_container[it.parent.high_low_container.length - 1]? = some e
    ∧ it.container = container_unwrap_shared e.2 ∧ it.highbits = e.1 * 65536

/-- The iterator has no value and stands inside a run container on
`UINT32_MAX`, where `roaring_advance_uint32_iterator` leaves it. -/
def iterator_stopped_in_run (it : roaring_uint32_iterator_t) : Prop :=
  it.has_value = false ∧ it.current_value = UINT32_MAX ∧ 0 ≤ it.container_index
  ∧ it.container_index < (it.parent.high_low_container.length : Int)
  ∧ ∃ r, it.container = container_t.run r

/-- The iterator is where `roaring_advance_uint32_iterator` leaves it after the
value `UINT32_MAX` of a run container: on that value, without a value. -/
def iterator_stopped_at_max (rb : roaring_bitmap_t container_t)
    (it : roaring_uint32_iterator_t) : Prop :=
  ∃ y : roaring_uint32_iterator_t, y.parent = rb ∧ iterator_positioned y
    ∧ y.current_value = UINT32_MAX ∧ (∃ r, y.container = container_t.run r)
    ∧ it = { y with has_value := false }

/-- Number of leading entries with key below `x`. -/
def lower_bound (ra : roaring_array_t C) (x : Nat) : Nat :=
  (ra.takeWhile (fun e => decide (e.1 < x))).length

/-! ### A small implementation of the container layer

A container is the characteristic function of its value set on `[0, 2^16)`.
It shows that the contracts above can be met together and provides concrete
inputs. -/

/-- Number of 16-bit values on which `c` is true. -/
def set_cardinality (c : Nat → Bool) : Nat := (List.range 65536).countP c

/-- Container operations on characteristic functions. -/
def set_container_ops : ContainerOps (Nat → Bool) where
  get_container_type c :=
    if set_cardinality c ≤ DEFAULT_MAX_SIZE then ARRAY_CONTAINER_TYPE_CODE
    else BITSET_CONTAINER_TYPE_CODE
  container_contains c v := c v
  container_get_cardinality c := set_cardinality c
  container_nonzero_cardinality c := (List.range 65536).any c
  container_is_full c := (List.range 65536).all c
  container_contains_range c range_start range_end :=
    (List.range' range_start (range_end - range_start)).all c
  container_and a b := fun v => a v && b v
  container_or a b := fun v => a v || b v
  container_xor a b := fun v => xor (a v) (b v)
  container_andnot a b := fun v => a v && !b v
  array_container_create := fun _ => false
  container_add c x :=
    (fun v => c v || decide (v = x), !c x && set_cardinality c == DEFAULT_MAX_SIZE)
  container_remove c x := fun v => c v && !decide (v = x)
  container_not c := fun v => !c v
  container_not_range c range_start range_end :=
    fun v => xor (c v) (decide (range_start ≤ v ∧ v < range_end))
  container_range_of_ones range_start range_end :=
    fun v => decide (range_start ≤ v ∧ v < range_end)
  container_add_range c min max := fun v => c v || decide (min ≤ v ∧ v ≤ max)
  container_remove_range c min max :=
    if (List.range 65536).any (fun v => c v && !decide (min ≤ v ∧ v ≤ max)) then
      some (fun v => c v && !decide (min ≤ v ∧ v ≤ max))
    else none
  container_from_range min max step :=
    fun v => decide (min ≤ v ∧ v < max ∧ (v - min) % step = 0)
  container_rank c x := (List.range (x + 1)).countP c
  container_select c start_rank rank element :=
    if start_rank + set_cardinality c ≤ rank then
      (false, start_rank + set_cardinality c, element)
    else
      (true, start_rank, (((List.range 65536).filter c)[rank - start_rank]?).getD 0)
  container_minimum c := ((List.range 65536).find? c).getD 0
  container_maximum c := ((List.range 65536).reverse.find? c).getD 0
  container_and_cardinality a b := set_cardinality (fun v => a v && b v)
  container_is_subset a b := (List.range 65536).all (fun v => !a v || b v)
  container_iand a b := fun v => decide (v < 65536) && (a v && b v)
  container_iandnot a b := fun v => decide (v < 65536) && (a v && !b v)

/-- The bitmap `{65535, 131072}`: keys 0 and 2 are present, key 1 is not. -/
def gap_bitmap : roaring_bitmap_t (Nat → Bool) :=
  ⟨[(0, fun v => v == 65535), (2, fun v => v == 0)]⟩

/-- The bitmap `{1, 2, 3, 100, 65537}`. -/
def example_bitmap_3 : roaring_bitmap_t (Nat → Bool) :=
  ⟨[(0, fun v => v == 1 || v == 2 || v == 3 || v == 100), (1, fun v => v == 1)]⟩

/-- One directory entry in the small stream format: the key in two bytes, then
one byte per 16-bit value. -/
def set_encode_entry (e : Nat × (Nat → Bool)) : List Nat :=
  [e.1 / 256, e.1 % 256] ++ (List.range 65536).map (fun v => if e.2 v then 1 else 0)

/-- Reading of `n` entries of the small stream format. -/
def set_decode_entries : Nat → List Nat → Option (roaring_array_t (Nat → Bool))
  | 0, _ => some []
  | n + 1, buf =>
    if buf.length < 65538 then none
    else
      match set_decode_entries n (buf.drop 65538) with
      | none => none
      | some t =>
        some ((buf.getD 0 0 * 256 + buf.getD 1 0,
          fun v => decide (v < 65536) && (buf.getD (v + 2) 0 == 1)) :: t)

/-- A small stream format for the small container implementation: the number
of entries in three bytes, then the entries. -/
def set_portable_ops : PortableOps (Nat → Bool) where
  ra_portable_size_in_bytes ra := 3 + 65538 * ra.length
  ra_portable_serialize ra :=
    [ra.length / 65536, ra.length / 256 % 256, ra.length % 256]
      ++ ra.flatMap set_encode_entry
  ra_portable_deserialize buf _ :=
    match buf with
    | a :: b :: c :: t =>
      match set_decode_entries (a * 65536 + b * 256 + c) t with
      | some ra => some (ra, 3 + 65538 * ra.length)
      | none => none
    | _ => none

/-- The bitmap `{65539, 65545} ∪ [327690, 327695]` over concrete containers: an
array container under key 1 and a run container under key 5. -/
def example_frozen_bitmap : roaring_bitmap_t container_t :=
  ⟨[(1, container_t.array ⟨2, 4, [3, 9, 0, 0]⟩), (5, container_t.run ⟨1, 1, [⟨10, 5⟩]⟩)]⟩

/-- The bitmap `{1, 65538}`. -/
def example_bitmap_1 : roaring_bitmap_t (Nat → Bool) :=
  ⟨[(0, fun v => v == 1), (1, fun v => v == 2)]⟩

/-- The bitmap `{1, 3, 131072}`. -/
def example_bitmap_2 : roaring_bitmap_t (Nat → Bool) :=
  ⟨[(0, fun v => v == 1 || v == 3), (2, fun v => v == 0)]⟩

/-! ## Directory lemmas -/

theorem drop_advance_until (ra : roaring_array_t C) (x pos : Nat) :
    ra.drop (ra_advance_until ra x pos)
      = (ra.drop pos).dropWhile (fun e => decide (e.1 < x)) := by
  unfold ra_advance_until
  rw [← List.drop_drop]
  generalize ra.drop pos = l
  induction l with
  | nil => simp
  | cons a t ih =>
    by_cases h : a.1 < x
    · simp [List.takeWhile_cons, List.dropWhile_cons, h, ih]
    · simp [List.takeWhile_cons, List.dropWhile_cons, h]

theorem take_advance_until (ra : roaring_array_t C) (x pos : Nat) :
    (ra.take (ra_advance_until ra x pos)).drop pos
      = (ra.drop pos).takeWhile (fun e => decide (e.1 < x)) := by
  unfold ra_advance_until
  rw [List.drop_take]
  simp only [Nat.add_sub_cancel_left]
  generalize ra.drop pos = l
  induction l with
  | nil => simp
  | cons a t ih =>
    by_cases h : a.1 < x
    · simp [List.takeWhile_cons, h, ih]
    · simp [List.takeWhile_cons, h]

theorem and_merge_nil_right (ops : ContainerOps C) (l : roaring_array_t C) :
    and_merge ops l [] = [] := by
  cases l <;> simp [and_merge]

theorem and_merge_dropWhile_left (ops : ContainerOps C) (l1 : roaring_array_t C)
    (e2 : Nat × C) (t2 : roaring_array_t C) :
    and_merge ops (l1.dropWhile (fun e => decide (e.1 < e2.1))) (e2 :: t2)
      = and_merge ops l1 (e2 :: t2) := by
  induction l1 with
  | nil => simp
  | cons a t ih =>
    by_cases h : a.1 < e2.1
    · rw [List.dropWhile_cons_of_pos (by simpa using h), ih]
      conv_rhs => rw [and_merge]
      simp [h, Nat.ne_of_lt h]
    · rw [List.dropWhile_cons_of_neg (by simpa using h)]

theorem and_merge_dropWhile_right (ops : ContainerOps C) (l2 : roaring_array_t C)
    (e1 : Nat × C) (t1 : roaring_array_t C) :
    and_merge ops (e1 :: t1) (l2.dropWhile (fun e => decide (e.1 < e1.1)))
      = and_merge ops (e1 :: t1) l2 := by
  induction l2 with
  | nil => simp
  | cons a t ih =>
    by_cases h : a.1 < e1.1
    · rw [List.dropWhile_cons_of_pos (by simpa using h), ih]
      conv_rhs => rw [and_merge]
      have h1 : ¬ e1.1 = a.1 := by omega
      have h2 : ¬ e1.1 < a.1 := by omega
      simp [h1, h2]
    · rw [List.dropWhile_cons_of_neg (by simpa using h)]

/-- The loop of `roaring_bitmap_and` appends the two-cursor intersection of
the unread parts of both directories to the answer. -/
theorem roaring_bitmap_and_loop_eq (ops : ContainerOps C) (x1 x2 : roaring_array_t C)
    (pos1 pos2 : Nat) (answer : roaring_array_t C) :
    roaring_bitmap_and_loop ops x1 x2 pos1 pos2 answer
      = answer ++ and_merge ops (x1.drop pos1) (x2.drop pos2) := by
  induction pos1, pos2, answer using roaring_bitmap_and_loop.induct ops x1 x2 with
  | case1 pos1 pos2 answer h s1 s2 hs c hc ih =>
    rw [roaring_bitmap_and_loop, dif_pos h]
    simp only [s1, s2] at hs
    simp only [c] at hc
    simp only [hs, if_true, hc]
    simp only [s1, s2, c, hs] at ih
    rw [ih, List.drop_eq_getElem_cons h.1, List.drop_eq_getElem_cons h.2, and_merge]
    simp [hs, hc, ra_append]
  | case2 pos1 pos2 answer h s1 s2 hs c hc ih =>
    rw [roaring_bitmap_and_loop, dif_pos h]
    simp only [s1, s2] at hs
    simp only [c] at hc
    simp only [hs, if_true, hc]
    rw [ih, List.drop_eq_getElem_cons h.1, List.drop_eq_getElem_cons h.2, and_merge]
    simp [hs, hc]
  | case3 pos1 pos2 answer h s1 s2 hne hlt ih =>
    rw [roaring_bitmap_and_loop, dif_pos h]
    simp only [s1, s2] at hne hlt ih
    simp only [hne, if_false, hlt, dif_pos]
    rw [ih, drop_advance_until, List.drop_eq_getElem_cons h.2, and_merge_dropWhile_left]
  | case4 pos1 pos2 answer h s1 s2 hne hlt ih =>
    rw [roaring_bitmap_and_loop, dif_pos h]
    simp only [s1, s2] at hne hlt ih
    simp only [hne, if_false, hlt, dif_neg, not_false_eq_true]
    rw [ih, drop_advance_until, List.drop_eq_getElem_cons h.1, and_merge_dropWhile_right]
  | case5 pos1 pos2 answer h =>
    rw [roaring_bitmap_and_loop, dif_neg h]
    rw [not_and_or] at h
    rcases h with h | h
    · rw [List.drop_eq_nil_of_le (by omega)]
      simp [and_merge]
    · rw [List.drop_eq_nil_of_le (Nat.le_of_not_lt h), and_merge_nil_right]
      simp

theorem take_lower_bound (ra : roaring_array_t C) (x : Nat) :
    ra.take (lower_bound ra x) = ra.takeWhile (fun e => decide (e.1 < x)) := by
  unfold lower_bound
  induction ra with
  | nil => simp
  | cons a t ih =>
    by_cases h : a.1 < x
    · simp [List.takeWhile_cons, h, ih]
    · simp [List.takeWhile_cons, h]

theorem drop_lower_bound (ra : roaring_array_t C) (x : Nat) :
    ra.drop (lower_bound ra x) = ra.dropWhile (fun e => decide (e.1 < x)) := by
  unfold lower_bound
  induction ra with
  | nil => simp
  | cons a t ih =>
    by_cases h : a.1 < x
    · simp [List.takeWhile_cons, List.dropWhile_cons, h, ih]
    · simp [List.takeWhile_cons, List.dropWhile_cons, h]

theorem ra_get_index_from_found (ra : roaring_array_t C) (x i : Nat) (c : C)
    (h : ra[lower_bound ra x]? = some (x, c)) :
    ra_get_index_from ra x i = ((i + lower_bound ra x : Nat) : Int) := by
  induction ra generalizing i with
  | nil => simp at h
  | cons a t ih =>
    obtain ⟨k, d⟩ := a
    by_cases hk : k < x
    · have hlb : lower_bound ((k, d) :: t) x = lower_bound t x + 1 := by
        simp [lower_bound, List.takeWhile_cons, hk]
      rw [hlb] at h ⊢
      simp only [List.getElem?_cons_succ] at h
      rw [ra_get_index_from]
      simp only [Nat.ne_of_lt hk, if_false, hk, if_true]
      rw [ih (i + 1) h]
      congr 1
      omega
    · have hlb : lower_bound ((k, d) :: t) x = 0 := by
        simp [lower_bound, List.takeWhile_cons, hk]
      rw [hlb] at h ⊢
      simp only [List.getElem?_cons_zero, Option.some.injEq, Prod.mk.injEq] at h
      rw [ra_get_index_from]
      simp [h.1]

theorem ra_get_index_from_not_found (ra : roaring_array_t C) (x i : Nat)
    (h : ∀ c, ra[lower_bound ra x]? ≠ some (x, c)) :
    ra_get_index_from ra x i = -((i + lower_bound ra x : Nat) : Int) - 1 := by
  induction ra generalizing i with
  | nil => simp [ra_get_index_from, lower_bound]
  | cons a t ih =>
    obtain ⟨k, d⟩ := a
    by_cases hk : k < x
    · have hlb : lower_bound ((k, d) :: t) x = lower_bound t x + 1 := by
        simp [lower_bound, List.takeWhile_cons, hk]
      rw [hlb] at h ⊢
      simp only [List.getElem?_cons_succ] at h
      rw [ra_get_index_from]
      simp only [Nat.ne_of_lt hk, if_false, hk, if_true]
      rw [ih (i + 1) h]
      congr 2
      omega
    · have hlb : lower_bound ((k, d) :: t) x = 0 := by
        simp [lower_bound, List.takeWhile_cons, hk]
      rw [hlb] at h ⊢
      have hne : ¬ k = x := by
        intro hkx
        exact h d (by simp [hkx])
      rw [ra_get_index_from]
      simp [hne, hk]

theorem ra_get_index_found (ra : roaring_array_t C) (x : Nat) (c : C)
    (h : ra[lower_bound ra x]? = some (x, c)) :
    ra_get_index ra x = (lower_bound ra x : Int) := by
  unfold ra_get_index
  rw [ra_get_index_from_found ra x 0 c h]
  simp

theorem ra_get_index_not_found (ra : roaring_array_t C) (x : Nat)
    (h : ∀ c, ra[lower_bound ra x]? ≠ some (x, c)) :
    ra_get_index ra x = -(lower_bound ra x : Int) - 1 := by
  unfold ra_get_index
  rw [ra_get_index_from_not_found ra x 0 h]
  simp

/-- In a directory with increasing keys the entry of key `x` sits at the
lower bound of `x`. -/
theorem getElem_lower_bound_of_mem (ra : roaring_array_t C) (hs : keys_sorted ra)
    (x : Nat) (c : C) (h : (x, c) ∈ ra) : ra[lower_bound ra x]? = some (x, c) := by
  induction ra with
  | nil => simp at h
  | cons a t ih =>
    obtain ⟨k, d⟩ := a
    unfold keys_sorted at hs
    rw [List.pairwise_cons] at hs
    by_cases hk : k < x
    · have hlb : lower_bound ((k, d) :: t) x = lower_bound t x + 1 := by
        simp [lower_bound, List.takeWhile_cons, hk]
      rw [hlb, List.getElem?_cons_succ]
      apply ih hs.2
      rcases List.mem_cons.1 h with h | h
      · simp only [Prod.mk.injEq] at h
        omega
      · exact h
    · have hlb : lower_bound ((k, d) :: t) x = 0 := by
        simp [lower_bound, List.takeWhile_cons, hk]
      rw [hlb, List.getElem?_cons_zero]
      rcases List.mem_cons.1 h with h | h
      · rw [h]
      · have := hs.1 _ h
        simp only at this
        omega

theorem or_merge_nil_right (ops : ContainerOps C) (l : roaring_array_t C) :
    or_merge ops l [] = l := by
  cases l <;> simp [or_merge]

theorem xor_merge_nil_right (ops : ContainerOps C) (l : roaring_array_t C) :
    xor_merge ops l [] = l := by
  cases l <;> simp [xor_merge]

theorem andnot_merge_nil_right (ops : ContainerOps C) (l : roaring_array_t C) :
    andnot_merge ops l [] = l := by
  cases l <;> simp [andnot_merge]

theorem ra_advance_until_le (ra : roaring_array_t C) (x pos : Nat) (h : pos ≤ ra.length) :
    ra_advance_until ra x pos ≤ ra.length := by
  unfold ra_advance_until
  have h1 := (List.takeWhile_sublist (fun e => decide (e.1 < x))
    (l := ra.drop pos)).length_le
  rw [List.length_drop] at h1
  omega

/-- The loop of `roaring_bitmap_or` followed by the copy of the remaining tail
appends the two-cursor union of the unread parts to the answer. -/
theorem roaring_bitmap_or_loop_eq (ops : ContainerOps C) (x1 x2 : roaring_array_t C)
    (pos1 pos2 : Nat) (answer : roaring_array_t C)
    (hp1 : pos1 ≤ x1.length) (hp2 : pos2 ≤ x2.length) :
    (if (roaring_bitmap_or_loop ops x1 x2 pos1 pos2 answer).1 = x1.length then
        ra_append_copy_range (roaring_bitmap_or_loop ops x1 x2 pos1 pos2 answer).2.2 x2
          (roaring_bitmap_or_loop ops x1 x2 pos1 pos2 answer).2.1 x2.length
      else if (roaring_bitmap_or_loop ops x1 x2 pos1 pos2 answer).2.1 = x2.length then
        ra_append_copy_range (roaring_bitmap_or_loop ops x1 x2 pos1 pos2 answer).2.2 x1
          (roaring_bitmap_or_loop ops x1 x2 pos1 pos2 answer).1 x1.length
      else (roaring_bitmap_or_loop ops x1 x2 pos1 pos2 answer).2.2)
      = answer ++ or_merge ops (x1.drop pos1) (x2.drop pos2) := by
  induction pos1, pos2, answer using roaring_bitmap_or_loop.induct ops x1 x2 with
  | case1 pos1 pos2 answer h s1 s2 hs c ih =>
    rw [roaring_bitmap_or_loop, dif_pos h]
    simp only [s1, s2] at hs
    simp only [hs, if_true]
    simp only [s1, s2, c, hs] at ih
    rw [ih (by omega) (by omega), List.drop_eq_getElem_cons h.1,
      List.drop_eq_getElem_cons h.2, or_merge]
    simp [hs, ra_append]
  | case2 pos1 pos2 answer h s1 s2 hne hlt ih =>
    rw [roaring_bitmap_or_loop, dif_pos h]
    simp only [s1, s2] at hne hlt ih
    simp only [hne, if_false, hlt, if_true]
    rw [ih (by omega) hp2, List.drop_eq_getElem_cons h.1,
      List.drop_eq_getElem_cons h.2, or_merge]
    simp [hne, hlt, ra_append]
  | case3 pos1 pos2 answer h s1 s2 hne hlt ih =>
    rw [roaring_bitmap_or_loop, dif_pos h]
    simp only [s1, s2] at hne hlt ih
    simp only [hne, if_false, hlt]
    rw [ih hp1 (by omega), List.drop_eq_getElem_cons h.1,
      List.drop_eq_getElem_cons h.2, or_merge]
    simp [hne, hlt, ra_append]
  | case4 pos1 pos2 answer h =>
    rw [roaring_bitmap_or_loop, dif_neg h]
    simp only [ra_append_copy_range, List.take_length]
    by_cases h1 : pos1 = x1.length
    · rw [if_pos h1, h1, List.drop_length]
      simp [or_merge]
    · have h2 : pos2 = x2.length := by omega
      rw [if_neg h1, if_pos h2, h2, List.drop_length, or_merge_nil_right]

/-- The loop of `roaring_bitmap_xor` followed by the copy of the remaining
tail appends the two-cursor symmetric difference of the unread parts. -/
theorem roaring_bitmap_xor_loop_eq (ops : ContainerOps C) (x1 x2 : roaring_array_t C)
    (pos1 pos2 : Nat) (answer : roaring_array_t C)
    (hp1 : pos1 ≤ x1.length) (hp2 : pos2 ≤ x2.length) :
    (if (roaring_bitmap_xor_loop ops x1 x2 pos1 pos2 answer).1 = x1.length then
        ra_append_copy_range (roaring_bitmap_xor_loop ops x1 x2 pos1 pos2 answer).2.2 x2
          (roaring_bitmap_xor_loop ops x1 x2 pos1 pos2 answer).2.1 x2.length
      else if (roaring_bitmap_xor_loop ops x1 x2 pos1 pos2 answer).2.1 = x2.length then
        ra_append_copy_range (roaring_bitmap_xor_loop ops x1 x2 pos1 pos2 answer).2.2 x1
          (roaring_bitmap_xor_loop ops x1 x2 pos1 pos2 answer).1 x1.length
      else (roaring_bitmap_xor_loop ops x1 x2 pos1 pos2 answer).2.2)
      = answer ++ xor_merge ops (x1.drop pos1) (x2.drop pos2) := by
  induction pos1, pos2, answer using roaring_bitmap_xor_loop.induct ops x1 x2 with
  | case1 pos1 pos2 answer h s1 s2 hs c hc ih =>
    rw [roaring_bitmap_xor_loop, dif_pos h]
    simp only [s1, s2] at hs
    simp only [c] at hc
    simp only [hs, if_true, hc]
    simp only [s1, s2, c, hs] at ih
    rw [ih (by omega) (by omega), List.drop_eq_getElem_cons h.1,
      List.drop_eq_getElem_cons h.2, xor_merge]
    simp [hs, hc, ra_append]
  | case2 pos1 pos2 answer h s1 s2 hs c hc ih =>
    rw [roaring_bitmap_xor_loop, dif_pos h]
    simp only [s1, s2] at hs
    simp only [c] at hc
    simp only [hs, if_true, hc, Bool.false_eq_true, if_false]
    rw [ih (by omega) (by omega), List.drop_eq_getElem_cons h.1,
      List.drop_eq_getElem_cons h.2, xor_merge]
    simp [hs, hc]
  | case3 pos1 pos2 answer h s1 s2 hne hlt ih =>
    rw [roaring_bitmap_xor_loop, dif_pos h]
    simp only [s1, s2] at hne hlt ih
    simp only [hne, if_false, hlt, if_true]
    rw [ih (by omega) hp2, List.drop_eq_getElem_cons h.1,
      List.drop_eq_getElem_cons h.2, xor_merge]
    simp [hne, hlt, ra_append]
  | case4 pos1 pos2 answer h s1 s2 hne hlt ih =>
    rw [roaring_bitmap_xor_loop, dif_pos h]
    simp only [s1, s2] at hne hlt ih
    simp only [hne, if_false, hlt]
    rw [ih hp1 (by omega), List.drop_eq_getElem_cons h.1,
      List.drop_eq_getElem_cons h.2, xor_merge]
    simp [hne, hlt, ra_append]
  | case5 pos1 pos2 answer h =>
    rw [roaring_bitmap_xor_loop, dif_neg h]
    simp only [ra_append_copy_range, List.take_length]
    by_cases h1 : pos1 = x1.length
    · rw [if_pos h1, h1, List.drop_length]
      simp [xor_merge]
    · have h2 : pos2 = x2.length := by omega
      rw [if_neg h1, if_pos h2, h2, List.drop_length, xor_merge_nil_right]

theorem andnot_merge_span_left (ops : ContainerOps C) (l1 : roaring_array_t C)
    (e2 : Nat × C) (t2 : roaring_array_t C) :
    andnot_merge ops l1 (e2 :: t2)
      = l1.takeWhile (fun e => decide (e.1 < e2.1))
        ++ andnot_merge ops (l1.dropWhile (fun e => decide (e.1 < e2.1))) (e2 :: t2) := by
  induction l1 with
  | nil => simp
  | cons a t ih =>
    by_cases h : a.1 < e2.1
    · rw [List.dropWhile_cons_of_pos (by simpa using h),
        List.takeWhile_cons_of_pos (by simpa using h), andnot_merge]
      simp only [Nat.ne_of_lt h, if_false, h, if_true, List.cons_append]
      rw [ih]
    · rw [List.dropWhile_cons_of_neg (by simpa using h),
        List.takeWhile_cons_of_neg (by simpa using h)]
      simp

theorem andnot_merge_dropWhile_right (ops : ContainerOps C) (l2 : roaring_array_t C)
    (e1 : Nat × C) (t1 : roaring_array_t C) :
    andnot_merge ops (e1 :: t1) (l2.dropWhile (fun e => decide (e.1 < e1.1)))
      = andnot_merge ops (e1 :: t1) l2 := by
  induction l2 with
  | nil => simp
  | cons a t ih =>
    by_cases h : a.1 < e1.1
    · rw [List.dropWhile_cons_of_pos (by simpa using h), ih]
      conv_rhs => rw [andnot_merge]
      have h1 : ¬ e1.1 = a.1 := by omega
      have h2 : ¬ e1.1 < a.1 := by omega
      simp [h1, h2]
    · rw [List.dropWhile_cons_of_neg (by simpa using h)]

/-- The loop of `roaring_bitmap_andnot` followed by the copy of the remaining
tail of `x1` appends the two-cursor difference of the unread parts. -/
theorem roaring_bitmap_andnot_loop_eq (ops : ContainerOps C) (x1 x2 : roaring_array_t C)
    (pos1 pos2 : Nat) (answer : roaring_array_t C)
    (hp1 : pos1 ≤ x1.length) (hp2 : pos2 ≤ x2.length) :
    (if (roaring_bitmap_andnot_loop ops x1 x2 pos1 pos2 answer).2.1 = x2.length then
        ra_append_copy_range (roaring_bitmap_andnot_loop ops x1 x2 pos1 pos2 answer).2.2 x1
          (roaring_bitmap_andnot_loop ops x1 x2 pos1 pos2 answer).1 x1.length
      else (roaring_bitmap_andnot_loop ops x1 x2 pos1 pos2 answer).2.2)
      = answer ++ andnot_merge ops (x1.drop pos1) (x2.drop pos2) := by
  induction pos1, pos2, answer using roaring_bitmap_andnot_loop.induct ops x1 x2 with
  | case1 pos1 pos2 answer h s1 s2 hs c hc ih =>
    rw [roaring_bitmap_andnot_loop, dif_pos h]
    simp only [s1, s2] at hs
    simp only [c] at hc
    simp only [hs, if_true, hc]
    simp only [s1, s2, c, hs] at ih
    rw [ih (by omega) (by omega), List.drop_eq_getElem_cons h.1,
      List.drop_eq_getElem_cons h.2, andnot_merge]
    simp [hs, hc, ra_append]
  | case2 pos1 pos2 answer h s1 s2 hs c hc ih =>
    rw [roaring_bitmap_andnot_loop, dif_pos h]
    simp only [s1, s2] at hs
    simp only [c] at hc
    simp only [hs, if_true, hc, Bool.false_eq_true, if_false]
    rw [ih (by omega) (by omega), List.drop_eq_getElem_cons h.1,
      List.drop_eq_getElem_cons h.2, andnot_merge]
    simp [hs, hc]
  | case3 pos1 pos2 answer h s1 s2 hne hlt next_pos1 ih =>
    rw [roaring_bitmap_andnot_loop, dif_pos h]
    simp only [s1, s2] at hne hlt
    simp only [next_pos1, s2] at ih
    simp only [hne, if_false, hlt, dif_pos]
    rw [ih (ra_advance_until_le _ _ _ hp1) hp2, drop_advance_until,
      List.drop_eq_getElem_cons h.2, ra_append_copy_range, take_advance_until,
      List.append_assoc, ← andnot_merge_span_left]
  | case4 pos1 pos2 answer h s1 s2 hne hlt ih =>
    rw [roaring_bitmap_andnot_loop, dif_pos h]
    simp only [s1, s2] at hne hlt ih
    simp only [hne, if_false, hlt, dif_neg, not_false_eq_true]
    rw [ih hp1 (ra_advance_until_le _ _ _ hp2), drop_advance_until,
      List.drop_eq_getElem_cons h.1, andnot_merge_dropWhile_right]
  | case5 pos1 pos2 answer h =>
    rw [roaring_bitmap_andnot_loop, dif_neg h]
    simp only [ra_append_copy_range, List.take_length]
    by_cases h2 : pos2 = x2.length
    · rw [if_pos h2, h2, List.drop_length, andnot_merge_nil_right]
    · have h1 : pos1 = x1.length := by omega
      rw [if_neg h2, h1, List.drop_length]
      simp [andnot_merge]

/-- Either the key is found, at its lower bound, or it is absent and the
result encodes the lower bound. -/
theorem ra_get_index_cases (ra : roaring_array_t C) (x : Nat) :
    (∃ c, ra[lower_bound ra x]? = some (x, c) ∧ ra_get_index ra x = (lower_bound ra x : Int))
    ∨ ((∀ c, ra[lower_bound ra x]? ≠ some (x, c))
        ∧ ra_get_index ra x = -(lower_bound ra x : Int) - 1) := by
  by_cases h : ∃ c, ra[lower_bound ra x]? = some (x, c)
  · obtain ⟨c, hc⟩ := h
    exact Or.inl ⟨c, hc, ra_get_index_found ra x c hc⟩
  · have h2 : ∀ c, ra[lower_bound ra x]? ≠ some (x, c) := fun c hc => h ⟨c, hc⟩
    exact Or.inr ⟨h2, ra_get_index_not_found ra x h2⟩

/-- Membership test and directory denotation agree on sorted directories. -/
theorem roaring_bitmap_contains_iff (ops : ContainerOps C) (r : roaring_bitmap_t C)
    (hs : keys_sorted r.high_low_container) (val : Nat) :
    roaring_bitmap_contains ops r val = true
      ↔ ra_has ops r.high_low_container ((val / 65536) % 65536) (val % 65536) := by
  unfold roaring_bitmap_contains ra_has
  simp only
  rcases ra_get_index_cases r.high_low_container ((val / 65536) % 65536) with
    ⟨c, hc, hi⟩ | ⟨hn, hi⟩
  · rw [hi]
    simp only [Int.natCast_nonneg, not_lt.mpr, if_false, Int.toNat_ofNat, hc]
    constructor
    · intro h
      exact ⟨c, List.getElem?_mem hc, h⟩
    · rintro ⟨c2, hm, h2⟩
      have := getElem_lower_bound_of_mem _ hs _ _ hm
      rw [hc] at this
      simp only [Option.some.injEq, Prod.mk.injEq, true_and] at this
      rw [this]
      exact h2
  · rw [hi]
    have hneg : -(lower_bound r.high_low_container ((val / 65536) % 65536) : Int) - 1 < 0 := by
      omega
    simp only [hneg, if_true]
    constructor
    · intro h
      cases h
    · rintro ⟨c2, hm, _⟩
      exact absurd (getElem_lower_bound_of_mem _ hs _ _ hm) (hn c2)

/-! ## Properties of the two-cursor intersection -/

theorem and_merge_mem (ops : ContainerOps C) (l1 l2 : roaring_array_t C) (e : Nat × C)
    (h : e ∈ and_merge ops l1 l2) :
    ∃ c1 c2, (e.1, c1) ∈ l1 ∧ (e.1, c2) ∈ l2 ∧ e.2 = ops.container_and c1 c2
      ∧ ops.container_nonzero_cardinality (ops.container_and c1 c2) = true := by
  induction l1, l2 using and_merge.induct ops with
  | case1 l => simp [and_merge] at h
  | case2 a t => simp [and_merge] at h
  | case3 e1 t1 e2 t2 hk hnz ih =>
    rw [and_merge] at h
    simp only [hk, if_true, hnz, List.mem_cons] at h
    rcases h with h | h
    · refine ⟨e1.2, e2.2, ?_, ?_, ?_, hnz⟩
      · rw [h, ← hk]; simp
      · rw [h]; simp
      · rw [h]
    · obtain ⟨c1, c2, h1, h2, h3, h4⟩ := ih h
      exact ⟨c1, c2, List.mem_cons_of_mem _ h1, List.mem_cons_of_mem _ h2, h3, h4⟩
  | case4 e1 t1 e2 t2 hk hnz ih =>
    rw [and_merge] at h
    simp only [hk, if_true, hnz] at h
    obtain ⟨c1, c2, h1, h2, h3, h4⟩ := ih h
    exact ⟨c1, c2, List.mem_cons_of_mem _ h1, List.mem_cons_of_mem _ h2, h3, h4⟩
  | case5 e1 t1 e2 t2 hne hlt ih =>
    rw [and_merge] at h
    simp only [hne, if_false, hlt, if_true] at h
    obtain ⟨c1, c2, h1, h2, h3, h4⟩ := ih h
    exact ⟨c1, c2, List.mem_cons_of_mem _ h1, h2, h3, h4⟩
  | case6 e1 t1 e2 t2 hne hlt ih =>
    rw [and_merge] at h
    simp only [hne, if_false, hlt] at h
    obtain ⟨c1, c2, h1, h2, h3, h4⟩ := ih h
    exact ⟨c1, c2, h1, List.mem_cons_of_mem _ h2, h3, h4⟩

theorem mem_and_merge (ops : ContainerOps C) (l1 l2 : roaring_array_t C)
    (hs1 : keys_sorted l1) (hs2 : keys_sorted l2) (k : Nat) (c1 c2 : C)
    (h1 : (k, c1) ∈ l1) (h2 : (k, c2) ∈ l2)
    (hnz : ops.container_nonzero_cardinality (ops.container_and c1 c2) = true) :
    (k, ops.container_and c1 c2) ∈ and_merge ops l1 l2 := by
  induction l1, l2 using and_merge.induct ops with
  | case1 l => simp at h1
  | case2 a t => simp at h2
  | case3 e1 t1 e2 t2 hk hnz2 ih =>
    rw [and_merge]
    simp only [hk, if_true, hnz2, List.mem_cons]
    unfold keys_sorted at hs1 hs2
    rw [List.pairwise_cons] at hs1 hs2
    rcases List.mem_cons.1 h1 with h1 | h1
    · rcases List.mem_cons.1 h2 with h2 | h2
      · left; rw [← h1, ← h2]
      · have := hs2.1 _ h2
        rw [← h1] at hk
        simp only at this hk
        omega
    · rcases List.mem_cons.1 h2 with h2 | h2
      · have := hs1.1 _ h1
        rw [← h2] at hk
        simp only at this hk
        omega
      · right; exact ih hs1.2 hs2.2 h1 h2
  | case4 e1 t1 e2 t2 hk hnz2 ih =>
    rw [and_merge]
    simp only [hk, if_true, hnz2]
    unfold keys_sorted at hs1 hs2
    rw [List.pairwise_cons] at hs1 hs2
    rcases List.mem_cons.1 h1 with h1 | h1
    · rcases List.mem_cons.1 h2 with h2 | h2
      · rw [← h1, ← h2] at hnz2
        exact absurd hnz hnz2
      · have := hs2.1 _ h2
        rw [← h1] at hk
        simp only at this hk
        omega
    · rcases List.mem_cons.1 h2 with h2 | h2
      · have := hs1.1 _ h1
        rw [← h2] at hk
        simp only at this hk
        omega
      · exact ih hs1.2 hs2.2 h1 h2
  | case5 e1 t1 e2 t2 hne hlt ih =>
    rw [and_merge]
    simp only [hne, if_false, hlt, if_true]
    unfold keys_sorted at hs1 hs2
    rw [List.pairwise_cons] at hs1 hs2
    rcases List.mem_cons.1 h1 with h1 | h1
    · rcases List.mem_cons.1 h2 with h2 | h2
      · rw [← h1, ← h2] at hne
        exact absurd rfl hne
      · have := hs2.1 _ h2
        rw [← h1] at hlt
        simp only at this hlt
        omega
    · exact ih hs1.2 (List.pairwise_cons.2 hs2) h1 h2
  | case6 e1 t1 e2 t2 hne hlt ih =>
    rw [and_merge]
    simp only [hne, if_false, hlt]
    unfold keys_sorted at hs1 hs2
    rw [List.pairwise_cons] at hs1 hs2
    rcases List.mem_cons.1 h2 with h2 | h2
    · rcases List.mem_cons.1 h1 with h1 | h1
      · rw [← h1, ← h2] at hne
        exact absurd rfl hne
      · have := hs1.1 _ h1
        rw [← h2] at hne hlt
        simp only at this hne hlt
        omega
    · exact ih (List.pairwise_cons.2 hs1) hs2.2 h1 h2

theorem and_merge_keys_sublist (ops : ContainerOps C) (l1 l2 : roaring_array_t C) :
    ((and_merge ops l1 l2).map Prod.fst).Sublist (l1.map Prod.fst) := by
  induction l1, l2 using and_merge.induct ops with
  | case1 l => simp [and_merge]
  | case2 a t => simp [and_merge]
  | case3 e1 t1 e2 t2 hk hnz ih =>
    rw [and_merge]
    simp only [hk, if_true, hnz, List.map_cons]
    rw [← hk]
    exact ih.cons₂ _
  | case4 e1 t1 e2 t2 hk hnz ih =>
    rw [and_merge]
    simp only [hk, if_true, hnz, List.map_cons]
    exact ih.cons _
  | case5 e1 t1 e2 t2 hne hlt ih =>
    rw [and_merge]
    simp only [hne, if_false, hlt, if_true, List.map_cons]
    exact ih.cons _
  | case6 e1 t1 e2 t2 hne hlt ih =>
    rw [and_merge]
    simp only [hne, if_false, hlt]
    exact ih

theorem keys_sorted_iff_map (l : roaring_array_t C) :
    keys_sorted l ↔ (l.map Prod.fst).Pairwise (fun a b => a < b) := by
  unfold keys_sorted
  rw [List.pairwise_map]

theorem keys_sorted_of_sublist (l l2 : roaring_array_t C)
    (h : (l.map Prod.fst).Sublist (l2.map Prod.fst)) (hs : keys_sorted l2) :
    keys_sorted l := by
  rw [keys_sorted_iff_map] at hs ⊢
  exact hs.sublist h

/-- Denotation of the two-cursor intersection. -/
theorem ra_has_and_merge (ops : ContainerOps C) (hand : container_and_spec ops)
    (hnz : nonzero_cardinality_spec ops) (l1 l2 : roaring_array_t C)
    (hs1 : keys_sorted l1) (hs2 : keys_sorted l2) (hb lb : Nat) (hlb : lb < 65536) :
    ra_has ops (and_merge ops l1 l2) hb lb ↔ ra_has ops l1 hb lb ∧ ra_has ops l2 hb lb := by
  constructor
  · rintro ⟨c, hm, hc⟩
    obtain ⟨c1, c2, h1, h2, h3, _⟩ := and_merge_mem ops l1 l2 _ hm
    simp only at h1 h2 h3
    rw [h3, hand c1 c2 lb hlb, Bool.and_eq_true] at hc
    exact ⟨⟨c1, h1, hc.1⟩, ⟨c2, h2, hc.2⟩⟩
  · rintro ⟨⟨c1, h1, hc1⟩, ⟨c2, h2, hc2⟩⟩
    have hc : ops.container_contains (ops.container_and c1 c2) lb = true := by
      rw [hand c1 c2 lb hlb, hc1, hc2]; rfl
    exact ⟨_, mem_and_merge ops l1 l2 hs1 hs2 hb c1 c2 h1 h2
      ((hnz _).2 ⟨lb, hlb, hc⟩), hc⟩

/-! ## Denotation of directories -/

theorem ra_has_nil (ops : ContainerOps C) (hb lb : Nat) :
    ra_has ops ([] : roaring_array_t C) hb lb ↔ False := by
  simp [ra_has]

theorem ra_has_cons (ops : ContainerOps C) (e : Nat × C) (t : roaring_array_t C)
    (hb lb : Nat) :
    ra_has ops (e :: t) hb lb
      ↔ (e.1 = hb ∧ ops.container_contains e.2 lb = true) ∨ ra_has ops t hb lb := by
  obtain ⟨k, d⟩ := e
  unfold ra_has
  constructor
  · rintro ⟨c, hm, hc⟩
    rcases List.mem_cons.1 hm with h | h
    · simp only [Prod.mk.injEq] at h
      left
      exact ⟨h.1.symm, by rw [← h.2]; exact hc⟩
    · right
      exact ⟨c, h, hc⟩
  · rintro (⟨h1, h2⟩ | ⟨c, hm, hc⟩)
    · simp only at h1 h2
      exact ⟨d, by rw [h1]; exact List.mem_cons_self _ _, h2⟩
    · exact ⟨c, List.mem_cons_of_mem _ hm, hc⟩

theorem ra_has_append (ops : ContainerOps C) (l1 l2 : roaring_array_t C) (hb lb : Nat) :
    ra_has ops (l1 ++ l2) hb lb ↔ ra_has ops l1 hb lb ∨ ra_has ops l2 hb lb := by
  induction l1 with
  | nil => simp [ra_has_nil]
  | cons a t ih => rw [List.cons_append, ra_has_cons, ra_has_cons, ih, or_assoc]

theorem ra_has_key_mem (ops : ContainerOps C) (l : roaring_array_t C) (hb lb : Nat)
    (h : ra_has ops l hb lb) : hb ∈ l.map Prod.fst := by
  obtain ⟨c, hm, _⟩ := h
  exact List.mem_map.2 ⟨(hb, c), hm, rfl⟩

theorem keys_sorted_cons (e : Nat × C) (t : roaring_array_t C) :
    keys_sorted (e :: t) ↔ (∀ k ∈ t.map Prod.fst, e.1 < k) ∧ keys_sorted t := by
  unfold keys_sorted
  rw [List.pairwise_cons]
  constructor
  · rintro ⟨h1, h2⟩
    refine ⟨?_, h2⟩
    intro k hk
    obtain ⟨a, ha, rfl⟩ := List.mem_map.1 hk
    exact h1 a ha
  · rintro ⟨h1, h2⟩
    exact ⟨fun a ha => h1 _ (List.mem_map.2 ⟨a, ha, rfl⟩), h2⟩

theorem ra_has_tail_lt (ops : ContainerOps C) (e : Nat × C) (t : roaring_array_t C)
    (hs : keys_sorted (e :: t)) (hb lb : Nat) (h : ra_has ops t hb lb) : e.1 < hb :=
  ((keys_sorted_cons e t).1 hs).1 hb (ra_has_key_mem ops t hb lb h)

/-! ## Properties of the two-cursor union -/

theorem ra_has_or_merge (ops : ContainerOps C) (hor : container_or_spec ops)
    (l1 l2 : roaring_array_t C) (hb lb : Nat) (hlb : lb < 65536) :
    ra_has ops (or_merge ops l1 l2) hb lb ↔ ra_has ops l1 hb lb ∨ ra_has ops l2 hb lb := by
  induction l1, l2 using or_merge.induct ops with
  | case1 l => simp [or_merge, ra_has_nil]
  | case2 a t => simp [or_merge, ra_has_nil]
  | case3 e1 t1 e2 t2 hk ih =>
    rw [or_merge]
    simp only [hk, if_true]
    rw [ra_has_cons, ra_has_cons, ra_has_cons, ih]
    simp only [hor _ _ lb hlb, Bool.or_eq_true, hk]
    tauto
  | case4 e1 t1 e2 t2 hne hlt ih =>
    rw [or_merge]
    simp only [hne, if_false, hlt, if_true]
    rw [ra_has_cons, ra_has_cons, ih, or_assoc]
  | case5 e1 t1 e2 t2 hne hlt ih =>
    rw [or_merge]
    simp only [hne, if_false, hlt]
    rw [ra_has_cons ops e2 (or_merge ops (e1 :: t1) t2), ih, ra_has_cons ops e2 t2]
    tauto

theorem or_merge_mem (ops : ContainerOps C) (l1 l2 : roaring_array_t C) (e : Nat × C)
    (h : e ∈ or_merge ops l1 l2) :
    e ∈ l1 ∨ e ∈ l2 ∨ ∃ c1 c2, (e.1, c1) ∈ l1 ∧ (e.1, c2) ∈ l2
      ∧ e.2 = ops.container_or c1 c2 := by
  induction l1, l2 using or_merge.induct ops with
  | case1 l =>
    rw [or_merge] at h
    exact Or.inr (Or.inl h)
  | case2 a t =>
    rw [or_merge] at h
    exact Or.inl h
  | case3 e1 t1 e2 t2 hk ih =>
    rw [or_merge] at h
    simp only [hk, if_true, List.mem_cons] at h
    rcases h with h | h
    · refine Or.inr (Or.inr ⟨e1.2, e2.2, ?_, ?_, ?_⟩)
      · rw [h, ← hk]; simp
      · rw [h]; simp
      · rw [h]
    · rcases ih h with h | h | ⟨c1, c2, h1, h2, h3⟩
      · exact Or.inl (List.mem_cons_of_mem _ h)
      · exact Or.inr (Or.inl (List.mem_cons_of_mem _ h))
      · exact Or.inr (Or.inr ⟨c1, c2, List.mem_cons_of_mem _ h1,
          List.mem_cons_of_mem _ h2, h3⟩)
  | case4 e1 t1 e2 t2 hne hlt ih =>
    rw [or_merge] at h
    simp only [hne, if_false, hlt, if_true, List.mem_cons] at h
    rcases h with h | h
    · exact Or.inl (by rw [h]; exact List.mem_cons_self _ _)
    · rcases ih h with h | h | ⟨c1, c2, h1, h2, h3⟩
      · exact Or.inl (List.mem_cons_of_mem _ h)
      · exact Or.inr (Or.inl h)
      · exact Or.inr (Or.inr ⟨c1, c2, List.mem_cons_of_mem _ h1, h2, h3⟩)
  | case5 e1 t1 e2 t2 hne hlt ih =>
    rw [or_merge] at h
    simp only [hne, if_false, hlt, List.mem_cons] at h
    rcases h with h | h
    · exact Or.inr (Or.inl (by rw [h]; exact List.mem_cons_self _ _))
    · rcases ih h with h | h | ⟨c1, c2, h1, h2, h3⟩
      · exact Or.inl h
      · exact Or.inr (Or.inl (List.mem_cons_of_mem _ h))
      · exact Or.inr (Or.inr ⟨c1, c2, h1, List.mem_cons_of_mem _ h2, h3⟩)

theorem mem_keys_of_mem (l : roaring_array_t C) (e : Nat × C) (h : e ∈ l) :
    e.1 ∈ l.map Prod.fst :=
  List.mem_map.2 ⟨e, h, rfl⟩

theorem or_merge_key_mem (ops : ContainerOps C) (l1 l2 : roaring_array_t C) (k : Nat)
    (h : k ∈ (or_merge ops l1 l2).map Prod.fst) :
    k ∈ l1.map Prod.fst ∨ k ∈ l2.map Prod.fst := by
  obtain ⟨e, he, rfl⟩ := List.mem_map.1 h
  rcases or_merge_mem ops l1 l2 e he with h | h | ⟨c1, _, h1, _, _⟩
  · exact Or.inl (mem_keys_of_mem _ _ h)
  · exact Or.inr (mem_keys_of_mem _ _ h)
  · exact Or.inl (mem_keys_of_mem _ (e.1, c1) h1)

theorem or_merge_sorted (ops : ContainerOps C) (l1 l2 : roaring_array_t C)
    (hs1 : keys_sorted l1) (hs2 : keys_sorted l2) : keys_sorted (or_merge ops l1 l2) := by
  induction l1, l2 using or_merge.induct ops with
  | case1 l => rw [or_merge]; exact hs2
  | case2 a t => rw [or_merge]; exact hs1
  | case3 e1 t1 e2 t2 hk ih =>
    rw [or_merge]
    simp only [hk, if_true]
    rw [keys_sorted_cons] at hs1 hs2 ⊢
    refine ⟨?_, ih hs1.2 hs2.2⟩
    intro k hkm
    rcases or_merge_key_mem ops _ _ k hkm with h | h
    · have := hs1.1 k h
      simp only
      omega
    · exact hs2.1 k h
  | case4 e1 t1 e2 t2 hne hlt ih =>
    rw [or_merge]
    simp only [hne, if_false, hlt, if_true]
    have hs2' := hs2
    rw [keys_sorted_cons] at hs1 hs2 ⊢
    refine ⟨?_, ih hs1.2 hs2'⟩
    intro k hkm
    rcases or_merge_key_mem ops _ _ k hkm with h | h
    · exact hs1.1 k h
    · simp only [List.map_cons, List.mem_cons] at h
      rcases h with h | h
      · omega
      · have := hs2.1 k h
        omega
  | case5 e1 t1 e2 t2 hne hlt ih =>
    rw [or_merge]
    simp only [hne, if_false, hlt]
    have hs1' := hs1
    rw [keys_sorted_cons] at hs1 hs2 ⊢
    refine ⟨?_, ih hs1' hs2.2⟩
    intro k hkm
    rcases or_merge_key_mem ops _ _ k hkm with h | h
    · simp only [List.map_cons, List.mem_cons] at h
      rcases h with h | h
      · omega
      · have := hs1.1 k h
        omega
    · exact hs2.1 k h

/-! ## Properties of the two-cursor symmetric difference -/

theorem bool_xor_true_iff (a b : Bool) :
    xor a b = true ↔ (a = true ∧ ¬ b = true) ∨ (¬ a = true ∧ b = true) := by
  cases a <;> cases b <;> simp

theorem bool_andnot_true_iff (a b : Bool) :
    (a && !b) = true ↔ (a = true ∧ ¬ b = true) := by
  cases a <;> cases b <;> simp

theorem xor_step_left (K A R S : Prop) (f1 : R → ¬ K) (f2 : S → ¬ K) :
    ((K ∧ A) ∨ ((R ∧ ¬ S) ∨ (¬ R ∧ S)))
      ↔ ((((K ∧ A) ∨ R) ∧ ¬ S) ∨ (¬ ((K ∧ A) ∨ R) ∧ S)) := by
  tauto

theorem xor_step_right (K A R S : Prop) (f1 : R → ¬ K) (f2 : S → ¬ K) :
    ((K ∧ A) ∨ ((S ∧ ¬ R) ∨ (¬ S ∧ R)))
      ↔ ((S ∧ ¬ ((K ∧ A) ∨ R)) ∨ (¬ S ∧ ((K ∧ A) ∨ R))) := by
  tauto

theorem andnot_step_left (K A R S : Prop) (f2 : S → ¬ K) :
    ((K ∧ A) ∨ (R ∧ ¬ S)) ↔ (((K ∧ A) ∨ R) ∧ ¬ S) := by
  tauto

theorem andnot_step_right (K A R S : Prop) (f2 : S → ¬ K) :
    (S ∧ ¬ R) ↔ (S ∧ ¬ ((K ∧ A) ∨ R)) := by
  tauto

theorem ra_has_xor_merge (ops : ContainerOps C) (hxor : container_xor_spec ops)
    (hnz : nonzero_cardinality_spec ops) (l1 l2 : roaring_array_t C)
    (hs1 : keys_sorted l1) (hs2 : keys_sorted l2) (hb lb : Nat) (hlb : lb < 65536) :
    ra_has ops (xor_merge ops l1 l2) hb lb
      ↔ (ra_has ops l1 hb lb ∧ ¬ ra_has ops l2 hb lb)
        ∨ (¬ ra_has ops l1 hb lb ∧ ra_has ops l2 hb lb) := by
  induction l1, l2 using xor_merge.induct ops with
  | case1 l => simp [xor_merge, ra_has_nil]
  | case2 a t => simp [xor_merge, ra_has_nil]
  | case3 e1 t1 e2 t2 hk hc ih =>
    rw [xor_merge]
    simp only [hk, if_true, hc]
    have f1 : ra_has ops t1 hb lb → ¬ e2.1 = hb := fun h => by
      have := ra_has_tail_lt ops e1 t1 hs1 hb lb h
      omega
    have f2 : ra_has ops t2 hb lb → ¬ e2.1 = hb := fun h => by
      have := ra_has_tail_lt ops e2 t2 hs2 hb lb h
      omega
    rw [ra_has_cons, ra_has_cons, ra_has_cons,
      ih ((keys_sorted_cons _ _).1 hs1).2 ((keys_sorted_cons _ _).1 hs2).2]
    simp only [hxor _ _ lb hlb, bool_xor_true_iff, hk]
    by_cases hK : e2.1 = hb
    · have hR1 : ¬ ra_has ops t1 hb lb := fun h => f1 h hK
      have hR2 : ¬ ra_has ops t2 hb lb := fun h => f2 h hK
      simp only [hK, hR1, hR2, true_and, or_false, not_false_eq_true, and_true, and_false,
        false_and]
    · simp only [hK, false_and, false_or]
  | case4 e1 t1 e2 t2 hk hc ih =>
    rw [xor_merge]
    simp only [hk, if_true, hc, Bool.false_eq_true, if_false]
    have f1 : ra_has ops t1 hb lb → ¬ e2.1 = hb := fun h => by
      have := ra_has_tail_lt ops e1 t1 hs1 hb lb h
      omega
    have f2 : ra_has ops t2 hb lb → ¬ e2.1 = hb := fun h => by
      have := ra_has_tail_lt ops e2 t2 hs2 hb lb h
      omega
    have f3 : ¬ ((ops.container_contains e1.2 lb = true
          ∧ ¬ ops.container_contains e2.2 lb = true)
        ∨ (¬ ops.container_contains e1.2 lb = true
          ∧ ops.container_contains e2.2 lb = true)) := by
      rw [← bool_xor_true_iff, ← hxor _ _ lb hlb]
      intro h
      exact hc ((hnz _).2 ⟨lb, hlb, h⟩)
    rw [ra_has_cons, ra_has_cons,
      ih ((keys_sorted_cons _ _).1 hs1).2 ((keys_sorted_cons _ _).1 hs2).2]
    simp only [hk]
    by_cases hK : e2.1 = hb
    · have hR1 : ¬ ra_has ops t1 hb lb := fun h => f1 h hK
      have hR2 : ¬ ra_has ops t2 hb lb := fun h => f2 h hK
      simp only [hK, hR1, hR2, true_and, or_false, not_false_eq_true, and_true, and_false,
        false_and, false_iff]
      exact f3
    · simp only [hK, false_and, false_or]
  | case5 e1 t1 e2 t2 hne hlt ih =>
    rw [xor_merge]
    simp only [hne, if_false, hlt, if_true]
    have f1 : ra_has ops t1 hb lb → ¬ e1.1 = hb := fun h => by
      have := ra_has_tail_lt ops e1 t1 hs1 hb lb h
      omega
    have f2 : ra_has ops (e2 :: t2) hb lb → ¬ e1.1 = hb := fun h => by
      rcases (ra_has_cons ops e2 t2 hb lb).1 h with h | h
      · omega
      · have := ra_has_tail_lt ops e2 t2 hs2 hb lb h
        omega
    rw [ra_has_cons ops e1 (xor_merge ops t1 (e2 :: t2)),
      ih ((keys_sorted_cons _ _).1 hs1).2 hs2, ra_has_cons ops e1 t1]
    exact xor_step_left _ _ _ _ f1 f2
  | case6 e1 t1 e2 t2 hne hlt ih =>
    rw [xor_merge]
    simp only [hne, if_false, hlt]
    have f1 : ra_has ops t2 hb lb → ¬ e2.1 = hb := fun h => by
      have := ra_has_tail_lt ops e2 t2 hs2 hb lb h
      omega
    have f2 : ra_has ops (e1 :: t1) hb lb → ¬ e2.1 = hb := fun h => by
      rcases (ra_has_cons ops e1 t1 hb lb).1 h with h | h
      · omega
      · have := ra_has_tail_lt ops e1 t1 hs1 hb lb h
        omega
    rw [ra_has_cons ops e2 (xor_merge ops (e1 :: t1) t2),
      ih hs1 ((keys_sorted_cons _ _).1 hs2).2, ra_has_cons ops e2 t2]
    exact xor_step_right _ _ _ _ f1 f2

theorem xor_merge_mem (ops : ContainerOps C) (l1 l2 : roaring_array_t C) (e : Nat × C)
    (h : e ∈ xor_merge ops l1 l2) :
    e ∈ l1 ∨ e ∈ l2 ∨ ∃ c1 c2, (e.1, c1) ∈ l1 ∧ (e.1, c2) ∈ l2
      ∧ e.2 = ops.container_xor c1 c2
      ∧ ops.container_nonzero_cardinality (ops.container_xor c1 c2) = true := by
  induction l1, l2 using xor_merge.induct ops with
  | case1 l =>
    rw [xor_merge] at h
    exact Or.inr (Or.inl h)
  | case2 a t =>
    rw [xor_merge] at h
    exact Or.inl h
  | case3 e1 t1 e2 t2 hk hc ih =>
    rw [xor_merge] at h
    simp only [hk, if_true, hc, List.mem_cons] at h
    rcases h with h | h
    · refine Or.inr (Or.inr ⟨e1.2, e2.2, ?_, ?_, ?_, hc⟩)
      · rw [h, ← hk]; simp
      · rw [h]; simp
      · rw [h]
    · rcases ih h with h | h | ⟨c1, c2, h1, h2, h3⟩
      · exact Or.inl (List.mem_cons_of_mem _ h)
      · exact Or.inr (Or.inl (List.mem_cons_of_mem _ h))
      · exact Or.inr (Or.inr ⟨c1, c2, List.mem_cons_of_mem _ h1,
          List.mem_cons_of_mem _ h2, h3⟩)
  | case4 e1 t1 e2 t2 hk hc ih =>
    rw [xor_merge] at h
    simp only [hk, if_true, hc, Bool.false_eq_true, if_false] at h
    rcases ih h with h | h | ⟨c1, c2, h1, h2, h3⟩
    · exact Or.inl (List.mem_cons_of_mem _ h)
    · exact Or.inr (Or.inl (List.mem_cons_of_mem _ h))
    · exact Or.inr (Or.inr ⟨c1, c2, List.mem_cons_of_mem _ h1,
        List.mem_cons_of_mem _ h2, h3⟩)
  | case5 e1 t1 e2 t2 hne hlt ih =>
    rw [xor_merge] at h
    simp only [hne, if_false, hlt, if_true, List.mem_cons] at h
    rcases h with h | h
    · exact Or.inl (by rw [h]; exact List.mem_cons_self _ _)
    · rcases ih h with h | h | ⟨c1, c2, h1, h2, h3⟩
      · exact Or.inl (List.mem_cons_of_mem _ h)
      · exact Or.inr (Or.inl h)
      · exact Or.inr (Or.inr ⟨c1, c2, List.mem_cons_of_mem _ h1, h2, h3⟩)
  | case6 e1 t1 e2 t2 hne hlt ih =>
    rw [xor_merge] at h
    simp only [hne, if_false, hlt, List.mem_cons] at h
    rcases h with h | h
    · exact Or.inr (Or.inl (by rw [h]; exact List.mem_cons_self _ _))
    · rcases ih h with h | h | ⟨c1, c2, h1, h2, h3⟩
      · exact Or.inl h
      · exact Or.inr (Or.inl (List.mem_cons_of_mem _ h))
      · exact Or.inr (Or.inr ⟨c1, c2, h1, List.mem_cons_of_mem _ h2, h3⟩)

theorem xor_merge_key_mem (ops : ContainerOps C) (l1 l2 : roaring_array_t C) (k : Nat)
    (h : k ∈ (xor_merge ops l1 l2).map Prod.fst) :
    k ∈ l1.map Prod.fst ∨ k ∈ l2.map Prod.fst := by
  obtain ⟨e, he, rfl⟩ := List.mem_map.1 h
  rcases xor_merge_mem ops l1 l2 e he with h | h | ⟨c1, _, h1, _, _⟩
  · exact Or.inl (mem_keys_of_mem _ _ h)
  · exact Or.inr (mem_keys_of_mem _ _ h)
  · exact Or.inl (mem_keys_of_mem _ (e.1, c1) h1)

theorem xor_merge_sorted (ops : ContainerOps C) (l1 l2 : roaring_array_t C)
    (hs1 : keys_sorted l1) (hs2 : keys_sorted l2) : keys_sorted (xor_merge ops l1 l2) := by
  induction l1, l2 using xor_merge.induct ops with
  | case1 l => rw [xor_merge]; exact hs2
  | case2 a t => rw [xor_merge]; exact hs1
  | case3 e1 t1 e2 t2 hk hc ih =>
    rw [xor_merge]
    simp only [hk, if_true, hc]
    rw [keys_sorted_cons] at hs1 hs2 ⊢
    refine ⟨?_, ih hs1.2 hs2.2⟩
    intro k hkm
    rcases xor_merge_key_mem ops _ _ k hkm with h | h
    · have := hs1.1 k h
      simp only
      omega
    · exact hs2.1 k h
  | case4 e1 t1 e2 t2 hk hc ih =>
    rw [xor_merge]
    simp only [hk, if_true, hc, Bool.false_eq_true, if_false]
    rw [keys_sorted_cons] at hs1 hs2
    exact ih hs1.2 hs2.2
  | case5 e1 t1 e2 t2 hne hlt ih =>
    rw [xor_merge]
    simp only [hne, if_false, hlt, if_true]
    have hs2' := hs2
    rw [keys_sorted_cons] at hs1 hs2 ⊢
    refine ⟨?_, ih hs1.2 hs2'⟩
    intro k hkm
    rcases xor_merge_key_mem ops _ _ k hkm with h | h
    · exact hs1.1 k h
    · simp only [List.map_cons, List.mem_cons] at h
      rcases h with h | h
      · omega
      · have := hs2.1 k h
        omega
  | case6 e1 t1 e2 t2 hne hlt ih =>
    rw [xor_merge]
    simp only [hne, if_false, hlt]
    have hs1' := hs1
    rw [keys_sorted_cons] at hs1 hs2 ⊢
    refine ⟨?_, ih hs1' hs2.2⟩
    intro k hkm
    rcases xor_merge_key_mem ops _ _ k hkm with h | h
    · simp only [List.map_cons, List.mem_cons] at h
      rcases h with h | h
      · omega
      · have := hs1.1 k h
        omega
    · exact hs2.1 k h

/-! ## Properties of the two-cursor difference -/

theorem ra_has_andnot_merge (ops : ContainerOps C) (handnot : container_andnot_spec ops)
    (hnz : nonzero_cardinality_spec ops) (l1 l2 : roaring_array_t C)
    (hs1 : keys_sorted l1) (hs2 : keys_sorted l2) (hb lb : Nat) (hlb : lb < 65536) :
    ra_has ops (andnot_merge ops l1 l2) hb lb
      ↔ ra_has ops l1 hb lb ∧ ¬ ra_has ops l2 hb lb := by
  induction l1, l2 using andnot_merge.induct ops with
  | case1 l => simp [andnot_merge, ra_has_nil]
  | case2 a t => simp [andnot_merge, ra_has_nil]
  | case3 e1 t1 e2 t2 hk hc ih =>
    rw [andnot_merge]
    simp only [hk, if_true, hc]
    have f1 : ra_has ops t1 hb lb → ¬ e2.1 = hb := fun h => by
      have := ra_has_tail_lt ops e1 t1 hs1 hb lb h
      omega
    have f2 : ra_has ops t2 hb lb → ¬ e2.1 = hb := fun h => by
      have := ra_has_tail_lt ops e2 t2 hs2 hb lb h
      omega
    rw [ra_has_cons, ra_has_cons, ra_has_cons,
      ih ((keys_sorted_cons _ _).1 hs1).2 ((keys_sorted_cons _ _).1 hs2).2]
    simp only [handnot _ _ lb hlb, bool_andnot_true_iff, hk]
    by_cases hK : e2.1 = hb
    · have hR1 : ¬ ra_has ops t1 hb lb := fun h => f1 h hK
      have hR2 : ¬ ra_has ops t2 hb lb := fun h => f2 h hK
      simp only [hK, hR1, hR2, true_and, or_false, not_false_eq_true, and_true, and_false,
        false_and]
    · simp only [hK, false_and, false_or]
  | case4 e1 t1 e2 t2 hk hc ih =>
    rw [andnot_merge]
    simp only [hk, if_true, hc, Bool.false_eq_true, if_false]
    have f1 : ra_has ops t1 hb lb → ¬ e2.1 = hb := fun h => by
      have := ra_has_tail_lt ops e1 t1 hs1 hb lb h
      omega
    have f2 : ra_has ops t2 hb lb → ¬ e2.1 = hb := fun h => by
      have := ra_has_tail_lt ops e2 t2 hs2 hb lb h
      omega
    have f3 : ¬ (ops.container_contains e1.2 lb = true
          ∧ ¬ ops.container_contains e2.2 lb = true) := by
      rw [← bool_andnot_true_iff, ← handnot _ _ lb hlb]
      intro h
      exact hc ((hnz _).2 ⟨lb, hlb, h⟩)
    rw [ra_has_cons, ra_has_cons,
      ih ((keys_sorted_cons _ _).1 hs1).2 ((keys_sorted_cons _ _).1 hs2).2]
    simp only [hk]
    by_cases hK : e2.1 = hb
    · have hR1 : ¬ ra_has ops t1 hb lb := fun h => f1 h hK
      have hR2 : ¬ ra_has ops t2 hb lb := fun h => f2 h hK
      simp only [hK, hR1, hR2, true_and, or_false, not_false_eq_true, and_true, and_false,
        false_and, false_iff]
      exact f3
    · simp only [hK, false_and, false_or]
  | case5 e1 t1 e2 t2 hne hlt ih =>
    rw [andnot_merge]
    simp only [hne, if_false, hlt, if_true]
    have f1 : ra_has ops t1 hb lb → ¬ e1.1 = hb := fun h => by
      have := ra_has_tail_lt ops e1 t1 hs1 hb lb h
      omega
    have f2 : ra_has ops (e2 :: t2) hb lb → ¬ e1.1 = hb := fun h => by
      rcases (ra_has_cons ops e2 t2 hb lb).1 h with h | h
      · omega
      · have := ra_has_tail_lt ops e2 t2 hs2 hb lb h
        omega
    rw [ra_has_cons ops e1 (andnot_merge ops t1 (e2 :: t2)),
      ih ((keys_sorted_cons _ _).1 hs1).2 hs2, ra_has_cons ops e1 t1]
    exact andnot_step_left _ _ _ _ f2
  | case6 e1 t1 e2 t2 hne hlt ih =>
    rw [andnot_merge]
    simp only [hne, if_false, hlt]
    have f1 : ra_has ops t2 hb lb → ¬ e2.1 = hb := fun h => by
      have := ra_has_tail_lt ops e2 t2 hs2 hb lb h
      omega
    have f2 : ra_has ops (e1 :: t1) hb lb → ¬ e2.1 = hb := fun h => by
      rcases (ra_has_cons ops e1 t1 hb lb).1 h with h | h
      · omega
      · have := ra_has_tail_lt ops e1 t1 hs1 hb lb h
        omega
    rw [ih hs1 ((keys_sorted_cons _ _).1 hs2).2, ra_has_cons ops e2 t2]
    exact andnot_step_right _ _ _ _ f2

theorem andnot_merge_mem (ops : ContainerOps C) (l1 l2 : roaring_array_t C) (e : Nat × C)
    (h : e ∈ andnot_merge ops l1 l2) :
    e ∈ l1 ∨ ∃ c1 c2, (e.1, c1) ∈ l1 ∧ (e.1, c2) ∈ l2
      ∧ e.2 = ops.container_andnot c1 c2
      ∧ ops.container_nonzero_cardinality (ops.container_andnot c1 c2) = true := by
  induction l1, l2 using andnot_merge.induct ops with
  | case1 l => simp [andnot_merge] at h
  | case2 a t =>
    rw [andnot_merge] at h
    exact Or.inl h
  | case3 e1 t1 e2 t2 hk hc ih =>
    rw [andnot_merge] at h
    simp only [hk, if_true, hc, List.mem_cons] at h
    rcases h with h | h
    · refine Or.inr ⟨e1.2, e2.2, ?_, ?_, ?_, hc⟩
      · rw [h, ← hk]; simp
      · rw [h]; simp
      · rw [h]
    · rcases ih h with h | ⟨c1, c2, h1, h2, h3⟩
      · exact Or.inl (List.mem_cons_of_mem _ h)
      · exact Or.inr ⟨c1, c2, List.mem_cons_of_mem _ h1, List.mem_cons_of_mem _ h2, h3⟩
  | case4 e1 t1 e2 t2 hk hc ih =>
    rw [andnot_merge] at h
    simp only [hk, if_true, hc, Bool.false_eq_true, if_false] at h
    rcases ih h with h | ⟨c1, c2, h1, h2, h3⟩
    · exact Or.inl (List.mem_cons_of_mem _ h)
    · exact Or.inr ⟨c1, c2, List.mem_cons_of_mem _ h1, List.mem_cons_of_mem _ h2, h3⟩
  | case5 e1 t1 e2 t2 hne hlt ih =>
    rw [andnot_merge] at h
    simp only [hne, if_false, hlt, if_true, List.mem_cons] at h
    rcases h with h | h
    · exact Or.inl (by rw [h]; exact List.mem_cons_self _ _)
    · rcases ih h with h | ⟨c1, c2, h1, h2, h3⟩
      · exact Or.inl (List.mem_cons_of_mem _ h)
      · exact Or.inr ⟨c1, c2, List.mem_cons_of_mem _ h1, h2, h3⟩
  | case6 e1 t1 e2 t2 hne hlt ih =>
    rw [andnot_merge] at h
    simp only [hne, if_false, hlt] at h
    rcases ih h with h | ⟨c1, c2, h1, h2, h3⟩
    · exact Or.inl h
    · exact Or.inr ⟨c1, c2, h1, List.mem_cons_of_mem _ h2, h3⟩

theorem andnot_merge_keys_sublist (ops : ContainerOps C) (l1 l2 : roaring_array_t C) :
    ((andnot_merge ops l1 l2).map Prod.fst).Sublist (l1.map Prod.fst) := by
  induction l1, l2 using andnot_merge.induct ops with
  | case1 l => simp [andnot_merge]
  | case2 a t => simp [andnot_merge]
  | case3 e1 t1 e2 t2 hk hnz ih =>
    rw [andnot_merge]
    simp only [hk, if_true, hnz, List.map_cons]
    rw [← hk]
    exact ih.cons₂ _
  | case4 e1 t1 e2 t2 hk hnz ih =>
    rw [andnot_merge]
    simp only [hk, if_true, hnz, List.map_cons]
    exact ih.cons _
  | case5 e1 t1 e2 t2 hne hlt ih =>
    rw [andnot_merge]
    simp only [hne, if_false, hlt, if_true, List.map_cons]
    exact ih.cons₂ _
  | case6 e1 t1 e2 t2 hne hlt ih =>
    rw [andnot_merge]
    simp only [hne, if_false, hlt]
    exact ih

/-- Entries of `l1` whose key does not occur in `l2` pass through the
two-cursor difference unchanged. -/
theorem mem_andnot_merge_of_key_absent (ops : ContainerOps C) (l1 l2 : roaring_array_t C)
    (hs1 : keys_sorted l1) (hs2 : keys_sorted l2) (e : Nat × C) (h1 : e ∈ l1)
    (h2 : e.1 ∉ l2.map Prod.fst) : e ∈ andnot_merge ops l1 l2 := by
  induction l1, l2 using andnot_merge.induct ops with
  | case1 l => simp at h1
  | case2 a t => rw [andnot_merge]; exact h1
  | case3 e1 t1 e2 t2 hk hc ih =>
    rw [andnot_merge]
    simp only [hk, if_true, hc, List.mem_cons]
    simp only [List.map_cons, List.mem_cons, not_or] at h2
    rcases List.mem_cons.1 h1 with h | h
    · rw [h, hk] at h2
      exact absurd rfl h2.1
    · right
      exact ih ((keys_sorted_cons _ _).1 hs1).2 ((keys_sorted_cons _ _).1 hs2).2 h h2.2
  | case4 e1 t1 e2 t2 hk hc ih =>
    rw [andnot_merge]
    simp only [hk, if_true, hc, Bool.false_eq_true, if_false]
    simp only [List.map_cons, List.mem_cons, not_or] at h2
    rcases List.mem_cons.1 h1 with h | h
    · rw [h, hk] at h2
      exact absurd rfl h2.1
    · exact ih ((keys_sorted_cons _ _).1 hs1).2 ((keys_sorted_cons _ _).1 hs2).2 h h2.2
  | case5 e1 t1 e2 t2 hne hlt ih =>
    rw [andnot_merge]
    simp only [hne, if_false, hlt, if_true, List.mem_cons]
    rcases List.mem_cons.1 h1 with h | h
    · exact Or.inl h
    · exact Or.inr (ih ((keys_sorted_cons _ _).1 hs1).2 hs2 h h2)
  | case6 e1 t1 e2 t2 hne hlt ih =>
    rw [andnot_merge]
    simp only [hne, if_false, hlt]
    simp only [List.map_cons, List.mem_cons, not_or] at h2
    exact ih hs1 ((keys_sorted_cons _ _).1 hs2).2 h1 h2.2

/-! ## Validity of the merged directories -/

theorem mem_unique_of_sorted (l : roaring_array_t C) (hs : keys_sorted l) (k : Nat)
    (c c' : C) (h : (k, c) ∈ l) (h' : (k, c') ∈ l) : c = c' := by
  have h1 := getElem_lower_bound_of_mem l hs k c h
  have h2 := getElem_lower_bound_of_mem l hs k c' h'
  rw [h1] at h2
  simpa using h2

theorem ra_has_iff_of_mem (ops : ContainerOps C) (l : roaring_array_t C)
    (hs : keys_sorted l) (k : Nat) (c : C) (h : (k, c) ∈ l) (lb : Nat) :
    ra_has ops l k lb ↔ ops.container_contains c lb = true := by
  constructor
  · rintro ⟨c', hm, hc⟩
    rw [mem_unique_of_sorted l hs k c c' h hm]
    exact hc
  · intro hc
    exact ⟨c, h, hc⟩

theorem ra_has_of_not_key (ops : ContainerOps C) (l : roaring_array_t C) (k lb : Nat)
    (h : k ∉ l.map Prod.fst) : ¬ ra_has ops l k lb :=
  fun hh => h (ra_has_key_mem ops l k lb hh)

theorem and_merge_valid (ops : ContainerOps C) (hnz : nonzero_cardinality_spec ops)
    (l1 l2 : roaring_array_t C) (h1 : ra_valid ops l1) :
    ra_valid ops (and_merge ops l1 l2) := by
  refine ⟨keys_sorted_of_sublist _ _ (and_merge_keys_sublist ops _ _) h1.1, ?_, ?_⟩
  · intro e he
    obtain ⟨c1, _, hm, _⟩ := and_merge_mem ops l1 l2 e he
    exact h1.2.1 (e.1, c1) hm
  · intro e he
    obtain ⟨c1, c2, _, _, h3, h4⟩ := and_merge_mem ops l1 l2 e he
    rw [h3]
    exact (hnz _).1 h4

theorem or_merge_valid (ops : ContainerOps C) (hor : container_or_spec ops)
    (l1 l2 : roaring_array_t C) (h1 : ra_valid ops l1) (h2 : ra_valid ops l2) :
    ra_valid ops (or_merge ops l1 l2) := by
  refine ⟨or_merge_sorted ops l1 l2 h1.1 h2.1, ?_, ?_⟩
  · intro e he
    rcases or_merge_mem ops l1 l2 e he with h | h | ⟨c1, _, hm, _⟩
    · exact h1.2.1 _ h
    · exact h2.2.1 _ h
    · exact h1.2.1 (e.1, c1) hm
  · intro e he
    rcases or_merge_mem ops l1 l2 e he with h | h | ⟨c1, c2, hm, _, h3⟩
    · exact h1.2.2 _ h
    · exact h2.2.2 _ h
    · obtain ⟨v, hv, hc⟩ := h1.2.2 (e.1, c1) hm
      refine ⟨v, hv, ?_⟩
      rw [h3, hor _ _ v hv]
      simp only at hc
      rw [hc]
      rfl

theorem xor_merge_valid (ops : ContainerOps C) (hnz : nonzero_cardinality_spec ops)
    (l1 l2 : roaring_array_t C) (h1 : ra_valid ops l1) (h2 : ra_valid ops l2) :
    ra_valid ops (xor_merge ops l1 l2) := by
  refine ⟨xor_merge_sorted ops l1 l2 h1.1 h2.1, ?_, ?_⟩
  · intro e he
    rcases xor_merge_mem ops l1 l2 e he with h | h | ⟨c1, _, hm, _⟩
    · exact h1.2.1 _ h
    · exact h2.2.1 _ h
    · exact h1.2.1 (e.1, c1) hm
  · intro e he
    rcases xor_merge_mem ops l1 l2 e he with h | h | ⟨c1, c2, _, _, h3, h4⟩
    · exact h1.2.2 _ h
    · exact h2.2.2 _ h
    · rw [h3]
      exact (hnz _).1 h4

theorem andnot_merge_valid (ops : ContainerOps C) (hnz : nonzero_cardinality_spec ops)
    (l1 l2 : roaring_array_t C) (h1 : ra_valid ops l1) :
    ra_valid ops (andnot_merge ops l1 l2) := by
  refine ⟨keys_sorted_of_sublist _ _ (andnot_merge_keys_sublist ops _ _) h1.1, ?_, ?_⟩
  · intro e he
    rcases andnot_merge_mem ops l1 l2 e he with h | ⟨c1, _, hm, _⟩
    · exact h1.2.1 _ h
    · exact h1.2.1 (e.1, c1) hm
  · intro e he
    rcases andnot_merge_mem ops l1 l2 e he with h | ⟨c1, c2, _, _, h3, h4⟩
    · exact h1.2.2 _ h
    · rw [h3]
      exact (hnz _).1 h4

theorem xor_merge_self (ops : ContainerOps C) (hxor : container_xor_spec ops)
    (hnz : nonzero_cardinality_spec ops) (l : roaring_array_t C) :
    xor_merge ops l l = [] := by
  induction l with
  | nil => simp [xor_merge]
  | cons e t ih =>
    have hc : ¬ ops.container_nonzero_cardinality (ops.container_xor e.2 e.2) = true := by
      intro h
      obtain ⟨v, hv, hh⟩ := (hnz _).1 h
      rw [hxor _ _ v hv] at hh
      simp at hh
    rw [xor_merge]
    simp only [if_true, hc, Bool.false_eq_true, if_false]
    exact ih

/-! ## Point updates of the directory -/

theorem keys_sorted_append (A B : roaring_array_t C) :
    keys_sorted (A ++ B)
      ↔ keys_sorted A ∧ keys_sorted B ∧ ∀ a ∈ A, ∀ b ∈ B, a.1 < b.1 := by
  unfold keys_sorted
  exact List.pairwise_append

theorem keys_sorted_append_cons (A B : roaring_array_t C) (e : Nat × C) :
    keys_sorted (A ++ e :: B)
      ↔ keys_sorted A ∧ keys_sorted B ∧ (∀ a ∈ A, a.1 < e.1) ∧ (∀ b ∈ B, e.1 < b.1)
        ∧ ∀ a ∈ A, ∀ b ∈ B, a.1 < b.1 := by
  rw [keys_sorted_append]
  unfold keys_sorted
  rw [List.pairwise_cons]
  constructor
  · rintro ⟨hA, ⟨hB1, hB2⟩, hAB⟩
    exact ⟨hA, hB2, fun a ha => hAB a ha e (List.mem_cons_self _ _), hB1,
      fun a ha b hb => hAB a ha b (List.mem_cons_of_mem _ hb)⟩
  · rintro ⟨hA, hB, hAe, heB, hAB⟩
    refine ⟨hA, ⟨heB, hB⟩, ?_⟩
    intro a ha b hb
    rcases List.mem_cons.1 hb with h | h
    · rw [h]; exact hAe a ha
    · exact hAB a ha b h

theorem split_at_index (l : roaring_array_t C) (j : Nat) (e : Nat × C)
    (h : l[j]? = some e) : l = l.take j ++ e :: l.drop (j + 1) := by
  obtain ⟨hj, he⟩ := List.getElem?_eq_some.1 h
  rw [← he, ← List.drop_eq_getElem_cons hj, List.take_append_drop]

theorem ra_set_container_at_index_eq (l : roaring_array_t C) (j : Nat) (e : Nat × C)
    (c2 : C) (h : l[j]? = some e) :
    ra_set_container_at_index l j c2 = l.take j ++ (e.1, c2) :: l.drop (j + 1) := by
  unfold ra_set_container_at_index
  rw [h]
  simp only
  obtain ⟨hj, _⟩ := List.getElem?_eq_some.1 h
  rw [List.set_eq_take_append_cons_drop]
  simp [hj]

theorem ra_remove_at_index_eq (l : roaring_array_t C) (j : Nat) :
    ra_remove_at_index l j = l.take j ++ l.drop (j + 1) := by
  unfold ra_remove_at_index
  exact List.eraseIdx_eq_take_drop_succ l j

theorem ra_has_of_sorted_split (ops : ContainerOps C) (A B : roaring_array_t C)
    (k : Nat) (c : C) (hs : keys_sorted (A ++ (k, c) :: B)) (c2 : C) (hb lb : Nat) :
    ra_has ops (A ++ (k, c2) :: B) hb lb
      ↔ (hb = k ∧ ops.container_contains c2 lb = true)
        ∨ (hb ≠ k ∧ ra_has ops (A ++ (k, c) :: B) hb lb) := by
  rw [keys_sorted_append_cons] at hs
  obtain ⟨_, _, hA, hB, _⟩ := hs
  have fA : ra_has ops A hb lb → hb ≠ k := by
    rintro ⟨d, hm, _⟩ hk
    have := hA _ hm
    simp only at this
    omega
  have fB : ra_has ops B hb lb → hb ≠ k := by
    rintro ⟨d, hm, _⟩ hk
    have := hB _ hm
    simp only at this
    omega
  rw [ra_has_append, ra_has_cons, ra_has_append, ra_has_cons]
  simp only
  by_cases hk : hb = k
  · have nA : ¬ ra_has ops A hb lb := fun h => fA h hk
    have nB : ¬ ra_has ops B hb lb := fun h => fB h hk
    subst hk
    simp [nA, nB]
  · have hk' : ¬ k = hb := fun h => hk h.symm
    simp [hk, hk']

theorem ra_has_remove_of_sorted_split (ops : ContainerOps C) (A B : roaring_array_t C)
    (k : Nat) (c : C) (hs : keys_sorted (A ++ (k, c) :: B)) (hb lb : Nat) :
    ra_has ops (A ++ B) hb lb ↔ (hb ≠ k ∧ ra_has ops (A ++ (k, c) :: B) hb lb) := by
  rw [keys_sorted_append_cons] at hs
  obtain ⟨_, _, hA, hB, _⟩ := hs
  have fA : ra_has ops A hb lb → hb ≠ k := by
    rintro ⟨d, hm, _⟩ hk
    have := hA _ hm
    simp only at this
    omega
  have fB : ra_has ops B hb lb → hb ≠ k := by
    rintro ⟨d, hm, _⟩ hk
    have := hB _ hm
    simp only at this
    omega
  rw [ra_has_append, ra_has_append, ra_has_cons]
  simp only
  by_cases hk : hb = k
  · have nA : ¬ ra_has ops A hb lb := fun h => fA h hk
    have nB : ¬ ra_has ops B hb lb := fun h => fB h hk
    subst hk
    simp [nA, nB]
  · have hk' : ¬ k = hb := fun h => hk h.symm
    simp [hk, hk']

theorem ra_has_insert (ops : ContainerOps C) (l : roaring_array_t C) (j k : Nat) (c : C)
    (hb lb : Nat) :
    ra_has ops (ra_insert_new_key_value_at l j k c) hb lb
      ↔ (hb = k ∧ ops.container_contains c lb = true) ∨ ra_has ops l hb lb := by
  unfold ra_insert_new_key_value_at
  rw [ra_has_append, ra_has_cons]
  conv_rhs => rw [← List.take_append_drop j l, ra_has_append]
  simp only
  constructor
  · rintro (h | ⟨h1, h2⟩ | h)
    · exact Or.inr (Or.inl h)
    · exact Or.inl ⟨h1.symm, h2⟩
    · exact Or.inr (Or.inr h)
  · rintro (⟨h1, h2⟩ | h | h)
    · exact Or.inr (Or.inl ⟨h1.symm, h2⟩)
    · exact Or.inl h
    · exact Or.inr (Or.inr h)

theorem ra_valid_of_split (ops : ContainerOps C) (A B : roaring_array_t C)
    (k : Nat) (c : C) (hv : ra_valid ops (A ++ (k, c) :: B)) (c2 : C)
    (hne : container_nonempty ops c2) : ra_valid ops (A ++ (k, c2) :: B) := by
  obtain ⟨hs, hk, hn⟩ := hv
  refine ⟨?_, ?_, ?_⟩
  · rw [keys_sorted_append_cons] at hs ⊢
    exact hs
  · intro e he
    rcases List.mem_append.1 he with h | h
    · exact hk e (List.mem_append_left _ h)
    · rcases List.mem_cons.1 h with h | h
      · rw [h]
        exact hk (k, c) (List.mem_append_right _ (List.mem_cons_self _ _))
      · exact hk e (List.mem_append_right _ (List.mem_cons_of_mem _ h))
  · intro e he
    rcases List.mem_append.1 he with h | h
    · exact hn e (List.mem_append_left _ h)
    · rcases List.mem_cons.1 h with h | h
      · rw [h]
        exact hne
      · exact hn e (List.mem_append_right _ (List.mem_cons_of_mem _ h))

theorem ra_valid_remove_of_split (ops : ContainerOps C) (A B : roaring_array_t C)
    (e : Nat × C) (hv : ra_valid ops (A ++ e :: B)) : ra_valid ops (A ++ B) := by
  obtain ⟨hs, hk, hn⟩ := hv
  refine ⟨?_, ?_, ?_⟩
  · rw [keys_sorted_append_cons] at hs
    rw [keys_sorted_append]
    exact ⟨hs.1, hs.2.1, hs.2.2.2.2⟩
  · intro a ha
    rcases List.mem_append.1 ha with h | h
    · exact hk a (List.mem_append_left _ h)
    · exact hk a (List.mem_append_right _ (List.mem_cons_of_mem _ h))
  · intro a ha
    rcases List.mem_append.1 ha with h | h
    · exact hn a (List.mem_append_left _ h)
    · exact hn a (List.mem_append_right _ (List.mem_cons_of_mem _ h))

theorem lt_of_mem_take_lower_bound (l : roaring_array_t C) (x : Nat) (a : Nat × C)
    (h : a ∈ l.take (lower_bound l x)) : a.1 < x := by
  rw [take_lower_bound] at h
  simpa using (List.mem_takeWhile_imp h)

theorem gt_of_mem_drop_lower_bound (l : roaring_array_t C) (hs : keys_sorted l) (x : Nat)
    (hnf : ∀ c, l[lower_bound l x]? ≠ some (x, c)) (b : Nat × C)
    (h : b ∈ l.drop (lower_bound l x)) : x < b.1 := by
  by_cases hj : lower_bound l x < l.length
  · rw [List.drop_eq_getElem_cons hj] at h
    have hhead : ¬ (l[lower_bound l x]).1 < x := by
      have h2 := drop_lower_bound l x
      rw [List.drop_eq_getElem_cons hj] at h2
      intro hlt
      have h3 : (l[lower_bound l x] :: l.drop (lower_bound l x + 1)).head?
          = (l.dropWhile (fun e => decide (e.1 < x))).head? := by rw [h2]
      have h4 := List.head?_dropWhile_not (fun e : Nat × C => decide (e.1 < x)) l
      rw [← h3] at h4
      simp only [List.head?_cons, decide_eq_true_eq, Bool.not_eq_true', decide_eq_false_iff_not,
        Bool.not_eq_true, not_lt] at h4
      omega
    have hne : ¬ (l[lower_bound l x]).1 = x := by
      intro he
      apply hnf (l[lower_bound l x]).2
      rw [List.getElem?_eq_getElem hj]
      congr 1
      exact Prod.ext he rfl
    have hgt : x < (l[lower_bound l x]).1 := by omega
    rcases List.mem_cons.1 h with h | h
    · rw [h]; exact hgt
    · have hs2 : keys_sorted (l.drop (lower_bound l x)) := by
        unfold keys_sorted at hs ⊢
        exact hs.sublist (List.drop_sublist _ _)
      rw [List.drop_eq_getElem_cons hj, keys_sorted_cons] at hs2
      have := hs2.1 b.1 (mem_keys_of_mem _ b h)
      omega
  · rw [List.drop_eq_nil_of_le (by omega)] at h
    simp at h

theorem ra_valid_insert (ops : ContainerOps C) (l : roaring_array_t C)
    (hv : ra_valid ops l) (x : Nat) (hx : x < 65536)
    (hnf : ∀ c, l[lower_bound l x]? ≠ some (x, c)) (c : C)
    (hne : container_nonempty ops c) :
    ra_valid ops (ra_insert_new_key_value_at l (lower_bound l x) x c) := by
  obtain ⟨hs, hk, hn⟩ := hv
  unfold ra_insert_new_key_value_at
  refine ⟨?_, ?_, ?_⟩
  · rw [keys_sorted_append_cons]
    have hs' := hs
    rw [← List.take_append_drop (lower_bound l x) l, keys_sorted_append] at hs'
    exact ⟨hs'.1, hs'.2.1, fun a ha => lt_of_mem_take_lower_bound l x a ha,
      fun b hb => gt_of_mem_drop_lower_bound l hs x hnf b hb, hs'.2.2⟩
  · intro e he
    rcases List.mem_append.1 he with h | h
    · exact hk e (List.mem_of_mem_take h)
    · rcases List.mem_cons.1 h with h | h
      · rw [h]; exact hx
      · exact hk e (List.mem_of_mem_drop h)
  · intro e he
    rcases List.mem_append.1 he with h | h
    · exact hn e (List.mem_of_mem_take h)
    · rcases List.mem_cons.1 h with h | h
      · rw [h]; exact hne
      · exact hn e (List.mem_of_mem_drop h)

theorem not_key_of_not_found (l : roaring_array_t C) (hs : keys_sorted l) (x : Nat)
    (hnf : ∀ c, l[lower_bound l x]? ≠ some (x, c)) : x ∉ l.map Prod.fst := by
  intro h
  obtain ⟨e, he, hx⟩ := List.mem_map.1 h
  have := getElem_lower_bound_of_mem l hs x e.2 (by rw [← hx]; exact he)
  exact hnf e.2 this

/-! ## Cardinalities -/

theorem countP_range_congr (p q : Nat → Bool) (n : Nat) (h : ∀ v, v < n → q v = p v) :
    (List.range n).countP q = (List.range n).countP p := by
  apply List.countP_congr
  intro v hv
  rw [h v (List.mem_range.1 hv)]

theorem countP_range_insert (p q : Nat → Bool) (n x : Nat) (hx : x < n)
    (hpx : p x = false) (hq : ∀ v, v < n → q v = (p v || decide (v = x))) :
    (List.range n).countP q = (List.range n).countP p + 1 := by
  induction n with
  | zero => omega
  | succ n ih =>
    rw [List.range_succ, List.countP_append, List.countP_append]
    by_cases hxn : x = n
    · have h1 : (List.range n).countP q = (List.range n).countP p := by
        apply countP_range_congr
        intro v hv
        rw [hq v (by omega)]
        have : ¬ v = x := by omega
        simp [this]
      have h2 : q n = true := by
        rw [hq n (by omega)]
        simp [hxn]
      have h3 : p n = false := by rw [← hxn]; exact hpx
      simp [h1, h2, h3, List.countP_cons]
    · have h1 := ih (by omega) (fun v hv => hq v (by omega))
      have h2 : q n = p n := by
        rw [hq n (by omega)]
        have : ¬ n = x := fun h => hxn h.symm
        simp [this]
      simp [h1, h2, List.countP_cons]
      omega

theorem cardinality_ne_zero_iff (ops : ContainerOps C) (hcard : cardinality_spec ops)
    (c : C) : ops.container_get_cardinality c ≠ 0 ↔ container_nonempty ops c := by
  rw [hcard c, ← Nat.pos_iff_ne_zero, List.countP_pos_iff]
  unfold container_nonempty
  constructor
  · rintro ⟨v, hv, hc⟩
    exact ⟨v, List.mem_range.1 hv, hc⟩
  · rintro ⟨v, hv, hc⟩
    exact ⟨v, List.mem_range.2 hv, hc⟩

theorem cardinality_add_of_absent (ops : ContainerOps C) (hcard : cardinality_spec ops)
    (hadd : container_add_spec ops) (c : C) (x : Nat) (hx : x < 65536)
    (h : ops.container_contains c x = false) :
    ops.container_get_cardinality (ops.container_add c x).1
      = ops.container_get_cardinality c + 1 := by
  rw [hcard, hcard]
  exact countP_range_insert _ _ 65536 x hx h (fun v hv => hadd.1 c x v hx hv)

theorem cardinality_add_of_present (ops : ContainerOps C) (hcard : cardinality_spec ops)
    (hadd : container_add_spec ops) (c : C) (x : Nat) (hx : x < 65536)
    (h : ops.container_contains c x = true) :
    ops.container_get_cardinality (ops.container_add c x).1
      = ops.container_get_cardinality c := by
  rw [hcard, hcard]
  apply countP_range_congr
  intro v hv
  rw [hadd.1 c x v hx hv]
  by_cases hvx : v = x
  · rw [hvx, h]; rfl
  · simp [hvx]

theorem cardinality_remove_of_present (ops : ContainerOps C) (hcard : cardinality_spec ops)
    (hrem : container_remove_spec ops) (c : C) (x : Nat) (hx : x < 65536)
    (h : ops.container_contains c x = true) :
    ops.container_get_cardinality c
      = ops.container_get_cardinality (ops.container_remove c x) + 1 := by
  rw [hcard, hcard]
  apply countP_range_insert _ _ 65536 x hx
  · rw [hrem c x x hx hx]
    simp
  · intro v hv
    rw [hrem c x v hx hv]
    by_cases hvx : v = x
    · rw [hvx, h]; simp
    · simp [hvx]

theorem cardinality_remove_of_absent (ops : ContainerOps C) (hcard : cardinality_spec ops)
    (hrem : container_remove_spec ops) (c : C) (x : Nat) (hx : x < 65536)
    (h : ops.container_contains c x = false) :
    ops.container_get_cardinality (ops.container_remove c x)
      = ops.container_get_cardinality c := by
  rw [hcard, hcard]
  apply countP_range_congr
  intro v hv
  rw [hrem c x v hx hv]
  by_cases hvx : v = x
  · rw [hvx, h]; rfl
  · simp [hvx]

theorem cardinality_create (ops : ContainerOps C) (hcard : cardinality_spec ops)
    (hcreate : array_container_create_spec ops) :
    ops.container_get_cardinality ops.array_container_create = 0 := by
  rw [hcard, List.countP_eq_zero]
  intro v hv
  rw [hcreate.2 v (List.mem_range.1 hv)]
  simp

/-! ## Step lemmas for `roaring_bitmap_add_checked` and `roaring_bitmap_remove_checked` -/

theorem roaring_bitmap_add_checked_found (ops : ContainerOps C) (r : roaring_bitmap_t C)
    (val : Nat) (c : C)
    (h : r.high_low_container[lower_bound r.high_low_container ((val / 65536) % 65536)]?
      = some ((val / 65536) % 65536, c)) :
    roaring_bitmap_add_checked ops r val
      = (⟨r.high_low_container.take (lower_bound r.high_low_container ((val / 65536) % 65536))
            ++ ((val / 65536) % 65536, (ops.container_add c (val % 65536)).1)
              :: r.high_low_container.drop
                (lower_bound r.high_low_container ((val / 65536) % 65536) + 1)⟩,
          if (ops.container_add c (val % 65536)).2 then true
          else ops.container_get_cardinality c
            != ops.container_get_cardinality (ops.container_add c (val % 65536)).1) := by
  unfold roaring_bitmap_add_checked
  simp only
  rw [ra_get_index_found _ _ c h]
  simp only [Int.natCast_nonneg, if_true, Int.toNat_ofNat, h]
  rw [ra_set_container_at_index_eq _ _ _ _ h]
  split_ifs <;> rfl

theorem roaring_bitmap_add_checked_not_found (ops : ContainerOps C)
    (r : roaring_bitmap_t C) (val : Nat)
    (h : ∀ c, r.high_low_container[lower_bound r.high_low_container
      ((val / 65536) % 65536)]? ≠ some ((val / 65536) % 65536, c)) :
    roaring_bitmap_add_checked ops r val
      = (⟨ra_insert_new_key_value_at r.high_low_container
            (lower_bound r.high_low_container ((val / 65536) % 65536))
            ((val / 65536) % 65536)
            (ops.container_add ops.array_container_create (val % 65536)).1⟩, true) := by
  unfold roaring_bitmap_add_checked
  simp only
  rw [ra_get_index_not_found _ _ h]
  have hneg : ¬ (0 : Int) ≤ -(lower_bound r.high_low_container ((val / 65536) % 65536) : Int) - 1 := by
    omega
  rw [if_neg hneg]
  have : (-(-(lower_bound r.high_low_container ((val / 65536) % 65536) : Int) - 1) - 1).toNat
      = lower_bound r.high_low_container ((val / 65536) % 65536) := by
    omega
  rw [this]

theorem roaring_bitmap_add_eq (ops : ContainerOps C) (r : roaring_bitmap_t C) (val : Nat) :
    roaring_bitmap_add ops r val = (roaring_bitmap_add_checked ops r val).1 := by
  unfold roaring_bitmap_add roaring_bitmap_add_checked
  simp only
  split_ifs
  · split
    · split_ifs <;> rfl
    · rfl
  · rfl

theorem roaring_bitmap_contains_found (ops : ContainerOps C) (r : roaring_bitmap_t C)
    (val : Nat) (c : C)
    (h : r.high_low_container[lower_bound r.high_low_container ((val / 65536) % 65536)]?
      = some ((val / 65536) % 65536, c)) :
    roaring_bitmap_contains ops r val = ops.container_contains c (val % 65536) := by
  unfold roaring_bitmap_contains
  simp only
  rw [ra_get_index_found _ _ c h]
  simp [h]

theorem roaring_bitmap_contains_not_found (ops : ContainerOps C) (r : roaring_bitmap_t C)
    (val : Nat)
    (h : ∀ c, r.high_low_container[lower_bound r.high_low_container
      ((val / 65536) % 65536)]? ≠ some ((val / 65536) % 65536, c)) :
    roaring_bitmap_contains ops r val = false := by
  unfold roaring_bitmap_contains
  simp only
  rw [ra_get_index_not_found _ _ h]
  have hneg : -(lower_bound r.high_low_container ((val / 65536) % 65536) : Int) - 1 < 0 := by
    omega
  simp [hneg]

theorem eq_iff_split (v val : Nat) (hv : v < 2 ^ 32) (hval : val < 2 ^ 32) :
    v = val ↔ (v / 65536) % 65536 = (val / 65536) % 65536 ∧ v % 65536 = val % 65536 := by
  constructor
  · intro h; rw [h]; exact ⟨rfl, rfl⟩
  · rintro ⟨h1, h2⟩
    omega

theorem container_nonempty_add (ops : ContainerOps C) (hadd : container_add_spec ops)
    (c : C) (x : Nat) (hx : x < 65536) :
    container_nonempty ops (ops.container_add c x).1 :=
  ⟨x, hx, by rw [hadd.1 c x x hx hx]; simp⟩

/-- Directory-level effect of `roaring_bitmap_add_checked`. -/
theorem roaring_bitmap_add_checked_spec (ops : ContainerOps C)
    (hcard : cardinality_spec ops) (hcreate : array_container_create_spec ops)
    (hadd : container_add_spec ops) (r : roaring_bitmap_t C) (hr : valid ops r)
    (val : Nat) :
    valid ops (roaring_bitmap_add_checked ops r val).1
    ∧ ((roaring_bitmap_add_checked ops r val).2 = true
        ↔ roaring_bitmap_contains ops r val = false)
    ∧ ∀ hb lb, lb < 65536 →
        (ra_has ops (roaring_bitmap_add_checked ops r val).1.high_low_container hb lb
          ↔ ra_has ops r.high_low_container hb lb
            ∨ (hb = (val / 65536) % 65536 ∧ lb = val % 65536)) := by
  have hlo : val % 65536 < 65536 := Nat.mod_lt _ (by decide)
  rcases ra_get_index_cases r.high_low_container ((val / 65536) % 65536) with
    ⟨c, hc, _⟩ | ⟨hn, _⟩
  · rw [roaring_bitmap_add_checked_found ops r val c hc,
      roaring_bitmap_contains_found ops r val c hc]
    have hsplit := split_at_index _ _ _ hc
    have hr' : ra_valid ops (r.high_low_container.take
        (lower_bound r.high_low_container ((val / 65536) % 65536))
        ++ ((val / 65536) % 65536, c) :: r.high_low_container.drop
          (lower_bound r.high_low_container ((val / 65536) % 65536) + 1)) := by
      rw [← hsplit]; exact hr
    refine ⟨?_, ?_, ?_⟩
    · exact ra_valid_of_split ops _ _ _ c hr' _ (container_nonempty_add ops hadd c _ hlo)
    · simp only
      by_cases hch : (ops.container_add c (val % 65536)).2 = true
      · rw [if_pos hch]
        simp [hadd.2.1 c _ hlo hch]
      · rw [if_neg hch]
        cases hcc : ops.container_contains c (val % 65536)
        · rw [cardinality_add_of_absent ops hcard hadd c _ hlo hcc]
          simp
        · rw [cardinality_add_of_present ops hcard hadd c _ hlo hcc]
          simp
    · intro hb lb hlb
      simp only
      rw [ra_has_of_sorted_split ops _ _ _ c hr'.1, ← hsplit, hadd.1 c _ lb hlo hlb]
      by_cases hk : hb = (val / 65536) % 65536
      · subst hk
        rw [ra_has_iff_of_mem ops _ hr.1 _ c (List.getElem?_mem hc)]
        simp
      · simp [hk]
  · rw [roaring_bitmap_add_checked_not_found ops r val hn,
      roaring_bitmap_contains_not_found ops r val hn]
    refine ⟨?_, by simp, ?_⟩
    · exact ra_valid_insert ops _ hr _ (Nat.mod_lt _ (by decide)) hn _
        (container_nonempty_add ops hadd _ _ hlo)
    · intro hb lb hlb
      simp only
      rw [ra_has_insert, hadd.1 _ _ lb hlo hlb, hcreate.2 lb hlb]
      simp only [Bool.false_or, decide_eq_true_eq]
      exact Or.comm

/-- Repeated insertion of values with pairwise distinct high keys: one new
array container of cardinality one per value. -/
theorem roaring_bitmap_add_distinct_keys (ops : ContainerOps C)
    (hcard : cardinality_spec ops) (hcreate : array_container_create_spec ops)
    (hadd : container_add_spec ops) (vals : List Nat)
    (hd : vals.Pairwise (fun a b => (a / 65536) % 65536 ≠ (b / 65536) % 65536))
    (r : roaring_bitmap_t C) (hr : valid ops r)
    (hk : ∀ v ∈ vals, (v / 65536) % 65536 ∉ r.high_low_container.map Prod.fst)
    (hP : ∀ e ∈ r.high_low_container,
      ops.get_container_type e.2 = ARRAY_CONTAINER_TYPE_CODE
        ∧ ops.container_get_cardinality e.2 = 1) :
    (vals.foldl (roaring_bitmap_add ops) r).high_low_container.length
      = r.high_low_container.length + vals.length
    ∧ ∀ e ∈ (vals.foldl (roaring_bitmap_add ops) r).high_low_container,
      ops.get_container_type e.2 = ARRAY_CONTAINER_TYPE_CODE
        ∧ ops.container_get_cardinality e.2 = 1 := by
  induction vals generalizing r with
  | nil => exact ⟨by simp, by simpa using hP⟩
  | cons v t ih =>
    rw [List.foldl_cons]
    have hlo : v % 65536 < 65536 := Nat.mod_lt _ (by decide)
    have hn : ∀ c, r.high_low_container[lower_bound r.high_low_container
        ((v / 65536) % 65536)]? ≠ some ((v / 65536) % 65536, c) := by
      intro c hc
      exact hk v (List.mem_cons_self _ _) (mem_keys_of_mem _ _ (List.getElem?_mem hc))
    have hstep : roaring_bitmap_add ops r v
        = ⟨ra_insert_new_key_value_at r.high_low_container
            (lower_bound r.high_low_container ((v / 65536) % 65536))
            ((v / 65536) % 65536)
            (ops.container_add ops.array_container_create (v % 65536)).1⟩ := by
      rw [roaring_bitmap_add_eq, roaring_bitmap_add_checked_not_found ops r v hn]
    have hvalid : valid ops (roaring_bitmap_add ops r v) := by
      rw [roaring_bitmap_add_eq]
      exact (roaring_bitmap_add_checked_spec ops hcard hcreate hadd r hr v).1
    rw [List.pairwise_cons] at hd
    have hmem : ∀ e ∈ (roaring_bitmap_add ops r v).high_low_container,
        e ∈ r.high_low_container
          ∨ e = ((v / 65536) % 65536,
              (ops.container_add ops.array_container_create (v % 65536)).1) := by
      intro e he
      rw [hstep] at he
      simp only [ra_insert_new_key_value_at] at he
      rcases List.mem_append.1 he with h | h
      · exact Or.inl (List.mem_of_mem_take h)
      · rcases List.mem_cons.1 h with h | h
        · exact Or.inr h
        · exact Or.inl (List.mem_of_mem_drop h)
    have := ih hd.2 (roaring_bitmap_add ops r v) hvalid ?_ ?_
    · refine ⟨?_, this.2⟩
      rw [this.1, hstep]
      simp only [ra_insert_new_key_value_at, List.length_append, List.length_cons,
        List.length_take, List.length_drop]
      have := (List.takeWhile_sublist (fun e : Nat × C => decide (e.1 < (v / 65536) % 65536))
        (l := r.high_low_container)).length_le
      unfold lower_bound
      omega
    · intro w hw hmemk
      obtain ⟨e, he, hek⟩ := List.mem_map.1 hmemk
      rcases hmem e he with h | h
      · exact hk w (List.mem_cons_of_mem _ hw) (by rw [← hek]; exact mem_keys_of_mem _ _ h)
      · rw [h] at hek
        exact hd.1 w hw hek
    · intro e he
      rcases hmem e he with h | h
      · exact hP e h
      · rw [h]
        simp only
        refine ⟨hadd.2.2 _ _ hlo hcreate.1 ?_, ?_⟩
        · rw [cardinality_create ops hcard hcreate]
          decide
        · rw [cardinality_add_of_absent ops hcard hadd _ _ hlo (hcreate.2 _ hlo),
            cardinality_create ops hcard hcreate]

theorem roaring_bitmap_remove_checked_found (ops : ContainerOps C) (r : roaring_bitmap_t C)
    (val : Nat) (c : C)
    (h : r.high_low_container[lower_bound r.high_low_container ((val / 65536) % 65536)]?
      = some ((val / 65536) % 65536, c)) :
    roaring_bitmap_remove_checked ops r val
      = (if ops.container_get_cardinality (ops.container_remove c (val % 65536)) ≠ 0 then
            ⟨r.high_low_container.take
                (lower_bound r.high_low_container ((val / 65536) % 65536))
              ++ ((val / 65536) % 65536, ops.container_remove c (val % 65536))
                :: r.high_low_container.drop
                  (lower_bound r.high_low_container ((val / 65536) % 65536) + 1)⟩
          else
            ⟨r.high_low_container.take
                (lower_bound r.high_low_container ((val / 65536) % 65536))
              ++ r.high_low_container.drop
                  (lower_bound r.high_low_container ((val / 65536) % 65536) + 1)⟩,
          ops.container_get_cardinality c
            != ops.container_get_cardinality (ops.container_remove c (val % 65536))) := by
  unfold roaring_bitmap_remove_checked
  simp only
  rw [ra_get_index_found _ _ c h]
  simp only [Int.natCast_nonneg, if_true, Int.toNat_ofNat, h]
  rw [ra_set_container_at_index_eq _ _ _ _ h, ra_remove_at_index_eq]
  by_cases hz : ops.container_get_cardinality (ops.container_remove c (val % 65536)) = 0
  · simp [hz]
  · simp [hz]

theorem roaring_bitmap_remove_checked_not_found (ops : ContainerOps C)
    (r : roaring_bitmap_t C) (val : Nat)
    (h : ∀ c, r.high_low_container[lower_bound r.high_low_container
      ((val / 65536) % 65536)]? ≠ some ((val / 65536) % 65536, c)) :
    roaring_bitmap_remove_checked ops r val = (r, false) := by
  unfold roaring_bitmap_remove_checked
  simp only
  rw [ra_get_index_not_found _ _ h]
  have hneg : ¬ (0 : Int) ≤ -(lower_bound r.high_low_container ((val / 65536) % 65536) : Int) - 1 := by
    omega
  rw [if_neg hneg]

theorem roaring_bitmap_remove_eq (ops : ContainerOps C) (r : roaring_bitmap_t C) (val : Nat) :
    roaring_bitmap_remove ops r val = (roaring_bitmap_remove_checked ops r val).1 := by
  unfold roaring_bitmap_remove roaring_bitmap_remove_checked
  simp only
  split_ifs
  · split
    · split_ifs <;> rfl
    · rfl
  · rfl

/-- Directory-level effect of `roaring_bitmap_remove_checked`. -/
theorem roaring_bitmap_remove_checked_spec (ops : ContainerOps C)
    (hcard : cardinality_spec ops) (hrem : container_remove_spec ops)
    (r : roaring_bitmap_t C) (hr : valid ops r) (val : Nat) :
    valid ops (roaring_bitmap_remove_checked ops r val).1
    ∧ ((roaring_bitmap_remove_checked ops r val).2 = true
        ↔ roaring_bitmap_contains ops r val = true)
    ∧ (∀ hb lb, lb < 65536 →
        (ra_has ops (roaring_bitmap_remove_checked ops r val).1.high_low_container hb lb
          ↔ ra_has ops r.high_low_container hb lb
            ∧ ¬ (hb = (val / 65536) % 65536 ∧ lb = val % 65536)))
    ∧ (∀ c, ((val / 65536) % 65536, c) ∈ r.high_low_container →
        ¬ container_nonempty ops (ops.container_remove c (val % 65536)) →
        (val / 65536) % 65536
          ∉ (roaring_bitmap_remove_checked ops r val).1.high_low_container.map Prod.fst) := by
  have hlo : val % 65536 < 65536 := Nat.mod_lt _ (by decide)
  rcases ra_get_index_cases r.high_low_container ((val / 65536) % 65536) with
    ⟨c, hc, _⟩ | ⟨hn, _⟩
  · rw [roaring_bitmap_remove_checked_found ops r val c hc,
      roaring_bitmap_contains_found ops r val c hc]
    have hsplit := split_at_index _ _ _ hc
    have hr' : ra_valid ops (r.high_low_container.take
        (lower_bound r.high_low_container ((val / 65536) % 65536))
        ++ ((val / 65536) % 65536, c) :: r.high_low_container.drop
          (lower_bound r.high_low_container ((val / 65536) % 65536) + 1)) := by
      rw [← hsplit]; exact hr
    have hres : (ops.container_get_cardinality c
        != ops.container_get_cardinality (ops.container_remove c (val % 65536))) = true
        ↔ ops.container_contains c (val % 65536) = true := by
      cases hcc : ops.container_contains c (val % 65536)
      · rw [cardinality_remove_of_absent ops hcard hrem c _ hlo hcc]
        simp
      · rw [cardinality_remove_of_present ops hcard hrem c _ hlo hcc]
        simp
    by_cases hz : ops.container_get_cardinality (ops.container_remove c (val % 65536)) ≠ 0
    · rw [if_pos hz]
      have hne := (cardinality_ne_zero_iff ops hcard _).1 hz
      refine ⟨?_, hres, ?_, ?_⟩
      · exact ra_valid_of_split ops _ _ _ c hr' _ hne
      · intro hb lb hlb
        simp only
        rw [ra_has_of_sorted_split ops _ _ _ c hr'.1, ← hsplit, hrem c _ lb hlo hlb]
        by_cases hk : hb = (val / 65536) % 65536
        · subst hk
          rw [ra_has_iff_of_mem ops _ hr.1 _ c (List.getElem?_mem hc)]
          simp
        · simp [hk]
      · intro c' hm hempty
        rw [mem_unique_of_sorted _ hr.1 _ c' c hm (List.getElem?_mem hc)] at hempty
        exact absurd hne hempty
    · rw [if_neg hz]
      have hempty : ¬ container_nonempty ops (ops.container_remove c (val % 65536)) :=
        fun h => hz ((cardinality_ne_zero_iff ops hcard _).2 h)
      refine ⟨?_, hres, ?_, ?_⟩
      · exact ra_valid_remove_of_split ops _ _ _ hr'
      · intro hb lb hlb
        simp only
        rw [ra_has_remove_of_sorted_split ops _ _ _ c hr'.1, ← hsplit]
        by_cases hk : hb = (val / 65536) % 65536
        · subst hk
          rw [ra_has_iff_of_mem ops _ hr.1 _ c (List.getElem?_mem hc)]
          simp only [ne_eq, not_true_eq_false, false_and, true_and, false_iff, not_and,
            not_not]
          intro hcl
          by_contra hne
          apply hempty
          refine ⟨lb, hlb, ?_⟩
          rw [hrem c _ lb hlo hlb, hcl]
          simp [hne]
        · simp [hk]
      · intro _ _ _ hmem
        simp only at hmem
        obtain ⟨e, he, hek⟩ := List.mem_map.1 hmem
        have hs := hr'.1
        rw [keys_sorted_append_cons] at hs
        rcases List.mem_append.1 he with h | h
        · have := hs.2.2.1 e h
          simp only at this
          omega
        · have := hs.2.2.2.1 e h
          simp only at this
          omega
  · rw [roaring_bitmap_remove_checked_not_found ops r val hn,
      roaring_bitmap_contains_not_found ops r val hn]
    refine ⟨hr, by simp, ?_, ?_⟩
    · intro hb lb _
      simp only
      constructor
      · intro h
        refine ⟨h, ?_⟩
        rintro ⟨hk, _⟩
        rw [hk] at h
        exact not_key_of_not_found _ hr.1 _ hn (ra_has_key_mem ops _ _ _ h)
      · exact fun h => h.1
    · intro c hm
      exact absurd (mem_keys_of_mem _ _ hm) (not_key_of_not_found _ hr.1 _ hn)

/-! ## Flip: one high key at a time -/

theorem lower_bound_of_all_lt (ans : roaring_array_t C) (hb : Nat)
    (h : ∀ e ∈ ans, e.1 < hb) : lower_bound ans hb = ans.length := by
  unfold lower_bound
  rw [List.takeWhile_eq_self_iff.2]
  intro e he
  simpa using h e he

theorem ra_get_index_of_all_lt (ans : roaring_array_t C) (hb : Nat)
    (h : ∀ e ∈ ans, e.1 < hb) : ra_get_index ans hb = -(ans.length : Int) - 1 := by
  have hlb := lower_bound_of_all_lt ans hb h
  have := ra_get_index_not_found ans hb (by
    intro c
    rw [hlb]
    simp)
  rw [this, hlb]

theorem ra_insert_at_end (ans : roaring_array_t C) (hb : Nat) (c : C)
    (h : ∀ e ∈ ans, e.1 < hb) :
    ra_insert_new_key_value_at ans (-(ra_get_index ans hb) - 1).toNat hb c
      = ans ++ [(hb, c)] := by
  rw [ra_get_index_of_all_lt ans hb h]
  have : (-(-(ans.length : Int) - 1) - 1).toNat = ans.length := by omega
  rw [this]
  simp [ra_insert_new_key_value_at]

theorem insert_flipped_container_found (ops : ContainerOps C)
    (ans x1 : roaring_array_t C) (hb a b : Nat) (c : C)
    (hans : ∀ e ∈ ans, e.1 < hb) (h : x1[lower_bound x1 hb]? = some (hb, c)) :
    insert_flipped_container ops ans x1 hb a b
      = if ops.container_get_cardinality (ops.container_not_range c a (b + 1)) ≠ 0 then
          ans ++ [(hb, ops.container_not_range c a (b + 1))]
        else ans := by
  unfold insert_flipped_container
  simp only
  rw [ra_get_index_found x1 hb c h]
  simp only [Int.natCast_nonneg, if_true, Int.toNat_ofNat, h]
  rw [ra_insert_at_end ans hb _ hans]

theorem insert_flipped_container_not_found (ops : ContainerOps C)
    (ans x1 : roaring_array_t C) (hb a b : Nat)
    (hans : ∀ e ∈ ans, e.1 < hb) (h : ∀ c, x1[lower_bound x1 hb]? ≠ some (hb, c)) :
    insert_flipped_container ops ans x1 hb a b
      = ans ++ [(hb, ops.container_range_of_ones a (b + 1))] := by
  unfold insert_flipped_container
  simp only
  rw [ra_get_index_not_found x1 hb h]
  have hneg : ¬ (0 : Int) ≤ -(lower_bound x1 hb : Int) - 1 := by omega
  rw [if_neg hneg, ra_insert_at_end ans hb _ hans]

theorem insert_fully_flipped_container_found (ops : ContainerOps C)
    (ans x1 : roaring_array_t C) (hb : Nat) (c : C)
    (hans : ∀ e ∈ ans, e.1 < hb) (h : x1[lower_bound x1 hb]? = some (hb, c)) :
    insert_fully_flipped_container ops ans x1 hb
      = if ops.container_get_cardinality (ops.container_not c) ≠ 0 then
          ans ++ [(hb, ops.container_not c)]
        else ans := by
  unfold insert_fully_flipped_container
  simp only
  rw [ra_get_index_found x1 hb c h]
  simp only [Int.natCast_nonneg, if_true, Int.toNat_ofNat, h]
  rw [ra_insert_at_end ans hb _ hans]

theorem insert_fully_flipped_container_not_found (ops : ContainerOps C)
    (ans x1 : roaring_array_t C) (hb : Nat)
    (hans : ∀ e ∈ ans, e.1 < hb) (h : ∀ c, x1[lower_bound x1 hb]? ≠ some (hb, c)) :
    insert_fully_flipped_container ops ans x1 hb
      = ans ++ [(hb, ops.container_range_of_ones 0 0x10000)] := by
  unfold insert_fully_flipped_container
  simp only
  rw [ra_get_index_not_found x1 hb h]
  have hneg : ¬ (0 : Int) ≤ -(lower_bound x1 hb : Int) - 1 := by omega
  rw [if_neg hneg, ra_insert_at_end ans hb _ hans]

theorem flip_inv_append (ops : ContainerOps C) (T : Nat → Nat → Prop)
    (M : Nat × C → Prop) (ans : roaring_array_t C) (K : Nat) (fc : C)
    (hinv : flip_inv ops T M ans K) (hK : K < 65536)
    (hfc : ∀ lb, lb < 65536 → (ops.container_contains fc lb = true ↔ T K lb))
    (hne : container_nonempty ops fc)
    (hM : ∀ e, M e → e.1 = K → e = (K, fc)) :
    flip_inv ops T M (ans ++ [(K, fc)]) (K + 1) := by
  obtain ⟨⟨hs, hk, hn⟩, hlt, hhas, hmem⟩ := hinv
  refine ⟨⟨?_, ?_, ?_⟩, ?_, ?_, ?_⟩
  · rw [keys_sorted_append]
    refine ⟨hs, by simp [keys_sorted], ?_⟩
    intro a ha b hb
    rw [List.mem_singleton.1 hb]
    exact hlt a ha
  · intro e he
    rcases List.mem_append.1 he with h | h
    · exact hk e h
    · rw [List.mem_singleton.1 h]; exact hK
  · intro e he
    rcases List.mem_append.1 he with h | h
    · exact hn e h
    · rw [List.mem_singleton.1 h]; exact hne
  · intro e he
    rcases List.mem_append.1 he with h | h
    · exact Nat.lt_succ_of_lt (hlt e h)
    · rw [List.mem_singleton.1 h]; exact Nat.lt_succ_self K
  · intro hb lb hlb
    rw [ra_has_append, ra_has_cons, hhas hb lb hlb]
    simp only [ra_has_nil, or_false]
    constructor
    · rintro (⟨h1, h2⟩ | ⟨h1, h2⟩)
      · exact ⟨Nat.lt_succ_of_lt h1, h2⟩
      · rw [← h1]
        exact ⟨Nat.lt_succ_self K, (hfc lb hlb).1 h2⟩
    · rintro ⟨h1, h2⟩
      by_cases hk2 : hb = K
      · right
        rw [hk2] at h2
        exact ⟨hk2.symm, (hfc lb hlb).2 h2⟩
      · left
        exact ⟨by omega, h2⟩
  · intro e hMe heK
    by_cases hk2 : e.1 = K
    · rw [hM e hMe hk2]
      exact List.mem_append_right _ (List.mem_singleton.2 rfl)
    · exact List.mem_append_left _ (hmem e hMe (by omega))

theorem flip_inv_skip (ops : ContainerOps C) (T : Nat → Nat → Prop)
    (M : Nat × C → Prop) (ans : roaring_array_t C) (K : Nat)
    (hinv : flip_inv ops T M ans K) (hT : ∀ lb, lb < 65536 → ¬ T K lb)
    (hM : ∀ e, M e → e.1 ≠ K) : flip_inv ops T M ans (K + 1) := by
  obtain ⟨hv, hlt, hhas, hmem⟩ := hinv
  refine ⟨hv, fun e he => Nat.lt_succ_of_lt (hlt e he), ?_, ?_⟩
  · intro hb lb hlb
    rw [hhas hb lb hlb]
    constructor
    · rintro ⟨h1, h2⟩
      exact ⟨Nat.lt_succ_of_lt h1, h2⟩
    · rintro ⟨h1, h2⟩
      by_cases hk2 : hb = K
      · rw [hk2] at h2
        exact absurd h2 (hT lb hlb)
      · exact ⟨by omega, h2⟩
  · intro e hMe heK
    have := hM e hMe
    exact hmem e hMe (by omega)

/-- One partial flip keeps the invariant when the target at key `K` is the
flip of `x1` on the low range `[a, b]`. -/
theorem insert_flipped_container_inv (ops : ContainerOps C)
    (hcard : cardinality_spec ops) (hnr : container_not_range_spec ops)
    (hro : container_range_of_ones_spec ops) (x1 : roaring_array_t C)
    (hx1 : keys_sorted x1) (T : Nat → Nat → Prop) (M : Nat × C → Prop)
    (ans : roaring_array_t C)
    (K a b : Nat) (hK : K < 65536) (hab : a ≤ b) (hb65 : b < 65536)
    (hinv : flip_inv ops T M ans K)
    (hT : ∀ lb, lb < 65536 →
      (T K lb ↔ (ra_has ops x1 K lb ∧ ¬ (a ≤ lb ∧ lb ≤ b))
        ∨ (¬ ra_has ops x1 K lb ∧ (a ≤ lb ∧ lb ≤ b))))
    (hM : ∀ e, M e → e.1 = K →
      K ∉ x1.map Prod.fst ∧ e.2 = ops.container_range_of_ones a (b + 1)) :
    flip_inv ops T M (insert_flipped_container ops ans x1 K a b) (K + 1) := by
  rcases ra_get_index_cases x1 K with ⟨c, hc, _⟩ | ⟨hn, _⟩
  · rw [insert_flipped_container_found ops ans x1 K a b c hinv.2.1 hc]
    have hkey : K ∈ x1.map Prod.fst := mem_keys_of_mem x1 (K, c) (List.getElem?_mem hc)
    have hM' : ∀ e, M e → e.1 ≠ K := fun e hMe hk => (hM e hMe hk).1 hkey
    have hfc : ∀ lb, lb < 65536 →
        (ops.container_contains (ops.container_not_range c a (b + 1)) lb = true
          ↔ T K lb) := by
      intro lb hlb
      rw [hT lb hlb, ra_has_iff_of_mem ops x1 hx1 K c (List.getElem?_mem hc),
        hnr c a (b + 1) lb (by omega) (by omega) hlb, bool_xor_true_iff]
      simp only [decide_eq_true_eq, Nat.lt_succ_iff]
    by_cases hz : ops.container_get_cardinality (ops.container_not_range c a (b + 1)) ≠ 0
    · rw [if_pos hz]
      exact flip_inv_append ops T M ans K _ hinv hK hfc
        ((cardinality_ne_zero_iff ops hcard _).1 hz)
        (fun e hMe hk => absurd hk (hM' e hMe))
    · rw [if_neg hz]
      refine flip_inv_skip ops T M ans K hinv ?_ hM'
      intro lb hlb hTl
      exact hz ((cardinality_ne_zero_iff ops hcard _).2 ⟨lb, hlb, (hfc lb hlb).2 hTl⟩)
  · rw [insert_flipped_container_not_found ops ans x1 K a b hinv.2.1 hn]
    have hno : ∀ lb, ¬ ra_has ops x1 K lb := fun lb =>
      ra_has_of_not_key ops x1 K lb (not_key_of_not_found x1 hx1 K hn)
    refine flip_inv_append ops T M ans K _ hinv hK ?_ ?_ ?_
    · intro lb hlb
      rw [hT lb hlb, hro a (b + 1) lb (by omega) (by omega) hlb]
      simp only [decide_eq_true_eq, Nat.lt_succ_iff, hno lb, false_and, false_or,
        not_false_eq_true, true_and]
    · refine ⟨a, by omega, ?_⟩
      rw [hro a (b + 1) a (by omega) (by omega) (by omega)]
      simp only [decide_eq_true_eq]
      omega
    · intro e hMe hk
      exact Prod.ext hk (hM e hMe hk).2

/-- One full flip keeps the invariant when the target at key `K` is the
complement of `x1`. -/
theorem insert_fully_flipped_container_inv (ops : ContainerOps C)
    (hcard : cardinality_spec ops) (hnot : container_not_spec ops)
    (hro : container_range_of_ones_spec ops) (x1 : roaring_array_t C)
    (hx1 : keys_sorted x1) (T : Nat → Nat → Prop) (M : Nat × C → Prop)
    (ans : roaring_array_t C)
    (K : Nat) (hK : K < 65536) (hinv : flip_inv ops T M ans K)
    (hT : ∀ lb, lb < 65536 → (T K lb ↔ ¬ ra_has ops x1 K lb))
    (hM : ∀ e, M e → e.1 = K →
      K ∉ x1.map Prod.fst ∧ e.2 = ops.container_range_of_ones 0 0x10000) :
    flip_inv ops T M (insert_fully_flipped_container ops ans x1 K) (K + 1) := by
  rcases ra_get_index_cases x1 K with ⟨c, hc, _⟩ | ⟨hn, _⟩
  · rw [insert_fully_flipped_container_found ops ans x1 K c hinv.2.1 hc]
    have hkey : K ∈ x1.map Prod.fst := mem_keys_of_mem x1 (K, c) (List.getElem?_mem hc)
    have hM' : ∀ e, M e → e.1 ≠ K := fun e hMe hk => (hM e hMe hk).1 hkey
    have hfc : ∀ lb, lb < 65536 →
        (ops.container_contains (ops.container_not c) lb = true ↔ T K lb) := by
      intro lb hlb
      rw [hT lb hlb, ra_has_iff_of_mem ops x1 hx1 K c (List.getElem?_mem hc),
        hnot c lb hlb]
      simp
    by_cases hz : ops.container_get_cardinality (ops.container_not c) ≠ 0
    · rw [if_pos hz]
      exact flip_inv_append ops T M ans K _ hinv hK hfc
        ((cardinality_ne_zero_iff ops hcard _).1 hz)
        (fun e hMe hk => absurd hk (hM' e hMe))
    · rw [if_neg hz]
      refine flip_inv_skip ops T M ans K hinv ?_ hM'
      intro lb hlb hTl
      exact hz ((cardinality_ne_zero_iff ops hcard _).2 ⟨lb, hlb, (hfc lb hlb).2 hTl⟩)
  · rw [insert_fully_flipped_container_not_found ops ans x1 K hinv.2.1 hn]
    have hno : ∀ lb, ¬ ra_has ops x1 K lb := fun lb =>
      ra_has_of_not_key ops x1 K lb (not_key_of_not_found x1 hx1 K hn)
    refine flip_inv_append ops T M ans K _ hinv hK ?_ ?_ ?_
    · intro lb hlb
      rw [hT lb hlb, hro 0 0x10000 lb (by decide) (by decide) hlb]
      simp only [decide_eq_true_eq, hno lb, not_false_eq_true, iff_true]
      omega
    · refine ⟨0, by decide, ?_⟩
      rw [hro 0 0x10000 0 (by decide) (by decide) (by decide)]
      decide
    · intro e hMe hk
      exact Prod.ext hk (hM e hMe hk).2

/-- The loop of full flips keeps the invariant. -/
theorem fully_flipped_loop_inv (ops : ContainerOps C)
    (hcard : cardinality_spec ops) (hnot : container_not_spec ops)
    (hro : container_range_of_ones_spec ops) (x1 : roaring_array_t C)
    (hx1 : keys_sorted x1) (T : Nat → Nat → Prop) (M : Nat × C → Prop) (n : Nat)
    (ans : roaring_array_t C)
    (K : Nat) (hinv : flip_inv ops T M ans K)
    (hT : ∀ hb, K ≤ hb → hb < K + n →
      hb < 65536 ∧ (∀ lb, lb < 65536 → (T hb lb ↔ ¬ ra_has ops x1 hb lb))
        ∧ ∀ e, M e → e.1 = hb →
          hb ∉ x1.map Prod.fst ∧ e.2 = ops.container_range_of_ones 0 0x10000) :
    flip_inv ops T M
      ((List.range' K n).foldl
        (fun a hb => insert_fully_flipped_container ops a x1 hb) ans) (K + n) := by
  induction n generalizing ans K with
  | zero => simpa using hinv
  | succ n ih =>
    rw [List.range'_succ, List.foldl_cons]
    have h1 := hT K (Nat.le_refl K) (by omega)
    have hstep := insert_fully_flipped_container_inv ops hcard hnot hro x1 hx1 T M ans K
      h1.1 hinv h1.2.1 h1.2.2
    have := ih _ (K + 1) hstep (fun hb h2 h3 => hT hb (by omega) (by omega))
    rw [show K + (n + 1) = K + 1 + n by omega]
    exact this

/-! ## Flip: assembling the answer -/

theorem mem_takeWhile_key_iff (l : roaring_array_t C) (hs : keys_sorted l) (K : Nat)
    (e : Nat × C) :
    e ∈ l.takeWhile (fun a => decide (a.1 < K)) ↔ e ∈ l ∧ e.1 < K := by
  induction l with
  | nil => simp
  | cons a t ih =>
    rw [keys_sorted_cons] at hs
    by_cases h : a.1 < K
    · rw [List.takeWhile_cons_of_pos (by simpa using h), List.mem_cons, List.mem_cons,
        ih hs.2]
      constructor
      · rintro (h1 | h1)
        · exact ⟨Or.inl h1, by rw [h1]; exact h⟩
        · exact ⟨Or.inr h1.1, h1.2⟩
      · rintro ⟨h1 | h1, h2⟩
        · exact Or.inl h1
        · exact Or.inr ⟨h1, h2⟩
    · rw [List.takeWhile_cons_of_neg (by simpa using h)]
      simp only [List.not_mem_nil, List.mem_cons, false_iff, not_and, not_lt]
      rintro (h1 | h1)
      · rw [h1]; omega
      · have := hs.1 e.1 (mem_keys_of_mem _ e h1)
        omega

theorem mem_dropWhile_key_iff (l : roaring_array_t C) (hs : keys_sorted l) (K : Nat)
    (e : Nat × C) :
    e ∈ l.dropWhile (fun a => decide (a.1 < K)) ↔ e ∈ l ∧ K ≤ e.1 := by
  induction l with
  | nil => simp
  | cons a t ih =>
    rw [keys_sorted_cons] at hs
    by_cases h : a.1 < K
    · rw [List.dropWhile_cons_of_pos (by simpa using h), ih hs.2, List.mem_cons]
      constructor
      · rintro ⟨h1, h2⟩
        exact ⟨Or.inr h1, h2⟩
      · rintro ⟨h1 | h1, h2⟩
        · rw [h1] at h2; omega
        · exact ⟨h1, h2⟩
    · rw [List.dropWhile_cons_of_neg (by simpa using h)]
      constructor
      · intro h1
        refine ⟨h1, ?_⟩
        rcases List.mem_cons.1 h1 with h2 | h2
        · rw [h2]; omega
        · have := hs.1 e.1 (mem_keys_of_mem _ e h2)
          omega
      · exact fun h1 => h1.1

theorem ra_valid_of_sublist (ops : ContainerOps C) (l l2 : roaring_array_t C)
    (h : l.Sublist l2) (hv : ra_valid ops l2) : ra_valid ops l := by
  refine ⟨?_, fun e he => hv.2.1 e (h.subset he), fun e he => hv.2.2 e (h.subset he)⟩
  unfold keys_sorted
  exact hv.1.sublist h

theorem copies_until_inv (ops : ContainerOps C) (x1 : roaring_array_t C)
    (hx1 : ra_valid ops x1) (T : Nat → Nat → Prop) (M : Nat × C → Prop) (K : Nat)
    (hT : ∀ hb lb, hb < K → lb < 65536 → (T hb lb ↔ ra_has ops x1 hb lb))
    (hM : ∀ e, M e → e.1 < K → e ∈ x1) :
    flip_inv ops T M (ra_append_copies_until [] x1 K) K := by
  unfold ra_append_copies_until
  rw [List.nil_append]
  refine ⟨ra_valid_of_sublist ops _ _ (List.takeWhile_sublist _) hx1, ?_, ?_, ?_⟩
  · intro e he
    exact ((mem_takeWhile_key_iff x1 hx1.1 K e).1 he).2
  · intro hb lb hlb
    constructor
    · rintro ⟨c, hm, hc⟩
      have := (mem_takeWhile_key_iff x1 hx1.1 K _).1 hm
      exact ⟨this.2, (hT hb lb this.2 hlb).2 ⟨c, this.1, hc⟩⟩
    · rintro ⟨h1, h2⟩
      obtain ⟨c, hm, hc⟩ := (hT hb lb h1 hlb).1 h2
      exact ⟨c, (mem_takeWhile_key_iff x1 hx1.1 K _).2 ⟨hm, h1⟩, hc⟩
  · intro e hMe hlt
    exact (mem_takeWhile_key_iff x1 hx1.1 K e).2 ⟨hM e hMe hlt, hlt⟩

theorem copies_after_spec (ops : ContainerOps C) (x1 : roaring_array_t C)
    (hx1 : ra_valid ops x1) (T : Nat → Nat → Prop) (M : Nat × C → Prop)
    (ans : roaring_array_t C) (K : Nat)
    (hinv : flip_inv ops T M ans (K + 1))
    (hT : ∀ hb lb, K < hb → lb < 65536 → (T hb lb ↔ ra_has ops x1 hb lb))
    (hM : ∀ e, M e → K < e.1 → e ∈ x1) :
    ra_valid ops (ra_append_copies_after ans x1 K)
      ∧ (∀ hb lb, lb < 65536 →
        (ra_has ops (ra_append_copies_after ans x1 K) hb lb ↔ T hb lb))
      ∧ ∀ e, M e → e ∈ ra_append_copies_after ans x1 K := by
  have hpred : (fun e : Nat × C => decide (e.1 ≤ K)) = (fun e => decide (e.1 < K + 1)) := by
    funext e
    simp [Nat.lt_succ_iff]
  unfold ra_append_copies_after
  rw [hpred]
  obtain ⟨⟨hs, hk, hn⟩, hlt, hhas, hmem⟩ := hinv
  have hsub : ra_valid ops (x1.dropWhile (fun e => decide (e.1 < K + 1))) :=
    ra_valid_of_sublist ops _ _ (List.dropWhile_sublist _) hx1
  refine ⟨⟨?_, ?_, ?_⟩, ?_, ?_⟩
  · rw [keys_sorted_append]
    refine ⟨hs, hsub.1, ?_⟩
    intro a ha b hb
    have h1 := hlt a ha
    have h2 := ((mem_dropWhile_key_iff x1 hx1.1 (K + 1) b).1 hb).2
    omega
  · intro e he
    rcases List.mem_append.1 he with h | h
    · exact hk e h
    · exact hsub.2.1 e h
  · intro e he
    rcases List.mem_append.1 he with h | h
    · exact hn e h
    · exact hsub.2.2 e h
  · intro hb lb hlb
    rw [ra_has_append, hhas hb lb hlb]
    constructor
    · rintro (⟨_, h2⟩ | ⟨c, hm, hc⟩)
      · exact h2
      · have := (mem_dropWhile_key_iff x1 hx1.1 (K + 1) _).1 hm
        exact (hT hb lb (by simpa using this.2) hlb).2 ⟨c, this.1, hc⟩
    · intro h
      by_cases hk2 : hb < K + 1
      · exact Or.inl ⟨hk2, h⟩
      · right
        obtain ⟨c, hm, hc⟩ := (hT hb lb (by omega) hlb).1 h
        exact ⟨c, (mem_dropWhile_key_iff x1 hx1.1 (K + 1) _).2 ⟨hm, by simp; omega⟩, hc⟩
  · intro e hMe
    by_cases hk2 : e.1 < K + 1
    · exact List.mem_append_left _ (hmem e hMe hk2)
    · exact List.mem_append_right _
        ((mem_dropWhile_key_iff x1 hx1.1 (K + 1) e).2 ⟨hM e hMe (by omega), by omega⟩)

theorem flip_target_of_not_in_range (ops : ContainerOps C) (x1 : roaring_array_t C)
    (rs re hb lb : Nat) (h : ¬ in_range rs re hb lb) :
    flip_target ops x1 rs re hb lb ↔ ra_has ops x1 hb lb := by
  unfold flip_target
  simp [h]

theorem flip_target_of_in_range (ops : ContainerOps C) (x1 : roaring_array_t C)
    (rs re hb lb : Nat) (h : in_range rs re hb lb) :
    flip_target ops x1 rs re hb lb ↔ ¬ ra_has ops x1 hb lb := by
  unfold flip_target
  simp [h]

theorem flip_target_of_in_range_iff (ops : ContainerOps C) (x1 : roaring_array_t C)
    (rs re hb lb : Nat) (P : Prop) (h : in_range rs re hb lb ↔ P) :
    flip_target ops x1 rs re hb lb
      ↔ (ra_has ops x1 hb lb ∧ ¬ P) ∨ (¬ ra_has ops x1 hb lb ∧ P) := by
  unfold flip_target
  rw [h]

theorem flip_members_at (ops : ContainerOps C) (x1 : roaring_array_t C)
    (hs ls he le : Nat) (e : Nat × C) (K : Nat)
    (hM : flip_members ops x1 hs ls he le e) (hk : e.1 = K) (h1 : hs ≤ K) (h2 : K ≤ he) :
    K ∉ x1.map Prod.fst
      ∧ e.2 = ops.container_range_of_ones (if K = hs then ls else 0)
          (if K = he then le + 1 else 0x10000) := by
  rcases hM with ⟨_, h | h⟩ | ⟨_, _, h3, h4⟩
  · omega
  · omega
  · rw [← hk]
    exact ⟨h3, h4⟩

/-- Directory-level effect of `roaring_bitmap_flip` on a non-empty range that
starts below `2^32`. -/
theorem roaring_bitmap_flip_spec (ops : ContainerOps C)
    (hcard : cardinality_spec ops) (hnr : container_not_range_spec ops)
    (hnot : container_not_spec ops) (hro : container_range_of_ones_spec ops)
    (x1 : roaring_bitmap_t C) (hx1 : valid ops x1) (rs re : Nat)
    (h1 : rs < re) (h2 : rs < 2 ^ 32) :
    valid ops (roaring_bitmap_flip ops x1 rs re)
      ∧ (∀ hb lb, lb < 65536 →
        (ra_has ops (roaring_bitmap_flip ops x1 rs re).high_low_container hb lb
          ↔ flip_target ops x1.high_low_container rs (min re (2 ^ 32)) hb lb))
      ∧ ∀ e, flip_members ops x1.high_low_container (rs / 65536 % 65536) (rs % 65536)
            ((min re (2 ^ 32) - 1) / 65536 % 65536) ((min re (2 ^ 32) - 1) % 65536) e →
          e ∈ (roaring_bitmap_flip ops x1 rs re).high_low_container := by
  unfold roaring_bitmap_flip valid
  rw [if_neg (by omega)]
  simp only [roaring_bitmap_create]
  have hmin : (if re ≥ 4294967296 then 4294967296 else re) = min re (2 ^ 32) := by
    split_ifs <;> omega
  rw [hmin]
  generalize hre : min re (2 ^ 32) = re'
  have hre1 : re' ≤ 4294967296 := by omega
  have hre2 : rs < re' := by omega
  clear hmin hre h1
  generalize hhs : rs / 65536 % 65536 = hs
  generalize hls : rs % 65536 = ls
  generalize hhe : (re' - 1) / 65536 % 65536 = he
  generalize hle : (re' - 1) % 65536 = le
  obtain ⟨M, hMdef⟩ : ∃ M : Nat × C → Prop,
      M = flip_members ops x1.high_low_container hs ls he le := ⟨_, rfl⟩
  rw [← hMdef]
  have hMat : ∀ e K, M e → e.1 = K → hs ≤ K → K ≤ he →
      K ∉ x1.high_low_container.map Prod.fst
        ∧ e.2 = ops.container_range_of_ones (if K = hs then ls else 0)
            (if K = he then le + 1 else 0x10000) := by
    intro e K hMe
    rw [hMdef] at hMe
    exact flip_members_at ops _ hs ls he le e K hMe
  have hMout : ∀ e, M e → (e.1 < hs ∨ he < e.1) → e ∈ x1.high_low_container := by
    intro e hMe hout
    rw [hMdef] at hMe
    rcases hMe with ⟨h, _⟩ | ⟨h3, h4, _⟩
    · exact h
    · omega
  clear hMdef
  have hinit : flip_inv ops (flip_target ops x1.high_low_container rs re') M
      (ra_append_copies_until [] x1.high_low_container hs) hs :=
    copies_until_inv ops _ hx1 _ _ hs (fun hb lb hlt hlb =>
      flip_target_of_not_in_range _ _ _ _ _ _ (by unfold in_range; omega))
      (fun e hMe hlt => hMout e hMe (Or.inl hlt))
  have hafter : ∀ hb lb, he < hb → lb < 65536 →
      (flip_target ops x1.high_low_container rs re' hb lb
        ↔ ra_has ops x1.high_low_container hb lb) :=
    fun hb lb hlt hlb =>
      flip_target_of_not_in_range _ _ _ _ _ _ (by unfold in_range; omega)
  have hafterM : ∀ e, M e → he < e.1 → e ∈ x1.high_low_container :=
    fun e hMe hlt => hMout e hMe (Or.inr hlt)
  have hfull : ∀ hb, hs ≤ hb → hb ≤ he → (hb = hs → ls = 0) → (hb = he → le = 65535) →
      hb < 65536 ∧ (∀ lb, lb < 65536 →
        (flip_target ops x1.high_low_container rs re' hb lb
          ↔ ¬ ra_has ops x1.high_low_container hb lb))
        ∧ ∀ e, M e → e.1 = hb →
          hb ∉ x1.high_low_container.map Prod.fst
            ∧ e.2 = ops.container_range_of_ones 0 0x10000 := by
    intro hb hb1 hb2 hb3 hb4
    refine ⟨by omega, fun lb hlb => ?_, ?_⟩
    · apply flip_target_of_in_range
      unfold in_range
      by_cases g1 : hb = hs <;> by_cases g2 : hb = he
      · have := hb3 g1; have := hb4 g2; omega
      · have := hb3 g1; omega
      · have := hb4 g2; omega
      · omega
    · intro e hMe hk
      have := hMat e hb hMe hk hb1 hb2
      refine ⟨this.1, ?_⟩
      rw [this.2]
      by_cases g1 : hb = hs <;> by_cases g2 : hb = he
      · rw [if_pos g1, if_pos g2, hb3 g1, hb4 g2]
      · rw [if_pos g1, if_neg g2, hb3 g1]
      · rw [if_neg g1, if_pos g2, hb4 g2]
      · rw [if_neg g1, if_neg g2]
  by_cases hse : hs = he
  · rw [if_pos hse]
    refine copies_after_spec ops _ hx1 _ _ _ he ?_ hafter hafterM
    have hstep := insert_flipped_container_inv ops hcard hnr hro _ hx1.1 _ _ _ hs ls le
      (by omega) (by omega) (by omega) hinit (by
        intro lb hlb
        apply flip_target_of_in_range_iff
        unfold in_range
        omega) (by
        intro e hMe hk
        have := hMat e hs hMe hk (Nat.le_refl _) (by omega)
        rw [if_pos rfl, if_pos hse] at this
        exact this)
    rw [hse] at hstep
    rw [hse]
    exact hstep
  · rw [if_neg hse]
    have hlt : hs < he := by omega
    have e1 : (hs + 1) % 65536 = hs + 1 := by omega
    have e2 : (he + 65535) % 65536 = he - 1 := by omega
    have e3 : (he - 1 + 1) % 65536 = he := by omega
    have hfirst : flip_inv ops (flip_target ops x1.high_low_container rs re') M
        (insert_flipped_container ops (ra_append_copies_until [] x1.high_low_container hs)
          x1.high_low_container hs ls 65535) (hs + 1) := by
      refine insert_flipped_container_inv ops hcard hnr hro _ hx1.1 _ _ _ hs ls 65535
        (by omega) (by omega) (by omega) hinit ?_ ?_
      · intro lb hlb
        apply flip_target_of_in_range_iff
        unfold in_range
        omega
      · intro e hMe hk
        have := hMat e hs hMe hk (Nat.le_refl _) (by omega)
        rw [if_pos rfl, if_neg hse] at this
        exact this
    have hlastT : ∀ lb, lb < 65536 →
        (flip_target ops x1.high_low_container rs re' he lb
          ↔ (ra_has ops x1.high_low_container he lb ∧ ¬ (0 ≤ lb ∧ lb ≤ le))
            ∨ (¬ ra_has ops x1.high_low_container he lb ∧ (0 ≤ lb ∧ lb ≤ le))) := by
      intro lb hlb
      apply flip_target_of_in_range_iff
      unfold in_range
      omega
    have hlastM : ∀ e, M e → e.1 = he →
        he ∉ x1.high_low_container.map Prod.fst
          ∧ e.2 = ops.container_range_of_ones 0 (le + 1) := by
      intro e hMe hk
      have := hMat e he hMe hk (by omega) (Nat.le_refl _)
      rw [if_neg (fun h => hse h.symm), if_pos rfl] at this
      exact this
    clear hMat hMout
    by_cases hl0 : ls > 0 <;> by_cases hlf : le ≠ 65535
    · simp only [hl0, hlf, if_true, e1, e2, e3, ne_eq, not_false_eq_true]
      have hloop := fully_flipped_loop_inv ops hcard hnot hro _ hx1.1 _ _
        (he - 1 + 1 - (hs + 1)) _ (hs + 1) hfirst
        (fun hb g1 g2 => hfull hb (by omega) (by omega) (fun h => by omega)
          (fun h => by omega))
      rw [show hs + 1 + (he - 1 + 1 - (hs + 1)) = he by omega] at hloop
      have hlast := insert_flipped_container_inv ops hcard hnr hro _ hx1.1 _ _ _ he 0 le
        (by omega) (by omega) (by omega) hloop hlastT hlastM
      exact copies_after_spec ops _ hx1 _ _ _ he hlast hafter hafterM
    · have hle2 : le = 65535 := by omega
      have hloop := fully_flipped_loop_inv ops hcard hnot hro _ hx1.1 _ _
        (he + 1 - (hs + 1)) _ (hs + 1) hfirst
        (fun hb g1 g2 => hfull hb (by omega) (by omega) (fun h => by omega)
          (fun _ => hle2))
      rw [show hs + 1 + (he + 1 - (hs + 1)) = he + 1 by omega] at hloop
      simp only [hl0, hle2, if_true, e1, ne_eq, not_true_eq_false, if_false]
      exact copies_after_spec ops _ hx1 _ _ _ he hloop hafter hafterM
    · have hls2 : ls = 0 := by omega
      have hloop := fully_flipped_loop_inv ops hcard hnot hro _ hx1.1 _ _
        (he - 1 + 1 - hs) _ hs hinit
        (fun hb g1 g2 => hfull hb (by omega) (by omega) (fun _ => hls2)
          (fun h => by omega))
      rw [show hs + (he - 1 + 1 - hs) = he by omega] at hloop
      have hlast := insert_flipped_container_inv ops hcard hnr hro _ hx1.1 _ _ _ he 0 le
        (by omega) (by omega) (by omega) hloop hlastT hlastM
      simp only [hls2, gt_iff_lt, Nat.lt_irrefl, if_false, hlf, if_true, e2, e3, ne_eq,
        not_false_eq_true]
      exact copies_after_spec ops _ hx1 _ _ _ he hlast hafter hafterM
    · have hls2 : ls = 0 := by omega
      have hle2 : le = 65535 := by omega
      have hloop := fully_flipped_loop_inv ops hcard hnot hro _ hx1.1 _ _
        (he + 1 - hs) _ hs hinit
        (fun hb g1 g2 => hfull hb (by omega) (by omega) (fun _ => hls2)
          (fun _ => hle2))
      rw [show hs + (he + 1 - hs) = he + 1 by omega] at hloop
      simp only [hls2, gt_iff_lt, Nat.lt_irrefl, if_false, hle2, ne_eq, not_true_eq_false]
      exact copies_after_spec ops _ hx1 _ _ _ he hloop hafter hafterM

theorem fully_flipped_loop_empty (ops : ContainerOps C) (n : Nat) (ans : roaring_array_t C)
    (K : Nat) (h : ∀ e ∈ ans, e.1 < K) :
    (List.range' K n).foldl
        (fun a hb => insert_fully_flipped_container ops a ([] : roaring_array_t C) hb) ans
      = ans ++ (List.range' K n).map
          (fun hb => (hb, ops.container_range_of_ones 0 0x10000)) := by
  induction n generalizing ans K with
  | zero => simp
  | succ n ih =>
    rw [List.range'_succ, List.foldl_cons,
      insert_fully_flipped_container_not_found ops ans [] K h (by simp)]
    rw [ih _ (K + 1)]
    · simp
    · intro e he
      rcases List.mem_append.1 he with h1 | h1
      · exact Nat.lt_succ_of_lt (h e h1)
      · rw [List.mem_singleton.1 h1]
        exact Nat.lt_succ_self K

theorem cardinality_foldl_map (ops : ContainerOps C) (l : List Nat) (c : C) (acc : Nat) :
    (l.map (fun hb => (hb, c))).foldl
        (fun card e => card + ops.container_get_cardinality e.2) acc
      = acc + l.length * ops.container_get_cardinality c := by
  induction l generalizing acc with
  | nil => simp
  | cons a t ih =>
    rw [List.map_cons, List.foldl_cons, ih]
    simp only [List.length_cons]
    rw [Nat.succ_mul]
    omega

theorem cardinality_full (ops : ContainerOps C) (hcard : cardinality_spec ops)
    (hro : container_range_of_ones_spec ops) :
    ops.container_get_cardinality (ops.container_range_of_ones 0 0x10000) = 65536 := by
  rw [hcard]
  have : (List.range 65536).countP
      (fun v => ops.container_contains (ops.container_range_of_ones 0 0x10000) v)
      = (List.range 65536).length := by
    rw [List.countP_eq_length]
    intro v hv
    have hv' := List.mem_range.1 hv
    rw [hro 0 0x10000 v (by decide) (by decide) hv']
    simp only [decide_eq_true_eq]
    omega
  rw [this, List.length_range]

/-- The flip of the empty bitmap over `[0, 2^32)`: one full container per high
key. -/
theorem roaring_bitmap_flip_empty_full (ops : ContainerOps C) :
    (roaring_bitmap_flip ops (roaring_bitmap_create : roaring_bitmap_t C) 0
        0x100000000).high_low_container
      = (List.range' 0 65536).map (fun hb => (hb, ops.container_range_of_ones 0 0x10000)) := by
  unfold roaring_bitmap_flip
  rw [if_neg (by decide)]
  simp only [roaring_bitmap_create, ge_iff_le, Nat.le_refl, if_true]
  have a3 : ((4294967296 - 1) / 65536) % 65536 = 65535 := by decide
  have a4 : (4294967296 - 1) % 65536 = 65535 := by decide
  simp only [a3, a4]
  rw [if_neg (by decide)]
  simp only [gt_iff_lt, Nat.lt_irrefl, if_false, ne_eq, not_true_eq_false]
  rw [show 65535 + 1 - 0 = 65536 by decide]
  simp only [ra_append_copies_until, ra_append_copies_after, List.takeWhile_nil,
    List.dropWhile_nil, List.append_nil]
  rw [fully_flipped_loop_empty ops 65536 [] 0 (by simp)]
  rfl

/-! ## Cardinalities of combinations -/

theorem roaring_bitmap_get_cardinality_eq (ops : ContainerOps C) (ra : roaring_bitmap_t C) :
    roaring_bitmap_get_cardinality ops ra = ra_cardinality ops ra.high_low_container := by
  unfold roaring_bitmap_get_cardinality ra_cardinality
  have h : ∀ (l : roaring_array_t C) (acc : Nat),
      l.foldl (fun card e => card + ops.container_get_cardinality e.2) acc
        = acc + (l.map (fun e => ops.container_get_cardinality e.2)).sum := by
    intro l
    induction l with
    | nil => simp
    | cons a t ih =>
      intro acc
      rw [List.foldl_cons, ih, List.map_cons, List.sum_cons]
      omega
  rw [h]
  omega

theorem ra_cardinality_nil (ops : ContainerOps C) :
    ra_cardinality ops ([] : roaring_array_t C) = 0 := rfl

theorem ra_cardinality_cons (ops : ContainerOps C) (e : Nat × C) (t : roaring_array_t C) :
    ra_cardinality ops (e :: t) = ops.container_get_cardinality e.2 + ra_cardinality ops t := by
  simp [ra_cardinality]

theorem ra_cardinality_append (ops : ContainerOps C) (l1 l2 : roaring_array_t C) :
    ra_cardinality ops (l1 ++ l2) = ra_cardinality ops l1 + ra_cardinality ops l2 := by
  simp [ra_cardinality]

theorem countP_or_add_and (p q : Nat → Bool) (l : List Nat) :
    l.countP (fun v => p v || q v) + l.countP (fun v => p v && q v)
      = l.countP p + l.countP q := by
  induction l with
  | nil => simp
  | cons a t ih =>
    simp only [List.countP_cons]
    cases hp : p a <;> cases hq : q a <;> simp <;> omega

theorem countP_xor_add_and (p q : Nat → Bool) (l : List Nat) :
    l.countP (fun v => xor (p v) (q v)) + 2 * l.countP (fun v => p v && q v)
      = l.countP p + l.countP q := by
  induction l with
  | nil => simp
  | cons a t ih =>
    simp only [List.countP_cons]
    cases hp : p a <;> cases hq : q a <;> simp <;> omega

theorem countP_andnot_add_and (p q : Nat → Bool) (l : List Nat) :
    l.countP (fun v => p v && !q v) + l.countP (fun v => p v && q v) = l.countP p := by
  induction l with
  | nil => simp
  | cons a t ih =>
    simp only [List.countP_cons]
    cases hp : p a <;> cases hq : q a <;> simp <;> omega

theorem cardinality_and (ops : ContainerOps C) (hcard : cardinality_spec ops)
    (hand : container_and_spec ops) (a b : C) :
    ops.container_get_cardinality (ops.container_and a b)
      = (List.range 65536).countP
          (fun v => ops.container_contains a v && ops.container_contains b v) := by
  rw [hcard]
  exact countP_range_congr _ _ _ (fun v hv => hand a b v hv)

theorem cardinality_or_add_and (ops : ContainerOps C) (hcard : cardinality_spec ops)
    (hand : container_and_spec ops) (hor : container_or_spec ops) (a b : C) :
    ops.container_get_cardinality (ops.container_or a b)
        + ops.container_get_cardinality (ops.container_and a b)
      = ops.container_get_cardinality a + ops.container_get_cardinality b := by
  rw [cardinality_and ops hcard hand, hcard (ops.container_or a b), hcard a, hcard b,
    countP_range_congr _ _ _ (fun v hv => hor a b v hv)]
  exact countP_or_add_and _ _ _

theorem cardinality_xor_add_and (ops : ContainerOps C) (hcard : cardinality_spec ops)
    (hand : container_and_spec ops) (hxor : container_xor_spec ops) (a b : C) :
    ops.container_get_cardinality (ops.container_xor a b)
        + 2 * ops.container_get_cardinality (ops.container_and a b)
      = ops.container_get_cardinality a + ops.container_get_cardinality b := by
  rw [cardinality_and ops hcard hand, hcard (ops.container_xor a b), hcard a, hcard b,
    countP_range_congr _ _ _ (fun v hv => hxor a b v hv)]
  exact countP_xor_add_and _ _ _

theorem cardinality_andnot_add_and (ops : ContainerOps C) (hcard : cardinality_spec ops)
    (hand : container_and_spec ops) (handnot : container_andnot_spec ops) (a b : C) :
    ops.container_get_cardinality (ops.container_andnot a b)
        + ops.container_get_cardinality (ops.container_and a b)
      = ops.container_get_cardinality a := by
  rw [cardinality_and ops hcard hand, hcard (ops.container_andnot a b), hcard a,
    countP_range_congr _ _ _ (fun v hv => handnot a b v hv)]
  exact countP_andnot_add_and _ _ _

theorem cardinality_eq_zero_of_not_nonzero (ops : ContainerOps C)
    (hcard : cardinality_spec ops) (hnz : nonzero_cardinality_spec ops) (c : C)
    (h : ¬ ops.container_nonzero_cardinality c = true) :
    ops.container_get_cardinality c = 0 := by
  by_contra hne
  exact h ((hnz c).2 ((cardinality_ne_zero_iff ops hcard c).1 hne))

theorem ra_cardinality_and_merge_eq_key (ops : ContainerOps C)
    (hcard : cardinality_spec ops) (hnz : nonzero_cardinality_spec ops)
    (e1 e2 : Nat × C) (t1 t2 : roaring_array_t C) (hk : e1.1 = e2.1) :
    ra_cardinality ops (and_merge ops (e1 :: t1) (e2 :: t2))
      = ops.container_get_cardinality (ops.container_and e1.2 e2.2)
        + ra_cardinality ops (and_merge ops t1 t2) := by
  rw [and_merge]
  simp only [hk, if_true]
  by_cases h : ops.container_nonzero_cardinality (ops.container_and e1.2 e2.2) = true
  · rw [if_pos h, ra_cardinality_cons]
  · rw [if_neg h, cardinality_eq_zero_of_not_nonzero ops hcard hnz _ h]
    omega

theorem ra_cardinality_xor_merge_eq_key (ops : ContainerOps C)
    (hcard : cardinality_spec ops) (hnz : nonzero_cardinality_spec ops)
    (e1 e2 : Nat × C) (t1 t2 : roaring_array_t C) (hk : e1.1 = e2.1) :
    ra_cardinality ops (xor_merge ops (e1 :: t1) (e2 :: t2))
      = ops.container_get_cardinality (ops.container_xor e1.2 e2.2)
        + ra_cardinality ops (xor_merge ops t1 t2) := by
  rw [xor_merge]
  simp only [hk, if_true]
  by_cases h : ops.container_nonzero_cardinality (ops.container_xor e1.2 e2.2) = true
  · rw [if_pos h, ra_cardinality_cons]
  · rw [if_neg h, cardinality_eq_zero_of_not_nonzero ops hcard hnz _ h]
    omega

theorem ra_cardinality_andnot_merge_eq_key (ops : ContainerOps C)
    (hcard : cardinality_spec ops) (hnz : nonzero_cardinality_spec ops)
    (e1 e2 : Nat × C) (t1 t2 : roaring_array_t C) (hk : e1.1 = e2.1) :
    ra_cardinality ops (andnot_merge ops (e1 :: t1) (e2 :: t2))
      = ops.container_get_cardinality (ops.container_andnot e1.2 e2.2)
        + ra_cardinality ops (andnot_merge ops t1 t2) := by
  rw [andnot_merge]
  simp only [hk, if_true]
  by_cases h : ops.container_nonzero_cardinality (ops.container_andnot e1.2 e2.2) = true
  · rw [if_pos h, ra_cardinality_cons]
  · rw [if_neg h, cardinality_eq_zero_of_not_nonzero ops hcard hnz _ h]
    omega

/-- Inclusion-exclusion on directories: union plus intersection. -/
theorem ra_cardinality_or_merge (ops : ContainerOps C)
    (hcard : cardinality_spec ops) (hnz : nonzero_cardinality_spec ops)
    (hand : container_and_spec ops) (hor : container_or_spec ops)
    (l1 l2 : roaring_array_t C) :
    ra_cardinality ops (or_merge ops l1 l2) + ra_cardinality ops (and_merge ops l1 l2)
      = ra_cardinality ops l1 + ra_cardinality ops l2 := by
  induction l1, l2 using or_merge.induct ops with
  | case1 l =>
    rw [or_merge, and_merge]
    simp [ra_cardinality_nil]
  | case2 a t =>
    rw [or_merge, and_merge_nil_right]
  | case3 e1 t1 e2 t2 hk ih =>
    rw [ra_cardinality_and_merge_eq_key ops hcard hnz _ _ _ _ hk, or_merge, if_pos hk]
    simp only [ra_cardinality_cons]
    have := cardinality_or_add_and ops hcard hand hor e1.2 e2.2
    omega
  | case4 e1 t1 e2 t2 hne hlt ih =>
    rw [or_merge, and_merge, if_neg hne, if_pos hlt, if_neg hne, if_pos hlt]
    simp only [ra_cardinality_cons] at ih ⊢
    omega
  | case5 e1 t1 e2 t2 hne hlt ih =>
    rw [or_merge, and_merge, if_neg hne, if_neg hlt, if_neg hne, if_neg hlt]
    simp only [ra_cardinality_cons] at ih ⊢
    omega

/-- Symmetric difference plus twice the intersection, on directories. -/
theorem ra_cardinality_xor_merge (ops : ContainerOps C)
    (hcard : cardinality_spec ops) (hnz : nonzero_cardinality_spec ops)
    (hand : container_and_spec ops) (hxor : container_xor_spec ops)
    (l1 l2 : roaring_array_t C) :
    ra_cardinality ops (xor_merge ops l1 l2) + 2 * ra_cardinality ops (and_merge ops l1 l2)
      = ra_cardinality ops l1 + ra_cardinality ops l2 := by
  induction l1, l2 using or_merge.induct ops with
  | case1 l =>
    rw [xor_merge, and_merge]
    simp [ra_cardinality_nil]
  | case2 a t =>
    rw [xor_merge, and_merge_nil_right]
    simp [ra_cardinality_nil]
  | case3 e1 t1 e2 t2 hk ih =>
    rw [ra_cardinality_and_merge_eq_key ops hcard hnz _ _ _ _ hk,
      ra_cardinality_xor_merge_eq_key ops hcard hnz _ _ _ _ hk]
    simp only [ra_cardinality_cons]
    have := cardinality_xor_add_and ops hcard hand hxor e1.2 e2.2
    omega
  | case4 e1 t1 e2 t2 hne hlt ih =>
    rw [xor_merge, and_merge, if_neg hne, if_pos hlt, if_neg hne, if_pos hlt]
    simp only [ra_cardinality_cons] at ih ⊢
    omega
  | case5 e1 t1 e2 t2 hne hlt ih =>
    rw [xor_merge, and_merge, if_neg hne, if_neg hlt, if_neg hne, if_neg hlt]
    simp only [ra_cardinality_cons] at ih ⊢
    omega

/-- Difference plus intersection, on directories. -/
theorem ra_cardinality_andnot_merge (ops : ContainerOps C)
    (hcard : cardinality_spec ops) (hnz : nonzero_cardinality_spec ops)
    (hand : container_and_spec ops) (handnot : container_andnot_spec ops)
    (l1 l2 : roaring_array_t C) :
    ra_cardinality ops (andnot_merge ops l1 l2) + ra_cardinality ops (and_merge ops l1 l2)
      = ra_cardinality ops l1 := by
  induction l1, l2 using or_merge.induct ops with
  | case1 l =>
    rw [andnot_merge, and_merge]
    simp [ra_cardinality_nil]
  | case2 a t =>
    rw [andnot_merge, and_merge_nil_right]
    simp [ra_cardinality_nil]
  | case3 e1 t1 e2 t2 hk ih =>
    rw [ra_cardinality_and_merge_eq_key ops hcard hnz _ _ _ _ hk,
      ra_cardinality_andnot_merge_eq_key ops hcard hnz _ _ _ _ hk]
    simp only [ra_cardinality_cons]
    have := cardinality_andnot_add_and ops hcard hand handnot e1.2 e2.2
    omega
  | case4 e1 t1 e2 t2 hne hlt ih =>
    rw [andnot_merge, and_merge, if_neg hne, if_pos hlt, if_neg hne, if_pos hlt]
    simp only [ra_cardinality_cons] at ih ⊢
    omega
  | case5 e1 t1 e2 t2 hne hlt ih =>
    rw [andnot_merge, and_merge, if_neg hne, if_neg hlt, if_neg hne, if_neg hlt]
    simp only [ra_cardinality_cons] at ih ⊢
    omega

/-- The loop of `roaring_bitmap_and_cardinality` adds the cardinality of the
two-cursor intersection of the unread parts to the running answer. -/
theorem roaring_bitmap_and_cardinality_loop_eq (ops : ContainerOps C)
    (hcard : cardinality_spec ops) (hnz : nonzero_cardinality_spec ops)
    (hand : container_and_spec ops) (hac : container_and_cardinality_spec ops)
    (x1 x2 : roaring_array_t C) (pos1 pos2 answer : Nat) :
    roaring_bitmap_and_cardinality_loop ops x1 x2 pos1 pos2 answer
      = answer + ra_cardinality ops (and_merge ops (x1.drop pos1) (x2.drop pos2)) := by
  induction pos1, pos2, answer using roaring_bitmap_and_cardinality_loop.induct ops x1 x2 with
  | case1 pos1 pos2 answer h s1 s2 hs ih =>
    rw [roaring_bitmap_and_cardinality_loop, dif_pos h]
    simp only [s1, s2] at hs
    simp only [hs, if_true]
    rw [ih, List.drop_eq_getElem_cons h.1, List.drop_eq_getElem_cons h.2,
      ra_cardinality_and_merge_eq_key ops hcard hnz _ _ _ _ hs,
      cardinality_and ops hcard hand, hac]
    omega
  | case2 pos1 pos2 answer h s1 s2 hne hlt ih =>
    rw [roaring_bitmap_and_cardinality_loop, dif_pos h]
    simp only [s1, s2] at hne hlt ih
    simp only [hne, if_false, hlt, dif_pos]
    rw [ih, drop_advance_until, List.drop_eq_getElem_cons h.2, and_merge_dropWhile_left]
  | case3 pos1 pos2 answer h s1 s2 hne hlt ih =>
    rw [roaring_bitmap_and_cardinality_loop, dif_pos h]
    simp only [s1, s2] at hne hlt ih
    simp only [hne, if_false, hlt, dif_neg, not_false_eq_true]
    rw [ih, drop_advance_until, List.drop_eq_getElem_cons h.1, and_merge_dropWhile_right]
  | case4 pos1 pos2 answer h =>
    rw [roaring_bitmap_and_cardinality_loop, dif_neg h]
    rw [not_and_or] at h
    rcases h with h | h
    · rw [List.drop_eq_nil_of_le (by omega)]
      simp [and_merge, ra_cardinality_nil]
    · rw [List.drop_eq_nil_of_le (Nat.le_of_not_lt h), and_merge_nil_right]
      simp [ra_cardinality_nil]

theorem keys_sorted_length_le (l : roaring_array_t C) (hs : keys_sorted l) (a n : Nat)
    (hk : ∀ e ∈ l, a ≤ e.1 ∧ e.1 < n) : l.length ≤ n - a := by
  induction l generalizing a with
  | nil => simp
  | cons e t ih =>
    obtain ⟨hlt, hst⟩ := List.pairwise_cons.1 hs
    have h1 := ih hst (e.1 + 1) (fun x hx =>
      ⟨hlt x hx, (hk x (List.mem_cons_of_mem _ hx)).2⟩)
    have h2 := hk e (List.mem_cons_self _ _)
    simp only [List.length_cons]
    omega

theorem cardinality_le (ops : ContainerOps C) (hcard : cardinality_spec ops) (c : C) :
    ops.container_get_cardinality c ≤ 65536 := by
  rw [hcard]
  have h := List.countP_le_length (fun v => ops.container_contains c v)
    (l := List.range 65536)
  rw [List.length_range] at h
  exact h

theorem ra_cardinality_le (ops : ContainerOps C) (hcard : cardinality_spec ops)
    (l : roaring_array_t C) : ra_cardinality ops l ≤ 65536 * l.length := by
  induction l with
  | nil => simp [ra_cardinality_nil]
  | cons e t ih =>
    rw [ra_cardinality_cons, List.length_cons]
    have := cardinality_le ops hcard e.2
    omega

/-- A valid bitmap holds at most `2^32` values. -/
theorem roaring_bitmap_get_cardinality_le (ops : ContainerOps C)
    (hcard : cardinality_spec ops) (r : roaring_bitmap_t C) (hr : valid ops r) :
    roaring_bitmap_get_cardinality ops r ≤ 4294967296 := by
  rw [roaring_bitmap_get_cardinality_eq]
  have h1 := ra_cardinality_le ops hcard r.high_low_container
  have h2 := keys_sorted_length_le r.high_low_container hr.1 0 65536
    (fun e he => ⟨Nat.zero_le _, hr.2.1 e he⟩)
  omega

theorem roaring_bitmap_and_cardinality_eq (ops : ContainerOps C)
    (hcard : cardinality_spec ops) (hnz : nonzero_cardinality_spec ops)
    (hand : container_and_spec ops) (hac : container_and_cardinality_spec ops)
    (x1 x2 : roaring_bitmap_t C) :
    roaring_bitmap_and_cardinality ops x1 x2
      = ra_cardinality ops (and_merge ops x1.high_low_container x2.high_low_container) := by
  unfold roaring_bitmap_and_cardinality
  rw [roaring_bitmap_and_cardinality_loop_eq ops hcard hnz hand hac]
  simp

theorem uint64_sub_eq (a b : Nat) (hb : b ≤ a) (ha : a < 2 ^ 64) : uint64_sub a b = a - b := by
  unfold uint64_sub
  simp only [Nat.reducePow] at ha ⊢
  omega

/-! ## Rank, selection and extremes -/

theorem countP_range_add (F : Nat → Bool) (a b : Nat) :
    (List.range (a + b)).countP F
      = (List.range a).countP F + (List.range b).countP (fun i => F (a + i)) := by
  rw [List.range_add, List.countP_append, List.countP_map]
  rfl

theorem countP_range_eq_zero (F : Nat → Bool) (n : Nat) (h : ∀ v, v < n → F v = false) :
    (List.range n).countP F = 0 := by
  rw [List.countP_eq_zero]
  intro v hv
  rw [h v (List.mem_range.1 hv)]
  simp

/-- Counting inside the block of one high key. -/
theorem countP_block (p : Nat → Bool) (k N : Nat) :
    (List.range N).countP (fun v => decide (k = v / 65536) && p (v % 65536))
      = (List.range (min 65536 (N - k * 65536))).countP p := by
  by_cases hN : N ≤ k * 65536
  · rw [show N - k * 65536 = 0 by omega]
    simp only [Nat.min_zero, List.range_zero, List.countP_nil]
    apply countP_range_eq_zero
    intro v hv
    have : ¬ k = v / 65536 := by omega
    simp [this]
  · obtain ⟨m, rfl⟩ : ∃ m, N = k * 65536 + m := ⟨N - k * 65536, by omega⟩
    rw [countP_range_add, show k * 65536 + m - k * 65536 = m by omega]
    rw [countP_range_eq_zero _ (k * 65536) (by
      intro v hv
      have : ¬ k = v / 65536 := by omega
      simp [this])]
    rw [Nat.zero_add]
    by_cases hm : m ≤ 65536
    · rw [Nat.min_eq_right hm]
      apply countP_range_congr
      intro v hv
      have h1 : (k * 65536 + v) / 65536 = k := by omega
      have h2 : (k * 65536 + v) % 65536 = v := by omega
      simp [h1, h2]
    · rw [Nat.min_eq_left (by omega)]
      obtain ⟨r, rfl⟩ : ∃ r, m = 65536 + r := ⟨m - 65536, by omega⟩
      rw [countP_range_add, countP_range_eq_zero _ r (by
        intro v _
        have : ¬ k = (k * 65536 + (65536 + v)) / 65536 := by omega
        simp [this])]
      rw [Nat.add_zero]
      apply countP_range_congr
      intro v hv
      have h1 : (k * 65536 + v) / 65536 = k := by omega
      have h2 : (k * 65536 + v) % 65536 = v := by omega
      simp [h1, h2]

theorem ra_contains_iff (ops : ContainerOps C) (l : roaring_array_t C) (v : Nat) :
    ra_contains ops l v = true ↔ ra_has ops l (v / 65536) (v % 65536) := by
  unfold ra_contains ra_has
  rw [List.any_eq_true]
  constructor
  · rintro ⟨e, he, h⟩
    simp only [Bool.and_eq_true, decide_eq_true_eq] at h
    refine ⟨e.2, ?_, h.2⟩
    rw [← h.1]
    exact he
  · rintro ⟨c, hc, h⟩
    exact ⟨(v / 65536, c), hc, by simp [h]⟩

theorem roaring_bitmap_contains_eq_ra_contains (ops : ContainerOps C)
    (r : roaring_bitmap_t C) (hs : keys_sorted r.high_low_container) (v : Nat)
    (hv : v < 2 ^ 32) :
    roaring_bitmap_contains ops r v = ra_contains ops r.high_low_container v := by
  rw [Bool.eq_iff_iff, roaring_bitmap_contains_iff ops r hs, ra_contains_iff]
  have : v / 65536 % 65536 = v / 65536 := by
    simp only [Nat.reducePow] at hv
    omega
  rw [this]

theorem ra_contains_cons (ops : ContainerOps C) (e : Nat × C) (t : roaring_array_t C)
    (v : Nat) :
    ra_contains ops (e :: t) v
      = ((decide (e.1 = v / 65536) && ops.container_contains e.2 (v % 65536))
          || ra_contains ops t v) := by
  simp [ra_contains]

theorem countP_ra_contains_eq_zero (ops : ContainerOps C) (t : roaring_array_t C)
    (N xhigh : Nat) (hN : N ≤ (xhigh + 1) * 65536) (ht : ∀ e ∈ t, xhigh < e.1) :
    (List.range N).countP (fun v => ra_contains ops t v) = 0 := by
  apply countP_range_eq_zero
  intro v hv
  rw [Bool.eq_false_iff]
  intro h
  obtain ⟨c, hc, _⟩ := (ra_contains_iff ops t v).1 h
  have := ht _ hc
  simp only at this
  omega

theorem countP_ra_contains_cons (ops : ContainerOps C) (e : Nat × C)
    (t : roaring_array_t C) (hs : keys_sorted (e :: t)) (N : Nat) :
    (List.range N).countP (fun v => ra_contains ops (e :: t) v)
      = (List.range (min 65536 (N - e.1 * 65536))).countP
          (fun v => ops.container_contains e.2 v)
        + (List.range N).countP (fun v => ra_contains ops t v) := by
  have h := countP_or_add_and
    (fun v => decide (e.1 = v / 65536) && ops.container_contains e.2 (v % 65536))
    (fun v => ra_contains ops t v) (List.range N)
  have hz : (List.range N).countP
      (fun v => (decide (e.1 = v / 65536) && ops.container_contains e.2 (v % 65536))
        && ra_contains ops t v) = 0 := by
    apply countP_range_eq_zero
    intro v _
    rw [Bool.eq_false_iff]
    intro hc
    simp only [Bool.and_eq_true, decide_eq_true_eq] at hc
    obtain ⟨c, hm, _⟩ := (ra_contains_iff ops t v).1 hc.2
    have := ((keys_sorted_cons e t).1 hs).1 (v / 65536) (List.mem_map.2 ⟨_, hm, rfl⟩)
    omega
  rw [hz, Nat.add_zero, countP_block] at h
  rw [← h]
  apply List.countP_congr
  intro v _
  rw [ra_contains_cons]

/-- The loop of `roaring_bitmap_rank` counts the values up to
`xhigh * 2^16 + xlow` of the entries that are left. -/
theorem roaring_bitmap_rank_loop_eq (ops : ContainerOps C) (hcard : cardinality_spec ops)
    (hrank : container_rank_spec ops) (xhigh xlow : Nat) (hlow : xlow < 65536)
    (l : roaring_array_t C) (hs : keys_sorted l) (size : Nat) :
    roaring_bitmap_rank_loop ops xhigh xlow l size
      = size + (List.range (xhigh * 65536 + xlow + 1)).countP
          (fun v => ra_contains ops l v) := by
  induction l generalizing size with
  | nil => simp [roaring_bitmap_rank_loop, ra_contains]
  | cons e t ih =>
    have hst := ((keys_sorted_cons e t).1 hs).2
    have hlt : ∀ x ∈ t, e.1 < x.1 := fun x hx =>
      ((keys_sorted_cons e t).1 hs).1 x.1 (List.mem_map.2 ⟨x, hx, rfl⟩)
    rw [roaring_bitmap_rank_loop, countP_ra_contains_cons ops e t hs]
    by_cases h1 : xhigh > e.1
    · rw [if_pos h1, ih hst, Nat.min_eq_left (by omega), hcard e.2]
      omega
    · rw [if_neg h1]
      have hz := countP_ra_contains_eq_zero ops t (xhigh * 65536 + xlow + 1) xhigh
        (by omega) (fun x hx => by have := hlt x hx; omega)
      rw [hz]
      by_cases h2 : xhigh = e.1
      · rw [if_pos h2, hrank e.2 xlow hlow, ← h2,
          show xhigh * 65536 + xlow + 1 - xhigh * 65536 = xlow + 1 by omega,
          Nat.min_eq_right (by omega)]
        omega
      · rw [if_neg h2, show xhigh * 65536 + xlow + 1 - e.1 * 65536 = 0 by omega]
        simp

theorem lor_key (lo key : Nat) (hlo : lo < 65536) (hkey : key < 65536) :
    lo ||| ((key * 65536) % 2 ^ 32) = key * 65536 + lo := by
  have h1 : (key * 65536) % 2 ^ 32 = 2 ^ 16 * key := by
    simp only [Nat.reducePow]
    omega
  have h2 : lo < 2 ^ 16 := by
    simp only [Nat.reducePow]
    exact hlo
  rw [h1, Nat.lor_comm, ← Nat.mul_add_lt_is_or h2]
  simp only [Nat.reducePow]
  omega

theorem countP_range_succ (F : Nat → Bool) (n : Nat) :
    (List.range (n + 1)).countP F = (List.range n).countP F + (if F n then 1 else 0) := by
  rw [List.range_succ, List.countP_append, List.countP_singleton]

/-- The loop of `roaring_bitmap_select` stops in the entry that holds the
wanted rank. -/
theorem roaring_bitmap_select_loop_found (ops : ContainerOps C)
    (hsel : container_select_spec ops) (rank : Nat) (rest : roaring_array_t C)
    (start_rank element : Nat) (h1 : start_rank ≤ rank)
    (h2 : rank < start_rank + ra_cardinality ops rest) :
    ∃ A e B lo, rest = A ++ e :: B
      ∧ roaring_bitmap_select_loop ops rank rest start_rank element
          = (true, lo ||| ((e.1 * 65536) % 2 ^ 32))
      ∧ lo < 65536 ∧ ops.container_contains e.2 lo = true
      ∧ (List.range lo).countP (fun v => ops.container_contains e.2 v)
          + (start_rank + ra_cardinality ops A) = rank := by
  induction rest generalizing start_rank element with
  | nil =>
    rw [ra_cardinality_nil] at h2
    omega
  | cons e t ih =>
    rw [ra_cardinality_cons] at h2
    by_cases h : start_rank + ops.container_get_cardinality e.2 ≤ rank
    · have hs := (hsel e.2 start_rank rank element).1 h
      obtain ⟨A, e2, B, lo, hsplit, hloop, hlo, hc, hcount⟩ :=
        ih (start_rank + ops.container_get_cardinality e.2) element h (by omega)
      refine ⟨e :: A, e2, B, lo, by rw [hsplit]; rfl, ?_, hlo, hc, ?_⟩
      · rw [roaring_bitmap_select_loop]
        simp only [hs, Bool.false_eq_true, if_false]
        exact hloop
      · rw [ra_cardinality_cons]
        omega
    · obtain ⟨s1, s2, s3, s4⟩ := (hsel e.2 start_rank rank element).2 h1 (by omega)
      refine ⟨[], e, t, (ops.container_select e.2 start_rank rank element).2.2, rfl, ?_,
        s2, s3, ?_⟩
      · rw [roaring_bitmap_select_loop]
        simp only [s1, if_true]
      · rw [ra_cardinality_nil]
        omega

/-- The loop of `roaring_bitmap_select` fails, with `*element` untouched, when
the wanted rank lies beyond the entries that are left. -/
theorem roaring_bitmap_select_loop_not_found (ops : ContainerOps C)
    (hsel : container_select_spec ops) (rank : Nat) (rest : roaring_array_t C)
    (start_rank element : Nat) (h : start_rank + ra_cardinality ops rest ≤ rank) :
    roaring_bitmap_select_loop ops rank rest start_rank element = (false, element) := by
  induction rest generalizing start_rank with
  | nil => rfl
  | cons e t ih =>
    rw [ra_cardinality_cons] at h
    have hs := (hsel e.2 start_rank rank element).1 (by omega)
    rw [roaring_bitmap_select_loop]
    simp only [hs, Bool.false_eq_true, if_false]
    exact ih _ (by omega)

theorem roaring_bitmap_rank_loop_split (ops : ContainerOps C) (xhigh xlow : Nat)
    (A B : roaring_array_t C) (c : C) (hA : ∀ a ∈ A, a.1 < xhigh) (size : Nat) :
    roaring_bitmap_rank_loop ops xhigh xlow (A ++ (xhigh, c) :: B) size
      = size + ra_cardinality ops A + ops.container_rank c xlow := by
  induction A generalizing size with
  | nil => simp [roaring_bitmap_rank_loop, ra_cardinality_nil]
  | cons a t ih =>
    have ha := hA a (List.mem_cons_self _ _)
    rw [List.cons_append, roaring_bitmap_rank_loop, if_pos ha,
      ih (fun x hx => hA x (List.mem_cons_of_mem _ hx)), ra_cardinality_cons]
    omega

theorem roaring_bitmap_contains_of_mem (ops : ContainerOps C) (r : roaring_bitmap_t C)
    (hr : valid ops r) (e : Nat × C) (he : e ∈ r.high_low_container) (lo : Nat)
    (hlo : lo < 65536) (hc : ops.container_contains e.2 lo = true) :
    roaring_bitmap_contains ops r (e.1 * 65536 + lo) = true := by
  have hk := hr.2.1 e he
  rw [roaring_bitmap_contains_iff ops r hr.1]
  have h1 : (e.1 * 65536 + lo) / 65536 % 65536 = e.1 := by omega
  have h2 : (e.1 * 65536 + lo) % 65536 = lo := by omega
  rw [h1, h2]
  exact ⟨e.2, he, hc⟩

theorem mem_of_roaring_bitmap_contains (ops : ContainerOps C) (r : roaring_bitmap_t C)
    (hr : valid ops r) (v : Nat) (hv : v < 2 ^ 32)
    (h : roaring_bitmap_contains ops r v = true) :
    ∃ e ∈ r.high_low_container, e.1 = v / 65536
      ∧ ops.container_contains e.2 (v % 65536) = true := by
  rw [roaring_bitmap_contains_eq_ra_contains ops r hr.1 v hv, ra_contains_iff] at h
  obtain ⟨c, hc, hh⟩ := h
  exact ⟨(v / 65536, c), hc, rfl, hh⟩

/-! ## Construction from a range -/

/-- With the bound `2^32` the `for` loop of `roaring_bitmap_from_range` never
exits: every 32-bit counter value is below the bound. -/
theorem roaring_bitmap_from_range_for_full (ops : ContainerOps C) (step fuel : Nat)
    (answer : roaring_bitmap_t C) (value : Nat) (hv : value < 2 ^ 32) :
    roaring_bitmap_from_range_for ops 0x100000000 step fuel answer value = none := by
  induction fuel generalizing answer value with
  | zero => rfl
  | succ n ih =>
    rw [roaring_bitmap_from_range_for, if_pos (by simpa using hv)]
    exact ih _ _ (Nat.mod_lt _ (by decide))

/-- With step `2^31` and a bound above `2^31` the counter of the `for` loop
alternates between two values below the bound. -/
theorem roaring_bitmap_from_range_for_half (ops : ContainerOps C) (max fuel : Nat)
    (hmax : 0x80000000 < max) (answer : roaring_bitmap_t C) (value : Nat)
    (hv : value = 0 ∨ value = 0x80000000) :
    roaring_bitmap_from_range_for ops max 0x80000000 fuel answer value = none := by
  induction fuel generalizing answer value with
  | zero => rfl
  | succ n ih =>
    rw [roaring_bitmap_from_range_for, if_pos (by rcases hv with h | h <;> omega)]
    apply ih
    rcases hv with h | h
    · right
      rw [h]
      norm_num
    · left
      rw [h]
      norm_num

/-- The null pointer is returned exactly on a zero step or an empty range. -/
theorem roaring_bitmap_from_range_null_iff (ops : ContainerOps C)
    (fuel min max step : Nat) :
    roaring_bitmap_from_range ops fuel min max step = some none
      ↔ step = 0 ∨ (if max ≥ 0x100000000 then 0x100000000 else max) ≤ min := by
  unfold roaring_bitmap_from_range
  simp only
  by_cases h1 : step = 0
  · simp [h1]
  · rw [if_neg h1]
    by_cases h2 : (if max ≥ 0x100000000 then 0x100000000 else max) ≤ min
    · simp [h2]
    · rw [if_neg h2]
      simp only [h1, h2, or_self, iff_false]
      split
      · cases roaring_bitmap_from_range_for ops _ step fuel
          (roaring_bitmap_create : roaring_bitmap_t C) (min % 2 ^ 32) <;> simp
      · cases roaring_bitmap_from_range_do ops _ step fuel
          (roaring_bitmap_create : roaring_bitmap_t C) min <;> simp

/-! ## Addition of a closed range -/

theorem set_length_append {α : Type} (A B : List α) (z x : α) :
    (A ++ z :: B).set A.length x = A ++ x :: B := by
  induction A with
  | nil => rfl
  | cons a t ih => simp [ih]

theorem getElem?_length_append {α : Type} (A B : List α) (z : α) :
    (A ++ z :: B)[A.length]? = some z := by
  rw [List.getElem?_append_right (Nat.le_refl _), Nat.sub_self]
  simp

theorem lookup_eq_none_of_keys (l : roaring_array_t C) (k : Nat) (h : ∀ e ∈ l, e.1 ≠ k) :
    l.lookup k = none := by
  rw [List.lookup_eq_none_iff]
  intro p hp
  simp only [bne_iff_ne, ne_eq]
  exact fun hh => h p hp hh.symm

theorem lookup_singleton (e : Nat × C) (k : Nat) :
    [e].lookup k = if k = e.1 then some e.2 else none := by
  obtain ⟨a, b⟩ := e
  by_cases h : k = a
  · simp [List.lookup_cons, h]
  · have : (k == a) = false := by simpa using h
    simp [List.lookup_cons, h, this]

theorem roaring_bitmap_add_range_closed_step_hit (ops : ContainerOps C) (min max key : Nat)
    (ra : roaring_array_t C) (src dst : Nat) (e : Nat × C) (he : ra[src]? = some e)
    (hk : e.1 = key) :
    roaring_bitmap_add_range_closed_step ops min max (ra, (src : Int), (dst : Int)) key
      = (ra.set dst (key, add_range_closed_container ops min max (some e.2) key),
          (src : Int) - 1, (dst : Int) - 1) := by
  unfold roaring_bitmap_add_range_closed_step
  simp only [Int.natCast_nonneg, if_true, Int.toNat_ofNat, he, hk,
    ra_replace_key_and_container_at_index, add_range_closed_container]

theorem roaring_bitmap_add_range_closed_step_miss (ops : ContainerOps C) (min max key : Nat)
    (ra : roaring_array_t C) (src : Int) (dst : Nat)
    (h : ∀ e, 0 ≤ src → ra[src.toNat]? = some e → e.1 ≠ key) :
    roaring_bitmap_add_range_closed_step ops min max (ra, src, (dst : Int)) key
      = (ra.set dst (key, add_range_closed_container ops min max none key),
          src, (dst : Int) - 1) := by
  unfold roaring_bitmap_add_range_closed_step
  have hhit : (if 0 ≤ src then
      match ra[src.toNat]? with
      | some e => if e.1 = key then some e.2 else none
      | none => none
    else none) = (none : Option C) := by
    by_cases h0 : 0 ≤ src
    · rw [if_pos h0]
      cases hr : ra[src.toNat]? with
      | none => rfl
      | some e => simp only [if_neg (h e h0 hr)]
    · rw [if_neg h0]
  simp only [hhit, Int.toNat_ofNat, ra_replace_key_and_container_at_index,
    add_range_closed_container]

/-- In a sorted list whose keys are at most `k`, an entry with key `k` is the
last one. -/
theorem last_of_sorted_max (l : roaring_array_t C) (hs : keys_sorted l) (k : Nat) (c : C)
    (hmem : (k, c) ∈ l) (hle : ∀ e ∈ l, e.1 ≤ k) : ∃ L, l = L ++ [(k, c)] := by
  obtain ⟨L, t, hl⟩ := List.append_of_mem hmem
  refine ⟨L, ?_⟩
  rw [hl] at hs hle
  have h2 := ((keys_sorted_append_cons L t (k, c)).1 hs).2.2.2.1
  cases t with
  | nil => exact hl
  | cons b t2 =>
    have h3 := h2 b (List.mem_cons_self _ _)
    have h4 := hle b (by simp)
    simp only at h3
    omega

/-- The `for` loop of `roaring_bitmap_add_range_closed` over the keys
`min_key, ..., min_key + j - 1`, taken downwards: the `j` slots after the prefix
`P`, which start with the unread entries `Cm`, receive one entry per key. -/
theorem roaring_bitmap_add_range_closed_loop_eq (ops : ContainerOps C) (min max : Nat)
    (P : roaring_array_t C) (hP : ∀ e ∈ P, e.1 < min / 65536) (j : Nat) :
    ∀ (Cm X T : roaring_array_t C) (src dst : Int), keys_sorted Cm →
      (∀ e ∈ Cm, min / 65536 ≤ e.1 ∧ e.1 < min / 65536 + j) →
      Cm.length + X.length = j →
      src = (P.length : Int) + Cm.length - 1 → dst = (P.length : Int) + j - 1 →
      ((List.range' (min / 65536) j).reverse.foldl
          (roaring_bitmap_add_range_closed_step ops min max) (P ++ Cm ++ X ++ T, src, dst)).1
        = P ++ (List.range' (min / 65536) j).map
            (fun k => (k, add_range_closed_container ops min max (Cm.lookup k) k)) ++ T := by
  induction j with
  | zero =>
    intro Cm X T src dst _ _ hlen _ _
    have h1 : Cm = [] := List.length_eq_zero.1 (by omega)
    have h2 : X = [] := List.length_eq_zero.1 (by omega)
    simp [h1, h2]
  | succ j ih =>
    intro Cm X T src dst hs hk hlen hsrc hdst
    rw [List.range'_1_concat, List.reverse_append, List.reverse_singleton,
      List.singleton_append, List.foldl_cons, List.map_append, List.map_singleton]
    have hdst2 : dst = ((P.length + j : Nat) : Int) := by
      rw [hdst]
      push_cast
      omega
    by_cases hhit : ∃ c, (min / 65536 + j, c) ∈ Cm
    · -- the entry for this key exists and is the last unread one
      obtain ⟨c, hc⟩ := hhit
      obtain ⟨L, hL⟩ := last_of_sorted_max Cm hs _ c hc (fun e he => by
        have := (hk e he).2
        omega)
      subst hL
      have hsL := ((keys_sorted_append L [(min / 65536 + j, c)]).1 hs)
      have hLlt : ∀ e ∈ L, e.1 < min / 65536 + j := fun e he =>
        hsL.2.2 e he _ (List.mem_singleton_self _)
      have hsrc2 : src = ((P.length + L.length : Nat) : Int) := by
        rw [hsrc]
        simp only [List.length_append, List.length_singleton]
        push_cast
        omega
      have hread : (P ++ (L ++ [(min / 65536 + j, c)]) ++ X ++ T)[P.length + L.length]?
          = some (min / 65536 + j, c) := by
        have := getElem?_length_append (P ++ L) (X ++ T) (min / 65536 + j, c)
        simpa using this
      rw [hsrc2, hdst2, roaring_bitmap_add_range_closed_step_hit ops min max _ _ _ _ _
        hread rfl]
      have hlook1 : (L ++ [(min / 65536 + j, c)]).lookup (min / 65536 + j) = some c := by
        rw [List.lookup_append, lookup_eq_none_of_keys L _ (fun e he => by
          have := hLlt e he
          omega), lookup_singleton]
        simp
      have hlook2 : ∀ k ∈ List.range' (min / 65536) j,
          (L ++ [(min / 65536 + j, c)]).lookup k = L.lookup k := by
        intro k hk2
        have hk3 := (List.mem_range'_1.1 hk2).2
        rw [List.lookup_append, lookup_singleton, if_neg (by simp only; omega)]
        simp
      have hmap : (List.range' (min / 65536) j).map
            (fun k => (k, add_range_closed_container ops min max
              ((L ++ [(min / 65536 + j, c)]).lookup k) k))
          = (List.range' (min / 65536) j).map
            (fun k => (k, add_range_closed_container ops min max (L.lookup k) k)) := by
        apply List.map_congr_left
        intro k hk2
        rw [hlook2 k hk2]
      rw [hmap, hlook1]
      simp only [List.length_append, List.length_singleton] at hlen
      rcases List.eq_nil_or_concat X with hX | ⟨X2, z, hX⟩
      · subst hX
        have hlist : (P ++ (L ++ [(min / 65536 + j, c)]) ++ [] ++ T)
            = (P ++ L) ++ (min / 65536 + j, c) :: T := by simp
        have hidx : P.length + j = (P ++ L).length := by
          simp only [List.length_append, List.length_nil] at hlen ⊢
          omega
        rw [hlist, hidx, set_length_append]
        have := ih L [] ((min / 65536 + j, add_range_closed_container ops min max (some c)
            (min / 65536 + j)) :: T) (((P.length + L.length : Nat) : Int) - 1)
          (((P ++ L).length : Int) - 1) hsL.1
          (fun e he => ⟨(hk e (List.mem_append_left _ he)).1, hLlt e he⟩)
          (by simp only [List.length_nil] at hlen ⊢; omega)
          (by push_cast; omega)
          (by simp only [List.length_append, List.length_nil] at hlen ⊢; push_cast; omega)
        simp only [List.append_nil, List.append_assoc] at this ⊢
        rw [this]
        simp
      · rw [List.concat_eq_append] at hX
        subst hX
        have hlist : (P ++ (L ++ [(min / 65536 + j, c)]) ++ (X2 ++ [z]) ++ T)
            = (P ++ L ++ (min / 65536 + j, c) :: X2) ++ z :: T := by simp
        have hidx : P.length + j = (P ++ L ++ (min / 65536 + j, c) :: X2).length := by
          simp only [List.length_append, List.length_cons, List.length_singleton,
            List.length_nil] at hlen ⊢
          omega
        rw [hlist, hidx, set_length_append]
        have := ih L ((min / 65536 + j, c) :: X2)
          ((min / 65536 + j, add_range_closed_container ops min max (some c)
            (min / 65536 + j)) :: T) (((P.length + L.length : Nat) : Int) - 1)
          (((P ++ L ++ (min / 65536 + j, c) :: X2).length : Int) - 1) hsL.1
          (fun e he => ⟨(hk e (List.mem_append_left _ he)).1, hLlt e he⟩)
          (by
            simp only [List.length_append, List.length_cons, List.length_singleton,
              List.length_nil] at hlen ⊢
            omega)
          (by push_cast; omega)
          (by
            simp only [List.length_append, List.length_cons, List.length_singleton,
              List.length_nil] at hlen ⊢
            push_cast
            omega)
        simp only [List.append_assoc] at this ⊢
        rw [this]
        simp
    · -- no entry for this key: a new container is made
      have hne : ∀ e ∈ Cm, e.1 ≠ min / 65536 + j := by
        intro e he heq
        exact hhit ⟨e.2, by rw [← heq]; exact he⟩
      have hlt : ∀ e ∈ Cm, min / 65536 ≤ e.1 ∧ e.1 < min / 65536 + j := by
        intro e he
        have h1 := hk e he
        have h2 := hne e he
        omega
      have hCm := keys_sorted_length_le Cm hs (min / 65536) (min / 65536 + j) hlt
      rcases List.eq_nil_or_concat X with hX | ⟨X2, z, hX⟩
      · subst hX
        simp only [List.length_nil] at hlen
        omega
      · rw [List.concat_eq_append] at hX
        subst hX
        have hmiss : ∀ e, 0 ≤ src → (P ++ Cm ++ (X2 ++ [z]) ++ T)[src.toNat]? = some e →
            e.1 ≠ min / 65536 + j := by
          intro e h0 he
          have hidx : src.toNat < (P ++ Cm).length := by
            rw [List.length_append]
            omega
          rw [List.append_assoc (P ++ Cm), List.getElem?_append_left hidx] at he
          rcases List.mem_append.1 (List.getElem?_mem he) with h | h
          · have := hP e h
            omega
          · exact hne e h
        rw [hdst2, roaring_bitmap_add_range_closed_step_miss ops min max _ _ _ _ hmiss,
          lookup_eq_none_of_keys Cm _ hne]
        have hlist : (P ++ Cm ++ (X2 ++ [z]) ++ T) = (P ++ Cm ++ X2) ++ z :: T := by simp
        have hidx : P.length + j = (P ++ Cm ++ X2).length := by
          simp only [List.length_append, List.length_singleton] at hlen ⊢
          omega
        rw [hlist, hidx, set_length_append]
        have := ih Cm X2
          ((min / 65536 + j, add_range_closed_container ops min max none
            (min / 65536 + j)) :: T) src
          (((P ++ Cm ++ X2).length : Int) - 1) hs hlt
          (by
            simp only [List.length_append, List.length_singleton] at hlen ⊢
            omega)
          hsrc
          (by
            simp only [List.length_append, List.length_singleton] at hlen ⊢
            push_cast
            omega)
        rw [this]
        simp

/-- A sorted directory splits into the entries below `a`, those in `[a, b]`
and those above `b`. -/
theorem sorted_split3 (l : roaring_array_t C) (hs : keys_sorted l) (a b : Nat) :
    ∃ P Cm S, l = P ++ Cm ++ S ∧ (∀ e ∈ P, e.1 < a)
      ∧ (∀ e ∈ Cm, a ≤ e.1 ∧ e.1 ≤ b) ∧ (∀ e ∈ S, b < e.1) := by
  have hR : keys_sorted (l.dropWhile (fun e => decide (e.1 < a))) := by
    unfold keys_sorted at hs ⊢
    exact hs.sublist (List.dropWhile_sublist _)
  refine ⟨l.takeWhile (fun e => decide (e.1 < a)),
    (l.dropWhile (fun e => decide (e.1 < a))).takeWhile (fun e => decide (e.1 < b + 1)),
    (l.dropWhile (fun e => decide (e.1 < a))).dropWhile (fun e => decide (e.1 < b + 1)),
    ?_, ?_, ?_, ?_⟩
  · rw [List.append_assoc, List.takeWhile_append_dropWhile, List.takeWhile_append_dropWhile]
  · intro e he
    exact ((mem_takeWhile_key_iff l hs a e).1 he).2
  · intro e he
    have h1 := (mem_takeWhile_key_iff _ hR (b + 1) e).1 he
    have h2 := (mem_dropWhile_key_iff l hs a e).1 h1.1
    omega
  · intro e he
    have h1 := (mem_dropWhile_key_iff _ hR (b + 1) e).1 he
    omega

theorem countP_eq_zero_of_forall {α : Type} (p : α → Bool) (l : List α)
    (h : ∀ e ∈ l, p e = false) : l.countP p = 0 := by
  rw [List.countP_eq_zero]
  intro e he
  rw [h e he]
  simp

theorem countP_eq_length_of_forall {α : Type} (p : α → Bool) (l : List α)
    (h : ∀ e ∈ l, p e = true) : l.countP p = l.length := by
  rw [List.countP_eq_length]
  exact h

theorem count_greater_split (P Cm S : roaring_array_t C) (b : Nat)
    (hP : ∀ e ∈ P, e.1 ≤ b) (hCm : ∀ e ∈ Cm, e.1 ≤ b) (hS : ∀ e ∈ S, b < e.1) :
    count_greater (P ++ Cm ++ S) (P ++ Cm ++ S).length b = S.length := by
  unfold count_greater
  rw [List.take_length, List.countP_append, List.countP_append,
    countP_eq_zero_of_forall _ P (fun e he => by have := hP e he; simp; omega),
    countP_eq_zero_of_forall _ Cm (fun e he => by have := hCm e he; simp; omega),
    countP_eq_length_of_forall _ S (fun e he => by have := hS e he; simpa using this)]
  omega

theorem count_less_split (P Cm S : roaring_array_t C) (a : Nat)
    (hP : ∀ e ∈ P, e.1 < a) (hCm : ∀ e ∈ Cm, a ≤ e.1) :
    count_less (P ++ Cm ++ S) ((P ++ Cm ++ S).length - S.length) a = P.length := by
  unfold count_less
  have h1 : (P ++ Cm ++ S).length - S.length = (P ++ Cm).length := by
    simp only [List.length_append]
    omega
  rw [h1, List.take_left, List.countP_append,
    countP_eq_length_of_forall _ P (fun e he => by have := hP e he; simpa using this),
    countP_eq_zero_of_forall _ Cm (fun e he => by have := hCm e he; simp; omega)]
  omega

theorem ra_shift_tail_right (A S : roaring_array_t C) (d : Nat) (hd : 0 < d)
    (junk : Nat → Nat × C) :
    ra_shift_tail (A ++ S) S.length (d : Int) junk
      = A ++ (List.range d).map (fun i => junk (A.length + i)) ++ S := by
  unfold ra_shift_tail
  have h1 : (A ++ S).length - S.length = A.length := by
    simp only [List.length_append]
    omega
  simp only [h1, List.take_left, List.drop_left, Int.toNat_ofNat]
  rw [if_pos (by omega)]

theorem ra_shift_tail_left (A X S : roaring_array_t C) (junk : Nat → Nat × C) :
    ra_shift_tail (A ++ X ++ S) S.length (-(X.length : Int)) junk = A ++ S := by
  unfold ra_shift_tail
  have h1 : (A ++ X ++ S).length - S.length = (A ++ X).length := by
    simp only [List.length_append]
    omega
  have h2 : (A ++ X).length - X.length = A.length := by
    simp only [List.length_append]
    omega
  simp only [h1, List.take_left, List.drop_left, neg_neg, Int.toNat_ofNat, h2]
  rw [if_neg (by omega), List.append_assoc A X S, List.take_left]

/-- Closed form of `roaring_bitmap_add_range_closed` on a sorted directory: the
entries below `min_key` and above `max_key` stay, and between them there is one
entry per key of `[min_key, max_key]`. -/
theorem roaring_bitmap_add_range_closed_eq (ops : ContainerOps C) (junk : Nat → Nat × C)
    (ra : roaring_bitmap_t C) (hs : keys_sorted ra.high_low_container) (min max : Nat)
    (hle : min ≤ max) :
    ∃ P Cm S, ra.high_low_container = P ++ Cm ++ S ∧ (∀ e ∈ P, e.1 < min / 65536)
      ∧ (∀ e ∈ Cm, min / 65536 ≤ e.1 ∧ e.1 ≤ max / 65536) ∧ (∀ e ∈ S, max / 65536 < e.1)
      ∧ (roaring_bitmap_add_range_closed ops junk ra min max).high_low_container
        = P ++ (List.range' (min / 65536) (max / 65536 - min / 65536 + 1)).map
            (fun k => (k, add_range_closed_container ops min max (Cm.lookup k) k)) ++ S := by
  obtain ⟨P, Cm, S, hl, hP, hCm, hS⟩ := sorted_split3 ra.high_low_container hs
    (min / 65536) (max / 65536)
  refine ⟨P, Cm, S, hl, hP, hCm, hS, ?_⟩
  have hkeys : min / 65536 ≤ max / 65536 := Nat.div_le_div_right hle
  have hsCm : keys_sorted Cm := by
    rw [hl] at hs
    exact ((keys_sorted_append P Cm).1 ((keys_sorted_append (P ++ Cm) S).1 hs).1).2.1
  have hlen := keys_sorted_length_le Cm hsCm (min / 65536) (max / 65536 + 1)
    (fun e he => by have := hCm e he; omega)
  have hsuf := count_greater_split P Cm S (max / 65536)
    (fun e he => by have := hP e he; omega) (fun e he => (hCm e he).2) hS
  have hpre := count_less_split P Cm S (min / 65536) hP (fun e he => (hCm e he).1)
  unfold roaring_bitmap_add_range_closed
  rw [if_neg (by omega)]
  simp only [hl, hsuf, hpre]
  have hloop := roaring_bitmap_add_range_closed_loop_eq ops min max P hP
    (max / 65536 - min / 65536 + 1) Cm
    ((List.range (max / 65536 - min / 65536 + 1 - Cm.length)).map
      (fun i => junk ((P ++ Cm).length + i))) S
  by_cases hshift : ((max / 65536 : Nat) : Int) - ((min / 65536 : Nat) : Int) + 1
      > ((P ++ Cm ++ S).length : Int) - (P.length : Int) - (S.length : Int)
  · rw [if_pos hshift]
    have hd : ((max / 65536 : Nat) : Int) - ((min / 65536 : Nat) : Int) + 1
        - (((P ++ Cm ++ S).length : Int) - (P.length : Int) - (S.length : Int))
        = ((max / 65536 - min / 65536 + 1 - Cm.length : Nat) : Int) := by
      simp only [List.length_append] at hshift ⊢
      push_cast
      omega
    have hpos : 0 < max / 65536 - min / 65536 + 1 - Cm.length := by
      simp only [List.length_append] at hshift
      push_cast at hshift
      omega
    rw [hd, ra_shift_tail_right (P ++ Cm) S _ hpos junk]
    apply hloop _ _ hsCm (fun e he => by have := hCm e he; omega)
    · simp only [List.length_map, List.length_range]
      omega
    · simp only [List.length_append]
      push_cast
      omega
    · simp only [List.length_append, List.length_map, List.length_range]
      push_cast
      omega
  · rw [if_neg hshift]
    have hz : max / 65536 - min / 65536 + 1 - Cm.length = 0 := by
      simp only [List.length_append] at hshift
      push_cast at hshift
      omega
    rw [hz] at hloop
    simp only [List.range_zero, List.map_nil, List.append_nil] at hloop
    apply hloop _ _ hsCm (fun e he => by have := hCm e he; omega)
    · simp only [List.length_nil]
      omega
    · simp only [List.length_append]
      push_cast
      omega
    · simp only [List.length_append]
      push_cast
      omega

/-- The part of `[min, max]` under the high key `hb`, in 16-bit terms. -/
theorem closed_range_bounds (min max hb lb : Nat) (hle : min ≤ max)
    (h1 : min / 65536 ≤ hb) (h2 : hb ≤ max / 65536) (hlb : lb < 65536) :
    (if min / 65536 = hb then min % 65536 else 0)
        ≤ (if max / 65536 = hb then max % 65536 else 0xffff)
    ∧ (if max / 65536 = hb then max % 65536 else 0xffff) < 65536
    ∧ (((if min / 65536 = hb then min % 65536 else 0) ≤ lb
        ∧ lb ≤ (if max / 65536 = hb then max % 65536 else 0xffff))
      ↔ (min ≤ hb * 65536 + lb ∧ hb * 65536 + lb ≤ max)) := by
  by_cases ha : min / 65536 = hb <;> by_cases hb2 : max / 65536 = hb
  · simp only [if_pos ha, if_pos hb2]
    omega
  · simp only [if_pos ha, if_neg hb2]
    omega
  · simp only [if_neg ha, if_pos hb2]
    omega
  · simp only [if_neg ha, if_neg hb2]
    omega

theorem add_range_closed_container_contains (ops : ContainerOps C)
    (har : container_add_range_spec ops) (hfr : container_from_range_spec ops)
    (min max hb lb : Nat) (hle : min ≤ max) (h1 : min / 65536 ≤ hb)
    (h2 : hb ≤ max / 65536) (hlb : lb < 65536) (o : Option C) :
    ops.container_contains (add_range_closed_container ops min max o hb) lb = true
      ↔ (∃ c, o = some c ∧ ops.container_contains c lb = true)
        ∨ (min ≤ hb * 65536 + lb ∧ hb * 65536 + lb ≤ max) := by
  obtain ⟨b1, b2, b3⟩ := closed_range_bounds min max hb lb hle h1 h2 hlb
  cases o with
  | some c =>
    unfold add_range_closed_container
    simp only
    rw [har c _ _ lb b1 b2 hlb, Bool.or_eq_true, decide_eq_true_eq, b3]
    constructor
    · rintro (h | h)
      · exact Or.inl ⟨c, rfl, h⟩
      · exact Or.inr h
    · rintro (⟨c2, hc2, h⟩ | h)
      · rw [Option.some.inj hc2]
        exact Or.inl h
      · exact Or.inr h
  | none =>
    unfold add_range_closed_container
    simp only
    rw [hfr _ _ 1 lb (by omega) (by omega) (by decide) hlb, decide_eq_true_eq, ← b3]
    constructor
    · rintro ⟨g1, g2, _⟩
      exact Or.inr ⟨g1, by omega⟩
    · rintro (⟨c2, hc2, _⟩ | h)
      · exact absurd hc2 (by simp)
      · exact ⟨h.1, by omega, Nat.mod_one _⟩

theorem lookup_eq_some_mem (l : roaring_array_t C) (k : Nat) (c : C)
    (h : l.lookup k = some c) : (k, c) ∈ l := by
  obtain ⟨l1, l2, hl, _⟩ := List.lookup_eq_some_iff.1 h
  rw [hl]
  simp

theorem lookup_of_mem_sorted (l : roaring_array_t C) (hs : keys_sorted l) (k : Nat) (c : C)
    (h : (k, c) ∈ l) : l.lookup k = some c := by
  cases hl : l.lookup k with
  | none =>
    rw [List.lookup_eq_none_iff] at hl
    have := hl (k, c) h
    simp at this
  | some c2 =>
    rw [mem_unique_of_sorted l hs k c c2 h (lookup_eq_some_mem l k c2 hl)]

/-- Denotation of the rebuilt middle part of the directory. -/
theorem ra_has_add_range_mid (ops : ContainerOps C)
    (har : container_add_range_spec ops) (hfr : container_from_range_spec ops)
    (min max : Nat) (hle : min ≤ max) (Cm : roaring_array_t C) (hs : keys_sorted Cm)
    (hCm : ∀ e ∈ Cm, min / 65536 ≤ e.1 ∧ e.1 ≤ max / 65536) (hb lb : Nat)
    (hlb : lb < 65536) :
    ra_has ops ((List.range' (min / 65536) (max / 65536 - min / 65536 + 1)).map
        (fun k => (k, add_range_closed_container ops min max (Cm.lookup k) k))) hb lb
      ↔ ra_has ops Cm hb lb ∨ (min ≤ hb * 65536 + lb ∧ hb * 65536 + lb ≤ max) := by
  have hkeys : min / 65536 ≤ max / 65536 := Nat.div_le_div_right hle
  constructor
  · rintro ⟨c, hmem, hc⟩
    obtain ⟨k, hk, hkc⟩ := List.mem_map.1 hmem
    have hk2 := List.mem_range'_1.1 hk
    have e1 : k = hb := (Prod.mk.inj hkc).1
    have e2 := (Prod.mk.inj hkc).2
    subst e1
    rw [← e2, add_range_closed_container_contains ops har hfr min max k lb hle hk2.1
      (by omega) hlb] at hc
    rcases hc with ⟨c2, hc2, h⟩ | h
    · exact Or.inl ⟨c2, lookup_eq_some_mem Cm k c2 hc2, h⟩
    · exact Or.inr h
  · intro h
    have hrange : min / 65536 ≤ hb ∧ hb ≤ max / 65536 := by
      rcases h with ⟨c, hmem, _⟩ | h
      · exact hCm _ hmem
      · omega
    refine ⟨add_range_closed_container ops min max (Cm.lookup hb) hb,
      List.mem_map.2 ⟨hb, List.mem_range'_1.2 ⟨hrange.1, by omega⟩, rfl⟩, ?_⟩
    rw [add_range_closed_container_contains ops har hfr min max hb lb hle hrange.1
      hrange.2 hlb]
    rcases h with ⟨c, hmem, hc⟩ | h
    · exact Or.inl ⟨c, lookup_of_mem_sorted Cm hs hb c hmem, hc⟩
    · exact Or.inr h

theorem mem_add_range_mid (ops : ContainerOps C) (min max : Nat) (Cm : roaring_array_t C)
    (e : Nat × C) :
    e ∈ (List.range' (min / 65536) (max / 65536 - min / 65536 + 1)).map
        (fun k => (k, add_range_closed_container ops min max (Cm.lookup k) k))
      ↔ (min / 65536 ≤ e.1 ∧ e.1 < min / 65536 + (max / 65536 - min / 65536 + 1))
        ∧ e.2 = add_range_closed_container ops min max (Cm.lookup e.1) e.1 := by
  rw [List.mem_map]
  constructor
  · rintro ⟨k, hk, rfl⟩
    exact ⟨List.mem_range'_1.1 hk, rfl⟩
  · rintro ⟨hk, h2⟩
    exact ⟨e.1, List.mem_range'_1.2 hk, by rw [← h2]⟩

theorem add_range_closed_valid (ops : ContainerOps C)
    (har : container_add_range_spec ops) (hfr : container_from_range_spec ops)
    (min max : Nat) (hle : min ≤ max) (hmax : max < 2 ^ 32) (P Cm S : roaring_array_t C)
    (hv : ra_valid ops (P ++ Cm ++ S)) (hP : ∀ e ∈ P, e.1 < min / 65536)
    (hS : ∀ e ∈ S, max / 65536 < e.1) :
    ra_valid ops (P ++ (List.range' (min / 65536) (max / 65536 - min / 65536 + 1)).map
        (fun k => (k, add_range_closed_container ops min max (Cm.lookup k) k)) ++ S) := by
  have hkeys : min / 65536 ≤ max / 65536 := Nat.div_le_div_right hle
  have hs := hv.1
  rw [keys_sorted_append, keys_sorted_append] at hs
  obtain ⟨⟨hsP, _, _⟩, hsS, _⟩ := hs
  refine ⟨?_, ?_, ?_⟩
  · rw [keys_sorted_append, keys_sorted_append]
    refine ⟨⟨hsP, ?_, ?_⟩, hsS, ?_⟩
    · unfold keys_sorted
      rw [List.pairwise_map]
      exact List.pairwise_lt_range' _ _
    · intro a ha b hb
      have h1 := hP a ha
      have h2 := ((mem_add_range_mid ops min max Cm b).1 hb).1
      omega
    · intro a ha b hb
      have h3 := hS b hb
      rcases List.mem_append.1 ha with h | h
      · have h1 := hP a h
        omega
      · have h2 := ((mem_add_range_mid ops min max Cm a).1 h).1
        omega
  · intro e he
    rcases List.mem_append.1 he with h | h
    · rcases List.mem_append.1 h with h | h
      · exact hv.2.1 e (by simp [h])
      · have h2 := ((mem_add_range_mid ops min max Cm e).1 h).1
        simp only [Nat.reducePow] at hmax
        omega
    · exact hv.2.1 e (by simp [h])
  · intro e he
    rcases List.mem_append.1 he with h | h
    · rcases List.mem_append.1 h with h | h
      · exact hv.2.2 e (by simp [h])
      · obtain ⟨h2, h3⟩ := (mem_add_range_mid ops min max Cm e).1 h
        have hlo : (if min / 65536 = e.1 then min % 65536 else 0) < 65536 := by
          split <;> omega
        obtain ⟨b1, _, b3⟩ := closed_range_bounds min max e.1
          (if min / 65536 = e.1 then min % 65536 else 0) hle h2.1 (by omega) hlo
        refine ⟨_, hlo, ?_⟩
        rw [h3, add_range_closed_container_contains ops har hfr min max e.1 _ hle h2.1
          (by omega) hlo]
        exact Or.inr (b3.1 ⟨Nat.le_refl _, b1⟩)
    · exact hv.2.2 e (by simp [h])

/-! ## Removal of a closed range -/

theorem roaring_bitmap_remove_range_closed_loop_step (ops : ContainerOps C) (min max : Nat)
    (ra : roaring_array_t C) (src dst : Nat) (e : Nat × C) (he : ra[src]? = some e) :
    roaring_bitmap_remove_range_closed_loop ops min max ra src dst
      = if e.1 ≤ max / 65536 then
          match ops.container_remove_range e.2 (if min / 65536 = e.1 then min % 65536 else 0)
            (if max / 65536 = e.1 then max % 65536 else 0xffff) with
          | some c =>
            roaring_bitmap_remove_range_closed_loop ops min max (ra.set dst (e.1, c))
              (src + 1) (dst + 1)
          | none => roaring_bitmap_remove_range_closed_loop ops min max ra (src + 1) dst
        else (ra, src, dst) := by
  obtain ⟨h, hget⟩ := List.getElem?_eq_some.1 he
  rw [roaring_bitmap_remove_range_closed_loop, dif_pos h]
  simp only [hget, ra_replace_key_and_container_at_index]

theorem roaring_bitmap_remove_range_closed_loop_end (ops : ContainerOps C) (min max : Nat)
    (ra : roaring_array_t C) (src dst : Nat) (h : ra.length ≤ src) :
    roaring_bitmap_remove_range_closed_loop ops min max ra src dst = (ra, src, dst) := by
  rw [roaring_bitmap_remove_range_closed_loop, dif_neg (by omega)]

/-- The `while` loop of `roaring_bitmap_remove_range_closed`: with the kept
entries `D`, the stale slots `X` and the unread entries `Rest`, the entries
before `dst` and from `src` on are, at the exit, `D`, what is left of the
leading entries of `Rest` with key at most `max_key`, and the other entries of
`Rest`. -/
theorem roaring_bitmap_remove_range_closed_loop_eq (ops : ContainerOps C) (min max : Nat)
    (Rest : roaring_array_t C) :
    ∀ (D X : roaring_array_t C),
      (roaring_bitmap_remove_range_closed_loop ops min max (D ++ X ++ Rest)
          (D.length + X.length) D.length).2.2
        ≤ (roaring_bitmap_remove_range_closed_loop ops min max (D ++ X ++ Rest)
          (D.length + X.length) D.length).2.1
      ∧ (roaring_bitmap_remove_range_closed_loop ops min max (D ++ X ++ Rest)
          (D.length + X.length) D.length).2.1
        ≤ (roaring_bitmap_remove_range_closed_loop ops min max (D ++ X ++ Rest)
          (D.length + X.length) D.length).1.length
      ∧ (roaring_bitmap_remove_range_closed_loop ops min max (D ++ X ++ Rest)
          (D.length + X.length) D.length).1.take
            (roaring_bitmap_remove_range_closed_loop ops min max (D ++ X ++ Rest)
              (D.length + X.length) D.length).2.2
        ++ (roaring_bitmap_remove_range_closed_loop ops min max (D ++ X ++ Rest)
          (D.length + X.length) D.length).1.drop
            (roaring_bitmap_remove_range_closed_loop ops min max (D ++ X ++ Rest)
              (D.length + X.length) D.length).2.1
        = D ++ (Rest.takeWhile (fun e => decide (e.1 ≤ max / 65536))).filterMap
              (remove_range_closed_entry ops min max)
            ++ Rest.dropWhile (fun e => decide (e.1 ≤ max / 65536)) := by
  induction Rest with
  | nil =>
    intro D X
    rw [roaring_bitmap_remove_range_closed_loop_end ops min max _ _ _ (by simp)]
    simp
  | cons e t ih =>
    intro D X
    have hread : (D ++ X ++ e :: t)[D.length + X.length]? = some e := by
      have := getElem?_length_append (D ++ X) t e
      simpa using this
    rw [roaring_bitmap_remove_range_closed_loop_step ops min max _ _ _ e hread]
    by_cases hk : e.1 ≤ max / 65536
    · rw [if_pos hk, List.takeWhile_cons_of_pos (by simpa using hk),
        List.dropWhile_cons_of_pos (by simpa using hk), List.filterMap_cons]
      cases hr : ops.container_remove_range e.2
          (if min / 65536 = e.1 then min % 65536 else 0)
          (if max / 65536 = e.1 then max % 65536 else 0xffff) with
      | none =>
        have hf : remove_range_closed_entry ops min max e = none := by
          simp [remove_range_closed_entry, hr]
        simp only [hf]
        have := ih D (X ++ [e])
        simp only [List.length_append, List.length_singleton, List.append_assoc,
          List.singleton_append, ← Nat.add_assoc] at this
        simp only [List.append_assoc]
        exact this
      | some c =>
        have hf : remove_range_closed_entry ops min max e = some (e.1, c) := by
          simp [remove_range_closed_entry, hr]
        simp only [hf]
        cases X with
        | nil =>
          have hset : (D ++ [] ++ e :: t).set D.length (e.1, c) = D ++ (e.1, c) :: t := by
            rw [List.append_nil]
            exact set_length_append D t e (e.1, c)
          rw [hset]
          have := ih (D ++ [(e.1, c)]) []
          simp only [List.length_append, List.length_singleton, List.length_nil,
            List.append_assoc, List.singleton_append, List.nil_append, Nat.add_zero] at this
          simp only [List.length_nil, Nat.add_zero]
          simp only [List.append_assoc, List.cons_append] at this ⊢
          exact this
        | cons x xs =>
          have hset : (D ++ x :: xs ++ e :: t).set D.length (e.1, c)
              = D ++ (e.1, c) :: (xs ++ e :: t) := by
            rw [List.append_assoc, List.cons_append]
            exact set_length_append D (xs ++ e :: t) x (e.1, c)
          rw [hset]
          have := ih (D ++ [(e.1, c)]) (xs ++ [e])
          simp only [List.length_append, List.length_singleton, List.append_assoc,
            List.singleton_append, List.cons_append, List.nil_append] at this
          simp only [List.length_cons]
          rw [show D.length + (xs.length + 1) + 1 = D.length + 1 + (xs.length + 1) by omega]
          simp only [List.append_assoc, List.cons_append] at this ⊢
          exact this
    · rw [if_neg hk, List.takeWhile_cons_of_neg (by simpa using hk),
        List.dropWhile_cons_of_neg (by simpa using hk)]
      simp only [List.filterMap_nil, List.append_nil]
      refine ⟨by omega, by simp, ?_⟩
      rw [List.append_assoc, List.take_left, ← List.append_assoc,
        show D.length + X.length = (D ++ X).length by simp, List.drop_left]

theorem count_less_full (P Cm S : roaring_array_t C) (a : Nat)
    (hP : ∀ e ∈ P, e.1 < a) (hCm : ∀ e ∈ Cm, a ≤ e.1) (hS : ∀ e ∈ S, a ≤ e.1) :
    count_less (P ++ Cm ++ S) (P ++ Cm ++ S).length a = P.length := by
  unfold count_less
  rw [List.take_length, List.countP_append, List.countP_append,
    countP_eq_length_of_forall _ P (fun e he => by have := hP e he; simpa using this),
    countP_eq_zero_of_forall _ Cm (fun e he => by have := hCm e he; simp; omega),
    countP_eq_zero_of_forall _ S (fun e he => by have := hS e he; simp; omega)]
  omega

theorem takeWhile_append_all {α : Type} (p : α → Bool) (A B : List α)
    (hA : ∀ a ∈ A, p a = true) (hB : ∀ b ∈ B, p b = false) :
    (A ++ B).takeWhile p = A ∧ (A ++ B).dropWhile p = B := by
  induction A with
  | nil =>
    cases B with
    | nil => simp
    | cons b t =>
      have := hB b (List.mem_cons_self _ _)
      simp [List.takeWhile_cons, List.dropWhile_cons, this]
  | cons a t ih =>
    have h1 := hA a (List.mem_cons_self _ _)
    have h2 := ih (fun x hx => hA x (List.mem_cons_of_mem _ hx))
    simp [List.takeWhile_cons, List.dropWhile_cons, h1, h2.1, h2.2]

theorem ra_shift_tail_neg (l : roaring_array_t C) (src dst : Nat) (h1 : dst < src)
    (h2 : src ≤ l.length) (junk : Nat → Nat × C) :
    ra_shift_tail l (l.length - src) ((dst : Int) - (src : Int)) junk
      = l.take dst ++ l.drop src := by
  unfold ra_shift_tail
  simp only
  rw [if_neg (by omega)]
  have e1 : l.length - (l.length - src) = src := by omega
  have e2 : (-((dst : Int) - (src : Int))).toNat = src - dst := by omega
  rw [e1, e2, show src - (src - dst) = dst by omega]

/-- Closed form of `roaring_bitmap_remove_range_closed` on a sorted directory:
the entries below `min_key` and above `max_key` stay, and each entry between
them is kept with its range removed unless it is emptied. -/
theorem roaring_bitmap_remove_range_closed_eq (ops : ContainerOps C) (junk : Nat → Nat × C)
    (ra : roaring_bitmap_t C) (hs : keys_sorted ra.high_low_container) (min max : Nat)
    (hle : min ≤ max) :
    ∃ P Cm S, ra.high_low_container = P ++ Cm ++ S ∧ (∀ e ∈ P, e.1 < min / 65536)
      ∧ (∀ e ∈ Cm, min / 65536 ≤ e.1 ∧ e.1 ≤ max / 65536) ∧ (∀ e ∈ S, max / 65536 < e.1)
      ∧ (roaring_bitmap_remove_range_closed ops junk ra min max).high_low_container
        = P ++ Cm.filterMap (remove_range_closed_entry ops min max) ++ S := by
  obtain ⟨P, Cm, S, hl, hP, hCm, hS⟩ := sorted_split3 ra.high_low_container hs
    (min / 65536) (max / 65536)
  refine ⟨P, Cm, S, hl, hP, hCm, hS, ?_⟩
  have hkeys : min / 65536 ≤ max / 65536 := Nat.div_le_div_right hle
  have hpre := count_less_full P Cm S (min / 65536) hP (fun e he => (hCm e he).1)
    (fun e he => by have := hS e he; omega)
  obtain ⟨t1, t2⟩ := takeWhile_append_all (fun e : Nat × C => decide (e.1 ≤ max / 65536)) Cm S
    (fun e he => by have := (hCm e he).2; simpa using this)
    (fun e he => by have := hS e he; simp; omega)
  have hloop := roaring_bitmap_remove_range_closed_loop_eq ops min max (Cm ++ S) P []
  rw [t1, t2] at hloop
  simp only [List.append_nil, List.length_nil, Nat.add_zero] at hloop
  rw [← List.append_assoc] at hloop
  unfold roaring_bitmap_remove_range_closed
  rw [if_neg (by omega)]
  simp only [hl, hpre]
  obtain ⟨g1, g2, g3⟩ := hloop
  by_cases hsh : (roaring_bitmap_remove_range_closed_loop ops min max (P ++ Cm ++ S)
      P.length P.length).2.1
      > (roaring_bitmap_remove_range_closed_loop ops min max (P ++ Cm ++ S)
      P.length P.length).2.2
  · rw [if_pos hsh]
    simp only
    rw [ra_shift_tail_neg _ _ _ hsh g2 junk, g3]
  · rw [if_neg hsh]
    simp only
    have heq : (roaring_bitmap_remove_range_closed_loop ops min max (P ++ Cm ++ S)
        P.length P.length).2.1
        = (roaring_bitmap_remove_range_closed_loop ops min max (P ++ Cm ++ S)
        P.length P.length).2.2 := by omega
    rw [heq, List.take_append_drop] at g3
    exact g3

theorem mem_filterMap_remove_range (ops : ContainerOps C) (min max : Nat)
    (Cm : roaring_array_t C) (x : Nat × C) :
    x ∈ Cm.filterMap (remove_range_closed_entry ops min max)
      ↔ ∃ c, (x.1, c) ∈ Cm
        ∧ ops.container_remove_range c (if min / 65536 = x.1 then min % 65536 else 0)
            (if max / 65536 = x.1 then max % 65536 else 0xffff) = some x.2 := by
  rw [List.mem_filterMap]
  constructor
  · rintro ⟨e, he, hf⟩
    unfold remove_range_closed_entry at hf
    rw [Option.map_eq_some'] at hf
    obtain ⟨c2, hc2, hx⟩ := hf
    rw [← hx]
    exact ⟨e.2, he, hc2⟩
  · rintro ⟨c, hc, hr⟩
    refine ⟨(x.1, c), hc, ?_⟩
    unfold remove_range_closed_entry
    simp only
    rw [hr]
    rfl

theorem filterMap_remove_range_keys_sublist (ops : ContainerOps C) (min max : Nat)
    (Cm : roaring_array_t C) :
    ((Cm.filterMap (remove_range_closed_entry ops min max)).map Prod.fst).Sublist
      (Cm.map Prod.fst) := by
  induction Cm with
  | nil => simp
  | cons e t ih =>
    rw [List.filterMap_cons]
    cases hf : remove_range_closed_entry ops min max e with
    | none =>
      simp only [List.map_cons]
      exact List.Sublist.cons _ ih
    | some y =>
      have hy : y.1 = e.1 := by
        unfold remove_range_closed_entry at hf
        rw [Option.map_eq_some'] at hf
        obtain ⟨c2, _, hx⟩ := hf
        rw [← hx]
      simp only [List.map_cons, hy]
      exact List.Sublist.cons₂ _ ih

/-- Denotation of the filtered middle part of the directory. -/
theorem ra_has_remove_range_mid (ops : ContainerOps C)
    (hrr : container_remove_range_spec ops) (min max : Nat) (hle : min ≤ max)
    (Cm : roaring_array_t C)
    (hCm : ∀ e ∈ Cm, min / 65536 ≤ e.1 ∧ e.1 ≤ max / 65536) (hb lb : Nat)
    (hlb : lb < 65536) :
    ra_has ops (Cm.filterMap (remove_range_closed_entry ops min max)) hb lb
      ↔ ra_has ops Cm hb lb ∧ ¬ (min ≤ hb * 65536 + lb ∧ hb * 65536 + lb ≤ max) := by
  constructor
  · rintro ⟨c2, hmem, hc⟩
    obtain ⟨c, hc1, hr⟩ := (mem_filterMap_remove_range ops min max Cm (hb, c2)).1 hmem
    simp only at hc1 hr
    have hk := hCm _ hc1
    obtain ⟨b1, b2, b3⟩ := closed_range_bounds min max hb lb hle hk.1 hk.2 hlb
    have hspec := (hrr c _ _ b1 b2).2 c2 hr
    rw [hspec.2 lb hlb, Bool.and_eq_true, Bool.not_eq_true', decide_eq_false_iff_not, b3] at hc
    exact ⟨⟨c, hc1, hc.1⟩, hc.2⟩
  · rintro ⟨⟨c, hc1, hc⟩, hn⟩
    have hk := hCm _ hc1
    obtain ⟨b1, b2, b3⟩ := closed_range_bounds min max hb lb hle hk.1 hk.2 hlb
    cases hr : ops.container_remove_range c (if min / 65536 = hb then min % 65536 else 0)
        (if max / 65536 = hb then max % 65536 else 0xffff) with
    | none =>
      exact absurd (b3.1 ((hrr c _ _ b1 b2).1 hr lb hlb hc)) hn
    | some c2 =>
      have hspec := (hrr c _ _ b1 b2).2 c2 hr
      refine ⟨c2, (mem_filterMap_remove_range ops min max Cm (hb, c2)).2 ⟨c, hc1, hr⟩, ?_⟩
      rw [hspec.2 lb hlb, Bool.and_eq_true, Bool.not_eq_true', decide_eq_false_iff_not, b3]
      exact ⟨hc, hn⟩

/-- Effect of `roaring_bitmap_add_range_closed` on validity and membership. -/
theorem roaring_bitmap_add_range_closed_spec (ops : ContainerOps C)
    (har : container_add_range_spec ops) (hfr : container_from_range_spec ops)
    (junk : Nat → Nat × C) (ra : roaring_bitmap_t C) (hra : valid ops ra)
    (min max : Nat) (hmax : max < 2 ^ 32) (hle : min ≤ max) :
    valid ops (roaring_bitmap_add_range_closed ops junk ra min max)
    ∧ ∀ v, v < 2 ^ 32 →
        (roaring_bitmap_contains ops (roaring_bitmap_add_range_closed ops junk ra min max) v
            = true
          ↔ roaring_bitmap_contains ops ra v = true ∨ (min ≤ v ∧ v ≤ max)) := by
  obtain ⟨P, Cm, S, hl, hP, hCm, hS, hres⟩ :=
    roaring_bitmap_add_range_closed_eq ops junk ra hra.1 min max hle
  have hv : ra_valid ops (P ++ Cm ++ S) := by
    rw [← hl]
    exact hra
  have hsCm : keys_sorted Cm :=
    ((keys_sorted_append P Cm).1 ((keys_sorted_append (P ++ Cm) S).1 hv.1).1).2.1
  have hval : valid ops (roaring_bitmap_add_range_closed ops junk ra min max) := by
    unfold valid
    rw [hres]
    exact add_range_closed_valid ops har hfr min max hle hmax P Cm S hv hP hS
  refine ⟨hval, ?_⟩
  intro v hv2
  have hlb : v % 65536 < 65536 := Nat.mod_lt _ (by decide)
  have hdm : v / 65536 * 65536 + v % 65536 = v := by omega
  rw [roaring_bitmap_contains_eq_ra_contains ops _ hval.1 v hv2,
    roaring_bitmap_contains_eq_ra_contains ops _ hra.1 v hv2, ra_contains_iff,
    ra_contains_iff, hres, hl]
  simp only [ra_has_append]
  rw [ra_has_add_range_mid ops har hfr min max hle Cm hsCm hCm _ _ hlb, hdm]
  constructor
  · rintro ((h | h | h) | h)
    · exact Or.inl (Or.inl (Or.inl h))
    · exact Or.inl (Or.inl (Or.inr h))
    · exact Or.inr h
    · exact Or.inl (Or.inr h)
  · rintro (((h | h) | h) | h)
    · exact Or.inl (Or.inl h)
    · exact Or.inl (Or.inr (Or.inl h))
    · exact Or.inr h
    · exact Or.inl (Or.inr (Or.inr h))

/-- Effect of `roaring_bitmap_remove_range_closed` on validity and membership. -/
theorem roaring_bitmap_remove_range_closed_spec (ops : ContainerOps C)
    (hrr : container_remove_range_spec ops)
    (junk : Nat → Nat × C) (ra : roaring_bitmap_t C) (hra : valid ops ra)
    (min max : Nat) (hle : min ≤ max) :
    valid ops (roaring_bitmap_remove_range_closed ops junk ra min max)
    ∧ ∀ v, v < 2 ^ 32 →
        (roaring_bitmap_contains ops (roaring_bitmap_remove_range_closed ops junk ra min max) v
            = true
          ↔ roaring_bitmap_contains ops ra v = true ∧ ¬ (min ≤ v ∧ v ≤ max)) := by
  obtain ⟨P, Cm, S, hl, hP, hCm, hS, hres⟩ :=
    roaring_bitmap_remove_range_closed_eq ops junk ra hra.1 min max hle
  have hv : ra_valid ops (P ++ Cm ++ S) := by
    rw [← hl]
    exact hra
  have hval : valid ops (roaring_bitmap_remove_range_closed ops junk ra min max) := by
    unfold valid
    rw [hres]
    refine ⟨?_, ?_, ?_⟩
    · apply keys_sorted_of_sublist _ (P ++ Cm ++ S) _ hv.1
      simp only [List.map_append]
      exact ((List.Sublist.refl _).append
        (filterMap_remove_range_keys_sublist ops min max Cm)).append (List.Sublist.refl _)
    · intro e he
      rcases List.mem_append.1 he with h | h
      · rcases List.mem_append.1 h with h | h
        · exact hv.2.1 e (by simp [h])
        · obtain ⟨c, hc, _⟩ := (mem_filterMap_remove_range ops min max Cm e).1 h
          exact hv.2.1 (e.1, c) (by simp [hc])
      · exact hv.2.1 e (by simp [h])
    · intro e he
      rcases List.mem_append.1 he with h | h
      · rcases List.mem_append.1 h with h | h
        · exact hv.2.2 e (by simp [h])
        · obtain ⟨c, hc, hr⟩ := (mem_filterMap_remove_range ops min max Cm e).1 h
          have hk := hCm _ hc
          obtain ⟨b1, b2, _⟩ := closed_range_bounds min max e.1 0 hle hk.1 hk.2 (by decide)
          exact ((hrr c _ _ b1 b2).2 _ hr).1
      · exact hv.2.2 e (by simp [h])
  refine ⟨hval, ?_⟩
  intro v hv2
  have hlb : v % 65536 < 65536 := Nat.mod_lt _ (by decide)
  have hdm : v / 65536 * 65536 + v % 65536 = v := by omega
  rw [roaring_bitmap_contains_eq_ra_contains ops _ hval.1 v hv2,
    roaring_bitmap_contains_eq_ra_contains ops _ hra.1 v hv2, ra_contains_iff,
    ra_contains_iff, hres, hl]
  simp only [ra_has_append]
  rw [ra_has_remove_range_mid ops hrr min max hle Cm hCm _ _ hlb, hdm]
  constructor
  · rintro ((h | h) | h)
    · refine ⟨Or.inl (Or.inl h), ?_⟩
      obtain ⟨c, hc, _⟩ := h
      have := hP _ hc
      simp only at this
      omega
    · exact ⟨Or.inl (Or.inr h.1), h.2⟩
    · refine ⟨Or.inr h, ?_⟩
      obtain ⟨c, hc, _⟩ := h
      have := hS _ hc
      simp only at this
      omega
  · rintro ⟨(h | h) | h, hn⟩
    · exact Or.inl (Or.inl h)
    · exact Or.inl (Or.inr ⟨h, hn⟩)
    · exact Or.inr h

theorem length_filterMap_add_countP_none {α β : Type} (f : α → Option β) (l : List α) :
    (l.filterMap f).length + l.countP (fun e => (f e).isNone) = l.length := by
  induction l with
  | nil => simp
  | cons a t ih =>
    rw [List.filterMap_cons, List.countP_cons]
    cases hf : f a with
    | none =>
      simp only [Option.isNone_none, if_true, List.length_cons]
      omega
    | some b =>
      simp only [Option.isNone_some, Bool.false_eq_true, if_false, List.length_cons]
      omega

theorem valid_create (ops : ContainerOps C) :
    valid ops (roaring_bitmap_create : roaring_bitmap_t C) := by
  refine ⟨List.Pairwise.nil, ?_, ?_⟩ <;> intro e he <;> simp [roaring_bitmap_create] at he

theorem roaring_bitmap_contains_create (ops : ContainerOps C) (v : Nat) :
    roaring_bitmap_contains ops (roaring_bitmap_create : roaring_bitmap_t C) v = false := by
  rw [Bool.eq_false_iff]
  intro h
  rw [roaring_bitmap_contains_iff ops _ (valid_create ops).1] at h
  obtain ⟨c, hc, _⟩ := h
  simp [roaring_bitmap_create] at hc

/-! ## Construction from a range: the result when the counter does not wrap -/

theorem mod_sub_shift (s m a v : Nat) (h1 : m ≤ a) (h2 : a ≤ v) (h3 : (a - m) % s = 0) :
    (v - m) % s = 0 ↔ (v - a) % s = 0 := by
  have e : v - m = (v - a) + (a - m) := by omega
  obtain ⟨k, hk⟩ := Nat.dvd_of_mod_eq_zero h3
  rw [e, hk, Nat.add_mul_mod_self_left]

theorem no_multiple_in_gap (s d x : Nat) (hs : 0 < s) (hx : x % s = 0) (hd : d ≤ x)
    (hlt : x < (d + s - 1) - (d + s - 1) % s) : False := by
  obtain ⟨t, ht⟩ := Nat.dvd_of_mod_eq_zero hx
  have h1 : s * ((d + s - 1) / s) + (d + s - 1) % s = d + s - 1 := Nat.div_add_mod _ _
  have h2 : (d + s - 1) / s ≤ t := by
    apply Nat.le_of_lt_succ
    rw [Nat.div_lt_iff_lt_mul hs, Nat.succ_mul, Nat.mul_comm]
    omega
  have h3 : s * ((d + s - 1) / s) ≤ s * t := Nat.mul_le_mul_left s h2
  omega

theorem gap_advance_bounds (s d : Nat) (hs : 0 < s) (hd : 0 < d) :
    d ≤ (d + s - 1) - (d + s - 1) % s ∧ (d + s - 1) - (d + s - 1) % s < d + s
    ∧ ((d + s - 1) - (d + s - 1) % s) % s = 0 := by
  have h1 : s * ((d + s - 1) / s) + (d + s - 1) % s = d + s - 1 := Nat.div_add_mod _ _
  have h2 : (d + s - 1) % s < s := Nat.mod_lt _ hs
  refine ⟨by omega, by omega, ?_⟩
  have : (d + s - 1) - (d + s - 1) % s = s * ((d + s - 1) / s) := by omega
  rw [this, Nat.mul_mod_right]

theorem in_progression_extend (m0 s a d B v : Nat) (hs : 0 < s) (h1 : m0 ≤ a)
    (h2 : (a - m0) % s = 0) (hB1 : a + d ≤ B)
    (hB2 : B ≤ a + ((d + s - 1) - (d + s - 1) % s)) :
    in_progression m0 s B v ↔ in_progression m0 s (a + d) v := by
  unfold in_progression
  constructor
  · rintro ⟨g1, g2, g3⟩
    refine ⟨g1, ?_, g3⟩
    by_contra hge
    have hav : a ≤ v := by omega
    have hx := (mod_sub_shift s m0 a v h1 hav h2).1 g3
    exact no_multiple_in_gap s d (v - a) hs hx (by omega) (by omega)
  · rintro ⟨g1, g2, g3⟩
    exact ⟨g1, by omega, g3⟩

/-- One pass of the `do ... while` loop of `roaring_bitmap_from_range` while
`min_tmp` is below `max ≤ 2^32`: none of the 32-bit and 64-bit operations
wraps. -/
theorem roaring_bitmap_from_range_do_unfold (ops : ContainerOps C) (M s fuel : Nat)
    (answer : roaring_bitmap_t C) (min_tmp : Nat) (h : min_tmp < M) (hM : M ≤ 2 ^ 32)
    (hs : 0 < s) (hs2 : s < 65536) :
    roaring_bitmap_from_range_do ops M s (fuel + 1) answer min_tmp
      = if min_tmp + ((minimum_uint64 (M - min_tmp / 65536 * 65536) 65536
              - min_tmp % 65536 + s - 1)
            - (minimum_uint64 (M - min_tmp / 65536 * 65536) 65536
              - min_tmp % 65536 + s - 1) % s) < M then
          roaring_bitmap_from_range_do ops M s fuel
            ⟨answer.high_low_container ++ [(min_tmp / 65536,
              ops.container_from_range (min_tmp % 65536)
                (minimum_uint64 (M - min_tmp / 65536 * 65536) 65536) s)]⟩
            (min_tmp + ((minimum_uint64 (M - min_tmp / 65536 * 65536) 65536
              - min_tmp % 65536 + s - 1)
            - (minimum_uint64 (M - min_tmp / 65536 * 65536) 65536
              - min_tmp % 65536 + s - 1) % s))
        else
          some ⟨answer.high_low_container ++ [(min_tmp / 65536,
              ops.container_from_range (min_tmp % 65536)
                (minimum_uint64 (M - min_tmp / 65536 * 65536) 65536) s)]⟩ := by
  simp only [Nat.reducePow] at hM
  have e1 : min_tmp % 2 ^ 32 / 65536 = min_tmp / 65536 := by
    simp only [Nat.reducePow]
    omega
  have e2 : (min_tmp / 65536 * 65536) % 2 ^ 32 = min_tmp / 65536 * 65536 := by
    simp only [Nat.reducePow]
    omega
  have e3 : (M + (2 ^ 64 - min_tmp / 65536 * 65536)) % 2 ^ 64
      = M - min_tmp / 65536 * 65536 := by
    simp only [Nat.reducePow]
    omega
  have hc1 : minimum_uint64 (M - min_tmp / 65536 * 65536) 65536 ≤ 65536 := by
    unfold minimum_uint64
    split <;> omega
  have hc2 : min_tmp % 65536 < minimum_uint64 (M - min_tmp / 65536 * 65536) 65536 := by
    unfold minimum_uint64
    split <;> omega
  have e4 : minimum_uint64 (M - min_tmp / 65536 * 65536) 65536 % 2 ^ 32
      = minimum_uint64 (M - min_tmp / 65536 * 65536) 65536 := by
    simp only [Nat.reducePow]
    omega
  have e5 : s % 65536 = s := Nat.mod_eq_of_lt hs2
  have e6 : (minimum_uint64 (M - min_tmp / 65536 * 65536) 65536 + (2 ^ 32 - min_tmp % 65536)
        + s + (2 ^ 32 - 1)) % 2 ^ 32
      = minimum_uint64 (M - min_tmp / 65536 * 65536) 65536 - min_tmp % 65536 + s - 1 := by
    simp only [Nat.reducePow]
    omega
  have hmod : (minimum_uint64 (M - min_tmp / 65536 * 65536) 65536 - min_tmp % 65536 + s - 1)
      % s < s := Nat.mod_lt _ hs
  have e7 : (min_tmp + ((minimum_uint64 (M - min_tmp / 65536 * 65536) 65536
              - min_tmp % 65536 + s - 1)
            - (minimum_uint64 (M - min_tmp / 65536 * 65536) 65536
              - min_tmp % 65536 + s - 1) % s)) % 2 ^ 64
      = min_tmp + ((minimum_uint64 (M - min_tmp / 65536 * 65536) 65536
              - min_tmp % 65536 + s - 1)
            - (minimum_uint64 (M - min_tmp / 65536 * 65536) 65536
              - min_tmp % 65536 + s - 1) % s) := by
    simp only [Nat.reducePow]
    omega
  rw [roaring_bitmap_from_range_do]
  simp only [e1, e2, e3, e4, e5, e6, e7, ra_append]

/-- The `do ... while` loop of `roaring_bitmap_from_range` exits, given enough
fuel, and completes the progression: started with the values of the progression
below `min_tmp`, it returns those below `M`. -/
theorem roaring_bitmap_from_range_do_spec (ops : ContainerOps C)
    (hfr : container_from_range_spec ops) (m0 M s : Nat) (hs : 0 < s) (hs2 : s < 65536)
    (hM : M ≤ 2 ^ 32) :
    ∀ (fuel : Nat) (answer : roaring_bitmap_t C) (min_tmp : Nat),
      m0 ≤ min_tmp → min_tmp < M → (min_tmp - m0) % s = 0 →
      ra_valid ops answer.high_low_container →
      (∀ e ∈ answer.high_low_container, e.1 < min_tmp / 65536) →
      (∀ hb lb, lb < 65536 →
        (ra_has ops answer.high_low_container hb lb
          ↔ in_progression m0 s min_tmp (hb * 65536 + lb))) →
      65536 ≤ fuel + min_tmp / 65536 →
      ∃ b, roaring_bitmap_from_range_do ops M s fuel answer min_tmp = some b
        ∧ ra_valid ops b.high_low_container
        ∧ ∀ hb lb, lb < 65536 →
          (ra_has ops b.high_low_container hb lb
            ↔ in_progression m0 s M (hb * 65536 + lb)) := by
  intro fuel
  induction fuel with
  | zero =>
    intro answer min_tmp _ h2 _ _ _ _ hfuel
    simp only [Nat.reducePow] at hM
    omega
  | succ n ih =>
    intro answer min_tmp h1 h2 h3 hval hkeys hmem hfuel
    rw [roaring_bitmap_from_range_do_unfold ops M s n answer min_tmp h2 hM hs hs2]
    simp only [Nat.reducePow] at hM
    obtain ⟨cmax, hcmax⟩ : ∃ cmax, cmax = minimum_uint64 (M - min_tmp / 65536 * 65536) 65536 :=
      ⟨_, rfl⟩
    rw [← hcmax]
    have hc1 : cmax ≤ 65536 := by
      rw [hcmax]
      unfold minimum_uint64
      split <;> omega
    have hc2 : min_tmp % 65536 < cmax := by
      rw [hcmax]
      unfold minimum_uint64
      split <;> omega
    have hc3 : min_tmp / 65536 * 65536 + cmax ≤ M := by
      rw [hcmax]
      unfold minimum_uint64
      split <;> omega
    have hc4 : cmax = 65536 ∨ min_tmp / 65536 * 65536 + cmax = M := by
      rw [hcmax]
      unfold minimum_uint64
      split <;> omega
    obtain ⟨a1, a2, a3⟩ := gap_advance_bounds s (cmax - min_tmp % 65536) hs (by omega)
    obtain ⟨adv, hadv⟩ : ∃ adv, adv = (cmax - min_tmp % 65536 + s - 1)
        - (cmax - min_tmp % 65536 + s - 1) % s := ⟨_, rfl⟩
    rw [← hadv] at a1 a2 a3 ⊢
    have hsplit : min_tmp + (cmax - min_tmp % 65536) = min_tmp / 65536 * 65536 + cmax := by
      omega
    -- the directory after this pass
    have hval2 : ra_valid ops (answer.high_low_container ++
        [(min_tmp / 65536, ops.container_from_range (min_tmp % 65536) cmax s)]) := by
      refine ⟨?_, ?_, ?_⟩
      · rw [keys_sorted_append]
        refine ⟨hval.1, by simp [keys_sorted], ?_⟩
        intro a ha b hb
        rw [List.mem_singleton] at hb
        rw [hb]
        exact hkeys a ha
      · intro e he
        rcases List.mem_append.1 he with h | h
        · exact hval.2.1 e h
        · rw [List.mem_singleton] at h
          rw [h]
          simp only
          omega
      · intro e he
        rcases List.mem_append.1 he with h | h
        · exact hval.2.2 e h
        · rw [List.mem_singleton] at h
          rw [h]
          refine ⟨min_tmp % 65536, by omega, ?_⟩
          simp only
          rw [hfr _ _ s _ hc2 hc1 hs (by omega), decide_eq_true_eq]
          exact ⟨Nat.le_refl _, hc2, by simp⟩
    have hmem2 : ∀ hb lb, lb < 65536 →
        (ra_has ops (answer.high_low_container ++
            [(min_tmp / 65536, ops.container_from_range (min_tmp % 65536) cmax s)]) hb lb
          ↔ in_progression m0 s (min_tmp + (cmax - min_tmp % 65536)) (hb * 65536 + lb)) := by
      intro hb lb hlb
      rw [ra_has_append, ra_has_cons, ra_has_nil, or_false, hmem hb lb hlb]
      simp only
      rw [hfr _ _ s _ hc2 hc1 hs hlb, decide_eq_true_eq]
      unfold in_progression
      constructor
      · rintro (⟨g1, g2, g3⟩ | ⟨g0, g1, g2, g3⟩)
        · exact ⟨g1, by omega, g3⟩
        · have hv : min_tmp ≤ hb * 65536 + lb := by omega
          refine ⟨by omega, by omega, ?_⟩
          rw [mod_sub_shift s m0 min_tmp _ h1 hv h3]
          have : hb * 65536 + lb - min_tmp = lb - min_tmp % 65536 := by omega
          rw [this]
          exact g3
      · rintro ⟨g1, g2, g3⟩
        by_cases hlt : hb * 65536 + lb < min_tmp
        · exact Or.inl ⟨g1, hlt, g3⟩
        · have hv : min_tmp ≤ hb * 65536 + lb := by omega
          have hkey : min_tmp / 65536 = hb := by omega
          refine Or.inr ⟨hkey, by omega, by omega, ?_⟩
          have := (mod_sub_shift s m0 min_tmp _ h1 hv h3).1 g3
          have e : hb * 65536 + lb - min_tmp = lb - min_tmp % 65536 := by omega
          rw [e] at this
          exact this
    by_cases hcont : min_tmp + adv < M
    · rw [if_pos hcont]
      have hfull : cmax = 65536 := by omega
      apply ih _ (min_tmp + adv) (by omega) hcont
      · have e : min_tmp + adv - m0 = (min_tmp - m0) + adv := by omega
        rw [e, Nat.add_mod, h3, a3]
        simp
      · exact hval2
      · intro e he
        rcases List.mem_append.1 he with h | h
        · have := hkeys e h
          omega
        · rw [List.mem_singleton] at h
          rw [h]
          simp only
          omega
      · intro hb lb hlb
        rw [hmem2 hb lb hlb]
        exact (in_progression_extend m0 s min_tmp (cmax - min_tmp % 65536) (min_tmp + adv)
          _ hs h1 h3 (by omega) (by rw [hadv])).symm
      · omega
    · rw [if_neg hcont]
      refine ⟨_, rfl, hval2, ?_⟩
      intro hb lb hlb
      rw [hmem2 hb lb hlb]
      exact (in_progression_extend m0 s min_tmp (cmax - min_tmp % 65536) M
        _ hs h1 h3 (by omega) (by rw [← hadv]; omega)).symm

theorem in_progression_succ (m0 s a v : Nat) (hs : 0 < s) (h1 : m0 ≤ a)
    (h2 : (a - m0) % s = 0) :
    in_progression m0 s (a + s) v ↔ in_progression m0 s a v ∨ v = a := by
  unfold in_progression
  constructor
  · rintro ⟨g1, g2, g3⟩
    by_cases hlt : v < a
    · exact Or.inl ⟨g1, hlt, g3⟩
    · right
      have hav : a ≤ v := by omega
      have hx := (mod_sub_shift s m0 a v h1 hav h2).1 g3
      rw [Nat.mod_eq_of_lt (by omega)] at hx
      omega
  · rintro (⟨g1, g2, g3⟩ | h)
    · exact ⟨g1, by omega, g3⟩
    · rw [h]
      exact ⟨h1, by omega, h2⟩

theorem in_progression_clip (m0 s a M v : Nat)
    (h2 : (a - m0) % s = 0) (hM1 : M ≤ a) (hM2 : a < M + s) :
    in_progression m0 s a v ↔ in_progression m0 s M v := by
  unfold in_progression
  constructor
  · rintro ⟨g1, g2, g3⟩
    refine ⟨g1, ?_, g3⟩
    by_contra hge
    have hx := (mod_sub_shift s m0 v a g1 (by omega) g3).1 h2
    rw [Nat.mod_eq_of_lt (by omega)] at hx
    omega
  · rintro ⟨g1, g2, g3⟩
    exact ⟨g1, by omega, g3⟩

/-- The `for` loop of `roaring_bitmap_from_range` exits, given enough fuel, and
completes the progression, provided that no value of the progression below `M`
is within `s` of `2^32`, so that the 32-bit counter does not wrap. -/
theorem roaring_bitmap_from_range_for_spec (ops : ContainerOps C)
    (hcard : cardinality_spec ops) (hcreate : array_container_create_spec ops)
    (hadd : container_add_spec ops) (m0 M s : Nat) (hs : 0 < s)
    (hnowrap : ∀ v, in_progression m0 s M v → v + s < 2 ^ 32) :
    ∀ (fuel : Nat) (answer : roaring_bitmap_t C) (value : Nat),
      m0 ≤ value → value < M + s → value < 2 ^ 32 → (value - m0) % s = 0 →
      valid ops answer →
      (∀ hb lb, lb < 65536 →
        (ra_has ops answer.high_low_container hb lb
          ↔ in_progression m0 s value (hb * 65536 + lb))) →
      M + s ≤ fuel + value →
      ∃ b, roaring_bitmap_from_range_for ops M s fuel answer value = some b
        ∧ valid ops b
        ∧ ∀ hb lb, lb < 65536 →
          (ra_has ops b.high_low_container hb lb
            ↔ in_progression m0 s M (hb * 65536 + lb)) := by
  intro fuel
  induction fuel with
  | zero =>
    intro answer value _ h2 _ _ _ _ hfuel
    omega
  | succ n ih =>
    intro answer value h1 h2 h32 h3 hval hmem hfuel
    rw [roaring_bitmap_from_range_for]
    by_cases hlt : value < M
    · rw [if_pos hlt]
      have hw := hnowrap value ⟨h1, hlt, h3⟩
      have e : (value + s) % 2 ^ 32 = value + s := Nat.mod_eq_of_lt hw
      rw [e, roaring_bitmap_add_eq]
      obtain ⟨g1, _, g3⟩ := roaring_bitmap_add_checked_spec ops hcard hcreate hadd answer
        hval value
      apply ih _ (value + s) (by omega) (by omega) hw
      · have e2 : value + s - m0 = (value - m0) + s := by omega
        rw [e2, Nat.add_mod, h3]
        simp
      · exact g1
      · intro hb lb hlb
        rw [g3 hb lb hlb, hmem hb lb hlb, in_progression_succ m0 s value _ hs h1 h3]
        simp only [Nat.reducePow] at h32
        constructor
        · rintro (h | ⟨ha, hb2⟩)
          · exact Or.inl h
          · right
            omega
        · rintro (h | h)
          · exact Or.inl h
          · right
            omega
      · omega
    · rw [if_neg hlt]
      refine ⟨answer, rfl, hval, ?_⟩
      intro hb lb hlb
      rw [hmem hb lb hlb]
      exact in_progression_clip m0 s value M _ h3 (by omega) h2

/-- What `roaring_bitmap_from_range` returns when the 32-bit counter of the
branch `step >= 2^16` does not wrap: with enough fuel the call returns a valid
bitmap that holds exactly the values `min + k * step` below the clamped `max`.
On the branch `step < 2^16` there is no condition. -/
theorem roaring_bitmap_from_range_spec (ops : ContainerOps C)
    (hcard : cardinality_spec ops) (hcreate : array_container_create_spec ops)
    (hadd : container_add_spec ops) (hfr : container_from_range_spec ops)
    (min max step : Nat) (hs : 0 < step)
    (hlt : min < (if max ≥ 0x100000000 then 0x100000000 else max))
    (hnowrap : 65536 ≤ step → ∀ v,
      in_progression min step (if max ≥ 0x100000000 then 0x100000000 else max) v →
      v + step < 2 ^ 32)
    (fuel : Nat) (hfuel : 4294967296 + step ≤ fuel) :
    ∃ b, roaring_bitmap_from_range ops fuel min max step = some (some b) ∧ valid ops b
      ∧ ∀ v, v < 2 ^ 32 →
        (roaring_bitmap_contains ops b v = true
          ↔ in_progression min step (if max ≥ 0x100000000 then 0x100000000 else max) v) := by
  obtain ⟨M, hMdef⟩ : ∃ M, M = (if max ≥ 0x100000000 then 0x100000000 else max) := ⟨_, rfl⟩
  have hM : M ≤ 2 ^ 32 := by
    rw [hMdef]
    simp only [Nat.reducePow]
    split <;> omega
  rw [← hMdef] at hlt hnowrap ⊢
  have hinit : ∀ hb lb, lb < 65536 →
      (ra_has ops (roaring_bitmap_create : roaring_bitmap_t C).high_low_container hb lb
        ↔ in_progression min step min (hb * 65536 + lb)) := by
    intro hb lb _
    unfold in_progression
    constructor
    · rintro ⟨c, hc, _⟩
      simp [roaring_bitmap_create] at hc
    · rintro ⟨g1, g2, _⟩
      omega
  have hfinish : ∀ b : roaring_bitmap_t C, ra_valid ops b.high_low_container →
      (∀ hb lb, lb < 65536 →
        (ra_has ops b.high_low_container hb lb ↔ in_progression min step M (hb * 65536 + lb))) →
      ∀ v, v < 2 ^ 32 →
        (roaring_bitmap_contains ops b v = true ↔ in_progression min step M v) := by
    intro b hb hmem v hv
    rw [roaring_bitmap_contains_eq_ra_contains ops b hb.1 v hv, ra_contains_iff,
      hmem _ _ (Nat.mod_lt _ (by decide)), show v / 65536 * 65536 + v % 65536 = v by omega]
  unfold roaring_bitmap_from_range
  simp only [← hMdef]
  rw [if_neg (by omega), if_neg (by omega)]
  by_cases hbig : step ≥ 65536
  · rw [if_pos hbig]
    have hmin : min % 2 ^ 32 = min := Nat.mod_eq_of_lt (by omega)
    rw [hmin]
    obtain ⟨b, h1, h2, h3⟩ := roaring_bitmap_from_range_for_spec ops hcard hcreate hadd
      min M step hs (hnowrap hbig) fuel roaring_bitmap_create min (Nat.le_refl _) (by omega)
      (by omega) (by simp) (valid_create ops) hinit
      (by simp only [Nat.reducePow] at hM; omega)
    exact ⟨b, by rw [h1]; rfl, h2, hfinish b h2 h3⟩
  · rw [if_neg hbig]
    obtain ⟨b, h1, h2, h3⟩ := roaring_bitmap_from_range_do_spec ops hfr min M step hs
      (by omega) hM fuel roaring_bitmap_create min (Nat.le_refl _) hlt (by simp)
      (valid_create ops) (by intro e he; simp [roaring_bitmap_create] at he) hinit (by omega)
    exact ⟨b, by rw [h1]; rfl, h2, hfinish b h2 h3⟩

/-! ## The small container implementation meets the contracts -/

theorem set_nonzero_cardinality_spec : nonzero_cardinality_spec set_container_ops := by
  intro c
  simp [set_container_ops, container_nonempty, List.any_eq_true]

theorem set_container_and_spec : container_and_spec set_container_ops := by
  intro a b v _
  rfl

theorem set_container_or_spec : container_or_spec set_container_ops := by
  intro a b v _
  rfl

theorem set_container_xor_spec : container_xor_spec set_container_ops := by
  intro a b v _
  rfl

theorem set_container_andnot_spec : container_andnot_spec set_container_ops := by
  intro a b v _
  rfl

theorem set_cardinality_spec : cardinality_spec set_container_ops := by
  intro c
  simp only [set_container_ops, set_cardinality]

theorem set_array_container_create_spec : array_container_create_spec set_container_ops := by
  refine ⟨?_, fun v _ => rfl⟩
  have h : set_cardinality (fun _ => false) = 0 := by
    unfold set_cardinality
    rw [List.countP_eq_zero]
    simp
  simp [set_container_ops, h, DEFAULT_MAX_SIZE]

theorem set_container_add_spec : container_add_spec set_container_ops := by
  refine ⟨fun c x v _ _ => rfl, ?_, ?_⟩
  · intro c x _ h
    simp only [set_container_ops, Bool.and_eq_true, Bool.not_eq_true'] at h
    exact h.1
  · intro c x hx ht hc
    simp only [set_container_ops] at ht hc ⊢
    have hle : set_cardinality (fun v => c v || decide (v = x)) ≤ set_cardinality c + 1 := by
      unfold set_cardinality
      cases hcx : c x
      · rw [countP_range_insert c _ 65536 x hx hcx (fun v _ => rfl)]
      · have : (List.range 65536).countP (fun v => c v || decide (v = x))
            = (List.range 65536).countP c := by
          apply countP_range_congr
          intro v _
          by_cases hvx : v = x
          · rw [hvx, hcx]; rfl
          · simp [hvx]
        omega
    rw [if_pos (by omega)]

theorem set_container_remove_spec : container_remove_spec set_container_ops := by
  intro c x v _ _
  rfl

theorem set_container_not_range_spec : container_not_range_spec set_container_ops := by
  intro c a b v _ _ _
  rfl

theorem set_container_not_spec : container_not_spec set_container_ops := by
  intro c v _
  rfl

theorem set_container_range_of_ones_spec :
    container_range_of_ones_spec set_container_ops := by
  intro a b v _ _ _
  rfl

theorem set_container_and_cardinality_spec :
    container_and_cardinality_spec set_container_ops := by
  intro a b
  simp only [set_container_ops, set_cardinality]

theorem set_container_rank_spec : container_rank_spec set_container_ops := by
  intro c x _
  rfl

theorem filter_range_getElem? (c : Nat → Bool) (n k : Nat)
    (hk : k < (List.range n).countP c) :
    ∃ e, ((List.range n).filter c)[k]? = some e ∧ e < n ∧ c e = true
      ∧ (List.range e).countP c = k := by
  induction n with
  | zero => simp at hk
  | succ n ih =>
    rw [countP_range_succ] at hk
    rw [List.range_succ, List.filter_append]
    by_cases h : k < (List.range n).countP c
    · obtain ⟨e, h1, h2, h3, h4⟩ := ih h
      refine ⟨e, ?_, by omega, h3, h4⟩
      rw [List.getElem?_append_left (by rw [← List.countP_eq_length_filter]; exact h)]
      exact h1
    · have hcn : c n = true := by
        by_contra hh
        simp only [hh, Bool.false_eq_true, if_false] at hk
        omega
      have hk2 : k = (List.range n).countP c := by
        simp only [hcn, if_true] at hk
        omega
      refine ⟨n, ?_, by omega, hcn, hk2.symm⟩
      rw [List.getElem?_append_right (by rw [← List.countP_eq_length_filter]; omega)]
      simp [hcn, ← List.countP_eq_length_filter, hk2]

theorem set_container_select_spec : container_select_spec set_container_ops := by
  intro c start_rank rank element
  constructor
  · intro h
    simp only [set_container_ops] at h ⊢
    rw [if_pos h]
  · intro h1 h2
    simp only [set_container_ops, set_cardinality] at h2 ⊢
    obtain ⟨e, g1, g2, g3, g4⟩ := filter_range_getElem? c 65536 (rank - start_rank) (by omega)
    rw [if_neg (by omega)]
    simp only [g1, Option.getD_some]
    exact ⟨trivial, g2, g3, g4⟩

theorem find?_range_min (c : Nat → Bool) (n : Nat) (h : ∃ v, v < n ∧ c v = true) :
    ∃ m, (List.range n).find? c = some m ∧ m < n ∧ c m = true
      ∧ ∀ v, c v = true → m ≤ v := by
  induction n with
  | zero =>
    obtain ⟨v, hv, _⟩ := h
    omega
  | succ n ih =>
    rw [List.range_succ, List.find?_append]
    by_cases h2 : ∃ v, v < n ∧ c v = true
    · obtain ⟨m, g1, g2, g3, g4⟩ := ih h2
      exact ⟨m, by rw [g1]; rfl, by omega, g3, g4⟩
    · have hnone : (List.range n).find? c = none := by
        rw [List.find?_eq_none]
        intro x hx hc
        exact h2 ⟨x, List.mem_range.1 hx, hc⟩
      obtain ⟨v, hv, hc⟩ := h
      have hvn : v = n := by
        by_contra hne
        exact h2 ⟨v, by omega, hc⟩
      rw [hvn] at hc
      refine ⟨n, ?_, by omega, hc, ?_⟩
      · rw [hnone]
        simp [List.find?_cons, hc]
      · intro w hw
        by_contra hlt
        exact h2 ⟨w, by omega, hw⟩

theorem find?_range_reverse_max (c : Nat → Bool) (n : Nat) (h : ∃ v, v < n ∧ c v = true) :
    ∃ m, (List.range n).reverse.find? c = some m ∧ m < n ∧ c m = true
      ∧ ∀ v, v < n → c v = true → v ≤ m := by
  induction n with
  | zero =>
    obtain ⟨v, hv, _⟩ := h
    omega
  | succ n ih =>
    rw [List.range_succ, List.reverse_append, List.reverse_singleton, List.singleton_append,
      List.find?_cons]
    by_cases hc : c n = true
    · refine ⟨n, by rw [hc], by omega, hc, ?_⟩
      intro v hv _
      omega
    · have hcf : c n = false := by simpa using hc
      obtain ⟨v, hv, hcv⟩ := h
      have hvn : v < n := by
        rcases Nat.lt_or_ge v n with g | g
        · exact g
        · have : v = n := by omega
          rw [this] at hcv
          exact absurd hcv hc
      obtain ⟨m, g1, g2, g3, g4⟩ := ih ⟨v, hvn, hcv⟩
      refine ⟨m, by rw [hcf]; exact g1, by omega, g3, ?_⟩
      intro w hw hcw
      rcases Nat.lt_or_ge w n with g | g
      · exact g4 w g hcw
      · have : w = n := by omega
        rw [this] at hcw
        exact absurd hcw hc

theorem set_container_minimum_spec : container_minimum_spec set_container_ops := by
  intro c hne
  obtain ⟨m, g1, g2, g3, g4⟩ := find?_range_min c 65536 hne
  simp only [set_container_ops, g1, Option.getD_some]
  exact ⟨g2, g3, fun v _ hv => g4 v hv⟩

theorem set_container_maximum_spec : container_maximum_spec set_container_ops := by
  intro c hne
  obtain ⟨m, g1, g2, g3, g4⟩ := find?_range_reverse_max c 65536 hne
  simp only [set_container_ops, g1, Option.getD_some]
  exact ⟨g2, g3, g4⟩

theorem set_cardinality_singleton (x : Nat) (hx : x < 65536) :
    set_cardinality (fun v => v == x) = 1 := by
  unfold set_cardinality
  rw [countP_range_insert (fun _ => false) (fun v => v == x) 65536 x hx rfl (by
    intro v _
    rw [Bool.false_or, Bool.eq_iff_iff]
    simp)]
  simp

theorem set_get_cardinality (c : Nat → Bool) :
    set_container_ops.container_get_cardinality c = set_cardinality c := by
  simp only [set_container_ops]

theorem two_singletons_cardinality (k1 k2 x y : Nat) (hx : x < 65536) (hy : y < 65536) :
    roaring_bitmap_get_cardinality set_container_ops
      ⟨[(k1, fun v => v == x), (k2, fun v => v == y)]⟩ = 2 := by
  rw [roaring_bitmap_get_cardinality_eq]
  simp only [ra_cardinality, List.map_cons, List.map_nil, List.sum_cons, List.sum_nil]
  rw [set_get_cardinality, set_get_cardinality, set_cardinality_singleton x hx,
    set_cardinality_singleton y hy]
  simp

theorem example_bitmap_1_cardinality :
    roaring_bitmap_get_cardinality set_container_ops example_bitmap_1 = 2 :=
  two_singletons_cardinality 0 1 1 2 (by decide) (by decide)

theorem example_bitmap_3_valid : valid set_container_ops example_bitmap_3 := by
  refine ⟨?_, ?_, ?_⟩
  · simp [example_bitmap_3, keys_sorted]
  · simp [example_bitmap_3]
  · intro e he
    simp only [example_bitmap_3, List.mem_cons, List.mem_singleton, List.not_mem_nil,
      or_false] at he
    rcases he with he | he
    · exact ⟨1, by decide, by rw [he]; rfl⟩
    · exact ⟨1, by decide, by rw [he]; rfl⟩

theorem set_container_add_range_spec : container_add_range_spec set_container_ops := by
  intro c min max v _ _ _
  rfl

theorem set_container_from_range_spec : container_from_range_spec set_container_ops := by
  intro min max step v _ _ _ _
  rfl

theorem set_container_remove_range_eq (c : Nat → Bool) (min max : Nat) :
    set_container_ops.container_remove_range c min max
      = if (List.range 65536).any (fun v => c v && !decide (min ≤ v ∧ v ≤ max)) then
          some (fun v => c v && !decide (min ≤ v ∧ v ≤ max))
        else none := by
  simp only [set_container_ops]

theorem set_container_remove_range_spec :
    container_remove_range_spec set_container_ops := by
  intro c min max _ _
  rw [set_container_remove_range_eq]
  generalize hL : List.range 65536 = L
  cases h : L.any (fun v => c v && !decide (min ≤ v ∧ v ≤ max)) with
  | true =>
    simp only [if_true]
    refine ⟨fun hc => absurd hc (by simp), ?_⟩
    intro c2 hc2
    rw [← Option.some.inj hc2]
    refine ⟨?_, fun v _ => rfl⟩
    obtain ⟨v, hv, hc⟩ := List.any_eq_true.1 h
    rw [← hL] at hv
    exact ⟨v, List.mem_range.1 hv, hc⟩
  | false =>
    simp only [Bool.false_eq_true, if_false]
    refine ⟨?_, fun c2 hc2 => absurd hc2 (by simp)⟩
    intro _ v hv hc
    by_contra hn
    have hc2 : c v = true := hc
    have : L.any (fun v => c v && !decide (min ≤ v ∧ v ≤ max)) = true := by
      rw [List.any_eq_true]
      refine ⟨v, by rw [← hL]; exact List.mem_range.2 hv, ?_⟩
      simp [hc2, hn]
    rw [h] at this
    exact absurd this (by simp)

theorem example_bitmap_1_valid : valid set_container_ops example_bitmap_1 := by
  refine ⟨?_, ?_, ?_⟩
  · simp [example_bitmap_1, keys_sorted]
  · simp [example_bitmap_1]
  · intro e he
    simp only [example_bitmap_1, List.mem_cons, List.mem_singleton, List.not_mem_nil,
      or_false] at he
    rcases he with he | he
    · exact ⟨1, by decide, by rw [he]; rfl⟩
    · exact ⟨2, by decide, by rw [he]; rfl⟩

theorem example_bitmap_2_valid : valid set_container_ops example_bitmap_2 := by
  refine ⟨?_, ?_, ?_⟩
  · simp [example_bitmap_2, keys_sorted]
  · simp [example_bitmap_2]
  · intro e he
    simp only [example_bitmap_2, List.mem_cons, List.mem_singleton, List.not_mem_nil,
      or_false] at he
    rcases he with he | he
    · exact ⟨1, by decide, by rw [he]; rfl⟩
    · exact ⟨0, by decide, by rw [he]; rfl⟩

/-! ## Claims -/

theorem roaring_bitmap_and_eq (ops : ContainerOps C) (x1 x2 : roaring_bitmap_t C) :
    (roaring_bitmap_and ops x1 x2).high_low_container
      = and_merge ops x1.high_low_container x2.high_low_container := by
  simp [roaring_bitmap_and, roaring_bitmap_and_loop_eq, roaring_bitmap_create]

theorem roaring_bitmap_and_sorted (ops : ContainerOps C) (x1 x2 : roaring_bitmap_t C)
    (h1 : keys_sorted x1.high_low_container) :
    keys_sorted (roaring_bitmap_and ops x1 x2).high_low_container := by
  rw [roaring_bitmap_and_eq]
  exact keys_sorted_of_sublist _ _ (and_merge_keys_sublist ops _ _) h1

/-- C1: given correct `container_and` and `container_nonzero_cardinality`, for
valid bitmaps `x1`, `x2` and every 32-bit `v`, `v` is an element of
`roaring_bitmap_and x1 x2` iff it is an element of `x1` and of `x2`; hence
membership in the result does not depend on the argument order. -/
theorem roaring_bitmap_and_correct (ops : ContainerOps C)
    (hand : container_and_spec ops) (hnz : nonzero_cardinality_spec ops)
    (x1 x2 : roaring_bitmap_t C) (h1 : valid ops x1) (h2 : valid ops x2)
    (v : Nat) (_hv : v < 2 ^ 32) :
    (roaring_bitmap_contains ops (roaring_bitmap_and ops x1 x2) v = true
      ↔ roaring_bitmap_contains ops x1 v = true ∧ roaring_bitmap_contains ops x2 v = true)
    ∧ roaring_bitmap_contains ops (roaring_bitmap_and ops x1 x2) v
        = roaring_bitmap_contains ops (roaring_bitmap_and ops x2 x1) v := by
  have key : ∀ y1 y2 : roaring_bitmap_t C, valid ops y1 → valid ops y2 →
      (roaring_bitmap_contains ops (roaring_bitmap_and ops y1 y2) v = true
        ↔ roaring_bitmap_contains ops y1 v = true
          ∧ roaring_bitmap_contains ops y2 v = true) := by
    intro y1 y2 g1 g2
    rw [roaring_bitmap_contains_iff ops _ (roaring_bitmap_and_sorted ops y1 y2 g1.1),
      roaring_bitmap_contains_iff ops _ g1.1, roaring_bitmap_contains_iff ops _ g2.1,
      roaring_bitmap_and_eq]
    exact ra_has_and_merge ops hand hnz _ _ g1.1 g2.1 _ _ (Nat.mod_lt _ (by decide))
  refine ⟨key x1 x2 h1 h2, ?_⟩
  rw [Bool.eq_iff_iff, key x1 x2 h1 h2, key x2 x1 h2 h1]
  exact And.comm

theorem roaring_bitmap_and_correct_witness :
    valid set_container_ops example_bitmap_1 ∧ valid set_container_ops example_bitmap_2
    ∧ (roaring_bitmap_contains set_container_ops
          (roaring_bitmap_and set_container_ops example_bitmap_1 example_bitmap_2) 1 = true
        ↔ roaring_bitmap_contains set_container_ops example_bitmap_1 1 = true
          ∧ roaring_bitmap_contains set_container_ops example_bitmap_2 1 = true)
    ∧ roaring_bitmap_contains set_container_ops
          (roaring_bitmap_and set_container_ops example_bitmap_1 example_bitmap_2) 1
        = roaring_bitmap_contains set_container_ops
          (roaring_bitmap_and set_container_ops example_bitmap_2 example_bitmap_1) 1 :=
  ⟨example_bitmap_1_valid, example_bitmap_2_valid,
    roaring_bitmap_and_correct set_container_ops set_container_and_spec
      set_nonzero_cardinality_spec example_bitmap_1 example_bitmap_2
      example_bitmap_1_valid example_bitmap_2_valid 1 (by decide)⟩

theorem roaring_bitmap_or_eq (ops : ContainerOps C) (x1 x2 : roaring_bitmap_t C) :
    (roaring_bitmap_or ops x1 x2).high_low_container
      = or_merge ops x1.high_low_container x2.high_low_container := by
  unfold roaring_bitmap_or
  simp only
  by_cases h1 : 0 = x1.high_low_container.length
  · rw [if_pos h1]
    have : x1.high_low_container = [] := List.length_eq_zero.1 h1.symm
    rw [this]
    simp [or_merge, roaring_bitmap_copy]
  · rw [if_neg h1]
    by_cases h2 : 0 = x2.high_low_container.length
    · rw [if_pos h2]
      have : x2.high_low_container = [] := List.length_eq_zero.1 h2.symm
      rw [this, or_merge_nil_right]
      simp [roaring_bitmap_copy]
    · rw [if_neg h2]
      have := roaring_bitmap_or_loop_eq ops x1.high_low_container x2.high_low_container
        0 0 [] (Nat.zero_le _) (Nat.zero_le _)
      simp only [List.drop_zero, List.nil_append] at this
      rw [← this]
      simp only [roaring_bitmap_create]
      split_ifs <;> rfl

theorem roaring_bitmap_xor_eq (ops : ContainerOps C) (x1 x2 : roaring_bitmap_t C) :
    (roaring_bitmap_xor ops x1 x2).high_low_container
      = xor_merge ops x1.high_low_container x2.high_low_container := by
  unfold roaring_bitmap_xor
  simp only
  by_cases h1 : 0 = x1.high_low_container.length
  · rw [if_pos h1]
    have : x1.high_low_container = [] := List.length_eq_zero.1 h1.symm
    rw [this]
    simp [xor_merge, roaring_bitmap_copy]
  · rw [if_neg h1]
    by_cases h2 : 0 = x2.high_low_container.length
    · rw [if_pos h2]
      have : x2.high_low_container = [] := List.length_eq_zero.1 h2.symm
      rw [this, xor_merge_nil_right]
      simp [roaring_bitmap_copy]
    · rw [if_neg h2]
      have := roaring_bitmap_xor_loop_eq ops x1.high_low_container x2.high_low_container
        0 0 [] (Nat.zero_le _) (Nat.zero_le _)
      simp only [List.drop_zero, List.nil_append] at this
      rw [← this]
      simp only [roaring_bitmap_create]
      split_ifs <;> rfl

theorem roaring_bitmap_andnot_eq (ops : ContainerOps C) (x1 x2 : roaring_bitmap_t C) :
    (roaring_bitmap_andnot ops x1 x2).high_low_container
      = andnot_merge ops x1.high_low_container x2.high_low_container := by
  unfold roaring_bitmap_andnot
  simp only
  by_cases h1 : 0 = x1.high_low_container.length
  · rw [if_pos h1]
    have : x1.high_low_container = [] := List.length_eq_zero.1 h1.symm
    rw [this]
    simp [andnot_merge, roaring_bitmap_create]
  · rw [if_neg h1]
    by_cases h2 : 0 = x2.high_low_container.length
    · rw [if_pos h2]
      have : x2.high_low_container = [] := List.length_eq_zero.1 h2.symm
      rw [this, andnot_merge_nil_right]
      simp [roaring_bitmap_copy]
    · rw [if_neg h2]
      have := roaring_bitmap_andnot_loop_eq ops x1.high_low_container x2.high_low_container
        0 0 [] (Nat.zero_le _) (Nat.zero_le _)
      simp only [List.drop_zero, List.nil_append] at this
      rw [← this]
      simp only [roaring_bitmap_create]
      split_ifs <;> rfl

theorem roaring_bitmap_ext (a b : roaring_bitmap_t C)
    (h : a.high_low_container = b.high_low_container) : a = b := by
  cases a; cases b; simp only at h; rw [h]

/-- C2: given a correct `container_or`, for valid bitmaps `x1`, `x2` and every
32-bit `v`, `v` is an element of `roaring_bitmap_or x1 x2` iff it is an element
of `x1` or of `x2`; with an empty operand the result is the other operand. -/
theorem roaring_bitmap_or_correct (ops : ContainerOps C) (hor : container_or_spec ops)
    (x1 x2 : roaring_bitmap_t C) (h1 : valid ops x1) (h2 : valid ops x2)
    (v : Nat) (_hv : v < 2 ^ 32) :
    (roaring_bitmap_contains ops (roaring_bitmap_or ops x1 x2) v = true
      ↔ roaring_bitmap_contains ops x1 v = true ∨ roaring_bitmap_contains ops x2 v = true)
    ∧ (x1.high_low_container = [] → roaring_bitmap_or ops x1 x2 = x2)
    ∧ (x2.high_low_container = [] → roaring_bitmap_or ops x1 x2 = x1) := by
  refine ⟨?_, ?_, ?_⟩
  · have hs : keys_sorted (roaring_bitmap_or ops x1 x2).high_low_container := by
      rw [roaring_bitmap_or_eq]
      exact or_merge_sorted ops _ _ h1.1 h2.1
    rw [roaring_bitmap_contains_iff ops _ hs, roaring_bitmap_contains_iff ops _ h1.1,
      roaring_bitmap_contains_iff ops _ h2.1, roaring_bitmap_or_eq]
    exact ra_has_or_merge ops hor _ _ _ _ (Nat.mod_lt _ (by decide))
  · intro h
    apply roaring_bitmap_ext
    rw [roaring_bitmap_or_eq, h]
    simp [or_merge]
  · intro h
    apply roaring_bitmap_ext
    rw [roaring_bitmap_or_eq, h, or_merge_nil_right]

theorem roaring_bitmap_or_correct_witness :
    valid set_container_ops example_bitmap_1 ∧ valid set_container_ops example_bitmap_2
    ∧ (roaring_bitmap_contains set_container_ops
          (roaring_bitmap_or set_container_ops example_bitmap_1 example_bitmap_2) 65538 = true
        ↔ roaring_bitmap_contains set_container_ops example_bitmap_1 65538 = true
          ∨ roaring_bitmap_contains set_container_ops example_bitmap_2 65538 = true) :=
  ⟨example_bitmap_1_valid, example_bitmap_2_valid,
    (roaring_bitmap_or_correct set_container_ops set_container_or_spec
      example_bitmap_1 example_bitmap_2
      example_bitmap_1_valid example_bitmap_2_valid 65538 (by decide)).1⟩

/-- C3: given correct `container_xor` and `container_nonzero_cardinality`, for
valid bitmaps `x1`, `x2` and every 32-bit `v`, `v` is an element of
`roaring_bitmap_xor x1 x2` iff it is in exactly one of `x1`, `x2`; a key whose
two containers cancel to the empty set is not a key of the result; and
`roaring_bitmap_xor x1 x1` is the empty bitmap. -/
theorem roaring_bitmap_xor_correct (ops : ContainerOps C) (hxor : container_xor_spec ops)
    (hnz : nonzero_cardinality_spec ops)
    (x1 x2 : roaring_bitmap_t C) (h1 : valid ops x1) (h2 : valid ops x2)
    (v : Nat) (_hv : v < 2 ^ 32) :
    roaring_bitmap_contains ops (roaring_bitmap_xor ops x1 x2) v
      = xor (roaring_bitmap_contains ops x1 v) (roaring_bitmap_contains ops x2 v)
    ∧ (∀ k c1 c2, (k, c1) ∈ x1.high_low_container → (k, c2) ∈ x2.high_low_container →
        ¬ container_nonempty ops (ops.container_xor c1 c2) →
        k ∉ (roaring_bitmap_xor ops x1 x2).high_low_container.map Prod.fst)
    ∧ roaring_bitmap_xor ops x1 x1 = roaring_bitmap_create := by
  have hval := xor_merge_valid ops hnz _ _ h1 h2
  refine ⟨?_, ?_, ?_⟩
  · have hs : keys_sorted (roaring_bitmap_xor ops x1 x2).high_low_container := by
      rw [roaring_bitmap_xor_eq]
      exact hval.1
    rw [Bool.eq_iff_iff, bool_xor_true_iff, roaring_bitmap_contains_iff ops _ hs,
      roaring_bitmap_contains_iff ops _ h1.1, roaring_bitmap_contains_iff ops _ h2.1,
      roaring_bitmap_xor_eq]
    exact ra_has_xor_merge ops hxor hnz _ _ h1.1 h2.1 _ _ (Nat.mod_lt _ (by decide))
  · intro k c1 c2 hm1 hm2 hempty hk
    rw [roaring_bitmap_xor_eq] at hk
    obtain ⟨e, he, rfl⟩ := List.mem_map.1 hk
    obtain ⟨lb, hlb, hc⟩ := hval.2.2 e he
    have hhas : ra_has ops (xor_merge ops x1.high_low_container x2.high_low_container)
        e.1 lb := ⟨e.2, he, hc⟩
    rw [ra_has_xor_merge ops hxor hnz _ _ h1.1 h2.1 _ _ hlb,
      ra_has_iff_of_mem ops _ h1.1 _ _ hm1, ra_has_iff_of_mem ops _ h2.1 _ _ hm2,
      ← bool_xor_true_iff, ← hxor _ _ lb hlb] at hhas
    exact hempty ⟨lb, hlb, hhas⟩
  · apply roaring_bitmap_ext
    rw [roaring_bitmap_xor_eq, xor_merge_self ops hxor hnz]
    rfl

theorem roaring_bitmap_xor_correct_witness :
    valid set_container_ops example_bitmap_1 ∧ valid set_container_ops example_bitmap_2
    ∧ roaring_bitmap_contains set_container_ops
          (roaring_bitmap_xor set_container_ops example_bitmap_1 example_bitmap_2) 3
        = xor (roaring_bitmap_contains set_container_ops example_bitmap_1 3)
            (roaring_bitmap_contains set_container_ops example_bitmap_2 3) :=
  ⟨example_bitmap_1_valid, example_bitmap_2_valid,
    (roaring_bitmap_xor_correct set_container_ops set_container_xor_spec
      set_nonzero_cardinality_spec example_bitmap_1 example_bitmap_2
      example_bitmap_1_valid example_bitmap_2_valid 3 (by decide)).1⟩

/-- C4: given correct `container_andnot` and `container_nonzero_cardinality`,
for valid bitmaps `x1`, `x2` and every 32-bit `v`, `v` is an element of
`roaring_bitmap_andnot x1 x2` iff it is in `x1` and not in `x2`; entries of `x1`
whose key is absent from `x2` are entries of the result unchanged; every key of
the result is a key of `x1`; and an empty `x1` gives the empty bitmap. -/
theorem roaring_bitmap_andnot_correct (ops : ContainerOps C)
    (handnot : container_andnot_spec ops) (hnz : nonzero_cardinality_spec ops)
    (x1 x2 : roaring_bitmap_t C) (h1 : valid ops x1) (h2 : valid ops x2)
    (v : Nat) (_hv : v < 2 ^ 32) :
    roaring_bitmap_contains ops (roaring_bitmap_andnot ops x1 x2) v
      = (roaring_bitmap_contains ops x1 v && !roaring_bitmap_contains ops x2 v)
    ∧ (∀ e ∈ x1.high_low_container, e.1 ∉ x2.high_low_container.map Prod.fst →
        e ∈ (roaring_bitmap_andnot ops x1 x2).high_low_container)
    ∧ (∀ e ∈ (roaring_bitmap_andnot ops x1 x2).high_low_container,
        e.1 ∈ x1.high_low_container.map Prod.fst)
    ∧ (x1.high_low_container = [] → roaring_bitmap_andnot ops x1 x2 = roaring_bitmap_create) := by
  refine ⟨?_, ?_, ?_, ?_⟩
  · have hs : keys_sorted (roaring_bitmap_andnot ops x1 x2).high_low_container := by
      rw [roaring_bitmap_andnot_eq]
      exact (andnot_merge_valid ops hnz _ _ h1).1
    rw [Bool.eq_iff_iff, bool_andnot_true_iff, roaring_bitmap_contains_iff ops _ hs,
      roaring_bitmap_contains_iff ops _ h1.1, roaring_bitmap_contains_iff ops _ h2.1,
      roaring_bitmap_andnot_eq]
    exact ra_has_andnot_merge ops handnot hnz _ _ h1.1 h2.1 _ _ (Nat.mod_lt _ (by decide))
  · intro e he hk
    rw [roaring_bitmap_andnot_eq]
    exact mem_andnot_merge_of_key_absent ops _ _ h1.1 h2.1 e he hk
  · intro e he
    rw [roaring_bitmap_andnot_eq] at he
    exact (andnot_merge_keys_sublist ops _ _).subset (mem_keys_of_mem _ e he)
  · intro h
    apply roaring_bitmap_ext
    rw [roaring_bitmap_andnot_eq, h]
    simp [andnot_merge, roaring_bitmap_create]

theorem roaring_bitmap_andnot_correct_witness :
    valid set_container_ops example_bitmap_1 ∧ valid set_container_ops example_bitmap_2
    ∧ roaring_bitmap_contains set_container_ops
          (roaring_bitmap_andnot set_container_ops example_bitmap_1 example_bitmap_2) 65538
        = (roaring_bitmap_contains set_container_ops example_bitmap_1 65538
            && !roaring_bitmap_contains set_container_ops example_bitmap_2 65538) :=
  ⟨example_bitmap_1_valid, example_bitmap_2_valid,
    (roaring_bitmap_andnot_correct set_container_ops set_container_andnot_spec
      set_nonzero_cardinality_spec example_bitmap_1 example_bitmap_2
      example_bitmap_1_valid example_bitmap_2_valid 65538 (by decide)).1⟩

/-- C5: given correct container operations, if `x1` and `x2` have strictly
increasing 16-bit keys and only non-empty containers, then so have the results
of `roaring_bitmap_and`, `roaring_bitmap_or`, `roaring_bitmap_xor` and
`roaring_bitmap_andnot`. -/
theorem binary_operators_preserve_valid (ops : ContainerOps C)
    (hor : container_or_spec ops) (hnz : nonzero_cardinality_spec ops)
    (x1 x2 : roaring_bitmap_t C) (h1 : valid ops x1) (h2 : valid ops x2) :
    valid ops (roaring_bitmap_and ops x1 x2) ∧ valid ops (roaring_bitmap_or ops x1 x2)
    ∧ valid ops (roaring_bitmap_xor ops x1 x2)
    ∧ valid ops (roaring_bitmap_andnot ops x1 x2) := by
  unfold valid
  rw [roaring_bitmap_and_eq, roaring_bitmap_or_eq, roaring_bitmap_xor_eq,
    roaring_bitmap_andnot_eq]
  exact ⟨and_merge_valid ops hnz _ _ h1, or_merge_valid ops hor _ _ h1 h2,
    xor_merge_valid ops hnz _ _ h1 h2, andnot_merge_valid ops hnz _ _ h1⟩

theorem binary_operators_preserve_valid_witness :
    valid set_container_ops example_bitmap_1 ∧ valid set_container_ops example_bitmap_2
    ∧ valid set_container_ops
        (roaring_bitmap_and set_container_ops example_bitmap_1 example_bitmap_2)
    ∧ valid set_container_ops
        (roaring_bitmap_or set_container_ops example_bitmap_1 example_bitmap_2)
    ∧ valid set_container_ops
        (roaring_bitmap_xor set_container_ops example_bitmap_1 example_bitmap_2)
    ∧ valid set_container_ops
        (roaring_bitmap_andnot set_container_ops example_bitmap_1 example_bitmap_2) :=
  ⟨example_bitmap_1_valid, example_bitmap_2_valid,
    binary_operators_preserve_valid set_container_ops set_container_or_spec
      set_nonzero_cardinality_spec example_bitmap_1 example_bitmap_2
      example_bitmap_1_valid example_bitmap_2_valid⟩

/-- C6: given the contracts of `container_add`, `array_container_create` and
`container_get_cardinality`, for a valid bitmap `r` and a 32-bit `val`:
`roaring_bitmap_add_checked` returns true iff `val` was not an element of `r`;
the elements afterwards are the old ones plus `val`; when the high key was
absent, an array container of cardinality one holding exactly `val & 0xFFFF`
is inserted at the lower bound of the key and the keys stay strictly
increasing; and adding values with pairwise distinct high keys to the empty
bitmap (66 of them in the scenario) gives as many containers, all arrays of
cardinality one. -/
theorem roaring_bitmap_add_checked_correct (ops : ContainerOps C)
    (hcard : cardinality_spec ops) (hcreate : array_container_create_spec ops)
    (hadd : container_add_spec ops) (r : roaring_bitmap_t C) (hr : valid ops r)
    (val : Nat) (hval : val < 2 ^ 32) :
    ((roaring_bitmap_add_checked ops r val).2 = true
      ↔ roaring_bitmap_contains ops r val = false)
    ∧ (∀ v, v < 2 ^ 32 →
        roaring_bitmap_contains ops (roaring_bitmap_add_checked ops r val).1 v
          = (roaring_bitmap_contains ops r v || decide (v = val)))
    ∧ (val / 65536 ∉ r.high_low_container.map Prod.fst →
        (roaring_bitmap_add_checked ops r val).1.high_low_container
            = ra_insert_new_key_value_at r.high_low_container
                (lower_bound r.high_low_container (val / 65536)) (val / 65536)
                (ops.container_add ops.array_container_create (val % 65536)).1
          ∧ ops.get_container_type
              (ops.container_add ops.array_container_create (val % 65536)).1
              = ARRAY_CONTAINER_TYPE_CODE
          ∧ ops.container_get_cardinality
              (ops.container_add ops.array_container_create (val % 65536)).1 = 1
          ∧ (∀ x, x < 65536 →
              ops.container_contains
                (ops.container_add ops.array_container_create (val % 65536)).1 x
                = decide (x = val % 65536))
          ∧ keys_sorted (roaring_bitmap_add_checked ops r val).1.high_low_container)
    ∧ (∀ vals : List Nat, (∀ v ∈ vals, v < 2 ^ 32) →
        vals.Pairwise (fun a b => a / 65536 ≠ b / 65536) →
        (vals.foldl (roaring_bitmap_add ops) roaring_bitmap_create).high_low_container.length
            = vals.length
          ∧ ∀ e ∈ (vals.foldl (roaring_bitmap_add ops)
              roaring_bitmap_create).high_low_container,
              ops.get_container_type e.2 = ARRAY_CONTAINER_TYPE_CODE
                ∧ ops.container_get_cardinality e.2 = 1) := by
  have hlo : val % 65536 < 65536 := Nat.mod_lt _ (by decide)
  have hhb : (val / 65536) % 65536 = val / 65536 := Nat.mod_eq_of_lt (by omega)
  obtain ⟨hvalid, hres, hhas⟩ := roaring_bitmap_add_checked_spec ops hcard hcreate hadd r hr val
  refine ⟨hres, ?_, ?_, ?_⟩
  · intro v hv
    rw [Bool.eq_iff_iff, Bool.or_eq_true, decide_eq_true_eq,
      roaring_bitmap_contains_iff ops _ hvalid.1, roaring_bitmap_contains_iff ops _ hr.1,
      hhas _ _ (Nat.mod_lt _ (by decide)), eq_iff_split v val hv hval]
  · intro habs
    have hn : ∀ c, r.high_low_container[lower_bound r.high_low_container
        ((val / 65536) % 65536)]? ≠ some ((val / 65536) % 65536, c) := by
      intro c hc
      rw [hhb] at hc
      exact habs (mem_keys_of_mem _ _ (List.getElem?_mem hc))
    refine ⟨?_, ?_, ?_, ?_, hvalid.1⟩
    · rw [roaring_bitmap_add_checked_not_found ops r val hn, hhb]
    · refine hadd.2.2 _ _ hlo hcreate.1 ?_
      rw [cardinality_create ops hcard hcreate]
      decide
    · rw [cardinality_add_of_absent ops hcard hadd _ _ hlo (hcreate.2 _ hlo),
        cardinality_create ops hcard hcreate]
    · intro x hx
      rw [hadd.1 _ _ x hlo hx, hcreate.2 x hx]
      simp
  · intro vals hvals hd
    have hd' : vals.Pairwise (fun a b => (a / 65536) % 65536 ≠ (b / 65536) % 65536) := by
      refine List.Pairwise.imp_of_mem ?_ hd
      intro a b ha hb hab
      have h1 := hvals a ha
      have h2 := hvals b hb
      rw [Nat.mod_eq_of_lt (by omega), Nat.mod_eq_of_lt (by omega)]
      exact hab
    have := roaring_bitmap_add_distinct_keys ops hcard hcreate hadd vals hd'
      roaring_bitmap_create ⟨List.Pairwise.nil, by simp [roaring_bitmap_create],
        by simp [roaring_bitmap_create]⟩
      (by simp [roaring_bitmap_create]) (by simp [roaring_bitmap_create])
    simpa [roaring_bitmap_create] using this

theorem roaring_bitmap_add_checked_correct_witness :
    valid set_container_ops example_bitmap_1
    ∧ ((roaring_bitmap_add_checked set_container_ops example_bitmap_1 131077).2 = true
        ↔ roaring_bitmap_contains set_container_ops example_bitmap_1 131077 = false)
    ∧ (((List.range 66).map (fun k => k * 65536)).foldl
          (roaring_bitmap_add set_container_ops)
          roaring_bitmap_create).high_low_container.length = 66 := by
  have h := roaring_bitmap_add_checked_correct set_container_ops set_cardinality_spec
    set_array_container_create_spec set_container_add_spec example_bitmap_1
    example_bitmap_1_valid 131077 (by decide)
  refine ⟨example_bitmap_1_valid, h.1, ?_⟩
  have h66 := (h.2.2.2 ((List.range 66).map (fun k => k * 65536)) ?_ ?_).1
  · simpa using h66
  · intro v hv
    obtain ⟨k, hk, rfl⟩ := List.mem_map.1 hv
    have := List.mem_range.1 hk
    omega
  · rw [List.pairwise_map]
    refine List.Pairwise.imp_of_mem ?_ (List.nodup_range 66)
    intro a b _ _ hab
    simp only [Nat.mul_div_cancel _ (by decide : 0 < 65536)]
    exact hab

/-- C7: given the contracts of `container_remove` and
`container_get_cardinality`, for a valid bitmap `r` and a 32-bit `val`:
`roaring_bitmap_remove_checked` returns true iff `val` was an element of `r`;
the elements afterwards are the old ones without `val`; if the removal empties
the container of key `val >> 16` that key is no longer in the directory; and
the result is valid, so it has no empty container. -/
theorem roaring_bitmap_remove_checked_correct (ops : ContainerOps C)
    (hcard : cardinality_spec ops) (hrem : container_remove_spec ops)
    (r : roaring_bitmap_t C) (hr : valid ops r) (val : Nat) (hval : val < 2 ^ 32) :
    ((roaring_bitmap_remove_checked ops r val).2 = true
      ↔ roaring_bitmap_contains ops r val = true)
    ∧ (∀ v, v < 2 ^ 32 →
        roaring_bitmap_contains ops (roaring_bitmap_remove_checked ops r val).1 v
          = (roaring_bitmap_contains ops r v && !decide (v = val)))
    ∧ (∀ c, (val / 65536, c) ∈ r.high_low_container →
        ¬ container_nonempty ops (ops.container_remove c (val % 65536)) →
        val / 65536
          ∉ (roaring_bitmap_remove_checked ops r val).1.high_low_container.map Prod.fst)
    ∧ valid ops (roaring_bitmap_remove_checked ops r val).1 := by
  have hhb : (val / 65536) % 65536 = val / 65536 := Nat.mod_eq_of_lt (by omega)
  obtain ⟨hvalid, hres, hhas, hdrop⟩ :=
    roaring_bitmap_remove_checked_spec ops hcard hrem r hr val
  refine ⟨hres, ?_, ?_, hvalid⟩
  · intro v hv
    rw [Bool.eq_iff_iff, Bool.and_eq_true, Bool.not_eq_true', decide_eq_false_iff_not,
      roaring_bitmap_contains_iff ops _ hvalid.1, roaring_bitmap_contains_iff ops _ hr.1,
      hhas _ _ (Nat.mod_lt _ (by decide)), eq_iff_split v val hv hval]
  · rw [hhb] at hdrop
    exact hdrop

theorem roaring_bitmap_remove_checked_correct_witness :
    valid set_container_ops example_bitmap_1
    ∧ ((roaring_bitmap_remove_checked set_container_ops example_bitmap_1 65538).2 = true
        ↔ roaring_bitmap_contains set_container_ops example_bitmap_1 65538 = true)
    ∧ valid set_container_ops
        (roaring_bitmap_remove_checked set_container_ops example_bitmap_1 65538).1 := by
  have h := roaring_bitmap_remove_checked_correct set_container_ops set_cardinality_spec
    set_container_remove_spec example_bitmap_1 example_bitmap_1_valid 65538 (by decide)
  exact ⟨example_bitmap_1_valid, h.1, h.2.2.2⟩

/-- C9: given the contracts of `container_not_range`, `container_not`,
`container_range_of_ones` and `container_get_cardinality`, for a valid bitmap
`x1` and `range_start < range_end` with `range_start < 2^32`: a 32-bit `v` is
an element of `roaring_bitmap_flip x1 range_start range_end` iff exactly one of
`v ∈ x1` and `range_start ≤ v < min(range_end, 2^32)` holds; the result is
valid, so keys whose flipped container is empty are dropped; a key inside the
range that `x1` lacks gets the range-of-ones container of its part of the
range; entries of `x1` with a key outside the range are entries of the result;
and the flip of the empty bitmap over `[0, 2^32)` has 65536 containers and
cardinality `2^32`. -/
theorem roaring_bitmap_flip_correct (ops : ContainerOps C)
    (hcard : cardinality_spec ops) (hnr : container_not_range_spec ops)
    (hnot : container_not_spec ops) (hro : container_range_of_ones_spec ops)
    (x1 : roaring_bitmap_t C) (hx1 : valid ops x1) (range_start range_end : Nat)
    (h1 : range_start < range_end) (h2 : range_start < 2 ^ 32) :
    (∀ v, v < 2 ^ 32 →
      roaring_bitmap_contains ops (roaring_bitmap_flip ops x1 range_start range_end) v
        = xor (roaring_bitmap_contains ops x1 v)
            (decide (range_start ≤ v ∧ v < min range_end (2 ^ 32))))
    ∧ valid ops (roaring_bitmap_flip ops x1 range_start range_end)
    ∧ (∀ hb, range_start / 65536 ≤ hb → hb ≤ (min range_end (2 ^ 32) - 1) / 65536 →
        hb ∉ x1.high_low_container.map Prod.fst →
        (hb, ops.container_range_of_ones
              (if hb = range_start / 65536 then range_start % 65536 else 0)
              (if hb = (min range_end (2 ^ 32) - 1) / 65536
                then (min range_end (2 ^ 32) - 1) % 65536 + 1 else 0x10000))
          ∈ (roaring_bitmap_flip ops x1 range_start range_end).high_low_container)
    ∧ (∀ e ∈ x1.high_low_container,
        (e.1 < range_start / 65536 ∨ (min range_end (2 ^ 32) - 1) / 65536 < e.1) →
        e ∈ (roaring_bitmap_flip ops x1 range_start range_end).high_low_container)
    ∧ (roaring_bitmap_flip ops (roaring_bitmap_create : roaring_bitmap_t C) 0
          0x100000000).high_low_container.length = 65536
    ∧ roaring_bitmap_get_cardinality ops
        (roaring_bitmap_flip ops (roaring_bitmap_create : roaring_bitmap_t C) 0 0x100000000)
        = 2 ^ 32 := by
  obtain ⟨hvalid, hhas, hmem⟩ :=
    roaring_bitmap_flip_spec ops hcard hnr hnot hro x1 hx1 range_start range_end h1 h2
  have g1 : range_start / 65536 % 65536 = range_start / 65536 :=
    Nat.mod_eq_of_lt (by omega)
  have g2 : (min range_end (2 ^ 32) - 1) / 65536 % 65536
      = (min range_end (2 ^ 32) - 1) / 65536 := Nat.mod_eq_of_lt (by omega)
  rw [g1, g2] at hmem
  refine ⟨?_, hvalid, ?_, ?_, ?_, ?_⟩
  · intro v hv
    rw [Bool.eq_iff_iff, bool_xor_true_iff, roaring_bitmap_contains_iff ops _ hvalid.1,
      roaring_bitmap_contains_iff ops _ hx1.1, hhas _ _ (Nat.mod_lt _ (by decide))]
    unfold flip_target in_range
    have hv1 : v / 65536 % 65536 * 65536 + v % 65536 = v := by omega
    rw [hv1]
    simp only [decide_eq_true_eq]
  · intro hb hb1 hb2 hb3
    exact hmem _ (Or.inr ⟨hb1, hb2, hb3, rfl⟩)
  · intro e he hout
    exact hmem e (Or.inl ⟨he, hout⟩)
  · rw [roaring_bitmap_flip_empty_full, List.length_map, List.length_range']
  · unfold roaring_bitmap_get_cardinality
    rw [roaring_bitmap_flip_empty_full, cardinality_foldl_map, List.length_range',
      cardinality_full ops hcard hro]
    decide

theorem roaring_bitmap_flip_correct_witness :
    valid set_container_ops example_bitmap_1
    ∧ roaring_bitmap_contains set_container_ops
        (roaring_bitmap_flip set_container_ops example_bitmap_1 0 70000) 5
      = xor (roaring_bitmap_contains set_container_ops example_bitmap_1 5)
          (decide (0 ≤ 5 ∧ 5 < min 70000 (2 ^ 32)))
    ∧ valid set_container_ops (roaring_bitmap_flip set_container_ops example_bitmap_1 0 70000) := by
  have h := roaring_bitmap_flip_correct set_container_ops set_cardinality_spec
    set_container_not_range_spec set_container_not_spec set_container_range_of_ones_spec
    example_bitmap_1 example_bitmap_1_valid 0 70000 (by decide) (by decide)
  exact ⟨example_bitmap_1_valid, h.1 5 (by decide), h.2.1⟩

/-- C8 (evaluation at the failing input): on the valid bitmap `{65535, 131072}`
`roaring_bitmap_contains_range` answers true for `[65535, 65537)`, although
65536 is not an element: the key of the last value is absent, and the entry of
the next larger key is inspected in its place. -/
theorem roaring_bitmap_contains_range_absent_last_key :
    valid set_container_ops gap_bitmap
    ∧ roaring_bitmap_contains_range set_container_ops gap_bitmap 65535 65537 = some true
    ∧ roaring_bitmap_contains set_container_ops gap_bitmap 65536 = false := by
  refine ⟨⟨?_, ?_, ?_⟩, by decide, by decide⟩
  · simp [gap_bitmap, keys_sorted]
  · simp [gap_bitmap]
  · intro e he
    simp only [gap_bitmap, List.mem_cons, List.mem_singleton, List.not_mem_nil,
      or_false] at he
    rcases he with he | he
    · exact ⟨65535, by decide, by rw [he]; rfl⟩
    · exact ⟨0, by decide, by rw [he]; rfl⟩

/-- C10 (evaluation at the failing input): with `range_start = 0x1FFFFFFFF` and
`range_end = 0x200000000`, both beyond `2^32`, `roaring_bitmap_flip` and
`roaring_bitmap_flip_inplace` of the empty bitmap hold `0xFFFFFFFF`: the range
is tested for emptiness before `range_end` is clamped, and `range_start` is
then truncated to 32 bits. -/
theorem roaring_bitmap_flip_start_beyond_universe :
    roaring_bitmap_contains set_container_ops
        (roaring_bitmap_flip set_container_ops roaring_bitmap_create
          0x1FFFFFFFF 0x200000000) 0xFFFFFFFF = true
    ∧ roaring_bitmap_contains set_container_ops
        (roaring_bitmap_flip_inplace set_container_ops roaring_bitmap_create
          0x1FFFFFFFF 0x200000000) 0xFFFFFFFF = true
    ∧ roaring_bitmap_contains set_container_ops
        (roaring_bitmap_create : roaring_bitmap_t (Nat → Bool)) 0xFFFFFFFF = false
    ∧ roaring_bitmap_flip set_container_ops roaring_bitmap_create 0x1FFFFFFFF 0x200000000
        ≠ (roaring_bitmap_create : roaring_bitmap_t (Nat → Bool)) := by
  refine ⟨by decide, by decide, by decide, ?_⟩
  intro h
  have h1 : roaring_bitmap_contains set_container_ops
      (roaring_bitmap_flip set_container_ops roaring_bitmap_create
        0x1FFFFFFFF 0x200000000) 0xFFFFFFFF = true := by decide
  rw [h] at h1
  exact absurd h1 (by decide)

/-- C19: given correct container operations, the cardinalities of the
combinations of two bitmaps `a`, `b` obey inclusion-exclusion, where
`roaring_bitmap_get_cardinality` is the sum of the container cardinalities:
`|a or b| + |a and b| = |a| + |b|` and `|a xor b| = |a| + |b| - 2 |a and b|`,
the subtraction being exact because `2 |a and b| ≤ |a| + |b|`. -/
theorem cardinality_inclusion_exclusion (ops : ContainerOps C)
    (hcard : cardinality_spec ops) (hnz : nonzero_cardinality_spec ops)
    (hand : container_and_spec ops) (hor : container_or_spec ops)
    (hxor : container_xor_spec ops)
    (a b : roaring_bitmap_t C) (_ha : valid ops a) (_hb : valid ops b) :
    roaring_bitmap_get_cardinality ops (roaring_bitmap_or ops a b)
        + roaring_bitmap_get_cardinality ops (roaring_bitmap_and ops a b)
      = roaring_bitmap_get_cardinality ops a + roaring_bitmap_get_cardinality ops b
    ∧ roaring_bitmap_get_cardinality ops (roaring_bitmap_xor ops a b)
      = roaring_bitmap_get_cardinality ops a + roaring_bitmap_get_cardinality ops b
        - 2 * roaring_bitmap_get_cardinality ops (roaring_bitmap_and ops a b)
    ∧ 2 * roaring_bitmap_get_cardinality ops (roaring_bitmap_and ops a b)
      ≤ roaring_bitmap_get_cardinality ops a + roaring_bitmap_get_cardinality ops b := by
  simp only [roaring_bitmap_get_cardinality_eq, roaring_bitmap_or_eq, roaring_bitmap_and_eq,
    roaring_bitmap_xor_eq]
  have h1 := ra_cardinality_or_merge ops hcard hnz hand hor
    a.high_low_container b.high_low_container
  have h2 := ra_cardinality_xor_merge ops hcard hnz hand hxor
    a.high_low_container b.high_low_container
  omega

theorem cardinality_inclusion_exclusion_witness :
    valid set_container_ops example_bitmap_1 ∧ valid set_container_ops example_bitmap_2
    ∧ (roaring_bitmap_get_cardinality set_container_ops
          (roaring_bitmap_or set_container_ops example_bitmap_1 example_bitmap_2)
        + roaring_bitmap_get_cardinality set_container_ops
          (roaring_bitmap_and set_container_ops example_bitmap_1 example_bitmap_2)
      = roaring_bitmap_get_cardinality set_container_ops example_bitmap_1
        + roaring_bitmap_get_cardinality set_container_ops example_bitmap_2
    ∧ roaring_bitmap_get_cardinality set_container_ops
          (roaring_bitmap_xor set_container_ops example_bitmap_1 example_bitmap_2)
      = roaring_bitmap_get_cardinality set_container_ops example_bitmap_1
        + roaring_bitmap_get_cardinality set_container_ops example_bitmap_2
        - 2 * roaring_bitmap_get_cardinality set_container_ops
          (roaring_bitmap_and set_container_ops example_bitmap_1 example_bitmap_2)
    ∧ 2 * roaring_bitmap_get_cardinality set_container_ops
          (roaring_bitmap_and set_container_ops example_bitmap_1 example_bitmap_2)
      ≤ roaring_bitmap_get_cardinality set_container_ops example_bitmap_1
        + roaring_bitmap_get_cardinality set_container_ops example_bitmap_2) :=
  ⟨example_bitmap_1_valid, example_bitmap_2_valid,
    cardinality_inclusion_exclusion set_container_ops set_cardinality_spec
      set_nonzero_cardinality_spec set_container_and_spec set_container_or_spec
      set_container_xor_spec example_bitmap_1 example_bitmap_2
      example_bitmap_1_valid example_bitmap_2_valid⟩

/-- C20: given correct container operations, on valid bitmaps `x1`, `x2` the
four counting functions agree with the cardinality of the materialised
combination: `roaring_bitmap_and_cardinality` with `roaring_bitmap_and`,
`roaring_bitmap_or_cardinality` with `roaring_bitmap_or`,
`roaring_bitmap_xor_cardinality` with `roaring_bitmap_xor` and
`roaring_bitmap_andnot_cardinality` with `roaring_bitmap_andnot`; and none of
the 64-bit subtractions `c1 + c2 - inter`, `c1 - inter`, `c1 + c2 - 2 * inter`
underflows. -/
theorem cardinality_functions_correct (ops : ContainerOps C)
    (hcard : cardinality_spec ops) (hnz : nonzero_cardinality_spec ops)
    (hand : container_and_spec ops) (hor : container_or_spec ops)
    (hxor : container_xor_spec ops) (handnot : container_andnot_spec ops)
    (hac : container_and_cardinality_spec ops)
    (x1 x2 : roaring_bitmap_t C) (h1 : valid ops x1) (h2 : valid ops x2) :
    roaring_bitmap_and_cardinality ops x1 x2
      = roaring_bitmap_get_cardinality ops (roaring_bitmap_and ops x1 x2)
    ∧ roaring_bitmap_or_cardinality ops x1 x2
      = roaring_bitmap_get_cardinality ops (roaring_bitmap_or ops x1 x2)
    ∧ roaring_bitmap_xor_cardinality ops x1 x2
      = roaring_bitmap_get_cardinality ops (roaring_bitmap_xor ops x1 x2)
    ∧ roaring_bitmap_andnot_cardinality ops x1 x2
      = roaring_bitmap_get_cardinality ops (roaring_bitmap_andnot ops x1 x2)
    ∧ roaring_bitmap_and_cardinality ops x1 x2
      ≤ roaring_bitmap_get_cardinality ops x1 + roaring_bitmap_get_cardinality ops x2
    ∧ roaring_bitmap_and_cardinality ops x1 x2 ≤ roaring_bitmap_get_cardinality ops x1
    ∧ 2 * roaring_bitmap_and_cardinality ops x1 x2
      ≤ roaring_bitmap_get_cardinality ops x1 + roaring_bitmap_get_cardinality ops x2 := by
  have b1 := roaring_bitmap_get_cardinality_le ops hcard x1 h1
  have b2 := roaring_bitmap_get_cardinality_le ops hcard x2 h2
  have e0 := roaring_bitmap_and_cardinality_eq ops hcard hnz hand hac x1 x2
  have e1 := ra_cardinality_or_merge ops hcard hnz hand hor
    x1.high_low_container x2.high_low_container
  have e2 := ra_cardinality_xor_merge ops hcard hnz hand hxor
    x1.high_low_container x2.high_low_container
  have e3 := ra_cardinality_andnot_merge ops hcard hnz hand handnot
    x1.high_low_container x2.high_low_container
  unfold roaring_bitmap_or_cardinality roaring_bitmap_xor_cardinality
    roaring_bitmap_andnot_cardinality
  simp only [roaring_bitmap_get_cardinality_eq, roaring_bitmap_or_eq, roaring_bitmap_and_eq,
    roaring_bitmap_xor_eq, roaring_bitmap_andnot_eq] at b1 b2 ⊢
  rw [e0]
  generalize ra_cardinality ops (and_merge ops x1.high_low_container x2.high_low_container)
    = i at e1 e2 e3 ⊢
  generalize ra_cardinality ops x1.high_low_container = c1 at b1 e1 e2 e3 ⊢
  generalize ra_cardinality ops x2.high_low_container = c2 at b2 e1 e2 e3 ⊢
  have m1 : (c1 + c2) % 2 ^ 64 = c1 + c2 := Nat.mod_eq_of_lt (by norm_num; omega)
  have m2 : (2 * i) % 2 ^ 64 = 2 * i := Nat.mod_eq_of_lt (by norm_num; omega)
  rw [m1, m2, uint64_sub_eq _ _ (by omega) (by norm_num; omega),
    uint64_sub_eq _ _ (by omega) (by norm_num; omega),
    uint64_sub_eq _ _ (by omega) (by norm_num; omega)]
  refine ⟨rfl, ?_, ?_, ?_, ?_, ?_, ?_⟩ <;> omega

theorem cardinality_functions_correct_witness :
    valid set_container_ops example_bitmap_1 ∧ valid set_container_ops example_bitmap_2
    ∧ (roaring_bitmap_and_cardinality set_container_ops example_bitmap_1 example_bitmap_2
      = roaring_bitmap_get_cardinality set_container_ops
          (roaring_bitmap_and set_container_ops example_bitmap_1 example_bitmap_2)
    ∧ roaring_bitmap_or_cardinality set_container_ops example_bitmap_1 example_bitmap_2
      = roaring_bitmap_get_cardinality set_container_ops
          (roaring_bitmap_or set_container_ops example_bitmap_1 example_bitmap_2)
    ∧ roaring_bitmap_xor_cardinality set_container_ops example_bitmap_1 example_bitmap_2
      = roaring_bitmap_get_cardinality set_container_ops
          (roaring_bitmap_xor set_container_ops example_bitmap_1 example_bitmap_2)
    ∧ roaring_bitmap_andnot_cardinality set_container_ops example_bitmap_1 example_bitmap_2
      = roaring_bitmap_get_cardinality set_container_ops
          (roaring_bitmap_andnot set_container_ops example_bitmap_1 example_bitmap_2)
    ∧ roaring_bitmap_and_cardinality set_container_ops example_bitmap_1 example_bitmap_2
      ≤ roaring_bitmap_get_cardinality set_container_ops example_bitmap_1
        + roaring_bitmap_get_cardinality set_container_ops example_bitmap_2
    ∧ roaring_bitmap_and_cardinality set_container_ops example_bitmap_1 example_bitmap_2
      ≤ roaring_bitmap_get_cardinality set_container_ops example_bitmap_1
    ∧ 2 * roaring_bitmap_and_cardinality set_container_ops example_bitmap_1 example_bitmap_2
      ≤ roaring_bitmap_get_cardinality set_container_ops example_bitmap_1
        + roaring_bitmap_get_cardinality set_container_ops example_bitmap_2) :=
  ⟨example_bitmap_1_valid, example_bitmap_2_valid,
    cardinality_functions_correct set_container_ops set_cardinality_spec
      set_nonzero_cardinality_spec set_container_and_spec set_container_or_spec
      set_container_xor_spec set_container_andnot_spec set_container_and_cardinality_spec
      example_bitmap_1 example_bitmap_2 example_bitmap_1_valid example_bitmap_2_valid⟩

/-- C15: given correct `container_get_cardinality` and `container_rank`, for a
valid bitmap `bm` and every 32-bit `x`, `roaring_bitmap_rank bm x` is the number
of elements of `bm` that are at most `x`; nothing is assumed about the high key
of `x`, which may be absent from the directory or above every key. -/
theorem roaring_bitmap_rank_correct (ops : ContainerOps C)
    (hcard : cardinality_spec ops) (hrank : container_rank_spec ops)
    (bm : roaring_bitmap_t C) (hbm : valid ops bm) (x : Nat) (hx : x < 2 ^ 32) :
    roaring_bitmap_rank ops bm x
      = (List.range (x + 1)).countP (fun v => roaring_bitmap_contains ops bm v) := by
  unfold roaring_bitmap_rank
  rw [roaring_bitmap_rank_loop_eq ops hcard hrank _ _ (Nat.mod_lt _ (by decide)) _ hbm.1,
    Nat.zero_add, show x / 65536 * 65536 + x % 65536 = x by omega]
  apply List.countP_congr
  intro v hv
  rw [roaring_bitmap_contains_eq_ra_contains ops bm hbm.1 v
    (by have := List.mem_range.1 hv; omega)]

theorem roaring_bitmap_rank_correct_witness :
    valid set_container_ops example_bitmap_3 ∧ 100 < 2 ^ 32
    ∧ roaring_bitmap_rank set_container_ops example_bitmap_3 100
      = (List.range (100 + 1)).countP
          (fun v => roaring_bitmap_contains set_container_ops example_bitmap_3 v)
    ∧ roaring_bitmap_rank set_container_ops example_bitmap_3 100 = 4 :=
  ⟨example_bitmap_3_valid, by decide,
    roaring_bitmap_rank_correct set_container_ops set_cardinality_spec
      set_container_rank_spec example_bitmap_3 example_bitmap_3_valid 100 (by decide),
    by decide⟩

/-- C16: given correct `container_rank` and `container_select`, for a valid
bitmap `b` and every `k` below its cardinality, `roaring_bitmap_select b k`
returns true, the value it stores is an element of `b`, and the rank of that
value is `k + 1`. -/
theorem roaring_bitmap_select_correct (ops : ContainerOps C)
    (hrank : container_rank_spec ops) (hsel : container_select_spec ops)
    (b : roaring_bitmap_t C) (hb : valid ops b) (k element : Nat)
    (hk : k < roaring_bitmap_get_cardinality ops b) :
    (roaring_bitmap_select ops b k element).1 = true
    ∧ roaring_bitmap_contains ops b (roaring_bitmap_select ops b k element).2 = true
    ∧ roaring_bitmap_rank ops b (roaring_bitmap_select ops b k element).2 = k + 1 := by
  rw [roaring_bitmap_get_cardinality_eq] at hk
  obtain ⟨A, e, B, lo, hsplit, hloop, hlo, hc, hcount⟩ :=
    roaring_bitmap_select_loop_found ops hsel k b.high_low_container 0 element
      (Nat.zero_le _) (by omega)
  have hmem : e ∈ b.high_low_container := by
    rw [hsplit]
    exact List.mem_append_right _ (List.mem_cons_self _ _)
  have hkey := hb.2.1 e hmem
  have hs := hb.1
  rw [hsplit, keys_sorted_append_cons] at hs
  unfold roaring_bitmap_select
  rw [hloop, lor_key lo e.1 hlo hkey]
  refine ⟨rfl, roaring_bitmap_contains_of_mem ops b hb e hmem lo hlo hc, ?_⟩
  unfold roaring_bitmap_rank
  have h1 : (e.1 * 65536 + lo) / 65536 = e.1 := by omega
  have h2 : (e.1 * 65536 + lo) % 65536 = lo := by omega
  simp only [h1, h2]
  rw [hsplit, show e = (e.1, e.2) from rfl,
    roaring_bitmap_rank_loop_split ops e.1 lo A B e.2 hs.2.2.1, hrank e.2 lo hlo,
    countP_range_succ]
  simp only [hc, if_true]
  omega

theorem roaring_bitmap_select_correct_witness :
    valid set_container_ops example_bitmap_1
    ∧ 1 < roaring_bitmap_get_cardinality set_container_ops example_bitmap_1
    ∧ (roaring_bitmap_select set_container_ops example_bitmap_1 1 0).1 = true
    ∧ roaring_bitmap_contains set_container_ops example_bitmap_1
        (roaring_bitmap_select set_container_ops example_bitmap_1 1 0).2 = true
    ∧ roaring_bitmap_rank set_container_ops example_bitmap_1
        (roaring_bitmap_select set_container_ops example_bitmap_1 1 0).2 = 1 + 1 :=
  ⟨example_bitmap_1_valid, by rw [example_bitmap_1_cardinality]; decide,
    roaring_bitmap_select_correct set_container_ops set_container_rank_spec
      set_container_select_spec example_bitmap_1 example_bitmap_1_valid 1 0
      (by rw [example_bitmap_1_cardinality]; decide)⟩

/-- C17: given a correct `container_select`, for every rank that is at least
the cardinality of `bm`, `roaring_bitmap_select` returns false and leaves
`*element` with the value it had; on the empty bitmap this is so for every
rank. -/
theorem roaring_bitmap_select_out_of_range (ops : ContainerOps C)
    (hsel : container_select_spec ops) (bm : roaring_bitmap_t C) (rank element : Nat)
    (h : roaring_bitmap_get_cardinality ops bm ≤ rank) :
    roaring_bitmap_select ops bm rank element = (false, element)
    ∧ ∀ r e, roaring_bitmap_select ops (roaring_bitmap_create : roaring_bitmap_t C) r e
        = (false, e) := by
  rw [roaring_bitmap_get_cardinality_eq] at h
  refine ⟨?_, fun r e => rfl⟩
  unfold roaring_bitmap_select
  exact roaring_bitmap_select_loop_not_found ops hsel rank _ 0 element (by omega)

theorem roaring_bitmap_select_out_of_range_witness :
    roaring_bitmap_get_cardinality set_container_ops example_bitmap_1 ≤ 2
    ∧ roaring_bitmap_select set_container_ops example_bitmap_1 2 7 = (false, 7)
    ∧ ∀ r e, roaring_bitmap_select set_container_ops
        (roaring_bitmap_create : roaring_bitmap_t (Nat → Bool)) r e = (false, e) :=
  ⟨by rw [example_bitmap_1_cardinality],
    roaring_bitmap_select_out_of_range set_container_ops set_container_select_spec
      example_bitmap_1 2 7 (by rw [example_bitmap_1_cardinality])⟩

/-- C18: given correct `container_minimum` and `container_maximum`, on a valid
bitmap `bm` that has an element, `roaring_bitmap_minimum bm` is the smallest
element and `roaring_bitmap_maximum bm` is the largest element; on a valid
bitmap without elements `roaring_bitmap_minimum` returns `UINT32_MAX` and
`roaring_bitmap_maximum` returns 0. -/
theorem roaring_bitmap_minimum_maximum_correct (ops : ContainerOps C)
    (hmin : container_minimum_spec ops) (hmax : container_maximum_spec ops)
    (bm : roaring_bitmap_t C) (hbm : valid ops bm) :
    ((∃ v, v < 2 ^ 32 ∧ roaring_bitmap_contains ops bm v = true) →
      roaring_bitmap_contains ops bm (roaring_bitmap_minimum ops bm) = true
      ∧ (∀ v, v < 2 ^ 32 → roaring_bitmap_contains ops bm v = true →
          roaring_bitmap_minimum ops bm ≤ v)
      ∧ roaring_bitmap_contains ops bm (roaring_bitmap_maximum ops bm) = true
      ∧ (∀ v, v < 2 ^ 32 → roaring_bitmap_contains ops bm v = true →
          v ≤ roaring_bitmap_maximum ops bm))
    ∧ ((∀ v, v < 2 ^ 32 → roaring_bitmap_contains ops bm v = false) →
      roaring_bitmap_minimum ops bm = UINT32_MAX ∧ roaring_bitmap_maximum ops bm = 0) := by
  constructor
  · rintro ⟨v0, hv0, hc0⟩
    obtain ⟨e0, he0, _, _⟩ := mem_of_roaring_bitmap_contains ops bm hbm v0 hv0 hc0
    refine ⟨?_, ?_, ?_, ?_⟩
    · -- the minimum is an element
      obtain ⟨e, t, hl⟩ : ∃ e t, bm.high_low_container = e :: t := by
        cases hl : bm.high_low_container with
        | nil => rw [hl] at he0; simp at he0
        | cons e t => exact ⟨e, t, rfl⟩
      have hmem : e ∈ bm.high_low_container := by rw [hl]; exact List.mem_cons_self _ _
      obtain ⟨g1, g2, _⟩ := hmin e.2 (hbm.2.2 e hmem)
      unfold roaring_bitmap_minimum
      rw [hl]
      simp only [List.head?_cons]
      rw [lor_key _ e.1 g1 (hbm.2.1 e hmem)]
      exact roaring_bitmap_contains_of_mem ops bm hbm e hmem _ g1 g2
    · -- the minimum is below every element
      intro v hv hc
      obtain ⟨e2, he2, hk2, hc2⟩ := mem_of_roaring_bitmap_contains ops bm hbm v hv hc
      obtain ⟨e, t, hl⟩ : ∃ e t, bm.high_low_container = e :: t := by
        cases hl : bm.high_low_container with
        | nil => rw [hl] at he0; simp at he0
        | cons e t => exact ⟨e, t, rfl⟩
      have hmem : e ∈ bm.high_low_container := by rw [hl]; exact List.mem_cons_self _ _
      obtain ⟨g1, _, g3⟩ := hmin e.2 (hbm.2.2 e hmem)
      have hs := hbm.1
      rw [hl] at hs he2
      unfold roaring_bitmap_minimum
      rw [hl]
      simp only [List.head?_cons]
      rw [lor_key _ e.1 g1 (hbm.2.1 e hmem)]
      rcases List.mem_cons.1 he2 with h | h
      · rw [h] at hk2 hc2
        have := g3 (v % 65536) (Nat.mod_lt _ (by decide)) hc2
        omega
      · have := ((keys_sorted_cons e t).1 hs).1 e2.1 (List.mem_map.2 ⟨e2, h, rfl⟩)
        omega
    · -- the maximum is an element
      obtain ⟨L, e, hl⟩ : ∃ L e, bm.high_low_container = L ++ [e] := by
        rcases List.eq_nil_or_concat bm.high_low_container with h | h
        · rw [h] at he0; simp at he0
        · obtain ⟨L, e, h⟩ := h
          exact ⟨L, e, by rw [h, List.concat_eq_append]⟩
      have hmem : e ∈ bm.high_low_container := by rw [hl]; simp
      obtain ⟨g1, g2, _⟩ := hmax e.2 (hbm.2.2 e hmem)
      unfold roaring_bitmap_maximum
      rw [hl]
      rw [List.getLast?_concat]
      simp only
      rw [lor_key _ e.1 g1 (hbm.2.1 e hmem)]
      exact roaring_bitmap_contains_of_mem ops bm hbm e hmem _ g1 g2
    · -- the maximum is above every element
      intro v hv hc
      obtain ⟨e2, he2, hk2, hc2⟩ := mem_of_roaring_bitmap_contains ops bm hbm v hv hc
      obtain ⟨L, e, hl⟩ : ∃ L e, bm.high_low_container = L ++ [e] := by
        rcases List.eq_nil_or_concat bm.high_low_container with h | h
        · rw [h] at he0; simp at he0
        · obtain ⟨L, e, h⟩ := h
          exact ⟨L, e, by rw [h, List.concat_eq_append]⟩
      have hmem : e ∈ bm.high_low_container := by rw [hl]; simp
      obtain ⟨g1, _, g3⟩ := hmax e.2 (hbm.2.2 e hmem)
      have hs := hbm.1
      rw [hl] at hs he2
      unfold roaring_bitmap_maximum
      rw [hl]
      rw [List.getLast?_concat]
      simp only
      rw [lor_key _ e.1 g1 (hbm.2.1 e hmem)]
      rcases List.mem_append.1 he2 with h | h
      · have := ((keys_sorted_append L [e]).1 hs).2.2 e2 h e (List.mem_singleton_self _)
        omega
      · rw [List.mem_singleton] at h
        rw [h] at hk2 hc2
        have := g3 (v % 65536) (Nat.mod_lt _ (by decide)) hc2
        omega
  · intro hnone
    have hl : bm.high_low_container = [] := by
      cases hl : bm.high_low_container with
      | nil => rfl
      | cons e t =>
        have hmem : e ∈ bm.high_low_container := by rw [hl]; exact List.mem_cons_self _ _
        obtain ⟨lo, hlo, hc⟩ := hbm.2.2 e hmem
        have hk := hbm.2.1 e hmem
        have h1 := roaring_bitmap_contains_of_mem ops bm hbm e hmem lo hlo hc
        rw [hnone _ (by simp only [Nat.reducePow]; omega)] at h1
        exact absurd h1 (by simp)
    unfold roaring_bitmap_minimum roaring_bitmap_maximum
    rw [hl]
    exact ⟨rfl, rfl⟩

theorem roaring_bitmap_minimum_maximum_correct_witness :
    valid set_container_ops example_bitmap_1
    ∧ (∃ v, v < 2 ^ 32 ∧ roaring_bitmap_contains set_container_ops example_bitmap_1 v = true)
    ∧ roaring_bitmap_contains set_container_ops example_bitmap_1
        (roaring_bitmap_minimum set_container_ops example_bitmap_1) = true
    ∧ (∀ v, v < 2 ^ 32 → roaring_bitmap_contains set_container_ops example_bitmap_1 v = true →
        roaring_bitmap_minimum set_container_ops example_bitmap_1 ≤ v)
    ∧ roaring_bitmap_contains set_container_ops example_bitmap_1
        (roaring_bitmap_maximum set_container_ops example_bitmap_1) = true
    ∧ (∀ v, v < 2 ^ 32 → roaring_bitmap_contains set_container_ops example_bitmap_1 v = true →
        v ≤ roaring_bitmap_maximum set_container_ops example_bitmap_1) :=
  ⟨example_bitmap_1_valid, ⟨1, by decide, by decide⟩,
    (roaring_bitmap_minimum_maximum_correct set_container_ops set_container_minimum_spec
      set_container_maximum_spec example_bitmap_1 example_bitmap_1_valid).1
      ⟨1, by decide, by decide⟩⟩

/-- C13: the claim is that for every step of at least 1 and `min` below the
clamped `max`, `roaring_bitmap_from_range` returns the bitmap of the values
`min + k * step` below `max`, on both branches.  On the branch
`step >= 2^16` the call `roaring_bitmap_from_range(0, 0xFFFFFFFF, 0x80000000)`,
whose expected result is `{0, 2^31}`, does not return: whatever the number of
loop tests allowed, the `for` loop has not exited, because the 32-bit counter
wraps from `2^31 + 2^31` to 0.  (When the counter does not wrap the result is
the claimed one, see `roaring_bitmap_from_range_spec`.) -/
theorem roaring_bitmap_from_range_wraps (ops : ContainerOps C) (fuel : Nat) :
    roaring_bitmap_from_range ops fuel 0 0xFFFFFFFF 0x80000000 = none := by
  unfold roaring_bitmap_from_range
  simp only [ge_iff_le, Nat.reduceLeDiff, if_false, Nat.reduceEqDiff, if_true, Nat.zero_mod,
    Option.map_eq_none']
  exact roaring_bitmap_from_range_for_half ops _ fuel (by decide) _ 0 (Or.inl rfl)

/-- C14: the claim is that `roaring_bitmap_from_range` returns the null pointer
iff `step = 0` or `min >= min(max, 2^32)` and a bitmap for every other input.
The call `roaring_bitmap_from_range(0, 2^32, 65536)` is such an other input and
returns nothing: whatever the number of loop tests allowed, the `for` loop has
not exited, because every value of the 32-bit counter is below the bound
`2^32`. -/
theorem roaring_bitmap_from_range_never_returns (ops : ContainerOps C) (fuel : Nat) :
    roaring_bitmap_from_range ops fuel 0 0x100000000 65536 = none := by
  unfold roaring_bitmap_from_range
  simp only [ge_iff_le, Nat.reduceLeDiff, if_false, Nat.reduceEqDiff, if_true, Nat.zero_mod,
    Option.map_eq_none', le_refl]
  exact roaring_bitmap_from_range_for_full ops _ fuel _ 0 (by decide)

/-- C11: given correct `container_add_range` and `container_from_range`, for a
valid bitmap `ra` and 32-bit `min ≤ max`, after
`roaring_bitmap_add_range_closed` the elements are the old elements together
with all of `[min, max]`; the result is again valid, so its keys are strictly
increasing; every key of `[min >> 16, max >> 16]` occurs exactly once; and the
entries whose key lies outside that interval are those of the old directory,
unchanged.  With `min > max` the bitmap is returned as it was.  The content of
the slots opened by `ra_shift_tail` plays no part. -/
theorem roaring_bitmap_add_range_closed_correct (ops : ContainerOps C)
    (har : container_add_range_spec ops) (hfr : container_from_range_spec ops)
    (junk : Nat → Nat × C) (ra : roaring_bitmap_t C) (hra : valid ops ra)
    (min max : Nat) (hmax : max < 2 ^ 32) :
    (min ≤ max →
      (∀ v, v < 2 ^ 32 →
        (roaring_bitmap_contains ops (roaring_bitmap_add_range_closed ops junk ra min max) v
            = true
          ↔ roaring_bitmap_contains ops ra v = true ∨ (min ≤ v ∧ v ≤ max)))
      ∧ valid ops (roaring_bitmap_add_range_closed ops junk ra min max)
      ∧ (∀ k, min / 65536 ≤ k → k ≤ max / 65536 →
          ((roaring_bitmap_add_range_closed ops junk ra min max).high_low_container.map
            Prod.fst).count k = 1)
      ∧ (∀ e : Nat × C, e.1 < min / 65536 ∨ max / 65536 < e.1 →
          (e ∈ (roaring_bitmap_add_range_closed ops junk ra min max).high_low_container
            ↔ e ∈ ra.high_low_container)))
    ∧ (max < min → roaring_bitmap_add_range_closed ops junk ra min max = ra) := by
  constructor
  · intro hle
    obtain ⟨P, Cm, S, hl, hP, hCm, hS, hres⟩ :=
      roaring_bitmap_add_range_closed_eq ops junk ra hra.1 min max hle
    have hv : ra_valid ops (P ++ Cm ++ S) := by
      rw [← hl]
      exact hra
    have hsCm : keys_sorted Cm :=
      ((keys_sorted_append P Cm).1 ((keys_sorted_append (P ++ Cm) S).1 hv.1).1).2.1
    have hval : valid ops (roaring_bitmap_add_range_closed ops junk ra min max) := by
      unfold valid
      rw [hres]
      exact add_range_closed_valid ops har hfr min max hle hmax P Cm S hv hP hS
    refine ⟨?_, hval, ?_, ?_⟩
    · intro v hv2
      have hlb : v % 65536 < 65536 := Nat.mod_lt _ (by decide)
      have hdm : v / 65536 * 65536 + v % 65536 = v := by omega
      rw [roaring_bitmap_contains_eq_ra_contains ops _ hval.1 v hv2,
        roaring_bitmap_contains_eq_ra_contains ops _ hra.1 v hv2, ra_contains_iff,
        ra_contains_iff, hres, hl]
      simp only [ra_has_append]
      rw [ra_has_add_range_mid ops har hfr min max hle Cm hsCm hCm _ _ hlb, hdm]
      constructor
      · rintro ((h | h | h) | h)
        · exact Or.inl (Or.inl (Or.inl h))
        · exact Or.inl (Or.inl (Or.inr h))
        · exact Or.inr h
        · exact Or.inl (Or.inr h)
      · rintro (((h | h) | h) | h)
        · exact Or.inl (Or.inl h)
        · exact Or.inl (Or.inr (Or.inl h))
        · exact Or.inr h
        · exact Or.inl (Or.inr (Or.inr h))
    · intro k hk1 hk2
      apply List.count_eq_one_of_mem
      · have := (keys_sorted_iff_map _).1 hval.1
        exact this.imp (fun h => Nat.ne_of_lt h)
      · rw [hres]
        refine List.mem_map.2 ⟨(k, add_range_closed_container ops min max (Cm.lookup k) k),
          ?_, rfl⟩
        apply List.mem_append_left
        apply List.mem_append_right
        exact (mem_add_range_mid ops min max Cm _).2 ⟨⟨hk1, by omega⟩, rfl⟩
    · intro e he
      rw [hres, hl]
      simp only [List.mem_append]
      constructor
      · rintro ((h | h) | h)
        · exact Or.inl (Or.inl h)
        · have := ((mem_add_range_mid ops min max Cm e).1 h).1
          omega
        · exact Or.inr h
      · rintro ((h | h) | h)
        · exact Or.inl (Or.inl h)
        · have := hCm e h
          omega
        · exact Or.inr h
  · intro hlt
    unfold roaring_bitmap_add_range_closed
    rw [if_pos hlt]

theorem roaring_bitmap_add_range_closed_correct_witness :
    valid set_container_ops example_bitmap_1 ∧ 70000 < 2 ^ 32
    ∧ ((10 ≤ 70000 →
      (∀ v, v < 2 ^ 32 →
        (roaring_bitmap_contains set_container_ops
            (roaring_bitmap_add_range_closed set_container_ops (fun _ => (0, fun _ => false))
              example_bitmap_1 10 70000) v = true
          ↔ roaring_bitmap_contains set_container_ops example_bitmap_1 v = true
            ∨ (10 ≤ v ∧ v ≤ 70000)))
      ∧ valid set_container_ops
          (roaring_bitmap_add_range_closed set_container_ops (fun _ => (0, fun _ => false))
            example_bitmap_1 10 70000)
      ∧ (∀ k, 10 / 65536 ≤ k → k ≤ 70000 / 65536 →
          ((roaring_bitmap_add_range_closed set_container_ops (fun _ => (0, fun _ => false))
            example_bitmap_1 10 70000).high_low_container.map Prod.fst).count k = 1)
      ∧ (∀ e : Nat × (Nat → Bool), e.1 < 10 / 65536 ∨ 70000 / 65536 < e.1 →
          (e ∈ (roaring_bitmap_add_range_closed set_container_ops
              (fun _ => (0, fun _ => false)) example_bitmap_1 10 70000).high_low_container
            ↔ e ∈ example_bitmap_1.high_low_container)))
    ∧ (70000 < 10 → roaring_bitmap_add_range_closed set_container_ops
        (fun _ => (0, fun _ => false)) example_bitmap_1 10 70000 = example_bitmap_1)) :=
  ⟨example_bitmap_1_valid, by decide,
    roaring_bitmap_add_range_closed_correct set_container_ops set_container_add_range_spec
      set_container_from_range_spec (fun _ => (0, fun _ => false)) example_bitmap_1
      example_bitmap_1_valid 10 70000 (by decide)⟩

/-- C12: given a correct `container_remove_range`, for a valid bitmap `ra` and
32-bit `min ≤ max`, after `roaring_bitmap_remove_range_closed` the elements are
the old elements outside `[min, max]`; the result is valid, so no empty
container is left; an entry whose container was emptied has no key in the
result; the directory is shorter by exactly the number of emptied containers;
and the entries with a key outside `[min >> 16, max >> 16]` are unchanged.  With
`min > max` the bitmap is returned as it was.  Given also correct
`container_add_range` and `container_from_range`, adding `[10, 20)` to the empty
bitmap and removing `[15, 17)` leaves `{10, ..., 14, 17, 18, 19}`. -/
theorem roaring_bitmap_remove_range_closed_correct (ops : ContainerOps C)
    (har : container_add_range_spec ops) (hfr : container_from_range_spec ops)
    (hrr : container_remove_range_spec ops)
    (junk : Nat → Nat × C) (ra : roaring_bitmap_t C) (hra : valid ops ra)
    (min max : Nat) (_hmax : max < 2 ^ 32) :
    (min ≤ max →
      (∀ v, v < 2 ^ 32 →
        (roaring_bitmap_contains ops (roaring_bitmap_remove_range_closed ops junk ra min max) v
            = true
          ↔ roaring_bitmap_contains ops ra v = true ∧ ¬ (min ≤ v ∧ v ≤ max)))
      ∧ valid ops (roaring_bitmap_remove_range_closed ops junk ra min max)
      ∧ (∀ e ∈ ra.high_low_container, min / 65536 ≤ e.1 → e.1 ≤ max / 65536 →
          remove_range_closed_entry ops min max e = none →
          e.1 ∉ (roaring_bitmap_remove_range_closed ops junk ra min max).high_low_container.map
            Prod.fst)
      ∧ (roaring_bitmap_remove_range_closed ops junk ra min max).high_low_container.length
          + ra.high_low_container.countP (fun e =>
              decide (min / 65536 ≤ e.1 ∧ e.1 ≤ max / 65536)
                && (remove_range_closed_entry ops min max e).isNone)
          = ra.high_low_container.length
      ∧ (∀ e : Nat × C, e.1 < min / 65536 ∨ max / 65536 < e.1 →
          (e ∈ (roaring_bitmap_remove_range_closed ops junk ra min max).high_low_container
            ↔ e ∈ ra.high_low_container)))
    ∧ (max < min → roaring_bitmap_remove_range_closed ops junk ra min max = ra)
    ∧ (∀ v, v < 2 ^ 32 →
        (roaring_bitmap_contains ops
            (roaring_bitmap_remove_range_closed ops junk
              (roaring_bitmap_add_range_closed ops junk roaring_bitmap_create 10 19) 15 16) v
            = true
          ↔ (10 ≤ v ∧ v ≤ 14) ∨ (17 ≤ v ∧ v ≤ 19))) := by
  refine ⟨?_, ?_, ?_⟩
  · intro hle
    obtain ⟨hval, hsem⟩ := roaring_bitmap_remove_range_closed_spec ops hrr junk ra hra min max hle
    obtain ⟨P, Cm, S, hl, hP, hCm, hS, hres⟩ :=
      roaring_bitmap_remove_range_closed_eq ops junk ra hra.1 min max hle
    have hs := hra.1
    rw [hl] at hs
    have hkeys : min / 65536 ≤ max / 65536 := Nat.div_le_div_right hle
    refine ⟨hsem, hval, ?_, ?_, ?_⟩
    · intro e he hk1 hk2 hnone hmem
      rw [hres] at hmem
      obtain ⟨x, hx, hxe⟩ := List.mem_map.1 hmem
      rw [hl] at he
      have heCm : e ∈ Cm := by
        rcases List.mem_append.1 he with h | h
        · rcases List.mem_append.1 h with h | h
          · have := hP e h
            omega
          · exact h
        · have := hS e h
          omega
      rcases List.mem_append.1 hx with h | h
      · rcases List.mem_append.1 h with h | h
        · have := hP x h
          omega
        · obtain ⟨c, hc, hr⟩ := (mem_filterMap_remove_range ops min max Cm x).1 h
          rw [hxe] at hc hr
          have hc2 : (e.1, c) ∈ P ++ Cm ++ S := by simp [hc]
          have he2 : (e.1, e.2) ∈ P ++ Cm ++ S := by simp [heCm]
          have hce := mem_unique_of_sorted _ hs e.1 c e.2 hc2 he2
          rw [hce] at hr
          unfold remove_range_closed_entry at hnone
          rw [hr] at hnone
          simp at hnone
      · have := hS x h
        omega
    · rw [hres, hl]
      simp only [List.length_append, List.countP_append]
      rw [countP_eq_zero_of_forall _ P (fun e he => by
          have := hP e he
          have h1 : ¬ (min / 65536 ≤ e.1 ∧ e.1 ≤ max / 65536) := by omega
          simp [h1]),
        countP_eq_zero_of_forall _ S (fun e he => by
          have := hS e he
          have h1 : ¬ (min / 65536 ≤ e.1 ∧ e.1 ≤ max / 65536) := by omega
          simp [h1])]
      have hc : Cm.countP (fun e =>
            decide (min / 65536 ≤ e.1 ∧ e.1 ≤ max / 65536)
              && (remove_range_closed_entry ops min max e).isNone)
          = Cm.countP (fun e => (remove_range_closed_entry ops min max e).isNone) := by
        apply List.countP_congr
        intro e he
        have := hCm e he
        simp [this]
      have := length_filterMap_add_countP_none (remove_range_closed_entry ops min max) Cm
      rw [hc]
      omega
    · intro e he
      rw [hres, hl]
      simp only [List.mem_append]
      constructor
      · rintro ((h | h) | h)
        · exact Or.inl (Or.inl h)
        · obtain ⟨c, hc, _⟩ := (mem_filterMap_remove_range ops min max Cm e).1 h
          have := hCm _ hc
          simp only at this
          omega
        · exact Or.inr h
      · rintro ((h | h) | h)
        · exact Or.inl (Or.inl h)
        · have := hCm e h
          omega
        · exact Or.inr h
  · intro hlt
    unfold roaring_bitmap_remove_range_closed
    rw [if_pos hlt]
  · intro v hv
    obtain ⟨hval, hadd⟩ := roaring_bitmap_add_range_closed_spec ops har hfr junk
      roaring_bitmap_create (valid_create ops) 10 19 (by decide) (by decide)
    obtain ⟨_, hrem⟩ := roaring_bitmap_remove_range_closed_spec ops hrr junk _ hval 15 16
      (by decide)
    rw [hrem v hv, hadd v hv, roaring_bitmap_contains_create]
    simp only [Bool.false_eq_true, false_or]
    omega

theorem roaring_bitmap_remove_range_closed_correct_witness :
    valid set_container_ops example_bitmap_1 ∧ 65537 < 2 ^ 32
    ∧ ((1 ≤ 65537 →
      (∀ v, v < 2 ^ 32 →
        (roaring_bitmap_contains set_container_ops
            (roaring_bitmap_remove_range_closed set_container_ops
              (fun _ => (0, fun _ => false)) example_bitmap_1 1 65537) v = true
          ↔ roaring_bitmap_contains set_container_ops example_bitmap_1 v = true
            ∧ ¬ (1 ≤ v ∧ v ≤ 65537)))
      ∧ valid set_container_ops
          (roaring_bitmap_remove_range_closed set_container_ops
            (fun _ => (0, fun _ => false)) example_bitmap_1 1 65537)
      ∧ (∀ e ∈ example_bitmap_1.high_low_container, 1 / 65536 ≤ e.1 → e.1 ≤ 65537 / 65536 →
          remove_range_closed_entry set_container_ops 1 65537 e = none →
          e.1 ∉ (roaring_bitmap_remove_range_closed set_container_ops
            (fun _ => (0, fun _ => false)) example_bitmap_1 1 65537).high_low_container.map
            Prod.fst)
      ∧ (roaring_bitmap_remove_range_closed set_container_ops
            (fun _ => (0, fun _ => false)) example_bitmap_1 1 65537).high_low_container.length
          + example_bitmap_1.high_low_container.countP (fun e =>
              decide (1 / 65536 ≤ e.1 ∧ e.1 ≤ 65537 / 65536)
                && (remove_range_closed_entry set_container_ops 1 65537 e).isNone)
          = example_bitmap_1.high_low_container.length
      ∧ (∀ e : Nat × (Nat → Bool), e.1 < 1 / 65536 ∨ 65537 / 65536 < e.1 →
          (e ∈ (roaring_bitmap_remove_range_closed set_container_ops
              (fun _ => (0, fun _ => false)) example_bitmap_1 1 65537).high_low_container
            ↔ e ∈ example_bitmap_1.high_low_container)))
    ∧ (65537 < 1 → roaring_bitmap_remove_range_closed set_container_ops
        (fun _ => (0, fun _ => false)) example_bitmap_1 1 65537 = example_bitmap_1)
    ∧ (∀ v, v < 2 ^ 32 →
        (roaring_bitmap_contains set_container_ops
            (roaring_bitmap_remove_range_closed set_container_ops
              (fun _ => (0, fun _ => false))
              (roaring_bitmap_add_range_closed set_container_ops
                (fun _ => (0, fun _ => false)) roaring_bitmap_create 10 19) 15 16) v
            = true
          ↔ (10 ≤ v ∧ v ≤ 14) ∨ (17 ≤ v ∧ v ≤ 19)))) := by
  have h := roaring_bitmap_remove_range_closed_correct set_container_ops
    set_container_add_range_spec set_container_from_range_spec
    set_container_remove_range_spec (fun _ => (0, fun _ => false)) example_bitmap_1
    example_bitmap_1_valid 1 65537 (by decide)
  exact ⟨example_bitmap_1_valid, by decide, h⟩

theorem subset_merge_dropWhile_right (ops : ContainerOps C) (l2 : roaring_array_t C)
    (e1 : Nat × C) (t1 : roaring_array_t C) :
    subset_merge ops (e1 :: t1) (l2.dropWhile (fun e => decide (e.1 < e1.1)))
      = subset_merge ops (e1 :: t1) l2 := by
  induction l2 with
  | nil => simp
  | cons a t ih =>
    by_cases h : a.1 < e1.1
    · rw [List.dropWhile_cons_of_pos (by simpa using h), ih]
      conv_rhs => rw [subset_merge]
      have h1 : ¬ e1.1 = a.1 := by omega
      have h2 : ¬ e1.1 < a.1 := by omega
      simp [h1, h2]
    · rw [List.dropWhile_cons_of_neg (by simpa using h)]

/-- The loop of `roaring_bitmap_is_subset` is the two-cursor inclusion test of
the unread parts of both directories. -/
theorem roaring_bitmap_is_subset_loop_eq (ops : ContainerOps C) (x1 x2 : roaring_array_t C)
    (pos1 pos2 : Nat) (hp : pos1 ≤ x1.length) :
    roaring_bitmap_is_subset_loop ops x1 x2 pos1 pos2
      = subset_merge ops (x1.drop pos1) (x2.drop pos2) := by
  induction pos1, pos2 using roaring_bitmap_is_subset_loop.induct ops x1 x2 with
  | case1 pos1 pos2 h s1 s2 hs subset hc =>
    rw [roaring_bitmap_is_subset_loop, dif_pos h]
    simp only [s1, s2] at hs
    simp only [subset] at hc
    rw [List.drop_eq_getElem_cons h.1, List.drop_eq_getElem_cons h.2, subset_merge]
    simp [hs, hc]
  | case2 pos1 pos2 h s1 s2 hs subset hc ih =>
    rw [roaring_bitmap_is_subset_loop, dif_pos h]
    simp only [s1, s2] at hs
    simp only [subset] at hc
    rw [List.drop_eq_getElem_cons h.1, List.drop_eq_getElem_cons h.2, subset_merge, ih h.1]
    simp [hs, hc]
  | case3 pos1 pos2 h s1 s2 hne hlt =>
    rw [roaring_bitmap_is_subset_loop, dif_pos h]
    simp only [s1, s2] at hne hlt
    rw [List.drop_eq_getElem_cons h.1, List.drop_eq_getElem_cons h.2, subset_merge]
    simp [hne, hlt]
  | case4 pos1 pos2 h s1 s2 hne hlt ih =>
    rw [roaring_bitmap_is_subset_loop, dif_pos h]
    simp only [s1, s2] at hne hlt ih
    simp only [hne, if_false, hlt]
    rw [ih hp, drop_advance_until, List.drop_eq_getElem_cons h.1, subset_merge_dropWhile_right]
  | case5 pos1 pos2 h =>
    rw [roaring_bitmap_is_subset_loop, dif_neg h]
    rw [not_and_or] at h
    by_cases h1 : pos1 < x1.length
    · have h2 : ¬ pos2 < x2.length := by tauto
      rw [List.drop_eq_nil_of_le (Nat.le_of_not_lt h2), List.drop_eq_getElem_cons h1,
        subset_merge]
      simp
      omega
    · have e : pos1 = x1.length := by omega
      rw [List.drop_eq_nil_of_le (by omega), subset_merge]
      simp [e]


theorem subset_merge_iff (ops : ContainerOps C) (hsub : container_is_subset_spec ops)
    (l1 l2 : roaring_array_t C) (hs1 : keys_sorted l1)
    (hne : ∀ e ∈ l1, container_nonempty ops e.2) (hs2 : keys_sorted l2) :
    subset_merge ops l1 l2 = true
      ↔ ∀ hb lb, lb < 65536 → ra_has ops l1 hb lb → ra_has ops l2 hb lb := by
  induction l1, l2 using subset_merge.induct ops with
  | case1 l2 =>
    rw [subset_merge]
    simp [ra_has_nil]
  | case2 e1 t1 =>
    rw [subset_merge]
    obtain ⟨v, hv, hc⟩ := hne e1 (List.mem_cons_self _ _)
    simp only [Bool.false_eq_true, false_iff]
    intro h
    exact (ra_has_nil ops e1.1 v).1 (h e1.1 v hv ((ra_has_cons ops e1 t1 e1.1 v).2 (Or.inl ⟨rfl, hc⟩)))
  | case3 e1 t1 e2 t2 hk hc =>
    rw [subset_merge]
    simp only [hk, if_true, hc]
    simp only [Bool.false_eq_true, false_iff, if_true]
    intro h
    have hc' : ¬ ops.container_is_subset e1.2 e2.2 = true := by simpa using hc
    rw [hsub] at hc'
    push_neg at hc'
    obtain ⟨v, hv, h1, h2⟩ := hc'
    have := h e1.1 v hv ((ra_has_cons ops e1 t1 e1.1 v).2 (Or.inl ⟨rfl, h1⟩))
    rw [ra_has_cons] at this
    rcases this with ⟨_, h3⟩ | h3
    · exact h2 h3
    · have := ra_has_tail_lt ops e2 t2 hs2 _ _ h3
      omega
  | case4 e1 t1 e2 t2 hk hc ih =>
    rw [subset_merge]
    simp only [hk, if_true, hc]
    have hc' : ops.container_is_subset e1.2 e2.2 = true := by simpa using hc
    rw [hsub] at hc'
    simp only [Bool.false_eq_true, if_false]
    rw [ih ((keys_sorted_cons e1 t1).1 hs1).2 (fun e he => hne e (List.mem_cons_of_mem _ he))
      ((keys_sorted_cons e2 t2).1 hs2).2]
    constructor
    · intro h hb lb hlb h1
      rw [ra_has_cons] at h1 ⊢
      rcases h1 with ⟨h3, h4⟩ | h3
      · exact Or.inl ⟨by omega, hc' lb hlb h4⟩
      · exact Or.inr (h hb lb hlb h3)
    · intro h hb lb hlb h1
      have h2 := h hb lb hlb ((ra_has_cons ops e1 t1 hb lb).2 (Or.inr h1))
      have := ra_has_tail_lt ops e1 t1 hs1 _ _ h1
      rw [ra_has_cons] at h2
      rcases h2 with ⟨h3, _⟩ | h3
      · omega
      · exact h3
  | case5 e1 t1 e2 t2 hk hlt =>
    rw [subset_merge]
    simp only [hk, if_false, hlt, if_true]
    obtain ⟨v, hv, hc⟩ := hne e1 (List.mem_cons_self _ _)
    simp only [Bool.false_eq_true, false_iff]
    intro h
    have := h e1.1 v hv ((ra_has_cons ops e1 t1 e1.1 v).2 (Or.inl ⟨rfl, hc⟩))
    rw [ra_has_cons] at this
    rcases this with ⟨h3, _⟩ | h3
    · omega
    · have := ra_has_tail_lt ops e2 t2 hs2 _ _ h3
      omega
  | case6 e1 t1 e2 t2 hk hlt ih =>
    rw [subset_merge]
    simp only [hk, if_false, hlt]
    rw [ih hs1 hne ((keys_sorted_cons e2 t2).1 hs2).2]
    constructor
    · intro h hb lb hlb h1
      exact (ra_has_cons ops e2 t2 hb lb).2 (Or.inr (h hb lb hlb h1))
    · intro h hb lb hlb h1
      have h2 := h hb lb hlb h1
      rw [ra_has_cons] at h2
      rcases h2 with ⟨h3, _⟩ | h3
      · rw [ra_has_cons] at h1
        rcases h1 with ⟨h4, _⟩ | h4
        · omega
        · have := ra_has_tail_lt ops e1 t1 hs1 _ _ h4
          omega
      · exact h3


theorem roaring_bitmap_is_subset_eq (ops : ContainerOps C) (ra1 ra2 : roaring_bitmap_t C) :
    roaring_bitmap_is_subset ops ra1 ra2
      = subset_merge ops ra1.high_low_container ra2.high_low_container := by
  unfold roaring_bitmap_is_subset
  rw [roaring_bitmap_is_subset_loop_eq ops _ _ 0 0 (Nat.zero_le _)]
  simp

/-- Quantifying over 32-bit values is quantifying over (key, low part) pairs. -/
theorem forall_value_iff_forall_pair (P : Nat → Nat → Prop) :
    (∀ v, v < 2 ^ 32 → P ((v / 65536) % 65536) (v % 65536))
      ↔ ∀ hb lb, hb < 65536 → lb < 65536 → P hb lb := by
  constructor
  · intro h hb lb hhb hlb
    have := h (hb * 65536 + lb) (by omega)
    have e1 : (hb * 65536 + lb) / 65536 % 65536 = hb := by omega
    have e2 : (hb * 65536 + lb) % 65536 = lb := by omega
    rwa [e1, e2] at this
  · intro h v _
    exact h _ _ (Nat.mod_lt _ (by decide)) (Nat.mod_lt _ (by decide))

theorem ra_has_key_lt (ops : ContainerOps C) (l : roaring_array_t C)
    (hk : ∀ e ∈ l, e.1 < 65536) (hb lb : Nat) (h : ra_has ops l hb lb) : hb < 65536 := by
  obtain ⟨c, hc, _⟩ := h
  exact hk _ hc

/-- Inclusion test, element by element. -/
theorem roaring_bitmap_is_subset_iff (ops : ContainerOps C)
    (hsub : container_is_subset_spec ops) (ra1 ra2 : roaring_bitmap_t C)
    (h1 : valid ops ra1) (h2 : valid ops ra2) :
    roaring_bitmap_is_subset ops ra1 ra2 = true
      ↔ ∀ v, v < 2 ^ 32 → roaring_bitmap_contains ops ra1 v = true
          → roaring_bitmap_contains ops ra2 v = true := by
  rw [roaring_bitmap_is_subset_eq, subset_merge_iff ops hsub _ _ h1.1 h1.2.2 h2.1]
  have := forall_value_iff_forall_pair (fun hb lb =>
    ra_has ops ra1.high_low_container hb lb → ra_has ops ra2.high_low_container hb lb)
  simp only [← roaring_bitmap_contains_iff ops _ h1.1,
    ← roaring_bitmap_contains_iff ops _ h2.1] at this
  rw [this]
  constructor
  · intro h hb lb _ hlb
    exact h hb lb hlb
  · intro h hb lb hlb hh
    exact h hb lb (ra_has_key_lt ops _ h1.2.1 hb lb hh) hlb hh

theorem ra_valid_eq_nil_iff (ops : ContainerOps C) (l : roaring_array_t C)
    (hl : ra_valid ops l) :
    l = [] ↔ ∀ hb lb, lb < 65536 → ¬ ra_has ops l hb lb := by
  constructor
  · intro h hb lb _
    rw [h, ra_has_nil]
    exact id
  · intro h
    cases l with
    | nil => rfl
    | cons e t =>
      obtain ⟨v, hv, hc⟩ := hl.2.2 e (List.mem_cons_self _ _)
      exact absurd ((ra_has_cons ops e t e.1 v).2 (Or.inl ⟨rfl, hc⟩)) (h e.1 v hv)

/-- C21: given a correct container layer, for valid bitmaps `ra1` and `ra2`,
`roaring_bitmap_is_subset ra1 ra2` is true iff every 32-bit element of `ra1`
is an element of `ra2`, iff `roaring_bitmap_andnot ra1 ra2` is empty, and iff
`roaring_bitmap_and ra1 ra2` has exactly the elements of `ra1`; and
`roaring_bitmap_is_strict_subset ra1 ra2` is true iff `ra1` is a subset of
`ra2` and the cardinality of `ra2` exceeds that of `ra1`. -/
theorem roaring_bitmap_is_subset_correct (ops : ContainerOps C)
    (hsub : container_is_subset_spec ops) (hand : container_and_spec ops)
    (handnot : container_andnot_spec ops) (hnz : nonzero_cardinality_spec ops)
    (ra1 ra2 : roaring_bitmap_t C) (h1 : valid ops ra1) (h2 : valid ops ra2) :
    (roaring_bitmap_is_subset ops ra1 ra2 = true
      ↔ ∀ v, v < 2 ^ 32 → roaring_bitmap_contains ops ra1 v = true
          → roaring_bitmap_contains ops ra2 v = true)
    ∧ (roaring_bitmap_is_subset ops ra1 ra2 = true
      ↔ roaring_bitmap_is_empty (roaring_bitmap_andnot ops ra1 ra2) = true)
    ∧ (roaring_bitmap_is_subset ops ra1 ra2 = true
      ↔ ∀ v, v < 2 ^ 32 → roaring_bitmap_contains ops (roaring_bitmap_and ops ra1 ra2) v
          = roaring_bitmap_contains ops ra1 v)
    ∧ (roaring_bitmap_is_strict_subset ops ra1 ra2 = true
      ↔ roaring_bitmap_is_subset ops ra1 ra2 = true
        ∧ roaring_bitmap_get_cardinality ops ra2 > roaring_bitmap_get_cardinality ops ra1) := by
  refine ⟨roaring_bitmap_is_subset_iff ops hsub ra1 ra2 h1 h2, ?_, ?_, ?_⟩
  · rw [roaring_bitmap_is_subset_eq, subset_merge_iff ops hsub _ _ h1.1 h1.2.2 h2.1]
    unfold roaring_bitmap_is_empty
    rw [roaring_bitmap_andnot_eq]
    simp only [beq_iff_eq, List.length_eq_zero]
    rw [ra_valid_eq_nil_iff ops _ (andnot_merge_valid ops hnz _ _ h1)]
    constructor
    · intro h hb lb hlb hh
      rw [ra_has_andnot_merge ops handnot hnz _ _ h1.1 h2.1 hb lb hlb] at hh
      exact hh.2 (h hb lb hlb hh.1)
    · intro h hb lb hlb hh
      by_contra hc
      exact h hb lb hlb
        ((ra_has_andnot_merge ops handnot hnz _ _ h1.1 h2.1 hb lb hlb).2 ⟨hh, hc⟩)
  · rw [roaring_bitmap_is_subset_iff ops hsub ra1 ra2 h1 h2]
    have hs : keys_sorted (roaring_bitmap_and ops ra1 ra2).high_low_container := by
      rw [roaring_bitmap_and_eq]
      exact (and_merge_valid ops hnz _ _ h1).1
    have key : ∀ v, roaring_bitmap_contains ops (roaring_bitmap_and ops ra1 ra2) v = true
        ↔ roaring_bitmap_contains ops ra1 v = true
          ∧ roaring_bitmap_contains ops ra2 v = true := by
      intro v
      rw [roaring_bitmap_contains_iff ops _ hs, roaring_bitmap_contains_iff ops _ h1.1,
        roaring_bitmap_contains_iff ops _ h2.1, roaring_bitmap_and_eq]
      exact ra_has_and_merge ops hand hnz _ _ h1.1 h2.1 _ _ (Nat.mod_lt _ (by decide))
    constructor
    · intro h v hv
      rw [Bool.eq_iff_iff, key]
      exact ⟨fun hh => hh.1, fun hh => ⟨hh, h v hv hh⟩⟩
    · intro h v hv hh
      have := h v hv
      rw [Bool.eq_iff_iff, key] at this
      exact (this.2 hh).2
  · unfold roaring_bitmap_is_strict_subset
    rw [Bool.and_eq_true, decide_eq_true_eq]
    exact And.comm

theorem set_container_is_subset_spec : container_is_subset_spec set_container_ops := by
  intro a b
  simp only [set_container_ops, List.all_eq_true, List.mem_range]
  constructor
  · intro h v hv ha
    have := h v hv
    simpa [ha] using this
  · intro h v hv
    cases ha : a v
    · simp
    · simp [h v hv ha]

theorem roaring_bitmap_is_subset_correct_witness :
    valid set_container_ops example_bitmap_1 ∧ valid set_container_ops example_bitmap_3
    ∧ (roaring_bitmap_is_subset set_container_ops example_bitmap_1 example_bitmap_3 = true
      ↔ roaring_bitmap_is_empty
          (roaring_bitmap_andnot set_container_ops example_bitmap_1 example_bitmap_3) = true) :=
  ⟨example_bitmap_1_valid, example_bitmap_3_valid,
    (roaring_bitmap_is_subset_correct set_container_ops set_container_is_subset_spec
      set_container_and_spec set_container_andnot_spec set_nonzero_cardinality_spec
      example_bitmap_1 example_bitmap_3 example_bitmap_1_valid example_bitmap_3_valid).2.1⟩

/-! ## Insertion of many values -/

theorem xor_shift_eq_zero_iff (a b : Nat) :
    (a ^^^ b) >>> 16 = 0 ↔ a / 65536 = b / 65536 := by
  have h : (a ^^^ b) >>> 16 = (a >>> 16) ^^^ (b >>> 16) := by
    apply Nat.eq_of_testBit_eq
    intro i
    simp [Nat.testBit_shiftRight, Nat.testBit_xor]
  rw [h, Nat.xor_eq_zero, Nat.shiftRight_eq_div_pow, Nat.shiftRight_eq_div_pow]

theorem index_unique_of_sorted (l : roaring_array_t C) (hs : keys_sorted l) (i j k : Nat)
    (c c' : C) (hi : l[i]? = some (k, c)) (hj : l[j]? = some (k, c')) : i = j := by
  obtain ⟨hi1, hi2⟩ := List.getElem?_eq_some.1 hi
  obtain ⟨hj1, hj2⟩ := List.getElem?_eq_some.1 hj
  unfold keys_sorted at hs
  rw [List.pairwise_iff_getElem] at hs
  rcases Nat.lt_trichotomy i j with h | h | h
  · have := hs i j hi1 hj1 h
    rw [hi2, hj2] at this
    simp at this
  · exact h
  · have := hs j i hj1 hi1 h
    rw [hi2, hj2] at this
    simp at this

theorem ra_get_index_of_getElem (l : roaring_array_t C) (hs : keys_sorted l) (i k : Nat)
    (c : C) (hi : l[i]? = some (k, c)) : ra_get_index l k = (i : Int) := by
  have hm : (k, c) ∈ l := by
    obtain ⟨h1, h2⟩ := List.getElem?_eq_some.1 hi
    exact h2 ▸ List.getElem_mem h1
  have h := getElem_lower_bound_of_mem l hs k c hm
  rw [ra_get_index_found l k c h, index_unique_of_sorted l hs _ _ k c c h hi]

theorem containerptr_roaring_bitmap_add_fst (ops : ContainerOps C) (r : roaring_bitmap_t C)
    (val : Nat) :
    (containerptr_roaring_bitmap_add ops r val).1 = roaring_bitmap_add ops r val := by
  unfold containerptr_roaring_bitmap_add roaring_bitmap_add
  simp only
  split
  · split <;> rfl
  · rfl

theorem lower_bound_le_length (l : roaring_array_t C) (x : Nat) :
    lower_bound l x ≤ l.length := by
  unfold lower_bound
  exact (List.takeWhile_sublist _).length_le

/-- The container handed back by `containerptr_roaring_bitmap_add` is the one
stored at the reported index, under the high key of the value. -/
theorem containerptr_roaring_bitmap_add_index (ops : ContainerOps C)
    (r : roaring_bitmap_t C) (val : Nat) :
    (containerptr_roaring_bitmap_add ops r val).1.high_low_container[
        (containerptr_roaring_bitmap_add ops r val).2.2]?
      = some ((val / 65536) % 65536, (containerptr_roaring_bitmap_add ops r val).2.1) := by
  unfold containerptr_roaring_bitmap_add
  simp only
  rcases ra_get_index_cases r.high_low_container ((val / 65536) % 65536) with
    ⟨c, hc, hi⟩ | ⟨_, hi⟩
  · rw [hi]
    simp only [Int.natCast_nonneg, if_true, Int.toNat_ofNat, hc]
    rw [ra_set_container_at_index_eq _ _ _ _ hc]
    have hlt := (List.getElem?_eq_some.1 hc).1
    rw [List.getElem?_append_right (by simp [Nat.le_of_lt hlt])]
    simp [Nat.min_eq_left (Nat.le_of_lt hlt)]
  · rw [hi]
    have hneg : ¬ (0 : Int) ≤ -(lower_bound r.high_low_container (val / 65536 % 65536) : Int) - 1 := by
      omega
    simp only [hneg, if_false]
    have e : (-(-(lower_bound r.high_low_container (val / 65536 % 65536) : Int) - 1) - 1).toNat
        = lower_bound r.high_low_container (val / 65536 % 65536) := by omega
    rw [e]
    unfold ra_insert_new_key_value_at
    have hle := lower_bound_le_length r.high_low_container (val / 65536 % 65536)
    rw [List.getElem?_append_right (by simp [hle])]
    simp [Nat.min_eq_left hle]

/-- The shortcut of `roaring_bitmap_add_many` (the container is at hand) does
what `roaring_bitmap_add` does. -/
theorem roaring_bitmap_add_many_shortcut (ops : ContainerOps C) (r : roaring_bitmap_t C)
    (hs : keys_sorted r.high_low_container) (container : C) (containerindex val : Nat)
    (h : r.high_low_container[containerindex]? = some ((val / 65536) % 65536, container)) :
    (⟨ra_set_container_at_index r.high_low_container containerindex
        (ops.container_add container (val % 65536)).1⟩ : roaring_bitmap_t C)
      = roaring_bitmap_add ops r val
    ∧ (ra_set_container_at_index r.high_low_container containerindex
        (ops.container_add container (val % 65536)).1)[containerindex]?
      = some ((val / 65536) % 65536, (ops.container_add container (val % 65536)).1) := by
  constructor
  · unfold roaring_bitmap_add
    simp only
    rw [ra_get_index_of_getElem _ hs _ _ _ h]
    simp [h]
  · rw [ra_set_container_at_index_eq _ _ _ _ h]
    have hlt := (List.getElem?_eq_some.1 h).1
    rw [List.getElem?_append_right (by simp [Nat.le_of_lt hlt])]
    simp [Nat.min_eq_left (Nat.le_of_lt hlt)]


theorem roaring_bitmap_add_spec (ops : ContainerOps C)
    (hcard : cardinality_spec ops) (hcreate : array_container_create_spec ops)
    (hadd : container_add_spec ops) (r : roaring_bitmap_t C) (hr : valid ops r)
    (val : Nat) :
    valid ops (roaring_bitmap_add ops r val)
    ∧ ∀ hb lb, lb < 65536 →
        (ra_has ops (roaring_bitmap_add ops r val).high_low_container hb lb
          ↔ ra_has ops r.high_low_container hb lb
            ∨ (hb = (val / 65536) % 65536 ∧ lb = val % 65536)) := by
  rw [roaring_bitmap_add_eq]
  have h := roaring_bitmap_add_checked_spec ops hcard hcreate hadd r hr val
  exact ⟨h.1, h.2.2⟩

theorem roaring_bitmap_add_many_loop_spec (ops : ContainerOps C)
    (hcard : cardinality_spec ops) (hcreate : array_container_create_spec ops)
    (hadd : container_add_spec ops) (vals : List Nat) (r : roaring_bitmap_t C)
    (hr : valid ops r) (container : C) (containerindex prev : Nat)
    (h : r.high_low_container[containerindex]? = some ((prev / 65536) % 65536, container)) :
    valid ops (roaring_bitmap_add_many_loop ops r container containerindex prev vals)
    ∧ ∀ hb lb, lb < 65536 →
        (ra_has ops (roaring_bitmap_add_many_loop ops r container containerindex prev
            vals).high_low_container hb lb
          ↔ ra_has ops r.high_low_container hb lb
            ∨ ∃ v ∈ vals, hb = (v / 65536) % 65536 ∧ lb = v % 65536) := by
  induction vals generalizing r container containerindex prev with
  | nil =>
    rw [roaring_bitmap_add_many_loop]
    exact ⟨hr, fun hb lb _ => by simp⟩
  | cons val vals ih =>
    rw [roaring_bitmap_add_many_loop]
    have hspec := roaring_bitmap_add_spec ops hcard hcreate hadd r hr val
    have key : ∀ (r2 : roaring_bitmap_t C) (c2 : C) (i2 : Nat),
        r2 = roaring_bitmap_add ops r val →
        r2.high_low_container[i2]? = some ((val / 65536) % 65536, c2) →
        valid ops (roaring_bitmap_add_many_loop ops r2 c2 i2 val vals)
        ∧ ∀ hb lb, lb < 65536 →
          (ra_has ops (roaring_bitmap_add_many_loop ops r2 c2 i2 val vals).high_low_container
              hb lb
            ↔ ra_has ops r.high_low_container hb lb
              ∨ ∃ v ∈ val :: vals, hb = (v / 65536) % 65536 ∧ lb = v % 65536) := by
      intro r2 c2 i2 e2 h2
      have hr2 : valid ops r2 := e2 ▸ hspec.1
      obtain ⟨hv, hm⟩ := ih r2 hr2 c2 i2 val h2
      refine ⟨hv, fun hb lb hlb => ?_⟩
      rw [hm hb lb hlb, e2, hspec.2 hb lb hlb]
      simp only [List.mem_cons, exists_eq_or_imp]
      tauto
    by_cases hx : (prev ^^^ val) >>> 16 = 0
    · simp only [hx, if_true]
      have hk : (prev / 65536) % 65536 = (val / 65536) % 65536 := by
        rw [(xor_shift_eq_zero_iff prev val).1 hx]
      rw [hk] at h
      obtain ⟨e1, e2⟩ := roaring_bitmap_add_many_shortcut ops r hr.1 container containerindex
        val h
      exact key _ _ _ e1 e2
    · simp only [hx, if_false]
      exact key _ _ _ (containerptr_roaring_bitmap_add_fst ops r val)
        (containerptr_roaring_bitmap_add_index ops r val)

/-- `roaring_bitmap_add_many` keeps the bitmap valid and adds exactly the
listed values. -/
theorem roaring_bitmap_add_many_spec (ops : ContainerOps C)
    (hcard : cardinality_spec ops) (hcreate : array_container_create_spec ops)
    (hadd : container_add_spec ops) (r : roaring_bitmap_t C) (hr : valid ops r)
    (vals : List Nat) :
    valid ops (roaring_bitmap_add_many ops r vals)
    ∧ ∀ hb lb, lb < 65536 →
        (ra_has ops (roaring_bitmap_add_many ops r vals).high_low_container hb lb
          ↔ ra_has ops r.high_low_container hb lb
            ∨ ∃ v ∈ vals, hb = (v / 65536) % 65536 ∧ lb = v % 65536) := by
  cases vals with
  | nil =>
    rw [roaring_bitmap_add_many]
    exact ⟨hr, fun hb lb _ => by simp⟩
  | cons val vals =>
    rw [roaring_bitmap_add_many]
    have hspec := roaring_bitmap_add_spec ops hcard hcreate hadd r hr val
    have e2 := containerptr_roaring_bitmap_add_fst ops r val
    obtain ⟨hv, hm⟩ := roaring_bitmap_add_many_loop_spec ops hcard hcreate hadd vals
      (containerptr_roaring_bitmap_add ops r val).1 (e2 ▸ hspec.1)
      (containerptr_roaring_bitmap_add ops r val).2.1
      (containerptr_roaring_bitmap_add ops r val).2.2 val
      (containerptr_roaring_bitmap_add_index ops r val)
    refine ⟨hv, fun hb lb hlb => ?_⟩
    rw [hm hb lb hlb, e2, hspec.2 hb lb hlb]
    simp only [List.mem_cons, exists_eq_or_imp]
    tauto

/-! ## Serialization envelope -/

theorem uint32_to_bytes_length (x : Nat) : (uint32_to_bytes x).length = 4 := rfl

theorem read_uint32_append (pre rest : List Nat) (x : Nat) (hx : x < 2 ^ 32) :
    read_uint32 (pre ++ (uint32_to_bytes x ++ rest)) pre.length = some x := by
  unfold read_uint32 uint32_to_bytes
  rw [List.getElem?_append_right (Nat.le_refl _),
    List.getElem?_append_right (Nat.le_add_right _ _),
    List.getElem?_append_right (Nat.le_add_right _ _),
    List.getElem?_append_right (Nat.le_add_right _ _)]
  simp only [Nat.sub_self, Nat.add_sub_cancel_left]
  simp only [List.cons_append, List.getElem?_cons_zero, List.getElem?_cons_succ]
  congr 1
  omega

theorem read_uint32_array_append (vals : List Nat) (hv : ∀ v ∈ vals, v < 2 ^ 32)
    (pre rest : List Nat) :
    read_uint32_array (pre ++ (vals.flatMap uint32_to_bytes ++ rest)) pre.length vals.length
      = some vals := by
  induction vals generalizing pre with
  | nil => simp [read_uint32_array]
  | cons x t ih =>
    rw [List.length_cons, read_uint32_array]
    have e : pre ++ ((x :: t).flatMap uint32_to_bytes ++ rest)
        = pre ++ (uint32_to_bytes x ++ (t.flatMap uint32_to_bytes ++ rest)) := by
      simp [List.flatMap_cons]
    have e2 : pre ++ (uint32_to_bytes x ++ (t.flatMap uint32_to_bytes ++ rest))
        = (pre ++ uint32_to_bytes x) ++ (t.flatMap uint32_to_bytes ++ rest) := by
      simp
    have hl : pre.length + 4 = (pre ++ uint32_to_bytes x).length := by
      simp [uint32_to_bytes_length]
    rw [e, read_uint32_append pre _ x (hv x (List.mem_cons_self _ _)), e2, hl,
      ih (fun v h => hv v (List.mem_cons_of_mem _ h))]

theorem ra_to_uint32_array_length (ops : ContainerOps C) (hcard : cardinality_spec ops)
    (ra : roaring_array_t C) :
    (ra_to_uint32_array ops ra).length = ra_cardinality ops ra := by
  induction ra with
  | nil => simp [ra_to_uint32_array, ra_cardinality_nil]
  | cons e t ih =>
    unfold ra_to_uint32_array at ih ⊢
    rw [List.flatMap_cons, List.length_append, ih, ra_cardinality_cons, hcard,
      List.length_map, List.countP_eq_length_filter]

theorem mem_ra_to_uint32_array (ops : ContainerOps C) (ra : roaring_array_t C) (v : Nat) :
    v ∈ ra_to_uint32_array ops ra
      ↔ ∃ e ∈ ra, ∃ lb, lb < 65536 ∧ ops.container_contains e.2 lb = true
          ∧ v = e.1 * 65536 + lb := by
  unfold ra_to_uint32_array
  simp only [List.mem_flatMap, List.mem_map, List.mem_filter, List.mem_range]
  constructor
  · rintro ⟨e, he, lb, ⟨h1, h2⟩, h3⟩
    exact ⟨e, he, lb, h1, h2, h3.symm⟩
  · rintro ⟨e, he, lb, h1, h2, h3⟩
    exact ⟨e, he, lb, ⟨h1, h2⟩, h3.symm⟩


theorem ra_has_to_uint32_array (ops : ContainerOps C) (ra : roaring_array_t C)
    (hk : ∀ e ∈ ra, e.1 < 65536) (hb lb : Nat) (hlb : lb < 65536) :
    (∃ v ∈ ra_to_uint32_array ops ra, hb = (v / 65536) % 65536 ∧ lb = v % 65536)
      ↔ ra_has ops ra hb lb := by
  constructor
  · rintro ⟨v, hv, h1, h2⟩
    rw [mem_ra_to_uint32_array] at hv
    obtain ⟨e, he, l, hl, hc, rfl⟩ := hv
    have hke := hk e he
    have e1 : hb = e.1 := by omega
    have e2 : lb = l := by omega
    subst e1 e2
    exact ⟨e.2, he, hc⟩
  · rintro ⟨c, hm, hc⟩
    have hke := hk _ hm
    simp only at hke
    refine ⟨hb * 65536 + lb, (mem_ra_to_uint32_array ops ra _).2 ⟨_, hm, lb, hlb, hc, rfl⟩,
      by omega, by omega⟩

theorem ra_to_uint32_array_lt (ops : ContainerOps C) (ra : roaring_array_t C)
    (hk : ∀ e ∈ ra, e.1 < 65536) (v : Nat) (hv : v ∈ ra_to_uint32_array ops ra) :
    v < 2 ^ 32 := by
  rw [mem_ra_to_uint32_array] at hv
  obtain ⟨e, he, l, hl, _, rfl⟩ := hv
  have := hk e he
  omega

theorem roaring_bitmap_contains_congr (ops : ContainerOps C) (r1 r2 : roaring_bitmap_t C)
    (h1 : valid ops r1) (h2 : valid ops r2)
    (h : ∀ hb lb, lb < 65536 →
      (ra_has ops r1.high_low_container hb lb ↔ ra_has ops r2.high_low_container hb lb))
    (v : Nat) : roaring_bitmap_contains ops r1 v = roaring_bitmap_contains ops r2 v := by
  rw [Bool.eq_iff_iff, roaring_bitmap_contains_iff ops _ h1.1,
    roaring_bitmap_contains_iff ops _ h2.1]
  exact h _ _ (Nat.mod_lt _ (by decide))

theorem uint32_to_bytes_mod (x : Nat) : uint32_to_bytes (x % 2 ^ 32) = uint32_to_bytes x := by
  unfold uint32_to_bytes
  have h1 : x % 2 ^ 32 % 256 = x % 256 := by omega
  have h2 : x % 2 ^ 32 / 256 % 256 = x / 256 % 256 := by omega
  have h3 : x % 2 ^ 32 / 65536 % 256 = x / 65536 % 256 := by omega
  have h4 : x % 2 ^ 32 / 16777216 % 256 = x / 16777216 % 256 := by omega
  rw [h1, h2, h3, h4]

/-- C22: for a valid bitmap, with container cardinalities as specified and
a portable stream of the announced size, `roaring_bitmap_serialize` writes
the tag `SERIALIZATION_CONTAINER` followed by the portable stream iff the
portable size is below `4 * cardinality + 4`, and otherwise the tag
`SERIALIZATION_ARRAY_UINT32`, the 32-bit count and the values, four bytes each
(the count is the cardinality, which is below 2^32 there when portable streams
are below 2^34 bytes); the returned size is
`1 + min (portable size) (4 * cardinality + 4)`, which is
`roaring_bitmap_size_in_bytes`. -/
theorem roaring_bitmap_serialize_correct (ops : ContainerOps C) (pops : PortableOps C)
    (hcard : cardinality_spec ops) (hsz : portable_serialize_size_spec ops pops)
    (ra : roaring_bitmap_t C) (hr : valid ops ra) :
    (roaring_bitmap_portable_size_in_bytes pops ra
        < 4 * roaring_bitmap_get_cardinality ops ra + 4 →
      (roaring_bitmap_serialize ops pops ra).1
        = SERIALIZATION_CONTAINER :: (roaring_bitmap_portable_serialize pops ra).1)
    ∧ (¬ roaring_bitmap_portable_size_in_bytes pops ra
        < 4 * roaring_bitmap_get_cardinality ops ra + 4 →
      (roaring_bitmap_serialize ops pops ra).1
        = SERIALIZATION_ARRAY_UINT32 ::
          (uint32_to_bytes (roaring_bitmap_get_cardinality ops ra)
            ++ (roaring_bitmap_to_uint32_array ops ra).flatMap uint32_to_bytes)
      ∧ (roaring_bitmap_to_uint32_array ops ra).length = roaring_bitmap_get_cardinality ops ra
      ∧ (portable_size_bound_spec ops pops → roaring_bitmap_get_cardinality ops ra < 2 ^ 32))
    ∧ ((roaring_bitmap_serialize ops pops ra).1.head? = some SERIALIZATION_CONTAINER
      ↔ roaring_bitmap_portable_size_in_bytes pops ra
        < 4 * roaring_bitmap_get_cardinality ops ra + 4)
    ∧ (roaring_bitmap_serialize ops pops ra).2
      = 1 + min (roaring_bitmap_portable_size_in_bytes pops ra)
          (4 * roaring_bitmap_get_cardinality ops ra + 4)
    ∧ (roaring_bitmap_serialize ops pops ra).2 = roaring_bitmap_size_in_bytes ops pops ra := by
  have hle := roaring_bitmap_get_cardinality_le ops hcard ra hr
  have hlen := hsz ra.high_low_container hr
  have e1 : roaring_bitmap_get_cardinality ops ra % 2 ^ 64
      = roaring_bitmap_get_cardinality ops ra := by omega
  have e2 : (roaring_bitmap_get_cardinality ops ra * 4 + 4) % 2 ^ 64
      = 4 * roaring_bitmap_get_cardinality ops ra + 4 := by omega
  unfold roaring_bitmap_serialize roaring_bitmap_size_in_bytes roaring_bitmap_portable_serialize
  simp only [e1, e2]
  unfold roaring_bitmap_portable_size_in_bytes at *
  rw [hlen]
  by_cases hp : pops.ra_portable_size_in_bytes ra.high_low_container
      < 4 * roaring_bitmap_get_cardinality ops ra + 4
  · simp only [hp, if_true, not_true_eq_false, false_implies, true_implies, true_and,
      List.head?_cons, iff_true]
    refine ⟨?_, ?_⟩
    · rw [Nat.min_eq_left (Nat.le_of_lt hp)]
      omega
    · trivial
  · simp only [hp, if_false, not_false_eq_true, false_implies, true_implies, true_and,
      List.head?_cons, iff_false, uint32_to_bytes_mod]
    refine ⟨⟨?_, ?_⟩, ?_, ?_, ?_⟩
    · unfold roaring_bitmap_to_uint32_array
      rw [ra_to_uint32_array_length ops hcard, roaring_bitmap_get_cardinality_eq]
    · intro hbound
      have := hbound ra.high_low_container hr
      omega
    · simp [SERIALIZATION_ARRAY_UINT32, SERIALIZATION_CONTAINER]
    · rw [Nat.min_eq_right (Nat.le_of_not_lt hp)]
      omega
    · omega


theorem same_entries_keys (ops : ContainerOps C) (ra' ra : roaring_array_t C)
    (h : same_entries ops ra' ra) : ra'.map Prod.fst = ra.map Prod.fst := by
  induction h with
  | nil => rfl
  | cons h1 _ ih => simp [h1.1, ih]

theorem same_entries_ra_has (ops : ContainerOps C) (ra' ra : roaring_array_t C)
    (h : same_entries ops ra' ra) (hb lb : Nat) (hlb : lb < 65536) :
    ra_has ops ra' hb lb ↔ ra_has ops ra hb lb := by
  induction h with
  | nil => simp [ra_has_nil]
  | cons h1 _ ih => rw [ra_has_cons, ra_has_cons, h1.1, h1.2 lb hlb, ih]

theorem same_entries_nonempty (ops : ContainerOps C) (ra' ra : roaring_array_t C)
    (h : same_entries ops ra' ra) (hr : ∀ e ∈ ra, container_nonempty ops e.2) :
    ∀ e ∈ ra', container_nonempty ops e.2 := by
  induction h with
  | nil => simp
  | cons h1 _ ih =>
    rename_i a b l1 l2 _
    intro e he
    rcases List.mem_cons.1 he with he | he
    · obtain ⟨v, hv, hc⟩ := hr b (List.mem_cons_self _ _)
      rw [he]
      exact ⟨v, hv, by rw [h1.2 v hv]; exact hc⟩
    · exact ih (fun e he => hr e (List.mem_cons_of_mem _ he)) e he

theorem same_entries_valid (ops : ContainerOps C) (ra' ra : roaring_array_t C)
    (h : same_entries ops ra' ra) (hr : ra_valid ops ra) : ra_valid ops ra' := by
  have hkeys := same_entries_keys ops ra' ra h
  refine ⟨?_, ?_, same_entries_nonempty ops ra' ra h hr.2.2⟩
  · have h1 := hr.1
    unfold keys_sorted at h1 ⊢
    have h2 : (ra.map Prod.fst).Pairwise (fun a b => a < b) := List.pairwise_map.2 h1
    rw [← hkeys] at h2
    exact List.pairwise_map.1 h2
  · intro e he
    have : e.1 ∈ ra'.map Prod.fst := List.mem_map_of_mem _ he
    rw [hkeys] at this
    obtain ⟨e0, he0, h0⟩ := List.mem_map.1 this
    rw [← h0]
    exact hr.2.1 e0 he0

theorem set_encode_entry_length (e : Nat × (Nat → Bool)) :
    (set_encode_entry e).length = 65538 := by
  simp [set_encode_entry]

theorem set_decode_entries_encode (ra : roaring_array_t (Nat → Bool))
    (hk : ∀ e ∈ ra, e.1 < 65536) (rest : List Nat) :
    ∃ ra', set_decode_entries ra.length (ra.flatMap set_encode_entry ++ rest) = some ra'
      ∧ ra'.length = ra.length
      ∧ same_entries set_container_ops ra' ra := by
  induction ra with
  | nil => exact ⟨[], by simp [set_decode_entries], rfl, List.Forall₂.nil⟩
  | cons e t ih =>
    obtain ⟨t', ht', hl', hf⟩ := ih (fun e he => hk e (List.mem_cons_of_mem _ he))
    have hbuf : (e :: t).flatMap set_encode_entry ++ rest
        = set_encode_entry e ++ (t.flatMap set_encode_entry ++ rest) := by
      simp [List.flatMap_cons]
    have hdrop : (set_encode_entry e ++ (t.flatMap set_encode_entry ++ rest)).drop 65538
        = t.flatMap set_encode_entry ++ rest := by
      rw [← set_encode_entry_length e, List.drop_left]
    have hlen : ¬ (set_encode_entry e ++ (t.flatMap set_encode_entry ++ rest)).length
        < 65538 := by
      rw [List.length_append, set_encode_entry_length]
      omega
    rw [List.length_cons, set_decode_entries, hbuf, if_neg hlen, hdrop, ht']
    refine ⟨_, rfl, by simp [hl'], List.Forall₂.cons ⟨?_, ?_⟩ hf⟩
    · have := hk e (List.mem_cons_self _ _)
      simp only [set_encode_entry, List.cons_append, List.getD_cons_zero, List.getD_cons_succ]
      omega
    · intro v hv
      simp only [set_container_ops, set_encode_entry, List.cons_append, List.getD_cons_succ,
        hv, decide_True, Bool.true_and, List.nil_append]
      rw [List.getD_eq_getElem?_getD, List.getElem?_append_left (by simpa using hv),
        List.getElem?_map, List.getElem?_range hv]
      cases h : e.2 v <;> simp [h]

theorem set_portable_serialize_size_spec :
    portable_serialize_size_spec set_container_ops set_portable_ops := by
  intro ra hr
  clear hr
  simp only [set_portable_ops, List.length_append, List.length_cons, List.length_nil]
  have : (ra.flatMap set_encode_entry).length = 65538 * ra.length := by
    induction ra with
    | nil => simp
    | cons e t ih =>
      rw [List.flatMap_cons, List.length_append, ih, set_encode_entry_length, List.length_cons]
      omega
  omega

theorem set_portable_size_bound_spec :
    portable_size_bound_spec set_container_ops set_portable_ops := by
  intro ra hr
  have := keys_sorted_length_le ra hr.1 0 65536 (fun e he => ⟨Nat.zero_le _, hr.2.1 e he⟩)
  simp only [set_portable_ops]
  omega

theorem set_portable_round_trip_spec :
    portable_round_trip_spec set_container_ops set_portable_ops := by
  intro ra hr rest
  obtain ⟨ra', hd, hl, hf⟩ := set_decode_entries_encode ra hr.2.1 rest
  have hlen := keys_sorted_length_le ra hr.1 0 65536 (fun e he => ⟨Nat.zero_le _, hr.2.1 e he⟩)
  have e : ra.length / 65536 * 65536 + ra.length / 256 % 256 * 256 + ra.length % 256
      = ra.length := by omega
  refine ⟨(ra', 3 + 65538 * ra'.length), ?_, same_entries_valid set_container_ops ra' ra hf hr,
    same_entries_ra_has set_container_ops ra' ra hf⟩
  simp only [set_portable_ops, List.cons_append, List.nil_append, e, hd]


theorem roaring_bitmap_serialize_correct_witness :
    valid set_container_ops example_bitmap_1
    ∧ (roaring_bitmap_serialize set_container_ops set_portable_ops example_bitmap_1).2
      = roaring_bitmap_size_in_bytes set_container_ops set_portable_ops example_bitmap_1 :=
  ⟨example_bitmap_1_valid,
    (roaring_bitmap_serialize_correct set_container_ops set_portable_ops set_cardinality_spec
      set_portable_serialize_size_spec example_bitmap_1 example_bitmap_1_valid).2.2.2.2⟩

/-- C23: for a valid bitmap `b`, with a correct container layer and a portable
format that reads back what it writes, `roaring_bitmap_deserialize` applied to
the bytes written by `roaring_bitmap_serialize` (whatever follows them in the
buffer) returns a valid bitmap with exactly the elements of `b`; in the array
branch it is `roaring_bitmap_of_ptr` of the values written by
`roaring_bitmap_to_uint32_array`; and a buffer whose first byte is neither tag
gives the null pointer. -/
theorem roaring_bitmap_deserialize_serialize (ops : ContainerOps C) (pops : PortableOps C)
    (hcard : cardinality_spec ops) (hcreate : array_container_create_spec ops)
    (hadd : container_add_spec ops) (hbound : portable_size_bound_spec ops pops)
    (hrt : portable_round_trip_spec ops pops)
    (b : roaring_bitmap_t C) (hb : valid ops b) (rest : List Nat) :
    (∃ b', roaring_bitmap_deserialize ops pops
          ((roaring_bitmap_serialize ops pops b).1 ++ rest) = some (some b')
      ∧ valid ops b'
      ∧ ∀ v, v < 2 ^ 32 → roaring_bitmap_contains ops b' v = roaring_bitmap_contains ops b v)
    ∧ (¬ roaring_bitmap_portable_size_in_bytes pops b
          < 4 * roaring_bitmap_get_cardinality ops b + 4 →
        roaring_bitmap_deserialize ops pops ((roaring_bitmap_serialize ops pops b).1 ++ rest)
          = some (some (roaring_bitmap_of_ptr ops (roaring_bitmap_to_uint32_array ops b))))
    ∧ (∀ tag buf, tag ≠ SERIALIZATION_ARRAY_UINT32 → tag ≠ SERIALIZATION_CONTAINER →
        roaring_bitmap_deserialize ops pops (tag :: buf) = some none) := by
  have hle := roaring_bitmap_get_cardinality_le ops hcard b hb
  have e1 : roaring_bitmap_get_cardinality ops b % 2 ^ 64
      = roaring_bitmap_get_cardinality ops b := by omega
  have e2 : (roaring_bitmap_get_cardinality ops b * 4 + 4) % 2 ^ 64
      = 4 * roaring_bitmap_get_cardinality ops b + 4 := by omega
  have harr : ¬ roaring_bitmap_portable_size_in_bytes pops b
        < 4 * roaring_bitmap_get_cardinality ops b + 4 →
      roaring_bitmap_deserialize ops pops ((roaring_bitmap_serialize ops pops b).1 ++ rest)
        = some (some (roaring_bitmap_of_ptr ops (roaring_bitmap_to_uint32_array ops b))) := by
    intro hp
    have hlt : roaring_bitmap_get_cardinality ops b < 2 ^ 32 := by
      have := hbound b.high_low_container hb
      unfold roaring_bitmap_portable_size_in_bytes at hp
      omega
    have hlen : (roaring_bitmap_to_uint32_array ops b).length
        = roaring_bitmap_get_cardinality ops b := by
      unfold roaring_bitmap_to_uint32_array
      rw [ra_to_uint32_array_length ops hcard, roaring_bitmap_get_cardinality_eq]
    have hvals : ∀ v ∈ roaring_bitmap_to_uint32_array ops b, v < 2 ^ 32 :=
      ra_to_uint32_array_lt ops _ hb.2.1
    unfold roaring_bitmap_serialize
    simp only [e1, e2, hp, if_false, uint32_to_bytes_mod]
    unfold roaring_bitmap_deserialize
    simp only [List.cons_append, List.append_assoc, if_true]
    have r1 := read_uint32_append [SERIALIZATION_ARRAY_UINT32]
      ((roaring_bitmap_to_uint32_array ops b).flatMap uint32_to_bytes ++ rest)
      (roaring_bitmap_get_cardinality ops b) hlt
    have r2 := read_uint32_array_append (roaring_bitmap_to_uint32_array ops b) hvals
      (SERIALIZATION_ARRAY_UINT32 :: uint32_to_bytes (roaring_bitmap_get_cardinality ops b))
      rest
    simp only [List.cons_append, List.nil_append, List.length_cons, List.length_nil,
      List.append_assoc, uint32_to_bytes_length, hlen, Nat.zero_add] at r1 r2
    rw [r1]
    simp only
    rw [Nat.add_comm 1 4, r2]
  refine ⟨?_, harr, ?_⟩
  · by_cases hp : roaring_bitmap_portable_size_in_bytes pops b
        < 4 * roaring_bitmap_get_cardinality ops b + 4
    · obtain ⟨ans, hd, hv, hm⟩ := hrt b.high_low_container hb rest
      refine ⟨⟨ans.1⟩, ?_, hv, fun v _ => roaring_bitmap_contains_congr ops ⟨ans.1⟩ b hv hb hm v⟩
      unfold roaring_bitmap_serialize
      simp only [e1, e2, hp, if_true]
      unfold roaring_bitmap_deserialize roaring_bitmap_portable_serialize
        roaring_bitmap_portable_deserialize roaring_bitmap_portable_deserialize_safe
      simp only [List.cons_append]
      rw [if_neg (show ¬ SERIALIZATION_CONTAINER = SERIALIZATION_ARRAY_UINT32 by decide)]
      simp only [eq_self_iff_true, if_true, hd]
    · have hs := roaring_bitmap_add_many_spec ops hcard hcreate hadd roaring_bitmap_create
        (valid_create ops) (roaring_bitmap_to_uint32_array ops b)
      refine ⟨_, harr hp, hs.1, fun v _ => roaring_bitmap_contains_congr ops _ b hs.1 hb ?_ v⟩
      intro k lb hlb
      rw [hs.2 k lb hlb]
      unfold roaring_bitmap_to_uint32_array
      rw [ra_has_to_uint32_array ops _ hb.2.1 k lb hlb]
      simp [roaring_bitmap_create, ra_has_nil]
  · intro tag buf h1 h2
    unfold roaring_bitmap_deserialize
    simp only [h1, h2, if_false]

theorem roaring_bitmap_deserialize_serialize_witness :
    valid set_container_ops example_bitmap_1
    ∧ ∃ b', roaring_bitmap_deserialize set_container_ops set_portable_ops
          ((roaring_bitmap_serialize set_container_ops set_portable_ops example_bitmap_1).1
            ++ [7]) = some (some b')
      ∧ valid set_container_ops b'
      ∧ ∀ v, v < 2 ^ 32 → roaring_bitmap_contains set_container_ops b' v
          = roaring_bitmap_contains set_container_ops example_bitmap_1 v :=
  ⟨example_bitmap_1_valid,
    (roaring_bitmap_deserialize_serialize set_container_ops set_portable_ops
      set_cardinality_spec set_array_container_create_spec set_container_add_spec
      set_portable_size_bound_spec set_portable_round_trip_spec example_bitmap_1
      example_bitmap_1_valid [7]).1⟩

/-! ## Containers -/

theorem mem_union_uint16 (l1 l2 : List Nat) (x : Nat) :
    x ∈ union_uint16 l1 l2 ↔ x ∈ l1 ∨ x ∈ l2 := by
  induction l1, l2 using union_uint16.induct with
  | case1 l2 => simp [union_uint16]
  | case2 a t1 => simp [union_uint16]
  | case3 a t1 b t2 h ih =>
    rw [union_uint16, if_pos h, List.mem_cons, ih]
    simp only [List.mem_cons]
    tauto
  | case4 a t1 b t2 h1 h2 ih =>
    rw [union_uint16, if_neg h1, if_pos h2, List.mem_cons, ih]
    simp only [List.mem_cons]
    tauto
  | case5 a t1 b t2 h1 h2 ih =>
    rw [union_uint16, if_neg h1, if_neg h2, List.mem_cons, ih]
    have : a = b := by omega
    subst this
    simp only [List.mem_cons]
    tauto

theorem union_uint16_sorted (l1 l2 : List Nat) (h1 : l1.Pairwise (fun x y => x < y))
    (h2 : l2.Pairwise (fun x y => x < y)) :
    (union_uint16 l1 l2).Pairwise (fun x y => x < y) := by
  induction l1, l2 using union_uint16.induct with
  | case1 l2 => simpa [union_uint16] using h2
  | case2 a t1 => simpa [union_uint16] using h1
  | case3 a t1 b t2 h ih =>
    rw [union_uint16, if_pos h, List.pairwise_cons]
    rw [List.pairwise_cons] at h1
    refine ⟨?_, ih h1.2 h2⟩
    intro x hx
    rw [mem_union_uint16] at hx
    rcases hx with hx | hx
    · exact h1.1 x hx
    · rcases List.mem_cons.1 hx with hx | hx
      · omega
      · have := (List.pairwise_cons.1 h2).1 x hx
        omega
  | case4 a t1 b t2 hn h ih =>
    rw [union_uint16, if_neg hn, if_pos h, List.pairwise_cons]
    rw [List.pairwise_cons] at h2
    refine ⟨?_, ih h1 h2.2⟩
    intro x hx
    rw [mem_union_uint16] at hx
    rcases hx with hx | hx
    · rcases List.mem_cons.1 hx with hx | hx
      · omega
      · have := (List.pairwise_cons.1 h1).1 x hx
        omega
    · exact h2.1 x hx
  | case5 a t1 b t2 hn1 hn2 ih =>
    rw [union_uint16, if_neg hn1, if_neg hn2, List.pairwise_cons]
    rw [List.pairwise_cons] at h1 h2
    refine ⟨?_, ih h1.2 h2.2⟩
    intro x hx
    rw [mem_union_uint16] at hx
    rcases hx with hx | hx
    · exact h1.1 x hx
    · have := h2.1 x hx
      omega

theorem union_uint16_length_le (l1 l2 : List Nat) :
    (union_uint16 l1 l2).length ≤ l1.length + l2.length := by
  induction l1, l2 using union_uint16.induct with
  | case1 l2 => simp [union_uint16]
  | case2 a t1 => simp [union_uint16]
  | case3 a t1 b t2 h ih =>
    rw [union_uint16, if_pos h]
    simp only [List.length_cons] at ih ⊢
    omega
  | case4 a t1 b t2 h1 h2 ih =>
    rw [union_uint16, if_neg h1, if_pos h2]
    simp only [List.length_cons] at ih ⊢
    omega
  | case5 a t1 b t2 h1 h2 ih =>
    rw [union_uint16, if_neg h1, if_neg h2]
    simp only [List.length_cons] at ih ⊢
    omega

theorem nodup_of_sorted (l : List Nat) (h : l.Pairwise (fun x y => x < y)) : l.Nodup :=
  h.imp (fun h => Nat.ne_of_lt h)

/-- A duplicate-free list of the 16-bit values that satisfy `p` has as many
entries as there are such values. -/
theorem count_values_eq_length (p : Nat → Bool) (l : List Nat) (hn : l.Nodup)
    (hm : ∀ v, v ∈ l ↔ v < 65536 ∧ p v = true) : count_values p = l.length := by
  unfold count_values
  rw [List.countP_eq_length_filter]
  apply List.Perm.length_eq
  rw [List.perm_ext_iff_of_nodup ((List.nodup_range _).filter _) hn]
  intro v
  rw [hm, List.mem_filter, List.mem_range]


theorem testBit_or_one_shiftLeft (a b c : Nat) :
    (a ||| 1 <<< b).testBit c = (a.testBit c || decide (c = b)) := by
  rw [Nat.testBit_or, Nat.one_shiftLeft, Nat.testBit_two_pow]
  congr 1
  simp [eq_comm]

theorem xor_or_shiftRight (a b : Nat) :
    (a ^^^ (a ||| 1 <<< b)) >>> b = if a.testBit b then 0 else 1 := by
  apply Nat.eq_of_testBit_eq
  intro i
  rw [Nat.testBit_shiftRight, Nat.testBit_xor, testBit_or_one_shiftLeft]
  by_cases hi : i = 0
  · subst hi
    cases h : a.testBit b <;> simp [h]
  · have : ¬ b + i = b := by omega
    have h1 : Nat.testBit 1 i = false := by
      obtain ⟨j, rfl⟩ := Nat.exists_eq_succ_of_ne_zero hi
      rw [Nat.testBit_succ]
      simp
    cases h : a.testBit b <;> simp [this, hi, h1]

theorem countP_or_eq (p : Nat → Bool) (b n : Nat) (hb : b < n) :
    (List.range n).countP (fun c => p c || decide (c = b))
      = (List.range n).countP p + (if p b then 0 else 1) := by
  induction n with
  | zero => omega
  | succ n ih =>
    rw [countP_range_succ, countP_range_succ]
    by_cases h : b = n
    · subst h
      have h0 : (List.range b).countP (fun c => p c || decide (c = b))
          = (List.range b).countP p := by
        apply List.countP_congr
        intro x hx
        have : x ≠ b := Nat.ne_of_lt (List.mem_range.1 hx)
        simp [this]
      rw [h0]
      cases p b <;> simp
    · rw [ih (by omega)]
      have : ¬ n = b := fun e => h e.symm
      simp only [this, decide_False, Bool.or_false]
      omega

theorem hamming_or (a b : Nat) (hb : b < 64) :
    hamming (a ||| 1 <<< b) = hamming a + (if a.testBit b then 0 else 1) := by
  unfold hamming
  simp only [testBit_or_one_shiftLeft]
  exact countP_or_eq (fun c => a.testBit c) b 64 hb

theorem sum_map_set (f : Nat → Nat) (w : List Nat) (i x : Nat) (hi : i < w.length) :
    ((w.set i x).map f).sum + f (w.getD i 0) = (w.map f).sum + f x := by
  induction w generalizing i with
  | nil => simp at hi
  | cons a t ih =>
    cases i with
    | zero =>
      simp only [List.set_cons_zero, List.map_cons, List.sum_cons, List.getD_cons_zero]
      omega
    | succ i =>
      simp only [List.set_cons_succ, List.map_cons, List.sum_cons, List.getD_cons_succ]
      have := ih i (by simpa using hi)
      omega

theorem bitset_get_set (w : List Nat) (i x v : Nat) (hi : i < w.length) :
    bitset_get (w.set i x) v = if v / 64 = i then x.testBit (v % 64) else bitset_get w v := by
  unfold bitset_get
  by_cases h : v / 64 = i
  · rw [if_pos h, h, List.getD_eq_getElem?_getD, List.getElem?_set_self hi]
    rfl
  · rw [if_neg h, List.getD_eq_getElem?_getD, List.getD_eq_getElem?_getD,
      List.getElem?_set_ne (fun e => h e.symm)]

/-- One step of `bitset_set_list`. -/
theorem bitset_get_set_bit (w : List Nat) (pos v : Nat) (hp : pos / 64 < w.length) :
    bitset_get (w.set (pos / 64) (w.getD (pos / 64) 0 ||| 1 <<< (pos % 64))) v
      = (bitset_get w v || decide (v = pos)) := by
  rw [bitset_get_set w _ _ v hp]
  by_cases h : v / 64 = pos / 64
  · rw [if_pos h, testBit_or_one_shiftLeft]
    unfold bitset_get
    rw [h]
    congr 1
    have : (v % 64 = pos % 64) ↔ v = pos := by omega
    simp [this]
  · rw [if_neg h]
    have : ¬ v = pos := fun e => h (by rw [e])
    simp [this]

theorem bitset_set_list_length (w l : List Nat) : (bitset_set_list w l).length = w.length := by
  unfold bitset_set_list
  induction l generalizing w with
  | nil => rfl
  | cons a t ih => rw [List.foldl_cons, ih, List.length_set]

theorem bitset_get_set_list (w l : List Nat) (hl : ∀ x ∈ l, x / 64 < w.length) (v : Nat) :
    bitset_get (bitset_set_list w l) v = (bitset_get w v || l.contains v) := by
  unfold bitset_set_list
  induction l generalizing w with
  | nil => simp
  | cons a t ih =>
    rw [List.foldl_cons, ih _ (fun x hx => by
      rw [List.length_set]
      exact hl x (List.mem_cons_of_mem _ hx)),
      bitset_get_set_bit w a v (hl a (List.mem_cons_self _ _))]
    simp only [List.contains_cons, Bool.or_assoc]
    congr 2

theorem bitset_set_list_withcard_eq (w : List Nat) (card : Nat) (l : List Nat)
    (hl : ∀ x ∈ l, x / 64 < w.length) :
    (bitset_set_list_withcard w card l).1 = bitset_set_list w l
    ∧ (bitset_set_list_withcard w card l).2 + (w.map hamming).sum
      = card + ((bitset_set_list w l).map hamming).sum := by
  unfold bitset_set_list_withcard bitset_set_list
  induction l generalizing w card with
  | nil => simp
  | cons a t ih =>
    rw [List.foldl_cons, List.foldl_cons]
    have ha := hl a (List.mem_cons_self _ _)
    obtain ⟨h1, h2⟩ := ih (w.set (a / 64) (w.getD (a / 64) 0 ||| 1 <<< (a % 64)))
      (card + (w.getD (a / 64) 0 ^^^ (w.getD (a / 64) 0 ||| 1 <<< (a % 64))) >>> (a % 64))
      (fun x hx => by
        rw [List.length_set]
        exact hl x (List.mem_cons_of_mem _ hx))
    refine ⟨h1, ?_⟩
    have h3 := sum_map_set hamming w (a / 64) (w.getD (a / 64) 0 ||| 1 <<< (a % 64)) ha
    rw [hamming_or _ _ (Nat.mod_lt _ (by decide))] at h3
    simp only at h2 ⊢
    rw [xor_or_shiftRight] at h2 ⊢
    omega


theorem mem_bitset_extract_setbits_uint16 (words : List Nat) (v : Nat) :
    v ∈ bitset_extract_setbits_uint16 words
      ↔ v / 64 < words.length ∧ bitset_get words v = true := by
  unfold bitset_extract_setbits_uint16 bitset_get
  simp only [List.mem_flatMap, List.mem_map, List.mem_filter, List.mem_range]
  constructor
  · rintro ⟨i, hi, b, ⟨hb, ht⟩, rfl⟩
    have e1 : (64 * i + b) / 64 = i := by omega
    have e2 : (64 * i + b) % 64 = b := by omega
    rw [e1, e2]
    exact ⟨hi, ht⟩
  · rintro ⟨h1, h2⟩
    exact ⟨v / 64, h1, v % 64, ⟨Nat.mod_lt _ (by decide), h2⟩, by omega⟩

theorem bitset_extract_setbits_uint16_sorted (words : List Nat) :
    (bitset_extract_setbits_uint16 words).Pairwise (fun x y => x < y) := by
  unfold bitset_extract_setbits_uint16
  rw [List.pairwise_flatMap]
  constructor
  · intro i _
    exact ((List.pairwise_lt_range 64).filter _).map _ (fun a b h => by omega)
  · apply (List.pairwise_lt_range words.length).imp
    intro i j hij x hx y hy
    simp only [List.mem_map, List.mem_filter, List.mem_range] at hx hy
    obtain ⟨b, ⟨hb, _⟩, rfl⟩ := hx
    obtain ⟨c, ⟨hc, _⟩, rfl⟩ := hy
    omega

theorem bitset_extract_setbits_uint16_length (words : List Nat) :
    (bitset_extract_setbits_uint16 words).length = (words.map hamming).sum := by
  unfold bitset_extract_setbits_uint16
  rw [List.length_flatMap]
  congr 1
  apply List.ext_getElem
  · simp
  · intro i h1 h2
    simp only [List.length_map, List.length_range] at h1 h2
    simp only [List.getElem_map, List.getElem_range, Function.comp, List.length_map, hamming,
      List.countP_eq_length_filter]
    rw [List.getD_eq_getElem?_getD, List.getElem?_eq_getElem h2]
    rfl

/-- The number of bits set in 1024 words is the number of 16-bit values whose
bit is set. -/
theorem count_values_bitset_get (words : List Nat) (h : words.length = 1024) :
    count_values (bitset_get words) = (words.map hamming).sum := by
  rw [← bitset_extract_setbits_uint16_length]
  apply count_values_eq_length _ _ (nodup_of_sorted _ (bitset_extract_setbits_uint16_sorted _))
  intro v
  rw [mem_bitset_extract_setbits_uint16, h]
  constructor
  · rintro ⟨h1, h2⟩
    exact ⟨by omega, h2⟩
  · rintro ⟨h1, h2⟩
    exact ⟨by omega, h2⟩


theorem count_values_congr (p q : Nat → Bool) (h : ∀ v, v < 65536 → p v = q v) :
    count_values p = count_values q := by
  unfold count_values
  apply List.countP_congr
  intro v hv
  rw [h v (List.mem_range.1 hv)]

theorem count_values_le (p : Nat → Bool) : count_values p ≤ 65536 := by
  unfold count_values
  have h := List.countP_le_length p (l := List.range 65536)
  rwa [List.length_range] at h

theorem count_values_contains (l : List Nat) (hs : l.Pairwise (fun x y => x < y))
    (hl : ∀ x ∈ l, x < 65536) : count_values (fun v => l.contains v) = l.length := by
  apply count_values_eq_length _ _ (nodup_of_sorted _ hs)
  intro v
  rw [List.contains_iff_exists_mem_beq]
  simp only [beq_iff_eq, exists_eq_right']
  exact ⟨fun h => ⟨hl v h, h⟩, fun h => h.2⟩

theorem bitset_get_replicate (n v : Nat) : bitset_get (List.replicate n 0) v = false := by
  unfold bitset_get
  rw [List.getD_eq_getElem?_getD]
  by_cases h : v / 64 < n
  · rw [List.getElem?_eq_getElem (by simpa using h)]
    simp
  · rw [List.getElem?_eq_none (by simpa using h)]
    simp

theorem int32_cast_of_le (x : Nat) (h : x ≤ 65536) : int32_cast x = (x : Int) := by
  unfold int32_cast
  have e : x % 2 ^ 32 = x := by omega
  rw [e, if_pos (by omega)]

/-- The bitset branch of `array_array_container_union`: the words hold the
union and the returned cardinality is the number of bits set. -/
theorem bitset_set_lists_spec (l1 l2 : List Nat)
    (hs1 : l1.Pairwise (fun x y => x < y)) (hl1 : ∀ x ∈ l1, x < 65536)
    (hl2 : ∀ x ∈ l2, x < 65536) :
    let words := bitset_set_list (List.replicate BITSET_CONTAINER_SIZE_IN_WORDS 0) l1
    let r := bitset_set_list_withcard words l1.length l2
    r.1.length = 1024
    ∧ (∀ v, bitset_get r.1 v = (l1.contains v || l2.contains v))
    ∧ r.2 = (r.1.map hamming).sum
    ∧ r.2 = count_values (fun v => l1.contains v || l2.contains v) := by
  intro words r
  have hw0 : (List.replicate BITSET_CONTAINER_SIZE_IN_WORDS 0).length = 1024 := by
    rw [List.length_replicate]
    rfl
  have hw : words.length = 1024 := by
    simp only [words]
    rw [bitset_set_list_length, hw0]
  have hg1 : ∀ v, bitset_get words v = l1.contains v := by
    intro v
    simp only [words]
    rw [bitset_get_set_list _ _ (fun x hx => by
      rw [hw0]
      have := hl1 x hx
      omega), bitset_get_replicate]
    simp
  have hb2 : ∀ x ∈ l2, x / 64 < words.length := by
    intro x hx
    rw [hw]
    have := hl2 x hx
    omega
  obtain ⟨e1, e2⟩ := bitset_set_list_withcard_eq words l1.length l2 hb2
  have hr1 : r.1.length = 1024 := by
    simp only [r]
    rw [e1, bitset_set_list_length, hw]
  have hg2 : ∀ v, bitset_get r.1 v = (l1.contains v || l2.contains v) := by
    intro v
    simp only [r]
    rw [e1, bitset_get_set_list _ _ hb2, hg1]
  have hc1 : (words.map hamming).sum = l1.length := by
    rw [← count_values_bitset_get words hw, ← count_values_contains l1 hs1 hl1]
    exact count_values_congr _ _ (fun v _ => hg1 v)
  have hsum : r.2 = (r.1.map hamming).sum := by
    simp only [r]
    rw [e1]
    omega
  refine ⟨hr1, hg2, hsum, ?_⟩
  rw [hsum, ← count_values_bitset_get r.1 hr1]
  exact count_values_congr _ _ (fun v _ => hg2 v)


theorem array_container_contains_iff (a : array_container_t) (v : Nat) :
    array_container_contains a v = true ↔ v ∈ a.array.take a.cardinality := by
  unfold array_container_contains
  rw [List.contains_iff_exists_mem_beq]
  simp only [beq_iff_eq, exists_eq_right']

/-- The array branch of `array_array_container_union`. -/
theorem array_container_union_spec (src_1 src_2 out : array_container_t)
    (h1 : array_container_valid src_1) (h2 : array_container_valid src_2) :
    array_container_valid (array_container_union src_1 src_2 out)
    ∧ (∀ v, array_container_contains (array_container_union src_1 src_2 out) v
        = (array_container_contains src_1 v || array_container_contains src_2 v))
    ∧ (array_container_union src_1 src_2 out).cardinality
        = count_values (fun v => array_container_contains src_1 v
            || array_container_contains src_2 v)
    ∧ (array_container_union src_1 src_2 out).cardinality
        ≤ src_1.cardinality + src_2.cardinality := by
  have htake : ((array_container_union src_1 src_2 out).array.take
      (array_container_union src_1 src_2 out).cardinality)
        = union_uint16 (src_1.array.take src_1.cardinality)
            (src_2.array.take src_2.cardinality) := by
    simp only [array_container_union]
    rw [List.take_left]
  have hmem : ∀ v, array_container_contains (array_container_union src_1 src_2 out) v
      = (array_container_contains src_1 v || array_container_contains src_2 v) := by
    intro v
    rw [Bool.eq_iff_iff, Bool.or_eq_true, array_container_contains_iff,
      array_container_contains_iff, array_container_contains_iff, htake, mem_union_uint16]
  have hsorted := union_uint16_sorted _ _ h1.2.1 h2.2.1
  have hlt : ∀ x ∈ union_uint16 (src_1.array.take src_1.cardinality)
      (src_2.array.take src_2.cardinality), x < 65536 := by
    intro x hx
    rcases (mem_union_uint16 _ _ x).1 hx with h | h
    · exact h1.2.2 x h
    · exact h2.2.2 x h
  have hlen := union_uint16_length_le (src_1.array.take src_1.cardinality)
    (src_2.array.take src_2.cardinality)
  rw [List.length_take, List.length_take, Nat.min_eq_left h1.1, Nat.min_eq_left h2.1] at hlen
  refine ⟨⟨?_, ?_, ?_⟩, hmem, ?_, hlen⟩
  · simp [array_container_union]
  · rw [htake]
    exact hsorted
  · rw [htake]
    exact hlt
  · rw [← count_values_congr _ _ (fun v _ => hmem v)]
    have hc := count_values_contains _ hsorted hlt
    rw [← htake] at hc
    unfold array_container_contains
    rw [hc, htake]
    rfl

/-- C30: for two array containers with strictly increasing 16-bit values, when
allocations succeed, `array_array_container_union` leaves in `*dst` a
container that holds exactly the values of either source; it returns true iff
the union has more than `DEFAULT_MAX_SIZE` values; when it returns false
`*dst` is an array container, strictly increasing, whose cardinality is the
size of the union; when it returns true `*dst` is a bitset container of 1024
words whose cardinality field is the number of bits set.  When allocations
fail it returns true with the null pointer. -/
theorem array_array_container_union_correct (src_1 src_2 : array_container_t)
    (h1 : array_container_valid src_1) (h2 : array_container_valid src_2) :
    (∃ c, (array_array_container_union true src_1 src_2).1 = some c
      ∧ (∀ v, container_contains c v
          = (array_container_contains src_1 v || array_container_contains src_2 v))
      ∧ ((array_array_container_union true src_1 src_2).2 = true
          ↔ DEFAULT_MAX_SIZE < count_values (fun v => array_container_contains src_1 v
              || array_container_contains src_2 v))
      ∧ ((array_array_container_union true src_1 src_2).2 = false →
          ∃ a, c = container_t.array a ∧ array_container_valid a
            ∧ a.cardinality = count_values (fun v => array_container_contains src_1 v
                || array_container_contains src_2 v))
      ∧ ((array_array_container_union true src_1 src_2).2 = true →
          ∃ b, c = container_t.bitset b ∧ b.array.length = BITSET_CONTAINER_SIZE_IN_WORDS
            ∧ b.cardinality = (bitset_container_compute_cardinality b : Int)))
    ∧ array_array_container_union false src_1 src_2 = (none, true) := by
  constructor
  · by_cases htot : src_1.cardinality + src_2.cardinality ≤ DEFAULT_MAX_SIZE
    · obtain ⟨hv, hm, hc, hle⟩ := array_container_union_spec src_1 src_2
        ⟨0, src_1.cardinality + src_2.cardinality,
          List.replicate (src_1.cardinality + src_2.cardinality) 0⟩ h1 h2
      simp only [array_array_container_union, htot, if_true,
        array_container_create_given_capacity]
      refine ⟨_, rfl, ?_, ?_, ?_, ?_⟩
      · intro v
        rw [container_contains]
        exact hm v
      · rw [← hc]
        simp only [Bool.false_eq_true, false_iff]
        omega
      · intro _
        exact ⟨_, rfl, hv, hc⟩
      · intro h
        simp at h
    · have hlen1 : (src_1.array.take src_1.cardinality).length = src_1.cardinality := by
        rw [List.length_take, Nat.min_eq_left h1.1]
      obtain ⟨hr1, hg, hsum, hcount⟩ := bitset_set_lists_spec
        (src_1.array.take src_1.cardinality) (src_2.array.take src_2.cardinality)
        h1.2.1 h1.2.2 h2.2.2
      simp only [hlen1] at hr1 hg hsum hcount
      have hle := count_values_le (fun v => (src_1.array.take src_1.cardinality).contains v
          || (src_2.array.take src_2.cardinality).contains v)
      simp only [array_array_container_union, htot, if_false, bitset_container_create, if_true]
      rw [int32_cast_of_le _ (by rw [hcount]; exact hle)]
      by_cases hsmall : (bitset_set_list_withcard
          (bitset_set_list (List.replicate BITSET_CONTAINER_SIZE_IN_WORDS 0)
            (src_1.array.take src_1.cardinality)) src_1.cardinality
          (src_2.array.take src_2.cardinality)).2 ≤ DEFAULT_MAX_SIZE
      · have hsmall' : ((bitset_set_list_withcard
            (bitset_set_list (List.replicate BITSET_CONTAINER_SIZE_IN_WORDS 0)
              (src_1.array.take src_1.cardinality)) src_1.cardinality
            (src_2.array.take src_2.cardinality)).2 : Int) ≤ (DEFAULT_MAX_SIZE : Int) := by
          exact_mod_cast hsmall
        simp only [hsmall', if_true, array_container_from_bitset, Option.map_some',
          Int.toNat_ofNat]
        have hE := bitset_extract_setbits_uint16_length (bitset_set_list_withcard
            (bitset_set_list (List.replicate BITSET_CONTAINER_SIZE_IN_WORDS 0)
              (src_1.array.take src_1.cardinality)) src_1.cardinality
            (src_2.array.take src_2.cardinality)).1
        rw [← hsum] at hE
        refine ⟨_, rfl, ?_, ?_, ?_, ?_⟩
        · intro v
          rw [container_contains, Bool.eq_iff_iff, array_container_contains_iff]
          simp only
          rw [← hE, List.take_length, mem_bitset_extract_setbits_uint16, hg v, hr1]
          unfold array_container_contains
          constructor
          · exact fun h => h.2
          · intro h
            refine ⟨?_, h⟩
            rw [Bool.or_eq_true, List.contains_iff_exists_mem_beq,
              List.contains_iff_exists_mem_beq] at h
            simp only [beq_iff_eq, exists_eq_right'] at h
            rcases h with h | h
            · have := h1.2.2 v h
              omega
            · have := h2.2.2 v h
              omega
        · simp only [Bool.false_eq_true, false_iff]
          unfold array_container_contains
          rw [← hcount]
          omega
        · intro _
          refine ⟨_, rfl, ⟨?_, ?_, ?_⟩, ?_⟩
          · simp only
            omega
          · simp only
            rw [← hE, List.take_length]
            exact bitset_extract_setbits_uint16_sorted _
          · simp only
            rw [← hE, List.take_length]
            intro x hx
            rw [mem_bitset_extract_setbits_uint16, hr1] at hx
            omega
          · simp only
            unfold array_container_contains
            exact hcount
        · intro h
          simp at h
      · have hsmall' : ¬ ((bitset_set_list_withcard
            (bitset_set_list (List.replicate BITSET_CONTAINER_SIZE_IN_WORDS 0)
              (src_1.array.take src_1.cardinality)) src_1.cardinality
            (src_2.array.take src_2.cardinality)).2 : Int) ≤ (DEFAULT_MAX_SIZE : Int) := by
          exact_mod_cast hsmall
        simp only [hsmall', if_false]
        refine ⟨_, rfl, ?_, ?_, ?_, ?_⟩
        · intro v
          rw [container_contains]
          exact hg v
        · simp only [true_iff]
          unfold array_container_contains
          rw [← hcount]
          omega
        · intro h
          simp at h
        · intro _
          exact ⟨_, rfl, hr1, by simp only [bitset_container_compute_cardinality, hsum]⟩
  · unfold array_array_container_union
    simp only [array_container_create_given_capacity, bitset_container_create]
    split <;> rfl

theorem array_array_container_union_correct_witness :
    array_container_valid ⟨2, 2, [1, 5]⟩ ∧ array_container_valid ⟨3, 4, [1, 2, 7, 0]⟩
    ∧ ∃ c, (array_array_container_union true ⟨2, 2, [1, 5]⟩ ⟨3, 4, [1, 2, 7, 0]⟩).1 = some c
      ∧ ∀ v, container_contains c v
          = (array_container_contains ⟨2, 2, [1, 5]⟩ v
            || array_container_contains ⟨3, 4, [1, 2, 7, 0]⟩ v) :=
  ⟨by simp [array_container_valid], by simp [array_container_valid],
    (array_array_container_union_correct ⟨2, 2, [1, 5]⟩ ⟨3, 4, [1, 2, 7, 0]⟩
      (by simp [array_container_valid]) (by simp [array_container_valid])).1.imp
      (fun _ h => ⟨h.1, h.2.1⟩)⟩

/-! ## Frozen format: what `roaring_bitmap_frozen_view` checks -/

theorem roaring_bitmap_frozen_view_sizes_sum (buf : Nat → Nat) (counts typecodes : Nat)
    (n i b r a : Nat) (res : Nat × Nat × Nat)
    (h : roaring_bitmap_frozen_view_sizes buf counts typecodes n i b r a = some res) :
    res.1 + res.2.1 + res.2.2
      = b + r + a + ((List.range n).map
          (fun j => frozen_view_body_size buf counts typecodes (i + j))).sum := by
  induction n generalizing i b r a with
  | zero =>
    simp only [roaring_bitmap_frozen_view_sizes, Option.some.injEq] at h
    subst h
    simp
  | succ n ih =>
    rw [List.range_succ_eq_map, List.map_cons, List.sum_cons, List.map_map]
    have hshift : (List.map ((fun j => frozen_view_body_size buf counts typecodes (i + j))
        ∘ Nat.succ) (List.range n))
        = (List.range n).map (fun j => frozen_view_body_size buf counts typecodes (i + 1 + j)) := by
      apply List.map_congr_left
      intro j _
      simp only [Function.comp, Nat.succ_eq_add_one]
      congr 1
      omega
    rw [hshift]
    rw [roaring_bitmap_frozen_view_sizes] at h
    simp only [Nat.add_zero]
    split at h
    · rename_i h1
      rw [ih _ _ _ _ h]
      generalize ((List.range n).map
        (fun j => frozen_view_body_size buf counts typecodes (i + 1 + j))).sum = S
      unfold frozen_view_body_size
      rw [if_pos h1]
      simp only [BITSET_CONTAINER_SIZE_IN_WORDS]
      omega
    · rename_i h1
      split at h
      · rename_i h2
        rw [ih _ _ _ _ h]
        generalize ((List.range n).map
        (fun j => frozen_view_body_size buf counts typecodes (i + 1 + j))).sum = S
        unfold frozen_view_body_size
        rw [if_neg h1, if_pos h2]
        omega
      · rename_i h2
        split at h
        · rename_i h3
          rw [ih _ _ _ _ h]
          generalize ((List.range n).map
        (fun j => frozen_view_body_size buf counts typecodes (i + 1 + j))).sum = S
          unfold frozen_view_body_size
          rw [if_neg h1, if_neg h2, if_pos h3]
          omega
        · exact absurd h (by simp)

theorem roaring_bitmap_frozen_view_sizes_total (buf : Nat → Nat) (counts typecodes : Nat)
    (n : Nat) (res : Nat × Nat × Nat)
    (h : roaring_bitmap_frozen_view_sizes buf counts typecodes n 0 0 0 0 = some res) :
    res.1 + res.2.1 + res.2.2
      = ((List.range n).map (frozen_view_body_size buf counts typecodes)).sum := by
  have hs := roaring_bitmap_frozen_view_sizes_sum buf counts typecodes n 0 0 0 0 res h
  simp only [Nat.zero_add] at hs
  exact hs

theorem roaring_bitmap_frozen_view_sizes_none (buf : Nat → Nat) (counts typecodes : Nat)
    (n i b r a j : Nat) (hj : j < n)
    (h1 : mem_read_uint8 buf (typecodes + (i + j)) ≠ BITSET_CONTAINER_TYPE_CODE)
    (h2 : mem_read_uint8 buf (typecodes + (i + j)) ≠ RUN_CONTAINER_TYPE_CODE)
    (h3 : mem_read_uint8 buf (typecodes + (i + j)) ≠ ARRAY_CONTAINER_TYPE_CODE) :
    roaring_bitmap_frozen_view_sizes buf counts typecodes n i b r a = none := by
  induction n generalizing i b r a j with
  | zero => omega
  | succ n ih =>
    rw [roaring_bitmap_frozen_view_sizes]
    cases j with
    | zero =>
      rw [Nat.add_zero] at h1 h2 h3
      rw [if_neg h1, if_neg h2, if_neg h3]
    | succ j =>
      have e : i + (j + 1) = i + 1 + j := by omega
      rw [e] at h1 h2 h3
      have hn := fun b r a => ih (i + 1) b r a j (by omega) h1 h2 h3
      split
      · exact hn _ _ _
      · split
        · exact hn _ _ _
        · split
          · exact hn _ _ _
          · rfl

theorem and_0x7FFF (x : Nat) : x &&& 0x7FFF = x % 32768 :=
  Nat.and_pow_two_sub_one_eq_mod x 15

/-- C26: `roaring_bitmap_frozen_view` returns the null pointer whenever the
buffer is not 32-byte aligned, or the length is below 4, or the low 15 bits of
the trailing header are not `FROZEN_COOKIE`, or the length is below
`4 + 5 * num_containers`, or some typecode byte is none of BITSET, ARRAY and
RUN, or the length differs from the sum of the three zone sizes plus
`5 * num_containers + 4`. -/
theorem roaring_bitmap_frozen_view_null (malloc_ok : Bool) (buf_addr : Nat) (buf : Nat → Nat)
    (length : Nat) :
    (buf_addr % 32 ≠ 0 → roaring_bitmap_frozen_view malloc_ok buf_addr buf length = none)
    ∧ (length < 4 → roaring_bitmap_frozen_view malloc_ok buf_addr buf length = none)
    ∧ (mem_read_uint32 buf (length - 4) % 2 ^ 15 ≠ FROZEN_COOKIE →
        roaring_bitmap_frozen_view malloc_ok buf_addr buf length = none)
    ∧ (length < 4 + 5 * (mem_read_uint32 buf (length - 4) / 2 ^ 15) →
        roaring_bitmap_frozen_view malloc_ok buf_addr buf length = none)
    ∧ ((∃ i, i < mem_read_uint32 buf (length - 4) / 2 ^ 15
          ∧ mem_read_uint8 buf (length - 4 - mem_read_uint32 buf (length - 4) / 2 ^ 15 + i)
              ≠ BITSET_CONTAINER_TYPE_CODE
          ∧ mem_read_uint8 buf (length - 4 - mem_read_uint32 buf (length - 4) / 2 ^ 15 + i)
              ≠ ARRAY_CONTAINER_TYPE_CODE
          ∧ mem_read_uint8 buf (length - 4 - mem_read_uint32 buf (length - 4) / 2 ^ 15 + i)
              ≠ RUN_CONTAINER_TYPE_CODE) →
        roaring_bitmap_frozen_view malloc_ok buf_addr buf length = none)
    ∧ (length ≠ ((List.range (mem_read_uint32 buf (length - 4) / 2 ^ 15)).map
            (frozen_view_body_size buf
              (length - 4 - mem_read_uint32 buf (length - 4) / 2 ^ 15 * 3)
              (length - 4 - mem_read_uint32 buf (length - 4) / 2 ^ 15))).sum
          + 5 * (mem_read_uint32 buf (length - 4) / 2 ^ 15) + 4 →
        roaring_bitmap_frozen_view malloc_ok buf_addr buf length = none) := by
  have hshift : mem_read_uint32 buf (length - 4) >>> 15
      = mem_read_uint32 buf (length - 4) / 32768 := Nat.shiftRight_eq_div_pow _ 15
  simp only [Nat.reducePow]
  unfold roaring_bitmap_frozen_view
  simp only [and_0x7FFF, hshift, Nat.mul_one]
  refine ⟨?_, ?_, ?_, ?_, ?_, ?_⟩
  · intro h
    rw [if_pos h]
  · intro h
    split
    · rfl
    · rfl
  · intro h
    split
    · rfl
    · split
      · rfl
      · rfl
  · intro h
    split
    · rfl
    · split
      · rfl
      · split
        · rfl
        · first | rfl | rw [if_pos (by omega)]
  · rintro ⟨i, hi, h1, h2, h3⟩
    rw [roaring_bitmap_frozen_view_sizes_none buf _ _ _ 0 0 0 0 i hi
      (by rwa [Nat.zero_add]) (by rwa [Nat.zero_add]) (by rwa [Nat.zero_add])]
    split
    · rfl
    · split
      · rfl
      · split
        · rfl
        · split <;> rfl
  · intro h
    split
    · rfl
    · split
      · rfl
      · split
        · rfl
        · split
          · rfl
          · split
            · rfl
            · rename_i res hres
              have hs := roaring_bitmap_frozen_view_sizes_total buf _ _ _ _ hres
              simp only at hs
              first | rfl | rw [if_pos (by omega)]

theorem roaring_bitmap_frozen_view_null_witness :
    roaring_bitmap_frozen_view true 1 (fun _ => 0) 9 = none :=
  (roaring_bitmap_frozen_view_null true 1 (fun _ => 0) 9).1 (by decide)

/-- A 32-byte aligned buffer of 9 bytes announcing one run container with no
run, and one of 18 bytes announcing two array containers under the same key 5:
`roaring_bitmap_frozen_view` returns a bitmap for both. -/
theorem roaring_bitmap_frozen_view_unchecked :
    roaring_bitmap_frozen_view true 0 (fun a => [0, 0, 0, 0, 3, 198, 181, 0, 0].getD a 0) 9
      = some (ROARING_FLAG_FROZEN, ⟨[(0, container_t.run ⟨0, 0, []⟩)]⟩)
    ∧ (∀ v, container_contains (container_t.run ⟨0, 0, []⟩) v = false)
    ∧ roaring_bitmap_frozen_view true 0
        (fun a => [1, 0, 2, 0, 5, 0, 5, 0, 0, 0, 0, 0, 2, 2, 198, 53, 1, 0].getD a 0) 18
      = some (ROARING_FLAG_FROZEN,
          ⟨[(5, container_t.array ⟨1, 1, [1]⟩), (5, container_t.array ⟨1, 1, [2]⟩)]⟩)
    ∧ ¬ keys_sorted [(5, container_t.array ⟨1, 1, [1]⟩), (5, container_t.array ⟨1, 1, [2]⟩)] := by
  refine ⟨by rfl, ?_, by rfl, ?_⟩
  · intro v
    rfl
  · simp [keys_sorted]

theorem roaring_bitmap_frozen_view_loop_shape (buf : Nat → Nat) (keys counts typecodes : Nat)
    (n i bitset_zone run_zone array_zone : Nat) (ra : roaring_array_t container_t)
    (h : roaring_bitmap_frozen_view_loop buf keys counts typecodes n i bitset_zone run_zone
      array_zone = some ra) :
    ra.length = n
    ∧ ∀ j e, ra[j]? = some e → frozen_view_entry buf keys counts typecodes (i + j) e := by
  induction n generalizing i bitset_zone run_zone array_zone ra with
  | zero =>
    simp only [roaring_bitmap_frozen_view_loop, Option.some.injEq] at h
    subst h
    simp
  | succ n ih =>
    rw [roaring_bitmap_frozen_view_loop] at h
    simp only at h
    have step : ∀ (bz rz az : Nat) (c : container_t),
        (roaring_bitmap_frozen_view_loop buf keys counts typecodes n (i + 1) bz rz az).map
          (fun ra => (mem_read_uint16 buf (keys + 2 * i), c) :: ra) = some ra →
        frozen_view_entry buf keys counts typecodes i (mem_read_uint16 buf (keys + 2 * i), c) →
        ra.length = n + 1
        ∧ ∀ j e, ra[j]? = some e → frozen_view_entry buf keys counts typecodes (i + j) e := by
      intro bz rz az c hm hc
      rw [Option.map_eq_some'] at hm
      obtain ⟨t, ht, rfl⟩ := hm
      obtain ⟨hl, hj⟩ := ih _ _ _ _ _ ht
      refine ⟨by simp [hl], ?_⟩
      intro j e he
      cases j with
      | zero =>
        simp only [List.getElem?_cons_zero, Option.some.injEq] at he
        subst he
        exact hc
      | succ j =>
        simp only [List.getElem?_cons_succ] at he
        have := hj j e he
        rwa [show i + 1 + j = i + (j + 1) by omega] at this
    split at h
    · rename_i h1
      exact step _ _ _ _ h ⟨rfl, by rw [h1]; rfl, Or.inl ⟨_, rfl, rfl, by simp⟩⟩
    · split at h
      · rename_i h2
        exact step _ _ _ _ h ⟨rfl, by rw [h2]; rfl, Or.inr (Or.inl ⟨_, rfl, rfl, by simp⟩)⟩
      · split at h
        · rename_i h3
          exact step _ _ _ _ h ⟨rfl, by rw [h3]; rfl, Or.inr (Or.inr ⟨_, rfl, rfl, by simp⟩)⟩
        · exact absurd h (by simp)

/-- C27 as the code has it: when `roaring_bitmap_frozen_view` returns a bitmap,
for any input bytes, the directory has the FROZEN flag and `header >> 15`
entries, and entry `i` has the key `keys[i]`, the typecode `typecodes[i]`,
which is BITSET, ARRAY or RUN, and the count `counts[i]` as stored in the
buffer: a bitset or array container has the cardinality field
`counts[i] + 1`, a run container has `counts[i]` runs.  Neither the order of
the keys nor the contents of the containers are checked. -/
theorem roaring_bitmap_frozen_view_shape (malloc_ok : Bool) (buf_addr : Nat) (buf : Nat → Nat)
    (length : Nat)
    (flags : Nat) (rb : roaring_bitmap_t container_t)
    (h : roaring_bitmap_frozen_view malloc_ok buf_addr buf length = some (flags, rb)) :
    flags = ROARING_FLAG_FROZEN
    ∧ rb.high_low_container.length = mem_read_uint32 buf (length - 4) / 2 ^ 15
    ∧ ∀ i e, rb.high_low_container[i]? = some e →
        frozen_view_entry buf
          (length - 4 - mem_read_uint32 buf (length - 4) / 2 ^ 15 * 5)
          (length - 4 - mem_read_uint32 buf (length - 4) / 2 ^ 15 * 3)
          (length - 4 - mem_read_uint32 buf (length - 4) / 2 ^ 15) i e := by
  have hshift : mem_read_uint32 buf (length - 4) >>> 15
      = mem_read_uint32 buf (length - 4) / 32768 := Nat.shiftRight_eq_div_pow _ 15
  simp only [Nat.reducePow]
  unfold roaring_bitmap_frozen_view at h
  simp only [hshift, Nat.mul_one] at h
  split at h
  · exact absurd h (by simp)
  · split at h
    · exact absurd h (by simp)
    · split at h
      · exact absurd h (by simp)
      · split at h
        · exact absurd h (by simp)
        · split at h
          · exact absurd h (by simp)
          · split at h
            · exact absurd h (by simp)
            · split at h
              · exact absurd h (by simp)
              · split at h
                · exact absurd h (by simp)
                · rename_i ra hra
                  simp only [Option.some.injEq, Prod.mk.injEq] at h
                  obtain ⟨rfl, rfl⟩ := h
                  obtain ⟨hl, hj⟩ := roaring_bitmap_frozen_view_loop_shape _ _ _ _ _ _ _ _ _ _ hra
                  refine ⟨rfl, hl, ?_⟩
                  intro i e he
                  have := hj i e he
                  rwa [Nat.zero_add] at this

theorem roaring_bitmap_frozen_view_shape_witness :
    roaring_bitmap_frozen_view true 32
        (fun a => [7, 0, 9, 0, 0, 0, 2, 198, 181, 0, 0].getD a 0) 11
      = some (ROARING_FLAG_FROZEN, ⟨[(9, container_t.array ⟨1, 1, [7]⟩)]⟩)
    ∧ ([(9, container_t.array ⟨1, 1, [7]⟩)] : roaring_array_t container_t).length
      = mem_read_uint32 (fun a => [7, 0, 9, 0, 0, 0, 2, 198, 181, 0, 0].getD a 0) (11 - 4)
          / 2 ^ 15 :=
  ⟨by rfl, (roaring_bitmap_frozen_view_shape true 32
    (fun a => [7, 0, 9, 0, 0, 0, 2, 198, 181, 0, 0].getD a 0) 11 ROARING_FLAG_FROZEN
    ⟨[(9, container_t.array ⟨1, 1, [7]⟩)]⟩ (by rfl)).2.1⟩

/-! ## Frozen format: what `roaring_bitmap_frozen_serialize` writes -/

theorem mem_holds_nil (mem : Nat → Nat) (o : Nat) : mem_holds mem o [] := by
  intro i hi
  simp at hi

theorem mem_holds_append (mem : Nat → Nat) (o : Nat) (x y : List Nat) :
    mem_holds mem o (x ++ y) ↔ mem_holds mem o x ∧ mem_holds mem (o + x.length) y := by
  constructor
  · intro h
    constructor
    · intro i hi
      rw [h i (by rw [List.length_append]; omega), List.getD_eq_getElem?_getD,
        List.getD_eq_getElem?_getD, List.getElem?_append_left hi]
    · intro i hi
      have := h (x.length + i) (by rw [List.length_append]; omega)
      rw [Nat.add_assoc, this, List.getD_eq_getElem?_getD, List.getD_eq_getElem?_getD,
        List.getElem?_append_right (by omega), Nat.add_sub_cancel_left]
  · rintro ⟨h1, h2⟩ i hi
    rw [List.length_append] at hi
    by_cases hx : i < x.length
    · rw [h1 i hx, List.getD_eq_getElem?_getD, List.getD_eq_getElem?_getD,
        List.getElem?_append_left hx]
    · have := h2 (i - x.length) (by omega)
      rw [show o + x.length + (i - x.length) = o + i by omega] at this
      rw [this, List.getD_eq_getElem?_getD, List.getD_eq_getElem?_getD,
        List.getElem?_append_right (by omega)]

theorem memcpy_frame (mem : Nat → Nat) (dst : Nat) (src : List Nat) (a : Nat)
    (h : a < dst ∨ dst + src.length ≤ a) : memcpy mem dst src a = mem a := by
  unfold memcpy
  rw [if_neg (by omega)]

theorem mem_holds_memcpy_self (mem : Nat → Nat) (dst : Nat) (src : List Nat) :
    mem_holds (memcpy mem dst src) dst src := by
  intro i hi
  unfold memcpy
  rw [if_pos (by omega), Nat.add_sub_cancel_left]

theorem mem_holds_memcpy (mem : Nat → Nat) (dst : Nat) (src : List Nat) (o : Nat)
    (l : List Nat) (h : mem_holds mem o l) (hd : o + l.length ≤ dst ∨ dst + src.length ≤ o) :
    mem_holds (memcpy mem dst src) o l := by
  intro i hi
  rw [memcpy_frame _ _ _ _ (by omega), h i hi]

theorem mem_holds_congr (mem mem' : Nat → Nat) (o : Nat) (l : List Nat)
    (h : mem_holds mem o l) (he : ∀ a, o ≤ a → a < o + l.length → mem' a = mem a) :
    mem_holds mem' o l := by
  intro i hi
  rw [he _ (by omega) (by omega), h i hi]

theorem length_flatMap_const {α : Type} (l : List α) (f : α → List Nat) (k : Nat)
    (h : ∀ x, (f x).length = k) : (l.flatMap f).length = k * l.length := by
  induction l with
  | nil => simp
  | cons a t ih =>
    rw [List.flatMap_cons, List.length_append, ih, h, List.length_cons]
    ring

theorem frozen_body_length (c : container_t) (h : container_wf c) :
    (frozen_body c).length = frozen_body_size c := by
  cases c with
  | bitset b =>
    simp only [container_wf] at h
    simp only [frozen_body, frozen_body_size]
    rw [length_flatMap_const _ uint64_to_bytes 8 (fun _ => rfl), List.length_take, h]
    rfl
  | run r =>
    simp only [container_wf] at h
    simp only [frozen_body, frozen_body_size]
    rw [length_flatMap_const _ rle16_to_bytes 4 (fun _ => rfl), List.length_take,
      Nat.min_eq_left h]
  | array a =>
    simp only [container_wf] at h
    simp only [frozen_body, frozen_body_size]
    rw [length_flatMap_const _ uint16_to_bytes 2 (fun _ => rfl), List.length_take,
      Nat.min_eq_left h]
  | shared c => exact absurd h (by simp [container_wf])

theorem frozen_zone_cons (typecode : Nat) (e : Nat × container_t)
    (ra : roaring_array_t container_t) :
    frozen_zone typecode (e :: ra)
      = (if e.2.typecode = typecode then frozen_body e.2 else []) ++ frozen_zone typecode ra := by
  simp [frozen_zone, List.flatMap_cons]

theorem frozen_zone_length (typecode : Nat) (ra : roaring_array_t container_t)
    (h : ∀ e ∈ ra, container_wf e.2) :
    (frozen_zone typecode ra).length
      = (ra.map (fun e => if e.2.typecode = typecode then frozen_body_size e.2 else 0)).sum := by
  induction ra with
  | nil => simp [frozen_zone]
  | cons e t ih =>
    rw [frozen_zone_cons, List.length_append, ih (fun x hx => h x (List.mem_cons_of_mem _ hx)),
      List.map_cons, List.sum_cons]
    congr 1
    split
    · exact frozen_body_length _ (h e (List.mem_cons_self _ _))
    · rfl

/-- One step of the second loop of `roaring_bitmap_frozen_serialize`. -/
theorem roaring_bitmap_frozen_serialize_loop_cons (count_zone : Nat) (e : Nat × container_t)
    (ra : roaring_array_t container_t) (i bitset_zone run_zone array_zone : Nat)
    (mem : Nat → Nat) (h : container_wf e.2) :
    roaring_bitmap_frozen_serialize_loop count_zone (e :: ra) i bitset_zone run_zone
        array_zone mem
      = roaring_bitmap_frozen_serialize_loop count_zone ra (i + 1)
          (bitset_zone + (if e.2.typecode = BITSET_CONTAINER_TYPE_CODE then
            frozen_body_size e.2 else 0))
          (run_zone + (if e.2.typecode = RUN_CONTAINER_TYPE_CODE then
            frozen_body_size e.2 else 0))
          (array_zone + (if e.2.typecode = ARRAY_CONTAINER_TYPE_CODE then
            frozen_body_size e.2 else 0))
          (memcpy (memcpy mem
              (if e.2.typecode = BITSET_CONTAINER_TYPE_CODE then bitset_zone
                else if e.2.typecode = RUN_CONTAINER_TYPE_CODE then run_zone else array_zone)
              (frozen_body e.2))
            (count_zone + 2 * i) (uint16_to_bytes (frozen_count e.2))) := by
  obtain ⟨k, c⟩ := e
  cases c with
  | bitset b => rfl
  | run r =>
    simp only [roaring_bitmap_frozen_serialize_loop, container_t.typecode, frozen_body_size,
      frozen_body, frozen_count]
    simp [BITSET_CONTAINER_TYPE_CODE, RUN_CONTAINER_TYPE_CODE, ARRAY_CONTAINER_TYPE_CODE,
      Nat.mul_comm]
  | array a =>
    simp only [roaring_bitmap_frozen_serialize_loop, container_t.typecode, frozen_body_size,
      frozen_body, frozen_count]
    simp [BITSET_CONTAINER_TYPE_CODE, RUN_CONTAINER_TYPE_CODE, ARRAY_CONTAINER_TYPE_CODE,
      Nat.mul_comm]
  | shared c => exact absurd h (by simp [container_wf])

theorem container_wf_typecode (c : container_t) (h : container_wf c) :
    c.typecode = BITSET_CONTAINER_TYPE_CODE ∨ c.typecode = RUN_CONTAINER_TYPE_CODE
      ∨ c.typecode = ARRAY_CONTAINER_TYPE_CODE := by
  cases c with
  | bitset b => exact Or.inl rfl
  | run r => exact Or.inr (Or.inl rfl)
  | array a => exact Or.inr (Or.inr rfl)
  | shared c => exact absurd h (by simp [container_wf])

theorem frozen_zone_cons_length (typecode : Nat) (e : Nat × container_t)
    (ra : roaring_array_t container_t) (h : container_wf e.2) :
    (frozen_zone typecode (e :: ra)).length
      = (if e.2.typecode = typecode then frozen_body_size e.2 else 0)
        + (frozen_zone typecode ra).length := by
  rw [frozen_zone_cons, List.length_append]
  congr 1
  split
  · exact frozen_body_length _ h
  · rfl

/-- The second loop of `roaring_bitmap_frozen_serialize` fills the three zones
and the counts from the zone pointers on, and touches nothing else.  The zone
pointers are given as a function of the typecode. -/
theorem roaring_bitmap_frozen_serialize_loop_spec (count_zone : Nat)
    (ra : roaring_array_t container_t) (hwf : ∀ e ∈ ra, container_wf e.2)
    (i : Nat) (ptr : Nat → Nat) (mem : Nat → Nat)
    (hd : ∀ t1 t2, t1 ≠ t2 →
      ptr t1 + (frozen_zone t1 ra).length ≤ ptr t2
        ∨ ptr t2 + (frozen_zone t2 ra).length ≤ ptr t1)
    (hc : ∀ t, ptr t + (frozen_zone t ra).length ≤ count_zone + 2 * i) :
    ∃ mem', roaring_bitmap_frozen_serialize_loop count_zone ra i
        (ptr BITSET_CONTAINER_TYPE_CODE) (ptr RUN_CONTAINER_TYPE_CODE)
        (ptr ARRAY_CONTAINER_TYPE_CODE) mem = some mem'
      ∧ (∀ t, mem_holds mem' (ptr t) (frozen_zone t ra))
      ∧ mem_holds mem' (count_zone + 2 * i)
          (ra.flatMap (fun e => uint16_to_bytes (frozen_count e.2)))
      ∧ ∀ a, (∀ t, a < ptr t ∨ ptr t + (frozen_zone t ra).length ≤ a) →
          (a < count_zone + 2 * i ∨ count_zone + 2 * i + 2 * ra.length ≤ a) →
          mem' a = mem a := by
  induction ra generalizing i ptr mem with
  | nil =>
    refine ⟨mem, rfl, fun t => ?_, ?_, fun a _ _ => rfl⟩
    · exact mem_holds_nil _ _
    · exact mem_holds_nil _ _
  | cons e ra ih =>
    have hwe := hwf e (List.mem_cons_self _ _)
    have hlen := fun t => frozen_zone_cons_length t e ra hwe
    have hbody := frozen_body_length e.2 hwe
    have hP : (if e.2.typecode = BITSET_CONTAINER_TYPE_CODE then ptr BITSET_CONTAINER_TYPE_CODE
        else if e.2.typecode = RUN_CONTAINER_TYPE_CODE then ptr RUN_CONTAINER_TYPE_CODE
        else ptr ARRAY_CONTAINER_TYPE_CODE) = ptr e.2.typecode := by
      rcases container_wf_typecode e.2 hwe with h | h | h <;> rw [h] <;>
        simp [BITSET_CONTAINER_TYPE_CODE, RUN_CONTAINER_TYPE_CODE, ARRAY_CONTAINER_TYPE_CODE]
    rw [roaring_bitmap_frozen_serialize_loop_cons _ _ _ _ _ _ _ _ hwe, hP]
    obtain ⟨mem', hm, hz, hcnt, hfr⟩ := ih (fun x hx => hwf x (List.mem_cons_of_mem _ hx))
      (i + 1) (fun t => ptr t + (if e.2.typecode = t then frozen_body_size e.2 else 0))
      (memcpy (memcpy mem (ptr e.2.typecode) (frozen_body e.2)) (count_zone + 2 * i)
        (uint16_to_bytes (frozen_count e.2)))
      (by
        intro t1 t2 h12
        have := hd t1 t2 h12
        have := hlen t1
        have := hlen t2
        simp only
        omega)
      (by
        intro t
        have := hc t
        have := hlen t
        simp only
        omega)
    have hcl : (uint16_to_bytes (frozen_count e.2)).length = 2 := rfl
    have hself := hc e.2.typecode
    have hlself := hlen e.2.typecode
    rw [if_pos rfl] at hlself
    refine ⟨mem', hm, ?_, ?_, ?_⟩
    · intro t
      rw [frozen_zone_cons, mem_holds_append]
      constructor
      · by_cases ht : e.2.typecode = t
        · rw [if_pos ht, ← ht]
          apply mem_holds_congr _ _ _ _
            (mem_holds_memcpy (memcpy mem (ptr e.2.typecode) (frozen_body e.2))
              (count_zone + 2 * i) (uint16_to_bytes (frozen_count e.2)) (ptr e.2.typecode)
              (frozen_body e.2) (mem_holds_memcpy_self _ _ _) (Or.inl (by omega)))
          intro a ha1 ha2
          apply hfr a
          · intro t'
            by_cases ht' : e.2.typecode = t'
            · rw [if_pos ht', ← ht']
              omega
            · rw [if_neg ht']
              have := hd e.2.typecode t' ht'
              have := hlen t'
              rw [if_neg ht'] at this
              omega
          · omega
        · rw [if_neg ht]
          exact mem_holds_nil _ _
      · have h := hz t
        simp only at h
        have e1 : (if e.2.typecode = t then frozen_body e.2 else []).length
            = if e.2.typecode = t then frozen_body_size e.2 else 0 := by
          split
          · exact hbody
          · rfl
        rw [e1]
        exact h
    · rw [List.flatMap_cons, mem_holds_append]
      constructor
      · apply mem_holds_congr _ _ _ _ (mem_holds_memcpy_self _ _ _)
        intro a ha1 ha2
        apply hfr a
        · intro t'
          have := hc t'
          have := hlen t'
          omega
        · omega
      · rw [hcl, show count_zone + 2 * i + 2 = count_zone + 2 * (i + 1) by omega]
        exact hcnt
    · intro a ha hac
      rw [List.length_cons] at hac
      rw [hfr a (by
        intro t'
        have := ha t'
        have := hlen t'
        omega) (by omega)]
      rw [memcpy_frame _ _ _ _ (by omega), memcpy_frame _ _ _ _ (by
        have := ha e.2.typecode
        omega)]

theorem roaring_bitmap_frozen_serialize_sizes_eq (ra : roaring_array_t container_t)
    (hwf : ∀ e ∈ ra, container_wf e.2) (b r a : Nat) :
    roaring_bitmap_frozen_serialize_sizes ra b r a
      = some (b + (frozen_zone BITSET_CONTAINER_TYPE_CODE ra).length,
          r + (frozen_zone RUN_CONTAINER_TYPE_CODE ra).length,
          a + (frozen_zone ARRAY_CONTAINER_TYPE_CODE ra).length) := by
  induction ra generalizing b r a with
  | nil => simp [roaring_bitmap_frozen_serialize_sizes, frozen_zone]
  | cons e t ih =>
    have hwe := hwf e (List.mem_cons_self _ _)
    have iht := ih (fun x hx => hwf x (List.mem_cons_of_mem _ hx))
    rw [frozen_zone_cons_length _ _ _ hwe, frozen_zone_cons_length _ _ _ hwe,
      frozen_zone_cons_length _ _ _ hwe]
    obtain ⟨k, c⟩ := e
    cases c with
    | bitset x =>
      rw [roaring_bitmap_frozen_serialize_sizes]
      simp only [iht]
      simp [container_t.typecode, frozen_body_size, BITSET_CONTAINER_TYPE_CODE,
        RUN_CONTAINER_TYPE_CODE, ARRAY_CONTAINER_TYPE_CODE, BITSET_CONTAINER_SIZE_IN_WORDS,
        Nat.add_assoc]
    | run x =>
      rw [roaring_bitmap_frozen_serialize_sizes]
      simp only [iht]
      simp [container_t.typecode, frozen_body_size, BITSET_CONTAINER_TYPE_CODE,
        RUN_CONTAINER_TYPE_CODE, ARRAY_CONTAINER_TYPE_CODE, Nat.add_assoc, Nat.mul_comm]
    | array x =>
      rw [roaring_bitmap_frozen_serialize_sizes]
      simp only [iht]
      simp [container_t.typecode, frozen_body_size, BITSET_CONTAINER_TYPE_CODE,
        RUN_CONTAINER_TYPE_CODE, ARRAY_CONTAINER_TYPE_CODE, Nat.add_assoc, Nat.mul_comm]
    | shared x => exact absurd hwe (by simp [container_wf])

theorem roaring_bitmap_frozen_size_in_bytes_loop_eq (ra : roaring_array_t container_t)
    (hwf : ∀ e ∈ ra, container_wf e.2) (num_bytes : Nat) :
    roaring_bitmap_frozen_size_in_bytes_loop ra num_bytes
      = some (num_bytes + (ra.map (fun e => frozen_body_size e.2)).sum) := by
  induction ra generalizing num_bytes with
  | nil => simp [roaring_bitmap_frozen_size_in_bytes_loop]
  | cons e t ih =>
    have hwe := hwf e (List.mem_cons_self _ _)
    have iht := ih (fun x hx => hwf x (List.mem_cons_of_mem _ hx))
    obtain ⟨k, c⟩ := e
    cases c with
    | bitset x =>
      rw [roaring_bitmap_frozen_size_in_bytes_loop]
      simp only [iht]
      simp [frozen_body_size, BITSET_CONTAINER_SIZE_IN_WORDS, Nat.add_assoc]
    | run x =>
      rw [roaring_bitmap_frozen_size_in_bytes_loop]
      simp only [iht]
      simp [frozen_body_size, Nat.add_assoc, Nat.mul_comm]
    | array x =>
      rw [roaring_bitmap_frozen_size_in_bytes_loop]
      simp only [iht]
      simp [frozen_body_size, Nat.add_assoc, Nat.mul_comm]
    | shared x => exact absurd hwe (by simp [container_wf])

theorem frozen_zones_length (ra : roaring_array_t container_t)
    (hwf : ∀ e ∈ ra, container_wf e.2) :
    (frozen_zone BITSET_CONTAINER_TYPE_CODE ra).length
      + (frozen_zone RUN_CONTAINER_TYPE_CODE ra).length
      + (frozen_zone ARRAY_CONTAINER_TYPE_CODE ra).length
      = (ra.map (fun e => frozen_body_size e.2)).sum := by
  induction ra with
  | nil => simp [frozen_zone]
  | cons e t ih =>
    have hwe := hwf e (List.mem_cons_self _ _)
    have iht := ih (fun x hx => hwf x (List.mem_cons_of_mem _ hx))
    rw [frozen_zone_cons_length _ _ _ hwe, frozen_zone_cons_length _ _ _ hwe,
      frozen_zone_cons_length _ _ _ hwe, List.map_cons, List.sum_cons, ← iht]
    rcases container_wf_typecode e.2 hwe with h | h | h <;> rw [h] <;>
      simp [BITSET_CONTAINER_TYPE_CODE, RUN_CONTAINER_TYPE_CODE, ARRAY_CONTAINER_TYPE_CODE] <;>
      omega

theorem frozen_header_eq (n : Nat) (hn : n < 2 ^ 17) :
    ((n <<< 15) % 2 ^ 32) ||| FROZEN_COOKIE = n * 2 ^ 15 + FROZEN_COOKIE := by
  have h1 : (n <<< 15) % 2 ^ 32 = 2 ^ 15 * n := by
    rw [Nat.shiftLeft_eq]
    simp only [Nat.reducePow] at hn ⊢
    omega
  have h2 : FROZEN_COOKIE < 2 ^ 15 := by decide
  rw [h1, ← Nat.mul_add_lt_is_or h2, Nat.mul_comm]

theorem frozen_bytes_length (ra : roaring_array_t container_t)
    (hwf : ∀ e ∈ ra, container_wf e.2) :
    (frozen_bytes ra).length
      = (ra.map (fun e => frozen_body_size e.2)).sum + 5 * ra.length + 4 := by
  unfold frozen_bytes
  simp only [List.length_append, List.length_map,
    length_flatMap_const ra (fun e => uint16_to_bytes e.1) 2 (fun _ => rfl),
    length_flatMap_const ra (fun e => uint16_to_bytes (frozen_count e.2)) 2 (fun _ => rfl),
    uint32_to_bytes_length]
  have := frozen_zones_length ra hwf
  omega

theorem frozen_zone_other (ra : roaring_array_t container_t)
    (hwf : ∀ e ∈ ra, container_wf e.2) (t : Nat) (h1 : t ≠ BITSET_CONTAINER_TYPE_CODE)
    (h2 : t ≠ RUN_CONTAINER_TYPE_CODE) (h3 : t ≠ ARRAY_CONTAINER_TYPE_CODE) :
    frozen_zone t ra = [] := by
  induction ra with
  | nil => rfl
  | cons e ra ih =>
    rw [frozen_zone_cons, ih (fun x hx => hwf x (List.mem_cons_of_mem _ hx))]
    rcases container_wf_typecode e.2 (hwf e (List.mem_cons_self _ _)) with h | h | h <;>
      rw [h, if_neg (fun e => by simp [← e] at *)] <;> rfl

theorem mem_holds_of_eq (mem : Nat → Nat) (o o' : Nat) (l : List Nat)
    (h : mem_holds mem o l) (e : o = o') : mem_holds mem o' l := e ▸ h

/-- `roaring_bitmap_frozen_serialize` writes the frozen format at the start of
the buffer and nothing after it. -/
theorem roaring_bitmap_frozen_serialize_spec (rb : roaring_bitmap_t container_t)
    (hwf : ∀ e ∈ rb.high_low_container, container_wf e.2)
    (hsize : rb.high_low_container.length < 2 ^ 17) (mem : Nat → Nat) :
    ∃ mem', roaring_bitmap_frozen_serialize rb mem = some mem'
      ∧ mem_holds mem' 0 (frozen_bytes rb.high_low_container)
      ∧ ∀ a, (frozen_bytes rb.high_low_container).length ≤ a → mem' a = mem a := by
  obtain ⟨ra⟩ := rb
  simp only at hwf hsize ⊢
  have hother := frozen_zone_other ra hwf
  have hcases : ∀ t, t = BITSET_CONTAINER_TYPE_CODE ∨ t = RUN_CONTAINER_TYPE_CODE
      ∨ t = ARRAY_CONTAINER_TYPE_CODE ∨ (frozen_zone t ra).length = 0 := by
    intro t
    by_cases h1 : t = BITSET_CONTAINER_TYPE_CODE
    · exact Or.inl h1
    · by_cases h2 : t = RUN_CONTAINER_TYPE_CODE
      · exact Or.inr (Or.inl h2)
      · by_cases h3 : t = ARRAY_CONTAINER_TYPE_CODE
        · exact Or.inr (Or.inr (Or.inl h3))
        · right
          right
          right
          rw [hother t h1 h2 h3]
          rfl
  have hRB : RUN_CONTAINER_TYPE_CODE ≠ BITSET_CONTAINER_TYPE_CODE := by decide
  have hAB : ARRAY_CONTAINER_TYPE_CODE ≠ BITSET_CONTAINER_TYPE_CODE := by decide
  have hAR : ARRAY_CONTAINER_TYPE_CODE ≠ RUN_CONTAINER_TYPE_CODE := by decide
  have hlen := frozen_bytes_length ra hwf
  have hzl := frozen_zones_length ra hwf
  unfold roaring_bitmap_frozen_serialize
  simp only [roaring_bitmap_frozen_serialize_sizes_eq ra hwf, Nat.zero_add,
    frozen_header_eq _ hsize]
  obtain ⟨mem1, hm1, hz, hcn, hfr⟩ := roaring_bitmap_frozen_serialize_loop_spec
    ((frozen_zone BITSET_CONTAINER_TYPE_CODE ra).length
      + (frozen_zone RUN_CONTAINER_TYPE_CODE ra).length
      + (frozen_zone ARRAY_CONTAINER_TYPE_CODE ra).length + 2 * ra.length) ra hwf 0
    (fun t => if t = BITSET_CONTAINER_TYPE_CODE then 0
      else if t = RUN_CONTAINER_TYPE_CODE then (frozen_zone BITSET_CONTAINER_TYPE_CODE ra).length
      else (frozen_zone BITSET_CONTAINER_TYPE_CODE ra).length
        + (frozen_zone RUN_CONTAINER_TYPE_CODE ra).length) mem
    (by
      intro t1 t2 h12
      rcases hcases t1 with rfl | rfl | rfl | h1 <;>
        rcases hcases t2 with rfl | rfl | rfl | h2 <;>
        simp only [if_true, if_neg hRB, if_neg hAB, if_neg hAR] <;>
        first
        | exact absurd rfl h12
        | omega
        | (split_ifs <;> omega))
    (by
      intro t
      rcases hcases t with rfl | rfl | rfl | h1 <;>
        simp only [if_true, if_neg hRB, if_neg hAB, if_neg hAR] <;>
        first
        | omega
        | (split_ifs <;> omega))
  simp only [if_true, if_neg hRB, if_neg hAB, if_neg hAR] at hm1
  rw [hm1]
  refine ⟨_, rfl, ?_, ?_⟩
  · have hB := hz BITSET_CONTAINER_TYPE_CODE
    have hR := hz RUN_CONTAINER_TYPE_CODE
    have hA := hz ARRAY_CONTAINER_TYPE_CODE
    simp only [if_true, if_neg hRB, if_neg hAB, if_neg hAR] at hB hR hA
    have hK : (ra.flatMap (fun e => uint16_to_bytes e.1)).length = 2 * ra.length :=
      length_flatMap_const ra (fun e => uint16_to_bytes e.1) 2 (fun _ => rfl)
    have hC : (ra.flatMap (fun e => uint16_to_bytes (frozen_count e.2))).length
        = 2 * ra.length :=
      length_flatMap_const ra (fun e => uint16_to_bytes (frozen_count e.2)) 2 (fun _ => rfl)
    have hT : (ra.map (fun e => e.2.typecode)).length = ra.length := List.length_map _ _
    unfold frozen_bytes
    simp only [mem_holds_append, Nat.zero_add]
    refine ⟨?_, ?_, ?_, ?_, ?_, ?_, ?_⟩
    · exact mem_holds_memcpy _ _ _ _ _ (mem_holds_memcpy _ _ _ _ _
        (mem_holds_memcpy _ _ _ _ _ hB (Or.inl (by omega))) (Or.inl (by omega)))
        (Or.inl (by omega))
    · exact mem_holds_memcpy _ _ _ _ _ (mem_holds_memcpy _ _ _ _ _
        (mem_holds_memcpy _ _ _ _ _ hR (Or.inl (by omega))) (Or.inl (by omega)))
        (Or.inl (by omega))
    · exact mem_holds_memcpy _ _ _ _ _ (mem_holds_memcpy _ _ _ _ _
        (mem_holds_memcpy _ _ _ _ _ hA (Or.inl (by omega))) (Or.inl (by omega)))
        (Or.inl (by omega))
    · exact mem_holds_memcpy _ _ _ _ _ (mem_holds_memcpy _ _ _ _ _
        (mem_holds_memcpy_self _ _ _) (Or.inl (by omega))) (Or.inl (by omega))
    · refine mem_holds_of_eq _ _ _ _ (mem_holds_memcpy _ _ _ _ _ (mem_holds_memcpy _ _ _ _ _
        (mem_holds_memcpy _ _ _ _ _ hcn (Or.inr (by omega))) (Or.inl (by omega)))
        (Or.inl (by omega))) (by omega)
    · refine mem_holds_of_eq _ _ _ _ (mem_holds_memcpy _ _ _ _ _
        (mem_holds_memcpy_self _ _ _) (Or.inl (by omega))) (by omega)
    · refine mem_holds_of_eq _ _ _ _ (mem_holds_memcpy_self _ _ _) (by omega)
  · intro a ha
    have hK : (ra.flatMap (fun e => uint16_to_bytes e.1)).length = 2 * ra.length :=
      length_flatMap_const ra (fun e => uint16_to_bytes e.1) 2 (fun _ => rfl)
    have hT : (ra.map (fun e => e.2.typecode)).length = ra.length := List.length_map _ _
    rw [memcpy_frame _ _ _ _ (Or.inr (by rw [uint32_to_bytes_length]; omega)),
      memcpy_frame _ _ _ _ (Or.inr (by omega)), memcpy_frame _ _ _ _ (Or.inr (by omega))]
    apply hfr a
    · intro t
      rcases hcases t with rfl | rfl | rfl | h1 <;>
        (try simp only [if_true, if_neg hRB, if_neg hAB, if_neg hAR]) <;>
        omega
    · omega

/-- C24: for a bitmap whose containers are bitset, array or run containers
(none shared) with buffers as long as their counters say, and with fewer than
2^17 containers, `roaring_bitmap_frozen_size_in_bytes` returns 8192 per
bitset container plus 4 times the number of runs of each run container plus 2
times the cardinality of each array container plus 5 per container plus 4;
`roaring_bitmap_frozen_serialize` writes exactly that many bytes, from the
start of the buffer: the bitset zone, the run zone, the array zone, the keys,
the counts, the typecodes and the header, in this order, and leaves every
later byte as it was. -/
theorem roaring_bitmap_frozen_size_in_bytes_correct (rb : roaring_bitmap_t container_t)
    (hwf : ∀ e ∈ rb.high_low_container, container_wf e.2)
    (hsize : rb.high_low_container.length < 2 ^ 17) :
    roaring_bitmap_frozen_size_in_bytes rb
      = some ((rb.high_low_container.map (fun e => frozen_body_size e.2)).sum
          + 5 * rb.high_low_container.length + 4)
    ∧ (frozen_bytes rb.high_low_container).length
      = (rb.high_low_container.map (fun e => frozen_body_size e.2)).sum
          + 5 * rb.high_low_container.length + 4
    ∧ ∀ mem, ∃ mem', roaring_bitmap_frozen_serialize rb mem = some mem'
        ∧ (∀ a, a < (frozen_bytes rb.high_low_container).length →
            mem' a = (frozen_bytes rb.high_low_container).getD a 0)
        ∧ (∀ a, (frozen_bytes rb.high_low_container).length ≤ a → mem' a = mem a) := by
  refine ⟨?_, frozen_bytes_length _ hwf, ?_⟩
  · unfold roaring_bitmap_frozen_size_in_bytes
    rw [roaring_bitmap_frozen_size_in_bytes_loop_eq _ hwf]
    simp only [Nat.zero_add]
  · intro mem
    obtain ⟨mem', h1, h2, h3⟩ := roaring_bitmap_frozen_serialize_spec rb hwf hsize mem
    refine ⟨mem', h1, ?_, h3⟩
    intro a ha
    have := h2 a ha
    rwa [Nat.zero_add] at this

theorem roaring_bitmap_frozen_size_in_bytes_correct_witness :
    (∀ e ∈ example_frozen_bitmap.high_low_container, container_wf e.2)
    ∧ roaring_bitmap_frozen_size_in_bytes example_frozen_bitmap
      = some ((example_frozen_bitmap.high_low_container.map
          (fun e => frozen_body_size e.2)).sum
          + 5 * example_frozen_bitmap.high_low_container.length + 4) :=
  ⟨by simp [example_frozen_bitmap, container_wf],
    (roaring_bitmap_frozen_size_in_bytes_correct example_frozen_bitmap
      (by simp [example_frozen_bitmap, container_wf]) (by decide)).1⟩

/-! ## Frozen format: reading back what was written -/

theorem mem_read_uint16_of_holds (mem : Nat → Nat) (o x : Nat) (hx : x < 65536)
    (h : mem_holds mem o (uint16_to_bytes x)) : mem_read_uint16 mem o = x := by
  have h0 := h 0 (show 0 < 2 by decide)
  have h1 := h 1 (show 1 < 2 by decide)
  simp only [uint16_to_bytes, List.getD_cons_zero, List.getD_cons_succ, Nat.add_zero] at h0 h1
  unfold mem_read_uint16 mem_read_uint8
  rw [h0, h1]
  omega

theorem mem_holds_uint32_split (mem : Nat → Nat) (o x : Nat)
    (h : mem_holds mem o (uint32_to_bytes x)) :
    mem_holds mem o (uint16_to_bytes (x % 65536))
      ∧ mem_holds mem (o + 2) (uint16_to_bytes (x / 65536 % 65536)) := by
  have e : uint32_to_bytes x
      = uint16_to_bytes (x % 65536) ++ uint16_to_bytes (x / 65536 % 65536) := by
    simp only [uint32_to_bytes, uint16_to_bytes, List.cons_append, List.nil_append]
    have h1 : x % 65536 % 256 = x % 256 := by omega
    have h2 : x % 65536 / 256 % 256 = x / 256 % 256 := by omega
    have h3 : x / 65536 % 65536 % 256 = x / 65536 % 256 := by omega
    have h4 : x / 65536 % 65536 / 256 % 256 = x / 16777216 % 256 := by omega
    rw [h1, h2, h3, h4]
  rw [e, mem_holds_append] at h
  exact h

theorem mem_read_uint32_of_holds (mem : Nat → Nat) (o x : Nat) (hx : x < 2 ^ 32)
    (h : mem_holds mem o (uint32_to_bytes x)) : mem_read_uint32 mem o = x := by
  obtain ⟨h1, h2⟩ := mem_holds_uint32_split mem o x h
  unfold mem_read_uint32
  rw [mem_read_uint16_of_holds mem o _ (Nat.mod_lt _ (by decide)) h1,
    mem_read_uint16_of_holds mem (o + 2) _ (Nat.mod_lt _ (by decide)) h2]
  omega

theorem mem_holds_uint64_split (mem : Nat → Nat) (o x : Nat)
    (h : mem_holds mem o (uint64_to_bytes x)) :
    mem_holds mem o (uint32_to_bytes (x % 4294967296))
      ∧ mem_holds mem (o + 4) (uint32_to_bytes (x / 4294967296 % 4294967296)) := by
  have e : uint64_to_bytes x
      = uint32_to_bytes (x % 4294967296) ++ uint32_to_bytes (x / 4294967296 % 4294967296) := by
    simp only [uint64_to_bytes, uint32_to_bytes, List.cons_append, List.nil_append,
      Nat.reducePow]
    have h1 : x % 4294967296 % 256 = x % 256 := by omega
    have h2 : x % 4294967296 / 256 % 256 = x / 256 % 256 := by omega
    have h3 : x % 4294967296 / 65536 % 256 = x / 65536 % 256 := by omega
    have h4 : x % 4294967296 / 16777216 % 256 = x / 16777216 % 256 := by omega
    have h5 : x / 4294967296 % 4294967296 % 256 = x / 4294967296 % 256 := by omega
    have h6 : x / 4294967296 % 4294967296 / 256 % 256 = x / 1099511627776 % 256 := by omega
    have h7 : x / 4294967296 % 4294967296 / 65536 % 256 = x / 281474976710656 % 256 := by
      omega
    have h8 : x / 4294967296 % 4294967296 / 16777216 % 256
        = x / 72057594037927936 % 256 := by omega
    rw [h1, h2, h3, h4, h5, h6, h7, h8]
  rw [e, mem_holds_append] at h
  exact h

theorem mem_read_uint64_of_holds (mem : Nat → Nat) (o x : Nat) (hx : x < 2 ^ 64)
    (h : mem_holds mem o (uint64_to_bytes x)) : mem_read_uint64 mem o = x := by
  obtain ⟨h1, h2⟩ := mem_holds_uint64_split mem o x h
  unfold mem_read_uint64
  rw [mem_read_uint32_of_holds mem o _ (Nat.mod_lt _ (by decide)) h1,
    mem_read_uint32_of_holds mem (o + 4) _ (Nat.mod_lt _ (by decide)) h2]
  omega

theorem mem_read_rle16_of_holds (mem : Nat → Nat) (o : Nat) (r : rle16_t)
    (hr : r.value < 65536 ∧ r.length < 65536)
    (h : mem_holds mem o (rle16_to_bytes r)) : mem_read_rle16 mem o = r := by
  unfold rle16_to_bytes at h
  rw [mem_holds_append] at h
  unfold mem_read_rle16
  rw [mem_read_uint16_of_holds mem o _ hr.1 h.1, mem_read_uint16_of_holds mem (o + 2) _ hr.2 h.2]

/-- Reading back an array of fixed-size items. -/
theorem map_read_of_holds {α : Type} (enc : α → List Nat) (rd : (Nat → Nat) → Nat → α)
    (k : Nat) (P : α → Prop) (hk : ∀ x, (enc x).length = k)
    (hrd : ∀ mem o x, P x → mem_holds mem o (enc x) → rd mem o = x)
    (mem : Nat → Nat) (l : List α) (hl : ∀ x ∈ l, P x) (o : Nat)
    (h : mem_holds mem o (l.flatMap enc)) :
    (List.range l.length).map (fun j => rd mem (o + k * j)) = l := by
  induction l generalizing o with
  | nil => rfl
  | cons a t ih =>
    rw [List.flatMap_cons, mem_holds_append, hk] at h
    rw [List.length_cons, List.range_succ_eq_map, List.map_cons, List.map_map]
    congr 1
    · rw [Nat.mul_zero, Nat.add_zero]
      exact hrd mem o a (hl a (List.mem_cons_self _ _)) h.1
    · refine Eq.trans ?_ (ih (fun x hx => hl x (List.mem_cons_of_mem _ hx)) (o + k) h.2)
      apply List.map_congr_left
      intro j _
      simp only [Function.comp, Nat.succ_eq_add_one]
      congr 1
      ring

theorem sorted_length_le (l : List Nat) (n : Nat) (hs : l.Pairwise (fun x y => x < y))
    (hl : ∀ x ∈ l, x < n) : l.length ≤ n := by
  have h := (List.subperm_of_subset (nodup_of_sorted l hs)
    (fun x hx => List.mem_range.2 (hl x hx))).length_le
  rwa [List.length_range] at h

theorem hamming_le (w : Nat) : hamming w ≤ 64 := by
  unfold hamming
  have h := List.countP_le_length (fun b => w.testBit b) (l := List.range 64)
  rwa [List.length_range] at h

theorem sum_map_le (f : Nat → Nat) (k : Nat) (hf : ∀ w, f w ≤ k) (l : List Nat) :
    (l.map f).sum ≤ k * l.length := by
  induction l with
  | nil => simp
  | cons a t ih =>
    rw [List.map_cons, List.sum_cons, List.length_cons]
    have := hf a
    rw [Nat.mul_succ]
    omega

theorem container_valid_wf (c : container_t) (h : container_valid c) : container_wf c := by
  cases c with
  | bitset b => exact h.1
  | run r => exact h.1
  | array a => exact h.1.1
  | shared c => exact h

theorem uint16_cast_pred (n : Nat) (h1 : 1 ≤ n) (h2 : n ≤ 65536) :
    uint16_cast ((n : Int) - 1) + 1 = n := by
  unfold uint16_cast
  omega

theorem frozen_count_bitset (b : bitset_container_t) (h : container_valid (.bitset b)) :
    frozen_count (.bitset b) + 1 = bitset_container_compute_cardinality b := by
  obtain ⟨h1, _, h3, h4⟩ := h
  have hle : bitset_container_compute_cardinality b ≤ 65536 := by
    unfold bitset_container_compute_cardinality
    have := sum_map_le hamming 64 hamming_le b.array
    rw [h1] at this
    exact this
  simp only [frozen_count]
  split
  · rename_i hne
    rcases h3 with h3 | h3
    · exact absurd h3 hne
    · rw [h3]
      exact uint16_cast_pred _ h4 hle
  · exact uint16_cast_pred _ h4 hle

theorem frozen_count_array (a : array_container_t) (h : container_valid (.array a)) :
    frozen_count (.array a) + 1 = a.cardinality := by
  obtain ⟨⟨h1, h2, h3⟩, h4⟩ := h
  have hle := sorted_length_le _ 65536 h2 h3
  rw [List.length_take, Nat.min_eq_left h1] at hle
  simp only [frozen_count]
  exact uint16_cast_pred _ h4 hle

theorem frozen_count_run (r : run_container_t) (h : container_valid (.run r)) :
    frozen_count (.run r) = r.n_runs := by
  obtain ⟨h1, _, h3, h4⟩ := h
  have hs : ((r.runs.take r.n_runs).map (fun x => x.value / 2)).Pairwise
      (fun x y => x < y) := by
    rw [List.pairwise_map]
    exact h3.imp (fun h => by omega)
  have hle := sorted_length_le _ 32768 hs (by
    intro x hx
    obtain ⟨y, hy, rfl⟩ := List.mem_map.1 hx
    have := h4 y hy
    omega)
  rw [List.length_map, List.length_take, Nat.min_eq_left h1] at hle
  simp only [frozen_count, uint16_cast]
  omega

theorem frozen_count_lt (c : container_t) : frozen_count c < 65536 := by
  cases c with
  | bitset b =>
    simp only [frozen_count, uint16_cast]
    split <;> omega
  | run r =>
    simp only [frozen_count, uint16_cast]
    omega
  | array a =>
    simp only [frozen_count, uint16_cast]
    omega
  | shared c => simp [frozen_count]

theorem mem_read_uint8_of_holds (mem : Nat → Nat) (o x : Nat) (t : List Nat) (hx : x < 256)
    (h : mem_holds mem o (x :: t)) : mem_read_uint8 mem o = x := by
  have h0 := h 0 (Nat.zero_lt_succ _)
  simp only [List.getD_cons_zero, Nat.add_zero] at h0
  unfold mem_read_uint8
  rw [h0]
  omega

theorem mem_holds_tail (mem : Nat → Nat) (o x : Nat) (t : List Nat)
    (h : mem_holds mem o (x :: t)) : mem_holds mem (o + 1) t := by
  have := (mem_holds_append mem o [x] t).1 h
  exact this.2

theorem typecode_lt (c : container_t) : c.typecode < 256 := by
  cases c <;>
    simp [container_t.typecode, BITSET_CONTAINER_TYPE_CODE, RUN_CONTAINER_TYPE_CODE,
      ARRAY_CONTAINER_TYPE_CODE, SHARED_CONTAINER_TYPE_CODE]

/-- The first loop of `roaring_bitmap_frozen_view` over the counts and
typecodes written for valid containers finds the sizes of their zones. -/
theorem roaring_bitmap_frozen_view_sizes_of_holds (buf : Nat → Nat) (counts typecodes : Nat)
    (l : roaring_array_t container_t) (hv : ∀ e ∈ l, container_valid e.2)
    (i b r a : Nat)
    (hT : mem_holds buf (typecodes + i) (l.map (fun e => e.2.typecode)))
    (hC : mem_holds buf (counts + 2 * i)
      (l.flatMap (fun e => uint16_to_bytes (frozen_count e.2)))) :
    roaring_bitmap_frozen_view_sizes buf counts typecodes l.length i b r a
      = some (b + (frozen_zone BITSET_CONTAINER_TYPE_CODE l).length,
          r + (frozen_zone RUN_CONTAINER_TYPE_CODE l).length,
          a + (frozen_zone ARRAY_CONTAINER_TYPE_CODE l).length) := by
  induction l generalizing i b r a with
  | nil => simp [roaring_bitmap_frozen_view_sizes, frozen_zone]
  | cons e t ih =>
    have hve := hv e (List.mem_cons_self _ _)
    have hwe := container_valid_wf e.2 hve
    rw [List.map_cons] at hT
    rw [List.flatMap_cons, mem_holds_append] at hC
    have htc := mem_read_uint8_of_holds buf _ _ _ (typecode_lt e.2) hT
    have hcnt := mem_read_uint16_of_holds buf _ _ (frozen_count_lt e.2) hC.1
    have iht := fun b r a => ih (fun x hx => hv x (List.mem_cons_of_mem _ hx)) (i + 1) b r a
      (mem_holds_of_eq _ _ _ _ (mem_holds_tail _ _ _ _ hT) (by omega))
      (mem_holds_of_eq _ _ _ _ hC.2 (by
        rw [show (uint16_to_bytes (frozen_count e.2)).length = 2 from rfl]
        omega))
    rw [List.length_cons, roaring_bitmap_frozen_view_sizes, htc, hcnt]
    simp only [iht]
    rw [frozen_zone_cons_length _ _ _ hwe, frozen_zone_cons_length _ _ _ hwe,
      frozen_zone_cons_length _ _ _ hwe]
    obtain ⟨k, c⟩ := e
    cases c with
    | bitset x =>
      simp [container_t.typecode, frozen_body_size, BITSET_CONTAINER_TYPE_CODE,
        RUN_CONTAINER_TYPE_CODE, ARRAY_CONTAINER_TYPE_CODE, BITSET_CONTAINER_SIZE_IN_WORDS,
        Nat.add_assoc]
    | run x =>
      have := frozen_count_run x hve
      simp only at this
      simp [container_t.typecode, frozen_body_size, BITSET_CONTAINER_TYPE_CODE,
        RUN_CONTAINER_TYPE_CODE, ARRAY_CONTAINER_TYPE_CODE, Nat.add_assoc, Nat.mul_comm, this]
    | array x =>
      have := frozen_count_array x hve
      simp only at this
      simp [container_t.typecode, frozen_body_size, BITSET_CONTAINER_TYPE_CODE,
        RUN_CONTAINER_TYPE_CODE, ARRAY_CONTAINER_TYPE_CODE, Nat.add_assoc, Nat.mul_comm, this]
    | shared x => exact absurd hve (by simp [container_valid])

/-- The second loop of `roaring_bitmap_frozen_view` over the bytes written for
valid containers rebuilds them. -/
theorem roaring_bitmap_frozen_view_loop_of_holds (buf : Nat → Nat)
    (keys counts typecodes : Nat) (l : roaring_array_t container_t)
    (hv : ∀ e ∈ l, container_valid e.2) (hk : ∀ e ∈ l, e.1 < 65536)
    (i bitset_zone run_zone array_zone : Nat)
    (hT : mem_holds buf (typecodes + i) (l.map (fun e => e.2.typecode)))
    (hC : mem_holds buf (counts + 2 * i)
      (l.flatMap (fun e => uint16_to_bytes (frozen_count e.2))))
    (hK : mem_holds buf (keys + 2 * i) (l.flatMap (fun e => uint16_to_bytes e.1)))
    (hB : mem_holds buf bitset_zone (frozen_zone BITSET_CONTAINER_TYPE_CODE l))
    (hR : mem_holds buf run_zone (frozen_zone RUN_CONTAINER_TYPE_CODE l))
    (hA : mem_holds buf array_zone (frozen_zone ARRAY_CONTAINER_TYPE_CODE l)) :
    roaring_bitmap_frozen_view_loop buf keys counts typecodes l.length i bitset_zone run_zone
        array_zone
      = some (l.map (fun e => (e.1, frozen_view_container e.2))) := by
  induction l generalizing i bitset_zone run_zone array_zone with
  | nil => simp [roaring_bitmap_frozen_view_loop]
  | cons e t ih =>
    have hve := hv e (List.mem_cons_self _ _)
    have hwe := container_valid_wf e.2 hve
    have hbl := frozen_body_length e.2 hwe
    rw [List.map_cons] at hT
    rw [List.flatMap_cons, mem_holds_append] at hC hK
    rw [frozen_zone_cons, mem_holds_append] at hB hR hA
    have htc := mem_read_uint8_of_holds buf _ _ _ (typecode_lt e.2) hT
    have hcnt := mem_read_uint16_of_holds buf _ _ (frozen_count_lt e.2) hC.1
    have hkey := mem_read_uint16_of_holds buf _ _ (hk e (List.mem_cons_self _ _)) hK.1
    have iht := fun bz rz az h1 h2 h3 =>
      ih (fun x hx => hv x (List.mem_cons_of_mem _ hx))
      (fun x hx => hk x (List.mem_cons_of_mem _ hx)) (i + 1) bz rz az
      (mem_holds_of_eq _ _ _ _ (mem_holds_tail _ _ _ _ hT) (by omega))
      (mem_holds_of_eq _ _ _ _ hC.2 (by
        rw [show (uint16_to_bytes (frozen_count e.2)).length = 2 from rfl]
        omega))
      (mem_holds_of_eq _ _ _ _ hK.2 (by
        rw [show (uint16_to_bytes e.1).length = 2 from rfl]
        omega)) h1 h2 h3
    rw [List.length_cons, roaring_bitmap_frozen_view_loop, htc, hcnt, hkey]
    have hRB : RUN_CONTAINER_TYPE_CODE ≠ BITSET_CONTAINER_TYPE_CODE := by decide
    have hAB : ARRAY_CONTAINER_TYPE_CODE ≠ BITSET_CONTAINER_TYPE_CODE := by decide
    have hAR : ARRAY_CONTAINER_TYPE_CODE ≠ RUN_CONTAINER_TYPE_CODE := by decide
    have hBR : BITSET_CONTAINER_TYPE_CODE ≠ RUN_CONTAINER_TYPE_CODE := by decide
    have hBA : BITSET_CONTAINER_TYPE_CODE ≠ ARRAY_CONTAINER_TYPE_CODE := by decide
    have hRA : RUN_CONTAINER_TYPE_CODE ≠ ARRAY_CONTAINER_TYPE_CODE := by decide
    obtain ⟨k, c⟩ := e
    cases c with
    | bitset x =>
      simp only [container_t.typecode, if_true, if_neg hBR, if_neg hBA] at hB hR hA ⊢
      rw [iht (bitset_zone + BITSET_CONTAINER_SIZE_IN_WORDS * 8) run_zone array_zone
        (mem_holds_of_eq _ _ _ _ hB.2 (by rw [hbl]; rfl))
        (mem_holds_of_eq _ _ _ _ hR.2 rfl) (mem_holds_of_eq _ _ _ _ hA.2 rfl)]
      have hlen : (x.array.take BITSET_CONTAINER_SIZE_IN_WORDS).length
          = BITSET_CONTAINER_SIZE_IN_WORDS := by
        rw [List.length_take, hve.1, Nat.min_self]
      have hrd := map_read_of_holds uint64_to_bytes mem_read_uint64 8 (fun w => w < 2 ^ 64)
        (fun _ => rfl) (fun mem o w hw h => mem_read_uint64_of_holds mem o w hw h) buf
        (x.array.take BITSET_CONTAINER_SIZE_IN_WORDS)
        (fun w hw => hve.2.1 w (List.mem_of_mem_take hw)) bitset_zone hB.1
      rw [hlen] at hrd
      simp only [Option.map_some', List.map_cons, frozen_view_container, hrd]
    | run x =>
      simp only [container_t.typecode, if_true, if_neg hRB, if_neg hRA] at hB hR hA ⊢
      have hc := frozen_count_run x hve
      have hlen : (x.runs.take x.n_runs).length = frozen_count (.run x) := by
        rw [List.length_take, Nat.min_eq_left hve.1, hc]
      have hrd := map_read_of_holds rle16_to_bytes mem_read_rle16 4
        (fun r => r.value < 65536 ∧ r.length < 65536)
        (fun _ => rfl) (fun mem o r hr h => mem_read_rle16_of_holds mem o r hr h) buf
        (x.runs.take x.n_runs)
        (fun r hr => by
          have := hve.2.2.2 r hr
          omega) run_zone hR.1
      rw [hlen] at hrd
      rw [iht bitset_zone (run_zone + frozen_count (.run x) * 4) array_zone
        (mem_holds_of_eq _ _ _ _ hB.2 rfl)
        (mem_holds_of_eq _ _ _ _ hR.2 (by
          rw [hbl]
          simp only [frozen_body_size, hc]
          omega))
        (mem_holds_of_eq _ _ _ _ hA.2 rfl)]
      simp only [Option.map_some', List.map_cons, frozen_view_container, hrd]
    | array x =>
      simp only [container_t.typecode, if_true, if_neg hAB, if_neg hAR] at hB hR hA ⊢
      have hc := frozen_count_array x hve
      have hlen : (x.array.take x.cardinality).length = frozen_count (.array x) + 1 := by
        rw [List.length_take, Nat.min_eq_left hve.1.1, hc]
      have hrd := map_read_of_holds uint16_to_bytes mem_read_uint16 2 (fun w => w < 65536)
        (fun _ => rfl) (fun mem o w hw h => mem_read_uint16_of_holds mem o w hw h) buf
        (x.array.take x.cardinality) hve.1.2.2 array_zone hA.1
      rw [hlen] at hrd
      rw [iht bitset_zone run_zone (array_zone + (frozen_count (.array x) + 1) * 2)
        (mem_holds_of_eq _ _ _ _ hB.2 rfl) (mem_holds_of_eq _ _ _ _ hR.2 rfl)
        (mem_holds_of_eq _ _ _ _ hA.2 (by
          rw [hbl]
          simp only [frozen_body_size, ← hc]
          omega))]
      simp only [Option.map_some', List.map_cons, frozen_view_container, hrd]
    | shared x => exact absurd hve (by simp [container_valid])

theorem frozen_view_container_eq (c : container_t) (h : container_valid c) :
    frozen_view_container c = frozen_container c := by
  cases c with
  | bitset b =>
    simp only [frozen_view_container, frozen_container]
    rw [frozen_count_bitset b h, ← h.1, List.take_length]
  | run r =>
    simp only [frozen_view_container, frozen_container]
    rw [frozen_count_run r h]
  | array a =>
    simp only [frozen_view_container, frozen_container]
    rw [frozen_count_array a h]
  | shared c => rfl

theorem frozen_container_contains (c : container_t) (v : Nat) :
    container_contains (frozen_container c) v = container_contains c v := by
  cases c with
  | bitset b => rfl
  | run r =>
    simp only [frozen_container, container_contains, run_container_contains]
    rw [List.take_take, Nat.min_self]
  | array a =>
    simp only [frozen_container, container_contains, array_container_contains]
    rw [List.take_take, Nat.min_self]
  | shared c => rfl

theorem frozen_container_typecode (c : container_t) :
    (frozen_container c).typecode = c.typecode := by
  cases c <;> rfl

theorem frozen_header_read (n : Nat) (hn : n < 2 ^ 17) :
    (n * 2 ^ 15 + FROZEN_COOKIE) &&& 0x7FFF = FROZEN_COOKIE
    ∧ (n * 2 ^ 15 + FROZEN_COOKIE) >>> 15 = n
    ∧ n * 2 ^ 15 + FROZEN_COOKIE < 2 ^ 32 := by
  have h2 : FROZEN_COOKIE < 32768 := by decide
  rw [and_0x7FFF, Nat.shiftRight_eq_div_pow]
  simp only [Nat.reducePow] at hn ⊢
  omega

theorem roaring_bitmap_frozen_size_in_bytes_eq (rb : roaring_bitmap_t container_t)
    (hwf : ∀ e ∈ rb.high_low_container, container_wf e.2) :
    roaring_bitmap_frozen_size_in_bytes rb
      = some ((rb.high_low_container.map (fun e => frozen_body_size e.2)).sum
          + 5 * rb.high_low_container.length + 4) := by
  unfold roaring_bitmap_frozen_size_in_bytes
  rw [roaring_bitmap_frozen_size_in_bytes_loop_eq _ hwf]
  simp only [Nat.zero_add]

/-- C25: for a valid bitmap without shared containers and a 32-byte aligned
buffer, if the arena can be allocated, `roaring_bitmap_frozen_view` applied to
the bytes written by `roaring_bitmap_frozen_serialize`, with the length given
by `roaring_bitmap_frozen_size_in_bytes`, returns a bitmap with the FROZEN flag,
the same number of entries and the same keys, whose containers have the same
typecode, the same contents and the same cardinality (a run container the
same runs), with capacity equal to the count. -/
theorem roaring_bitmap_frozen_view_serialize (rb : roaring_bitmap_t container_t)
    (hv : frozen_valid rb) (buf_addr : Nat) (ha : buf_addr % 32 = 0) (mem : Nat → Nat) :
    ∃ n mem', roaring_bitmap_frozen_size_in_bytes rb = some n
      ∧ roaring_bitmap_frozen_serialize rb mem = some mem'
      ∧ roaring_bitmap_frozen_view true buf_addr mem' n
        = some (ROARING_FLAG_FROZEN,
            ⟨rb.high_low_container.map (fun e => (e.1, frozen_container e.2))⟩)
      ∧ ∀ c, (frozen_container c).typecode = c.typecode
          ∧ ∀ v, container_contains (frozen_container c) v = container_contains c v := by
  obtain ⟨ra⟩ := rb
  obtain ⟨hs, hk, hc⟩ := hv
  simp only at hs hk hc
  have hwf : ∀ e ∈ ra, container_wf e.2 := fun e he => container_valid_wf e.2 (hc e he)
  have hle := keys_sorted_length_le ra hs 0 65536 (fun e he => ⟨Nat.zero_le _, hk e he⟩)
  have hsize : ra.length < 2 ^ 17 := by
    simp only [Nat.reducePow]
    omega
  have h1 := roaring_bitmap_frozen_size_in_bytes_eq ⟨ra⟩ hwf
  have h2 := frozen_bytes_length ra hwf
  obtain ⟨mem', hm, hh, _⟩ := roaring_bitmap_frozen_serialize_spec ⟨ra⟩ hwf hsize mem
  simp only at h1 h2 hm hh
  refine ⟨_, mem', h1, hm, ?_,
    fun c => ⟨frozen_container_typecode c, frozen_container_contains c⟩⟩
  have hzl := frozen_zones_length ra hwf
  have hK : (ra.flatMap (fun e => uint16_to_bytes e.1)).length = 2 * ra.length :=
    length_flatMap_const ra (fun e => uint16_to_bytes e.1) 2 (fun _ => rfl)
  have hC : (ra.flatMap (fun e => uint16_to_bytes (frozen_count e.2))).length
      = 2 * ra.length :=
    length_flatMap_const ra (fun e => uint16_to_bytes (frozen_count e.2)) 2 (fun _ => rfl)
  have hT : (ra.map (fun e => e.2.typecode)).length = ra.length := List.length_map _ _
  unfold frozen_bytes at hh
  simp only [mem_holds_append, Nat.zero_add] at hh
  obtain ⟨hB, hR, hA, hKh, hCh, hTh, hH⟩ := hh
  obtain ⟨hd1, hd2, hd3⟩ := frozen_header_read ra.length hsize
  generalize hS : (ra.map (fun e => frozen_body_size e.2)).sum = S at *
  have hhdr : mem_read_uint32 mem' (S + 5 * ra.length + 4 - 4)
      = ra.length * 2 ^ 15 + FROZEN_COOKIE :=
    mem_read_uint32_of_holds mem' _ _ hd3 (mem_holds_of_eq _ _ _ _ hH (by omega))
  have hsz := roaring_bitmap_frozen_view_sizes_of_holds mem'
    (S + 5 * ra.length + 4 - 4 - ra.length * 3) (S + 5 * ra.length + 4 - 4 - ra.length * 1)
    ra hc 0 0 0 0
    (mem_holds_of_eq _ _ _ _ hTh (by omega)) (mem_holds_of_eq _ _ _ _ hCh (by omega))
  have hlp := roaring_bitmap_frozen_view_loop_of_holds mem'
    (S + 5 * ra.length + 4 - 4 - ra.length * 5)
    (S + 5 * ra.length + 4 - 4 - ra.length * 3) (S + 5 * ra.length + 4 - 4 - ra.length * 1)
    ra hc hk 0 0 (frozen_zone BITSET_CONTAINER_TYPE_CODE ra).length
    ((frozen_zone BITSET_CONTAINER_TYPE_CODE ra).length
      + (frozen_zone RUN_CONTAINER_TYPE_CODE ra).length)
    (mem_holds_of_eq _ _ _ _ hTh (by omega)) (mem_holds_of_eq _ _ _ _ hCh (by omega))
    (mem_holds_of_eq _ _ _ _ hKh (by omega)) hB hR hA
  unfold roaring_bitmap_frozen_view
  simp only [hhdr, hd1, hd2]
  rw [if_neg (by omega), if_neg (by omega), if_neg (by simp), if_neg (by omega), hsz]
  simp only [Nat.zero_add]
  rw [if_neg (by omega), if_neg (by simp), hlp]
  simp only
  congr 3
  apply List.map_congr_left
  intro e he
  rw [frozen_view_container_eq e.2 (hc e he)]

theorem example_frozen_bitmap_valid : frozen_valid example_frozen_bitmap := by
  refine ⟨by simp [example_frozen_bitmap, keys_sorted],
    by simp [example_frozen_bitmap], ?_⟩
  intro e he
  simp only [example_frozen_bitmap, List.mem_cons, List.mem_singleton, List.not_mem_nil,
    or_false] at he
  rcases he with rfl | rfl
  · simp [container_valid, array_container_valid]
  · simp [container_valid]

theorem roaring_bitmap_frozen_view_serialize_witness :
    frozen_valid example_frozen_bitmap
    ∧ ∃ n mem', roaring_bitmap_frozen_size_in_bytes example_frozen_bitmap = some n
      ∧ roaring_bitmap_frozen_serialize example_frozen_bitmap (fun _ => 0) = some mem'
      ∧ roaring_bitmap_frozen_view true 64 mem' n
        = some (ROARING_FLAG_FROZEN,
            ⟨example_frozen_bitmap.high_low_container.map
              (fun e => (e.1, frozen_container e.2))⟩) :=
  ⟨example_frozen_bitmap_valid,
    (roaring_bitmap_frozen_view_serialize example_frozen_bitmap example_frozen_bitmap_valid 64
      (by decide) (fun _ => 0)).imp (fun _ h => h.imp (fun _ h => ⟨h.1, h.2.1, h.2.2.1⟩))⟩

/-! ## Iterator: scanning a bitset -/

theorem builtin_ctzll_spec (w : Nat) (hw : w ≠ 0) (hlt : w < 2 ^ 64) :
    builtin_ctzll w < 64 ∧ w.testBit (builtin_ctzll w) = true
      ∧ ∀ b, b < builtin_ctzll w → w.testBit b = false := by
  obtain ⟨i, hi⟩ := Nat.ne_zero_implies_bit_true hw
  have hi64 : i < 64 := by
    by_contra hge
    have h1 : 2 ^ 64 ≤ 2 ^ i := Nat.pow_le_pow_right (by decide) (Nat.le_of_not_lt hge)
    have h2 := Nat.testBit_implies_ge hi
    omega
  obtain ⟨m, hm, hm64, hmt, hmin⟩ := find?_range_min (fun b => w.testBit b) 64 ⟨i, hi64, hi⟩
  unfold builtin_ctzll
  rw [hm]
  refine ⟨hm64, hmt, ?_⟩
  intro b hb
  by_contra hne
  have := hmin b (by simpa using hne)
  simp only [Option.getD_some] at hb
  omega

theorem filter_range'_nil (p : Nat → Bool) (s n : Nat)
    (h : ∀ z, s ≤ z → z < s + n → p z = false) : (List.range' s n).filter p = [] := by
  rw [List.filter_eq_nil_iff]
  intro z hz
  rw [List.mem_range'_1] at hz
  rw [h z hz.1 hz.2]
  exact Bool.false_ne_true

theorem filter_range'_cons (p : Nat → Bool) (s n v : Nat) (hs : s ≤ v) (hv : v < s + n)
    (hp : p v = true) (hz : ∀ z, s ≤ z → z < v → p z = false) :
    (List.range' s n).filter p = v :: (List.range' (v + 1) (s + n - (v + 1))).filter p := by
  have e : n = ((s + n - (v + 1)) + 1) + (v - s) := by omega
  have h1 : List.range' s n
      = List.range' s (v - s) ++ List.range' (s + (v - s)) ((s + n - (v + 1)) + 1) := by
    conv_lhs => rw [e]
    rw [← List.range'_append]
    simp
  rw [h1, List.filter_append, filter_range'_nil p s (v - s) (fun z h1 h2 => hz z h1 (by omega)),
    List.nil_append, show s + (v - s) = v by omega, List.range'_succ,
    List.filter_cons_of_pos hp]

theorem bits_from_cons (words : List Nat) (s v : Nat) (hs : s ≤ v) (hv : v < 65536)
    (hp : bitset_get words v = true)
    (hz : ∀ z, s ≤ z → z < v → bitset_get words z = false) :
    bits_from words s = v :: bits_from words (v + 1) := by
  unfold bits_from
  rw [filter_range'_cons _ s (65536 - s) v hs (by omega) hp hz]
  congr 3
  omega

theorem bits_from_nil (words : List Nat) (s : Nat)
    (hz : ∀ z, s ≤ z → z < 65536 → bitset_get words z = false) : bits_from words s = [] := by
  unfold bits_from
  exact filter_range'_nil _ _ _ (fun z h1 h2 => hz z h1 (by omega))

theorem testBit_mask (w k b : Nat) (hb : b < 64) :
    (w &&& ((UINT64_MAX <<< k) % 2 ^ 64)).testBit b = (w.testBit b && decide (k ≤ b)) := by
  rw [Nat.testBit_and, Nat.testBit_mod_two_pow, Nat.testBit_shiftLeft]
  unfold UINT64_MAX
  rw [Nat.testBit_two_pow_sub_one]
  congr 1
  by_cases h : k ≤ b
  · simp [h, hb]
    omega
  · simp [h]

theorem loadfirstvalue_scan_spec (array : List Nat) (wordindex : Nat)
    (h : ∃ w ∈ array, w ≠ 0) :
    ∃ j word, loadfirstvalue_scan array wordindex = some (wordindex + j, word)
      ∧ array[j]? = some word ∧ word ≠ 0 ∧ ∀ i, i < j → array[i]? = some 0 := by
  induction array generalizing wordindex with
  | nil =>
    obtain ⟨w, hw, _⟩ := h
    simp at hw
  | cons a t ih =>
    rw [loadfirstvalue_scan]
    by_cases ha : a = 0
    · rw [if_pos ha]
      obtain ⟨w, hw, hne⟩ := h
      have hwt : w ∈ t := by
        rcases List.mem_cons.1 hw with h1 | h1
        · exact absurd (h1.trans ha) hne
        · exact h1
      obtain ⟨j, word, h1, h2, h3, h4⟩ := ih (wordindex + 1) ⟨w, hwt, hne⟩
      refine ⟨j + 1, word, by rw [h1]; congr 2; omega, by simpa using h2, h3, ?_⟩
      intro i hi
      cases i with
      | zero => simp [ha]
      | succ i => simpa using h4 i (by omega)
    · rw [if_neg ha]
      exact ⟨0, a, rfl, by simp, ha, fun i hi => absurd hi (by omega)⟩

theorem roaring_advance_uint32_iterator_scan_spec (array : List Nat)
    (hlen : array.length = 1024) (fuel wordindex word : Nat) (hwi : wordindex < 1024)
    (hfuel : 1024 ≤ fuel + wordindex) :
    ∃ wi word2, roaring_advance_uint32_iterator_scan array fuel wordindex word
        = some (wi, word2)
      ∧ wordindex ≤ wi ∧ wi < 1024 ∧ (wi = wordindex → word2 = word)
      ∧ (wordindex < wi → word = 0 ∧ array[wi]? = some word2)
      ∧ (∀ j, wordindex < j → j < wi → array[j]? = some 0)
      ∧ (word2 = 0 → wi = 1023) := by
  induction fuel generalizing wordindex word with
  | zero => omega
  | succ fuel ih =>
    rw [roaring_advance_uint32_iterator_scan]
    by_cases hc : word = 0 ∧ wordindex + 1 < BITSET_CONTAINER_SIZE_IN_WORDS
    · rw [if_pos hc]
      have hlt : wordindex + 1 < 1024 := hc.2
      have hget : array[wordindex + 1]? = some (array[wordindex + 1]) :=
        List.getElem?_eq_getElem (by omega)
      rw [hget]
      obtain ⟨wi, word2, h1, h2, h3, h4, h5, h6, h7⟩ :=
        ih (wordindex + 1) (array[wordindex + 1]) hlt (by omega)
      refine ⟨wi, word2, h1, by omega, h3, fun h => by omega, fun _ => ⟨hc.1, ?_⟩, ?_, h7⟩
      · by_cases hw : wi = wordindex + 1
        · rw [hw, hget, h4 hw]
        · exact (h5 (by omega)).2
      · intro j hj1 hj2
        by_cases hj : j = wordindex + 1
        · have hw : wordindex + 1 < wi := by omega
          rw [hj, hget, (h5 hw).1]
        · exact h6 j (by omega) hj2
    · rw [if_neg hc]
      refine ⟨wordindex, word, rfl, Nat.le_refl _, hwi, fun _ => rfl, fun h => by omega,
        fun j h1 h2 => by omega, ?_⟩
      intro h0
      have : ¬ wordindex + 1 < 1024 := fun h => hc ⟨h0, h⟩
      omega

theorem bitset_get_eq (words : List Nat) (z wi w : Nat) (hz : z / 64 = wi)
    (h : words[wi]? = some w) : bitset_get words z = w.testBit (z % 64) := by
  unfold bitset_get
  rw [List.getD_eq_getElem?_getD, hz, h]
  rfl

/-- The search for the next bit set in `roaring_advance_uint32_iterator`, from
position `idx` on. -/
theorem bitset_next (words : List Nat) (hlen : words.length = 1024)
    (hw : ∀ w ∈ words, w < 2 ^ 64) (idx : Nat) (hidx : idx / 64 < 1024) :
    ∃ w wi word2, words[idx / 64]? = some w
      ∧ roaring_advance_uint32_iterator_scan words BITSET_CONTAINER_SIZE_IN_WORDS (idx / 64)
          (w &&& ((UINT64_MAX <<< (idx % 64)) % 2 ^ 64)) = some (wi, word2)
      ∧ (word2 ≠ 0 → idx ≤ wi * 64 + builtin_ctzll word2
          ∧ wi * 64 + builtin_ctzll word2 < 65536
          ∧ bitset_get words (wi * 64 + builtin_ctzll word2) = true
          ∧ bits_from words idx = (wi * 64 + builtin_ctzll word2)
              :: bits_from words (wi * 64 + builtin_ctzll word2 + 1))
      ∧ (word2 = 0 → bits_from words idx = []) := by
  have hget : words[idx / 64]? = some (words[idx / 64]) :=
    List.getElem?_eq_getElem (by omega)
  obtain ⟨wi, word2, h1, h2, h3, h4, h5, h6, h7⟩ :=
    roaring_advance_uint32_iterator_scan_spec words hlen BITSET_CONTAINER_SIZE_IN_WORDS
      (idx / 64) (words[idx / 64] &&& ((UINT64_MAX <<< (idx % 64)) % 2 ^ 64)) hidx
      (by simp [BITSET_CONTAINER_SIZE_IN_WORDS])
  refine ⟨_, wi, word2, hget, h1, ?_, ?_⟩
  all_goals
    have hgwi : words[wi]? = some (words[wi]) := List.getElem?_eq_getElem (by omega)
    -- the bits of `word2` are those of word `wi` from position `k` on
    obtain ⟨k, hk1, hk2, hk3⟩ : ∃ k, (∀ b, b < 64 →
        word2.testBit b = ((words[wi]).testBit b && decide (k ≤ b)))
        ∧ (∀ z, idx ≤ z → z < wi * 64 + k → bitset_get words z = false)
        ∧ idx ≤ wi * 64 + k := by
      by_cases hwi : wi = idx / 64
      · refine ⟨idx % 64, ?_, ?_, by omega⟩
        · intro b hb
          rw [h4 hwi, testBit_mask _ _ _ hb]
          simp only [hwi]
        · intro z hz1 hz2
          omega
      · have hlt : idx / 64 < wi := by omega
        obtain ⟨hzero, hword⟩ := h5 hlt
        rw [hgwi] at hword
        refine ⟨0, ?_, ?_, by omega⟩
        · intro b hb
          simp only [Option.some.injEq] at hword
          rw [hword]
          simp
        · intro z hz1 hz2
          by_cases hzw : z / 64 = idx / 64
          · rw [bitset_get_eq words z _ _ hzw hget]
            have hm := testBit_mask (words[idx / 64]) (idx % 64) (z % 64)
              (Nat.mod_lt _ (by decide))
            rw [hzero] at hm
            simp only [Nat.zero_testBit] at hm
            have hk : idx % 64 ≤ z % 64 := by omega
            simpa [hk] using hm.symm
          · rw [bitset_get_eq words z _ 0 rfl (h6 (z / 64) (by omega) (by omega))]
            simp
    have hlt2 : word2 < 2 ^ 64 := by
      apply Nat.lt_pow_two_of_testBit
      intro i hi
      by_cases hwi : wi = idx / 64
      · rw [h4 hwi, Nat.testBit_and, Nat.testBit_mod_two_pow]
        simp [show ¬ i < 64 by omega]
      · have := (h5 (by omega)).2
        rw [hgwi] at this
        simp only [Option.some.injEq] at this
        rw [← this]
        exact Nat.testBit_lt_two_pow (Nat.lt_of_lt_of_le
          (hw _ (List.getElem_mem _)) (Nat.pow_le_pow_right (by decide) hi))
  · intro hne
    obtain ⟨c1, c2, c3⟩ := builtin_ctzll_spec word2 hne hlt2
    rw [hk1 _ c1] at c2
    simp only [Bool.and_eq_true, decide_eq_true_eq] at c2
    have e1 : (wi * 64 + builtin_ctzll word2) / 64 = wi := by omega
    have e2 : (wi * 64 + builtin_ctzll word2) % 64 = builtin_ctzll word2 := by omega
    have hset : bitset_get words (wi * 64 + builtin_ctzll word2) = true := by
      rw [bitset_get_eq words _ _ _ e1 hgwi, e2]
      exact c2.1
    refine ⟨by omega, by omega, hset, ?_⟩
    apply bits_from_cons words idx _ (by omega) (by omega) hset
    intro z hz1 hz2
    by_cases hzk : z < wi * 64 + k
    · exact hk2 z hz1 hzk
    · have e3 : z / 64 = wi := by omega
      rw [bitset_get_eq words z _ _ e3 hgwi]
      have := c3 (z % 64) (by omega)
      rw [hk1 _ (Nat.mod_lt _ (by decide))] at this
      have hkz : k ≤ z % 64 := by omega
      simpa [hkz] using this
  · intro h0
    have hwi := h7 h0
    apply bits_from_nil
    intro z hz1 hz2
    by_cases hzk : z < wi * 64 + k
    · exact hk2 z hz1 hzk
    · have e3 : z / 64 = wi := by omega
      rw [bitset_get_eq words z _ _ e3 hgwi]
      have := hk1 (z % 64) (Nat.mod_lt _ (by decide))
      rw [h0] at this
      simp only [Nat.zero_testBit] at this
      have hkz : k ≤ z % 64 := by omega
      simpa [hkz] using this.symm

theorem hamming_zero : hamming 0 = 0 := by
  unfold hamming
  apply countP_eq_zero_of_forall
  intro b _
  simp

theorem exists_ne_zero_of_sum_hamming (words : List Nat) (h : 1 ≤ (words.map hamming).sum) :
    ∃ w ∈ words, w ≠ 0 := by
  induction words with
  | nil => simp at h
  | cons a t ih =>
    by_cases ha : a = 0
    · rw [List.map_cons, List.sum_cons, ha, hamming_zero, Nat.zero_add] at h
      obtain ⟨w, hw, hne⟩ := ih h
      exact ⟨w, List.mem_cons_of_mem _ hw, hne⟩
    · exact ⟨a, List.mem_cons_self _ _, ha⟩

/-- The search of `loadfirstvalue` in a valid bitset container finds its first
bit set. -/
theorem bitset_first (b : bitset_container_t) (hv : container_valid (.bitset b)) :
    ∃ wi word, loadfirstvalue_scan b.array 0 = some (wi, word)
      ∧ wi * 64 + builtin_ctzll word < 65536
      ∧ bitset_get b.array (wi * 64 + builtin_ctzll word) = true
      ∧ bits_from b.array 0 = bits_from b.array (wi * 64 + builtin_ctzll word) := by
  obtain ⟨hlen, hw, _, hne⟩ := hv
  have hlen' : b.array.length = 1024 := hlen
  obtain ⟨j, word, h1, h2, h3, h4⟩ := loadfirstvalue_scan_spec b.array 0
    (exists_ne_zero_of_sum_hamming b.array hne)
  rw [Nat.zero_add] at h1
  have hj : j < 1024 := by
    have := (List.getElem?_eq_some.1 h2).1
    omega
  have hword : word < 2 ^ 64 := by
    obtain ⟨hj1, hj2⟩ := List.getElem?_eq_some.1 h2
    exact hw word (hj2 ▸ List.getElem_mem hj1)
  obtain ⟨c1, c2, c3⟩ := builtin_ctzll_spec word h3 hword
  have e1 : (j * 64 + builtin_ctzll word) / 64 = j := by omega
  have e2 : (j * 64 + builtin_ctzll word) % 64 = builtin_ctzll word := by omega
  have hset : bitset_get b.array (j * 64 + builtin_ctzll word) = true := by
    rw [bitset_get_eq b.array _ _ _ e1 h2, e2]
    exact c2
  have hbelow : ∀ z, 0 ≤ z → z < j * 64 + builtin_ctzll word → bitset_get b.array z = false := by
    intro z _ hz
    by_cases hzj : z / 64 = j
    · rw [bitset_get_eq b.array z _ _ hzj h2]
      exact c3 _ (by omega)
    · rw [bitset_get_eq b.array z _ 0 rfl (h4 _ (by omega))]
      simp
  refine ⟨j, word, h1, by omega, hset, ?_⟩
  rw [bits_from_cons b.array 0 _ (Nat.zero_le _) (by omega) hset hbelow,
    bits_from_cons b.array (j * 64 + builtin_ctzll word) _ (Nat.le_refl _) (by omega) hset
      (fun z h1 h2 => by omega)]

/-! ## Iterator: positioning on the first value of a container -/

theorem highbits_or (key x : Nat) (hk : key < 65536) (hx : x < 65536) :
    ((key * 65536) % 2 ^ 32) ||| x = (key * 65536) % 2 ^ 32 + x := by
  rw [Nat.lor_comm, lor_key x key hx hk]
  omega

theorem highbits_eq (key : Nat) (hk : key < 65536) : (key * 65536) % 2 ^ 32 = key * 65536 := by
  omega

theorem container_elements_unwrap (c : container_t)
    (h : container_valid (container_unwrap_shared c)) :
    container_elements (container_unwrap_shared c) = container_elements c := by
  cases c with
  | shared c => rfl
  | bitset b => rfl
  | array a => rfl
  | run r => rfl

theorem take_eq_cons_of_getElem? {α : Type} (l : List α) (n : Nat) (x : α)
    (h : l[0]? = some x) (hn : 0 < n) : l.take n = x :: (l.take n).drop 1 := by
  cases l with
  | nil => simp at h
  | cons a t =>
    simp only [List.getElem?_cons_zero, Option.some.injEq] at h
    subst h
    obtain ⟨m, rfl⟩ := Nat.exists_eq_succ_of_ne_zero (Nat.pos_iff_ne_zero.1 hn)
    simp

theorem loadfirstvalue_done (it : roaring_uint32_iterator_t)
    (h : (it.parent.high_low_container.length : Int) ≤ it.container_index) :
    loadfirstvalue it = some (false,
      { it with in_container_index := 0, run_index := 0, current_value := UINT32_MAX,
                has_value := false }) := by
  unfold loadfirstvalue iter_new_container_partial_init
  simp only [ge_iff_le, h, true_or, if_true, Bool.not_false]

/-- On an entry of the directory, `loadfirstvalue` puts the iterator on the
first value of the container. -/
theorem loadfirstvalue_spec (it : roaring_uint32_iterator_t) (e : Nat × container_t)
    (hci : 0 ≤ it.container_index)
    (he : it.parent.high_low_container[it.container_index.toNat]? = some e)
    (hk : e.1 < 65536) (hv : container_valid (container_unwrap_shared e.2)) :
    ∃ it', loadfirstvalue it = some (true, it') ∧ it'.parent = it.parent
      ∧ it'.container_index = it.container_index ∧ iterator_positioned it'
      ∧ container_remaining it' = container_elements e.2
      ∧ it'.highbits = e.1 * 65536 := by
  have hlt : it.container_index.toNat < it.parent.high_low_container.length :=
    (List.getElem?_eq_some.1 he).1
  have hcond : ¬ (it.container_index ≥ (it.parent.high_low_container.length : Int)
      ∨ it.container_index < 0) := by omega
  have hel := container_elements_unwrap e.2 hv
  unfold loadfirstvalue iter_new_container_partial_init
  simp only [hcond, if_false, he, Bool.not_true, Bool.false_eq_true]
  cases hc : container_unwrap_shared e.2 with
  | bitset b =>
    rw [hc] at hv hel
    obtain ⟨wi, word, h1, h2, h3, h4⟩ := bitset_first b hv
    simp only [h1]
    refine ⟨_, rfl, rfl, rfl, ?_, ?_, highbits_eq _ hk⟩
    · refine ⟨rfl, hci, e, he, hc.symm, highbits_eq _ hk, ?_⟩
      simp only
      exact ⟨h2, h3, highbits_or _ _ hk h2⟩
    · simp only [container_remaining]
      rw [← hel, container_elements, h4]
  | array a =>
    rw [hc] at hv hel
    obtain ⟨⟨h1, h2, h3⟩, h4⟩ := hv
    have h0 : a.array[0]? = some (a.array[0]) := List.getElem?_eq_getElem (by omega)
    have hx : a.array[0] < 65536 := by
      apply h3
      rw [List.mem_take_iff_getElem]
      exact ⟨0, by omega, rfl⟩
    simp only [h0]
    refine ⟨_, rfl, rfl, rfl, ?_, ?_, highbits_eq _ hk⟩
    · refine ⟨rfl, hci, e, he, hc.symm, highbits_eq _ hk, ?_⟩
      simp only
      exact ⟨by omega, _, h0, highbits_or _ _ hk hx⟩
    · simp only [container_remaining, List.drop_zero]
      rw [← hel, container_elements]
  | run r =>
    rw [hc] at hv hel
    obtain ⟨h1, h2, h3, h4⟩ := hv
    obtain ⟨rle, h0⟩ : ∃ rle, r.runs[0]? = some rle :=
      ⟨_, List.getElem?_eq_getElem (by omega)⟩
    have htake := take_eq_cons_of_getElem? r.runs r.n_runs rle h0 (by omega)
    have hx : rle.value + rle.length < 65536 := by
      apply h4
      rw [htake]
      exact List.mem_cons_self _ _
    simp only [h0]
    have hor := highbits_or e.1 rle.value hk (by omega)
    have hhb := highbits_eq e.1 hk
    refine ⟨_, rfl, rfl, rfl, ?_, ?_, highbits_eq _ hk⟩
    · refine ⟨rfl, hci, e, he, hc.symm, highbits_eq _ hk, ?_⟩
      simp only
      refine ⟨by omega, _, h0, ?_, ?_⟩
      · rw [hor]
      · rw [hor]
        omega
    · simp only [container_remaining, h0]
      rw [← hel, container_elements, hor]
      have e1 : e.1 * 65536 % 2 ^ 32 + rle.value - e.1 * 65536 % 2 ^ 32 = rle.value := by
        omega
      have e2 : rle.value + rle.length + 1 - rle.value = rle.length + 1 := by omega
      rw [e1, e2]
      conv_rhs => rw [htake, List.flatMap_cons]
  | shared c =>
    rw [hc] at hv
    exact absurd hv (by simp [container_valid])

theorem iterator_with_has_value (it : roaring_uint32_iterator_t) (b : Bool)
    (h : it.has_value = b) : { it with has_value := b } = it := by
  cases it
  simp only at h
  subst h
  rfl

/-- Moving to the next container: the iterator stands on the first value of
the next entry, or is done if there is none. -/
theorem roaring_advance_uint32_iterator_next_spec (rb : roaring_bitmap_t container_t)
    (hv : iterator_valid rb) (it : roaring_uint32_iterator_t) (hp : it.parent = rb)
    (hci : 0 ≤ it.container_index) :
    ∃ b it', roaring_advance_uint32_iterator_next it = some (b, it') ∧ it'.parent = rb
      ∧ it'.has_value = b
      ∧ ((b = true ∧ iterator_positioned it') ∨ (b = false ∧ iterator_done it'))
      ∧ iterator_remaining it'
        = (rb.high_low_container.drop (it.container_index.toNat + 1)).flatMap
            entry_elements := by
  have htn : (it.container_index + 1).toNat = it.container_index.toNat + 1 := by omega
  unfold roaring_advance_uint32_iterator_next
  by_cases hlt : it.container_index.toNat + 1 < rb.high_low_container.length
  · obtain ⟨e, he⟩ : ∃ e, rb.high_low_container[it.container_index.toNat + 1]? = some e :=
      ⟨_, List.getElem?_eq_getElem hlt⟩
    have hmem : e ∈ rb.high_low_container := by
      obtain ⟨h1, h2⟩ := List.getElem?_eq_some.1 he
      exact h2 ▸ List.getElem_mem h1
    obtain ⟨it', h1, h2, h3, h4, h5, h6⟩ := loadfirstvalue_spec
      { it with container_index := it.container_index + 1 } e (by simp only; omega)
      (by simp only [htn, hp]; exact he) (hv.2.1 e hmem) (hv.2.2 e hmem)
    simp only at h2 h3
    simp only [h1]
    rw [iterator_with_has_value it' true h4.1]
    refine ⟨true, it', rfl, h2.trans hp, h4.1, Or.inl ⟨rfl, h4⟩, ?_⟩
    unfold iterator_remaining
    rw [if_pos h4.1, h5, h6, h2, hp, h3, htn]
    conv_rhs => rw [List.drop_eq_getElem_cons hlt, List.flatMap_cons]
    have hee : rb.high_low_container[it.container_index.toNat + 1] = e := by
      rw [List.getElem?_eq_getElem hlt] at he
      exact Option.some.inj he
    rw [hee]
    rfl
  · have hge : ((({ it with container_index := it.container_index + 1 } :
        roaring_uint32_iterator_t).parent.high_low_container.length : Nat) : Int)
        ≤ ({ it with container_index := it.container_index + 1 } :
          roaring_uint32_iterator_t).container_index := by
      simp only [hp]
      omega
    simp only [loadfirstvalue_done _ hge]
    refine ⟨false, _, rfl, hp, rfl, Or.inr ⟨rfl, rfl, rfl, Or.inl ?_⟩, ?_⟩
    · simp only [hp]
      omega
    · unfold iterator_remaining
      simp only [Bool.false_eq_true, if_false]
      rw [List.drop_eq_nil_of_le (by omega)]
      rfl

/-! ## Iterator: one step forward -/

theorem drop_take_cons {α : Type} (l : List α) (n i : Nat) (x : α) (h : l[i]? = some x)
    (hi : i < n) : (l.take n).drop i = x :: (l.take n).drop (i + 1) := by
  have h1 : (l.take n)[i]? = some x := by
    rw [List.getElem?_take_of_lt hi]
    exact h
  obtain ⟨h2, h3⟩ := List.getElem?_eq_some.1 h1
  rw [List.drop_eq_getElem_cons h2, h3]

theorem mem_of_getElem?_eq_some {α : Type} (l : List α) (i : Nat) (x : α)
    (h : l[i]? = some x) : x ∈ l := by
  obtain ⟨h1, h2⟩ := List.getElem?_eq_some.1 h
  exact h2 ▸ List.getElem_mem h1

theorem iterator_positioned_index (it : roaring_uint32_iterator_t)
    (hpos : iterator_positioned it) :
    ¬ (it.container_index ≥ (it.parent.high_low_container.length : Int))
      ∧ ¬ it.container_index < 0 := by
  obtain ⟨_, hci, e, he, _⟩ := hpos
  have := (List.getElem?_eq_some.1 he).1
  omega

theorem roaring_advance_uint32_iterator_array (rb : roaring_bitmap_t container_t)
    (hv : iterator_valid rb) (it : roaring_uint32_iterator_t) (hp : it.parent = rb)
    (hpos : iterator_positioned it) (a : array_container_t) (hc : it.container = .array a) :
    iterator_step rb it := by
  obtain ⟨hi1, hi2⟩ := iterator_positioned_index it hpos
  obtain ⟨hhas, hci, e, he, hcont, hhb, hm⟩ := hpos
  cases it with
  | mk parent ci ici ri cur has cont hb =>
  simp only at hp hc hi1 hi2 hhas hci he hcont hhb hm
  subst hp hc hhas
  simp only at hm
  obtain ⟨hlt, x, hx, hcur⟩ := hm
  have hmem : e ∈ parent.high_low_container := mem_of_getElem?_eq_some _ _ _ he
  have hval := hv.2.2 e hmem
  rw [← hcont] at hval
  obtain ⟨⟨v1, v2, v3⟩, v4⟩ := hval
  have hk := hv.2.1 e hmem
  have hrem : iterator_remaining ⟨parent, ci, ici, ri, cur, true, .array a, hb⟩ = cur
      :: (((a.array.take a.cardinality).drop (ici + 1)).map (fun x => hb + x)
          ++ (parent.high_low_container.drop (ci.toNat + 1)).flatMap entry_elements) := by
    rw [iterator_remaining, if_pos rfl]
    simp only [container_remaining]
    rw [drop_take_cons a.array a.cardinality _ x hx hlt, hcur]
    rfl
  unfold iterator_step roaring_advance_uint32_iterator
  rw [if_neg hi1, if_neg hi2]
  simp only
  by_cases hnext : ici + 1 < a.cardinality
  · simp only [hnext, if_true]
    obtain ⟨y, hy⟩ : ∃ y, a.array[ici + 1]? = some y :=
      ⟨_, List.getElem?_eq_getElem (by omega)⟩
    have hy16 : y < 65536 := by
      apply v3
      have := drop_take_cons a.array a.cardinality _ y hy hnext
      exact List.mem_of_mem_drop (this ▸ List.mem_cons_self _ _)
    have hor : hb ||| y = hb + y := by
      rw [hhb, ← highbits_eq e.1 hk]
      exact highbits_or e.1 y hk hy16
    simp only [hy]
    refine ⟨true, _, rfl, rfl, rfl, Or.inl ⟨rfl, ⟨rfl, hci, e, he, hcont, hhb, ?_⟩⟩, ?_⟩
    · exact ⟨hnext, y, hy, hor⟩
    · rw [hrem]
      rfl
  · simp only [hnext, if_false]
    obtain ⟨b, it', h1, h2, h3, h4, h5⟩ := roaring_advance_uint32_iterator_next_spec parent hv
      ⟨parent, ci, ici + 1, ri, cur, true, .array a, hb⟩ rfl hci
    refine ⟨b, it', h1, h2, h3, h4, ?_⟩
    rw [hrem, h5, List.drop_eq_nil_of_le]
    · rfl
    · rw [List.length_take]
      omega

theorem roaring_advance_uint32_iterator_bitset (rb : roaring_bitmap_t container_t)
    (hv : iterator_valid rb) (it : roaring_uint32_iterator_t) (hp : it.parent = rb)
    (hpos : iterator_positioned it) (b : bitset_container_t)
    (hc : it.container = .bitset b) : iterator_step rb it := by
  obtain ⟨hi1, hi2⟩ := iterator_positioned_index it hpos
  obtain ⟨hhas, hci, e, he, hcont, hhb, hm⟩ := hpos
  cases it with
  | mk parent ci ici ri cur has cont hb =>
  simp only at hp hc hi1 hi2 hhas hci he hcont hhb hm
  subst hp hc hhas
  simp only at hm
  obtain ⟨hlt, hset, hcur⟩ := hm
  have hmem : e ∈ parent.high_low_container := mem_of_getElem?_eq_some _ _ _ he
  have hval := hv.2.2 e hmem
  rw [← hcont] at hval
  obtain ⟨v1, v2, v3, v4⟩ := hval
  have hk := hv.2.1 e hmem
  have hrem : iterator_remaining ⟨parent, ci, ici, ri, cur, true, .bitset b, hb⟩ = cur
      :: ((bits_from b.array (ici + 1)).map (fun x => hb + x)
          ++ (parent.high_low_container.drop (ci.toNat + 1)).flatMap entry_elements) := by
    rw [iterator_remaining, if_pos rfl]
    simp only [container_remaining]
    rw [bits_from_cons b.array ici ici (Nat.le_refl _) hlt hset (fun z h1 h2 => by omega), hcur]
    rfl
  unfold iterator_step roaring_advance_uint32_iterator
  rw [if_neg hi1, if_neg hi2]
  simp only
  by_cases hend : (ici + 1) / 64 ≥ BITSET_CONTAINER_SIZE_IN_WORDS
  · simp only [hend, if_true]
    obtain ⟨b', it', h1, h2, h3, h4, h5⟩ := roaring_advance_uint32_iterator_next_spec parent hv
      ⟨parent, ci, ici + 1, ri, cur, true, .bitset b, hb⟩ rfl hci
    refine ⟨b', it', h1, h2, h3, h4, ?_⟩
    have hend' : 1024 ≤ (ici + 1) / 64 := hend
    rw [hrem, h5, bits_from_nil b.array (ici + 1) (fun z h1 h2 => by omega)]
    rfl
  · simp only [hend, if_false]
    have hend' : (ici + 1) / 64 < 1024 := Nat.lt_of_not_le hend
    obtain ⟨w, wi, word2, g1, g2, g3, g4⟩ := bitset_next b.array v1 v2 (ici + 1) hend'
    simp only [g1, g2]
    by_cases hw2 : word2 = 0
    · simp only [hw2, ne_eq, not_true_eq_false, if_false]
      obtain ⟨b', it', h1, h2, h3, h4, h5⟩ :=
        roaring_advance_uint32_iterator_next_spec parent hv
          ⟨parent, ci, ici + 1, ri, cur, true, .bitset b, hb⟩ rfl hci
      refine ⟨b', it', h1, h2, h3, h4, ?_⟩
      rw [hrem, h5, g4 hw2]
      rfl
    · simp only [hw2, ne_eq, not_false_eq_true, if_true]
      obtain ⟨g5, g6, g7, g8⟩ := g3 hw2
      have hor : hb ||| (wi * 64 + builtin_ctzll word2) = hb + (wi * 64 + builtin_ctzll word2) := by
        rw [hhb, ← highbits_eq e.1 hk]
        exact highbits_or e.1 _ hk g6
      refine ⟨true, _, rfl, rfl, rfl, Or.inl ⟨rfl, ⟨rfl, hci, e, he, hcont, hhb, ?_⟩⟩, ?_⟩
      · exact ⟨g6, g7, hor⟩
      · rw [hrem, g8]
        congr 1
        rw [iterator_remaining, if_pos rfl]
        simp only [container_remaining]
        rw [bits_from_cons b.array _ _ (Nat.le_refl _) g6 g7 (fun z h1 h2 => by omega)]

theorem pairwise_getElem? {α : Type} (R : α → α → Prop) (l : List α) (h : l.Pairwise R)
    (i j : Nat) (x y : α) (hi : l[i]? = some x) (hj : l[j]? = some y) (hij : i < j) :
    R x y := by
  obtain ⟨hi1, hi2⟩ := List.getElem?_eq_some.1 hi
  obtain ⟨hj1, hj2⟩ := List.getElem?_eq_some.1 hj
  rw [List.pairwise_iff_getElem] at h
  have := h i j hi1 hj1 hij
  rwa [hi2, hj2] at this

theorem getElem?_take_some {α : Type} (l : List α) (n i : Nat) (x : α) (h : l[i]? = some x)
    (hi : i < n) : (l.take n)[i]? = some x := by
  rw [List.getElem?_take_of_lt hi]
  exact h

theorem roaring_advance_uint32_iterator_run (rb : roaring_bitmap_t container_t)
    (hv : iterator_valid rb) (it : roaring_uint32_iterator_t) (hp : it.parent = rb)
    (hpos : iterator_positioned it) (r : run_container_t)
    (hc : it.container = .run r) : iterator_step rb it := by
  obtain ⟨hi1, hi2⟩ := iterator_positioned_index it hpos
  obtain ⟨hhas, hci, e, he, hcont, hhb, hm⟩ := hpos
  cases it with
  | mk parent ci ici ri cur has cont hb =>
  simp only at hp hc hi1 hi2 hhas hci he hcont hhb hm
  subst hp hc hhas
  simp only at hm
  obtain ⟨hlt, rle, hrle, hlo, hhi⟩ := hm
  have hmem : e ∈ parent.high_low_container := mem_of_getElem?_eq_some _ _ _ he
  have hval := hv.2.2 e hmem
  rw [← hcont] at hval
  obtain ⟨w1, w2, w3, w4⟩ := hval
  have hk := hv.2.1 e hmem
  have hrle_take := getElem?_take_some r.runs r.n_runs ri rle hrle hlt
  have hx : rle.value + rle.length < 65536 := w4 _ (mem_of_getElem?_eq_some _ _ _ hrle_take)
  have hrem : iterator_remaining ⟨parent, ci, ici, ri, cur, true, .run r, hb⟩ = cur
      :: ((List.range' (cur + 1 - hb) (rle.value + rle.length + 1 - (cur + 1 - hb))
            ++ ((r.runs.take r.n_runs).drop (ri + 1)).flatMap
                (fun rle => List.range' rle.value (rle.length + 1))).map (fun x => hb + x)
          ++ (parent.high_low_container.drop (ci.toNat + 1)).flatMap entry_elements) := by
    rw [iterator_remaining, if_pos rfl]
    simp only [container_remaining, hrle]
    have e1 : rle.value + rle.length + 1 - (cur - hb)
        = (rle.value + rle.length + 1 - (cur + 1 - hb)) + 1 := by omega
    have e2 : cur + 1 - hb = cur - hb + 1 := by omega
    rw [e1, List.range'_succ, e2]
    simp only [List.cons_append, List.map_cons]
    congr 1
    omega
  have hor : ∀ x, x < 65536 → hb ||| x = hb + x := by
    intro x hx16
    rw [hhb, ← highbits_eq e.1 hk]
    exact highbits_or e.1 x hk hx16
  unfold iterator_step roaring_advance_uint32_iterator
  rw [if_neg hi1, if_neg hi2]
  simp only
  by_cases hmax : cur = UINT32_MAX
  · simp only [hmax, if_true]
    refine ⟨false, _, rfl, rfl, rfl, Or.inr ⟨rfl, rfl, rfl, Or.inr ⟨hci, r, rfl⟩⟩, ?_⟩
    rw [← hmax, hrem]
    have hmax' : cur = 4294967295 := hmax
    have hnr : (r.runs.take r.n_runs).drop (ri + 1) = [] := by
      by_contra hne
      obtain ⟨y, hy⟩ : ∃ y, ((r.runs.take r.n_runs).drop (ri + 1))[0]? = some y := by
        cases hd : (r.runs.take r.n_runs).drop (ri + 1) with
        | nil => exact absurd hd hne
        | cons y t => exact ⟨y, by simp⟩
      rw [List.getElem?_drop] at hy
      have h1 := pairwise_getElem? _ _ w3 ri (ri + 1 + 0) rle y hrle_take hy (by omega)
      have h2 := w4 y (mem_of_getElem?_eq_some _ _ _ hy)
      omega
    have hnc : parent.high_low_container.drop (ci.toNat + 1) = [] := by
      by_contra hne
      obtain ⟨y, hy⟩ : ∃ y, (parent.high_low_container.drop (ci.toNat + 1))[0]? = some y := by
        cases hd : parent.high_low_container.drop (ci.toNat + 1) with
        | nil => exact absurd hd hne
        | cons y t => exact ⟨y, by simp⟩
      rw [List.getElem?_drop] at hy
      have h1 := pairwise_getElem? _ _ hv.1 ci.toNat (ci.toNat + 1 + 0) e y he hy (by omega)
      have h2 := hv.2.1 y (mem_of_getElem?_eq_some _ _ _ hy)
      simp only at h1
      omega
    have hz : rle.value + rle.length + 1 - (cur + 1 - hb) = 0 := by omega
    rw [hnr, hnc, hz]
    rfl
  · simp only [hmax, if_false, hrle]
    have hmax' : cur ≠ 4294967295 := hmax
    have hmod : (cur + 1) % 2 ^ 32 = cur + 1 := by omega
    rw [hmod, hor _ hx]
    by_cases hsame : cur + 1 ≤ hb + (rle.value + rle.length)
    · simp only [hsame, if_true]
      refine ⟨true, _, rfl, rfl, rfl, Or.inl ⟨rfl, ⟨rfl, hci, e, he, hcont, hhb, ?_⟩⟩, ?_⟩
      · exact ⟨hlt, rle, hrle, by simp only; omega, by simp only; omega⟩
      · rw [hrem]
        congr 1
        rw [iterator_remaining, if_pos rfl]
        simp only [container_remaining, hrle]
    · simp only [hsame, if_false]
      have hz : rle.value + rle.length + 1 - (cur + 1 - hb) = 0 := by omega
      by_cases hnext : ri + 1 < r.n_runs
      · simp only [hnext, if_true]
        obtain ⟨rle2, h2⟩ : ∃ rle2, r.runs[ri + 1]? = some rle2 :=
          ⟨_, List.getElem?_eq_getElem (by omega)⟩
        have h2take := getElem?_take_some r.runs r.n_runs (ri + 1) rle2 h2 hnext
        have hx2 : rle2.value + rle2.length < 65536 :=
          w4 _ (mem_of_getElem?_eq_some _ _ _ h2take)
        simp only [h2]
        rw [hor _ (show rle2.value < 65536 by omega)]
        refine ⟨true, _, rfl, rfl, rfl, Or.inl ⟨rfl, ⟨rfl, hci, e, he, hcont, hhb, ?_⟩⟩, ?_⟩
        · exact ⟨hnext, rle2, h2, Nat.le_refl _, by simp only; omega⟩
        · rw [hrem, hz]
          congr 1
          rw [iterator_remaining, if_pos rfl]
          simp only [container_remaining, h2]
          rw [drop_take_cons r.runs r.n_runs (ri + 1) rle2 h2 hnext]
          have e1 : hb + rle2.value - hb = rle2.value := by omega
          have e2 : rle2.value + rle2.length + 1 - rle2.value = rle2.length + 1 := by omega
          rw [e1, e2]
          rfl
      · simp only [hnext, if_false]
        obtain ⟨b', it', h1, h2, h3, h4, h5⟩ :=
          roaring_advance_uint32_iterator_next_spec parent hv
            ⟨parent, ci, ici, ri + 1, cur + 1, true, .run r, hb⟩ rfl hci
        refine ⟨b', it', h1, h2, h3, h4, ?_⟩
        rw [hrem, h5, hz, List.drop_eq_nil_of_le]
        · rfl
        · rw [List.length_take]
          omega

/-- From a position on a value, `roaring_advance_uint32_iterator` delivers that
value and moves on. -/
theorem roaring_advance_uint32_iterator_spec (rb : roaring_bitmap_t container_t)
    (hv : iterator_valid rb) (it : roaring_uint32_iterator_t) (hp : it.parent = rb)
    (hpos : iterator_positioned it) : iterator_step rb it := by
  cases hc : it.container with
  | bitset b => exact roaring_advance_uint32_iterator_bitset rb hv it hp hpos b hc
  | array a => exact roaring_advance_uint32_iterator_array rb hv it hp hpos a hc
  | run r => exact roaring_advance_uint32_iterator_run rb hv it hp hpos r hc
  | shared c =>
    obtain ⟨_, _, e, _, _, _, hm⟩ := hpos
    rw [hc] at hm
    exact hm.elim

/-- Once all values are delivered, `roaring_advance_uint32_iterator` returns
false and leaves the iterator as it is. -/
theorem roaring_advance_uint32_iterator_done (it : roaring_uint32_iterator_t)
    (h : iterator_done it) : roaring_advance_uint32_iterator it = some (false, it) := by
  obtain ⟨h1, h2, h3⟩ := h
  cases it with
  | mk parent ci ici ri cur has cont hb =>
  simp only at h1 h2 h3
  subst h1 h2
  unfold roaring_advance_uint32_iterator
  by_cases hge : ci ≥ (parent.high_low_container.length : Int)
  · simp only [hge, if_true]
  · rcases h3 with h3 | ⟨h3, r, hr⟩
    · exact absurd h3 hge
    · subst hr
      have hlt : ¬ ci < 0 := by omega
      simp only [hge, hlt, if_false, if_true]

theorem iterator_remaining_done (it : roaring_uint32_iterator_t) (h : iterator_done it) :
    iterator_remaining it = [] := by
  unfold iterator_remaining
  rw [h.1]
  rfl

/-- A new iterator stands on the first element, or is done on the empty
bitmap. -/
theorem roaring_init_iterator_spec (rb : roaring_bitmap_t container_t)
    (hv : iterator_valid rb) (newit : roaring_uint32_iterator_t) :
    ∃ it, roaring_init_iterator rb newit = some it ∧ it.parent = rb
      ∧ (iterator_positioned it ∨ iterator_done it)
      ∧ iterator_remaining it = roaring_elements rb
      ∧ (rb.high_low_container = [] → it.has_value = false) := by
  unfold roaring_init_iterator
  cases hl : rb.high_low_container with
  | nil =>
    have hge : ((({ newit with parent := rb, container_index := 0 } :
        roaring_uint32_iterator_t).parent.high_low_container.length : Nat) : Int)
        ≤ ({ newit with parent := rb, container_index := 0 } :
          roaring_uint32_iterator_t).container_index := by
      simp only [hl, List.length_nil]
      rfl
    simp only [loadfirstvalue_done _ hge]
    refine ⟨_, rfl, rfl, Or.inr ⟨rfl, rfl, Or.inl ?_⟩, ?_, fun _ => rfl⟩
    · simp only [hl, List.length_nil]
      rfl
    · unfold iterator_remaining roaring_elements
      rw [hl]
      rfl
  | cons e t =>
    have hmem : e ∈ rb.high_low_container := by
      rw [hl]
      exact List.mem_cons_self _ _
    obtain ⟨it', h1, h2, h3, h4, h5, h6⟩ := loadfirstvalue_spec
      { newit with parent := rb, container_index := 0 } e (Int.le_refl _)
      (by simp [hl]) (hv.2.1 e hmem)
      (hv.2.2 e hmem)
    simp only at h2 h3
    simp only [h1]
    rw [iterator_with_has_value it' true h4.1]
    refine ⟨it', rfl, h2, Or.inl h4, ?_, fun h => by simp at h⟩
    unfold iterator_remaining roaring_elements
    rw [if_pos h4.1, h5, h6, h2, h3, hl]
    rfl

/-- With enough fuel the loop over the iterator ends and has seen the values
that the iterator had still to deliver. -/
theorem iterator_values_spec (rb : roaring_bitmap_t container_t) (hv : iterator_valid rb)
    (fuel : Nat) (it : roaring_uint32_iterator_t) (hp : it.parent = rb)
    (h : iterator_positioned it ∨ iterator_done it)
    (hf : (iterator_remaining it).length < fuel) :
    iterator_values fuel it = some (iterator_remaining it) := by
  induction fuel generalizing it with
  | zero => omega
  | succ fuel ih =>
    rw [iterator_values]
    rcases h with h | h
    · obtain ⟨b, it', h1, h2, h3, h4, h5⟩ := roaring_advance_uint32_iterator_spec rb hv it hp h
      rw [if_pos h.1, h1]
      simp only
      have h6 : iterator_positioned it' ∨ iterator_done it' := by
        rcases h4 with h4 | h4
        · exact Or.inl h4.2
        · exact Or.inr h4.2
      rw [h5, List.length_cons] at hf
      rw [ih it' h2 h6 (by omega), h5]
      rfl
    · rw [if_neg (by rw [h.1]; exact Bool.false_ne_true), iterator_remaining_done it h]

/-- The iterator after `k` steps has the elements from the `k`-th on still to
deliver. -/
theorem iterator_after_spec (rb : roaring_bitmap_t container_t) (hv : iterator_valid rb)
    (newit : roaring_uint32_iterator_t) (k : Nat) :
    ∃ it, iterator_after rb newit k = some it ∧ it.parent = rb
      ∧ (iterator_positioned it ∨ iterator_done it)
      ∧ iterator_remaining it = (roaring_elements rb).drop k := by
  induction k with
  | zero =>
    obtain ⟨it, h1, h2, h3, h4, _⟩ := roaring_init_iterator_spec rb hv newit
    exact ⟨it, h1, h2, h3, by rw [h4, List.drop_zero]⟩
  | succ k ih =>
    obtain ⟨it, h1, h2, h3, h4⟩ := ih
    rw [iterator_after, h1]
    simp only
    rcases h3 with h3 | h3
    · obtain ⟨b, it', g1, g2, g3, g4, g5⟩ :=
        roaring_advance_uint32_iterator_spec rb hv it h2 h3
      rw [g1]
      refine ⟨it', rfl, g2, ?_, ?_⟩
      · rcases g4 with g4 | g4
        · exact Or.inl g4.2
        · exact Or.inr g4.2
      · rw [← List.drop_drop, ← h4, g5]
        rfl
    · rw [roaring_advance_uint32_iterator_done it h3]
      refine ⟨it, rfl, h2, Or.inr h3, ?_⟩
      rw [← List.drop_drop, ← h4, iterator_remaining_done it h3]
      rfl

/-! ## Iterator: the elements of a bitmap -/

theorem mem_container_elements_of_valid (c : container_t) (h : container_valid c) (x : Nat) :
    x ∈ container_elements c ↔ x < 65536 ∧ container_contains c x = true := by
  cases c with
  | bitset b =>
    simp only [container_elements, container_contains, bitset_container_contains, bits_from,
      List.mem_filter, List.mem_range'_1]
    constructor
    · rintro ⟨h1, h2⟩
      exact ⟨by omega, h2⟩
    · rintro ⟨h1, h2⟩
      exact ⟨by omega, h2⟩
  | array a =>
    simp only [container_elements, container_contains, array_container_contains_iff]
    exact ⟨fun hx => ⟨h.1.2.2 x hx, hx⟩, fun hx => hx.2⟩
  | run r =>
    obtain ⟨h1, h2, h3, h4⟩ := h
    simp only [container_elements, container_contains, run_container_contains,
      List.mem_flatMap, List.mem_range'_1, List.any_eq_true, decide_eq_true_eq]
    constructor
    · rintro ⟨rle, hr, g1, g2⟩
      have := h4 rle hr
      exact ⟨by omega, rle, hr, g1, by omega⟩
    · rintro ⟨_, rle, hr, g1, g2⟩
      exact ⟨rle, hr, g1, by omega⟩
  | shared c => exact h.elim

theorem mem_container_elements (c : container_t)
    (h : container_valid (container_unwrap_shared c)) (x : Nat) :
    x ∈ container_elements c ↔ x < 65536 ∧ container_contains c x = true := by
  cases c with
  | shared c => exact mem_container_elements_of_valid c h x
  | bitset b => exact mem_container_elements_of_valid _ h x
  | array a => exact mem_container_elements_of_valid _ h x
  | run r => exact mem_container_elements_of_valid _ h x

theorem container_elements_sorted_of_valid (c : container_t) (h : container_valid c) :
    (container_elements c).Pairwise (fun x y => x < y) := by
  cases c with
  | bitset b =>
    simp only [container_elements, bits_from]
    exact List.Pairwise.filter _ (List.pairwise_lt_range' _ _)
  | array a => exact h.1.2.1
  | run r =>
    obtain ⟨h1, h2, h3, h4⟩ := h
    simp only [container_elements]
    rw [List.pairwise_flatMap]
    refine ⟨fun rle _ => List.pairwise_lt_range' _ _, h3.imp ?_⟩
    intro a b hab x hx y hy
    rw [List.mem_range'_1] at hx hy
    omega
  | shared c => exact h.elim

theorem container_elements_sorted (c : container_t)
    (h : container_valid (container_unwrap_shared c)) :
    (container_elements c).Pairwise (fun x y => x < y) := by
  cases c with
  | shared c => exact container_elements_sorted_of_valid c h
  | bitset b => exact container_elements_sorted_of_valid _ h
  | array a => exact container_elements_sorted_of_valid _ h
  | run r => exact container_elements_sorted_of_valid _ h

theorem mem_entry_elements (e : Nat × container_t)
    (h : container_valid (container_unwrap_shared e.2)) (v : Nat) :
    v ∈ entry_elements e
      ↔ e.1 = v / 65536 ∧ container_contains e.2 (v % 65536) = true := by
  unfold entry_elements
  rw [List.mem_map]
  constructor
  · rintro ⟨x, hx, rfl⟩
    rw [mem_container_elements e.2 h] at hx
    have e1 : (e.1 * 65536 + x) / 65536 = e.1 := by omega
    have e2 : (e.1 * 65536 + x) % 65536 = x := by omega
    rw [e1, e2]
    exact ⟨rfl, hx.2⟩
  · rintro ⟨h1, h2⟩
    refine ⟨v % 65536, (mem_container_elements e.2 h _).2 ⟨Nat.mod_lt _ (by decide), h2⟩, ?_⟩
    rw [h1]
    omega

/-- The elements of a valid bitmap are the values held by its containers. -/
theorem mem_roaring_elements (rb : roaring_bitmap_t container_t) (hv : iterator_valid rb)
    (v : Nat) :
    v ∈ roaring_elements rb
      ↔ ∃ e ∈ rb.high_low_container,
          e.1 = v / 65536 ∧ container_contains e.2 (v % 65536) = true := by
  unfold roaring_elements
  rw [List.mem_flatMap]
  constructor
  · rintro ⟨e, he, h⟩
    exact ⟨e, he, (mem_entry_elements e (hv.2.2 e he) v).1 h⟩
  · rintro ⟨e, he, h⟩
    exact ⟨e, he, (mem_entry_elements e (hv.2.2 e he) v).2 h⟩

theorem roaring_elements_lt (rb : roaring_bitmap_t container_t) (hv : iterator_valid rb)
    (v : Nat) (h : v ∈ roaring_elements rb) : v < 2 ^ 32 := by
  obtain ⟨e, he, h1, _⟩ := (mem_roaring_elements rb hv v).1 h
  have := hv.2.1 e he
  simp only [Nat.reducePow]
  omega

theorem entry_elements_pairwise (L : List (Nat × container_t))
    (hs : L.Pairwise (fun a b => a.1 < b.1))
    (hval : ∀ e ∈ L, container_valid (container_unwrap_shared e.2)) :
    L.Pairwise (fun a b => ∀ x ∈ entry_elements a, ∀ y ∈ entry_elements b, x < y) := by
  induction hs with
  | nil => exact List.Pairwise.nil
  | @cons a l ha _ ih =>
    refine List.Pairwise.cons ?_ (ih (fun e he => hval e (List.mem_cons_of_mem _ he)))
    intro b hb x hx y hy
    have h1 := (mem_entry_elements a (hval a (List.mem_cons_self _ _)) x).1 hx
    have h2 := (mem_entry_elements b (hval b (List.mem_cons_of_mem _ hb)) y).1 hy
    have := ha b hb
    omega

/-- The elements of a valid bitmap are listed in strictly increasing order. -/
theorem roaring_elements_sorted (rb : roaring_bitmap_t container_t) (hv : iterator_valid rb) :
    (roaring_elements rb).Pairwise (fun x y => x < y) := by
  unfold roaring_elements
  rw [List.pairwise_flatMap]
  constructor
  · intro e he
    unfold entry_elements
    rw [List.pairwise_map]
    exact (container_elements_sorted e.2 (hv.2.2 e he)).imp (fun h => by omega)
  · exact entry_elements_pairwise _ hv.1 hv.2.2

theorem hamming_pos (w : Nat) (b : Nat) (hb : b < 64) (h : w.testBit b = true) :
    1 ≤ hamming w := by
  unfold hamming
  exact List.countP_pos_iff.2 ⟨b, List.mem_range.2 hb, h⟩

theorem example_iterator_bitmap_valid : iterator_valid example_iterator_bitmap := by
  refine ⟨by simp [example_iterator_bitmap, keys_sorted],
    by simp [example_iterator_bitmap], ?_⟩
  intro e he
  simp only [example_iterator_bitmap, List.mem_cons, List.mem_singleton, List.not_mem_nil,
    or_false] at he
  rcases he with rfl | rfl | rfl
  · simp [container_valid, array_container_valid, container_unwrap_shared]
  · refine ⟨?_, ?_, Or.inl rfl, ?_⟩
    · simp only [example_bitset_words, List.length_cons, List.length_replicate]
      rfl
    · intro w hw
      simp only [example_bitset_words, List.mem_cons, List.mem_replicate] at hw
      rcases hw with rfl | ⟨_, rfl⟩
      · decide
      · decide
    · unfold bitset_container_compute_cardinality
      simp only [example_bitset_words, List.map_cons, List.sum_cons]
      exact Nat.le_trans (hamming_pos 5 0 (by decide) (by decide)) (Nat.le_add_right _ _)
  · simp [container_valid, container_unwrap_shared]

/-- C28: for a valid bitmap, `roaring_init_iterator` followed by calls of
`roaring_advance_uint32_iterator` as long as `has_value` holds comes to an end
and delivers as successive `current_value` a strictly increasing list whose
members are exactly the elements of the bitmap, whatever the types of the
containers (array, bitset, run, shared); on the empty bitmap `has_value` is
false right after `roaring_init_iterator`. -/
theorem roaring_iterator_sorted_enumeration (rb : roaring_bitmap_t container_t)
    (hv : iterator_valid rb) (newit : roaring_uint32_iterator_t) :
    ∃ it vals, roaring_init_iterator rb newit = some it
      ∧ (rb.high_low_container = [] → it.has_value = false)
      ∧ (∀ fuel, vals.length < fuel → iterator_values fuel it = some vals)
      ∧ vals.Pairwise (fun x y => x < y)
      ∧ ∀ v, v ∈ vals ↔ ∃ e ∈ rb.high_low_container,
          e.1 = v / 65536 ∧ container_contains e.2 (v % 65536) = true := by
  obtain ⟨it, h1, h2, h3, h4, h5⟩ := roaring_init_iterator_spec rb hv newit
  refine ⟨it, roaring_elements rb, h1, h5, ?_, roaring_elements_sorted rb hv,
    mem_roaring_elements rb hv⟩
  intro fuel hf
  rw [← h4] at hf ⊢
  exact iterator_values_spec rb hv fuel it h2 h3 hf

theorem roaring_iterator_sorted_enumeration_witness :
    iterator_valid example_iterator_bitmap
    ∧ ∃ it vals, roaring_init_iterator example_iterator_bitmap
          ⟨⟨[]⟩, 7, 7, 7, 7, false, .array ⟨0, 0, []⟩, 7⟩ = some it
      ∧ (example_iterator_bitmap.high_low_container = [] → it.has_value = false)
      ∧ (∀ fuel, vals.length < fuel → iterator_values fuel it = some vals)
      ∧ vals.Pairwise (fun x y => x < y)
      ∧ ∀ v, v ∈ vals ↔ ∃ e ∈ example_iterator_bitmap.high_low_container,
          e.1 = v / 65536 ∧ container_contains e.2 (v % 65536) = true :=
  ⟨example_iterator_bitmap_valid,
    roaring_iterator_sorted_enumeration example_iterator_bitmap example_iterator_bitmap_valid _⟩

/-- C29: for a valid bitmap that contains `UINT32_MAX`, whatever the type of
its last container, the iterator reaches `current_value = UINT32_MAX`; and in
every state reached from `roaring_init_iterator` by calls of
`roaring_advance_uint32_iterator` in which `current_value` is `UINT32_MAX`,
the next call returns false and leaves `has_value = false` and
`current_value = UINT32_MAX`: the value does not wrap. -/
theorem roaring_advance_uint32_iterator_max (rb : roaring_bitmap_t container_t)
    (hv : iterator_valid rb) (newit : roaring_uint32_iterator_t)
    (hmax : ∃ e ∈ rb.high_low_container,
      e.1 = 65535 ∧ container_contains e.2 65535 = true) :
    (∃ k it, iterator_after rb newit k = some it ∧ it.has_value = true
      ∧ it.current_value = UINT32_MAX)
    ∧ ∀ k it, iterator_after rb newit k = some it → it.current_value = UINT32_MAX →
        ∃ it', roaring_advance_uint32_iterator it = some (false, it')
          ∧ it'.has_value = false ∧ it'.current_value = UINT32_MAX := by
  constructor
  · have hmem : UINT32_MAX ∈ roaring_elements rb := by
      rw [mem_roaring_elements rb hv]
      exact hmax
    obtain ⟨k, hk⟩ := List.mem_iff_getElem?.1 hmem
    obtain ⟨hk1, hk2⟩ := List.getElem?_eq_some.1 hk
    obtain ⟨it, h1, h2, h3, h4⟩ := iterator_after_spec rb hv newit k
    rw [List.drop_eq_getElem_cons hk1, hk2] at h4
    rcases h3 with h3 | h3
    · obtain ⟨b, it', g1, g2, g3, g4, g5⟩ :=
        roaring_advance_uint32_iterator_spec rb hv it h2 h3
      rw [h4] at g5
      exact ⟨k, it, h1, h3.1, (List.cons.inj g5).1.symm⟩
    · rw [iterator_remaining_done it h3] at h4
      exact absurd h4 (by simp)
  · intro k it hk hcur
    obtain ⟨it0, h1, h2, h3, h4⟩ := iterator_after_spec rb hv newit k
    rw [hk] at h1
    cases Option.some.inj h1
    rcases h3 with h3 | h3
    · obtain ⟨b, it', g1, g2, g3, g4, g5⟩ :=
        roaring_advance_uint32_iterator_spec rb hv it h2 h3
      rcases g4 with ⟨rfl, g4⟩ | ⟨rfl, g4⟩
      · exfalso
        obtain ⟨b2, it2, f1, f2, f3, f4, f5⟩ :=
          roaring_advance_uint32_iterator_spec rb hv it' g2 g4
        rw [f5, h4] at g5
        have hsub : ((roaring_elements rb).drop k).Pairwise (fun x y => x < y) :=
          (roaring_elements_sorted rb hv).sublist (List.drop_sublist _ _)
        rw [g5] at hsub
        have hlt := List.rel_of_pairwise_cons hsub (List.mem_cons_self _ _)
        have hin : it'.current_value ∈ roaring_elements rb := by
          apply List.mem_of_mem_drop (n := k)
          rw [g5]
          exact List.mem_cons_of_mem _ (List.mem_cons_self _ _)
        have hb := roaring_elements_lt rb hv _ hin
        rw [hcur] at hlt
        have : UINT32_MAX = 4294967295 := rfl
        simp only [Nat.reducePow] at hb
        omega
      · exact ⟨it', g1, g4.1, g4.2.1⟩
    · exact ⟨it, roaring_advance_uint32_iterator_done it h3, h3.1, hcur⟩

theorem roaring_advance_uint32_iterator_max_witness :
    iterator_valid example_iterator_bitmap
    ∧ (∃ e ∈ example_iterator_bitmap.high_low_container,
        e.1 = 65535 ∧ container_contains e.2 65535 = true)
    ∧ ∃ k it, iterator_after example_iterator_bitmap
          ⟨⟨[]⟩, 7, 7, 7, 7, false, .array ⟨0, 0, []⟩, 7⟩ k = some it
        ∧ it.has_value = true ∧ it.current_value = UINT32_MAX :=
  ⟨example_iterator_bitmap_valid,
    ⟨(65535, .shared (.run ⟨1, 1, [⟨65530, 5⟩]⟩)), by simp [example_iterator_bitmap],
      rfl, by decide⟩,
    (roaring_advance_uint32_iterator_max example_iterator_bitmap example_iterator_bitmap_valid _
      ⟨(65535, .shared (.run ⟨1, 1, [⟨65530, 5⟩]⟩)), by simp [example_iterator_bitmap],
        rfl, by decide⟩).1⟩

/-! ## Safety of `roaring_bitmap_contains_range` and of the frozen format, termination of
`roaring_bitmap_from_range` -/

/-- C37 (evaluation at the failing input): on the valid bitmap `{0, 131071}`
with the range `[131071, 131073)` the call of `roaring_bitmap_contains_range`
reaches `assert(ie < hlc_sz)` with `ie = hlc_sz = 2`: the key 2 of the last
value is absent and larger than every key, so `ie` is the insertion point
`size`, and the directory is read out of bounds. -/
theorem roaring_bitmap_contains_range_assert_fails :
    valid set_container_ops last_key_bitmap
    ∧ ra_get_size last_key_bitmap.high_low_container = 2
    ∧ -ra_get_index last_key_bitmap.high_low_container (((131073 - 1) / 65536) % 65536) - 1 = 2
    ∧ roaring_bitmap_contains_range set_container_ops last_key_bitmap 131071 131073 = none := by
  refine ⟨⟨?_, ?_, ?_⟩, by decide, by decide, by decide⟩
  · simp [last_key_bitmap, keys_sorted]
  · simp [last_key_bitmap]
  · intro e he
    simp only [last_key_bitmap, List.mem_cons, List.mem_singleton, List.not_mem_nil,
      or_false] at he
    rcases he with he | he
    · exact ⟨0, by decide, by rw [he]; rfl⟩
    · exact ⟨65535, by decide, by rw [he]; rfl⟩

theorem roaring_bitmap_frozen_size_in_bytes_loop_none (ra : roaring_array_t container_t)
    (num_bytes : Nat) :
    roaring_bitmap_frozen_size_in_bytes_loop ra num_bytes = none
      ↔ ∃ e ∈ ra, ∃ c, e.2 = container_t.shared c := by
  induction ra generalizing num_bytes with
  | nil => simp [roaring_bitmap_frozen_size_in_bytes_loop]
  | cons e t ih =>
    rw [roaring_bitmap_frozen_size_in_bytes_loop]
    cases h : e.2 with
    | shared c => simp [h]
    | bitset b => simp [h, ih]
    | array a => simp [h, ih]
    | run r => simp [h, ih]

theorem roaring_bitmap_frozen_serialize_sizes_none (ra : roaring_array_t container_t)
    (b r a : Nat) :
    roaring_bitmap_frozen_serialize_sizes ra b r a = none
      ↔ ∃ e ∈ ra, ∃ c, e.2 = container_t.shared c := by
  induction ra generalizing b r a with
  | nil => simp [roaring_bitmap_frozen_serialize_sizes]
  | cons e t ih =>
    rw [roaring_bitmap_frozen_serialize_sizes]
    cases h : e.2 with
    | shared c => simp [h]
    | bitset b => simp [h, ih]
    | array a => simp [h, ih]
    | run r => simp [h, ih]

theorem roaring_bitmap_frozen_serialize_loop_none (count_zone : Nat)
    (ra : roaring_array_t container_t) (i b r a : Nat) (mem : Nat → Nat) :
    roaring_bitmap_frozen_serialize_loop count_zone ra i b r a mem = none
      ↔ ∃ e ∈ ra, ∃ c, e.2 = container_t.shared c := by
  induction ra generalizing i b r a mem with
  | nil => simp [roaring_bitmap_frozen_serialize_loop]
  | cons e t ih =>
    rw [roaring_bitmap_frozen_serialize_loop]
    cases h : e.2 with
    | shared c => simp [h]
    | bitset b => simp [h, ih]
    | array a => simp [h, ih]
    | run r => simp [h, ih]

/-- C38: `roaring_bitmap_frozen_size_in_bytes` and
`roaring_bitmap_frozen_serialize` reach the `default:` branch
`__builtin_unreachable()` of their typecode switches exactly when some
directory slot carries the SHARED typecode; the valid bitmap
`example_iterator_bitmap`, whose last slot is shared, is such an input. -/
theorem roaring_bitmap_frozen_unreachable_iff (rb : roaring_bitmap_t container_t)
    (mem : Nat → Nat) :
    (roaring_bitmap_frozen_size_in_bytes rb = none
      ↔ ∃ e ∈ rb.high_low_container, e.2.typecode = SHARED_CONTAINER_TYPE_CODE)
    ∧ (roaring_bitmap_frozen_serialize rb mem = none
      ↔ ∃ e ∈ rb.high_low_container, e.2.typecode = SHARED_CONTAINER_TYPE_CODE)
    ∧ iterator_valid example_iterator_bitmap
    ∧ roaring_bitmap_frozen_size_in_bytes example_iterator_bitmap = none
    ∧ roaring_bitmap_frozen_serialize example_iterator_bitmap mem = none := by
  have hsh : ∀ ra : roaring_array_t container_t,
      (∃ e ∈ ra, ∃ c, e.2 = container_t.shared c)
        ↔ ∃ e ∈ ra, e.2.typecode = SHARED_CONTAINER_TYPE_CODE := by
    intro ra
    constructor
    · rintro ⟨e, he, c, hc⟩
      exact ⟨e, he, by rw [hc]; rfl⟩
    · rintro ⟨e, he, ht⟩
      refine ⟨e, he, ?_⟩
      cases hc : e.2 with
      | shared c => exact ⟨c, rfl⟩
      | bitset b =>
        rw [hc] at ht
        simp [container_t.typecode, SHARED_CONTAINER_TYPE_CODE, BITSET_CONTAINER_TYPE_CODE,
          ARRAY_CONTAINER_TYPE_CODE, RUN_CONTAINER_TYPE_CODE] at ht
      | array a =>
        rw [hc] at ht
        simp [container_t.typecode, SHARED_CONTAINER_TYPE_CODE, BITSET_CONTAINER_TYPE_CODE,
          ARRAY_CONTAINER_TYPE_CODE, RUN_CONTAINER_TYPE_CODE] at ht
      | run r =>
        rw [hc] at ht
        simp [container_t.typecode, SHARED_CONTAINER_TYPE_CODE, BITSET_CONTAINER_TYPE_CODE,
          ARRAY_CONTAINER_TYPE_CODE, RUN_CONTAINER_TYPE_CODE] at ht
  have h1 : ∀ rb : roaring_bitmap_t container_t, roaring_bitmap_frozen_size_in_bytes rb = none
      ↔ ∃ e ∈ rb.high_low_container, e.2.typecode = SHARED_CONTAINER_TYPE_CODE := by
    intro rb
    rw [← hsh, ← roaring_bitmap_frozen_size_in_bytes_loop_none rb.high_low_container 0]
    unfold roaring_bitmap_frozen_size_in_bytes
    cases roaring_bitmap_frozen_size_in_bytes_loop rb.high_low_container 0 <;> simp
  have h2 : ∀ rb : roaring_bitmap_t container_t, roaring_bitmap_frozen_serialize rb mem = none
      ↔ ∃ e ∈ rb.high_low_container, e.2.typecode = SHARED_CONTAINER_TYPE_CODE := by
    intro rb
    rw [← hsh]
    unfold roaring_bitmap_frozen_serialize
    simp only
    cases hs : roaring_bitmap_frozen_serialize_sizes rb.high_low_container 0 0 0 with
    | none =>
      simp only [true_iff]
      exact (roaring_bitmap_frozen_serialize_sizes_none _ 0 0 0).1 hs
    | some s =>
      obtain ⟨b, r, a⟩ := s
      simp only
      cases hl : roaring_bitmap_frozen_serialize_loop
          (0 + b + r + a + 2 * rb.high_low_container.length) rb.high_low_container 0 0 (0 + b)
          (0 + b + r) mem with
      | none =>
        simp only [true_iff]
        exact (roaring_bitmap_frozen_serialize_loop_none _ _ _ _ _ _ _).1 hl
      | some m =>
        constructor
        · intro h
          exact absurd h (by simp)
        · intro hex
          have := (roaring_bitmap_frozen_serialize_sizes_none rb.high_low_container 0 0 0).2 hex
          rw [hs] at this
          exact absurd this (by simp)
  have hex : ∃ e ∈ example_iterator_bitmap.high_low_container,
      e.2.typecode = SHARED_CONTAINER_TYPE_CODE :=
    ⟨(65535, .shared (.run ⟨1, 1, [⟨65530, 5⟩]⟩)), by simp [example_iterator_bitmap], rfl⟩
  exact ⟨h1 rb, h2 rb, example_iterator_bitmap_valid, (h1 _).2 hex, (h2 _).2 hex⟩

/-- C39: on the branch `step < 2^16` the call of `roaring_bitmap_from_range`
returns within 65536 passes of the `do ... while` loop; on the branch
`step >= 2^16` with a bound `max >= 2^32` it does not return, whatever the
number of loop tests allowed: the 32-bit counter `value` is below the 64-bit
bound `2^32` at every test of the `for` loop. -/
theorem roaring_bitmap_from_range_termination (ops : ContainerOps C)
    (hfr : container_from_range_spec ops) (min max step : Nat) :
    (0 < step → step < 65536 → min < (if max ≥ 0x100000000 then 0x100000000 else max) →
      ∃ b, roaring_bitmap_from_range ops 65536 min max step = some (some b))
    ∧ (65536 ≤ step → min < 0x100000000 → 0x100000000 ≤ max →
      ∀ fuel, roaring_bitmap_from_range ops fuel min max step = none) := by
  constructor
  · intro hs hs2 hlt
    obtain ⟨M, hMdef⟩ : ∃ M, M = (if max ≥ 0x100000000 then 0x100000000 else max) := ⟨_, rfl⟩
    have hM : M ≤ 2 ^ 32 := by
      rw [hMdef]
      simp only [Nat.reducePow]
      split <;> omega
    rw [← hMdef] at hlt
    obtain ⟨b, hb, _⟩ := roaring_bitmap_from_range_do_spec ops hfr min M step hs hs2 hM 65536
      (roaring_bitmap_create : roaring_bitmap_t C) min (Nat.le_refl _) hlt (by simp)
      ⟨List.Pairwise.nil, fun e he => absurd he (List.not_mem_nil _),
        fun e he => absurd he (List.not_mem_nil _)⟩
      (fun e he => absurd he (List.not_mem_nil _))
      (by
        intro hb lb _
        unfold in_progression
        constructor
        · rintro ⟨c, hc, _⟩
          exact absurd hc (List.not_mem_nil _)
        · rintro ⟨g1, g2, _⟩
          omega)
      (by omega)
    refine ⟨b, ?_⟩
    unfold roaring_bitmap_from_range
    simp only [← hMdef]
    rw [if_neg (by omega), if_neg (by omega), if_neg (by omega), hb]
    rfl
  · intro hs hmin hmax fuel
    unfold roaring_bitmap_from_range
    simp only [ge_iff_le, hmax, if_true]
    rw [if_neg (by omega), if_neg (by omega), if_pos hs]
    simp only [Option.map_eq_none']
    exact roaring_bitmap_from_range_for_full ops _ fuel _ _ (Nat.mod_lt _ (by decide))

theorem roaring_bitmap_from_range_termination_witness :
    container_from_range_spec set_container_ops
    ∧ (∃ b, roaring_bitmap_from_range set_container_ops 65536 3 100 7 = some (some b))
    ∧ ∀ fuel, roaring_bitmap_from_range set_container_ops fuel 5 0x100000007 0x100000 = none :=
  ⟨set_container_from_range_spec,
    (roaring_bitmap_from_range_termination set_container_ops set_container_from_range_spec
      3 100 7).1 (by decide) (by decide) (by decide),
    (roaring_bitmap_from_range_termination set_container_ops set_container_from_range_spec
      5 0x100000007 0x100000).2 (by decide) (by decide) (by decide)⟩

/-! ## In-place intersection and difference -/

theorem take_succ_set {α : Type} (l : List α) (i : Nat) (a : α) (h : i < l.length) :
    (l.set i a).take (i + 1) = l.take i ++ [a] := by
  induction l generalizing i with
  | nil => simp at h
  | cons b t ih =>
    cases i with
    | zero => simp
    | succ i =>
      simp only [List.length_cons, Nat.add_lt_add_iff_right] at h
      simp [ih i h]

theorem drop_set_of_lt {α : Type} (l : List α) (i n : Nat) (a : α) (h : i < n) :
    (l.set i a).drop n = l.drop n := by
  induction l generalizing i n with
  | nil => simp
  | cons b t ih =>
    cases n with
    | zero => omega
    | succ n =>
      cases i with
      | zero => simp
      | succ i => simp [ih i n (by omega)]

/-- The loop of `roaring_bitmap_and_inplace` leaves in the first
`intersection_size` slots what it found there followed by the two-cursor
intersection of the unread parts, computed with `container_iand`. -/
theorem roaring_bitmap_and_inplace_loop_eq (ops : ContainerOps C) (x2 x1 : roaring_array_t C)
    (pos1 pos2 intersection_size : Nat) (hle : intersection_size ≤ pos1)
    (hp : pos1 ≤ x1.length) :
    ra_downsize (roaring_bitmap_and_inplace_loop ops x2 x1 pos1 pos2 intersection_size).1
        (roaring_bitmap_and_inplace_loop ops x2 x1 pos1 pos2 intersection_size).2
      = x1.take intersection_size
        ++ and_merge (inplace_ops ops) (x1.drop pos1) (x2.drop pos2) := by
  induction x1, pos1, pos2, intersection_size
    using roaring_bitmap_and_inplace_loop.induct ops x2 with
  | case1 x1 pos1 pos2 isz h s1 s2 hs c hc ih =>
    rw [roaring_bitmap_and_inplace_loop, dif_pos h]
    simp only [s1, s2] at hs
    simp only [c] at hc
    simp only [hs, if_true, hc]
    simp only [s1, s2, c, hs] at ih
    have hlen : (ra_replace_key_and_container_at_index x1 isz (x2[pos2]).1
        (ops.container_iand (x1[pos1]).2 (x2[pos2]).2)).length = x1.length := by
      simp [ra_replace_key_and_container_at_index]
    rw [ih (by omega) (by rw [hlen]; omega), List.drop_eq_getElem_cons h.1,
      List.drop_eq_getElem_cons h.2, and_merge]
    simp only [ra_replace_key_and_container_at_index]
    rw [take_succ_set _ _ _ (by omega), drop_set_of_lt _ _ _ _ (by omega)]
    simp [hs, hc, inplace_ops]
  | case2 x1 pos1 pos2 isz h s1 s2 hs c hc ih =>
    rw [roaring_bitmap_and_inplace_loop, dif_pos h]
    simp only [s1, s2] at hs
    simp only [c] at hc
    simp only [hs, if_true, hc, Bool.false_eq_true, if_false]
    rw [ih (by omega) (by omega), List.drop_eq_getElem_cons h.1,
      List.drop_eq_getElem_cons h.2, and_merge]
    simp [hs, hc, inplace_ops]
  | case3 x1 pos1 pos2 isz h s1 s2 hne hlt ih =>
    rw [roaring_bitmap_and_inplace_loop, dif_pos h]
    simp only [s1, s2] at hne hlt ih
    simp only [hne, if_false, hlt, dif_pos]
    have hge : pos1 ≤ ra_advance_until_freeing x1 (x2[pos2]).1 pos1 := by
      unfold ra_advance_until_freeing ra_advance_until
      omega
    rw [ih (by omega) (ra_advance_until_le x1 _ pos1 hp)]
    unfold ra_advance_until_freeing
    rw [drop_advance_until, List.drop_eq_getElem_cons h.2, and_merge_dropWhile_left]
  | case4 x1 pos1 pos2 isz h s1 s2 hne hlt ih =>
    rw [roaring_bitmap_and_inplace_loop, dif_pos h]
    simp only [s1, s2] at hne hlt ih
    simp only [hne, if_false, hlt, dif_neg, not_false_eq_true]
    rw [ih hle hp, drop_advance_until, List.drop_eq_getElem_cons h.1,
      and_merge_dropWhile_right]
  | case5 x1 pos1 pos2 isz h =>
    rw [roaring_bitmap_and_inplace_loop, dif_neg h]
    rw [not_and_or] at h
    simp only [ra_downsize]
    rcases h with h | h
    · rw [List.drop_eq_nil_of_le (by omega)]
      simp [and_merge]
    · rw [List.drop_eq_nil_of_le (Nat.le_of_not_lt h), and_merge_nil_right]
      simp

theorem nonzero_cardinality_congr (ops : ContainerOps C) (hnz : nonzero_cardinality_spec ops)
    (c c' : C)
    (h : ∀ v, v < 65536 → ops.container_contains c v = ops.container_contains c' v) :
    ops.container_nonzero_cardinality c = ops.container_nonzero_cardinality c' := by
  have e : container_nonempty ops c ↔ container_nonempty ops c' := by
    constructor
    · rintro ⟨v, hv, hc⟩
      exact ⟨v, hv, by rw [← h v hv]; exact hc⟩
    · rintro ⟨v, hv, hc⟩
      exact ⟨v, hv, by rw [h v hv]; exact hc⟩
  have := (hnz c).trans (e.trans (hnz c').symm)
  cases h1 : ops.container_nonzero_cardinality c <;>
    cases h2 : ops.container_nonzero_cardinality c' <;> simp_all

theorem same_entries_refl (ops : ContainerOps C) (l : roaring_array_t C) :
    same_entries ops l l := by
  unfold same_entries
  induction l with
  | nil => exact List.Forall₂.nil
  | cons a t ih => exact List.Forall₂.cons ⟨rfl, fun _ _ => rfl⟩ ih

/-- The two-cursor intersection computed with `container_iand` has the keys
and the container contents of the one computed with `container_and`. -/
theorem and_merge_inplace_same (ops : ContainerOps C) (hnz : nonzero_cardinality_spec ops)
    (hand : container_and_spec ops) (hiand : container_iand_spec ops)
    (l1 l2 : roaring_array_t C) :
    same_entries ops (and_merge (inplace_ops ops) l1 l2) (and_merge ops l1 l2) := by
  have hcon : ∀ a b v, v < 65536 →
      ops.container_contains (ops.container_iand a b) v
        = ops.container_contains (ops.container_and a b) v := by
    intro a b v hv
    rw [hiand a b v hv, hand a b v hv]
  induction l1, l2 using and_merge.induct ops with
  | case1 l2 => simp [and_merge, same_entries]
  | case2 e1 t1 => simp [and_merge, same_entries]
  | case3 e1 t1 e2 t2 hk hc ih =>
    have hc' : ops.container_nonzero_cardinality (ops.container_iand e1.2 e2.2) = true := by
      rw [nonzero_cardinality_congr ops hnz _ _ (hcon e1.2 e2.2)]
      exact hc
    rw [and_merge, and_merge]
    simp only [hk, if_true, hc, inplace_ops, hc']
    exact List.Forall₂.cons ⟨rfl, hcon e1.2 e2.2⟩ ih
  | case4 e1 t1 e2 t2 hk hc ih =>
    have hc' : ¬ ops.container_nonzero_cardinality (ops.container_iand e1.2 e2.2) = true := by
      rw [nonzero_cardinality_congr ops hnz _ _ (hcon e1.2 e2.2)]
      exact hc
    rw [and_merge, and_merge]
    simp only [hk, if_true, hc, inplace_ops, hc', if_false]
    exact ih
  | case5 e1 t1 e2 t2 hk hlt ih =>
    rw [and_merge, and_merge]
    simp only [hk, if_false, hlt, if_true]
    exact ih
  | case6 e1 t1 e2 t2 hk hlt ih =>
    rw [and_merge, and_merge]
    simp only [hk, if_false, hlt]
    exact ih

/-- C31: given correct `container_and`, `container_iand` and
`container_nonzero_cardinality`, after `roaring_bitmap_and_inplace(x1, x2)` with
`x1 != x2` the directory of `x1` has, entry by entry, the keys and the
container contents of the directory returned by `roaring_bitmap_and(x1, x2)`
(so the survivors stand in the slots `0 .. intersection_size - 1` in key order
and the size is `intersection_size`); and `roaring_bitmap_and_inplace(x, x)`
leaves `x` as it is. -/
theorem roaring_bitmap_and_inplace_refines (ops : ContainerOps C)
    (hnz : nonzero_cardinality_spec ops) (hand : container_and_spec ops)
    (hiand : container_iand_spec ops) (x1 x2 : roaring_bitmap_t C) :
    same_entries ops (roaring_bitmap_and_inplace ops false x1 x2).high_low_container
        (roaring_bitmap_and ops x1 x2).high_low_container
    ∧ (roaring_bitmap_and_inplace ops false x1 x2).high_low_container.length
        = (roaring_bitmap_and ops x1 x2).high_low_container.length
    ∧ roaring_bitmap_and_inplace ops true x1 x1 = x1 := by
  have h := roaring_bitmap_and_inplace_loop_eq ops x2.high_low_container
    x1.high_low_container 0 0 0 (Nat.le_refl _) (Nat.zero_le _)
  simp only [List.take_zero, List.nil_append, List.drop_zero] at h
  have hs : same_entries ops (roaring_bitmap_and_inplace ops false x1 x2).high_low_container
      (roaring_bitmap_and ops x1 x2).high_low_container := by
    rw [roaring_bitmap_and_eq]
    simp only [roaring_bitmap_and_inplace, Bool.false_eq_true, if_false]
    rw [h]
    exact and_merge_inplace_same ops hnz hand hiand _ _
  exact ⟨hs, List.Forall₂.length_eq hs, rfl⟩

theorem take_copy_range (x1 : roaring_array_t C) (pos1 isz : Nat) (h1 : isz ≤ pos1)
    (h2 : pos1 ≤ x1.length) :
    (ra_copy_range x1 pos1 x1.length isz).take (isz + (x1.length - pos1))
      = x1.take isz ++ x1.drop pos1 := by
  unfold ra_copy_range
  rw [List.take_length]
  apply List.take_left'
  rw [List.length_append, List.length_take, List.length_drop]
  omega

/-- The loop of `roaring_bitmap_andnot_inplace` followed by the left slide of
the remaining tail leaves what stood in the first `intersection_size` slots
followed by the two-cursor difference of the unread parts, computed with
`container_iandnot`. -/
theorem roaring_bitmap_andnot_inplace_loop_eq (ops : ContainerOps C)
    (x2 x1 : roaring_array_t C) (pos1 pos2 intersection_size : Nat)
    (hle : intersection_size ≤ pos1) (hp : pos1 ≤ x1.length) :
    (if (roaring_bitmap_andnot_inplace_loop ops x2 x1 pos1 pos2 intersection_size).2.1
          < x1.length then
        ra_downsize
          (if (roaring_bitmap_andnot_inplace_loop ops x2 x1 pos1 pos2 intersection_size).2.1
              > (roaring_bitmap_andnot_inplace_loop ops x2 x1 pos1 pos2
                  intersection_size).2.2.2 then
            ra_copy_range
              (roaring_bitmap_andnot_inplace_loop ops x2 x1 pos1 pos2 intersection_size).1
              (roaring_bitmap_andnot_inplace_loop ops x2 x1 pos1 pos2 intersection_size).2.1
              x1.length
              (roaring_bitmap_andnot_inplace_loop ops x2 x1 pos1 pos2
                intersection_size).2.2.2
          else (roaring_bitmap_andnot_inplace_loop ops x2 x1 pos1 pos2 intersection_size).1)
          ((roaring_bitmap_andnot_inplace_loop ops x2 x1 pos1 pos2 intersection_size).2.2.2
            + (x1.length
              - (roaring_bitmap_andnot_inplace_loop ops x2 x1 pos1 pos2
                  intersection_size).2.1))
      else
        ra_downsize
          (roaring_bitmap_andnot_inplace_loop ops x2 x1 pos1 pos2 intersection_size).1
          (roaring_bitmap_andnot_inplace_loop ops x2 x1 pos1 pos2 intersection_size).2.2.2)
      = x1.take intersection_size
        ++ andnot_merge (inplace_ops ops) (x1.drop pos1) (x2.drop pos2) := by
  induction x1, pos1, pos2, intersection_size
    using roaring_bitmap_andnot_inplace_loop.induct ops x2 with
  | case1 x1 pos1 pos2 isz h s1 s2 hs c hc ih =>
    rw [roaring_bitmap_andnot_inplace_loop, dif_pos h]
    simp only [s1, s2] at hs
    simp only [c] at hc
    simp only [hs, if_true, hc]
    simp only [s1, s2, c, hs] at ih
    have hlen : (ra_replace_key_and_container_at_index x1 isz (x2[pos2]).1
        (ops.container_iandnot (x1[pos1]).2 (x2[pos2]).2)).length = x1.length := by
      simp [ra_replace_key_and_container_at_index]
    have ih2 := ih (by omega) (by rw [hlen]; omega)
    rw [hlen] at ih2
    rw [ih2, List.drop_eq_getElem_cons h.1, List.drop_eq_getElem_cons h.2, andnot_merge]
    simp only [ra_replace_key_and_container_at_index]
    rw [take_succ_set _ _ _ (by omega), drop_set_of_lt _ _ _ _ (by omega)]
    simp [hs, hc, inplace_ops]
  | case2 x1 pos1 pos2 isz h s1 s2 hs c hc ih =>
    rw [roaring_bitmap_andnot_inplace_loop, dif_pos h]
    simp only [s1, s2] at hs
    simp only [c] at hc
    simp only [hs, if_true, hc, Bool.false_eq_true, if_false]
    rw [ih (by omega) (by omega), List.drop_eq_getElem_cons h.1,
      List.drop_eq_getElem_cons h.2, andnot_merge]
    simp [hs, hc, inplace_ops]
  | case3 x1 pos1 pos2 isz h s1 s2 hne hlt x1a ih =>
    rw [roaring_bitmap_andnot_inplace_loop, dif_pos h]
    simp only [s1, s2] at hne hlt
    simp only [hne, if_false, hlt, if_true]
    have hlen : x1a.length = x1.length := by
      simp only [x1a]
      split
      · simp [ra_replace_key_and_container_at_index]
      · rfl
    have htake : x1a.take (isz + 1) = x1.take isz ++ [x1[pos1]] := by
      simp only [x1a]
      split
      · simp only [ra_replace_key_and_container_at_index, s1]
        rw [take_succ_set _ _ _ (by omega)]
      · rename_i heq
        have heq : pos1 = isz := by omega
        subst heq
        rw [List.take_succ, List.getElem?_eq_getElem h.1]
        rfl
    have hdrop : x1a.drop (pos1 + 1) = x1.drop (pos1 + 1) := by
      simp only [x1a]
      split
      · simp only [ra_replace_key_and_container_at_index]
        rw [drop_set_of_lt _ _ _ _ (by omega)]
      · rfl
    have ih2 := ih (by omega) (by rw [hlen]; omega)
    rw [hlen, htake, hdrop] at ih2
    simp only [x1a, dite_eq_ite, s1] at ih2
    rw [ih2, List.drop_eq_getElem_cons h.1, List.drop_eq_getElem_cons h.2, andnot_merge]
    simp [hne, hlt]
  | case4 x1 pos1 pos2 isz h s1 s2 hne hlt ih =>
    rw [roaring_bitmap_andnot_inplace_loop, dif_pos h]
    simp only [s1, s2] at hne hlt ih
    simp only [hne, if_false, hlt]
    rw [ih hle hp, drop_advance_until, List.drop_eq_getElem_cons h.1,
      andnot_merge_dropWhile_right]
  | case5 x1 pos1 pos2 isz h =>
    rw [roaring_bitmap_andnot_inplace_loop, dif_neg h]
    rw [not_and_or] at h
    simp only [ra_downsize]
    by_cases h1 : pos1 < x1.length
    · have h2 : x2.length ≤ pos2 := by
        rcases h with h | h
        · exact absurd h1 h
        · omega
      rw [if_pos h1, List.drop_eq_nil_of_le h2, andnot_merge_nil_right]
      by_cases h3 : pos1 > isz
      · rw [if_pos h3]
        exact take_copy_range x1 pos1 isz hle hp
      · rw [if_neg h3]
        have heq : pos1 = isz := by omega
        subst heq
        rw [List.take_of_length_le (by omega), List.take_append_drop]
    · rw [if_neg h1, List.drop_eq_nil_of_le (by omega)]
      simp [andnot_merge]

/-- The two-cursor difference computed with `container_iandnot` has the keys
and the container contents of the one computed with `container_andnot`. -/
theorem andnot_merge_inplace_same (ops : ContainerOps C)
    (hnz : nonzero_cardinality_spec ops) (handnot : container_andnot_spec ops)
    (hiandnot : container_iandnot_spec ops) (l1 l2 : roaring_array_t C) :
    same_entries ops (andnot_merge (inplace_ops ops) l1 l2) (andnot_merge ops l1 l2) := by
  have hcon : ∀ a b v, v < 65536 →
      ops.container_contains (ops.container_iandnot a b) v
        = ops.container_contains (ops.container_andnot a b) v := by
    intro a b v hv
    rw [hiandnot a b v hv, handnot a b v hv]
  induction l1, l2 using andnot_merge.induct ops with
  | case1 l2 => simp [andnot_merge, same_entries]
  | case2 e1 t1 =>
    rw [andnot_merge, andnot_merge]
    exact same_entries_refl ops _
  | case3 e1 t1 e2 t2 hk hc ih =>
    have hc' : ops.container_nonzero_cardinality (ops.container_iandnot e1.2 e2.2) = true := by
      rw [nonzero_cardinality_congr ops hnz _ _ (hcon e1.2 e2.2)]
      exact hc
    rw [andnot_merge, andnot_merge]
    simp only [hk, if_true, hc, inplace_ops, hc']
    exact List.Forall₂.cons ⟨rfl, hcon e1.2 e2.2⟩ ih
  | case4 e1 t1 e2 t2 hk hc ih =>
    have hc' : ¬ ops.container_nonzero_cardinality (ops.container_iandnot e1.2 e2.2)
        = true := by
      rw [nonzero_cardinality_congr ops hnz _ _ (hcon e1.2 e2.2)]
      exact hc
    rw [andnot_merge, andnot_merge]
    simp only [hk, if_true, hc, inplace_ops, hc', if_false]
    exact ih
  | case5 e1 t1 e2 t2 hk hlt ih =>
    rw [andnot_merge, andnot_merge]
    simp only [hk, if_false, hlt, if_true]
    exact List.Forall₂.cons ⟨rfl, fun _ _ => rfl⟩ ih
  | case6 e1 t1 e2 t2 hk hlt ih =>
    rw [andnot_merge, andnot_merge]
    simp only [hk, if_false, hlt]
    exact ih

theorem roaring_bitmap_andnot_inplace_eq (ops : ContainerOps C) (x1 x2 : roaring_bitmap_t C) :
    (roaring_bitmap_andnot_inplace ops x1 x2).high_low_container
      = andnot_merge (inplace_ops ops) x1.high_low_container x2.high_low_container := by
  unfold roaring_bitmap_andnot_inplace
  simp only
  by_cases h2 : 0 = x2.high_low_container.length
  · rw [if_pos h2]
    have : x2.high_low_container = [] := List.length_eq_zero.1 h2.symm
    rw [this, andnot_merge_nil_right]
  · rw [if_neg h2]
    by_cases h1 : 0 = x1.high_low_container.length
    · rw [if_pos h1]
      have : x1.high_low_container = [] := List.length_eq_zero.1 h1.symm
      rw [this]
      simp [andnot_merge, roaring_bitmap_clear, ra_reset]
    · rw [if_neg h1]
      have := roaring_bitmap_andnot_inplace_loop_eq ops x2.high_low_container
        x1.high_low_container 0 0 0 (Nat.le_refl _) (Nat.zero_le _)
      simp only [List.take_zero, List.drop_zero, List.nil_append] at this
      rw [← this]
      split_ifs <;> rfl

/-- C32: given correct `container_andnot`, `container_iandnot` and
`container_nonzero_cardinality`, after `roaring_bitmap_andnot_inplace(x1, x2)`
the directory of `x1` has, entry by entry, the keys and the container contents
of the directory returned by `roaring_bitmap_andnot(x1, x2)`, and the same
size. -/
theorem roaring_bitmap_andnot_inplace_refines (ops : ContainerOps C)
    (hnz : nonzero_cardinality_spec ops) (handnot : container_andnot_spec ops)
    (hiandnot : container_iandnot_spec ops) (x1 x2 : roaring_bitmap_t C) :
    same_entries ops (roaring_bitmap_andnot_inplace ops x1 x2).high_low_container
        (roaring_bitmap_andnot ops x1 x2).high_low_container
    ∧ (roaring_bitmap_andnot_inplace ops x1 x2).high_low_container.length
        = (roaring_bitmap_andnot ops x1 x2).high_low_container.length := by
  have hs : same_entries ops (roaring_bitmap_andnot_inplace ops x1 x2).high_low_container
      (roaring_bitmap_andnot ops x1 x2).high_low_container := by
    rw [roaring_bitmap_andnot_eq, roaring_bitmap_andnot_inplace_eq]
    exact andnot_merge_inplace_same ops hnz handnot hiandnot _ _
  exact ⟨hs, List.Forall₂.length_eq hs⟩

theorem set_container_iand_spec : container_iand_spec set_container_ops := by
  intro a b v hv
  simp [set_container_ops, hv]

theorem set_container_iandnot_spec : container_iandnot_spec set_container_ops := by
  intro a b v hv
  simp [set_container_ops, hv]

theorem roaring_bitmap_and_inplace_refines_witness :
    nonzero_cardinality_spec set_container_ops ∧ container_and_spec set_container_ops
    ∧ container_iand_spec set_container_ops
    ∧ same_entries set_container_ops
        (roaring_bitmap_and_inplace set_container_ops false example_bitmap_1
          example_bitmap_2).high_low_container
        (roaring_bitmap_and set_container_ops example_bitmap_1
          example_bitmap_2).high_low_container :=
  ⟨set_nonzero_cardinality_spec, set_container_and_spec, set_container_iand_spec,
    (roaring_bitmap_and_inplace_refines set_container_ops set_nonzero_cardinality_spec
      set_container_and_spec set_container_iand_spec example_bitmap_1 example_bitmap_2).1⟩

theorem roaring_bitmap_andnot_inplace_refines_witness :
    nonzero_cardinality_spec set_container_ops ∧ container_andnot_spec set_container_ops
    ∧ container_iandnot_spec set_container_ops
    ∧ same_entries set_container_ops
        (roaring_bitmap_andnot_inplace set_container_ops example_bitmap_2
          example_bitmap_1).high_low_container
        (roaring_bitmap_andnot set_container_ops example_bitmap_2
          example_bitmap_1).high_low_container :=
  ⟨set_nonzero_cardinality_spec, set_container_andnot_spec, set_container_iandnot_spec,
    (roaring_bitmap_andnot_inplace_refines set_container_ops set_nonzero_cardinality_spec
      set_container_andnot_spec set_container_iandnot_spec example_bitmap_2
      example_bitmap_1).1⟩

/-! ## Cardinality of a range -/

theorem roaring_bitmap_range_cardinality_loop_eq_rank (ops : ContainerOps C)
    (maxhb range_end : Nat) (l : roaring_array_t C) (card : Nat) :
    roaring_bitmap_range_cardinality_loop ops maxhb range_end l card
      = roaring_bitmap_rank_loop ops maxhb (range_end % 65536) l card := by
  induction l generalizing card with
  | nil => rfl
  | cons e t ih =>
    rw [roaring_bitmap_range_cardinality_loop, roaring_bitmap_rank_loop, ih]
    by_cases h1 : e.1 < maxhb
    · simp [h1]
    · by_cases h2 : e.1 = maxhb
      · simp [h2]
      · have h3 : ¬ maxhb = e.1 := fun h => h2 h.symm
        simp [h1, h2, h3]

theorem countP_range_ge (p : Nat → Bool) (a b : Nat) (h : a ≤ b) :
    (List.range b).countP (fun x => decide (a ≤ x) && p x) + (List.range a).countP p
      = (List.range b).countP p := by
  obtain ⟨m, rfl⟩ : ∃ m, b = a + m := ⟨b - a, by omega⟩
  rw [countP_range_add, countP_range_add, countP_range_eq_zero _ a (by
    intro v hv
    have : ¬ a ≤ v := by omega
    simp [this])]
  rw [Nat.zero_add, Nat.add_comm]
  congr 1
  apply List.countP_congr
  intro v _
  simp

theorem countP_range_mono (p : Nat → Bool) (a b : Nat) (h : a ≤ b) :
    (List.range a).countP p ≤ (List.range b).countP p := by
  obtain ⟨m, rfl⟩ : ∃ m, b = a + m := ⟨b - a, by omega⟩
  rw [countP_range_add]
  omega

theorem countP_range_le (p : Nat → Bool) (n : Nat) : (List.range n).countP p ≤ n := by
  have := List.countP_le_length p (l := List.range n)
  rwa [List.length_range] at this

theorem countP_ra_contains_append (ops : ContainerOps C) (A B : roaring_array_t C)
    (hs : keys_sorted (A ++ B)) (N : Nat) :
    (List.range N).countP (fun v => ra_contains ops (A ++ B) v)
      = (List.range N).countP (fun v => ra_contains ops A v)
        + (List.range N).countP (fun v => ra_contains ops B v) := by
  induction A with
  | nil =>
    have hz : (List.range N).countP (fun v => ra_contains ops ([] : roaring_array_t C) v)
        = 0 := countP_range_eq_zero _ N (fun v _ => by simp [ra_contains])
    rw [List.nil_append, hz, Nat.zero_add]
  | cons a t ih =>
    rw [List.cons_append] at hs
    have hst := ((keys_sorted_cons a (t ++ B)).1 hs).2
    have hsa : keys_sorted (a :: t) := by
      unfold keys_sorted at hs ⊢
      exact hs.sublist (List.sublist_append_left (a :: t) B)
    rw [List.cons_append, countP_ra_contains_cons ops a (t ++ B) hs,
      countP_ra_contains_cons ops a t hsa, ih hst]
    omega

/-- Entries with keys below `k` hold no value from `k * 2^16` on. -/
theorem countP_ra_contains_of_lt (ops : ContainerOps C) (A : roaring_array_t C) (k : Nat)
    (hA : ∀ e ∈ A, e.1 < k) (N : Nat) (hN : k * 65536 ≤ N) :
    (List.range N).countP (fun v => ra_contains ops A v)
      = (List.range (k * 65536)).countP (fun v => ra_contains ops A v) := by
  obtain ⟨m, rfl⟩ : ∃ m, N = k * 65536 + m := ⟨N - k * 65536, by omega⟩
  rw [countP_range_add, countP_range_eq_zero _ m, Nat.add_zero]
  intro v _
  rw [Bool.eq_false_iff]
  intro h
  obtain ⟨c, hc, _⟩ := (ra_contains_iff ops A _).1 h
  have := hA _ hc
  simp only at this
  omega

theorem countP_ra_contains_singleton (ops : ContainerOps C) (e : Nat × C) (N : Nat) :
    (List.range N).countP (fun v => ra_contains ops [e] v)
      = (List.range (min 65536 (N - e.1 * 65536))).countP
          (fun v => ops.container_contains e.2 v) := by
  rw [countP_ra_contains_cons ops e [] (by simp [keys_sorted]),
    countP_range_eq_zero _ N (fun v _ => by simp [ra_contains])]
  omega

/-- What `roaring_bitmap_range_cardinality` returns, in terms of the directory. -/
theorem roaring_bitmap_range_cardinality_eq (ops : ContainerOps C)
    (hcard : cardinality_spec ops) (hrank : container_rank_spec ops)
    (l : roaring_array_t C) (hs : keys_sorted l) (rs R : Nat) (hlt : rs < R)
    (hR : R ≤ 2 ^ 32) :
    roaring_bitmap_range_cardinality ops ⟨l⟩ rs R
        + (List.range rs).countP (fun v => ra_contains ops l v)
      = (List.range R).countP (fun v => ra_contains ops l v) := by
  simp only [Nat.reducePow] at hR
  have hRe : (if R > UINT32_MAX then UINT32_MAX + 1 else R) = R := by
    unfold UINT32_MAX
    split <;> omega
  have hmin : rs / 65536 % 65536 = rs / 65536 := by omega
  have hRR : (R - 1) / 65536 * 65536 + (R - 1) % 65536 + 1 = R := by omega
  have hle : rs / 65536 ≤ (R - 1) / 65536 := Nat.div_le_div_right (by omega)
  unfold roaring_bitmap_range_cardinality
  simp only [hRe, hmin]
  rw [if_neg (by omega)]
  have hA : ∀ e ∈ l.take (lower_bound l (rs / 65536)), e.1 < rs / 65536 :=
    fun e he => lt_of_mem_take_lower_bound l _ e he
  have hcA := countP_ra_contains_of_lt ops _ (rs / 65536) hA
  rcases ra_get_index_cases l (rs / 65536) with ⟨c, hc, hi⟩ | ⟨hnf, hi⟩
  · rw [hi]
    simp only [ge_iff_le, Int.natCast_nonneg, if_true, Int.toNat_ofNat, hc]
    have hsplit := split_at_index l _ _ hc
    have hs2 := hs
    rw [hsplit, keys_sorted_append_cons] at hs2
    obtain ⟨_, hsB, _, hB, _⟩ := hs2
    have hs3 := hs
    rw [hsplit] at hs3
    have hs4 : keys_sorted ((rs / 65536, c) :: l.drop (lower_bound l (rs / 65536) + 1)) := by
      rw [keys_sorted_append] at hs3
      exact hs3.2.1
    rw [roaring_bitmap_range_cardinality_loop_eq_rank,
      roaring_bitmap_rank_loop_eq ops hcard hrank _ _ (Nat.mod_lt _ (by decide)) _ hsB, hRR]
    have e1 := countP_ra_contains_append ops _ _ hs3 R
    have e2 := countP_ra_contains_append ops _ _ hs3 rs
    rw [← hsplit] at e1 e2
    rw [e1, e2, countP_ra_contains_cons ops _ _ hs4 R, countP_ra_contains_cons ops _ _ hs4 rs,
      hcA R (by omega), hcA rs (by omega),
      countP_ra_contains_eq_zero ops _ rs (rs / 65536) (by omega) hB]
    simp only
    have ea : rs - rs / 65536 * 65536 = rs % 65536 := by omega
    rw [ea, Nat.min_eq_right (by omega)]
    -- the part of the first container
    have hsub : (if rs % 65536 ≠ 0 then
          uint64_sub
            (if rs / 65536 = (R - 1) / 65536 then ops.container_rank c ((R - 1) % 65536)
              else ops.container_get_cardinality c)
            (ops.container_rank c (rs % 65536 - 1))
        else
          if rs / 65536 = (R - 1) / 65536 then ops.container_rank c ((R - 1) % 65536)
          else ops.container_get_cardinality c)
        + (List.range (rs % 65536)).countP (fun v => ops.container_contains c v)
        = (List.range (min 65536 (R - rs / 65536 * 65536))).countP
            (fun v => ops.container_contains c v) := by
      have hfirst : (if rs / 65536 = (R - 1) / 65536 then
            ops.container_rank c ((R - 1) % 65536)
          else ops.container_get_cardinality c)
          = (List.range (min 65536 (R - rs / 65536 * 65536))).countP
              (fun v => ops.container_contains c v) := by
        by_cases hk : rs / 65536 = (R - 1) / 65536
        · rw [if_pos hk, hrank c _ (Nat.mod_lt _ (by decide))]
          congr 2
          omega
        · rw [if_neg hk, hcard c]
          congr 2
          omega
      rw [hfirst]
      have hmono := countP_range_mono (fun v => ops.container_contains c v) (rs % 65536)
        (min 65536 (R - rs / 65536 * 65536)) (by omega)
      have hbound := countP_range_le (fun v => ops.container_contains c v)
        (min 65536 (R - rs / 65536 * 65536))
      by_cases h0 : rs % 65536 = 0
      · rw [if_neg (by simpa using h0), h0]
        simp
      · rw [if_pos h0, hrank c _ (by omega),
          show rs % 65536 - 1 + 1 = rs % 65536 by omega]
        rw [uint64_sub_eq _ _ hmono (by
          simp only [Nat.reducePow]
          omega)]
        omega
    omega
  · rw [hi]
    have hneg : ¬ (-(lower_bound l (rs / 65536) : Int) - 1 ≥ 0) := by omega
    have htn : (-(-(lower_bound l (rs / 65536) : Int) - 1) - 1).toNat
        = lower_bound l (rs / 65536) := by omega
    simp only [hneg, if_false, htn]
    have hB : ∀ b ∈ l.drop (lower_bound l (rs / 65536)), rs / 65536 < b.1 :=
      fun b hb => gt_of_mem_drop_lower_bound l hs _ hnf b hb
    have hsplit : l = l.take (lower_bound l (rs / 65536))
        ++ l.drop (lower_bound l (rs / 65536)) := (List.take_append_drop _ _).symm
    have hs3 := hs
    rw [hsplit] at hs3
    have hsB : keys_sorted (l.drop (lower_bound l (rs / 65536))) := by
      rw [keys_sorted_append] at hs3
      exact hs3.2.1
    rw [roaring_bitmap_range_cardinality_loop_eq_rank,
      roaring_bitmap_rank_loop_eq ops hcard hrank _ _ (Nat.mod_lt _ (by decide)) _ hsB, hRR]
    have e1 := countP_ra_contains_append ops _ _ hs3 R
    have e2 := countP_ra_contains_append ops _ _ hs3 rs
    rw [← hsplit] at e1 e2
    rw [e1, e2, hcA R (by omega), hcA rs (by omega),
      countP_ra_contains_eq_zero ops _ rs (rs / 65536) (by omega) hB]
    omega

theorem roaring_bitmap_range_cardinality_clamp (ops : ContainerOps C)
    (ra : roaring_bitmap_t C) (range_start range_end : Nat) :
    roaring_bitmap_range_cardinality ops ra range_start range_end
      = roaring_bitmap_range_cardinality ops ra range_start (min range_end (2 ^ 32)) := by
  have h : (if range_end > UINT32_MAX then UINT32_MAX + 1 else range_end)
      = (if min range_end (2 ^ 32) > UINT32_MAX then UINT32_MAX + 1
          else min range_end (2 ^ 32)) := by
    unfold UINT32_MAX
    simp only [Nat.reducePow]
    split <;> split <;> omega
  unfold roaring_bitmap_range_cardinality
  simp only [h]

/-- C35: given correct `container_get_cardinality` and `container_rank`, for a
valid bitmap `ra` and all `range_start`, `range_end`,
`roaring_bitmap_range_cardinality` returns the number of elements `x` of `ra`
with `range_start <= x < min(range_end, 2^32)`, which is 0 when that range is
empty; nothing is assumed about the high keys of the first and the last value
of the range, which may be present or absent, equal or different. -/
theorem roaring_bitmap_range_cardinality_correct (ops : ContainerOps C)
    (hcard : cardinality_spec ops) (hrank : container_rank_spec ops)
    (ra : roaring_bitmap_t C) (hra : valid ops ra) (range_start range_end : Nat) :
    roaring_bitmap_range_cardinality ops ra range_start range_end
      = (List.range (min range_end (2 ^ 32))).countP
          (fun x => decide (range_start ≤ x) && roaring_bitmap_contains ops ra x)
    ∧ (min range_end (2 ^ 32) ≤ range_start →
        roaring_bitmap_range_cardinality ops ra range_start range_end = 0) := by
  rw [roaring_bitmap_range_cardinality_clamp]
  obtain ⟨R, hR⟩ : ∃ R, R = min range_end (2 ^ 32) := ⟨_, rfl⟩
  rw [← hR]
  have hR32 : R ≤ 2 ^ 32 := by
    rw [hR]
    exact Nat.min_le_right _ _
  have hempty : R ≤ range_start →
      roaring_bitmap_range_cardinality ops ra range_start R = 0 := by
    intro hle
    have hRe : (if R > UINT32_MAX then UINT32_MAX + 1 else R) = R := by
      unfold UINT32_MAX
      simp only [Nat.reducePow] at hR32
      split <;> omega
    unfold roaring_bitmap_range_cardinality
    simp only [hRe]
    rw [if_pos hle]
  refine ⟨?_, hempty⟩
  by_cases hlt : range_start < R
  · have h1 := roaring_bitmap_range_cardinality_eq ops hcard hrank ra.high_low_container
      hra.1 range_start R hlt hR32
    have h2 := countP_range_ge (fun v => ra_contains ops ra.high_low_container v)
      range_start R (Nat.le_of_lt hlt)
    have h3 : (List.range R).countP
        (fun x => decide (range_start ≤ x) && roaring_bitmap_contains ops ra x)
        = (List.range R).countP
          (fun x => decide (range_start ≤ x) && ra_contains ops ra.high_low_container x) := by
      apply List.countP_congr
      intro v hv
      rw [roaring_bitmap_contains_eq_ra_contains ops ra hra.1 v
        (by have := List.mem_range.1 hv; omega)]
    rw [h3]
    simp only at h2
    have h4 : roaring_bitmap_range_cardinality ops ⟨ra.high_low_container⟩ range_start R
        = roaring_bitmap_range_cardinality ops ra range_start R := rfl
    rw [h4] at h1
    omega
  · rw [hempty (Nat.le_of_not_lt hlt)]
    symm
    apply countP_range_eq_zero
    intro v hv
    have : ¬ range_start ≤ v := by omega
    simp [this]

theorem roaring_bitmap_range_cardinality_correct_witness :
    valid set_container_ops example_bitmap_3
    ∧ roaring_bitmap_range_cardinality set_container_ops example_bitmap_3 2 70000
      = (List.range (min 70000 (2 ^ 32))).countP
          (fun x => decide (2 ≤ x) && roaring_bitmap_contains set_container_ops example_bitmap_3 x) :=
  ⟨example_bitmap_3_valid,
    (roaring_bitmap_range_cardinality_correct set_container_ops set_cardinality_spec
      set_container_rank_spec example_bitmap_3 example_bitmap_3_valid 2 70000).1⟩

/-! ## Iterator: stepping off an end and back, reading in bulk -/

theorem zero_run_bitmap_valid : iterator_valid zero_run_bitmap := by
  refine ⟨by simp [zero_run_bitmap, keys_sorted], by simp [zero_run_bitmap], ?_⟩
  intro e he
  simp only [zero_run_bitmap, List.mem_singleton] at he
  subst he
  simp [container_valid, container_unwrap_shared]

theorem top_run_bitmap_valid : iterator_valid top_run_bitmap := by
  refine ⟨by simp [top_run_bitmap, keys_sorted], by simp [top_run_bitmap], ?_⟩
  intro e he
  simp only [top_run_bitmap, List.mem_singleton] at he
  subst he
  simp [container_valid, container_unwrap_shared]

theorem top_run_bitmap_3_valid : iterator_valid top_run_bitmap_3 := by
  refine ⟨by simp [top_run_bitmap_3, keys_sorted], by simp [top_run_bitmap_3], ?_⟩
  intro e he
  simp only [top_run_bitmap_3, List.mem_singleton] at he
  subst he
  simp [container_valid, container_unwrap_shared]

/-- On a bitmap that is not empty the iterator that `roaring_init_iterator`
returns does not depend on what the caller had in the structure. -/
theorem roaring_init_iterator_indep (rb : roaring_bitmap_t container_t)
    (hne : rb.high_low_container ≠ []) (a b : roaring_uint32_iterator_t) :
    roaring_init_iterator rb a = roaring_init_iterator rb b := by
  cases h : rb.high_low_container with
  | nil => exact absurd h hne
  | cons e t =>
    have hc : ¬ ((0 : Int) ≥ ((e :: t).length : Int) ∨ (0 : Int) < 0) := by
      simp only [List.length_cons]
      omega
    simp only [roaring_init_iterator, loadfirstvalue, iter_new_container_partial_init, h, hc,
      if_false, Int.toNat_zero, List.getElem?_cons_zero]

/-- Stepping off an end and back at the extreme values of a run container: on
the valid bitmap `{0, 1}`, stored
as a run container, the iterator on the minimum 0 moved with
`roaring_previous_uint32_iterator` (which returns false) and then with
`roaring_advance_uint32_iterator` stands on 1, not on 0; on the valid bitmap
`{4294967294, 4294967295}`, stored as a run container, the iterator on the
maximum `UINT32_MAX` moved with `roaring_advance_uint32_iterator` (which
returns false) and then with `roaring_previous_uint32_iterator` stands on
4294967294, not on `UINT32_MAX`. -/
theorem roaring_previous_advance_run_extremes (newit : roaring_uint32_iterator_t) :
    iterator_valid zero_run_bitmap
    ∧ roaring_init_iterator zero_run_bitmap newit
        = some ⟨zero_run_bitmap, 0, 0, 0, 0, true, .run ⟨1, 1, [⟨0, 1⟩]⟩, 0⟩
    ∧ roaring_previous_uint32_iterator
          ⟨zero_run_bitmap, 0, 0, 0, 0, true, .run ⟨1, 1, [⟨0, 1⟩]⟩, 0⟩
        = some (false, ⟨zero_run_bitmap, 0, 0, 0, 0, false, .run ⟨1, 1, [⟨0, 1⟩]⟩, 0⟩)
    ∧ roaring_advance_uint32_iterator
          ⟨zero_run_bitmap, 0, 0, 0, 0, false, .run ⟨1, 1, [⟨0, 1⟩]⟩, 0⟩
        = some (true, ⟨zero_run_bitmap, 0, 0, 0, 1, true, .run ⟨1, 1, [⟨0, 1⟩]⟩, 0⟩)
    ∧ iterator_valid top_run_bitmap
    ∧ iterator_after top_run_bitmap newit 1
        = some ⟨top_run_bitmap, 0, 0, 0, 4294967295, true, .run ⟨1, 1, [⟨65534, 1⟩]⟩,
            4294901760⟩
    ∧ roaring_advance_uint32_iterator
          ⟨top_run_bitmap, 0, 0, 0, 4294967295, true, .run ⟨1, 1, [⟨65534, 1⟩]⟩, 4294901760⟩
        = some (false,
            ⟨top_run_bitmap, 0, 0, 0, 4294967295, false, .run ⟨1, 1, [⟨65534, 1⟩]⟩,
              4294901760⟩)
    ∧ roaring_previous_uint32_iterator
          ⟨top_run_bitmap, 0, 0, 0, 4294967295, false, .run ⟨1, 1, [⟨65534, 1⟩]⟩,
            4294901760⟩
        = some (true,
            ⟨top_run_bitmap, 0, 0, 0, 4294967294, true, .run ⟨1, 1, [⟨65534, 1⟩]⟩,
              4294901760⟩) :=
  ⟨zero_run_bitmap_valid,
    by
      rw [roaring_init_iterator_indep zero_run_bitmap (by simp [zero_run_bitmap]) newit
        ⟨zero_run_bitmap, 0, 0, 0, 0, false, .run ⟨1, 1, [⟨0, 1⟩]⟩, 0⟩]
      rfl,
    rfl, rfl, top_run_bitmap_valid,
    by
      rw [iterator_after, iterator_after,
        roaring_init_iterator_indep top_run_bitmap (by simp [top_run_bitmap]) newit
          ⟨top_run_bitmap, 0, 0, 0, 0, false, .run ⟨1, 1, [⟨65534, 1⟩]⟩, 0⟩]
      rfl,
    rfl, rfl⟩

/-- Reading in bulk and stepping at the end of a run container that holds
`UINT32_MAX`: on the valid bitmap
`{4294967293, 4294967294, 4294967295}`, stored as a run container, with the
iterator on the first element, `roaring_read_uint32_iterator` with
`count = 3` writes the three elements, returns 3 and leaves the iterator with
`has_value = false` behind the last container (`container_index = 1`), whereas
three calls of `roaring_advance_uint32_iterator` leave it with
`has_value = false` inside the container (`container_index = 0`); a call of
`roaring_previous_uint32_iterator` then gives `UINT32_MAX` in the first state
and 4294967294 in the second. -/
theorem roaring_read_uint32_iterator_top_run (newit : roaring_uint32_iterator_t) :
    iterator_valid top_run_bitmap_3
    ∧ roaring_init_iterator top_run_bitmap_3 newit
        = some ⟨top_run_bitmap_3, 0, 0, 0, 4294967293, true, .run ⟨1, 1, [⟨65533, 2⟩]⟩,
            4294901760⟩
    ∧ roaring_read_uint32_iterator
          ⟨top_run_bitmap_3, 0, 0, 0, 4294967293, true, .run ⟨1, 1, [⟨65533, 2⟩]⟩,
            4294901760⟩ 3
        = some (3,
            ⟨top_run_bitmap_3, 1, 0, 0, 4294967295, false, .run ⟨1, 1, [⟨65533, 2⟩]⟩,
              4294901760⟩,
            [4294967293, 4294967294, 4294967295])
    ∧ iterator_advance_times 3
          ⟨top_run_bitmap_3, 0, 0, 0, 4294967293, true, .run ⟨1, 1, [⟨65533, 2⟩]⟩,
            4294901760⟩
        = some ⟨top_run_bitmap_3, 0, 0, 0, 4294967295, false, .run ⟨1, 1, [⟨65533, 2⟩]⟩,
            4294901760⟩
    ∧ roaring_previous_uint32_iterator
          ⟨top_run_bitmap_3, 1, 0, 0, 4294967295, false, .run ⟨1, 1, [⟨65533, 2⟩]⟩,
            4294901760⟩
        = some (true,
            ⟨top_run_bitmap_3, 0, 0, 0, 4294967295, true, .run ⟨1, 1, [⟨65533, 2⟩]⟩,
              4294901760⟩)
    ∧ roaring_previous_uint32_iterator
          ⟨top_run_bitmap_3, 0, 0, 0, 4294967295, false, .run ⟨1, 1, [⟨65533, 2⟩]⟩,
            4294901760⟩
        = some (true,
            ⟨top_run_bitmap_3, 0, 0, 0, 4294967294, true, .run ⟨1, 1, [⟨65533, 2⟩]⟩,
              4294901760⟩) :=
  ⟨top_run_bitmap_3_valid,
    by
      rw [roaring_init_iterator_indep top_run_bitmap_3 (by simp [top_run_bitmap_3]) newit
        ⟨top_run_bitmap_3, 0, 0, 0, 0, false, .run ⟨1, 1, [⟨65533, 2⟩]⟩, 0⟩]
      rfl,
    rfl, rfl, rfl, rfl⟩

theorem dropLast_take_succ {α : Type} (l : List α) (k : Nat) (h : k < l.length) :
    (l.take (k + 1)).dropLast = l.take k := by
  induction l generalizing k with
  | nil => simp at h
  | cons b t ih =>
    cases k with
    | zero => simp
    | succ k =>
      simp only [List.length_cons, Nat.add_lt_add_iff_right] at h
      have hne : t.take (k + 1) ≠ [] := by
        cases t with
        | nil => simp at h
        | cons c u => simp
      rw [List.take_succ_cons, List.take_succ_cons, List.dropLast_cons_of_ne_nil hne, ih k h]

theorem take_pred_set {α : Type} (l : List α) (n : Nat) (a : α) (h1 : 1 ≤ n)
    (h2 : n ≤ l.length) : (l.set (n - 1) a).take n = (l.take n).dropLast ++ [a] := by
  obtain ⟨k, rfl⟩ : ∃ k, n = k + 1 := ⟨n - 1, by omega⟩
  simp only [Nat.add_sub_cancel]
  rw [take_succ_set l k a (by omega), dropLast_take_succ l k (by omega)]

theorem getElem?_set_of_lt {α : Type} (l : List α) (i j : Nat) (a : α) (h : i < j) :
    (l.set i a)[j]? = l[j]? := by
  rw [List.getElem?_set_ne (by omega)]

/-- One call of `run_container_append` on a container with room for one more
run whose last run is `prev`: what it does to the runs written. -/
theorem run_container_append_refines (s : run_container_t) (vl prev : rle16_t)
    (h1 : 1 ≤ s.n_runs) (h2 : s.n_runs < s.runs.length) :
    ∃ s', run_container_append s vl prev
        = some (s', (run_list_append (s.runs.take s.n_runs) vl prev).2)
      ∧ s'.runs.take s'.n_runs = (run_list_append (s.runs.take s.n_runs) vl prev).1
      ∧ s.n_runs ≤ s'.n_runs ∧ s'.n_runs ≤ s.n_runs + 1
      ∧ s'.runs.length = s.runs.length ∧ s'.capacity = s.capacity
      ∧ ∀ i, s.n_runs < i → s'.runs[i]? = s.runs[i]? := by
  unfold run_container_append run_list_append
  simp only
  by_cases hA : vl.value > prev.value + prev.length + 1
  · simp only [hA, if_true, h2]
    refine ⟨_, rfl, ?_, ?_, ?_, ?_, ?_, ?_⟩
    · simp only; exact take_succ_set _ _ _ h2
    · simp only; omega
    · simp only; omega
    · simp only [List.length_set]
    · rfl
    · intro i hi; simp only; exact getElem?_set_of_lt _ _ _ _ hi
  · simp only [hA, if_false]
    by_cases hB : vl.value + vl.length + 1 > prev.value + prev.length
    · have h3 : 1 ≤ s.n_runs ∧ s.n_runs - 1 < s.runs.length := ⟨h1, by omega⟩
      simp only [hB, if_true, h3, and_self]
      refine ⟨_, rfl, ?_, ?_, ?_, ?_, ?_, ?_⟩
      · simp only; exact take_pred_set _ _ _ h1 (by omega)
      · simp only; omega
      · simp only; omega
      · simp only [List.length_set]
      · rfl
      · intro i hi; simp only; exact getElem?_set_of_lt _ _ _ _ (by omega)
    · simp only [hB, if_false]
      exact ⟨s, rfl, rfl, by omega, by omega, rfl, rfl, fun _ _ => rfl⟩

/-- One call of `run_container_append_value` on a container with room for one
more run whose last run is `prev`: what it does to the runs written. -/
theorem run_container_append_value_refines (s : run_container_t) (val : Nat) (prev : rle16_t)
    (h1 : 1 ≤ s.n_runs) (h2 : s.n_runs < s.runs.length) :
    ∃ s', run_container_append_value s val prev
        = some (s', (run_list_append_value (s.runs.take s.n_runs) val prev).2)
      ∧ s'.runs.take s'.n_runs = (run_list_append_value (s.runs.take s.n_runs) val prev).1
      ∧ s.n_runs ≤ s'.n_runs ∧ s'.n_runs ≤ s.n_runs + 1
      ∧ s'.runs.length = s.runs.length ∧ s'.capacity = s.capacity
      ∧ ∀ i, s.n_runs < i → s'.runs[i]? = s.runs[i]? := by
  unfold run_container_append_value run_list_append_value
  simp only
  by_cases hA : val > prev.value + prev.length + 1
  · simp only [hA, if_true, h2]
    refine ⟨_, rfl, ?_, ?_, ?_, ?_, ?_, ?_⟩
    · simp only; exact take_succ_set _ _ _ h2
    · simp only; omega
    · simp only; omega
    · simp only [List.length_set]
    · rfl
    · intro i hi; simp only; exact getElem?_set_of_lt _ _ _ _ hi
  · simp only [hA, if_false]
    by_cases hB : val = prev.value + prev.length + 1
    · have h3 : 1 ≤ s.n_runs ∧ s.n_runs - 1 < s.runs.length := ⟨h1, by omega⟩
      simp only [hB, if_true, h3, and_self]
      refine ⟨_, rfl, ?_, ?_, ?_, ?_, ?_, ?_⟩
      · simp only; exact take_pred_set _ _ _ h1 (by omega)
      · simp only; omega
      · simp only; omega
      · simp only [List.length_set]
      · rfl
      · intro i hi; simp only; exact getElem?_set_of_lt _ _ _ _ (by omega)
    · simp only [hB, if_false]
      exact ⟨s, rfl, rfl, by omega, by omega, rfl, rfl, fun _ _ => rfl⟩

theorem drop_eq_cons_of_getElem? {α : Type} (l : List α) (i : Nat) (x : α)
    (h : l[i]? = some x) : l.drop i = x :: l.drop (i + 1) := by
  obtain ⟨hi, hx⟩ := List.getElem?_eq_some_iff.mp h
  rw [← hx]
  exact List.drop_eq_getElem_cons hi

/-- The loop over the rest of the runs writes what `run_list_merge` gives for
them, and at most one run for each run read. -/
theorem array_run_container_union_run_rest_refines
    (input : run_container_t → Nat → Option rle16_t) (orig : List rle16_t) (bound : Nat)
    (hin : ∀ s s' : run_container_t, (∀ i, bound ≤ i → s'.runs[i]? = s.runs[i]?) →
      ∀ j, input s' j = input s j) :
    ∀ (k rlepos : Nat) (s : run_container_t) (prev : rle16_t), k = orig.length - rlepos →
      (∀ j, j < orig.length → input s j = orig[j]?) → 1 ≤ s.n_runs →
      s.n_runs + (orig.length - rlepos) ≤ bound → bound ≤ s.runs.length →
      ∃ s', array_run_container_union_run_rest input orig.length rlepos s prev = some s'
        ∧ s'.runs.take s'.n_runs
          = run_list_merge (orig.drop rlepos) [] (s.runs.take s.n_runs) prev
        ∧ 1 ≤ s'.n_runs ∧ s'.n_runs ≤ bound ∧ s'.runs.length = s.runs.length
        ∧ s'.capacity = s.capacity := by
  intro k
  induction k with
  | zero =>
    intro rlepos s prev hk _ h1 hb _
    rw [array_run_container_union_run_rest]
    have h : ¬ rlepos < orig.length := by omega
    rw [if_neg h, List.drop_eq_nil_of_le (by omega), run_list_merge]
    exact ⟨s, rfl, rfl, h1, by omega, rfl, rfl⟩
  | succ k ih =>
    intro rlepos s prev hk hread h1 hb hlen
    rw [array_run_container_union_run_rest]
    have h : rlepos < orig.length := by omega
    rw [if_pos h, hread rlepos h]
    obtain ⟨rle, hrle⟩ : ∃ rle, orig[rlepos]? = some rle := ⟨orig[rlepos], by simp [h]⟩
    rw [hrle]
    simp only
    obtain ⟨s1, he, ht, hn1, hn2, hl, hcap, hsame⟩ :=
      run_container_append_refines s rle prev h1 (by omega)
    rw [he]
    simp only
    obtain ⟨s2, he2, ht2, h12, hb2, hl2, hcap2⟩ := ih (rlepos + 1) s1
      (run_list_append (s.runs.take s.n_runs) rle prev).2 (by omega)
      (fun j hj => by
        rw [hin s s1 (fun i hi => hsame i (by omega)) j]; exact hread j hj)
      (by omega) (by omega) (by omega)
    refine ⟨s2, he2, ?_, h12, hb2, by omega, by rw [hcap2, hcap]⟩
    rw [ht2, ht, drop_eq_cons_of_getElem? orig rlepos rle hrle, run_list_merge]

/-- The loop over the rest of the array writes what `run_list_merge` gives for
it, and at most one run for each value read. -/
theorem array_run_container_union_array_rest_refines (src_1 : array_container_t)
    (hc : src_1.cardinality ≤ src_1.array.length) (bound : Nat) :
    ∀ (k arraypos : Nat) (s : run_container_t) (prev : rle16_t),
      k = src_1.cardinality - arraypos → 1 ≤ s.n_runs →
      s.n_runs + (src_1.cardinality - arraypos) ≤ bound → bound ≤ s.runs.length →
      ∃ s', array_run_container_union_array_rest src_1 arraypos s prev = some s'
        ∧ s'.runs.take s'.n_runs
          = run_list_merge [] ((src_1.array.take src_1.cardinality).drop arraypos)
              (s.runs.take s.n_runs) prev
        ∧ 1 ≤ s'.n_runs ∧ s'.n_runs ≤ bound ∧ s'.runs.length = s.runs.length
        ∧ s'.capacity = s.capacity
        ∧ ∀ i, bound ≤ i → s'.runs[i]? = s.runs[i]? := by
  intro k
  induction k with
  | zero =>
    intro arraypos s prev hk h1 hb _
    rw [array_run_container_union_array_rest]
    have h : ¬ arraypos < src_1.cardinality := by omega
    rw [if_neg h, List.drop_eq_nil_of_le (by rw [List.length_take]; omega), run_list_merge]
    exact ⟨s, rfl, rfl, h1, by omega, rfl, rfl, fun _ _ => rfl⟩
  | succ k ih =>
    intro arraypos s prev hk h1 hb hlen
    rw [array_run_container_union_array_rest]
    have h : arraypos < src_1.cardinality := by omega
    rw [if_pos h]
    obtain ⟨v, hv⟩ : ∃ v, src_1.array[arraypos]? = some v :=
      ⟨src_1.array[arraypos], by simp [show arraypos < src_1.array.length by omega]⟩
    have hv2 : (src_1.array.take src_1.cardinality)[arraypos]? = some v := by
      rw [List.getElem?_take_of_lt h]; exact hv
    rw [hv]
    simp only
    obtain ⟨s1, he, ht, hn1, hn2, hl, hcap, hsame⟩ :=
      run_container_append_value_refines s v prev h1 (by omega)
    rw [he]
    simp only
    obtain ⟨s2, he2, ht2, h12, hb2, hl2, hcap2, hsame2⟩ := ih (arraypos + 1) s1
      (run_list_append_value (s.runs.take s.n_runs) v prev).2 (by omega)
      (by omega) (by omega) (by omega)
    refine ⟨s2, he2, ?_, h12, hb2, by omega, by rw [hcap2, hcap], ?_⟩
    · rw [ht2, ht, drop_eq_cons_of_getElem? _ arraypos v hv2, run_list_merge]
    · intro i hi
      rw [hsame2 i hi, hsame i (by omega)]

/-- The merge loop writes at most one run for each run or value read and
leaves the rest of the work as `run_list_merge` describes it. -/
theorem array_run_container_union_loop_refines
    (input : run_container_t → Nat → Option rle16_t) (src_1 : array_container_t)
    (orig : List rle16_t) (bound : Nat)
    (hin : ∀ s s' : run_container_t, (∀ i, bound ≤ i → s'.runs[i]? = s.runs[i]?) →
      ∀ j, input s' j = input s j)
    (hc : src_1.cardinality ≤ src_1.array.length) :
    ∀ (k rlepos arraypos : Nat) (s : run_container_t) (prev : rle16_t),
      k = (orig.length - rlepos) + (src_1.cardinality - arraypos) →
      (∀ j, j < orig.length → input s j = orig[j]?) → 1 ≤ s.n_runs →
      s.n_runs + (orig.length - rlepos) + (src_1.cardinality - arraypos) ≤ bound →
      bound ≤ s.runs.length →
      ∃ rlepos' arraypos' s' prev',
        array_run_container_union_loop input src_1 orig.length rlepos arraypos s prev
          = some (rlepos', arraypos', s', prev')
        ∧ ¬ (rlepos' < orig.length ∧ arraypos' < src_1.cardinality)
        ∧ (∀ j, j < orig.length → input s' j = orig[j]?) ∧ 1 ≤ s'.n_runs
        ∧ s'.n_runs + (orig.length - rlepos') + (src_1.cardinality - arraypos') ≤ bound
        ∧ s'.runs.length = s.runs.length ∧ s'.capacity = s.capacity
        ∧ run_list_merge (orig.drop rlepos) ((src_1.array.take src_1.cardinality).drop arraypos)
              (s.runs.take s.n_runs) prev
            = run_list_merge (orig.drop rlepos')
                ((src_1.array.take src_1.cardinality).drop arraypos')
                (s'.runs.take s'.n_runs) prev' := by
  intro k
  induction k with
  | zero =>
    intro rlepos arraypos s prev hk hread h1 hb _
    rw [array_run_container_union_loop]
    have h : ¬ (rlepos < orig.length ∧ arraypos < src_1.cardinality) := by omega
    rw [if_neg h]
    exact ⟨rlepos, arraypos, s, prev, rfl, h, hread, h1, hb, rfl, rfl, rfl⟩
  | succ k ih =>
    intro rlepos arraypos s prev hk hread h1 hb hlen
    rw [array_run_container_union_loop]
    by_cases h : rlepos < orig.length ∧ arraypos < src_1.cardinality
    · rw [if_pos h, hread rlepos h.1]
      obtain ⟨rle, hrle⟩ : ∃ rle, orig[rlepos]? = some rle := ⟨orig[rlepos], by simp [h.1]⟩
      obtain ⟨v, hv⟩ : ∃ v, src_1.array[arraypos]? = some v :=
        ⟨src_1.array[arraypos], by simp [show arraypos < src_1.array.length by omega]⟩
      have hv2 : (src_1.array.take src_1.cardinality)[arraypos]? = some v := by
        rw [List.getElem?_take_of_lt h.2]; exact hv
      rw [hrle, hv]
      simp only
      rw [drop_eq_cons_of_getElem? orig rlepos rle hrle,
        drop_eq_cons_of_getElem? _ arraypos v hv2, run_list_merge]
      by_cases hle : rle.value ≤ v
      · rw [if_pos hle, if_pos hle]
        obtain ⟨s1, he, ht, hn1, hn2, hl, hcap, hsame⟩ :=
          run_container_append_refines s rle prev h1 (by omega)
        rw [he]
        simp only
        obtain ⟨r', a', s', p', he2, hex, hread2, h12, hb2, hl2, hcap2, hm⟩ :=
          ih (rlepos + 1) arraypos s1 (run_list_append (s.runs.take s.n_runs) rle prev).2
            (by omega)
            (fun j hj => by
              rw [hin s s1 (fun i hi => hsame i (by omega)) j]; exact hread j hj)
            (by omega) (by omega) (by omega)
        refine ⟨r', a', s', p', he2, hex, hread2, h12, hb2, by omega, by rw [hcap2, hcap], ?_⟩
        rw [← hm, ht, drop_eq_cons_of_getElem? _ arraypos v hv2]
      · rw [if_neg hle, if_neg hle]
        obtain ⟨s1, he, ht, hn1, hn2, hl, hcap, hsame⟩ :=
          run_container_append_value_refines s v prev h1 (by omega)
        rw [he]
        simp only
        obtain ⟨r', a', s', p', he2, hex, hread2, h12, hb2, hl2, hcap2, hm⟩ :=
          ih rlepos (arraypos + 1) s1
            (run_list_append_value (s.runs.take s.n_runs) v prev).2
            (by omega)
            (fun j hj => by
              rw [hin s s1 (fun i hi => hsame i (by omega)) j]; exact hread j hj)
            (by omega) (by omega) (by omega)
        refine ⟨r', a', s', p', he2, hex, hread2, h12, hb2, by omega, by rw [hcap2, hcap], ?_⟩
        rw [← hm, ht, drop_eq_cons_of_getElem? orig rlepos rle hrle]
    · rw [if_neg h]
      exact ⟨rlepos, arraypos, s, prev, rfl, h, hread, h1, hb, rfl, rfl, rfl⟩

theorem run_list_merge_nil_left_nil (out : List rle16_t) (prev : rle16_t) :
    run_list_merge [] [] out prev = out := by
  rw [run_list_merge]

/-- The common part of the two unions, started on a container without runs
whose buffer has room for one run for each run and value of the input, writes
the runs of `run_list_union`, at most one for each run and value. -/
theorem array_run_container_union_merge_refines
    (input : run_container_t → Nat → Option rle16_t) (src_1 : array_container_t)
    (orig : List rle16_t) (dst : run_container_t)
    (hin : ∀ s s' : run_container_t,
      (∀ i, src_1.cardinality + orig.length ≤ i → s'.runs[i]? = s.runs[i]?) →
      ∀ j, input s' j = input s j)
    (hc1 : 1 ≤ src_1.cardinality) (hc : src_1.cardinality ≤ src_1.array.length)
    (hn : 1 ≤ orig.length) (h0 : dst.n_runs = 0)
    (hroom : src_1.cardinality + orig.length ≤ dst.runs.length)
    (hread : ∀ j, j < orig.length → input dst j = orig[j]?) :
    ∃ s', array_run_container_union_merge input src_1 orig.length dst = some s'
      ∧ s'.runs.take s'.n_runs = run_list_union orig (src_1.array.take src_1.cardinality)
      ∧ 1 ≤ s'.n_runs ∧ s'.n_runs ≤ src_1.cardinality + orig.length
      ∧ s'.runs.length = dst.runs.length ∧ s'.capacity = dst.capacity := by
  obtain ⟨rle, hrle⟩ : ∃ rle, orig[0]? = some rle := ⟨orig[0], by simp [hn]⟩
  obtain ⟨v, hv⟩ : ∃ v, src_1.array[0]? = some v :=
    ⟨src_1.array[0], by simp [show 0 < src_1.array.length by omega]⟩
  have hv2 : (src_1.array.take src_1.cardinality)[0]? = some v := by
    rw [List.getElem?_take_of_lt (by omega)]; exact hv
  have ho : orig = rle :: orig.drop 1 := by
    have := drop_eq_cons_of_getElem? orig 0 rle hrle
    simpa using this
  have ha : src_1.array.take src_1.cardinality
      = v :: (src_1.array.take src_1.cardinality).drop 1 := by
    have := drop_eq_cons_of_getElem? _ 0 v hv2
    simpa using this
  unfold array_run_container_union_merge
  simp only
  rw [hread 0 (by omega), hrle, hv]
  simp only
  have hfinish : ∀ (rlepos arraypos : Nat) (s : run_container_t) (prev : rle16_t),
      (∀ j, j < orig.length → input s j = orig[j]?) → s.n_runs = 1 →
      rlepos + arraypos = 1 → s.runs.length = dst.runs.length → s.capacity = dst.capacity →
      ∃ s', (match array_run_container_union_loop input src_1 orig.length rlepos arraypos s
              prev with
            | none => none
            | some (rlepos, arraypos, dst, previousrle) =>
              if arraypos < src_1.cardinality then
                array_run_container_union_array_rest src_1 arraypos dst previousrle
              else array_run_container_union_run_rest input orig.length rlepos dst previousrle)
          = some s'
        ∧ s'.runs.take s'.n_runs
          = run_list_merge (orig.drop rlepos)
              ((src_1.array.take src_1.cardinality).drop arraypos) (s.runs.take s.n_runs) prev
        ∧ 1 ≤ s'.n_runs ∧ s'.n_runs ≤ src_1.cardinality + orig.length
        ∧ s'.runs.length = dst.runs.length ∧ s'.capacity = dst.capacity := by
    intro rlepos arraypos s prev hread1 hs1 hpos hl hcap
    obtain ⟨r', a', s1, p1, he, hex, hread2, h11, hb1, hl1, hcap1, hm⟩ :=
      array_run_container_union_loop_refines input src_1 orig
        (src_1.cardinality + orig.length) hin hc _ rlepos arraypos s prev rfl hread1
        (by omega) (by omega) (by omega)
    rw [he]
    simp only
    by_cases ha' : a' < src_1.cardinality
    · rw [if_pos ha']
      obtain ⟨s2, he2, ht2, h12, hb2, hl2, hcap2, _⟩ :=
        array_run_container_union_array_rest_refines src_1 hc
          (src_1.cardinality + orig.length) _ a' s1 p1 rfl h11 (by omega) (by omega)
      refine ⟨s2, he2, ?_, h12, hb2, by omega, by rw [hcap2, hcap1, hcap]⟩
      rw [ht2, hm, List.drop_eq_nil_of_le (show orig.length ≤ r' by omega)]
    · rw [if_neg ha']
      obtain ⟨s2, he2, ht2, h12, hb2, hl2, hcap2⟩ :=
        array_run_container_union_run_rest_refines input orig
          (src_1.cardinality + orig.length) hin _ r' s1 p1 rfl hread2 h11 (by omega)
          (by omega)
      refine ⟨s2, he2, ?_, h12, hb2, by omega, by rw [hcap2, hcap1, hcap]⟩
      rw [ht2, hm, List.drop_eq_nil_of_le
        (show (src_1.array.take src_1.cardinality).length ≤ a' by
          rw [List.length_take]; omega)]
  by_cases hle : rle.value ≤ v
  · rw [if_pos hle]
    have hroom1 : dst.n_runs < dst.runs.length := by omega
    simp only [run_container_append_first, hroom1, if_true, Option.map_some']
    obtain ⟨s', he, ht, h1, h2, h3, h4⟩ := hfinish (0 + 1) 0
      { dst with runs := dst.runs.set dst.n_runs rle, n_runs := dst.n_runs + 1 } rle
      (fun j hj => by
        rw [hin dst _ (fun i hi => getElem?_set_of_lt _ _ _ _ (by omega)) j]
        exact hread j hj)
      (by simp only; omega) (by omega) (by simp only [List.length_set]) rfl
    refine ⟨s', he, ?_, h1, h2, h3, h4⟩
    rw [ht]
    simp only
    rw [take_succ_set _ _ _ hroom1, h0, List.take_zero, List.nil_append]
    conv_rhs => rw [ho, ha, run_list_union, if_pos hle, ← ha]
    simp
  · rw [if_neg hle]
    have hroom1 : dst.n_runs < dst.runs.length := by omega
    simp only [run_container_append_value_first, hroom1, if_true, Option.map_some']
    obtain ⟨s', he, ht, h1, h2, h3, h4⟩ := hfinish 0 (0 + 1)
      { dst with runs := dst.runs.set dst.n_runs ⟨v, 0⟩, n_runs := dst.n_runs + 1 } ⟨v, 0⟩
      (fun j hj => by
        rw [hin dst _ (fun i hi => getElem?_set_of_lt _ _ _ _ (by omega)) j]
        exact hread j hj)
      (by simp only; omega) (by omega) (by simp only [List.length_set]) rfl
    refine ⟨s', he, ?_, h1, h2, h3, h4⟩
    rw [ht]
    simp only
    rw [take_succ_set _ _ _ hroom1, h0, List.take_zero, List.nil_append]
    conv_rhs => rw [ho, ha, run_list_union, if_neg hle, ← ho]
    simp

/-- What `run_list_append` does to well-formed runs whose last run starts at
or before the run appended: the runs stay well-formed and the run appended is
added to the values covered. -/
theorem run_list_append_spec (out : List rle16_t) (vl prev : rle16_t)
    (hp : out.Pairwise (fun x y => x.value + x.length + 1 < y.value))
    (hb : ∀ x ∈ out, x.value + x.length < 65536) (hl : out.getLast? = some prev)
    (hge : prev.value ≤ vl.value) (hvb : vl.value + vl.length < 65536) :
    (run_list_append out vl prev).1.Pairwise (fun x y => x.value + x.length + 1 < y.value)
    ∧ (∀ x ∈ (run_list_append out vl prev).1, x.value + x.length < 65536)
    ∧ (run_list_append out vl prev).1.getLast? = some (run_list_append out vl prev).2
    ∧ (run_list_append out vl prev).2.value ≤ vl.value
    ∧ ∀ v, (run_list_append out vl prev).1.any
          (fun rle => decide (rle.value ≤ v ∧ v ≤ rle.value + rle.length))
        = (out.any (fun rle => decide (rle.value ≤ v ∧ v ≤ rle.value + rle.length))
          || decide (vl.value ≤ v ∧ v ≤ vl.value + vl.length)) := by
  have ho : out.dropLast ++ [prev] = out := List.dropLast_append_getLast? prev (by simp [hl])
  generalize out.dropLast = init at ho
  subst ho
  rw [List.pairwise_append] at hp
  obtain ⟨hp1, _, hp3⟩ := hp
  have hpb : prev.value + prev.length < 65536 := hb prev (by simp)
  have hib : ∀ x ∈ init, x.value + x.length < 65536 := fun x hx => hb x (by simp [hx])
  have hip : ∀ x ∈ init, x.value + x.length + 1 < prev.value := fun x hx =>
    hp3 x hx prev (by simp)
  unfold run_list_append
  by_cases hA : vl.value > prev.value + prev.length + 1
  · simp only [hA, if_true]
    refine ⟨?_, ?_, by simp, le_refl _, ?_⟩
    · rw [List.pairwise_append]
      refine ⟨?_, List.pairwise_singleton _ _, ?_⟩
      · rw [List.pairwise_append]
        exact ⟨hp1, List.pairwise_singleton _ _, hp3⟩
      · intro a ha b hb'
        simp only [List.mem_singleton] at hb'
        subst hb'
        simp only [List.mem_append, List.mem_singleton] at ha
        rcases ha with ha | ha
        · have := hip a ha; omega
        · subst ha; omega
    · intro x hx
      simp only [List.mem_append, List.mem_singleton] at hx
      rcases hx with (hx | hx) | hx
      · exact hib x hx
      · subst hx; exact hpb
      · subst hx; exact hvb
    · intro v
      simp only [List.any_append, List.any_cons, List.any_nil, Bool.or_false]
  · simp only [hA, if_false]
    by_cases hB : vl.value + vl.length + 1 > prev.value + prev.length
    · simp only [hB, if_true, List.dropLast_concat]
      have hmod : (vl.value + vl.length + 1 - 1 - prev.value) % 65536
          = vl.value + vl.length - prev.value := by
        rw [Nat.mod_eq_of_lt (by omega)]; omega
      rw [hmod]
      refine ⟨?_, ?_, by simp, le_trans (le_refl _) hge, ?_⟩
      · rw [List.pairwise_append]
        refine ⟨hp1, List.pairwise_singleton _ _, ?_⟩
        intro a ha b hb'
        simp only [List.mem_singleton] at hb'
        subst hb'
        exact hip a ha
      · intro x hx
        simp only [List.mem_append, List.mem_singleton] at hx
        rcases hx with hx | hx
        · exact hib x hx
        · subst hx; simp only; omega
      · intro v
        simp only [List.any_append, List.any_cons, List.any_nil, Bool.or_false, Bool.or_assoc]
        congr 1
        rw [← Bool.decide_or]
        apply decide_eq_decide.mpr
        constructor
        · intro h; omega
        · intro h; omega
    · simp only [hB, if_false]
      refine ⟨?_, hb, hl, hge, ?_⟩
      · rw [List.pairwise_append]
        exact ⟨hp1, List.pairwise_singleton _ _, hp3⟩
      · intro v
        simp only [List.any_append, List.any_cons, List.any_nil, Bool.or_false, Bool.or_assoc]
        congr 1
        rw [← Bool.decide_or]
        apply decide_eq_decide.mpr
        constructor
        · intro h; exact Or.inl h
        · intro h; omega

/-- On well-formed runs whose last run starts at or before `val`,
`run_list_append_value` does what `run_list_append` does with the run that
holds only `val`. -/
theorem run_list_append_value_eq (out : List rle16_t) (val : Nat) (prev : rle16_t)
    (hb : ∀ x ∈ out, x.value + x.length < 65536) (hl : out.getLast? = some prev)
    (hge : prev.value ≤ val) :
    run_list_append_value out val prev = run_list_append out ⟨val, 0⟩ prev := by
  have ho : out.dropLast ++ [prev] = out := List.dropLast_append_getLast? prev (by simp [hl])
  have hpb : prev.value + prev.length < 65536 := hb prev (by rw [← ho]; simp)
  unfold run_list_append_value run_list_append
  simp only
  by_cases hA : val > prev.value + prev.length + 1
  · simp only [hA, if_true]
  · simp only [hA, if_false]
    by_cases hB : val = prev.value + prev.length + 1
    · have hB2 : val + 0 + 1 > prev.value + prev.length := by omega
      have hm : (val + 0 + 1 - 1 - prev.value) % 65536 = (prev.length + 1) % 65536 := by
        congr 1; omega
      simp only [hB2, if_true, hm, if_pos hB]
    · simp only [hB, if_false]
      by_cases hC : val + 0 + 1 > prev.value + prev.length
      · have hv : val = prev.value + prev.length := by omega
        have hm : (val + 0 + 1 - 1 - prev.value) % 65536 = prev.length := by
          rw [Nat.mod_eq_of_lt (by omega)]; omega
        simp only [hC, if_true, hm]
        exact Prod.ext ho.symm rfl
      · simp only [hC, if_false]

/-- The runs that `run_list_merge` gives for well-formed runs written so far,
well-formed runs and strictly increasing values still to read, none of which
starts before the last run written: they are well-formed and cover what was
covered before, the runs and the values. -/
theorem run_list_merge_spec :
    ∀ (k : Nat) (rs : List rle16_t) (vs : List Nat) (out : List rle16_t) (prev : rle16_t),
      k = rs.length + vs.length →
      out.Pairwise (fun x y => x.value + x.length + 1 < y.value) →
      (∀ x ∈ out, x.value + x.length < 65536) → out.getLast? = some prev →
      rs.Pairwise (fun x y => x.value + x.length + 1 < y.value) →
      (∀ x ∈ rs, x.value + x.length < 65536) →
      vs.Pairwise (fun x y => x < y) → (∀ x ∈ vs, x < 65536) →
      (∀ r ∈ rs, prev.value ≤ r.value) → (∀ x ∈ vs, prev.value ≤ x) →
      (run_list_merge rs vs out prev).Pairwise (fun x y => x.value + x.length + 1 < y.value)
      ∧ (∀ x ∈ run_list_merge rs vs out prev, x.value + x.length < 65536)
      ∧ run_list_merge rs vs out prev ≠ []
      ∧ ∀ v, (run_list_merge rs vs out prev).any
            (fun rle => decide (rle.value ≤ v ∧ v ≤ rle.value + rle.length)) = true
          ↔ (out.any (fun rle => decide (rle.value ≤ v ∧ v ≤ rle.value + rle.length)) = true
            ∨ rs.any (fun rle => decide (rle.value ≤ v ∧ v ≤ rle.value + rle.length)) = true
            ∨ v ∈ vs) := by
  intro k
  induction k with
  | zero =>
    intro rs vs out prev hk hp hb hl _ _ _ _ _ _
    have h1 : rs = [] := List.length_eq_zero.mp (by omega)
    have h2 : vs = [] := List.length_eq_zero.mp (by omega)
    subst h1 h2
    rw [run_list_merge]
    refine ⟨hp, hb, ?_, ?_⟩
    · intro h; rw [h] at hl; simp at hl
    · intro v; simp
  | succ k ih =>
    intro rs vs out prev hk hp hb hl hrp hrb hvp hvb hrge hvge
    -- the step with the first run
    have step_run : ∀ (r : rle16_t) (rs' : List rle16_t) (vs' : List Nat), rs = r :: rs' →
        k = rs'.length + vs'.length →
        vs'.Pairwise (fun x y => x < y) → (∀ x ∈ vs', x < 65536) →
        (∀ x ∈ vs', r.value ≤ x) → (∀ v, v ∈ vs ↔ v ∈ vs') →
        run_list_merge rs vs out prev
          = run_list_merge rs' vs' (run_list_append out r prev).1 (run_list_append out r prev).2 →
        (run_list_merge rs vs out prev).Pairwise (fun x y => x.value + x.length + 1 < y.value)
        ∧ (∀ x ∈ run_list_merge rs vs out prev, x.value + x.length < 65536)
        ∧ run_list_merge rs vs out prev ≠ []
        ∧ ∀ v, (run_list_merge rs vs out prev).any
              (fun rle => decide (rle.value ≤ v ∧ v ≤ rle.value + rle.length)) = true
            ↔ (out.any (fun rle => decide (rle.value ≤ v ∧ v ≤ rle.value + rle.length)) = true
              ∨ rs.any (fun rle => decide (rle.value ≤ v ∧ v ≤ rle.value + rle.length)) = true
              ∨ v ∈ vs) := by
      intro r rs' vs' hrs hk' hvp' hvb' hvge' hmem heq
      subst hrs
      rw [List.pairwise_cons] at hrp
      obtain ⟨a1, a2, a3, a4, a5⟩ := run_list_append_spec out r prev hp hb hl
        (hrge r (by simp)) (hrb r (by simp))
      obtain ⟨b1, b2, b3, b4⟩ := ih rs' vs' _ _ hk' a1 a2 a3 hrp.2
        (fun x hx => hrb x (by simp [hx])) hvp' hvb'
        (fun x hx => by have := hrp.1 x hx; omega)
        (fun x hx => by have := hvge' x hx; omega)
      rw [heq]
      refine ⟨b1, b2, b3, ?_⟩
      intro v
      rw [b4 v, a5 v, hmem v]
      simp only [List.any_cons, Bool.or_eq_true, decide_eq_true_eq]
      tauto
    -- the step with the first value
    have step_val : ∀ (x : Nat) (rs' : List rle16_t) (vs' : List Nat), vs = x :: vs' →
        k = rs'.length + vs'.length →
        rs'.Pairwise (fun x y => x.value + x.length + 1 < y.value) →
        (∀ r ∈ rs', r.value + r.length < 65536) →
        (∀ r ∈ rs', x ≤ r.value) →
        (∀ v, rs.any (fun rle => decide (rle.value ≤ v ∧ v ≤ rle.value + rle.length)) = true
          ↔ rs'.any (fun rle => decide (rle.value ≤ v ∧ v ≤ rle.value + rle.length)) = true) →
        run_list_merge rs vs out prev
          = run_list_merge rs' vs' (run_list_append_value out x prev).1
              (run_list_append_value out x prev).2 →
        (run_list_merge rs vs out prev).Pairwise (fun x y => x.value + x.length + 1 < y.value)
        ∧ (∀ x ∈ run_list_merge rs vs out prev, x.value + x.length < 65536)
        ∧ run_list_merge rs vs out prev ≠ []
        ∧ ∀ v, (run_list_merge rs vs out prev).any
              (fun rle => decide (rle.value ≤ v ∧ v ≤ rle.value + rle.length)) = true
            ↔ (out.any (fun rle => decide (rle.value ≤ v ∧ v ≤ rle.value + rle.length)) = true
              ∨ rs.any (fun rle => decide (rle.value ≤ v ∧ v ≤ rle.value + rle.length)) = true
              ∨ v ∈ vs) := by
      intro x rs' vs' hvs hk' hrp' hrb' hrge' hmem heq
      subst hvs
      rw [List.pairwise_cons] at hvp
      have hx : prev.value ≤ x := hvge x (by simp)
      rw [run_list_append_value_eq out x prev hb hl hx] at heq
      obtain ⟨a1, a2, a3, a4, a5⟩ := run_list_append_spec out ⟨x, 0⟩ prev hp hb hl hx
        (by simp only; have := hvb x (by simp); omega)
      simp only at a4
      obtain ⟨b1, b2, b3, b4⟩ := ih rs' vs' _ _ hk' a1 a2 a3 hrp' hrb' hvp.2
        (fun y hy => hvb y (by simp [hy]))
        (fun r hr => by have := hrge' r hr; omega)
        (fun y hy => by have := hvp.1 y hy; omega)
      rw [heq]
      refine ⟨b1, b2, b3, ?_⟩
      intro v
      rw [b4 v, a5 v, hmem v]
      simp only [List.mem_cons, Bool.or_eq_true, decide_eq_true_eq]
      constructor
      · rintro ((h | h) | h | h)
        · exact Or.inl h
        · exact Or.inr (Or.inr (Or.inl (by omega)))
        · exact Or.inr (Or.inl h)
        · exact Or.inr (Or.inr (Or.inr h))
      · rintro (h | h | h | h)
        · exact Or.inl (Or.inl h)
        · exact Or.inr (Or.inl h)
        · exact Or.inl (Or.inr (by omega))
        · exact Or.inr (Or.inr h)
    cases rs with
    | nil =>
      cases vs with
      | nil => simp at hk
      | cons x vs' =>
        exact step_val x [] vs' rfl (by simp only [List.length_cons, List.length_nil] at hk ⊢; omega)
          List.Pairwise.nil (fun _ h => by simp at h) (fun _ h => by simp at h)
          (fun _ => Iff.rfl) (by rw [run_list_merge])
    | cons r rs' =>
      cases vs with
      | nil =>
        exact step_run r rs' [] rfl (by simp only [List.length_cons, List.length_nil] at hk ⊢; omega)
          List.Pairwise.nil (fun _ h => by simp at h) (fun _ h => by simp at h)
          (fun _ => Iff.rfl) (by rw [run_list_merge])
      | cons x vs' =>
        by_cases hle : r.value ≤ x
        · rw [List.pairwise_cons] at hvp
          exact step_run r rs' (x :: vs') rfl
            (by simp only [List.length_cons] at hk ⊢; omega)
            (List.pairwise_cons.mpr hvp) hvb
            (fun y hy => by
              rcases List.mem_cons.mp hy with h | h
              · omega
              · have := hvp.1 y h; omega)
            (fun _ => Iff.rfl) (by rw [run_list_merge, if_pos hle])
        · rw [List.pairwise_cons] at hrp
          exact step_val x (r :: rs') vs' rfl
            (by simp only [List.length_cons] at hk ⊢; omega)
            (List.pairwise_cons.mpr hrp) hrb
            (fun y hy => by
              rcases List.mem_cons.mp hy with h | h
              · subst h; omega
              · have := hrp.1 y h; omega)
            (fun _ => Iff.rfl) (by rw [run_list_merge, if_neg hle])

/-- The runs of `run_list_union` for well-formed runs and strictly increasing
16-bit values, both non-empty, are well-formed, non-empty and cover exactly the
runs and the values. -/
theorem run_list_union_spec (rs : List rle16_t) (vs : List Nat) (hrs : rs ≠ []) (hvs : vs ≠ [])
    (hrp : rs.Pairwise (fun x y => x.value + x.length + 1 < y.value))
    (hrb : ∀ x ∈ rs, x.value + x.length < 65536)
    (hvp : vs.Pairwise (fun x y => x < y)) (hvb : ∀ x ∈ vs, x < 65536) :
    (run_list_union rs vs).Pairwise (fun x y => x.value + x.length + 1 < y.value)
    ∧ (∀ x ∈ run_list_union rs vs, x.value + x.length < 65536)
    ∧ run_list_union rs vs ≠ []
    ∧ ∀ v, (run_list_union rs vs).any
          (fun rle => decide (rle.value ≤ v ∧ v ≤ rle.value + rle.length))
        = (vs.contains v
          || rs.any (fun rle => decide (rle.value ≤ v ∧ v ≤ rle.value + rle.length))) := by
  cases rs with
  | nil => exact absurd rfl hrs
  | cons r rs' =>
    cases vs with
    | nil => exact absurd rfl hvs
    | cons x vs' =>
      rw [List.pairwise_cons] at hrp hvp
      have hu : run_list_union (r :: rs') (x :: vs')
          = if r.value ≤ x then run_list_merge rs' (x :: vs') [r] r
            else run_list_merge (r :: rs') vs' [⟨x, 0⟩] ⟨x, 0⟩ := rfl
      rw [hu]
      by_cases hle : r.value ≤ x
      · rw [if_pos hle]
        obtain ⟨b1, b2, b3, b4⟩ := run_list_merge_spec _ rs' (x :: vs') [r] r rfl
          (List.pairwise_singleton _ _)
          (fun y hy => by
            simp only [List.mem_singleton] at hy; subst hy; exact hrb _ (by simp))
          (by simp) hrp.2 (fun y hy => hrb y (by simp [hy])) (List.pairwise_cons.mpr hvp) hvb
          (fun y hy => by have := hrp.1 y hy; omega)
          (fun y hy => by
            rcases List.mem_cons.mp hy with h | h
            · omega
            · have := hvp.1 y h; omega)
        refine ⟨b1, b2, b3, ?_⟩
        intro v
        rw [Bool.eq_iff_iff, b4 v, Bool.or_eq_true, List.elem_iff]
        simp only [List.any_cons, List.any_nil, Bool.or_false, Bool.or_eq_true,
          decide_eq_true_eq, List.mem_cons]
        tauto
      · rw [if_neg hle]
        obtain ⟨b1, b2, b3, b4⟩ := run_list_merge_spec _ (r :: rs') vs' [⟨x, 0⟩] ⟨x, 0⟩ rfl
          (List.pairwise_singleton _ _)
          (fun y hy => by
            simp only [List.mem_singleton] at hy; subst hy
            simp only; have := hvb x (by simp); omega)
          (by simp) (List.pairwise_cons.mpr hrp) hrb hvp.2 (fun y hy => hvb y (by simp [hy]))
          (fun y hy => by
            simp only
            rcases List.mem_cons.mp hy with h | h
            · subst h; omega
            · have := hrp.1 y h; omega)
          (fun y hy => by simp only; have := hvp.1 y hy; omega)
        refine ⟨b1, b2, b3, ?_⟩
        intro v
        rw [Bool.eq_iff_iff, b4 v, Bool.or_eq_true, List.elem_iff]
        simp only [List.any_cons, List.any_nil, Bool.or_false, Bool.or_eq_true,
          decide_eq_true_eq, List.mem_cons]
        constructor
        · rintro (h | h | h)
          · exact Or.inl (Or.inl (by omega))
          · exact Or.inr h
          · exact Or.inl (Or.inr h)
        · rintro ((h | h) | h)
          · exact Or.inl (by omega)
          · exact Or.inr (Or.inr h)
          · exact Or.inr (Or.inl h)

theorem run_container_grow_n_runs (run : run_container_t) (min : Nat) (copy : Bool)
    (junk : Nat → rle16_t) : (run_container_grow run min copy junk).n_runs = run.n_runs := rfl

theorem run_container_grow_length (run : run_container_t) (min : Nat) (copy : Bool)
    (junk : Nat → rle16_t) :
    (run_container_grow run min copy junk).runs.length
        = (run_container_grow run min copy junk).capacity
    ∧ min ≤ (run_container_grow run min copy junk).capacity
    ∧ run.capacity ≤ (run_container_grow run min copy junk).capacity := by
  unfold run_container_grow
  simp only [List.length_map, List.length_range]
  refine ⟨trivial, ?_, ?_⟩ <;> split <;> omega

theorem run_container_grow_copy (run : run_container_t) (min : Nat) (junk : Nat → rle16_t)
    (i : Nat) (h : i < run.runs.length) (hcap : run.runs.length ≤ run.capacity) :
    (run_container_grow run min true junk).runs[i]? = run.runs[i]? := by
  unfold run_container_grow
  have hi : i < (if run.capacity < min then min else run.capacity) := by split <;> omega
  simp only [if_true]
  rw [List.getElem?_map, List.getElem?_range hi]
  simp [List.getElem?_eq_getElem h]

/-- What `run_container_is_full` returns on a container with a first run. -/
theorem run_container_is_full_some (run : run_container_t) (h : 1 ≤ run.runs.length) :
    ∃ vl, run.runs[0]? = some vl
      ∧ run_container_is_full run
        = some (decide (run.n_runs = 1) && decide (vl.value = 0) && decide (vl.length = 0xFFFF)) := by
  refine ⟨run.runs[0], by simp [h], ?_⟩
  unfold run_container_is_full
  simp [List.getElem?_eq_getElem (show 0 < run.runs.length by omega)]

/-- The call of `memmove` of `array_run_container_inplace_union` inside a buffer
that is long enough: the first `n` runs stand at offset `dst` afterwards. -/
theorem memmove_runs_spec (runs : List rle16_t) (dst n : Nat) (h : dst + n ≤ runs.length)
    (hd : n ≤ dst) :
    ∃ runs', memmove_runs runs dst 0 n = some runs' ∧ runs'.length = runs.length
      ∧ ∀ j, j < n → runs'[dst + j]? = runs[j]? := by
  unfold memmove_runs
  rw [if_pos ⟨h, by omega⟩]
  refine ⟨_, rfl, ?_, ?_⟩
  · simp only [List.length_append, List.length_take, List.length_drop, List.drop_zero]
    omega
  · intro j hj
    simp only [List.drop_zero]
    rw [List.append_assoc, List.getElem?_append_right (by rw [List.length_take]; omega),
      List.length_take, Nat.min_eq_left (by omega), Nat.add_sub_cancel_left,
      List.getElem?_append_left (by rw [List.length_take]; omega),
      List.getElem?_take_of_lt hj]

/-- The common part of the two unions on the inputs of
`array_run_container_union`: the runs written are those of
`run_list_union`. -/
theorem array_run_container_union_merge_out (src_1 : array_container_t)
    (src_2 dst : run_container_t) (junk : Nat → rle16_t)
    (hc1 : 1 ≤ src_1.cardinality) (hc : src_1.cardinality ≤ src_1.array.length)
    (hn1 : 1 ≤ src_2.n_runs) (hn : src_2.n_runs ≤ src_2.runs.length) (hd : dst.n_runs = 0) :
    ∃ s', array_run_container_union_merge (fun _ rlepos => src_2.runs[rlepos]?) src_1
          src_2.n_runs
          (run_container_grow dst (2 * (src_1.cardinality + src_2.n_runs)) false junk) = some s'
      ∧ s'.runs.take s'.n_runs
        = run_list_union (src_2.runs.take src_2.n_runs) (src_1.array.take src_1.cardinality)
      ∧ 1 ≤ s'.n_runs ∧ s'.n_runs ≤ src_1.cardinality + src_2.n_runs
      ∧ s'.runs.length = s'.capacity
      ∧ 2 * (src_1.cardinality + src_2.n_runs) ≤ s'.capacity := by
  have hlen : (src_2.runs.take src_2.n_runs).length = src_2.n_runs := by
    rw [List.length_take]; omega
  obtain ⟨g1, g2, _⟩ := run_container_grow_length dst
    (2 * (src_1.cardinality + src_2.n_runs)) false junk
  have h := array_run_container_union_merge_refines (fun _ rlepos => src_2.runs[rlepos]?) src_1
    (src_2.runs.take src_2.n_runs)
    (run_container_grow dst (2 * (src_1.cardinality + src_2.n_runs)) false junk)
    (fun _ _ _ _ => rfl) hc1 hc (by omega) hd (by omega)
    (fun j hj => by
      rw [hlen] at hj
      simp only
      rw [List.getElem?_take_of_lt hj])
  rw [hlen] at h
  obtain ⟨s', e1, e2, e3, e4, e5, e6⟩ := h
  exact ⟨s', e1, e2, e3, e4, by omega, by omega⟩

/-- The common part of the two unions on the inputs of
`array_run_container_inplace_union`: the runs written are those of
`run_list_union` for the runs that the container held. -/
theorem array_run_container_inplace_union_out (src_1 : array_container_t)
    (src_2 : run_container_t) (junk : Nat → rle16_t)
    (hc1 : 1 ≤ src_1.cardinality) (hc : src_1.cardinality ≤ src_1.array.length)
    (hn1 : 1 ≤ src_2.n_runs) (hn : src_2.n_runs ≤ src_2.runs.length)
    (hcap : src_2.runs.length = src_2.capacity)
    (hfull : run_container_is_full src_2 = some false) :
    ∃ s', array_run_container_inplace_union src_1 src_2 junk = some s'
      ∧ s'.runs.take s'.n_runs
        = run_list_union (src_2.runs.take src_2.n_runs) (src_1.array.take src_1.cardinality)
      ∧ 1 ≤ s'.n_runs ∧ s'.n_runs ≤ src_1.cardinality + src_2.n_runs
      ∧ s'.runs.length = s'.capacity
      ∧ src_1.cardinality + src_2.n_runs + src_2.n_runs ≤ s'.capacity := by
  have hlen : (src_2.runs.take src_2.n_runs).length = src_2.n_runs := by
    rw [List.length_take]; omega
  unfold array_run_container_inplace_union
  rw [hfull]
  simp only
  -- the container after the optional call of `run_container_grow`
  obtain ⟨s2, hs2, k1, k2, k3, k4⟩ : ∃ s2 : run_container_t,
      (if src_2.capacity < src_1.cardinality + src_2.n_runs + src_2.n_runs then
          run_container_grow src_2 (src_1.cardinality + src_2.n_runs + src_2.n_runs) true junk
        else src_2) = s2
      ∧ s2.n_runs = src_2.n_runs
      ∧ src_1.cardinality + src_2.n_runs + src_2.n_runs ≤ s2.runs.length
      ∧ s2.runs.length = s2.capacity
      ∧ ∀ j, j < src_2.n_runs → s2.runs[j]? = src_2.runs[j]? := by
    by_cases hg : src_2.capacity < src_1.cardinality + src_2.n_runs + src_2.n_runs
    · rw [if_pos hg]
      obtain ⟨g1, g2, _⟩ := run_container_grow_length src_2
        (src_1.cardinality + src_2.n_runs + src_2.n_runs) true junk
      exact ⟨_, rfl, rfl, by omega, g1,
        fun j hj => run_container_grow_copy src_2 _ junk j (by omega) (by omega)⟩
    · rw [if_neg hg]
      exact ⟨_, rfl, rfl, by omega, hcap, fun _ _ => rfl⟩
  rw [hs2, k1]
  obtain ⟨runs', m1, m2, m3⟩ := memmove_runs_spec s2.runs (src_1.cardinality + src_2.n_runs)
    src_2.n_runs (by omega) (by omega)
  rw [m1]
  simp only
  have h := array_run_container_union_merge_refines
    (fun dst rlepos => dst.runs[src_1.cardinality + src_2.n_runs + rlepos]?) src_1
    (src_2.runs.take src_2.n_runs) { s2 with runs := runs', n_runs := 0 }
    (fun s s' hs j => by
      simp only
      exact hs _ (by rw [hlen]; omega))
    hc1 hc (by omega) rfl (by simp only; omega)
    (fun j hj => by
      rw [hlen] at hj
      simp only
      rw [m3 j hj, k4 j hj, List.getElem?_take_of_lt hj])
  rw [hlen] at h
  obtain ⟨s', e1, e2, e3, e4, e5, e6⟩ := h
  simp only at e5 e6
  exact ⟨s', e1, e2, e3, e4, by omega, by omega⟩

/-- C33: for every non-empty array container `src_1` with strictly increasing
16-bit values, every non-empty run container `src_2` with sorted, disjoint,
non-adjacent runs of 16-bit values, and every run container `dst` without runs
(as `run_container_create` returns it; `run_container_grow` does not reset the
number of runs), whatever the contents of fresh memory: `array_run_container_union`
returns without a read or write outside a buffer, `dst` is then a non-empty run
container with sorted, disjoint, non-adjacent runs of 16-bit values, it holds
exactly the values of `src_1` and of `src_2`, and when `src_2` is the full run
`{0, 0xFFFF}` the runs of `dst` are those of `src_2`. -/
theorem array_run_container_union_correct (src_1 : array_container_t)
    (src_2 dst : run_container_t) (junk : Nat → rle16_t)
    (h1 : container_valid (.array src_1)) (h2 : container_valid (.run src_2))
    (hd : dst.n_runs = 0) :
    ∃ out, array_run_container_union src_1 src_2 dst junk = some out
      ∧ container_valid (.run out)
      ∧ (∀ v, run_container_contains out v
          = (array_container_contains src_1 v || run_container_contains src_2 v))
      ∧ (run_container_is_full src_2 = some true →
          out.n_runs = src_2.n_runs
          ∧ out.runs.take out.n_runs = src_2.runs.take src_2.n_runs) := by
  obtain ⟨⟨a1, a2, a3⟩, a4⟩ := h1
  obtain ⟨r1, r2, r3, r4⟩ := h2
  obtain ⟨vl, hvl, hfull⟩ := run_container_is_full_some src_2 (by omega)
  unfold array_run_container_union
  rw [hfull]
  by_cases hb : (decide (src_2.n_runs = 1) && decide (vl.value = 0)
      && decide (vl.length = 0xFFFF)) = true
  · rw [hb]
    simp only
    simp only [Bool.and_eq_true, decide_eq_true_eq] at hb
    obtain ⟨⟨b1, b2⟩, b3⟩ := hb
    have htake : src_2.runs.take src_2.n_runs = [vl] := by
      rw [b1]
      have := drop_eq_cons_of_getElem? src_2.runs 0 vl hvl
      rw [List.drop_zero] at this
      rw [this]
      simp
    have hout : (run_container_copy src_2 dst junk).runs.take
        (run_container_copy src_2 dst junk).n_runs = src_2.runs.take src_2.n_runs := by
      unfold run_container_copy
      simp only
      apply List.take_left'
      rw [List.length_take]; omega
    have hlen : (run_container_copy src_2 dst junk).n_runs
        ≤ (run_container_copy src_2 dst junk).runs.length := by
      unfold run_container_copy
      simp only [List.length_append, List.length_take]
      omega
    refine ⟨_, rfl, ⟨hlen, r2, ?_, ?_⟩, ?_, fun _ => ⟨rfl, hout⟩⟩
    · rw [hout]; exact r3
    · rw [hout]; exact r4
    · intro v
      unfold run_container_contains array_container_contains
      rw [hout, htake]
      simp only [List.any_cons, List.any_nil, Bool.or_false, b2, b3]
      rw [Bool.eq_iff_iff, Bool.or_eq_true, List.elem_iff]
      simp only [decide_eq_true_eq]
      constructor
      · intro h; exact Or.inr h
      · rintro (h | h)
        · have := a3 v h; omega
        · exact h
  · have hb' : (decide (src_2.n_runs = 1) && decide (vl.value = 0)
        && decide (vl.length = 0xFFFF)) = false := by
      simpa using hb
    rw [hb']
    simp only
    obtain ⟨s', e1, e2, e3, e4, e5, e6⟩ := array_run_container_union_merge_out src_1 src_2 dst
      junk a4 a1 r2 r1 hd
    obtain ⟨u1, u2, u3, u4⟩ := run_list_union_spec (src_2.runs.take src_2.n_runs)
      (src_1.array.take src_1.cardinality)
      (by
        intro h
        have := congrArg List.length h
        rw [List.length_take] at this
        simp only [List.length_nil] at this
        omega)
      (by
        intro h
        have := congrArg List.length h
        rw [List.length_take] at this
        simp only [List.length_nil] at this
        omega)
      r3 r4 a2 a3
    refine ⟨s', e1, ⟨by omega, e3, ?_, ?_⟩, ?_, ?_⟩
    · rw [e2]; exact u1
    · rw [e2]; exact u2
    · intro v
      unfold run_container_contains array_container_contains
      rw [e2]
      exact u4 v
    · intro h
      simp at h

/-- C33, witness: the union of `{1, 5, 20}` and `{2, 3, 4, 10, ..., 15}`. -/
theorem array_run_container_union_correct_witness :
    container_valid (.array example_union_array) ∧ container_valid (.run example_union_run)
    ∧ ∃ out, array_run_container_union example_union_array example_union_run ⟨0, 0, []⟩
          (fun _ => ⟨0, 0⟩) = some out
      ∧ container_valid (.run out)
      ∧ (∀ v, run_container_contains out v
          = (array_container_contains example_union_array v
            || run_container_contains example_union_run v))
      ∧ (run_container_is_full example_union_run = some true →
          out.n_runs = example_union_run.n_runs
          ∧ out.runs.take out.n_runs = example_union_run.runs.take example_union_run.n_runs) :=
  ⟨by simp [container_valid, array_container_valid, example_union_array],
    by simp [container_valid, example_union_run],
    array_run_container_union_correct example_union_array example_union_run ⟨0, 0, []⟩
      (fun _ => ⟨0, 0⟩)
      (by simp [container_valid, array_container_valid, example_union_array])
      (by simp [container_valid, example_union_run]) rfl⟩

/-- C34: for every non-empty array container `src_1` and every non-empty run
container `src_2` that is not full, whatever their values and the contents of
fresh memory: `array_run_container_union`, called with a run container `dst`
without runs, and `array_run_container_inplace_union` return without a read or
write outside a buffer; the number of runs of the result is at most
`src_1->cardinality + src_2->n_runs` in both, which is within the capacity
reserved, `2 * (cardinality + n_runs)` in the first and `cardinality + 2 *
n_runs` in the second; and the in-place version writes the same runs as the
other one, those that the loops give on the runs that `src_2` held at the
call: no input run moved to the offset `maxoutput` is overwritten before it is
read. -/
theorem array_run_container_union_capacity (src_1 : array_container_t)
    (src_2 dst : run_container_t) (junk : Nat → rle16_t)
    (hc1 : 1 ≤ src_1.cardinality) (hc : src_1.cardinality ≤ src_1.array.length)
    (hn1 : 1 ≤ src_2.n_runs) (hn : src_2.n_runs ≤ src_2.runs.length)
    (hcap : src_2.runs.length = src_2.capacity)
    (hfull : run_container_is_full src_2 = some false) (hd : dst.n_runs = 0) :
    ∃ out out2, array_run_container_union src_1 src_2 dst junk = some out
      ∧ out.n_runs ≤ src_1.cardinality + src_2.n_runs
      ∧ 2 * (src_1.cardinality + src_2.n_runs) ≤ out.capacity
      ∧ out.runs.length = out.capacity
      ∧ array_run_container_inplace_union src_1 src_2 junk = some out2
      ∧ out2.n_runs ≤ src_1.cardinality + src_2.n_runs
      ∧ src_1.cardinality + src_2.n_runs + src_2.n_runs ≤ out2.capacity
      ∧ out2.runs.length = out2.capacity
      ∧ out2.n_runs = out.n_runs
      ∧ out2.runs.take out2.n_runs = out.runs.take out.n_runs
      ∧ out.runs.take out.n_runs
        = run_list_union (src_2.runs.take src_2.n_runs)
            (src_1.array.take src_1.cardinality) := by
  obtain ⟨s', e1, e2, e3, e4, e5, e6⟩ := array_run_container_union_merge_out src_1 src_2 dst
    junk hc1 hc hn1 hn hd
  obtain ⟨s2, f1, f2, f3, f4, f5, f6⟩ := array_run_container_inplace_union_out src_1 src_2
    junk hc1 hc hn1 hn hcap hfull
  have hu : array_run_container_union src_1 src_2 dst junk = some s' := by
    unfold array_run_container_union
    rw [hfull]
    exact e1
  have hnr : s2.n_runs = s'.n_runs := by
    have h := congrArg List.length (f2.trans e2.symm)
    rw [List.length_take, List.length_take] at h
    omega
  exact ⟨s', s2, hu, e4, e6, e5, f1, f4, f6, f5, hnr, f2.trans e2.symm, e2⟩

/-- C34, witness: the two unions of `{1, 5, 20}` and
`{2, 3, 4, 10, ..., 15}`. -/
theorem array_run_container_union_capacity_witness :
    run_container_is_full example_union_run = some false
    ∧ ∃ out out2, array_run_container_union example_union_array example_union_run ⟨0, 0, []⟩
          (fun _ => ⟨0, 0⟩) = some out
      ∧ out.n_runs ≤ example_union_array.cardinality + example_union_run.n_runs
      ∧ 2 * (example_union_array.cardinality + example_union_run.n_runs) ≤ out.capacity
      ∧ out.runs.length = out.capacity
      ∧ array_run_container_inplace_union example_union_array example_union_run
          (fun _ => ⟨0, 0⟩) = some out2
      ∧ out2.n_runs ≤ example_union_array.cardinality + example_union_run.n_runs
      ∧ example_union_array.cardinality + example_union_run.n_runs + example_union_run.n_runs
          ≤ out2.capacity
      ∧ out2.runs.length = out2.capacity
      ∧ out2.n_runs = out.n_runs
      ∧ out2.runs.take out2.n_runs = out.runs.take out.n_runs
      ∧ out.runs.take out.n_runs
        = run_list_union (example_union_run.runs.take example_union_run.n_runs)
            (example_union_array.array.take example_union_array.cardinality) :=
  ⟨rfl,
    array_run_container_union_capacity example_union_array example_union_run ⟨0, 0, []⟩
      (fun _ => ⟨0, 0⟩) (by decide) (by decide) (by decide) (by decide) rfl rfl rfl⟩

theorem uint32_cast_sub (a b : Nat) (h : b ≤ a) (ha : a - b < 2 ^ 32) :
    uint32_cast ((a : Int) - (b : Int)) = a - b := by
  unfold uint32_cast
  have h1 : ((a : Int) - (b : Int)) = ((a - b : Nat) : Int) := by omega
  rw [h1]
  have h2 : (((a - b : Nat) : Int) % 2 ^ 32) = ((a - b : Nat) : Int) := by
    apply Int.emod_eq_of_lt <;> omega
  rw [h2]
  simp

theorem minimum_uint32_eq (a b : Nat) : minimum_uint32 a b = min a b := by
  unfold minimum_uint32
  split <;> omega

theorem take_drop_take {α : Type} (l : List α) (n i k : Nat) (h : i + k ≤ n) :
    (l.drop i).take k = ((l.take n).drop i).take k := by
  rw [List.drop_take, List.take_take, Nat.min_eq_left (by omega)]

/-- The `switch` of `roaring_read_uint32_iterator` on an array container. -/
theorem roaring_read_uint32_iterator_container_array (rb : roaring_bitmap_t container_t)
    (hv : iterator_valid rb) (it : roaring_uint32_iterator_t) (hp : it.parent = rb)
    (hpos : iterator_positioned it) (a : array_container_t) (hc : it.container = .array a)
    (count : Nat) (buf : List Nat) (hcount : count < 2 ^ 32) (hbuf : buf.length < count) :
    ∃ it' buf', roaring_read_uint32_iterator_container count it buf = some (it', buf')
      ∧ iterator_read_container_spec count it buf it' buf' := by
  obtain ⟨hhas, hci, e, he, hcont, hhb, hm⟩ := hpos
  cases it with
  | mk parent ci ici ri cur has cont hb =>
  simp only at hp hc hhas hci he hcont hhb hm
  subst hp hc hhas
  simp only at hm
  obtain ⟨hlt, x, hx, hcur⟩ := hm
  have hmem : e ∈ parent.high_low_container := mem_of_getElem?_eq_some _ _ _ he
  have hval := hv.2.2 e hmem
  rw [← hcont] at hval
  obtain ⟨⟨v1, v2, v3⟩, v4⟩ := hval
  have hk := hv.2.1 e hmem
  have hcard : a.cardinality ≤ 65536 := by
    have := sorted_length_le _ 65536 v2 v3
    rw [List.length_take] at this
    omega
  have hcr : container_remaining ⟨parent, ci, ici, ri, cur, true, .array a, hb⟩
      = (a.array.take a.cardinality).drop ici := rfl
  have hcrl : ((a.array.take a.cardinality).drop ici).length = a.cardinality - ici := by
    rw [List.length_drop, List.length_take]; omega
  unfold iterator_read_container_spec
  rw [hcr, hcrl]
  unfold roaring_read_uint32_iterator_container
  simp only
  rw [uint32_cast_sub _ _ (by omega) (by omega), uint32_cast_sub _ _ (by omega) (by omega),
    minimum_uint32_eq, Nat.min_comm (a.cardinality - ici)]
  generalize hkdef : min (count - buf.length) (a.cardinality - ici) = k
  have hk1 : k ≤ a.cardinality - ici := by omega
  have hk2 : k ≤ count - buf.length := by omega
  rw [if_pos (by omega)]
  have hbufeq : buf ++ ((a.array.drop ici).take k).map (fun v => hb ||| v)
      = buf ++ (((a.array.take a.cardinality).drop ici).take k).map (fun x => hb + x) := by
    congr 1
    rw [take_drop_take a.array a.cardinality ici k (by omega)]
    apply List.map_congr_left
    intro y hy
    have hy16 : y < 65536 := v3 y (List.mem_of_mem_drop (List.mem_of_mem_take hy))
    rw [hhb, ← highbits_eq e.1 hk]
    exact highbits_or e.1 y hk hy16
  by_cases hlast : ici + k < a.cardinality
  · simp only [hlast, decide_True, if_true]
    obtain ⟨y, hy⟩ : ∃ y, a.array[ici + k]? = some y :=
      ⟨_, List.getElem?_eq_getElem (by omega)⟩
    have hy16 : y < 65536 := by
      apply v3
      have := drop_take_cons a.array a.cardinality _ y hy hlast
      exact List.mem_of_mem_drop (this ▸ List.mem_cons_self _ _)
    have hor : hb ||| y = hb + y := by
      rw [hhb, ← highbits_eq e.1 hk]
      exact highbits_or e.1 y hk hy16
    simp only [hy]
    refine ⟨_, _, rfl, hbufeq, rfl, rfl, rfl, rfl, fun h => h, fun _ => ⟨?_, ?_⟩, ?_⟩
    · exact ⟨rfl, hci, e, he, hcont, hhb, hlast, y, hy, hor⟩
    · simp only [container_remaining, List.drop_drop]
    · intro h; omega
  · simp only [hlast, decide_False, Bool.false_eq_true, if_false]
    refine ⟨_, _, rfl, hbufeq, rfl, rfl, rfl, rfl, fun h => h, fun h => ?_, fun _ => rfl⟩
    omega

theorem take_range'_min (s n m : Nat) :
    (List.range' s n).take m = List.range' s (min m n) := by
  induction m generalizing s n with
  | zero => simp
  | succ m ih =>
    cases n with
    | zero => simp
    | succ n =>
      rw [List.range'_succ, List.take_succ_cons, ih, Nat.succ_min_succ, List.range'_succ]

theorem drop_range'_add (s n m : Nat) :
    (List.range' s n).drop m = List.range' (s + m) (n - m) := by
  induction m generalizing s n with
  | zero => simp
  | succ m ih =>
    cases n with
    | zero => simp
    | succ n =>
      rw [List.range'_succ, List.drop_succ_cons, ih]
      congr 1 <;> omega

theorem uint32_cast_sub_add_one (a b : Nat) (h : b ≤ a) (ha : a - b + 1 < 2 ^ 32) :
    uint32_cast ((a : Int) - (b : Int) + 1) = a - b + 1 := by
  unfold uint32_cast
  have h1 : ((a : Int) - (b : Int) + 1) = ((a - b + 1 : Nat) : Int) := by omega
  rw [h1]
  have h2 : (((a - b + 1 : Nat) : Int) % 2 ^ 32) = ((a - b + 1 : Nat) : Int) := by
    apply Int.emod_eq_of_lt <;> omega
  rw [h2]
  simp

theorem map_add_range' (hb s n : Nat) :
    (List.range' s n).map (fun x => hb + x) = (List.range n).map (fun i => hb + s + i) := by
  induction n generalizing s with
  | zero => simp
  | succ n ih =>
    rw [List.range'_succ, List.map_cons, ih, List.range_succ_eq_map, List.map_cons,
      List.map_map]
    congr 1
    apply List.map_congr_left
    intro i _
    simp only [Function.comp]
    omega

theorem take_append_len {α : Type} (l1 l2 : List α) (S k : Nat) (h : l1.length = S) :
    (l1 ++ l2).take (S + k) = l1 ++ l2.take k := by
  rw [← h]; exact List.take_append _

theorem drop_append_len {α : Type} (l1 l2 : List α) (S k : Nat) (h : l1.length = S) :
    (l1 ++ l2).drop (S + k) = l2.drop k := by
  rw [← h]; exact List.drop_append _

theorem min_add_split (R S L : Nat) (h : S ≤ R) : min R (S + L) = S + min (R - S) L := by
  simp only [Nat.min_def]
  split <;> split <;> omega

/-- The loop of `roaring_read_uint32_iterator` on a run container, from a
position inside run `ri`. -/
theorem roaring_read_uint32_iterator_run_spec (r : run_container_t)
    (w1 : r.n_runs ≤ r.runs.length)
    (w4 : ∀ x ∈ r.runs.take r.n_runs, x.value + x.length < 65536)
    (key : Nat) (hk : key < 65536) (count : Nat) (hcount : count < 2 ^ 32)
    (parent : roaring_bitmap_t container_t) (ci : Int) (ici : Nat) (cont : container_t) :
    ∀ (fuel ri cur : Nat) (buf : List Nat) (rle : rle16_t), r.n_runs ≤ fuel + ri →
      ri < r.n_runs → r.runs[ri]? = some rle → key * 65536 + rle.value ≤ cur →
      cur ≤ key * 65536 + rle.value + rle.length → buf.length < count →
      ∃ ri' cur' has',
        roaring_read_uint32_iterator_run r count fuel
            ⟨parent, ci, ici, ri, cur, true, cont, key * 65536⟩ buf
          = some (⟨parent, ci, ici, ri', cur', has', cont, key * 65536⟩,
              buf ++ ((run_values_from r ri (cur - key * 65536) rle).take
                (min (count - buf.length)
                  (run_values_from r ri (cur - key * 65536) rle).length)).map
                (fun x => key * 65536 + x))
        ∧ (min (count - buf.length) (run_values_from r ri (cur - key * 65536) rle).length
            < (run_values_from r ri (cur - key * 65536) rle).length →
          has' = true ∧ ri' < r.n_runs
          ∧ ∃ rle', r.runs[ri']? = some rle' ∧ key * 65536 + rle'.value ≤ cur'
            ∧ cur' ≤ key * 65536 + rle'.value + rle'.length
            ∧ run_values_from r ri' (cur' - key * 65536) rle'
              = (run_values_from r ri (cur - key * 65536) rle).drop
                  (min (count - buf.length)
                    (run_values_from r ri (cur - key * 65536) rle).length))
        ∧ ((run_values_from r ri (cur - key * 65536) rle).length
            ≤ min (count - buf.length) (run_values_from r ri (cur - key * 65536) rle).length →
          has' = false) := by
  unfold run_values_from
  have hor : ∀ x, x < 65536 → key * 65536 ||| x = key * 65536 + x := by
    intro x hx16
    rw [← highbits_eq key hk]
    exact highbits_or key x hk hx16
  intro fuel
  induction fuel with
  | zero =>
    intro ri cur buf rle hf hri
    omega
  | succ fuel ih =>
    intro ri cur buf rle hf hri hrle hlo hhi hbuf
    have hrle_take := getElem?_take_some r.runs r.n_runs ri rle hrle hri
    have hx : rle.value + rle.length < 65536 := w4 _ (mem_of_getElem?_eq_some _ _ _ hrle_take)
    generalize hrest : ((r.runs.take r.n_runs).drop (ri + 1)).flatMap
      (fun rle => List.range' rle.value (rle.length + 1)) = rest
    generalize hS : rle.value + rle.length + 1 - (cur - key * 65536) = S
    have hS1 : 1 ≤ S := by omega
    have hS2 : S ≤ 65536 := by omega
    rw [roaring_read_uint32_iterator_run]
    simp only [hrle]
    rw [hor _ hx]
    have hcast1 : uint32_cast (((key * 65536 + (rle.value + rle.length) : Nat) : Int)
        - (cur : Int) + 1) = S := by
      rw [uint32_cast_sub_add_one _ _ (by omega) (by omega)]
      omega
    rw [hcast1, uint32_cast_sub _ _ (by omega) (by omega), minimum_uint32_eq]
    have hbufmap : ∀ n, n ≤ S →
        buf ++ (List.range n).map (fun i => (cur + i) % 2 ^ 32)
          = buf ++ ((List.range' (cur - key * 65536) S).take n).map
              (fun x => key * 65536 + x) := by
      intro n hn
      congr 1
      rw [take_range'_min, Nat.min_eq_left hn, map_add_range']
      apply List.map_congr_left
      intro i hi
      have := List.mem_range.mp hi
      have h1 : key * 65536 + (cur - key * 65536) = cur := by omega
      rw [h1]
      exact Nat.mod_eq_of_lt (by omega)
    have hdropseg : ∀ n, (List.range' (cur - key * 65536) S).drop n
        = List.range' (cur + n - key * 65536)
            (rle.value + rle.length + 1 - (cur + n - key * 65536)) := by
      intro n
      rw [drop_range'_add]
      congr 1 <;> omega
    generalize hsegdef : List.range' (cur - key * 65536) S = seg at hbufmap hdropseg ⊢
    have hseg : seg.length = S := by rw [← hsegdef, List.length_range']
    have hlen : (seg ++ rest).length = S + rest.length := by
      rw [List.length_append, hseg]
    rw [hlen]
    by_cases hSR : S ≤ count - buf.length
    · -- the run is read to its end
      rw [Nat.min_eq_left hSR, hbufmap S (le_refl _),
        List.take_of_length_le (by rw [hseg])]
      have hcond : ((cur + S) % 2 ^ 32 > key * 65536 + (rle.value + rle.length)
          ∨ (cur + S) % 2 ^ 32 = 0) := by
        by_cases hw : cur + S = 2 ^ 32
        · right; rw [hw]; rfl
        · left; rw [Nat.mod_eq_of_lt (by omega)]; omega
      simp only [hcond, if_true]
      have hbl : (buf ++ seg.map (fun x => key * 65536 + x)).length = buf.length + S := by
        rw [List.length_append, List.length_map, hseg]
      by_cases hnext : ri + 1 < r.n_runs
      · simp only [hnext, if_true]
        obtain ⟨rle2, h2⟩ : ∃ rle2, r.runs[ri + 1]? = some rle2 :=
          ⟨_, List.getElem?_eq_getElem (by omega)⟩
        have h2take := getElem?_take_some r.runs r.n_runs (ri + 1) rle2 h2 hnext
        have hx2 : rle2.value + rle2.length < 65536 :=
          w4 _ (mem_of_getElem?_eq_some _ _ _ h2take)
        simp only [h2]
        rw [hor _ (show rle2.value < 65536 by omega)]
        have hrest2 : rest = List.range' (key * 65536 + rle2.value - key * 65536)
            (rle2.value + rle2.length + 1 - (key * 65536 + rle2.value - key * 65536))
            ++ ((r.runs.take r.n_runs).drop (ri + 1 + 1)).flatMap
                (fun rle => List.range' rle.value (rle.length + 1)) := by
          rw [← hrest, drop_take_cons r.runs r.n_runs (ri + 1) rle2 h2 hnext]
          have e1 : key * 65536 + rle2.value - key * 65536 = rle2.value := by omega
          have e2 : rle2.value + rle2.length + 1 - rle2.value = rle2.length + 1 := by omega
          rw [e1, e2]
          rfl
        have hrestlen : 1 ≤ rest.length := by
          rw [hrest2, List.length_append, List.length_range']
          omega
        by_cases hmore : buf.length + S < count
        · have hc2 : (buf ++ seg.map (fun x => key * 65536 + x)).length < count
              ∧ true = true := ⟨by omega, rfl⟩
          simp only [hc2, and_self, if_true]
          have hih := ih (ri + 1) (key * 65536 + rle2.value)
            (buf ++ seg.map (fun x => key * 65536 + x)) rle2
            (by omega) hnext h2 (le_refl _) (by omega) (by omega)
          rw [← hrest2, hbl] at hih
          have hmin : min (count - buf.length) (S + rest.length)
              = S + min (count - (buf.length + S)) rest.length := by
            rw [min_add_split _ _ _ hSR, Nat.sub_sub]
          rw [hmin]
          generalize min (count - (buf.length + S)) rest.length = k2 at hih ⊢
          obtain ⟨ri', cur', has', e1, e2, e3⟩ := hih
          refine ⟨ri', cur', has', ?_, ?_, ?_⟩
          · rw [e1, take_append_len seg rest S k2 hseg, List.map_append, List.append_assoc]
          · intro hlt
            obtain ⟨g1, g2, rle', g3, g4, g5, g6⟩ := e2 (by omega)
            refine ⟨g1, g2, rle', g3, g4, g5, ?_⟩
            rw [g6, drop_append_len seg rest S k2 hseg]
          · intro hle
            exact e3 (by omega)
        · have hc2 : ¬ ((buf ++ seg.map (fun x => key * 65536 + x)).length < count
              ∧ True) := by
            rw [hbl]; omega
          rw [if_neg hc2]
          have hmin : min (count - buf.length) (S + rest.length) = S + 0 := by
            rw [min_add_split _ _ _ hSR]; omega
          rw [hmin]
          refine ⟨ri + 1, key * 65536 + rle2.value, true, ?_, ?_, ?_⟩
          · rw [take_append_len seg rest S 0 hseg, List.take_zero, List.append_nil]
          · intro _
            refine ⟨rfl, hnext, rle2, h2, le_refl _, by omega, ?_⟩
            rw [← hrest2, drop_append_len seg rest S 0 hseg, List.drop_zero]
          · intro hle; omega
      · simp only [hnext, if_false]
        have hrest0 : rest = [] := by
          rw [← hrest, List.drop_eq_nil_of_le]
          · rfl
          · rw [List.length_take]; omega
        subst hrest0
        simp only [List.length_nil, Nat.add_zero, List.append_nil]
        have hmin : min (count - buf.length) S = S := Nat.min_eq_right hSR
        rw [hmin]
        refine ⟨ri + 1, (cur + S) % 2 ^ 32, false, ?_, ?_, ?_⟩
        · rw [List.take_of_length_le (by rw [hseg])]
        · intro hlt; omega
        · intro _; rfl
    · -- the count is reached inside the run
      have hR : count - buf.length < S := by omega
      rw [Nat.min_eq_right (by omega), hbufmap _ (by omega)]
      have hmod : (cur + (count - buf.length)) % 2 ^ 32 = cur + (count - buf.length) :=
        Nat.mod_eq_of_lt (by omega)
      rw [hmod]
      have hcond : ¬ (cur + (count - buf.length) > key * 65536 + (rle.value + rle.length)
          ∨ cur + (count - buf.length) = 0) := by omega
      simp only [hcond, if_false]
      have hbl : (buf ++ (seg.take (count - buf.length)).map
          (fun x => key * 65536 + x)).length = count := by
        rw [List.length_append, List.length_map, List.length_take, hseg]
        omega
      have hc2 : ¬ ((buf ++ (seg.take (count - buf.length)).map
          (fun x => key * 65536 + x)).length < count ∧ True) := by
        rw [hbl]; omega
      rw [if_neg hc2]
      have hmin : min (count - buf.length) (S + rest.length) = count - buf.length :=
        Nat.min_eq_left (by omega)
      rw [hmin]
      refine ⟨ri, cur + (count - buf.length), true, ?_, ?_, ?_⟩
      · rw [List.take_append_of_le_length (by omega)]
      · intro _
        refine ⟨rfl, hri, rle, hrle, by omega, by omega, ?_⟩
        rw [hrest, List.drop_append_of_le_length (by omega), hdropseg]
      · intro hle; omega

/-- The bits of `x - 1` when bit `c` is the lowest bit set of `x`. -/
theorem testBit_pred (c : Nat) : ∀ (x : Nat), x.testBit c = true →
    (∀ b, b < c → x.testBit b = false) →
    ∀ b, (x - 1).testBit b = if b < c then true else if b = c then false else x.testBit b := by
  induction c with
  | zero =>
    intro x hc _ b
    have hodd : x % 2 = 1 := by
      rw [Nat.testBit_zero] at hc
      simpa using hc
    cases b with
    | zero =>
      simp only [Nat.lt_irrefl, if_false, if_true]
      rw [Nat.testBit_zero]
      simp
      omega
    | succ b =>
      simp only [Nat.not_lt_zero, if_false, Nat.succ_ne_zero]
      rw [Nat.testBit_succ, Nat.testBit_succ]
      congr 1
      omega
  | succ c ih =>
    intro x hc hz b
    have heven : x % 2 = 0 := by
      have := hz 0 (by omega)
      rw [Nat.testBit_zero] at this
      simpa using this
    have hne : x ≠ 0 := by
      intro h
      rw [h] at hc
      simp at hc
    cases b with
    | zero =>
      simp only [Nat.zero_lt_succ, if_true]
      rw [Nat.testBit_zero]
      simp
      omega
    | succ b =>
      rw [Nat.testBit_succ, Nat.testBit_succ]
      have h1 : (x - 1) / 2 = x / 2 - 1 := by omega
      rw [h1, ih (x / 2) (by rw [← Nat.testBit_succ]; exact hc)
        (fun b' hb' => by rw [← Nat.testBit_succ]; exact hz (b' + 1) (by omega)) b]
      simp only [Nat.add_lt_add_iff_right, Nat.add_right_cancel_iff]

/-- Clearing the lowest bit set: the bits of `x & (x - 1)`. -/
theorem testBit_and_pred (x c : Nat) (hc : x.testBit c = true)
    (hz : ∀ b, b < c → x.testBit b = false) (b : Nat) :
    (x &&& (x - 1)).testBit b = (x.testBit b && decide (c < b)) := by
  rw [Nat.testBit_and, testBit_pred c x hc hz b]
  by_cases h1 : b < c
  · rw [if_pos h1, hz b h1]
    rfl
  · rw [if_neg h1]
    by_cases h2 : b = c
    · rw [if_pos h2]
      subst h2
      simp
    · rw [if_neg h2]
      have h3 : c < b := by omega
      simp [h3]

theorem and_mask_lt (w k : Nat) : w &&& ((UINT64_MAX <<< k) % 2 ^ 64) < 2 ^ 64 :=
  Nat.lt_of_le_of_lt Nat.and_le_right (Nat.mod_lt _ (by decide))

/-- In a word masked from bit `q` on, clearing the lowest bit set gives the
word masked from the bit after it on. -/
theorem and_pred_mask (w q : Nat) (hne : w &&& ((UINT64_MAX <<< q) % 2 ^ 64) ≠ 0) :
    q ≤ builtin_ctzll (w &&& ((UINT64_MAX <<< q) % 2 ^ 64))
    ∧ builtin_ctzll (w &&& ((UINT64_MAX <<< q) % 2 ^ 64)) < 64
    ∧ w.testBit (builtin_ctzll (w &&& ((UINT64_MAX <<< q) % 2 ^ 64))) = true
    ∧ (∀ b, q ≤ b → b < builtin_ctzll (w &&& ((UINT64_MAX <<< q) % 2 ^ 64)) →
        w.testBit b = false)
    ∧ (w &&& ((UINT64_MAX <<< q) % 2 ^ 64))
        &&& ((w &&& ((UINT64_MAX <<< q) % 2 ^ 64)) - 1)
      = w &&& ((UINT64_MAX <<< (builtin_ctzll (w &&& ((UINT64_MAX <<< q) % 2 ^ 64)) + 1))
          % 2 ^ 64) := by
  obtain ⟨c1, c2, c3⟩ := builtin_ctzll_spec _ hne (and_mask_lt w q)
  generalize builtin_ctzll (w &&& ((UINT64_MAX <<< q) % 2 ^ 64)) = c at c1 c2 c3 ⊢
  rw [testBit_mask w q c c1] at c2
  simp only [Bool.and_eq_true, decide_eq_true_eq] at c2
  refine ⟨c2.2, c1, c2.1, ?_, ?_⟩
  · intro b hb1 hb2
    have := c3 b hb2
    rw [testBit_mask w q b (by omega)] at this
    simpa [hb1] using this
  · apply Nat.eq_of_testBit_eq
    intro b
    rw [testBit_and_pred _ c (by rw [testBit_mask w q c c1]; simp [c2.1, c2.2]) c3 b]
    by_cases hb : b < 64
    · rw [testBit_mask w q b hb, testBit_mask w (c + 1) b hb]
      by_cases h1 : c < b
      · have h2 : q ≤ b := by omega
        have h3 : c + 1 ≤ b := by omega
        simp [h1, h2, h3]
      · have h3 : ¬ c + 1 ≤ b := by omega
        simp [h1, h3]
    · have h1 : (w &&& ((UINT64_MAX <<< q) % 2 ^ 64)).testBit b = false :=
        Nat.testBit_lt_two_pow
          (Nat.lt_of_lt_of_le (and_mask_lt w q) (Nat.pow_le_pow_right (by decide) (by omega)))
      have h2 : (w &&& ((UINT64_MAX <<< (c + 1)) % 2 ^ 64)).testBit b = false :=
        Nat.testBit_lt_two_pow
          (Nat.lt_of_lt_of_le (and_mask_lt w (c + 1))
            (Nat.pow_le_pow_right (by decide) (by omega)))
      rw [h1, h2]
      rfl

/-- Where no bit is set between two positions the bits from the first are
those from the second. -/
theorem bits_from_skip (words : List Nat) (s s' : Nat) (h : s ≤ s') (h' : s' ≤ 65536)
    (hz : ∀ z, s ≤ z → z < s' → bitset_get words z = false) :
    bits_from words s = bits_from words s' := by
  unfold bits_from
  have e : List.range' s (65536 - s)
      = List.range' s (s' - s) ++ List.range' s' (65536 - s') := by
    have h1 : 65536 - s = (65536 - s') + (s' - s) := by omega
    have h2 : s + (s' - s) = s' := by omega
    rw [h1, ← List.range'_append_1, h2]
  rw [e, List.filter_append, filter_range'_nil _ s (s' - s) (fun z h1 h2 => hz z h1 (by omega)),
    List.nil_append]

theorem and_mask_zero (w : Nat) (hw : w < 2 ^ 64) : w &&& ((UINT64_MAX <<< 0) % 2 ^ 64) = w := by
  apply Nat.eq_of_testBit_eq
  intro b
  by_cases hb : b < 64
  · rw [testBit_mask w 0 b hb]
    simp
  · have h1 : (w &&& ((UINT64_MAX <<< 0) % 2 ^ 64)).testBit b = false :=
      Nat.testBit_lt_two_pow
        (Nat.lt_of_lt_of_le (and_mask_lt w 0) (Nat.pow_le_pow_right (by decide) (by omega)))
    have h2 : w.testBit b = false :=
      Nat.testBit_lt_two_pow (Nat.lt_of_lt_of_le hw (Nat.pow_le_pow_right (by decide) (by omega)))
    rw [h1, h2]

/-- The loop of `roaring_read_uint32_iterator` over the bits of one word,
started on the word masked from bit `q` on: it writes the next values of the
container that lie in this word, as long as `count` allows, and leaves the
word masked from a later bit on. -/
theorem roaring_read_uint32_iterator_word_spec (words : List Nat) (key : Nat)
    (hk : key < 65536) (count wi : Nat) (hwi : wi < 1024) (w : Nat)
    (hw : words[wi]? = some w) :
    ∀ (n q : Nat) (buf : List Nat), 64 ≤ n + q → q ≤ 64 → buf.length ≤ count →
      ∃ q' j, q ≤ q' ∧ q' ≤ 64 ∧ j ≤ (bits_from words (wi * 64 + q)).length
        ∧ roaring_read_uint32_iterator_word (key * 65536) wi count
            (w &&& ((UINT64_MAX <<< q) % 2 ^ 64)) buf
          = (w &&& ((UINT64_MAX <<< q') % 2 ^ 64),
              buf ++ ((bits_from words (wi * 64 + q)).take j).map (fun x => key * 65536 + x))
        ∧ bits_from words (wi * 64 + q') = (bits_from words (wi * 64 + q)).drop j
        ∧ buf.length + j ≤ count
        ∧ (w &&& ((UINT64_MAX <<< q') % 2 ^ 64) ≠ 0 → buf.length + j = count) := by
  have hor : ∀ x, x < 65536 → key * 65536 ||| x = key * 65536 + x := by
    intro x hx16
    rw [← highbits_eq key hk]
    exact highbits_or key x hk hx16
  have hstop : ∀ (q : Nat) (buf : List Nat), q ≤ 64 → buf.length ≤ count →
      ¬ (w &&& ((UINT64_MAX <<< q) % 2 ^ 64) ≠ 0 ∧ buf.length < count) →
      ∃ q' j, q ≤ q' ∧ q' ≤ 64 ∧ j ≤ (bits_from words (wi * 64 + q)).length
        ∧ roaring_read_uint32_iterator_word (key * 65536) wi count
            (w &&& ((UINT64_MAX <<< q) % 2 ^ 64)) buf
          = (w &&& ((UINT64_MAX <<< q') % 2 ^ 64),
              buf ++ ((bits_from words (wi * 64 + q)).take j).map (fun x => key * 65536 + x))
        ∧ bits_from words (wi * 64 + q') = (bits_from words (wi * 64 + q)).drop j
        ∧ buf.length + j ≤ count
        ∧ (w &&& ((UINT64_MAX <<< q') % 2 ^ 64) ≠ 0 → buf.length + j = count) := by
    intro q buf hq hbuf hcond
    refine ⟨q, 0, le_refl _, hq, Nat.zero_le _, ?_, rfl, by omega, ?_⟩
    · rw [roaring_read_uint32_iterator_word, dif_neg hcond]
      simp
    · intro hne
      by_contra hlt
      exact hcond ⟨hne, by omega⟩
  intro n
  induction n with
  | zero =>
    intro q buf hn hq hbuf
    apply hstop q buf hq hbuf
    intro hcond
    obtain ⟨c1, c2, _⟩ := and_pred_mask w q hcond.1
    omega
  | succ n ih =>
    intro q buf hn hq hbuf
    by_cases hcond : w &&& ((UINT64_MAX <<< q) % 2 ^ 64) ≠ 0 ∧ buf.length < count
    · obtain ⟨c1, c2, c3, c4, c5⟩ := and_pred_mask w q hcond.1
      rw [roaring_read_uint32_iterator_word, dif_pos hcond, c5]
      generalize builtin_ctzll (w &&& ((UINT64_MAX <<< q) % 2 ^ 64)) = c at c1 c2 c3 c4 ⊢
      have hv16 : wi * 64 + c < 65536 := by omega
      have hget : bitset_get words (wi * 64 + c) = true := by
        rw [bitset_get_eq words (wi * 64 + c) wi w (by omega) hw]
        have : (wi * 64 + c) % 64 = c := by omega
        rw [this]
        exact c3
      have hbits : bits_from words (wi * 64 + q)
          = (wi * 64 + c) :: bits_from words (wi * 64 + (c + 1)) := by
        apply bits_from_cons words (wi * 64 + q) (wi * 64 + c) (by omega) hv16 hget
        intro z hz1 hz2
        rw [bitset_get_eq words z wi w (by omega) hw]
        exact c4 (z % 64) (by omega) (by omega)
      obtain ⟨q', j, h1, h2, h3, h4, h5, h6, h7⟩ := ih (c + 1)
        (buf ++ [key * 65536 ||| (wi * 64 + c)]) (by omega) (by omega)
        (by rw [List.length_append, List.length_singleton]; omega)
      rw [List.length_append, List.length_singleton] at h6 h7
      refine ⟨q', j + 1, by omega, h2, ?_, ?_, ?_, by omega, fun hne => by
        have := h7 hne; omega⟩
      · rw [hbits, List.length_cons]; omega
      · rw [h4, hbits, List.take_succ_cons, List.map_cons, hor _ hv16, List.append_assoc]
        rfl
      · rw [h5, hbits, List.drop_succ_cons]
    · exact hstop q buf hq hbuf hcond

theorem testBit_of_and_mask_eq_zero (w q b : Nat) (h : w &&& ((UINT64_MAX <<< q) % 2 ^ 64) = 0)
    (hq : q ≤ b) (hb : b < 64) : w.testBit b = false := by
  have h1 := testBit_mask w q b hb
  rw [h] at h1
  simpa [hq] using h1.symm

/-- The `do ... while` loop of `roaring_read_uint32_iterator` on a bitset
container, started in word `wi` masked from bit `q` on: it writes the next
values of the container, as many as `count` allows, and ends on a word whose
lowest bit set is the next value, or on 0 when there is none. -/
theorem roaring_read_uint32_iterator_bitset_spec (words : List Nat)
    (hlen : words.length = 1024) (hwords : ∀ w ∈ words, w < 2 ^ 64) (key : Nat)
    (hk : key < 65536) (count : Nat) :
    ∀ (fuel wi q : Nat) (buf : List Nat) (w : Nat), 1025 ≤ fuel + wi → wi < 1024 → q ≤ 64 →
      words[wi]? = some w → buf.length ≤ count →
      ∃ wi' word',
        roaring_read_uint32_iterator_bitset words (key * 65536) count fuel wi
            (w &&& ((UINT64_MAX <<< q) % 2 ^ 64)) buf
          = some (wi', word',
              buf ++ ((bits_from words (wi * 64 + q)).take
                  (min (count - buf.length) (bits_from words (wi * 64 + q)).length)).map
                (fun x => key * 65536 + x))
        ∧ (word' ≠ 0 →
            wi' * 64 + builtin_ctzll word' < 65536
            ∧ bitset_get words (wi' * 64 + builtin_ctzll word') = true
            ∧ bits_from words (wi' * 64 + builtin_ctzll word')
              = (bits_from words (wi * 64 + q)).drop
                  (min (count - buf.length) (bits_from words (wi * 64 + q)).length)
            ∧ min (count - buf.length) (bits_from words (wi * 64 + q)).length
              < (bits_from words (wi * 64 + q)).length)
        ∧ (word' = 0 →
            (bits_from words (wi * 64 + q)).length
              ≤ min (count - buf.length) (bits_from words (wi * 64 + q)).length) := by
  intro fuel
  induction fuel with
  | zero =>
    intro wi q buf w hf hwi
    omega
  | succ fuel ih =>
    intro wi q buf w hf hwi hq hw hbuf
    rw [roaring_read_uint32_iterator_bitset]
    obtain ⟨q1, j, a1, a2, a3, a4, a5, a6, a7⟩ :=
      roaring_read_uint32_iterator_word_spec words key hk count wi hwi w hw 64 q buf
        (by omega) hq hbuf
    rw [a4]
    simp only
    generalize hL : bits_from words (wi * 64 + q) = L at a3 a4 a5 ⊢
    have hbl : (buf ++ (L.take j).map (fun x => key * 65536 + x)).length = buf.length + j := by
      rw [List.length_append, List.length_map, List.length_take, Nat.min_eq_left a3]
    obtain ⟨wi2, word2, hs, s1, s2, s3, s4, s5, s6⟩ :=
      roaring_advance_uint32_iterator_scan_spec words hlen BITSET_CONTAINER_SIZE_IN_WORDS wi
        (w &&& ((UINT64_MAX <<< q1) % 2 ^ 64)) hwi (by unfold BITSET_CONTAINER_SIZE_IN_WORDS; omega)
    rw [hs]
    simp only
    -- the word reached is a word of the container masked from a bit on
    obtain ⟨w2, q2, b1, b2, b3, b4, b5⟩ : ∃ w2 q2, words[wi2]? = some w2 ∧ q2 ≤ 64
        ∧ word2 = w2 &&& ((UINT64_MAX <<< q2) % 2 ^ 64)
        ∧ bits_from words (wi2 * 64 + q2) = L.drop j
        ∧ (wi < wi2 → q2 = 0 ∧ w2 = word2 ∧ w &&& ((UINT64_MAX <<< q1) % 2 ^ 64) = 0) := by
      by_cases hsame : wi2 = wi
      · refine ⟨w, q1, by rw [hsame]; exact hw, a2, s3 hsame, by rw [hsame]; exact a5,
          fun h => by omega⟩
      · obtain ⟨z1, z2⟩ := s4 (by omega)
        have hlt2 : word2 < 2 ^ 64 := hwords _ (mem_of_getElem?_eq_some _ _ _ z2)
        refine ⟨word2, 0, z2, by omega, (and_mask_zero word2 hlt2).symm, ?_,
          fun _ => ⟨rfl, rfl, z1⟩⟩
        rw [← a5]
        symm
        apply bits_from_skip words _ _ (by omega) (by omega)
        intro z hz1 hz2
        by_cases hzw : z / 64 = wi
        · rw [bitset_get_eq words z wi w hzw hw]
          exact testBit_of_and_mask_eq_zero w q1 (z % 64) z1 (by omega) (by omega)
        · rw [bitset_get_eq words z (z / 64) 0 rfl (s5 (z / 64) (by omega) (by omega))]
          simp
    by_cases hcont : word2 ≠ 0 ∧ (buf ++ (L.take j).map (fun x => key * 65536 + x)).length
        < count
    · rw [if_pos hcont]
      rw [hbl] at hcont
      have hw1 : w &&& ((UINT64_MAX <<< q1) % 2 ^ 64) = 0 := by
        by_contra hne
        have := a7 hne
        omega
      have hlt : wi < wi2 := by
        by_contra hge
        have : wi2 = wi := by omega
        have := s3 this
        rw [hw1] at this
        exact hcont.1 this
      obtain ⟨c1, c2, _⟩ := b5 hlt
      subst c1 c2
      obtain ⟨wi', word', e1, e2, e3⟩ := ih wi2 0
        (buf ++ (L.take j).map (fun x => key * 65536 + x)) w2 (by omega) s2 (by omega) b1
        (by rw [hbl]; omega)
      rw [← b3] at e1
      rw [b4, hbl, List.length_drop] at e1 e2 e3
      have hmin : min (count - buf.length) L.length
          = j + min (count - (buf.length + j)) (L.length - j) := by
        simp only [Nat.min_def]
        split <;> split <;> omega
      rw [hmin]
      generalize min (count - (buf.length + j)) (L.length - j) = k1 at e1 e2 e3 ⊢
      refine ⟨wi', word', ?_, ?_, ?_⟩
      · rw [e1, List.take_add, List.map_append, List.append_assoc]
      · intro hne
        obtain ⟨g1, g2, g3, g4⟩ := e2 hne
        refine ⟨g1, g2, ?_, by omega⟩
        rw [g3, List.drop_drop, Nat.add_comm]
      · intro h0
        have := e3 h0
        omega
    · rw [if_neg hcont]
      rw [hbl] at hcont
      by_cases hz : word2 = 0
      · -- no value is left in the container
        have hnil : L.drop j = [] := by
          rw [← b4]
          have hwi2 := s6 hz
          apply bits_from_nil
          intro z hz1 hz2
          rw [bitset_get_eq words z wi2 w2 (by omega) b1]
          rw [hz] at b3
          exact testBit_of_and_mask_eq_zero w2 q2 (z % 64) b3.symm (by omega) (by omega)
        have hj : j = L.length := by
          have := congrArg List.length hnil
          rw [List.length_drop, List.length_nil] at this
          omega
        have hmin : min (count - buf.length) L.length = j := by
          rw [hj]; exact Nat.min_eq_right (by omega)
        rw [hmin]
        refine ⟨wi2, word2, rfl, fun hne => absurd hz hne, fun _ => by omega⟩
      · -- the count is reached and a value is left
        have hjc : buf.length + j = count := by
          by_contra hne
          exact hcont ⟨hz, by omega⟩
        have hz' : w2 &&& ((UINT64_MAX <<< q2) % 2 ^ 64) ≠ 0 := by rw [← b3]; exact hz
        obtain ⟨c1, c2, c3, c4, _⟩ := and_pred_mask w2 q2 hz'
        rw [← b3] at c1 c2 c3 c4
        have hv16 : wi2 * 64 + builtin_ctzll word2 < 65536 := by omega
        have hget : bitset_get words (wi2 * 64 + builtin_ctzll word2) = true := by
          rw [bitset_get_eq words (wi2 * 64 + builtin_ctzll word2) wi2 w2 (by omega) b1]
          have : (wi2 * 64 + builtin_ctzll word2) % 64 = builtin_ctzll word2 := by omega
          rw [this]
          exact c3
        have hskip : bits_from words (wi2 * 64 + q2) = bits_from words (wi2 * 64 + builtin_ctzll word2) := by
          apply bits_from_skip words _ _ (by omega) (by omega)
          intro z hz1 hz2
          rw [bitset_get_eq words z wi2 w2 (by omega) b1]
          exact c4 (z % 64) (by omega) (by omega)
        have hcons := bits_from_cons words (wi2 * 64 + builtin_ctzll word2) (wi2 * 64 + builtin_ctzll word2) (le_refl _) hv16 hget
          (fun z h1 h2 => by omega)
        have hjl : j < L.length := by
          have h1 : (L.drop j).length ≠ 0 := by
            rw [← b4, hskip, hcons]
            simp
          rw [List.length_drop] at h1
          omega
        have hmin : min (count - buf.length) L.length = j :=
          by rw [← hjc, Nat.add_sub_cancel_left]; exact Nat.min_eq_left (by omega)
        rw [hmin]
        exact ⟨wi2, word2, rfl, fun _ => ⟨hv16, hget, by rw [← hskip, b4], hjl⟩,
          fun h0 => absurd h0 hz⟩

/-- The `switch` of `roaring_read_uint32_iterator` on a run container. -/
theorem roaring_read_uint32_iterator_container_run (rb : roaring_bitmap_t container_t)
    (hv : iterator_valid rb) (it : roaring_uint32_iterator_t) (hp : it.parent = rb)
    (hpos : iterator_positioned it) (r : run_container_t) (hc : it.container = .run r)
    (count : Nat) (buf : List Nat) (hcount : count < 2 ^ 32) (hbuf : buf.length < count) :
    ∃ it' buf', roaring_read_uint32_iterator_container count it buf = some (it', buf')
      ∧ iterator_read_container_spec count it buf it' buf' := by
  obtain ⟨hhas, hci, e, he, hcont, hhb, hm⟩ := hpos
  cases it with
  | mk parent ci ici ri cur has cont hb =>
  simp only at hp hc hhas hci he hcont hhb hm
  subst hp hc hhas hhb
  simp only at hm
  obtain ⟨hlt, rle, hrle, hlo, hhi⟩ := hm
  have hmem : e ∈ parent.high_low_container := mem_of_getElem?_eq_some _ _ _ he
  have hval := hv.2.2 e hmem
  rw [← hcont] at hval
  obtain ⟨w1, w2, w3, w4⟩ := hval
  have hk := hv.2.1 e hmem
  have hcr : container_remaining ⟨parent, ci, ici, ri, cur, true, .run r, e.1 * 65536⟩
      = run_values_from r ri (cur - e.1 * 65536) rle := by
    simp only [container_remaining, hrle]
    rfl
  obtain ⟨ri', cur', has', e1, e2, e3⟩ := roaring_read_uint32_iterator_run_spec r w1 w4 e.1 hk
    count hcount parent ci ici (.run r) (r.n_runs + 1) ri cur buf rle (by omega) hlt hrle hlo
    hhi hbuf
  unfold iterator_read_container_spec
  rw [hcr]
  refine ⟨_, _, e1, rfl, rfl, rfl, rfl, rfl, fun h => h, fun hlt' => ?_, fun hle => ?_⟩
  · obtain ⟨g1, g2, rle', g3, g4, g5, g6⟩ := e2 hlt'
    subst g1
    refine ⟨⟨rfl, hci, e, he, hcont, rfl, g2, rle', g3, g4, g5⟩, ?_⟩
    rw [← g6]
    simp only [container_remaining, g3]
    rfl
  · exact e3 hle

/-- The `switch` of `roaring_read_uint32_iterator` on a bitset container. -/
theorem roaring_read_uint32_iterator_container_bitset (rb : roaring_bitmap_t container_t)
    (hv : iterator_valid rb) (it : roaring_uint32_iterator_t) (hp : it.parent = rb)
    (hpos : iterator_positioned it) (b : bitset_container_t) (hc : it.container = .bitset b)
    (count : Nat) (buf : List Nat) (hbuf : buf.length < count) :
    ∃ it' buf', roaring_read_uint32_iterator_container count it buf = some (it', buf')
      ∧ iterator_read_container_spec count it buf it' buf' := by
  obtain ⟨hhas, hci, e, he, hcont, hhb, hm⟩ := hpos
  cases it with
  | mk parent ci ici ri cur has cont hb =>
  simp only at hp hc hhas hci he hcont hhb hm
  subst hp hc hhas hhb
  simp only at hm
  obtain ⟨hidx, hget, hcur⟩ := hm
  have hmem : e ∈ parent.high_low_container := mem_of_getElem?_eq_some _ _ _ he
  have hval := hv.2.2 e hmem
  rw [← hcont] at hval
  obtain ⟨w1, w2, w3, w4⟩ := hval
  have hk := hv.2.1 e hmem
  have hor : ∀ x, x < 65536 → e.1 * 65536 ||| x = e.1 * 65536 + x := by
    intro x hx16
    rw [← highbits_eq e.1 hk]
    exact highbits_or e.1 x hk hx16
  have w1' : b.array.length = 1024 := w1
  obtain ⟨w, hw⟩ : ∃ w, b.array[ici / 64]? = some w :=
    ⟨_, List.getElem?_eq_getElem (by omega)⟩
  obtain ⟨wi', word', e1, e2, e3⟩ := roaring_read_uint32_iterator_bitset_spec b.array w1' w2
    e.1 hk count (BITSET_CONTAINER_SIZE_IN_WORDS + 1) (ici / 64) (ici % 64) buf w
    (by unfold BITSET_CONTAINER_SIZE_IN_WORDS; omega) (by omega) (by omega) hw (by omega)
  have hidx' : ici / 64 * 64 + ici % 64 = ici := by omega
  rw [hidx'] at e1 e2 e3
  have hcr : container_remaining ⟨parent, ci, ici, ri, cur, true, .bitset b, e.1 * 65536⟩
      = bits_from b.array ici := rfl
  unfold iterator_read_container_spec
  rw [hcr]
  unfold roaring_read_uint32_iterator_container
  simp only [hw, e1]
  by_cases hz : word' = 0
  · have hd : decide (word' ≠ 0) = false := by simp [hz]
    simp only [hd, Bool.false_eq_true, if_false]
    refine ⟨_, _, rfl, rfl, rfl, rfl, rfl, rfl, fun h => h, fun hlt' => ?_, fun _ => rfl⟩
    have := e3 hz
    omega
  · have hd : decide (word' ≠ 0) = true := by simp [hz]
    simp only [hd, if_true]
    obtain ⟨g1, g2, g3, g4⟩ := e2 hz
    rw [hor _ g1]
    refine ⟨_, _, rfl, rfl, rfl, rfl, rfl, rfl, fun h => h, fun _ => ⟨?_, ?_⟩, fun hle => ?_⟩
    · exact ⟨rfl, hci, e, he, hcont, rfl, g1, g2, rfl⟩
    · rw [← g3]
      rfl
    · omega

/-- The `switch` of `roaring_read_uint32_iterator`, entered on a value with
`ret < count`: it returns, has written the next values of the current
container, as many as `count` allows, and stands on the next value of the
container or has no value. -/
theorem roaring_read_uint32_iterator_container_spec (rb : roaring_bitmap_t container_t)
    (hv : iterator_valid rb) (it : roaring_uint32_iterator_t) (hp : it.parent = rb)
    (hpos : iterator_positioned it) (count : Nat) (buf : List Nat) (hcount : count < 2 ^ 32)
    (hbuf : buf.length < count) :
    ∃ it' buf', roaring_read_uint32_iterator_container count it buf = some (it', buf')
      ∧ iterator_read_container_spec count it buf it' buf' := by
  cases hc : it.container with
  | array a =>
    exact roaring_read_uint32_iterator_container_array rb hv it hp hpos a hc count buf hcount hbuf
  | bitset b =>
    exact roaring_read_uint32_iterator_container_bitset rb hv it hp hpos b hc count buf hbuf
  | run r =>
    exact roaring_read_uint32_iterator_container_run rb hv it hp hpos r hc count buf hcount hbuf
  | shared c =>
    obtain ⟨_, _, e, _, _, _, hm⟩ := hpos
    rw [hc] at hm
    exact absurd hm (by simp)

/-- What `loadfirstvalue` leaves untouched and what it resets. -/
theorem loadfirstvalue_frame (x : roaring_uint32_iterator_t) (b : Bool)
    (x' : roaring_uint32_iterator_t) (h : loadfirstvalue x = some (b, x')) :
    x'.parent = x.parent ∧ x'.container_index = x.container_index ∧ x'.has_value = b
    ∧ iterator_normal x'
    ∧ (b = false →
        x' = { x with in_container_index := 0, run_index := 0, current_value := UINT32_MAX,
                      has_value := false }) := by
  have hdone : some (false,
        ({ x with
            in_container_index := 0
            run_index := 0
            current_value := UINT32_MAX
            has_value := false } : roaring_uint32_iterator_t))
      = some (b, x') →
      x'.parent = x.parent ∧ x'.container_index = x.container_index ∧ x'.has_value = b
      ∧ iterator_normal x'
      ∧ (b = false →
          x' = { x with in_container_index := 0, run_index := 0, current_value := UINT32_MAX,
                        has_value := false }) := by
    intro h
    simp only [Option.some.injEq, Prod.mk.injEq] at h
    obtain ⟨h1, h2⟩ := h
    subst h1 h2
    refine ⟨rfl, rfl, rfl, ?_, fun _ => rfl⟩
    unfold iterator_normal
    split <;> first | rfl | trivial
  by_cases hrange : x.container_index ≥ (x.parent.high_low_container.length : Int)
      ∨ x.container_index < 0
  · apply hdone
    rw [← h]
    simp only [loadfirstvalue, iter_new_container_partial_init, hrange, if_true, Bool.not_false]
  · cases hget : x.parent.high_low_container[x.container_index.toNat]? with
    | none =>
      apply hdone
      rw [← h]
      simp only [loadfirstvalue, iter_new_container_partial_init, hrange, if_false, hget,
        Bool.not_false, if_true]
    | some e =>
      simp only [loadfirstvalue, iter_new_container_partial_init, hrange, if_false, hget,
        Bool.not_true, Bool.false_eq_true] at h
      cases hc : container_unwrap_shared e.2 with
      | bitset bs =>
        simp only [hc] at h
        cases hs : loadfirstvalue_scan bs.array 0 with
        | none => simp [hs] at h
        | some p =>
          simp only [hs, Option.some.injEq, Prod.mk.injEq] at h
          obtain ⟨h1, h2⟩ := h
          subst h1 h2
          refine ⟨rfl, rfl, rfl, ?_, fun h => absurd h (by simp)⟩
          unfold iterator_normal
          simp only
      | array a =>
        simp only [hc] at h
        cases hs : a.array[0]? with
        | none => simp [hs] at h
        | some p =>
          simp only [hs, Option.some.injEq, Prod.mk.injEq] at h
          obtain ⟨h1, h2⟩ := h
          subst h1 h2
          refine ⟨rfl, rfl, rfl, ?_, fun h => absurd h (by simp)⟩
          unfold iterator_normal
          simp only
      | run r =>
        simp only [hc] at h
        cases hs : r.runs[0]? with
        | none => simp [hs] at h
        | some p =>
          simp only [hs, Option.some.injEq, Prod.mk.injEq] at h
          obtain ⟨h1, h2⟩ := h
          subst h1 h2
          refine ⟨rfl, rfl, rfl, ?_, fun h => absurd h (by simp)⟩
          unfold iterator_normal
          simp only
      | shared c =>
        simp [hc] at h

theorem iterator_end_done (it : roaring_uint32_iterator_t) (h : iterator_end it) :
    iterator_done it :=
  ⟨h.1, h.2.1, Or.inl (by rw [h.2.2.2.2.1])⟩

/-- The move to the next container at the end of a container: the call of
`loadfirstvalue` returns, and the iterator stands on the first value of the
next container or behind the last container. -/
theorem loadfirstvalue_next_spec (rb : roaring_bitmap_t container_t) (hv : iterator_valid rb)
    (it : roaring_uint32_iterator_t) (hp : it.parent = rb) (hci : 0 ≤ it.container_index)
    (e : Nat × container_t) (he : rb.high_low_container[it.container_index.toNat]? = some e)
    (hcont : it.container = container_unwrap_shared e.2) (hhb : it.highbits = e.1 * 65536) :
    ∃ b it', loadfirstvalue { it with container_index := it.container_index + 1 }
        = some (b, it')
      ∧ it'.parent = rb ∧ it'.has_value = b
      ∧ it'.container_index = it.container_index + 1 ∧ iterator_normal it'
      ∧ iterator_remaining it'
        = (rb.high_low_container.drop (it.container_index.toNat + 1)).flatMap entry_elements
      ∧ ((b = true ∧ iterator_positioned it') ∨ (b = false ∧ iterator_end it')) := by
  obtain ⟨b, it3, h1, h2, h3, h4, h5⟩ := roaring_advance_uint32_iterator_next_spec rb hv it hp hci
  unfold roaring_advance_uint32_iterator_next at h1
  simp only at h1
  cases hl : loadfirstvalue { it with container_index := it.container_index + 1 } with
  | none => simp [hl] at h1
  | some r =>
    obtain ⟨rb1, rit⟩ := r
    simp only [hl, Option.some.injEq, Prod.mk.injEq] at h1
    obtain ⟨h1a, h1b⟩ := h1
    subst h1a
    obtain ⟨f1, f2, f3, f4, f5⟩ := loadfirstvalue_frame _ _ _ hl
    rw [iterator_with_has_value rit rb1 f3] at h1b
    subst h1b
    simp only at f1 f2
    refine ⟨rb1, rit, rfl, h2, f3, f2, f4, h5, ?_⟩
    rcases h4 with ⟨g1, g2⟩ | ⟨g1, g2⟩
    · exact Or.inl ⟨g1, g2⟩
    · refine Or.inr ⟨g1, ?_⟩
      have hlen : it.container_index.toNat < rb.high_low_container.length :=
        (List.getElem?_eq_some.1 he).1
      have hge : ¬ it.container_index.toNat + 1 < rb.high_low_container.length := by
        intro hlt
        obtain ⟨e2, he2⟩ : ∃ e2, rb.high_low_container[it.container_index.toNat + 1]? = some e2 :=
          ⟨_, List.getElem?_eq_getElem hlt⟩
        have hmem : e2 ∈ rb.high_low_container := mem_of_getElem?_eq_some _ _ _ he2
        have htn : (it.container_index + 1).toNat = it.container_index.toNat + 1 := by omega
        obtain ⟨it4, k1, _⟩ := loadfirstvalue_spec
          { it with container_index := it.container_index + 1 } e2 (by simp only; omega)
          (by simp only [htn, hp]; exact he2) (hv.2.1 e2 hmem) (hv.2.2 e2 hmem)
        rw [hl] at k1
        simp only [Option.some.injEq, Prod.mk.injEq] at k1
        rw [g1] at k1
        exact absurd k1.1 (by simp)
      have hrit := f5 g1
      have hsz : rb.high_low_container.length - 1 = it.container_index.toNat := by omega
      rw [hrit]
      refine ⟨rfl, rfl, rfl, rfl, ?_, e, ?_, hcont, hhb⟩
      · simp only [hp]; omega
      · simp only [hp, hsz]; exact he

theorem iterator_remaining_positioned (it : roaring_uint32_iterator_t)
    (h : it.has_value = true) :
    iterator_remaining it
      = (container_remaining it).map (fun x => it.highbits + x)
        ++ (it.parent.high_low_container.drop (it.container_index.toNat + 1)).flatMap
            entry_elements := by
  unfold iterator_remaining
  rw [if_pos h]

/-- The loop of `roaring_read_uint32_iterator`, entered with `buf` written
so far on a value or with no value: it returns, the assertion holds, the
values written are the next values of the bitmap, as many as `count` allows,
and the iterator stands on the next value, or has no value and was not moved
or stands behind the last container. -/
theorem roaring_read_uint32_iterator_loop_spec (rb : roaring_bitmap_t container_t)
    (hv : iterator_valid rb) (count : Nat) (hcount : count < 2 ^ 32) :
    ∀ (fuel : Nat) (it : roaring_uint32_iterator_t) (buf : List Nat), it.parent = rb →
      (iterator_positioned it ∨ iterator_done it) → buf.length ≤ count → 1 ≤ fuel →
      (it.has_value = true →
        rb.high_low_container.length + 1 ≤ fuel + it.container_index.toNat) →
      ∃ it', roaring_read_uint32_iterator_loop count fuel it buf
          = some ((buf ++ (iterator_remaining it).take (count - buf.length)).length, it',
              buf ++ (iterator_remaining it).take (count - buf.length))
        ∧ it'.parent = rb ∧ (iterator_positioned it' ∨ iterator_done it')
        ∧ iterator_remaining it' = (iterator_remaining it).drop (count - buf.length)
        ∧ (iterator_normal it → iterator_normal it')
        ∧ (it'.has_value = false → it' = it ∨ iterator_end it') := by
  intro fuel
  induction fuel with
  | zero => intro it buf _ _ _ h; omega
  | succ fuel ih =>
    intro it buf hp hst hbuf _ hfuel
    rw [roaring_read_uint32_iterator_loop]
    by_cases hcond : it.has_value = true ∧ buf.length < count
    · rw [if_pos hcond]
      have hpos : iterator_positioned it := by
        rcases hst with h | h
        · exact h
        · rw [h.1] at hcond
          exact absurd hcond.1 (by simp)
      obtain ⟨it1, buf1, hc1, hspec⟩ := roaring_read_uint32_iterator_container_spec rb hv it hp
        hpos count buf hcount hcond.2
      obtain ⟨s1, s2, s3, s4, s5, s6, s7, s8⟩ := hspec
      rw [hc1]
      simp only
      rw [iterator_remaining_positioned it hcond.1]
      generalize hcr : container_remaining it = cr at s1 s7 s8
      generalize hrest : (it.parent.high_low_container.drop
        (it.container_index.toNat + 1)).flatMap entry_elements = rest
      have hcrl : (cr.map (fun x => it.highbits + x)).length = cr.length := List.length_map _ _
      by_cases hk : min (count - buf.length) cr.length < cr.length
      · -- the count is reached inside the container
        obtain ⟨p1, p2⟩ := s7 hk
        have hkeq : min (count - buf.length) cr.length = count - buf.length := by
          apply Nat.min_eq_left
          by_contra hh
          rw [Nat.min_eq_right (by omega)] at hk
          omega
        rw [hkeq] at s1 p2
        rw [if_pos p1.1]
        have hb1 : buf1.length = count := by
          rw [s1, List.length_append, List.length_map, List.length_take]
          omega
        rw [if_pos hb1]
        have htake : (cr.map (fun x => it.highbits + x) ++ rest).take (count - buf.length)
            = (cr.take (count - buf.length)).map (fun x => it.highbits + x) := by
          rw [List.take_append_of_le_length (by rw [hcrl]; omega), List.map_take]
        rw [htake, ← s1]
        refine ⟨it1, rfl, s2.trans hp, Or.inl p1, ?_, s6, fun h => ?_⟩
        · rw [iterator_remaining_positioned it1 p1.1, p2, s5, s2, s3, hrest,
            List.drop_append_of_le_length (by rw [hcrl]; omega), List.map_drop]
        · rw [p1.1] at h
          exact absurd h (by simp)
      · -- the container is read to its end
        have hkeq : min (count - buf.length) cr.length = cr.length := by
          apply Nat.min_eq_right
          by_contra hh
          rw [Nat.min_eq_left (by omega)] at hk
          omega
        have hcl : cr.length ≤ count - buf.length := by
          rw [← hkeq]; exact Nat.min_le_left _ _
        have hnv := s8 (by omega)
        rw [hkeq, List.take_of_length_le (le_refl _)] at s1
        rw [hnv]
        simp only [Bool.false_eq_true, if_false]
        obtain ⟨hhas, hci, e, he, hcont, hhb, _⟩ := hpos
        obtain ⟨b, it3, l1, l2, l3, l4, l5, l6, l7⟩ := loadfirstvalue_next_spec rb hv it1
          (s2.trans hp) (by rw [s3]; exact hci) e (by rw [s3, ← hp]; exact he)
          (by rw [s4]; exact hcont) (by rw [s5]; exact hhb)
        rw [hnv] at l1
        rw [l1]
        simp only
        rw [iterator_with_has_value it3 b l3]
        have hlen : it.container_index.toNat < rb.high_low_container.length := by
          rw [← hp]; exact (List.getElem?_eq_some.1 he).1
        have hb1 : buf1.length = buf.length + cr.length := by
          rw [s1, List.length_append, List.length_map]
        obtain ⟨it', e1, e2, e3, e4, e5, e6⟩ := ih it3 buf1 l2
          (by
            rcases l7 with ⟨_, h⟩ | ⟨_, h⟩
            · exact Or.inl h
            · exact Or.inr (iterator_end_done it3 h))
          (by omega) (by have := hfuel hcond.1; omega)
          (fun _ => by
            have := hfuel hcond.1
            rw [l4, s3]
            omega)
        rw [l6, s3, ← hp, hrest, hb1] at e1 e4
        have htake : (cr.map (fun x => it.highbits + x) ++ rest).take (count - buf.length)
            = cr.map (fun x => it.highbits + x)
              ++ rest.take (count - (buf.length + cr.length)) := by
          rw [List.take_append_eq_append_take, List.take_of_length_le (by rw [hcrl]; omega),
            hcrl, Nat.sub_sub]
        have hdrop : (cr.map (fun x => it.highbits + x) ++ rest).drop (count - buf.length)
            = rest.drop (count - (buf.length + cr.length)) := by
          rw [List.drop_append_eq_append_drop, List.drop_of_length_le (by rw [hcrl]; omega),
            hcrl, Nat.sub_sub, List.nil_append]
        rw [htake, hdrop, ← List.append_assoc, ← s1]
        refine ⟨it', e1, e2, e3, e4, fun _ => e5 l5, fun h => ?_⟩
        rcases e6 h with h1 | h1
        · right
          rw [h1] at h ⊢
          rcases l7 with ⟨g1, _⟩ | ⟨_, g2⟩
          · rw [g1] at l3
            rw [l3] at h
            exact absurd h (by simp)
          · exact g2
        · exact Or.inr h1
    · rw [if_neg hcond]
      have hnil : (iterator_remaining it).take (count - buf.length) = [] := by
        by_cases hh : it.has_value = true
        · have : count - buf.length = 0 := by
            by_contra hne
            exact hcond ⟨hh, by omega⟩
          rw [this, List.take_zero]
        · unfold iterator_remaining
          rw [if_neg hh, List.take_nil]
      have hdrop : (iterator_remaining it).drop (count - buf.length) = iterator_remaining it := by
        by_cases hh : it.has_value = true
        · have : count - buf.length = 0 := by
            by_contra hne
            exact hcond ⟨hh, by omega⟩
          rw [this, List.drop_zero]
        · unfold iterator_remaining
          rw [if_neg hh, List.drop_nil]
      rw [hnil, hdrop, List.append_nil]
      exact ⟨it, rfl, hp, hst, rfl, fun h => h, fun _ => Or.inl rfl⟩

/-- The values still to deliver tell `has_value` and `current_value` of an
iterator that stands on a value or is done. -/
theorem iterator_state_of_remaining (rb : roaring_bitmap_t container_t)
    (hv : iterator_valid rb) (it : roaring_uint32_iterator_t) (hp : it.parent = rb)
    (hst : iterator_positioned it ∨ iterator_done it) :
    (iterator_remaining it = [] → it.has_value = false ∧ it.current_value = UINT32_MAX)
    ∧ (∀ v l, iterator_remaining it = v :: l → it.has_value = true ∧ it.current_value = v) := by
  rcases hst with h | h
  · obtain ⟨b, it', _, _, _, _, h5⟩ := roaring_advance_uint32_iterator_spec rb hv it hp h
    refine ⟨fun h0 => ?_, fun v l hvl => ?_⟩
    · rw [h0] at h5
      exact absurd h5 (by simp)
    · rw [hvl] at h5
      exact ⟨h.1, (List.cons.inj h5).1.symm⟩
  · refine ⟨fun _ => ⟨h.1, h.2.1⟩, fun v l hvl => ?_⟩
    rw [iterator_remaining_done it h] at hvl
    exact absurd hvl (by simp)

/-- After `m` calls of `roaring_advance_uint32_iterator` the iterator stands
on a value or is done and has `m` values fewer to deliver. -/
theorem iterator_advance_times_spec (rb : roaring_bitmap_t container_t)
    (hv : iterator_valid rb) :
    ∀ (m : Nat) (it : roaring_uint32_iterator_t), it.parent = rb →
      (iterator_positioned it ∨ iterator_done it) →
      ∃ it', iterator_advance_times m it = some it' ∧ it'.parent = rb
        ∧ (iterator_positioned it' ∨ iterator_done it')
        ∧ iterator_remaining it' = (iterator_remaining it).drop m := by
  intro m
  induction m with
  | zero =>
    intro it hp hst
    exact ⟨it, rfl, hp, hst, rfl⟩
  | succ m ih =>
    intro it hp hst
    rw [iterator_advance_times]
    rcases hst with h | h
    · obtain ⟨b, it1, h1, h2, h3, h4, h5⟩ := roaring_advance_uint32_iterator_spec rb hv it hp h
      rw [h1]
      simp only
      obtain ⟨it', e1, e2, e3, e4⟩ := ih it1 h2 (by
        rcases h4 with ⟨_, g⟩ | ⟨_, g⟩
        · exact Or.inl g
        · exact Or.inr g)
      refine ⟨it', e1, e2, e3, ?_⟩
      rw [e4, h5, List.drop_succ_cons]
    · rw [roaring_advance_uint32_iterator_done it h]
      simp only
      obtain ⟨it', e1, e2, e3, e4⟩ := ih it hp (Or.inr h)
      refine ⟨it', e1, e2, e3, ?_⟩
      rw [e4, iterator_remaining_done it h, List.drop_nil, List.drop_nil]

/-- Reading in bulk agrees with stepping, as far as the values go: from a
position on a value of a valid bitmap `roaring_read_uint32_iterator` returns
(the assertion holds), writes the next `m = min(count, number of values from
the current one on)` values in increasing order, returns `m`, and leaves an
iterator with the same values still to deliver, the same `has_value` and the
same `current_value` as `m` calls of `roaring_advance_uint32_iterator`. -/
theorem roaring_read_uint32_iterator_values (rb : roaring_bitmap_t container_t)
    (hv : iterator_valid rb) (it : roaring_uint32_iterator_t) (hp : it.parent = rb)
    (hpos : iterator_positioned it) (count : Nat) (hcount : count < 2 ^ 32) :
    ∃ it' it'',
      roaring_read_uint32_iterator it count
        = some (min count (iterator_remaining it).length, it',
            (iterator_remaining it).take (min count (iterator_remaining it).length))
      ∧ iterator_advance_times (min count (iterator_remaining it).length) it = some it''
      ∧ iterator_remaining it'
        = (iterator_remaining it).drop (min count (iterator_remaining it).length)
      ∧ iterator_remaining it'' = iterator_remaining it'
      ∧ it'.has_value = it''.has_value ∧ it'.current_value = it''.current_value
      ∧ (iterator_positioned it' ∨ iterator_done it')
      ∧ (iterator_positioned it'' ∨ iterator_done it'')
      ∧ it'.parent = rb ∧ it''.parent = rb
      ∧ (iterator_normal it → iterator_normal it')
      ∧ (it'.has_value = false → it' = it ∨ iterator_end it') := by
  obtain ⟨it', e1, e2, e3, e4, e5, e6⟩ := roaring_read_uint32_iterator_loop_spec rb hv count
    hcount (it.parent.high_low_container.length + 1) it [] hp (Or.inl hpos) (Nat.zero_le _)
    (by omega) (fun _ => by rw [hp]; omega)
  simp only [List.length_nil, Nat.sub_zero, List.nil_append, List.length_take] at e1 e4
  obtain ⟨it'', a1, a2, a3, a4⟩ := iterator_advance_times_spec rb hv
    (min count (iterator_remaining it).length) it hp (Or.inl hpos)
  have htake : (iterator_remaining it).take (min count (iterator_remaining it).length)
      = (iterator_remaining it).take count := by
    by_cases h : count ≤ (iterator_remaining it).length
    · rw [Nat.min_eq_left h]
    · rw [Nat.min_eq_right (by omega), List.take_of_length_le (le_refl _),
        List.take_of_length_le (by omega)]
  have hdrop : (iterator_remaining it).drop (min count (iterator_remaining it).length)
      = (iterator_remaining it).drop count := by
    by_cases h : count ≤ (iterator_remaining it).length
    · rw [Nat.min_eq_left h]
    · rw [Nat.min_eq_right (by omega), List.drop_of_length_le (le_refl _),
        List.drop_of_length_le (by omega)]
  have hsame : iterator_remaining it'' = iterator_remaining it' := by
    rw [a4, e4, hdrop]
  obtain ⟨r1, r2⟩ := iterator_state_of_remaining rb hv it' e2 e3
  obtain ⟨q1, q2⟩ := iterator_state_of_remaining rb hv it'' a2 a3
  have hstate : it'.has_value = it''.has_value ∧ it'.current_value = it''.current_value := by
    cases hr : iterator_remaining it' with
    | nil =>
      obtain ⟨x1, x2⟩ := r1 hr
      obtain ⟨y1, y2⟩ := q1 (hsame.trans hr)
      exact ⟨x1.trans y1.symm, x2.trans y2.symm⟩
    | cons v l =>
      obtain ⟨x1, x2⟩ := r2 v l hr
      obtain ⟨y1, y2⟩ := q2 v l (hsame.trans hr)
      exact ⟨x1.trans y1.symm, x2.trans y2.symm⟩
  refine ⟨it', it'', ?_, a1, ?_, hsame, hstate.1, hstate.2, e3, a3, e2, a2, e5, e6⟩
  · unfold roaring_read_uint32_iterator
    rw [e1, htake]
  · rw [e4, hdrop]

/-- The low 16 bits of the value that a positioned iterator stands on. -/
theorem iterator_positioned_low (rb : roaring_bitmap_t container_t) (hv : iterator_valid rb)
    (it : roaring_uint32_iterator_t) (hp : it.parent = rb) (hpos : iterator_positioned it) :
    ∃ e, rb.high_low_container[it.container_index.toNat]? = some e
      ∧ it.container = container_unwrap_shared e.2 ∧ it.highbits = e.1 * 65536
      ∧ e.1 * 65536 ≤ it.current_value ∧ it.current_value < e.1 * 65536 + 65536 := by
  obtain ⟨hhas, hci, e, he, hcont, hhb, hm⟩ := hpos
  rw [hp] at he
  have hmem : e ∈ rb.high_low_container := mem_of_getElem?_eq_some _ _ _ he
  have hval := hv.2.2 e hmem
  rw [← hcont] at hval
  refine ⟨e, he, hcont, hhb, ?_⟩
  cases hc : it.container with
  | array a =>
    rw [hc] at hm hval
    simp only at hm
    obtain ⟨hlt, x, hx, hcur⟩ := hm
    obtain ⟨⟨v1, v2, v3⟩, v4⟩ := hval
    have := v3 x (mem_of_getElem?_eq_some _ _ _ (getElem?_take_some _ _ _ _ hx hlt))
    omega
  | bitset b =>
    rw [hc] at hm
    simp only at hm
    obtain ⟨h1, _, h3⟩ := hm
    omega
  | run r =>
    rw [hc] at hm hval
    simp only at hm
    obtain ⟨hlt, rle, hrle, hlo, hhi⟩ := hm
    obtain ⟨w1, w2, w3, w4⟩ := hval
    have := w4 rle (mem_of_getElem?_eq_some _ _ _ (getElem?_take_some _ _ _ _ hrle hlt))
    omega
  | shared c =>
    rw [hc] at hm
    exact absurd hm (by simp)

/-- Two iterators over a valid bitmap that stand on the same value, with
their unused fields 0, are equal. -/
theorem iterator_positioned_unique (rb : roaring_bitmap_t container_t)
    (hv : iterator_valid rb) (x y : roaring_uint32_iterator_t) (hx : x.parent = rb)
    (hy : y.parent = rb) (px : iterator_positioned x) (py : iterator_positioned y)
    (nx : iterator_normal x) (ny : iterator_normal y)
    (hcv : x.current_value = y.current_value) : x = y := by
  obtain ⟨ex, a1, a2, a3, a4, a5⟩ := iterator_positioned_low rb hv x hx px
  obtain ⟨ey, b1, b2, b3, b4, b5⟩ := iterator_positioned_low rb hv y hy py
  have hkey : ex.1 = ey.1 := by omega
  have hidx : x.container_index.toNat = y.container_index.toNat :=
    index_unique_of_sorted rb.high_low_container hv.1 _ _ ex.1 ex.2 ey.2
      (by rw [a1]) (by rw [b1, hkey])
  have hee : ex = ey := by
    rw [hidx, b1] at a1
    exact (Option.some.inj a1).symm
  subst hee
  obtain ⟨xhas, xci, _, _, _, _, xm⟩ := px
  obtain ⟨yhas, yci, _, _, _, _, ym⟩ := py
  have hmem : ex ∈ rb.high_low_container := mem_of_getElem?_eq_some _ _ _ a1
  have hval := hv.2.2 ex hmem
  cases x with
  | mk xp xc xi xr xv xh xcont xhb =>
  cases y with
  | mk yp yc yi yr yv yh ycont yhb =>
  simp only at hx hy hcv a2 a3 b2 b3 hidx xhas yhas xci yci xm ym nx ny a4 a5
  subst hx hy hcv xhas yhas a3 b3
  have hci : xc = yc := by omega
  subst hci
  rw [← b2] at a2
  subst a2
  rw [b2] at xm ym nx ny
  unfold iterator_normal at nx ny
  simp only at nx ny
  cases hc : container_unwrap_shared ex.2 with
  | array a =>
    rw [hc] at xm ym nx ny hval
    simp only at xm ym nx ny
    obtain ⟨xlt, x1, hx1, hx2⟩ := xm
    obtain ⟨ylt, y1, hy1, hy2⟩ := ym
    obtain ⟨⟨v1, v2, v3⟩, v4⟩ := hval
    have hxy : x1 = y1 := by omega
    subst hxy
    have hi : xi = yi := by
      rcases Nat.lt_trichotomy xi yi with h | h | h
      · have := pairwise_getElem? _ _ v2 xi yi x1 x1 (getElem?_take_some _ _ _ _ hx1 xlt)
          (getElem?_take_some _ _ _ _ hy1 ylt) h
        omega
      · exact h
      · have := pairwise_getElem? _ _ v2 yi xi x1 x1 (getElem?_take_some _ _ _ _ hy1 ylt)
          (getElem?_take_some _ _ _ _ hx1 xlt) h
        omega
    subst hi nx ny
    rfl
  | bitset b =>
    rw [hc] at xm ym nx ny
    simp only at xm ym nx ny
    obtain ⟨_, _, hx2⟩ := xm
    obtain ⟨_, _, hy2⟩ := ym
    have hi : xi = yi := by omega
    subst hi nx ny
    rfl
  | run r =>
    rw [hc] at xm ym nx ny hval
    simp only at xm ym nx ny
    obtain ⟨xlt, rx, hrx, hx1, hx2⟩ := xm
    obtain ⟨ylt, ry, hry, hy1, hy2⟩ := ym
    obtain ⟨w1, w2, w3, w4⟩ := hval
    have hi : xr = yr := by
      rcases Nat.lt_trichotomy xr yr with h | h | h
      · have := pairwise_getElem? _ _ w3 xr yr rx ry (getElem?_take_some _ _ _ _ hrx xlt)
          (getElem?_take_some _ _ _ _ hry ylt) h
        simp only at this
        omega
      · exact h
      · have := pairwise_getElem? _ _ w3 yr xr ry rx (getElem?_take_some _ _ _ _ hry ylt)
          (getElem?_take_some _ _ _ _ hrx xlt) h
        simp only at this
        omega
    subst hi nx ny
    rfl
  | shared c =>
    rw [hc] at xm
    exact absurd xm (by simp)

/-- Two iterators behind the last container of the same bitmap are equal. -/
theorem iterator_end_unique (x y : roaring_uint32_iterator_t) (hxy : x.parent = y.parent)
    (ex : iterator_end x) (ey : iterator_end y) : x = y := by
  obtain ⟨a1, a2, a3, a4, a5, e1, a6, a7, a8⟩ := ex
  obtain ⟨b1, b2, b3, b4, b5, e2, b6, b7, b8⟩ := ey
  cases x with
  | mk xp xc xi xr xv xh xcont xhb =>
  cases y with
  | mk yp yc yi yr yv yh ycont yhb =>
  simp only at hxy a1 a2 a3 a4 a5 a6 a7 a8 b1 b2 b3 b4 b5 b6 b7 b8
  subst hxy a1 a2 a3 a4 a5 b1 b2 b3 b4 b5
  rw [a6] at b6
  have hee : e1 = e2 := Option.some.inj b6
  subst hee a7 a8 b7 b8
  rfl

theorem iterator_stopped_in_run_done (it : roaring_uint32_iterator_t)
    (h : iterator_stopped_in_run it) : iterator_done it :=
  ⟨h.1, h.2.1, Or.inr ⟨h.2.2.1, h.2.2.2.2⟩⟩

/-- The move to the next container at the end of
`roaring_advance_uint32_iterator`: the iterator stands on a value with its
unused fields 0, or behind the last container. -/
theorem roaring_advance_uint32_iterator_next_end (rb : roaring_bitmap_t container_t)
    (hv : iterator_valid rb) (it : roaring_uint32_iterator_t) (hp : it.parent = rb)
    (hci : 0 ≤ it.container_index) (e : Nat × container_t)
    (he : rb.high_low_container[it.container_index.toNat]? = some e)
    (hcont : it.container = container_unwrap_shared e.2) (hhb : it.highbits = e.1 * 65536)
    (b : Bool) (it1 : roaring_uint32_iterator_t)
    (h : roaring_advance_uint32_iterator_next it = some (b, it1)) :
    (b = true ∧ iterator_positioned it1 ∧ iterator_normal it1)
    ∨ (b = false ∧ iterator_end it1) := by
  obtain ⟨b', it3, l1, l2, l3, l4, l5, l6, l7⟩ :=
    loadfirstvalue_next_spec rb hv it hp hci e he hcont hhb
  unfold roaring_advance_uint32_iterator_next at h
  simp only [l1, Option.some.injEq, Prod.mk.injEq] at h
  obtain ⟨h1, h2⟩ := h
  subst h1
  rw [iterator_with_has_value it3 b' l3] at h2
  subst h2
  rcases l7 with ⟨g1, g2⟩ | ⟨g1, g2⟩
  · exact Or.inl ⟨g1, g2, l5⟩
  · exact Or.inr ⟨g1, g2⟩

/-- From a position on a value, with the unused fields 0,
`roaring_advance_uint32_iterator` leads to a position on a value with the
unused fields 0, or behind the last container, or, from `UINT32_MAX` in a run
container, nowhere: the iterator stays where it is and has no value. -/
theorem roaring_advance_uint32_iterator_normal (rb : roaring_bitmap_t container_t)
    (hv : iterator_valid rb) (it : roaring_uint32_iterator_t) (hp : it.parent = rb)
    (hpos : iterator_positioned it) (hn : iterator_normal it) :
    ∃ b it1, roaring_advance_uint32_iterator it = some (b, it1)
      ∧ ((b = true ∧ iterator_positioned it1 ∧ iterator_normal it1)
        ∨ (b = false ∧ iterator_end it1)
        ∨ (b = false ∧ iterator_stopped_in_run it1 ∧ it.current_value = UINT32_MAX
            ∧ ∃ r, it.container = container_t.run r)) := by
  obtain ⟨b, it1, h1, h2, h3, h4, h5⟩ := roaring_advance_uint32_iterator_spec rb hv it hp hpos
  refine ⟨b, it1, h1, ?_⟩
  have hposit : b = true → iterator_positioned it1 := by
    intro hb
    rcases h4 with ⟨_, g⟩ | ⟨g, _⟩
    · exact g
    · rw [hb] at g; exact absurd g (by simp)
  obtain ⟨hi1, hi2⟩ := iterator_positioned_index it hpos
  obtain ⟨hhas, hci, e, he, hcont, hhb, hm⟩ := hpos
  rw [hp] at he
  have hstay : ∀ X : roaring_uint32_iterator_t, iterator_normal X →
      some (true, X) = some (b, it1) →
      (b = true ∧ iterator_positioned it1 ∧ iterator_normal it1)
      ∨ (b = false ∧ iterator_end it1)
      ∨ (b = false ∧ iterator_stopped_in_run it1 ∧ it.current_value = UINT32_MAX
          ∧ ∃ r, it.container = container_t.run r) := by
    intro X hX h
    simp only [Option.some.injEq, Prod.mk.injEq] at h
    obtain ⟨g1, g2⟩ := h
    subst g1 g2
    exact Or.inl ⟨rfl, hposit rfl, hX⟩
  have hnext : ∀ X : roaring_uint32_iterator_t, X.parent = rb →
      X.container_index = it.container_index → X.container = it.container →
      X.highbits = it.highbits → roaring_advance_uint32_iterator_next X = some (b, it1) →
      (b = true ∧ iterator_positioned it1 ∧ iterator_normal it1)
      ∨ (b = false ∧ iterator_end it1)
      ∨ (b = false ∧ iterator_stopped_in_run it1 ∧ it.current_value = UINT32_MAX
          ∧ ∃ r, it.container = container_t.run r) := by
    intro X x1 x2 x3 x4 h
    rcases roaring_advance_uint32_iterator_next_end rb hv X x1 (by rw [x2]; exact hci) e
      (by rw [x2]; exact he) (by rw [x3]; exact hcont) (by rw [x4]; exact hhb) b it1 h
      with g | g
    · exact Or.inl g
    · exact Or.inr (Or.inl g)
  unfold roaring_advance_uint32_iterator at h1
  rw [if_neg hi1, if_neg hi2] at h1
  unfold iterator_normal at hn
  cases it with
  | mk parent ci ici ri cur has cont hb =>
  simp only at hp hi1 hi2 hhas hci he hcont hhb hm hn h1
  subst hp hhas
  cases cont with
  | array a =>
    simp only at h1 hn
    split at h1
    · split at h1
      · exact absurd h1 (by simp)
      · exact hstay _ (by unfold iterator_normal; exact hn) h1
    · exact hnext _ rfl rfl rfl rfl h1
  | bitset bs =>
    simp only at h1 hn
    split at h1
    · exact hnext _ rfl rfl rfl rfl h1
    · split at h1
      · exact absurd h1 (by simp)
      · split at h1
        · exact absurd h1 (by simp)
        · split at h1
          · exact hstay _ (by unfold iterator_normal; exact hn) h1
          · exact hnext _ rfl rfl rfl rfl h1
  | run r =>
    simp only at h1 hn
    split at h1
    · rename_i hmax
      simp only [Option.some.injEq, Prod.mk.injEq] at h1
      obtain ⟨g1, g2⟩ := h1
      subst g1 g2
      refine Or.inr (Or.inr ⟨rfl, ⟨rfl, hmax, hci, ?_, r, rfl⟩, hmax, r, rfl⟩)
      simp only
      omega
    · split at h1
      · exact absurd h1 (by simp)
      · split at h1
        · exact hstay _ (by unfold iterator_normal; exact hn) h1
        · split at h1
          · split at h1
            · exact absurd h1 (by simp)
            · exact hstay _ (by unfold iterator_normal; exact hn) h1
          · exact hnext _ rfl rfl rfl rfl h1
  | shared c =>
    exact absurd hm (by simp)

theorem iterator_stopped_at_max_done (rb : roaring_bitmap_t container_t)
    (it : roaring_uint32_iterator_t) (h : iterator_stopped_at_max rb it) :
    iterator_done it := by
  obtain ⟨y, _, hpos, hcv, ⟨r, hr⟩, rfl⟩ := h
  exact ⟨rfl, hcv, Or.inr ⟨hpos.2.1, r, hr⟩⟩

/-- After `m` calls of `roaring_advance_uint32_iterator` from a position on a
value with the unused fields 0, the iterator stands on a value with the unused
fields 0, or behind the last container, or on `UINT32_MAX` in a run container
without a value. -/
theorem iterator_advance_times_normal (rb : roaring_bitmap_t container_t)
    (hv : iterator_valid rb) :
    ∀ (m : Nat) (it : roaring_uint32_iterator_t), it.parent = rb →
      ((iterator_positioned it ∧ iterator_normal it) ∨ iterator_end it
        ∨ iterator_stopped_at_max rb it) →
      ∃ it', iterator_advance_times m it = some it'
        ∧ ((iterator_positioned it' ∧ iterator_normal it') ∨ iterator_end it'
          ∨ iterator_stopped_at_max rb it') := by
  intro m
  induction m with
  | zero =>
    intro it _ hst
    exact ⟨it, rfl, hst⟩
  | succ m ih =>
    intro it hp hst
    rw [iterator_advance_times]
    rcases hst with ⟨hpos, hn⟩ | hend | hstop
    · obtain ⟨b, it1, h1, h2⟩ := roaring_advance_uint32_iterator_normal rb hv it hp hpos hn
      obtain ⟨_, _, s1, s2, _⟩ := roaring_advance_uint32_iterator_spec rb hv it hp hpos
      rw [h1] at s1
      simp only [Option.some.injEq, Prod.mk.injEq] at s1
      rw [h1]
      simp only
      apply ih it1 (by rw [s1.2]; exact s2)
      rcases h2 with ⟨_, g1, g2⟩ | ⟨_, g⟩ | ⟨_, g1, g2, g3⟩
      · exact Or.inl ⟨g1, g2⟩
      · exact Or.inr (Or.inl g)
      · refine Or.inr (Or.inr ⟨it, hp, hpos, g2, g3, ?_⟩)
        have h3 := h1
        unfold roaring_advance_uint32_iterator at h3
        obtain ⟨hi1, hi2⟩ := iterator_positioned_index it hpos
        rw [if_neg hi1, if_neg hi2] at h3
        obtain ⟨r, hr⟩ := g3
        simp only [hr, g2, if_true, Option.some.injEq, Prod.mk.injEq] at h3
        rw [← h3.2]
        cases it with
        | mk parent ci ici ri cur has cont hb =>
        simp only at hr g2
        subst hr g2
        rfl
    · rw [roaring_advance_uint32_iterator_done it (iterator_end_done it hend)]
      exact ih it hp (Or.inr (Or.inl hend))
    · rw [roaring_advance_uint32_iterator_done it (iterator_stopped_at_max_done rb it hstop)]
      exact ih it hp (Or.inr (Or.inr hstop))

/-- Reading in bulk agrees with stepping in the state of the iterator, but
for one case: from a position on a value of a valid bitmap, with the unused
fields 0, `roaring_read_uint32_iterator` leaves the iterator as `m = min(count,
number of values from the current one on)` calls of
`roaring_advance_uint32_iterator` leave it, unless the last value read is
`UINT32_MAX` held in a run container: then the read leaves the iterator behind
the last container and the calls leave it on `UINT32_MAX` without a value. -/
theorem roaring_read_uint32_iterator_state (rb : roaring_bitmap_t container_t)
    (hv : iterator_valid rb) (it : roaring_uint32_iterator_t) (hp : it.parent = rb)
    (hpos : iterator_positioned it) (hn : iterator_normal it) (count : Nat)
    (hcount : count < 2 ^ 32) (it' it'' : roaring_uint32_iterator_t) (buf : List Nat)
    (m : Nat) (hread : roaring_read_uint32_iterator it count = some (m, it', buf))
    (hadv : iterator_advance_times (min count (iterator_remaining it).length) it = some it'') :
    it' = it'' ∨ (iterator_end it' ∧ iterator_stopped_at_max rb it'') := by
  obtain ⟨x', x'', e1, e2, e3, e4, e5, e6, e7, e8, e9, e10, e11, e12⟩ :=
    roaring_read_uint32_iterator_values rb hv it hp hpos count hcount
  rw [hread] at e1
  rw [hadv] at e2
  simp only [Option.some.injEq, Prod.mk.injEq] at e1 e2
  obtain ⟨_, g1, _⟩ := e1
  subst g1 e2
  obtain ⟨y, a1, a2⟩ := iterator_advance_times_normal rb hv
    (min count (iterator_remaining it).length) it hp (Or.inl ⟨hpos, hn⟩)
  rw [hadv] at a1
  simp only [Option.some.injEq] at a1
  subst a1
  obtain ⟨r1, r2⟩ := iterator_state_of_remaining rb hv it' e9 e7
  cases hr : iterator_remaining it' with
  | nil =>
    have hnv := (r1 hr).1
    have hend : iterator_end it' := by
      rcases e12 hnv with h | h
      · rw [h, hpos.1] at hnv
        exact absurd hnv (by simp)
      · exact h
    rcases a2 with ⟨g, _⟩ | g | g
    · have := g.1
      rw [← e5, hnv] at this
      exact absurd this (by simp)
    · exact Or.inl (iterator_end_unique it' it'' (e9.trans e10.symm) hend g)
    · exact Or.inr ⟨hend, g⟩
  | cons v l =>
    have hv' := (r2 v l hr).1
    have p' : iterator_positioned it' := by
      rcases e7 with h | h
      · exact h
      · rw [h.1] at hv'
        exact absurd hv' (by simp)
    have hv'' : it''.has_value = true := by rw [← e5]; exact hv'
    left
    rcases a2 with ⟨g1, g2⟩ | g | g
    · exact iterator_positioned_unique rb hv it' it'' e9 e10 p' g1 (e11 hn) g2 e6
    · rw [g.1] at hv''
      exact absurd hv'' (by simp)
    · rw [(iterator_stopped_at_max_done rb it'' g).1] at hv''
      exact absurd hv'' (by simp)

/-- The value that a positioned iterator stands on is an element of the
bitmap. -/
theorem iterator_positioned_mem (rb : roaring_bitmap_t container_t) (hv : iterator_valid rb)
    (it : roaring_uint32_iterator_t) (hp : it.parent = rb) (hpos : iterator_positioned it) :
    it.current_value ∈ roaring_elements rb := by
  obtain ⟨hhas, hci, e, he, hcont, hhb, hm⟩ := hpos
  rw [hp] at he
  have hmem : e ∈ rb.high_low_container := mem_of_getElem?_eq_some _ _ _ he
  have hval := hv.2.2 e hmem
  have hlow : ∃ low, it.current_value = e.1 * 65536 + low
      ∧ low ∈ container_elements (container_unwrap_shared e.2) := by
    rw [← hcont] at hval ⊢
    cases hc : it.container with
    | array a =>
      rw [hc] at hm hval
      simp only at hm
      obtain ⟨hlt, x, hx, hcur⟩ := hm
      refine ⟨x, by rw [hcur, hhb], ?_⟩
      exact mem_of_getElem?_eq_some _ _ _ (getElem?_take_some _ _ _ _ hx hlt)
    | bitset b =>
      rw [hc] at hm hval
      simp only at hm
      obtain ⟨h1, h2, h3⟩ := hm
      refine ⟨it.in_container_index, by rw [h3, hhb], ?_⟩
      rw [mem_container_elements_of_valid _ hval]
      exact ⟨h1, h2⟩
    | run r =>
      rw [hc] at hm hval
      simp only at hm
      obtain ⟨hlt, rle, hrle, hlo, hhi⟩ := hm
      refine ⟨it.current_value - it.highbits, by rw [← hhb]; omega, ?_⟩
      simp only [container_elements, List.mem_flatMap, List.mem_range'_1]
      exact ⟨rle, mem_of_getElem?_eq_some _ _ _ (getElem?_take_some _ _ _ _ hrle hlt),
        by omega, by omega⟩
    | shared c =>
      rw [hc] at hm
      exact absurd hm (by simp)
  obtain ⟨low, h1, h2⟩ := hlow
  rw [container_elements_unwrap e.2 hval] at h2
  unfold roaring_elements
  rw [List.mem_flatMap]
  refine ⟨e, hmem, ?_⟩
  unfold entry_elements
  rw [List.mem_map]
  exact ⟨low, h2, h1.symm⟩

/-- A state reached from `roaring_init_iterator` by calls of
`roaring_advance_uint32_iterator` stands on a value with the unused fields 0,
or has no value. -/
theorem iterator_after_normal (rb : roaring_bitmap_t container_t) (hv : iterator_valid rb)
    (newit : roaring_uint32_iterator_t) :
    ∀ (k : Nat) (it : roaring_uint32_iterator_t), iterator_after rb newit k = some it →
      it.parent = rb
      ∧ ((iterator_positioned it ∧ iterator_normal it) ∨ iterator_done it) := by
  intro k
  induction k with
  | zero =>
    intro it h
    obtain ⟨it0, h1, h2, h3, _⟩ := roaring_init_iterator_spec rb hv newit
    rw [iterator_after] at h
    rw [h] at h1
    simp only [Option.some.injEq] at h1
    subst h1
    refine ⟨h2, ?_⟩
    rcases h3 with g | g
    · refine Or.inl ⟨g, ?_⟩
      unfold roaring_init_iterator at h
      simp only at h
      cases hl : loadfirstvalue { newit with parent := rb, container_index := 0 } with
      | none => simp [hl] at h
      | some r =>
        obtain ⟨b, x⟩ := r
        simp only [hl, Option.some.injEq] at h
        obtain ⟨_, _, f3, f4, _⟩ := loadfirstvalue_frame _ _ _ hl
        rw [iterator_with_has_value x b f3] at h
        rw [← h]
        exact f4
    · exact Or.inr g
  | succ k ih =>
    intro it h
    rw [iterator_after] at h
    cases hk : iterator_after rb newit k with
    | none => simp [hk] at h
    | some itk =>
      simp only [hk] at h
      obtain ⟨hp, hst⟩ := ih itk hk
      rcases hst with ⟨g1, g2⟩ | g
      · obtain ⟨b, it1, a1, a2⟩ := roaring_advance_uint32_iterator_normal rb hv itk hp g1 g2
        obtain ⟨_, _, s1, s2, _⟩ := roaring_advance_uint32_iterator_spec rb hv itk hp g1
        rw [a1] at s1
        simp only [Option.some.injEq, Prod.mk.injEq] at s1
        simp only [a1, Option.some.injEq] at h
        subst h
        refine ⟨by rw [s1.2]; exact s2, ?_⟩
        rcases a2 with ⟨_, c1, c2⟩ | ⟨_, c⟩ | ⟨_, c, _⟩
        · exact Or.inl ⟨c1, c2⟩
        · exact Or.inr (iterator_end_done _ c)
        · exact Or.inr (iterator_stopped_in_run_done _ c)
      · simp only [roaring_advance_uint32_iterator_done itk g, Option.some.injEq] at h
        subst h
        exact ⟨hp, Or.inr g⟩

/-- An iterator that stands on a value of a valid bitmap, with its unused
fields 0, is the one that `roaring_init_iterator` and `k` calls of
`roaring_advance_uint32_iterator` give, where `k` is the index of the value in
the increasing list of the elements; the values that it has still to deliver
are the elements from that index on. -/
theorem iterator_positioned_reachable (rb : roaring_bitmap_t container_t)
    (hv : iterator_valid rb) (it : roaring_uint32_iterator_t) (hp : it.parent = rb)
    (hpos : iterator_positioned it) (hn : iterator_normal it)
    (newit : roaring_uint32_iterator_t) :
    ∃ k, iterator_after rb newit k = some it
      ∧ (roaring_elements rb)[k]? = some it.current_value
      ∧ iterator_remaining it = (roaring_elements rb).drop k := by
  obtain ⟨k, hk⟩ := List.mem_iff_getElem?.1 (iterator_positioned_mem rb hv it hp hpos)
  obtain ⟨itk, h1, h2, h3, h4⟩ := iterator_after_spec rb hv newit k
  have hdrop := drop_eq_cons_of_getElem? _ k _ hk
  rw [hdrop] at h4
  obtain ⟨c1, c2⟩ := (iterator_state_of_remaining rb hv itk h2 h3).2 _ _ h4
  have hposk : iterator_positioned itk := by
    rcases h3 with g | g
    · exact g
    · rw [g.1] at c1
      exact absurd c1 (by simp)
  have hnk : iterator_normal itk := by
    rcases (iterator_after_normal rb hv newit k itk h1).2 with ⟨_, g⟩ | g
    · exact g
    · rw [g.1] at c1
      exact absurd c1 (by simp)
  have heq : it = itk :=
    iterator_positioned_unique rb hv it itk hp h2 hpos hposk hn hnk c2.symm
  subst heq
  exact ⟨k, h1, hk, by rw [h4, hdrop]⟩

/-- C36: for every valid bitmap and every iterator that stands on an element
`e` (its unused fields 0, as every function of the iterator leaves them), with
`k` the index of `e` in the increasing list of the elements and `m = min(count,
number of elements from e on)`: `roaring_read_uint32_iterator` returns without
a failed assertion, returns `m` and writes the `m` elements from `e` on in
increasing order; `has_value` and `current_value` are afterwards what `m` calls
of `roaring_advance_uint32_iterator` leave, namely the element of index `k + m`
if there is one and `has_value = false` otherwise; and the iterator as a whole
is the one that the `m` calls leave, except when the last element read is
`UINT32_MAX` held in a run container: then the read leaves the iterator behind
the last container, whereas the calls leave it on `UINT32_MAX` inside the
container.  The last part is met on the bitmap `{4294967293, 4294967294,
4294967295}` held in a run container, with `count = 3`: the two iterators differ
in `container_index`. -/
theorem roaring_read_uint32_iterator_agrees (rb : roaring_bitmap_t container_t)
    (hv : iterator_valid rb) (it : roaring_uint32_iterator_t) (hp : it.parent = rb)
    (hpos : iterator_positioned it) (hn : iterator_normal it) (count : Nat)
    (hcount : count < 2 ^ 32) :
    (∃ k it' it'', (roaring_elements rb)[k]? = some it.current_value
      ∧ roaring_read_uint32_iterator it count
        = some (min count ((roaring_elements rb).length - k), it',
            ((roaring_elements rb).drop k).take (min count ((roaring_elements rb).length - k)))
      ∧ iterator_advance_times (min count ((roaring_elements rb).length - k)) it = some it''
      ∧ it'.has_value = it''.has_value ∧ it'.current_value = it''.current_value
      ∧ (∀ v, (roaring_elements rb)[k + min count ((roaring_elements rb).length - k)]? = some v →
          it'.has_value = true ∧ it'.current_value = v)
      ∧ ((roaring_elements rb).length ≤ k + min count ((roaring_elements rb).length - k) →
          it'.has_value = false ∧ it'.current_value = UINT32_MAX)
      ∧ (it' = it'' ∨ (iterator_end it' ∧ iterator_stopped_at_max rb it'')))
    ∧ roaring_read_uint32_iterator
          ⟨top_run_bitmap_3, 0, 0, 0, 4294967293, true, .run ⟨1, 1, [⟨65533, 2⟩]⟩,
            4294901760⟩ 3
        = some (3,
            ⟨top_run_bitmap_3, 1, 0, 0, 4294967295, false, .run ⟨1, 1, [⟨65533, 2⟩]⟩,
              4294901760⟩,
            [4294967293, 4294967294, 4294967295])
    ∧ iterator_advance_times 3
          ⟨top_run_bitmap_3, 0, 0, 0, 4294967293, true, .run ⟨1, 1, [⟨65533, 2⟩]⟩,
            4294901760⟩
        = some ⟨top_run_bitmap_3, 0, 0, 0, 4294967295, false, .run ⟨1, 1, [⟨65533, 2⟩]⟩,
            4294901760⟩ := by
  refine ⟨?_, rfl, rfl⟩
  obtain ⟨k, _, hk, hrem⟩ := iterator_positioned_reachable rb hv it hp hpos hn it
  obtain ⟨it', it'', e1, e2, e3, e4, e5, e6, e7, e8, e9, e10, e11, e12⟩ :=
    roaring_read_uint32_iterator_values rb hv it hp hpos count hcount
  have hst := roaring_read_uint32_iterator_state rb hv it hp hpos hn count hcount it' it'' _ _
    e1 e2
  have hlen : (iterator_remaining it).length = (roaring_elements rb).length - k := by
    rw [hrem, List.length_drop]
  rw [hlen, hrem] at e1
  rw [hlen] at e2
  rw [hlen, hrem, List.drop_drop] at e3
  obtain ⟨r1, r2⟩ := iterator_state_of_remaining rb hv it' e9 e7
  refine ⟨k, it', it'', hk, e1, e2, e5, e6, fun v hv' => ?_, fun hle => ?_, hst⟩
  · apply r2 v _
    rw [e3, Nat.add_comm]
    exact drop_eq_cons_of_getElem? _ _ _ (by rw [Nat.add_comm]; exact hv')
  · apply r1
    rw [e3, List.drop_eq_nil_of_le (by omega)]

/-- C36, witness: a read of five values from the first element of a bitmap
with an array container, a bitset container and a run container. -/
theorem roaring_read_uint32_iterator_agrees_witness :
    iterator_valid example_iterator_bitmap
    ∧ iterator_positioned
        ⟨example_iterator_bitmap, 0, 0, 0, 3, true, .array ⟨2, 2, [3, 9]⟩, 0⟩
    ∧ iterator_normal ⟨example_iterator_bitmap, 0, 0, 0, 3, true, .array ⟨2, 2, [3, 9]⟩, 0⟩
    ∧ (∃ k it' it'', (roaring_elements example_iterator_bitmap)[k]? = some 3
      ∧ roaring_read_uint32_iterator
          ⟨example_iterator_bitmap, 0, 0, 0, 3, true, .array ⟨2, 2, [3, 9]⟩, 0⟩ 5
        = some (min 5 ((roaring_elements example_iterator_bitmap).length - k), it',
            ((roaring_elements example_iterator_bitmap).drop k).take
              (min 5 ((roaring_elements example_iterator_bitmap).length - k)))
      ∧ iterator_advance_times (min 5 ((roaring_elements example_iterator_bitmap).length - k))
          ⟨example_iterator_bitmap, 0, 0, 0, 3, true, .array ⟨2, 2, [3, 9]⟩, 0⟩ = some it''
      ∧ it'.has_value = it''.has_value ∧ it'.current_value = it''.current_value
      ∧ (∀ v, (roaring_elements example_iterator_bitmap)[k
            + min 5 ((roaring_elements example_iterator_bitmap).length - k)]? = some v →
          it'.has_value = true ∧ it'.current_value = v)
      ∧ ((roaring_elements example_iterator_bitmap).length
            ≤ k + min 5 ((roaring_elements example_iterator_bitmap).length - k) →
          it'.has_value = false ∧ it'.current_value = UINT32_MAX)
      ∧ (it' = it'' ∨ (iterator_end it' ∧ iterator_stopped_at_max example_iterator_bitmap it''))) :=
  ⟨example_iterator_bitmap_valid,
    ⟨rfl, by decide, (0, .array ⟨2, 2, [3, 9]⟩), rfl, rfl, rfl, by decide, 3, rfl, rfl⟩,
    rfl,
    (roaring_read_uint32_iterator_agrees example_iterator_bitmap example_iterator_bitmap_valid
      ⟨example_iterator_bitmap, 0, 0, 0, 3, true, .array ⟨2, 2, [3, 9]⟩, 0⟩ rfl
      ⟨rfl, by decide, (0, .array ⟨2, 2, [3, 9]⟩), rfl, rfl, rfl, by decide, 3, rfl, rfl⟩
      rfl 5 (by decide)).1⟩

theorem testBit_mask_low (w q b : Nat) (hq : q < 64) :
    (w &&& (UINT64_MAX >>> (63 - q))).testBit b = (w.testBit b && decide (b ≤ q)) := by
  rw [Nat.testBit_and, Nat.testBit_shiftRight]
  unfold UINT64_MAX
  rw [Nat.testBit_two_pow_sub_one]
  congr 1
  by_cases h : b ≤ q
  · simp [h]; omega
  · simp [h]; omega

theorem mem_bits_from (words : List Nat) (s z : Nat) :
    z ∈ bits_from words s ↔ s ≤ z ∧ z < 65536 ∧ bitset_get words z = true := by
  unfold bits_from
  rw [List.mem_filter, List.mem_range'_1]
  constructor
  · rintro ⟨⟨h1, h2⟩, h3⟩
    exact ⟨h1, by omega, h3⟩
  · rintro ⟨h1, h2, h3⟩
    exact ⟨⟨h1, by omega⟩, h3⟩

/-- The loop of `roaring_previous_uint32_iterator` over words that are all 0
ends below word 0 with the word 0. -/
theorem roaring_previous_uint32_iterator_scan_zero (array : List Nat) :
    ∀ wordindex, wordindex ≤ array.length → (∀ j, j < wordindex → array[j]? = some 0) →
      roaring_previous_uint32_iterator_scan array wordindex 0 = some (0, 0) := by
  intro wordindex
  induction wordindex with
  | zero => intro _ _; rfl
  | succ wi ih =>
    intro hlen hz
    rw [roaring_previous_uint32_iterator_scan]
    simp only [if_true, hz wi (by omega)]
    exact ih (by omega) (fun j hj => hz j (by omega))

/-- The move to the container before the first one in
`roaring_previous_uint32_iterator`. -/
theorem roaring_previous_uint32_iterator_prev_first (it : roaring_uint32_iterator_t)
    (h : it.container_index = 0) :
    roaring_previous_uint32_iterator_prev it
      = some (false, { it with container_index := -1, in_container_index := 0, run_index := 0,
                               current_value := UINT32_MAX, has_value := false }) := by
  unfold roaring_previous_uint32_iterator_prev loadlastvalue iter_new_container_partial_init
  simp [h]

/-- From the first value of the first container, unless that is the value 0 of
a run container, `roaring_previous_uint32_iterator` returns false and leaves
the iterator before the first container. -/
theorem roaring_previous_uint32_iterator_first (rb : roaring_bitmap_t container_t)
    (hv : iterator_valid rb) (it : roaring_uint32_iterator_t) (hp : it.parent = rb)
    (hpos : iterator_positioned it) (hci0 : it.container_index = 0)
    (hfirst : container_remaining it = container_elements it.container)
    (hcorner : ¬ ((∃ r, it.container = container_t.run r) ∧ it.current_value = 0)) :
    roaring_previous_uint32_iterator it
      = some (false, { it with container_index := -1, in_container_index := 0, run_index := 0,
                               current_value := UINT32_MAX, has_value := false }) := by
  obtain ⟨hi1, hi2⟩ := iterator_positioned_index it hpos
  obtain ⟨hhas, hci, e, he, hcont, hhb, hm⟩ := hpos
  rw [hp] at he
  have hmem : e ∈ rb.high_low_container := mem_of_getElem?_eq_some _ _ _ he
  have hval := hv.2.2 e hmem
  rw [← hcont] at hval
  have hk := hv.2.1 e hmem
  have hor : ∀ x, x < 65536 → it.highbits ||| x = it.highbits + x := by
    intro x hx16
    rw [hhb, ← highbits_eq e.1 hk]
    exact highbits_or e.1 x hk hx16
  unfold roaring_previous_uint32_iterator
  rw [if_neg hi2, if_neg hi1]
  cases it with
  | mk parent ci ici ri cur has cont hb =>
  simp only at hp hi1 hi2 hhas hci he hcont hhb hm hci0 hfirst hcorner hval hor ⊢
  subst hp hhas hci0
  cases cont with
  | array a =>
    simp only at hm hfirst hval ⊢
    obtain ⟨⟨v1, v2, v3⟩, v4⟩ := hval
    have hici : ici = 0 := by
      have := congrArg List.length hfirst
      simp only [container_remaining, container_elements, List.length_drop,
        List.length_take] at this
      omega
    subst hici
    simp only [if_true]
    exact roaring_previous_uint32_iterator_prev_first _ rfl
  | bitset b =>
    simp only at hm hfirst hval ⊢
    obtain ⟨w1, w2, w3, w4⟩ := hval
    have w1' : b.array.length = 1024 := w1
    obtain ⟨hidx, hget, hcur⟩ := hm
    have hbelow : ∀ z, z < ici → bitset_get b.array z = false := by
      intro z hz
      by_contra hne
      have hzt : bitset_get b.array z = true := by simpa using hne
      have h1 : z ∈ bits_from b.array 0 := (mem_bits_from _ _ _).2 ⟨Nat.zero_le _, by omega, hzt⟩
      have h2 : z ∈ bits_from b.array ici := by
        have : bits_from b.array ici = bits_from b.array 0 := hfirst
        rw [this]; exact h1
      have := ((mem_bits_from _ _ _).1 h2).1
      omega
    by_cases hz0 : ici = 0
    · subst hz0
      simp only [if_true]
      exact roaring_previous_uint32_iterator_prev_first _ rfl
    · rw [if_neg hz0]
      obtain ⟨w, hw⟩ : ∃ w, b.array[(ici - 1) / 64]? = some w :=
        ⟨_, List.getElem?_eq_getElem (by omega)⟩
      have hword : w &&& (UINT64_MAX >>> (63 - (ici - 1) % 64)) = 0 := by
        apply Nat.eq_of_testBit_eq
        intro i
        rw [testBit_mask_low w _ i (by omega), Nat.zero_testBit]
        by_cases hi : i ≤ (ici - 1) % 64
        · have h1 := hbelow ((ici - 1) / 64 * 64 + i) (by omega)
          rw [bitset_get_eq b.array _ ((ici - 1) / 64) w (by omega) hw] at h1
          have h2 : ((ici - 1) / 64 * 64 + i) % 64 = i := by omega
          rw [h2] at h1
          simp [h1]
        · simp [hi]
      have hzero : ∀ j, j < (ici - 1) / 64 → b.array[j]? = some 0 := by
        intro j hj
        obtain ⟨wj, hwj⟩ : ∃ wj, b.array[j]? = some wj :=
          ⟨_, List.getElem?_eq_getElem (by omega)⟩
        have hwj0 : wj = 0 := by
          apply Nat.eq_of_testBit_eq
          intro i
          rw [Nat.zero_testBit]
          by_cases hi : i < 64
          · have h1 := hbelow (j * 64 + i) (by omega)
            rw [bitset_get_eq b.array _ j wj (by omega) hwj] at h1
            have h2 : (j * 64 + i) % 64 = i := by omega
            rw [h2] at h1
            exact h1
          · exact Nat.testBit_lt_two_pow (Nat.lt_of_lt_of_le
              (w2 wj (mem_of_getElem?_eq_some _ _ _ hwj))
              (Nat.pow_le_pow_right (by decide) (by omega)))
        rw [hwj, hwj0]
      simp only [hw, hword, roaring_previous_uint32_iterator_scan_zero b.array _ (by omega)
        hzero, if_true]
      exact roaring_previous_uint32_iterator_prev_first _ rfl
  | run r =>
    simp only at hm hfirst hval ⊢
    obtain ⟨w1, w2, w3, w4⟩ := hval
    obtain ⟨hlt, rle, hrle, hlo, hhi⟩ := hm
    have hrle_take := getElem?_take_some r.runs r.n_runs ri rle hrle hlt
    have hx : rle.value + rle.length < 65536 := w4 _ (mem_of_getElem?_eq_some _ _ _ hrle_take)
    obtain ⟨rle0, h0⟩ : ∃ rle0, r.runs[0]? = some rle0 :=
      ⟨_, List.getElem?_eq_getElem (by omega)⟩
    have h0take := getElem?_take_some r.runs r.n_runs 0 rle0 h0 (by omega)
    have hhead : cur - hb = rle0.value := by
      have h1 := hfirst
      simp only [container_remaining, hrle, container_elements] at h1
      have h2 := drop_eq_cons_of_getElem? _ 0 _ h0take
      rw [List.drop_zero] at h2
      rw [h2, List.flatMap_cons] at h1
      have e1 : rle.value + rle.length + 1 - (cur - hb)
          = (rle.value + rle.length - (cur - hb)) + 1 := by omega
      rw [e1, List.range'_succ, List.range'_succ] at h1
      simp only [List.cons_append] at h1
      exact (List.cons.inj h1).1
    have hri : ri = 0 := by
      by_contra hne
      have := pairwise_getElem? _ _ w3 0 ri rle0 rle h0take hrle_take (by omega)
      simp only at this
      omega
    subst hri
    rw [h0] at hrle
    have hrr : rle0 = rle := Option.some.inj hrle
    subst hrr
    have hcur0 : cur ≠ 0 := fun h => hcorner ⟨⟨r, rfl⟩, h⟩
    simp only [hcur0, if_false, h0]
    rw [hor _ (show rle0.value < 65536 by omega)]
    have hcond : ¬ (cur - 1 ≥ hb + rle0.value) := by omega
    simp only [hcond, if_false, if_true]
    exact roaring_previous_uint32_iterator_prev_first _ rfl
  | shared c =>
    exact absurd hm (by simp)

/-- An iterator that stands on the smallest element of a valid bitmap, with
its unused fields 0, is the one that `roaring_init_iterator` gives; it stands
on the first value of the first container. -/
theorem iterator_at_minimum (rb : roaring_bitmap_t container_t) (hv : iterator_valid rb)
    (it : roaring_uint32_iterator_t) (hp : it.parent = rb) (hpos : iterator_positioned it)
    (hn : iterator_normal it) (hmin : (roaring_elements rb)[0]? = some it.current_value)
    (newit : roaring_uint32_iterator_t) :
    roaring_init_iterator rb newit = some it ∧ it.container_index = 0
    ∧ container_remaining it = container_elements it.container := by
  obtain ⟨k, h1, h2, _⟩ := iterator_positioned_reachable rb hv it hp hpos hn newit
  have hk : k = 0 := by
    by_contra hne
    have := pairwise_getElem? _ _ (roaring_elements_sorted rb hv) 0 k _ _ hmin h2 (by omega)
    omega
  subst hk
  rw [iterator_after] at h1
  refine ⟨h1, ?_⟩
  unfold roaring_init_iterator at h1
  simp only at h1
  cases hl : loadfirstvalue { newit with parent := rb, container_index := 0 } with
  | none => simp [hl] at h1
  | some r =>
    obtain ⟨b, x⟩ := r
    simp only [hl, Option.some.injEq] at h1
    obtain ⟨f1, f2, f3, _, _⟩ := loadfirstvalue_frame _ _ _ hl
    rw [iterator_with_has_value x b f3] at h1
    subst h1
    simp only at f1 f2
    obtain ⟨_, _, e, he, hcont, _, _⟩ := hpos
    rw [hp, f2] at he
    have hmem : e ∈ rb.high_low_container := mem_of_getElem?_eq_some _ _ _ he
    obtain ⟨it', g1, g2, g3, g4, g5, g6⟩ := loadfirstvalue_spec
      { newit with parent := rb, container_index := 0 } e (by simp only; omega)
      (by simp only; exact he) (hv.2.1 e hmem) (hv.2.2 e hmem)
    rw [hl] at g1
    simp only [Option.some.injEq, Prod.mk.injEq] at g1
    obtain ⟨_, g1⟩ := g1
    subst g1
    refine ⟨f2, ?_⟩
    rw [g5, hcont, container_elements_unwrap e.2 (hv.2.2 e hmem)]

/-- From before the first container `roaring_advance_uint32_iterator` goes to
the smallest element. -/
theorem roaring_advance_uint32_iterator_from_before (rb : roaring_bitmap_t container_t)
    (hv : iterator_valid rb) (it : roaring_uint32_iterator_t) (hp : it.parent = rb)
    (hpos : iterator_positioned it) (hn : iterator_normal it)
    (hmin : (roaring_elements rb)[0]? = some it.current_value) :
    roaring_advance_uint32_iterator
        { it with container_index := -1, in_container_index := 0, run_index := 0,
                  current_value := UINT32_MAX, has_value := false }
      = some (true, it) := by
  obtain ⟨hi1, _⟩ := iterator_positioned_index it hpos
  obtain ⟨h1, h2, _⟩ := iterator_at_minimum rb hv it hp hpos hn hmin
    { it with container_index := -1, in_container_index := 0, run_index := 0,
              current_value := UINT32_MAX, has_value := false }
  have hhas := hpos.1
  unfold roaring_init_iterator at h1
  unfold roaring_advance_uint32_iterator
  cases it with
  | mk parent ci ici ri cur has cont hb =>
  simp only at hp hi1 h1 h2 hhas ⊢
  subst hp hhas h2
  have hc1 : ¬ ((-1 : Int) ≥ (parent.high_low_container.length : Int)) := by omega
  rw [if_neg hc1, if_pos (by decide)]
  cases hl : loadfirstvalue ⟨parent, 0, 0, 0, UINT32_MAX, false, cont, hb⟩ with
  | none => simp [hl] at h1
  | some r =>
    simp only [hl, Option.some.injEq] at h1 ⊢
    rw [h1]
    have := congrArg roaring_uint32_iterator_t.has_value h1
    simp only at this
    rw [this]

theorem builtin_clzll_spec (w : Nat) (hw : w ≠ 0) (hlt : w < 2 ^ 64) :
    builtin_clzll w < 64 ∧ w.testBit (63 - builtin_clzll w) = true
      ∧ ∀ b, 63 - builtin_clzll w < b → w.testBit b = false := by
  obtain ⟨i, hi⟩ := Nat.ne_zero_implies_bit_true hw
  have hi64 : i < 64 := by
    by_contra hge
    have h1 : 2 ^ 64 ≤ 2 ^ i := Nat.pow_le_pow_right (by decide) (Nat.le_of_not_lt hge)
    have h2 := Nat.testBit_implies_ge hi
    omega
  obtain ⟨m, hm, hm64, hmt, hmin⟩ := find?_range_min (fun b => w.testBit (63 - b)) 64
    ⟨63 - i, by omega, by
      simp only
      have : 63 - (63 - i) = i := by omega
      rw [this]; exact hi⟩
  unfold builtin_clzll
  rw [hm]
  simp only [Option.getD_some]
  refine ⟨hm64, hmt, ?_⟩
  intro b hb
  by_cases hb64 : b < 64
  · by_contra hne
    have h1 : w.testBit (63 - (63 - b)) = true := by
      have : 63 - (63 - b) = b := by omega
      rw [this]
      simpa using hne
    have := hmin (63 - b) h1
    omega
  · exact Nat.testBit_lt_two_pow
      (Nat.lt_of_lt_of_le hlt (Nat.pow_le_pow_right (by decide) (by omega)))

/-- The loop of `loadlastvalue` over the words from `wordindex` down, one of
which is not 0: it ends on the last word that is not 0. -/
theorem loadlastvalue_scan_spec (array : List Nat) :
    ∀ wordindex, wordindex < array.length →
      (∃ j w, j ≤ wordindex ∧ array[j]? = some w ∧ w ≠ 0) →
      ∃ j word, loadlastvalue_scan array wordindex = some (j, word) ∧ j ≤ wordindex
        ∧ array[j]? = some word ∧ word ≠ 0
        ∧ ∀ i, j < i → i ≤ wordindex → array[i]? = some 0 := by
  intro wordindex
  induction wordindex with
  | zero =>
    intro hlen h
    obtain ⟨j, w, hj, hw, hne⟩ := h
    have hj0 : j = 0 := by omega
    subst hj0
    rw [loadlastvalue_scan]
    simp only [hw, hne, if_false]
    exact ⟨0, w, rfl, le_refl _, hw, hne, fun i h1 h2 => by omega⟩
  | succ wi ih =>
    intro hlen h
    rw [loadlastvalue_scan]
    obtain ⟨word, hword⟩ : ∃ word, array[wi + 1]? = some word :=
      ⟨_, List.getElem?_eq_getElem hlen⟩
    simp only [hword]
    by_cases hz : word = 0
    · rw [if_pos hz]
      obtain ⟨j, w, hj, hw, hne⟩ := h
      have hjle : j ≤ wi := by
        by_contra hgt
        have hj1 : j = wi + 1 := by omega
        subst hj1
        rw [hword] at hw
        exact hne ((Option.some.inj hw).symm.trans hz)
      obtain ⟨j', word', e1, e2, e3, e4, e5⟩ := ih (by omega) ⟨j, w, hjle, hw, hne⟩
      refine ⟨j', word', e1, by omega, e3, e4, ?_⟩
      intro i h1 h2
      by_cases hi : i = wi + 1
      · subst hi
        rw [hword, hz]
      · exact e5 i h1 (by omega)
    · rw [if_neg hz]
      exact ⟨wi + 1, word, rfl, le_refl _, hword, hz, fun i h1 h2 => by omega⟩

/-- On a valid container `loadlastvalue` returns and positions the iterator
on the last value of the container, with the unused fields 0. -/
theorem loadlastvalue_spec (it : roaring_uint32_iterator_t) (e : Nat × container_t)
    (hci : 0 ≤ it.container_index)
    (he : it.parent.high_low_container[it.container_index.toNat]? = some e)
    (hk : e.1 < 65536) (hv : container_valid (container_unwrap_shared e.2)) :
    ∃ it', loadlastvalue it = some (true, it') ∧ it'.parent = it.parent
      ∧ it'.container_index = it.container_index ∧ iterator_positioned it'
      ∧ iterator_normal it'
      ∧ ∃ low, container_remaining it' = [low] := by
  have hlt : it.container_index.toNat < it.parent.high_low_container.length :=
    (List.getElem?_eq_some.1 he).1
  have hcond : ¬ (it.container_index ≥ (it.parent.high_low_container.length : Int)
      ∨ it.container_index < 0) := by omega
  unfold loadlastvalue iter_new_container_partial_init
  simp only [hcond, if_false, he, Bool.not_true, Bool.false_eq_true]
  cases hc : container_unwrap_shared e.2 with
  | bitset b =>
    rw [hc] at hv
    obtain ⟨hlen, hw, _, hne⟩ := hv
    have hlen' : b.array.length = 1024 := hlen
    obtain ⟨w0, hw0m, hw0⟩ := exists_ne_zero_of_sum_hamming b.array hne
    obtain ⟨j0, hj0⟩ := List.mem_iff_getElem?.1 hw0m
    have hj0lt : j0 < b.array.length := (List.getElem?_eq_some.1 hj0).1
    obtain ⟨j, word, h1, h2, h3, h4, h5⟩ := loadlastvalue_scan_spec b.array
      (BITSET_CONTAINER_SIZE_IN_WORDS - 1)
      (by unfold BITSET_CONTAINER_SIZE_IN_WORDS; omega)
      ⟨j0, w0, by unfold BITSET_CONTAINER_SIZE_IN_WORDS; omega, hj0, hw0⟩
    have hj : j < 1024 := by
      unfold BITSET_CONTAINER_SIZE_IN_WORDS at h2; omega
    have hword : word < 2 ^ 64 := hw word (mem_of_getElem?_eq_some _ _ _ h3)
    obtain ⟨c1, c2, c3⟩ := builtin_clzll_spec word h4 hword
    simp only [h1]
    have hidx : j * 64 + (63 - builtin_clzll word) < 65536 := by omega
    have hset : bitset_get b.array (j * 64 + (63 - builtin_clzll word)) = true := by
      rw [bitset_get_eq b.array _ j word (by omega) h3]
      have : (j * 64 + (63 - builtin_clzll word)) % 64 = 63 - builtin_clzll word := by omega
      rw [this]
      exact c2
    have habove : ∀ z, j * 64 + (63 - builtin_clzll word) + 1 ≤ z → z < 65536 →
        bitset_get b.array z = false := by
      intro z hz1 hz2
      by_cases hzj : z / 64 = j
      · rw [bitset_get_eq b.array z j word hzj h3]
        exact c3 _ (by omega)
      · rw [bitset_get_eq b.array z (z / 64) 0 rfl
          (h5 _ (by omega) (by unfold BITSET_CONTAINER_SIZE_IN_WORDS; omega))]
        simp
    refine ⟨_, rfl, rfl, rfl, ?_, ?_, j * 64 + (63 - builtin_clzll word), ?_⟩
    · refine ⟨rfl, hci, e, he, hc.symm, highbits_eq _ hk, ?_⟩
      simp only
      exact ⟨hidx, hset, highbits_or _ _ hk hidx⟩
    · unfold iterator_normal
      simp only
    · simp only [container_remaining]
      rw [bits_from_cons b.array _ _ (le_refl _) hidx hset (fun z h1 h2 => by omega),
        bits_from_nil b.array _ habove]
  | array a =>
    rw [hc] at hv
    obtain ⟨⟨h1, h2, h3⟩, h4⟩ := hv
    have hcard : ¬ a.cardinality = 0 := by omega
    obtain ⟨x, hx⟩ : ∃ x, a.array[a.cardinality - 1]? = some x :=
      ⟨_, List.getElem?_eq_getElem (by omega)⟩
    have hx16 : x < 65536 :=
      h3 x (mem_of_getElem?_eq_some _ _ _ (getElem?_take_some _ _ _ _ hx (by omega)))
    simp only [hcard, if_false, hx]
    refine ⟨_, rfl, rfl, rfl, ?_, ?_, x, ?_⟩
    · refine ⟨rfl, hci, e, he, hc.symm, highbits_eq _ hk, ?_⟩
      simp only
      exact ⟨by omega, x, hx, highbits_or _ _ hk hx16⟩
    · unfold iterator_normal
      simp only
    · simp only [container_remaining]
      rw [drop_take_cons a.array a.cardinality _ x hx (by omega),
        List.drop_eq_nil_of_le (by rw [List.length_take]; omega)]
  | run r =>
    rw [hc] at hv
    obtain ⟨h1, h2, h3, h4⟩ := hv
    have hn : ¬ r.n_runs = 0 := by omega
    obtain ⟨rle, hrle⟩ : ∃ rle, r.runs[r.n_runs - 1]? = some rle :=
      ⟨_, List.getElem?_eq_getElem (by omega)⟩
    have hx : rle.value + rle.length < 65536 :=
      h4 rle (mem_of_getElem?_eq_some _ _ _ (getElem?_take_some _ _ _ _ hrle (by omega)))
    simp only [hn, if_false, hrle]
    have hor := highbits_or e.1 (rle.value + rle.length) hk hx
    refine ⟨_, rfl, rfl, rfl, ?_, ?_, rle.value + rle.length, ?_⟩
    · refine ⟨rfl, hci, e, he, hc.symm, highbits_eq _ hk, ?_⟩
      simp only
      refine ⟨by omega, rle, hrle, ?_, ?_⟩
      · rw [hor]; omega
      · rw [hor]; omega
    · unfold iterator_normal
      simp only
    · simp only [container_remaining, hrle]
      rw [hor, List.drop_eq_nil_of_le (by rw [List.length_take]; omega)]
      have e1 : e.1 * 65536 % 2 ^ 32 + (rle.value + rle.length) - e.1 * 65536 % 2 ^ 32
          = rle.value + rle.length := by omega
      have e2 : rle.value + rle.length + 1 - (rle.value + rle.length) = 1 := by omega
      rw [e1, e2]
      rfl
  | shared c =>
    rw [hc] at hv
    exact absurd hv (by simp [container_valid])

/-- An iterator that stands on the largest element of a valid bitmap, with its
unused fields 0, has only this value still to deliver. -/
theorem iterator_at_maximum (rb : roaring_bitmap_t container_t) (hv : iterator_valid rb)
    (it : roaring_uint32_iterator_t) (hp : it.parent = rb) (hpos : iterator_positioned it)
    (hn : iterator_normal it)
    (hmax : (roaring_elements rb).getLast? = some it.current_value) :
    iterator_remaining it = [it.current_value] := by
  obtain ⟨k, _, h2, h3⟩ := iterator_positioned_reachable rb hv it hp hpos hn it
  rw [List.getLast?_eq_getElem?] at hmax
  have hklt : k < (roaring_elements rb).length := (List.getElem?_eq_some.1 h2).1
  have hk : k = (roaring_elements rb).length - 1 := by
    rcases Nat.lt_trichotomy k ((roaring_elements rb).length - 1) with h | h | h
    · have := pairwise_getElem? _ _ (roaring_elements_sorted rb hv) _ _ _ _ h2 hmax h
      omega
    · exact h
    · omega
  rw [h3, drop_eq_cons_of_getElem? _ k _ h2, List.drop_eq_nil_of_le (by omega)]

/-- From behind the last container `roaring_previous_uint32_iterator` goes to
the last value of the last container. -/
theorem roaring_previous_uint32_iterator_from_end (rb : roaring_bitmap_t container_t)
    (hv : iterator_valid rb) (it : roaring_uint32_iterator_t) (hp : it.parent = rb)
    (hend : iterator_end it) :
    ∃ it2, roaring_previous_uint32_iterator it = some (true, it2) ∧ it2.parent = rb
      ∧ iterator_positioned it2 ∧ iterator_normal it2
      ∧ iterator_remaining it2 = [it2.current_value] := by
  obtain ⟨_, _, _, _, hci, e, he, _, _⟩ := hend
  rw [hp] at hci he
  have hlen : rb.high_low_container.length - 1 < rb.high_low_container.length :=
    (List.getElem?_eq_some.1 he).1
  have hmem : e ∈ rb.high_low_container := mem_of_getElem?_eq_some _ _ _ he
  have htn : ((rb.high_low_container.length : Int) - 1).toNat
      = rb.high_low_container.length - 1 := by omega
  obtain ⟨x, h1, h2, h3, h4, h5, low, h6⟩ := loadlastvalue_spec
    { it with container_index := (it.parent.high_low_container.length : Int) - 1 } e
    (by simp only [hp]; omega) (by simp only [hp, htn]; exact he) (hv.2.1 e hmem)
    (hv.2.2 e hmem)
  simp only at h2 h3
  have hrem : iterator_remaining x = [x.highbits + low] := by
    rw [iterator_remaining_positioned x h4.1, h6, h2, h3, hp, htn,
      List.drop_eq_nil_of_le (by omega)]
    rfl
  have hcv := ((iterator_state_of_remaining rb hv x (h2.trans hp) (Or.inl h4)).2 _ _ hrem).2
  unfold roaring_previous_uint32_iterator
  have hc1 : ¬ it.container_index < 0 := by rw [hci]; omega
  have hc2 : it.container_index ≥ (it.parent.high_low_container.length : Int) := by
    rw [hci, hp]
  rw [if_neg hc1, if_pos hc2]
  simp only [h1]
  rw [iterator_with_has_value x true h4.1]
  exact ⟨x, rfl, h2.trans hp, h4, h5, by rw [hrem, hcv]⟩

/-- Stepping off the upper end and back: from the largest element of a valid
bitmap `roaring_advance_uint32_iterator` returns false, and unless that element
is `UINT32_MAX` held in a run container the following
`roaring_previous_uint32_iterator` returns true and gives the iterator back as
it was. -/
theorem roaring_advance_previous_at_maximum (rb : roaring_bitmap_t container_t)
    (hv : iterator_valid rb) (it : roaring_uint32_iterator_t) (hp : it.parent = rb)
    (hpos : iterator_positioned it) (hn : iterator_normal it)
    (hmax : (roaring_elements rb).getLast? = some it.current_value) :
    ∃ it1, roaring_advance_uint32_iterator it = some (false, it1)
      ∧ (¬ ((∃ r, it.container = container_t.run r) ∧ it.current_value = UINT32_MAX) →
          roaring_previous_uint32_iterator it1 = some (true, it)) := by
  have hrem := iterator_at_maximum rb hv it hp hpos hn hmax
  obtain ⟨b, it1, h1, h2⟩ := roaring_advance_uint32_iterator_normal rb hv it hp hpos hn
  obtain ⟨b', it1', s1, s2, s3, s4, s5⟩ := roaring_advance_uint32_iterator_spec rb hv it hp hpos
  rw [h1] at s1
  simp only [Option.some.injEq, Prod.mk.injEq] at s1
  obtain ⟨s1a, s1b⟩ := s1
  subst s1a s1b
  rw [hrem] at s5
  have hnil : iterator_remaining it1 = [] := (List.cons.inj s5).2.symm
  have hb : b = false := by
    rcases s4 with ⟨g1, g2⟩ | ⟨g1, _⟩
    · obtain ⟨_, _, _, _, g5⟩ := roaring_advance_uint32_iterator_spec rb hv it1 s2 g2
      rw [hnil] at g5
      exact absurd g5 (by simp)
    · exact g1
  subst hb
  refine ⟨it1, h1, fun hcorner => ?_⟩
  rcases h2 with ⟨g, _⟩ | ⟨_, g⟩ | ⟨_, _, g1, g2⟩
  · exact absurd g (by simp)
  · obtain ⟨it2, e1, e2, e3, e4, e5⟩ := roaring_previous_uint32_iterator_from_end rb hv it1 s2 g
    obtain ⟨k2, _, k3, k4⟩ := iterator_positioned_reachable rb hv it2 e2 e3 e4 it2
    have hk2lt : k2 < (roaring_elements rb).length := (List.getElem?_eq_some.1 k3).1
    have hk2 : k2 = (roaring_elements rb).length - 1 := by
      have := congrArg List.length k4
      rw [e5, List.length_drop, List.length_singleton] at this
      omega
    rw [List.getLast?_eq_getElem?, ← hk2, k3] at hmax
    have hcv : it2.current_value = it.current_value := Option.some.inj hmax
    rw [e1, iterator_positioned_unique rb hv it2 it e2 hp e3 hpos e4 hn hcv]
  · exact absurd ⟨g2, g1⟩ hcorner

/-- Stepping off the lower end and back: from the smallest element of a valid
bitmap `roaring_previous_uint32_iterator` returns false, and unless that
element is 0 held in a run container the following
`roaring_advance_uint32_iterator` returns true and gives the iterator back as
it was. -/
theorem roaring_previous_advance_at_minimum (rb : roaring_bitmap_t container_t)
    (hv : iterator_valid rb) (it : roaring_uint32_iterator_t) (hp : it.parent = rb)
    (hpos : iterator_positioned it) (hn : iterator_normal it)
    (hmin : (roaring_elements rb)[0]? = some it.current_value) :
    ∃ it1, roaring_previous_uint32_iterator it = some (false, it1)
      ∧ (¬ ((∃ r, it.container = container_t.run r) ∧ it.current_value = 0) →
          roaring_advance_uint32_iterator it1 = some (true, it)) := by
  obtain ⟨_, h2, h3⟩ := iterator_at_minimum rb hv it hp hpos hn hmin it
  by_cases hcorner : (∃ r, it.container = container_t.run r) ∧ it.current_value = 0
  · obtain ⟨⟨r, hr⟩, h0⟩ := hcorner
    obtain ⟨hi1, hi2⟩ := iterator_positioned_index it hpos
    refine ⟨{ it with has_value := false }, ?_, fun h => absurd ⟨⟨r, hr⟩, h0⟩ h⟩
    unfold roaring_previous_uint32_iterator
    rw [if_neg hi2, if_neg hi1]
    simp only [hr, h0, if_true]
  · refine ⟨_, roaring_previous_uint32_iterator_first rb hv it hp hpos h2 h3 hcorner, fun _ => ?_⟩
    exact roaring_advance_uint32_iterator_from_before rb hv it hp hpos hn hmin

/-- C40: for every valid bitmap and every iterator that stands on an element
(its unused fields 0, as every function of the iterator leaves them): if the
element is the minimum, `roaring_previous_uint32_iterator` returns false and a
following `roaring_advance_uint32_iterator` returns true and gives back the
iterator on the minimum, unless the minimum is 0 held in a run container; if
the element is the maximum, `roaring_advance_uint32_iterator` returns false and
a following `roaring_previous_uint32_iterator` returns true and gives back the
iterator on the maximum, unless the maximum is `UINT32_MAX` held in a run
container.  The two exceptions are met: on the bitmap `{0, 1}` held in a run
container the two calls lead from 0 to 1, and on the bitmap `{4294967294,
4294967295}` held in a run container they lead from `UINT32_MAX` to
4294967294. -/
theorem roaring_previous_advance_lossless (rb : roaring_bitmap_t container_t)
    (hv : iterator_valid rb) (it : roaring_uint32_iterator_t) (hp : it.parent = rb)
    (hpos : iterator_positioned it) (hn : iterator_normal it) :
    ((roaring_elements rb)[0]? = some it.current_value →
      ∃ it1, roaring_previous_uint32_iterator it = some (false, it1)
        ∧ (¬ ((∃ r, it.container = container_t.run r) ∧ it.current_value = 0) →
            roaring_advance_uint32_iterator it1 = some (true, it)))
    ∧ ((roaring_elements rb).getLast? = some it.current_value →
      ∃ it1, roaring_advance_uint32_iterator it = some (false, it1)
        ∧ (¬ ((∃ r, it.container = container_t.run r) ∧ it.current_value = UINT32_MAX) →
            roaring_previous_uint32_iterator it1 = some (true, it)))
    ∧ roaring_previous_uint32_iterator
          ⟨zero_run_bitmap, 0, 0, 0, 0, true, .run ⟨1, 1, [⟨0, 1⟩]⟩, 0⟩
        = some (false, ⟨zero_run_bitmap, 0, 0, 0, 0, false, .run ⟨1, 1, [⟨0, 1⟩]⟩, 0⟩)
    ∧ roaring_advance_uint32_iterator
          ⟨zero_run_bitmap, 0, 0, 0, 0, false, .run ⟨1, 1, [⟨0, 1⟩]⟩, 0⟩
        = some (true, ⟨zero_run_bitmap, 0, 0, 0, 1, true, .run ⟨1, 1, [⟨0, 1⟩]⟩, 0⟩)
    ∧ roaring_advance_uint32_iterator
          ⟨top_run_bitmap, 0, 0, 0, 4294967295, true, .run ⟨1, 1, [⟨65534, 1⟩]⟩, 4294901760⟩
        = some (false,
            ⟨top_run_bitmap, 0, 0, 0, 4294967295, false, .run ⟨1, 1, [⟨65534, 1⟩]⟩,
              4294901760⟩)
    ∧ roaring_previous_uint32_iterator
          ⟨top_run_bitmap, 0, 0, 0, 4294967295, false, .run ⟨1, 1, [⟨65534, 1⟩]⟩,
            4294901760⟩
        = some (true,
            ⟨top_run_bitmap, 0, 0, 0, 4294967294, true, .run ⟨1, 1, [⟨65534, 1⟩]⟩,
              4294901760⟩) :=
  ⟨roaring_previous_advance_at_minimum rb hv it hp hpos hn,
    roaring_advance_previous_at_maximum rb hv it hp hpos hn, rfl, rfl, rfl, rfl⟩

/-- C40, witness: stepping off the lower end and back on the bitmap
`{4294967294, 4294967295}` held in a run container, whose minimum is not 0. -/
theorem roaring_previous_advance_lossless_witness :
    iterator_valid top_run_bitmap
    ∧ iterator_positioned
        ⟨top_run_bitmap, 0, 0, 0, 4294967294, true, .run ⟨1, 1, [⟨65534, 1⟩]⟩, 4294901760⟩
    ∧ iterator_normal
        ⟨top_run_bitmap, 0, 0, 0, 4294967294, true, .run ⟨1, 1, [⟨65534, 1⟩]⟩, 4294901760⟩
    ∧ (roaring_elements top_run_bitmap)[0]? = some 4294967294
    ∧ ∃ it1, roaring_previous_uint32_iterator
          ⟨top_run_bitmap, 0, 0, 0, 4294967294, true, .run ⟨1, 1, [⟨65534, 1⟩]⟩, 4294901760⟩
        = some (false, it1)
      ∧ roaring_advance_uint32_iterator it1
        = some (true,
            ⟨top_run_bitmap, 0, 0, 0, 4294967294, true, .run ⟨1, 1, [⟨65534, 1⟩]⟩,
              4294901760⟩) :=
  ⟨top_run_bitmap_valid,
    ⟨rfl, by decide, (65535, .run ⟨1, 1, [⟨65534, 1⟩]⟩), rfl, rfl, rfl, by decide,
      ⟨65534, 1⟩, rfl, by decide, by decide⟩,
    rfl, rfl,
    ((roaring_previous_advance_lossless top_run_bitmap top_run_bitmap_valid
      ⟨top_run_bitmap, 0, 0, 0, 4294967294, true, .run ⟨1, 1, [⟨65534, 1⟩]⟩, 4294901760⟩ rfl
      ⟨rfl, by decide, (65535, .run ⟨1, 1, [⟨65534, 1⟩]⟩), rfl, rfl, rfl, by decide,
        ⟨65534, 1⟩, rfl, by decide, by decide⟩
      rfl).1 rfl).imp
      (fun _ h => ⟨h.1, h.2 (fun hc => absurd hc.2 (by decide))⟩)⟩

end CRoaring
